import Mathlib

/-!
# ExaML-POMO likelihood kernel: traversal descriptor, newview and evaluate

A shallow embedding of the parts of `newviewGenericSpecial.c` and
`evaluateGenericSpecial.c` that build the traversal descriptor, recompute
conditional likelihood vectors and evaluate the log likelihood at the virtual
root, together with the properties proved about them.

Conventions of the embedding.

* A `nodeptr` is an index into a heap of `node` records (`Nat → node K`).
* `double` values are elements of a linearly ordered field `K` (exact
  arithmetic); `EXP`, `LOG` and the constants of `axml.h` are parameters.
* `unsigned int` counters are natural numbers reduced modulo `2^32`.
* The traversal array `ti` together with its length counter is the list of its
  first `count` entries: `ti[*counter] = e; *counter = *counter + 1` appends.
* Recursion over the pointer graph takes a fuel argument; running out of fuel
  and a failed `assert` are the two faults a run can end in.
-/

set_option autoImplicit false

namespace ExaML

/-! ## Data model -/

/-- Tip cases of a traversal descriptor entry (`axml.h`). -/
inductive tipCases where
  | TIP_TIP
  | TIP_INNER
  | INNER_INNER
  | TIP_TIP_CLV
  | TIP_INNER_CLV
  deriving DecidableEq, Repr

/-- One record of the cyclic triple that represents an inner node (a tip has a
single record): `number`, `next`, `back`, the orientation flag `x` and the
branch length array `z`. -/
structure node (K : Type) where
  number : Nat
  next : Nat
  back : Nat
  x : Bool
  z : Nat → K

/-- The node records, addressed by `nodeptr`. -/
abbrev heap (K : Type) := Nat → node K

/-- One entry of the traversal descriptor. `qz` and `rz` hold the
`numBranches` branch lengths that were copied into the entry. -/
structure traversalInfo (K : Type) where
  tipCase : tipCases
  pNumber : Nat
  qNumber : Nat
  rNumber : Nat
  qz : List K
  rz : List K
  deriving DecidableEq

/-- The two ways a run can stop without a result. -/
inductive Fault where
  | outOfFuel
  | assertion
  | nullPointer
  deriving DecidableEq, Repr

/-- The models of rate heterogeneity (`axml.h`). -/
inductive rateHet where
  | CAT
  | GAMMA
  | PLAIN
  deriving DecidableEq, Repr

/-- Modelled from the spec: `isTip` is declared outside the given sources. Tips
are the nodes numbered `1 .. maxTips`; inner nodes carry the numbers above
`maxTips` (the kernels address inner vectors by `number - maxTips - 1`). -/
def isTip (number maxTips : Nat) : Bool := decide (number ≤ maxTips)

/-- Modelled from the spec: `getxnode` is declared outside the given sources.
It makes `p` the oriented record of its node: `p->x` is set and `x` is cleared
on the other two records `p->next` and `p->next->next`. -/
def getxnode {K : Type} (h : heap K) (p : Nat) : heap K :=
  let s1 := (h p).next
  let s2 := (h s1).next
  fun i =>
    if i = p then { h i with x := true }
    else if i = s1 ∨ i = s2 then { h i with x := false }
    else h i

/-- The branch lengths `z[0 .. numBranches-1]` copied by the loop
`for(i = 0; i < numBranches; i++) ti[*counter].qz[i] = q->z[i]`. -/
def copyBranches {K : Type} (numBranches : Nat) (z : Nat → K) : List K :=
  (List.range numBranches).map z

/-- The entry written at `ti[*counter]` for the triplet `p, q, r`. -/
def mkEntry {K : Type} (numBranches : Nat) (h : heap K) (tc : tipCases) (p q r : Nat) :
    traversalInfo K :=
  { tipCase := tc
    pNumber := (h p).number
    qNumber := (h q).number
    rNumber := (h r).number
    qz := copyBranches numBranches (h q).z
    rz := copyBranches numBranches (h r).z }

/-- The step `if(!p->x) getxnode(p);`. -/
def orient {K : Type} (h : heap K) (p : Nat) : heap K :=
  if (h p).x then h else getxnode h p

/-- Embedding of `computeTraversalInfo` (newviewGenericSpecial.c). The state
is the heap of node records (whose `x` flags `getxnode` changes) and the
descriptor entries written so far. -/
def computeTraversalInfo {K : Type} (maxTips numBranches : Nat) (partialTraversal : Bool) :
    Nat → heap K → Nat → List (traversalInfo K) →
      Except Fault (heap K × List (traversalInfo K))
  | 0, _, _, _ => .error .outOfFuel
  | fuel + 1, h, p, ti =>
    if isTip (h p).number maxTips then .ok (h, ti)
    else
      let q := (h (h p).next).back
      let r := (h (h (h p).next).next).back
      if isTip (h r).number maxTips && isTip (h q).number maxTips then
        let h1 := orient h p
        if (h1 p).x then
          .ok (h1, ti ++ [mkEntry numBranches h1 .TIP_TIP p q r])
        else .error .assertion
      else if isTip (h r).number maxTips || isTip (h q).number maxTips then
        let q1 := if isTip (h r).number maxTips then r else q
        let r1 := if isTip (h r).number maxTips then q else r
        match (if !(h r1).x || !partialTraversal then
                computeTraversalInfo maxTips numBranches partialTraversal fuel h r1 ti
              else .ok (h, ti)) with
        | .error e => .error e
        | .ok (h1, ti1) =>
          let h2 := orient h1 p
          if (h2 p).x && (h2 r1).x then
            .ok (h2, ti1 ++ [mkEntry numBranches h2 .TIP_INNER p q1 r1])
          else .error .assertion
      else
        match (if !(h q).x || !partialTraversal then
                computeTraversalInfo maxTips numBranches partialTraversal fuel h q ti
              else .ok (h, ti)) with
        | .error e => .error e
        | .ok (h1, ti1) =>
          match (if !(h1 r).x || !partialTraversal then
                  computeTraversalInfo maxTips numBranches partialTraversal fuel h1 r ti1
                else .ok (h1, ti1)) with
          | .error e => .error e
          | .ok (h2, ti2) =>
            let h3 := orient h2 p
            if (h3 p).x && (h3 r).x && (h3 q).x then
              .ok (h3, ti2 ++ [mkEntry numBranches h3 .INNER_INNER p q r])
            else .error .assertion

/-- Entry 0 of the descriptor as `evaluateGeneric` fills it for the branch
between `p` and `q = p->back`: `pNumber`, `qNumber` and `qz` are written, the
other fields keep the previous content `ti0` of `ti[0]`. -/
def rootEntry {K : Type} (numBranches : Nat) (h : heap K) (p : Nat) (ti0 : traversalInfo K) :
    traversalInfo K :=
  { ti0 with
    pNumber := (h p).number
    qNumber := (h (h p).back).number
    qz := copyBranches numBranches (h (h p).back).z }

/-- The traversal part of `evaluateGeneric` (evaluateGenericSpecial.c): entry 0
of the descriptor receives the numbers of `p` and `q = p->back` and the branch
between them (`ti0` is the previous content of `ti[0]`, whose other fields are
left as they are), the counter is set to 1 and the traversal is computed,
either in full from `q` (where `p` is asserted to be a tip) or partially from
both ends of the branch. -/
def evaluateGenericTraversal {K : Type} (maxTips numBranches : Nat) (fullTraversal : Bool)
    (fuel : Nat) (h : heap K) (p : Nat) (ti0 : traversalInfo K) :
    Except Fault (heap K × List (traversalInfo K)) :=
  let q := (h p).back
  let e0 := rootEntry numBranches h p ti0
  if fullTraversal then
    if isTip (h p).number maxTips then
      computeTraversalInfo maxTips numBranches false fuel h q [e0]
    else .error .assertion
  else
    match (if !(h p).x then computeTraversalInfo maxTips numBranches true fuel h p [e0]
           else .ok (h, [e0])) with
    | .error e => .error e
    | .ok (h1, ti1) =>
      if !(h1 q).x then computeTraversalInfo maxTips numBranches true fuel h1 q ti1
      else .ok (h1, ti1)

/-- The node numbers named as `pNumber` by the entries `1 .. count-1` of a
descriptor. -/
def namedNodes {K : Type} (ti : List (traversalInfo K)) : List Nat :=
  ti.tail.map (fun e => e.pNumber)

/-! ## Trees laid out in the heap

The properties of the traversal are stated for heaps that hold a binary tree.
`Topo` is the shape of the subtree seen from a record that faces the virtual
root: `tip p` is the single record of a tip, `inner p l r` an inner node whose
root-facing record is `p` and whose children hang below `p->next->back` and
`p->next->next->back`. -/

/-- Shape of a subtree, labelled with the root-facing record of every node. -/
inductive Topo where
  | tip (p : Nat)
  | inner (p : Nat) (l r : Topo)
  deriving DecidableEq, Repr

/-- The root-facing record of the subtree. -/
def Topo.root : Topo → Nat
  | .tip p => p
  | .inner p _ _ => p

/-- Whether the subtree is an inner node. -/
def Topo.isInner : Topo → Bool
  | .tip _ => false
  | .inner _ _ _ => true

/-- Height of the subtree (a tip has height 0). -/
def Topo.height : Topo → Nat
  | .tip _ => 0
  | .inner _ l r => max l.height r.height + 1

/-- Number of tips of the subtree. -/
def Topo.tipCount : Topo → Nat
  | .tip _ => 1
  | .inner _ l r => l.tipCount + r.tipCount

/-- The inner nodes of the subtree, as subtrees. -/
def Topo.innerNodes : Topo → List Topo
  | .tip _ => []
  | .inner p l r => l.innerNodes ++ r.innerNodes ++ [.inner p l r]

/-- All records of the subtree: one per tip, the ring of three per inner node. -/
def Topo.records {K : Type} (h : heap K) : Topo → List Nat
  | .tip p => [p]
  | .inner p l r => p :: (h p).next :: (h (h p).next).next :: (l.records h ++ r.records h)

/-- The node numbers of the subtree, tips included. -/
def Topo.numbers {K : Type} (h : heap K) : Topo → List Nat
  | .tip p => [(h p).number]
  | .inner p l r => (h p).number :: (l.numbers h ++ r.numbers h)

/-- The heap holds the subtree `t`: tips are numbered as tips, inner nodes as
inner nodes, and the `next`/`back` pointers of every inner node lead to the
root-facing records of its two children. -/
def Shape {K : Type} (h : heap K) (maxTips : Nat) : Topo → Prop
  | .tip p => isTip (h p).number maxTips = true
  | .inner p l r =>
      isTip (h p).number maxTips = false ∧
      (h (h p).next).back = l.root ∧
      (h (h (h p).next).next).back = r.root ∧
      Shape h maxTips l ∧ Shape h maxTips r

/-- A well-formed subtree: the heap holds it, no record is shared between two
nodes or used twice, and node numbers are pairwise distinct. -/
structure WellFormed {K : Type} (h : heap K) (maxTips : Nat) (t : Topo) : Prop where
  shape : Shape h maxTips t
  records_nodup : (t.records h).Nodup
  numbers_nodup : (t.numbers h).Nodup

/-- Two heaps with the same pointers, numbers and branch lengths (they may
differ in the orientation flags only). -/
def SameTopo {K : Type} (h h' : heap K) : Prop :=
  ∀ i, (h' i).number = (h i).number ∧ (h' i).next = (h i).next ∧
    (h' i).back = (h i).back ∧ (h' i).z = (h i).z

/-- Whether the traversal descends into the child `c`:
`!c->x || !partialTraversal`. -/
def descend {K : Type} (partialTraversal : Bool) (h : heap K) (c : Topo) : Bool :=
  !(h c.root).x || !partialTraversal

/-- The inner nodes for which the traversal started at the root of `t` writes
an entry, in the order of writing, read off the orientation flags of `h`. -/
def visit {K : Type} (partialTraversal : Bool) (h : heap K) : Topo → List Topo
  | .tip _ => []
  | .inner p l r =>
      (if descend partialTraversal h l then visit partialTraversal h l else []) ++
      (if descend partialTraversal h r then visit partialTraversal h r else []) ++
      [.inner p l r]

/-- The nodes visited below a child: those of `visit` when the traversal
descends into the child, none otherwise. -/
def visitIf {K : Type} (partialTraversal : Bool) (h : heap K) (c : Topo) : List Topo :=
  if descend partialTraversal h c then visit partialTraversal h c else []

/-- The descriptor entry of an inner node: its tip case, the numbers of the
node and of its two children (the tip first when exactly one child is a tip)
and the two branch lengths. -/
def entryOf {K : Type} (numBranches : Nat) (h : heap K) : Topo → traversalInfo K
  | .tip p => mkEntry numBranches h .TIP_TIP p p p
  | .inner p (.tip a) (.tip b) => mkEntry numBranches h .TIP_TIP p a b
  | .inner p (.tip a) (.inner b _ _) => mkEntry numBranches h .TIP_INNER p a b
  | .inner p (.inner a _ _) (.tip b) => mkEntry numBranches h .TIP_INNER p b a
  | .inner p (.inner a _ _) (.inner b _ _) => mkEntry numBranches h .INNER_INNER p a b

/-- Orientation of a written entry: the root-facing record of the node has `x`
set and so has the root-facing record of each inner child. -/
def Oriented {K : Type} (h : heap K) : Topo → Prop
  | .tip _ => True
  | .inner p l r =>
      (h p).x = true ∧ (l.isInner = true → (h l.root).x = true) ∧
        (r.isInner = true → (h r.root).x = true)

/-- The node number of the root of a subtree. -/
def Topo.number {K : Type} (h : heap K) (t : Topo) : Nat := (h t.root).number

/-- The two children of an inner node (a tip has none). -/
def Topo.children : Topo → List Topo
  | .tip _ => []
  | .inner _ l r => [l, r]

/-- The numbers of the inner nodes of a subtree. -/
def Topo.innerNumbers {K : Type} (h : heap K) (t : Topo) : List Nat :=
  t.innerNodes.map (fun s => s.number h)

/-- The heap holds an unrooted tree cut at the branch between the records `p`
and `q = p->back`: the subtree `tp` hangs below `p`, the subtree `tq` below
`q`, no record and no node number occurs twice. -/
structure BranchWellFormed {K : Type} (h : heap K) (maxTips p : Nat) (tp tq : Topo) : Prop where
  root_p : tp.root = p
  root_q : tq.root = (h p).back
  shape_p : Shape h maxTips tp
  shape_q : Shape h maxTips tq
  records_nodup : (tp.records h ++ tq.records h).Nodup
  numbers_nodup : (tp.numbers h ++ tq.numbers h).Nodup

/-- The numbers of the inner nodes of `t` whose `x` flag toward the root of `t`
is not set. -/
def unorientedInner {K : Type} (h : heap K) (t : Topo) : List Nat :=
  (t.innerNodes.filter (fun s => !(h s.root).x)).map (fun s => s.number h)

/-- The inner node `s` is reached from the root of `t` through nodes whose `x`
flag toward the root is not set: neither `s` nor any node on the path from the
root of `t` to `s` is oriented. -/
inductive Chain {K : Type} (h : heap K) : Topo → Topo → Prop where
  | here (p : Nat) (l r : Topo) : (h p).x = false → Chain h (.inner p l r) (.inner p l r)
  | left (p : Nat) (l r s : Topo) : (h p).x = false → Chain h l s → Chain h (.inner p l r) s
  | right (p : Nat) (l r s : Topo) : (h p).x = false → Chain h r s → Chain h (.inner p l r) s

/-- An example heap: the tree `(1, 2, (3, 4))` with four tips (records and
numbers 1 to 4) and two inner nodes, number 5 (records 5, 6, 7 facing tip 1,
tip 2 and node 6) and number 6 (records 8, 9, 10 facing node 5, tip 3 and
tip 4). Record 0 stands for the null pointer. `xs` lists the records whose
`x` flag is set; every branch has length 1/10. -/
def exHeap (xs : List Nat) : heap ℚ := fun i =>
  { number := [0, 1, 2, 3, 4, 5, 5, 5, 6, 6, 6].getD i 0
    next := [0, 0, 0, 0, 0, 6, 7, 5, 9, 10, 8].getD i 0
    back := [0, 5, 6, 9, 10, 1, 2, 8, 7, 3, 4].getD i 0
    x := decide (i ∈ xs)
    z := fun _ => 1 / 10 }

/-- The example tree seen from tip 1: the subtree below record 5. -/
def exTree : Topo := .inner 5 (.tip 2) (.inner 8 (.tip 3) (.tip 4))

/-- What a traversal below the subtree `t` that visits the nodes `vs` leaves
behind: the entries of `vs` appended to the descriptor, pointers and numbers
untouched, records outside `t` untouched, the root of an inner `t` oriented
and every visited node oriented together with its inner children. -/
def TraversalResult {K : Type} (nb : Nat) (h : heap K) (ti : List (traversalInfo K))
    (t : Topo) (vs : List Topo) (res : Except Fault (heap K × List (traversalInfo K))) : Prop :=
  ∃ h', res = .ok (h', ti ++ vs.map (entryOf nb h)) ∧ SameTopo h h' ∧
    (∀ i, i ∉ t.records h → h' i = h i) ∧
    (t.isInner = true → (h' t.root).x = true) ∧
    (∀ s ∈ vs, Oriented h' s)

/-! ## Numerical kernels

Arrays of `double` are functions `Nat → K`; a pointer into an array is the
array together with an offset. The constants and the two transcendental
functions come from `axml.h` and `math.h` and are parameters. -/

/-- The constants `minlikelihood`, `twotothe256`, `zmin` of `axml.h` and the
functions behind the macros `EXP` and `LOG`. -/
structure consts (K : Type) where
  EXP : K → K
  LOG : K → K
  minlikelihood : K
  twotothe256 : K
  zmin : K

/-- The loop `for(i = 0; i < n; i++) body`, threading the state `σ`. -/
def forLoop {σ : Type} (n : Nat) (body : Nat → σ → σ) (init : σ) : σ :=
  (List.range n).foldl (fun s i => body i s) init

/-- The loop `for(i = lo; i < hi; i++) body`, threading the state `σ`. -/
def forLoopFrom {σ : Type} (lo hi : Nat) (body : Nat → σ → σ) (init : σ) : σ :=
  (List.range' lo (hi - lo)).foldl (fun s i => body i s) init

/-- The assignment `a[i] = v`. -/
def store {K : Type} (a : Nat → K) (i : Nat) (v : K) : Nat → K :=
  fun j => if j = i then v else a j

/-- The macro `ABS(x)`, also `fabs`. -/
def ABS {K : Type} [LinearOrderedField K] (x : K) : K := if x < 0 then -x else x

/-- Embedding of `calcDiagptable` (evaluateGenericSpecial.c): the diagonal of
the P matrix at the root branch for every rate category. -/
def calcDiagptable {K : Type} [LinearOrderedField K] (c : consts K) (z : K)
    (states numberOfCategories : Nat) (rptr EIGN diagptable : Nat → K) : Nat → K :=
  let lz := if z < c.zmin then c.LOG c.zmin else c.LOG z
  let lza : Nat → K := fun i => EIGN i * lz
  forLoop numberOfCategories (fun i d =>
    let d := store d (i * states) 1
    forLoopFrom 1 states (fun l d => store d (i * states + l) (c.EXP (rptr i * lza l))) d)
    diagptable

/-- Embedding of `calcDiagptableFlex_LG4` (evaluateGenericSpecial.c). -/
def calcDiagptableFlex_LG4 {K : Type} [LinearOrderedField K] (c : consts K) (z : K)
    (numberOfCategories : Nat) (rptr : Nat → K) (EIGN : Nat → Nat → K)
    (diagptable : Nat → K) (numStates : Nat) : Nat → K :=
  let lz := if z < c.zmin then c.LOG c.zmin else c.LOG z
  forLoop numberOfCategories (fun i d =>
    let d := store d (i * numStates + 0) 1
    forLoopFrom 1 numStates
      (fun l d => store d (i * numStates + l) (c.EXP (rptr i * EIGN i l * lz))) d)
    diagptable

/-- Embedding of `evaluateGAMMA_FLEX` (evaluateGenericSpecial.c). `tipX1` is
`none` for the null pointer. -/
def evaluateGAMMA_FLEX {K : Type} [LinearOrderedField K] (c : consts K) (wptr : Nat → Int)
    (x1_start x2_start tipVector : Nat → K) (tipX1 : Option (Nat → Nat)) (n : Nat)
    (diagptable : Nat → K) (states : Nat) : K :=
  let span := states * 4
  match tipX1 with
  | some tipX1 =>
    forLoop n (fun i sum =>
      let x1 : Nat → K := fun k => tipVector (states * tipX1 i + k)
      let x2 : Nat → K := fun k => x2_start (span * i + k)
      let term := forLoop 4 (fun j term =>
        forLoop states (fun k term =>
          term + x1 k * x2 (j * states + k) * diagptable (j * states + k)) term) 0
      let term := c.LOG (0.25 * ABS term)
      sum + (wptr i : K) * term) 0
  | none =>
    forLoop n (fun i sum =>
      let x1 : Nat → K := fun k => x1_start (span * i + k)
      let x2 : Nat → K := fun k => x2_start (span * i + k)
      let term := forLoop 4 (fun j term =>
        forLoop states (fun k term =>
          term + x1 (j * states + k) * x2 (j * states + k) * diagptable (j * states + k))
          term) 0
      let term := c.LOG (0.25 * ABS term)
      sum + (wptr i : K) * term) 0

/-- Embedding of `evaluateCAT_FLEX` (evaluateGenericSpecial.c). -/
def evaluateCAT_FLEX {K : Type} [LinearOrderedField K] (c : consts K) (cptr : Nat → Nat)
    (wptr : Nat → Int) (x1 x2 tipVector : Nat → K) (tipX1 : Option (Nat → Nat)) (n : Nat)
    (diagptable_start : Nat → K) (states : Nat) : K :=
  match tipX1 with
  | some tipX1 =>
    forLoop n (fun i sum =>
      let left : Nat → K := fun l => tipVector (states * tipX1 i + l)
      let right : Nat → K := fun l => x2 (states * i + l)
      let diagptable : Nat → K := fun l => diagptable_start (states * cptr i + l)
      let term := forLoop states (fun l term => term + left l * right l * diagptable l) 0
      let term := c.LOG (ABS term)
      sum + (wptr i : K) * term) 0
  | none =>
    forLoop n (fun i sum =>
      let left : Nat → K := fun l => x1 (states * i + l)
      let right : Nat → K := fun l => x2 (states * i + l)
      let diagptable : Nat → K := fun l => diagptable_start (states * cptr i + l)
      let term := forLoop states (fun l term => term + left l * right l * diagptable l) 0
      let term := c.LOG (ABS term)
      sum + (wptr i : K) * term) 0

/-- The pointer `&a[base]`, read as an array of its own. -/
def slice {K : Type} (a : Nat → K) (base : Nat) : Nat → K := fun l => a (base + l)

/-- The array `a` after the cells `base .. base+len-1` have been written
through a pointer `v = &a[base]`: they hold `v[0 .. len-1]`. -/
def blit {K : Type} (a : Nat → K) (base len : Nat) (v : Nat → K) : Nat → K :=
  fun j => if base ≤ j ∧ j < base + len then v (j - base) else a j

/-- The value `minusminlikelihood` of `axml.h`. -/
def consts.minusminlikelihood {K : Type} [LinearOrderedField K] (c : consts K) : K :=
  -c.minlikelihood

/-- One category of one P matrix as `makeP` fills it (the matrices `left` and
`right` are filled by the same loops, from `d1` and `d2`): for every state `j`
the entry `[i, j, 0]` is 1 and the entries `[i, j, k]`, `k ≥ 1`, are
`d[k] * EI[states * j + k]`. -/
def fillP {K : Type} [LinearOrderedField K] (states i : Nat) (d EI : Nat → K) (P : Nat → K) :
    Nat → K :=
  let statesSquare := states * states
  forLoop states (fun j P =>
    let P := store P (statesSquare * i + states * j) 1
    forLoopFrom 1 states (fun k P =>
      store P (statesSquare * i + states * j + k) (d k * EI (states * j + k))) P) P

/-- One of the two P matrices of `makeP`, for the (logarithm of the) branch
length `z`. The local arrays `lz`, `d` are read at indices `1 .. states-1`. -/
def makePOne {K : Type} [LinearOrderedField K] (c : consts K) (z : K) (rptr EI EIGN : Nat → K)
    (numberOfCategories : Nat) (P : Nat → K) (saveMem : Bool) (maxCat states : Nat) :
    Nat → K :=
  let lz : Nat → K := fun i => EIGN i * z
  let P := forLoop numberOfCategories (fun i P =>
    fillP states i (fun j => c.EXP (rptr i * lz j)) EI P) P
  if saveMem then fillP states maxCat (fun j => c.EXP (lz j)) EI P else P

/-- Embedding of `makeP` (newviewGenericSpecial.c): the P matrices `left` and
`right` for the (logarithms of the) two branch lengths `z1`, `z2`. -/
def makeP {K : Type} [LinearOrderedField K] (c : consts K) (z1 z2 : K) (rptr EI EIGN : Nat → K)
    (numberOfCategories : Nat) (left right : Nat → K) (saveMem : Bool) (maxCat states : Nat) :
    (Nat → K) × (Nat → K) :=
  (makePOne c z1 rptr EI EIGN numberOfCategories left saveMem maxCat states,
   makePOne c z2 rptr EI EIGN numberOfCategories right saveMem maxCat states)

/-- One of the two P matrices of `makeP_FlexLG4`. -/
def makePOne_FlexLG4 {K : Type} [LinearOrderedField K] (c : consts K) (z : K) (rptr : Nat → K)
    (EI EIGN : Nat → Nat → K) (numberOfCategories : Nat) (P : Nat → K) (numStates : Nat) :
    Nat → K :=
  forLoop numberOfCategories (fun i P =>
    fillP numStates i (fun j => c.EXP (rptr i * EIGN i j * z)) (EI i) P) P

/-- Embedding of `makeP_FlexLG4` (newviewGenericSpecial.c). -/
def makeP_FlexLG4 {K : Type} [LinearOrderedField K] (c : consts K) (z1 z2 : K) (rptr : Nat → K)
    (EI EIGN : Nat → Nat → K) (numberOfCategories : Nat) (left right : Nat → K)
    (numStates : Nat) : Except Fault ((Nat → K) × (Nat → K)) :=
  if numStates ≤ 64 then
    .ok (makePOne_FlexLG4 c z1 rptr EI EIGN numberOfCategories left numStates,
         makePOne_FlexLG4 c z2 rptr EI EIGN numberOfCategories right numStates)
  else .error .assertion

/-- The accumulation `acc = 0; for(j = 0; j < states; j++) acc += a[j] * b[j]`. -/
def dot {K : Type} [LinearOrderedField K] (states : Nat) (a b : Nat → K) : K :=
  forLoop states (fun j acc => acc + a j * b j) 0

/-- The block shared by all cases of the generic newview kernels, writing
through the pointer `v`:
`for(l..) v[l] = 0; for(l..) { x1px2 = w l; for(j..) v[j] += x1px2 * extEV[states * l + j]; }`. -/
def evProduct {K : Type} [LinearOrderedField K] (states : Nat) (extEV : Nat → K) (w : Nat → K)
    (v : Nat → K) : Nat → K :=
  let v := forLoop states (fun l v => store v l 0) v
  forLoop states (fun l v =>
    let x1px2 := w l
    forLoop states (fun j v => store v j (v j + x1px2 * extEV (states * l + j))) v) v

/-- The scaling test of `newviewCAT_FLEX`:
`for(l = 0; scale && (l < states); l++) scale = ((v[l] < minlikelihood) && (v[l] > minusminlikelihood))`. -/
def scaleTestCAT {K : Type} [LinearOrderedField K] (c : consts K) (states : Nat) (v : Nat → K) :
    Bool :=
  (List.range states).all (fun l => decide (v l < c.minlikelihood ∧ v l > c.minusminlikelihood))

/-- The scaling test of `newviewGAMMA_FLEX`:
`for(l = 0; scale && (l < span); l++) scale = (ABS(v[l]) < minlikelihood)`. -/
def scaleTestGAMMA {K : Type} [LinearOrderedField K] (c : consts K) (span : Nat) (v : Nat → K) :
    Bool :=
  (List.range span).all (fun l => decide (ABS (v l) < c.minlikelihood))

/-- The loop `for(l = 0; l < len; l++) v[l] *= twotothe256`. -/
def scaleUp {K : Type} [LinearOrderedField K] (c : consts K) (len : Nat) (v : Nat → K) : Nat → K :=
  forLoop len (fun l v => store v l (v l * c.twotothe256)) v

/-- Row `i` of `newviewCAT_FLEX` before scaling, written through
`v = &x3[states * i]`; `vl`, `vr` are the two input rows. -/
def rowCAT {K : Type} [LinearOrderedField K] (states : Nat) (extEV le ri vl vr : Nat → K)
    (v : Nat → K) : Nat → K :=
  evProduct states extEV (fun l =>
    let ump_x1 := dot states vl (slice le (l * states))
    let ump_x2 := dot states vr (slice ri (l * states))
    ump_x1 * ump_x2) v

/-- Embedding of `newviewCAT_FLEX` (newviewGenericSpecial.c). The result is the
vector `x3` and the value stored in `*scalerIncrement`. -/
def newviewCAT_FLEX {K : Type} [LinearOrderedField K] (c : consts K) (tipCase : tipCases)
    (extEV : Nat → K) (cptr : Nat → Nat) (x1 x2 x3 tipVector : Nat → K)
    (tipX1 tipX2 : Nat → Nat) (n : Nat) (left right : Nat → K) (wgt : Nat → Int)
    (states : Nat) : Except Fault ((Nat → K) × Int) :=
  let statesSquare := states * states
  match tipCase with
  | .TIP_TIP =>
    .ok (forLoop n (fun i (s : (Nat → K) × Int) =>
      let le := slice left (cptr i * statesSquare)
      let ri := slice right (cptr i * statesSquare)
      let vl := slice tipVector (states * tipX1 i)
      let vr := slice tipVector (states * tipX2 i)
      let v := rowCAT states extEV le ri vl vr (slice s.1 (states * i))
      (blit s.1 (states * i) states v, s.2)) (x3, 0))
  | .TIP_INNER =>
    .ok (forLoop n (fun i (s : (Nat → K) × Int) =>
      let le := slice left (cptr i * statesSquare)
      let ri := slice right (cptr i * statesSquare)
      let vl := slice tipVector (states * tipX1 i)
      let vr := slice x2 (states * i)
      let v := rowCAT states extEV le ri vl vr (slice s.1 (states * i))
      if scaleTestCAT c states v then
        (blit s.1 (states * i) states (scaleUp c states v), s.2 + wgt i)
      else (blit s.1 (states * i) states v, s.2)) (x3, 0))
  | .INNER_INNER =>
    .ok (forLoop n (fun i (s : (Nat → K) × Int) =>
      let le := slice left (cptr i * statesSquare)
      let ri := slice right (cptr i * statesSquare)
      let vl := slice x1 (states * i)
      let vr := slice x2 (states * i)
      let v := rowCAT states extEV le ri vl vr (slice s.1 (states * i))
      if scaleTestCAT c states v then
        (blit s.1 (states * i) states (scaleUp c states v), s.2 + wgt i)
      else (blit s.1 (states * i) states v, s.2)) (x3, 0))
  | _ => .error .assertion

/-- The lookup table `umpX` of `newviewGAMMA_FLEX`: for every tip state
`i < maxStateValue` and every `k < span` the product of the tip vector of `i`
with row `k` of the P matrices `P`. The freshly allocated table is taken to
hold zeros. -/
def precomputeTips {K : Type} [LinearOrderedField K] (states span maxStateValue : Nat)
    (tipVector P : Nat → K) : Nat → K :=
  forLoop maxStateValue (fun i ump =>
    let v := slice tipVector (states * i)
    forLoop span (fun k ump =>
      let ump := store ump (span * i + k) 0
      forLoop states (fun l ump =>
        store ump (span * i + k) (ump (span * i + k) + v l * P (k * states + l))) ump) ump)
    (fun _ => 0)

/-- Row `i` of `newviewGAMMA_FLEX` before scaling in the case `TIP_TIP`. -/
def rowGAMMA_TIP_TIP {K : Type} [LinearOrderedField K] (states : Nat) (extEV uX1 uX2 : Nat → K)
    (row : Nat → K) : Nat → K :=
  forLoop 4 (fun j row =>
    blit row (j * states) states
      (evProduct states extEV (fun k => uX1 (j * states + k) * uX2 (j * states + k))
        (slice row (j * states)))) row

/-- Row `i` of `newviewGAMMA_FLEX` before scaling in the case `TIP_INNER`;
`x2row` is `&x2[span * i]`. -/
def rowGAMMA_TIP_INNER {K : Type} [LinearOrderedField K] (states : Nat)
    (extEV uX1 right x2row : Nat → K) (row : Nat → K) : Nat → K :=
  let statesSquare := states * states
  forLoop 4 (fun k row =>
    let v := slice x2row (k * states)
    let ump_x2 : Nat → K := fun l => dot states v (slice right (k * statesSquare + l * states))
    blit row (states * k) states
      (evProduct states extEV (fun l => uX1 (k * states + l) * ump_x2 l)
        (slice row (states * k)))) row

/-- Row `i` of `newviewGAMMA_FLEX` before scaling in the case `INNER_INNER`;
`x1row`, `x2row` are `&x1[span * i]`, `&x2[span * i]`. -/
def rowGAMMA_INNER_INNER {K : Type} [LinearOrderedField K] (states : Nat)
    (extEV left right x1row x2row : Nat → K) (row : Nat → K) : Nat → K :=
  let statesSquare := states * states
  forLoop 4 (fun k row =>
    let vl := slice x1row (states * k)
    let vr := slice x2row (states * k)
    blit row (states * k) states
      (evProduct states extEV (fun l =>
        let al := dot states vl (slice left (k * statesSquare + l * states))
        let ar := dot states vr (slice right (k * statesSquare + l * states))
        al * ar) (slice row (states * k)))) row

/-- Embedding of `newviewGAMMA_FLEX` (newviewGenericSpecial.c). The result is
the vector `x3` and the value stored in `*scalerIncrement`. -/
def newviewGAMMA_FLEX {K : Type} [LinearOrderedField K] (c : consts K) (tipCase : tipCases)
    (x1 x2 x3 extEV tipVector : Nat → K) (tipX1 tipX2 : Nat → Nat) (n : Nat)
    (left right : Nat → K) (wgt : Nat → Int) (states maxStateValue : Nat) :
    Except Fault ((Nat → K) × Int) :=
  let span := states * 4
  match tipCase with
  | .TIP_TIP =>
    let umpX1 := precomputeTips states span maxStateValue tipVector left
    let umpX2 := precomputeTips states span maxStateValue tipVector right
    .ok (forLoop n (fun i (s : (Nat → K) × Int) =>
      let uX1 := slice umpX1 (span * tipX1 i)
      let uX2 := slice umpX2 (span * tipX2 i)
      let v := rowGAMMA_TIP_TIP states extEV uX1 uX2 (slice s.1 (i * span))
      (blit s.1 (i * span) span v, s.2)) (x3, 0))
  | .TIP_INNER =>
    let umpX1 := precomputeTips states span maxStateValue tipVector left
    .ok (forLoop n (fun i (s : (Nat → K) × Int) =>
      let uX1 := slice umpX1 (span * tipX1 i)
      let v := rowGAMMA_TIP_INNER states extEV uX1 right (slice x2 (span * i))
        (slice s.1 (span * i))
      if scaleTestGAMMA c span v then
        (blit s.1 (span * i) span (scaleUp c span v), s.2 + wgt i)
      else (blit s.1 (span * i) span v, s.2)) (x3, 0))
  | .INNER_INNER =>
    .ok (forLoop n (fun i (s : (Nat → K) × Int) =>
      let v := rowGAMMA_INNER_INNER states extEV left right (slice x1 (span * i))
        (slice x2 (span * i)) (slice s.1 (span * i))
      if scaleTestGAMMA c span v then
        (blit s.1 (span * i) span (scaleUp c span v), s.2 + wgt i)
      else (blit s.1 (span * i) span v, s.2)) (x3, 0))
  | _ => .error .assertion

/-! ## The tree and its partitions

The generic build is embedded: neither `_OPTIMIZED_FUNCTIONS` nor `_USE_OMP`
is defined, so every partition is served whole (`offset = 0`) by the `FLEX`
kernels. Allocation of the inner vectors is not modelled (a vector is written
in full by the kernel at once after it is allocated), and the vector `x3` of
an entry is taken not to overlap its inputs `x1`, `x2`. -/

/-- The fields of `pInfo` (one element of `tr->partitionData`) that the generic
kernels use. `isPomo`, `undetermined` and `protModelsLG4` stand for
`isPomo(dataType)`, `getUndetermined(dataType)` and
`protModels == LG4M || protModels == LG4X`. `xVector` is indexed by
`number - mxtips - 1`, `yVector`, `xTipVector` and `globalScaler` by node
number. -/
structure pInfo (K : Type) where
  states : Nat
  width : Nat
  isPomo : Bool
  undetermined : Nat
  protModelsLG4 : Bool
  numberOfCategories : Nat
  perSiteRates : Nat → K
  gammaRates : Nat → K
  EIGN : Nat → K
  EI : Nat → K
  EV : Nat → K
  tipVector : Nat → K
  EIGN_LG4 : Nat → Nat → K
  EI_LG4 : Nat → Nat → K
  rateCategory : Nat → Nat
  wgt : Nat → Int
  yVector : Nat → Nat → Nat
  xTipVector : Nat → Nat → K
  xVector : Nat → Nat → K
  globalScaler : Nat → Nat
  left : Nat → K
  right : Nat → K

/-- The fields of `tree` that traversal, newview and evaluate use. `nodep` is
the heap of node records, `ti` the entries `td[0].ti[0 .. td[0].count - 1]`
and `td_executeModel` the mask `td[0].executeModel`. -/
structure tree (K : Type) where
  nodep : heap K
  mxtips : Nat
  numBranches : Nat
  NumberOfModels : Nat
  maxCategories : Nat
  rateHetModel : rateHet
  saveMemory : Bool
  partitionData : Nat → pInfo K
  executeModel : Nat → Bool
  partitionConverged : Nat → Bool
  ti : List (traversalInfo K)
  td_executeModel : Nat → Bool
  traversalHasChanged : Bool
  perPartitionLH : Nat → K
  likelihood : K

/-- The value `INT_MAX` of `limits.h`. -/
def INT_MAX : Nat := 2147483647

/-- The conversion `(unsigned int) i` of an `int`. -/
def toUnsigned (i : Int) : Nat := (i % 4294967296).toNat

/-- The sum of `unsigned int` values. -/
def addUnsigned (a b : Nat) : Nat := (a + b) % 4294967296

/-- The loop `for(i = 0; i < n; i++) body` where the body may fail. -/
def forLoopM {σ : Type} (n : Nat) (body : Nat → σ → Except Fault σ) (init : σ) :
    Except Fault σ :=
  (List.range n).foldlM (fun s i => body i s) init

/-- The assignment `tr->partitionData[model] = pd`. -/
def tree.setPartition {K : Type} (tr : tree K) (model : Nat) (pd : pInfo K) : tree K :=
  { tr with partitionData := fun m => if m = model then pd else tr.partitionData m }

/-- The branch length a partition reads from an entry: `qz[model]` with
per-partition branch lengths (`numBranches > 1`), `qz[0]` otherwise. -/
def branchOf {K : Type} [LinearOrderedField K] (numBranches model : Nat) (z : List K) : K :=
  if numBranches > 1 then z.getD model 0 else z.getD 0 0

/-- The rate array and the number of rate categories selected by
`switch(tr->rateHetModel)`. -/
def rateCategoriesOf {K : Type} [LinearOrderedField K] (rateHetModel : rateHet) (pd : pInfo K) :
    (Nat → K) × Nat :=
  match rateHetModel with
  | .CAT => (pd.perSiteRates, pd.numberOfCategories)
  | .GAMMA => (pd.gammaRates, 4)
  | .PLAIN => (fun _ => 1, 1)

/-- The P matrices of one partition for the entry `tInfo`, as the first loop
over the partitions in `newviewIterative` computes them. -/
def pmatrices {K : Type} [LinearOrderedField K] (c : consts K) (numBranches maxCategories : Nat)
    (rateHetModel : rateHet) (saveMemory : Bool) (tInfo : traversalInfo K) (model : Nat)
    (pd : pInfo K) : Except Fault (pInfo K) :=
  let rc := rateCategoriesOf rateHetModel pd
  let qz := branchOf numBranches model tInfo.qz
  let rz := branchOf numBranches model tInfo.rz
  let qz := if qz > c.zmin then c.LOG qz else c.LOG c.zmin
  let rz := if rz > c.zmin then c.LOG rz else c.LOG c.zmin
  if pd.protModelsLG4 then
    match makeP_FlexLG4 c qz rz pd.gammaRates pd.EI_LG4 pd.EIGN_LG4 4 pd.left pd.right 20 with
    | .error e => .error e
    | .ok lr => .ok { pd with left := lr.1, right := lr.2 }
  else
    let lr := makeP c qz rz rc.1 pd.EI pd.EIGN rc.2 pd.left pd.right saveMemory
      maxCategories pd.states
    .ok { pd with left := lr.1, right := lr.2 }

/-- First loop over the partitions in `newviewIterative`. -/
def newviewMakeP {K : Type} [LinearOrderedField K] (c : consts K) (tInfo : traversalInfo K)
    (model : Nat) (tr : tree K) : Except Fault (tree K) :=
  let pd := tr.partitionData model
  if !tr.td_executeModel model || pd.width = 0 then .ok tr
  else
    match pmatrices c tr.numBranches tr.maxCategories tr.rateHetModel tr.saveMemory tInfo
        model pd with
    | .error e => .error e
    | .ok pd1 => .ok (tr.setPartition model pd1)

/-- The input vectors of an entry selected by `switch(tInfo->tipCase)` in
`newviewIterative`: `x1_start`, `x2_start`, `tipX1`, `tipX2` (`none` for a
null pointer). A tip of a PoMo partition supplies its tip vector as
`x1_start` or `x2_start` and leaves `tipX1`, `tipX2` null. -/
def entryVectors {K : Type} [LinearOrderedField K] (mxtips : Nat) (tInfo : traversalInfo K)
    (pd : pInfo K) :
    Except Fault ((Nat → K) × (Nat → K) × Option (Nat → Nat) × Option (Nat → Nat)) :=
  match tInfo.tipCase with
  | .TIP_TIP =>
    if pd.isPomo then
      .ok (pd.xTipVector tInfo.qNumber, pd.xTipVector tInfo.rNumber, none, none)
    else
      .ok (fun _ => 0, fun _ => 0, some (pd.yVector tInfo.qNumber),
        some (pd.yVector tInfo.rNumber))
  | .TIP_INNER =>
    if pd.isPomo then
      .ok (pd.xTipVector tInfo.qNumber, pd.xVector (tInfo.rNumber - mxtips - 1), none, none)
    else
      .ok (fun _ => 0, pd.xVector (tInfo.rNumber - mxtips - 1),
        some (pd.yVector tInfo.qNumber), none)
  | .INNER_INNER =>
    if mxtips < tInfo.rNumber ∧ mxtips < tInfo.pNumber ∧ mxtips < tInfo.qNumber then
      .ok (pd.xVector (tInfo.qNumber - mxtips - 1),
        pd.xVector (tInfo.rNumber - mxtips - 1), none, none)
    else .error .assertion
  | _ => .error .assertion

/-- The tip pointers as the generic kernels use them: `TIP_TIP` reads through
`tipX1` and `tipX2`, `TIP_INNER` through `tipX1`; reading through a null
pointer ends the run in the fault `nullPointer`. -/
def tipPointers (tipCase : tipCases) (tipX1 tipX2 : Option (Nat → Nat)) :
    Except Fault ((Nat → Nat) × (Nat → Nat)) :=
  match tipCase, tipX1, tipX2 with
  | .TIP_TIP, some t1, some t2 => .ok (t1, t2)
  | .TIP_TIP, _, _ => .error .nullPointer
  | .TIP_INNER, some t1, _ => .ok (t1, fun _ => 0)
  | .TIP_INNER, none, _ => .error .nullPointer
  | _, _, _ => .ok (fun _ => 0, fun _ => 0)

/-- The call of the generic kernel for an entry: the vector `x3` and the value
of `scalerIncrement`. -/
def entryKernel {K : Type} [LinearOrderedField K] (c : consts K) (mxtips : Nat)
    (rateHetModel : rateHet) (saveMemory : Bool) (tInfo : traversalInfo K) (pd : pInfo K) :
    Except Fault ((Nat → K) × Int) :=
  match entryVectors mxtips tInfo pd with
  | .error e => .error e
  | .ok (x1_start, x2_start, tipX1, tipX2) =>
    let x3_start := pd.xVector (tInfo.pNumber - mxtips - 1)
    if saveMemory then .error .assertion
    else if rateHetModel = .PLAIN then .error .assertion
    else
      match tipPointers tInfo.tipCase tipX1 tipX2 with
      | .error e => .error e
      | .ok (tipX1, tipX2) =>
        if rateHetModel = .CAT then
          newviewCAT_FLEX c tInfo.tipCase pd.EV pd.rateCategory x1_start x2_start x3_start
            pd.tipVector tipX1 tipX2 pd.width pd.left pd.right pd.wgt pd.states
        else
          newviewGAMMA_FLEX c tInfo.tipCase x1_start x2_start x3_start pd.EV pd.tipVector
            tipX1 tipX2 pd.width pd.left pd.right pd.wgt pd.states (pd.undetermined + 1)

/-- The vector at `pNumber` and its scaling counter for one partition, as the
second loop over the partitions in `newviewIterative` computes them:
`globalScaler[pNumber] = globalScaler[qNumber] + globalScaler[rNumber] +
(unsigned int)scalerIncrement`, asserted to be below `INT_MAX`. -/
def updateVector {K : Type} [LinearOrderedField K] (c : consts K) (mxtips : Nat)
    (rateHetModel : rateHet) (saveMemory : Bool) (tInfo : traversalInfo K) (pd : pInfo K) :
    Except Fault (pInfo K) :=
  match entryKernel c mxtips rateHetModel saveMemory tInfo pd with
  | .error e => .error e
  | .ok (x3, scalerIncrement) =>
    let gs := addUnsigned (addUnsigned (pd.globalScaler tInfo.qNumber)
      (pd.globalScaler tInfo.rNumber)) (toUnsigned scalerIncrement)
    if gs < INT_MAX then
      .ok { pd with
            xVector := fun k => if k = tInfo.pNumber - mxtips - 1 then x3 else pd.xVector k
            globalScaler := fun k => if k = tInfo.pNumber then gs else pd.globalScaler k }
    else .error .assertion

/-- Second loop over the partitions in `newviewIterative`. -/
def newviewPartition {K : Type} [LinearOrderedField K] (c : consts K) (tInfo : traversalInfo K)
    (model : Nat) (tr : tree K) : Except Fault (tree K) :=
  let pd := tr.partitionData model
  if tr.td_executeModel model && decide (pd.width > 0) then
    match updateVector c tr.mxtips tr.rateHetModel tr.saveMemory tInfo pd with
    | .error e => .error e
    | .ok pd1 => .ok (tr.setPartition model pd1)
  else .ok tr

/-- The body of the loop of `newviewIterative` for one descriptor entry. -/
def newviewEntry {K : Type} [LinearOrderedField K] (c : consts K) (tInfo : traversalInfo K)
    (tr : tree K) : Except Fault (tree K) :=
  match forLoopM tr.NumberOfModels (newviewMakeP c tInfo) tr with
  | .error e => .error e
  | .ok tr1 => forLoopM tr1.NumberOfModels (newviewPartition c tInfo) tr1

/-- Embedding of `newviewIterative` (newviewGenericSpecial.c): the entries
`startIndex .. count-1` of the descriptor are processed in order. -/
def newviewIterative {K : Type} [LinearOrderedField K] (c : consts K) (tr : tree K)
    (startIndex : Nat) : Except Fault (tree K) :=
  (tr.ti.drop startIndex).foldlM (fun tr tInfo => newviewEntry c tInfo tr) tr

/-- First loop over the partitions in `evaluateIterative`: the diagonal table
of the root branch, stored in `partitionData[m].left`. -/
def evaluateDiag {K : Type} [LinearOrderedField K] (c : consts K) (pz : List K) (m : Nat)
    (tr : tree K) : tree K :=
  let pd := tr.partitionData m
  if !tr.td_executeModel m || pd.width = 0 then tr
  else
    let z := branchOf tr.numBranches m pz
    let rc := rateCategoriesOf tr.rateHetModel pd
    let diagptable :=
      if pd.protModelsLG4 then
        calcDiagptableFlex_LG4 c z 4 pd.gammaRates pd.EIGN_LG4 pd.left 20
      else calcDiagptable c z pd.states rc.2 rc.1 pd.EIGN pd.left
    tr.setPartition m { pd with left := diagptable }

/-- The vectors handed to the root kernels for the branch `(pNumber, qNumber)`:
`x1_start`, `x2_start` and `tip`. A tip supplies `tip` (or, in a PoMo
partition, its tip vector as `x1_start`), the other end supplies `x2_start`. -/
def rootVectors {K : Type} [LinearOrderedField K] (mxtips : Nat) (pd : pInfo K)
    (pNumber qNumber : Nat) : (Nat → K) × (Nat → K) × Option (Nat → Nat) :=
  if isTip pNumber mxtips || isTip qNumber mxtips then
    if isTip qNumber mxtips then
      if pd.isPomo then (pd.xTipVector qNumber, pd.xVector (pNumber - mxtips - 1), none)
      else (fun _ => 0, pd.xVector (pNumber - mxtips - 1), some (pd.yVector qNumber))
    else
      if pd.isPomo then (pd.xTipVector pNumber, pd.xVector (qNumber - mxtips - 1), none)
      else (fun _ => 0, pd.xVector (qNumber - mxtips - 1), some (pd.yVector pNumber))
  else
    (pd.xVector (pNumber - mxtips - 1), pd.xVector (qNumber - mxtips - 1), none)

/-- The log likelihood of partition `model` at the root branch, as the second
loop of `evaluateIterative` computes it before the assertion: the value of the
root kernel plus the scaling correction
`(globalScaler[pNumber] + globalScaler[qNumber]) * LOG(minlikelihood)`. -/
def partitionLikelihood {K : Type} [LinearOrderedField K] (c : consts K) (tr : tree K)
    (pNumber qNumber model : Nat) : K :=
  let pd := tr.partitionData model
  let v := rootVectors tr.mxtips pd pNumber qNumber
  let kernel :=
    if tr.rateHetModel = .CAT then
      evaluateCAT_FLEX c pd.rateCategory pd.wgt v.1 v.2.1 pd.tipVector v.2.2 pd.width pd.left
        pd.states
    else
      evaluateGAMMA_FLEX c pd.wgt v.1 v.2.1 pd.tipVector v.2.2 pd.width pd.left pd.states
  kernel + ((addUnsigned (pd.globalScaler pNumber) (pd.globalScaler qNumber) : Nat) : K) *
    c.LOG c.minlikelihood

/-- Second loop over the partitions in `evaluateIterative`: the per-partition
log likelihood is computed, checked to be negative and stored. -/
def evaluatePartition {K : Type} [LinearOrderedField K] (c : consts K) (pNumber qNumber : Nat)
    (model : Nat) (tr : tree K) : Except Fault (tree K) :=
  let pd := tr.partitionData model
  let width := pd.width
  if tr.td_executeModel model && decide (width > 0) then
    if tr.saveMemory then .error .assertion
    else if tr.rateHetModel = .PLAIN then .error .assertion
    else
      let l := partitionLikelihood c tr pNumber qNumber model
      if l < 0 then
        .ok { tr with perPartitionLH := fun m => if m = model then l else tr.perPartitionLH m }
      else .error .assertion
  else
    if width = 0 then
      .ok { tr with perPartitionLH := fun m => if m = model then 0 else tr.perPartitionLH m }
    else if tr.td_executeModel model = false ∧ tr.perPartitionLH model < 0 then .ok tr
    else .error .assertion

/-- The entry `ti[0]` of the descriptor. -/
def tree.ti0 {K : Type} (tr : tree K) : traversalInfo K :=
  tr.ti.headD ⟨.TIP_TIP, 0, 0, 0, [], []⟩

/-- The part of `evaluateIterative` after the call of `newviewIterative`: the
two loops over the partitions, for the root branch `(pNumber, qNumber)` with
branch lengths `pz`. -/
def evaluateRoot {K : Type} [LinearOrderedField K] (c : consts K) (pz : List K)
    (pNumber qNumber : Nat) (tr : tree K) : Except Fault (tree K) :=
  let tr2 := forLoop tr.NumberOfModels (evaluateDiag c pz) tr
  forLoopM tr2.NumberOfModels (evaluatePartition c pNumber qNumber) tr2

/-- Embedding of `evaluateIterative` (evaluateGenericSpecial.c). -/
def evaluateIterative {K : Type} [LinearOrderedField K] (c : consts K) (tr : tree K) :
    Except Fault (tree K) :=
  let pz := tr.ti0.qz
  let pNumber := tr.ti0.pNumber
  let qNumber := tr.ti0.qNumber
  match newviewIterative c tr 1 with
  | .error e => .error e
  | .ok tr1 => evaluateRoot c pz pNumber qNumber tr1

/-- Modelled from the spec: `storeExecuteMaskInTraversalDescriptor` is declared
outside the given sources. It copies the execute mask of the caller,
`tr->executeModel`, into the traversal descriptor. -/
def storeExecuteMaskInTraversalDescriptor {K : Type} (tr : tree K) : tree K :=
  { tr with
    td_executeModel := fun m => if m < tr.NumberOfModels then tr.executeModel m
      else tr.td_executeModel m }

/-- Embedding of `evaluateGeneric` (evaluateGenericSpecial.c) for a single
process, where the reduction over the processes leaves `perPartitionLH` as it
is. -/
def evaluateGeneric {K : Type} [LinearOrderedField K] (c : consts K) (fuel : Nat) (tr : tree K)
    (p : Nat) (fullTraversal : Bool) : Except Fault (tree K) :=
  match evaluateGenericTraversal tr.mxtips tr.numBranches fullTraversal fuel tr.nodep p
      tr.ti0 with
  | .error e => .error e
  | .ok (h, ti) =>
    let tr := { tr with nodep := h, ti := ti }
    let tr := storeExecuteMaskInTraversalDescriptor tr
    let tr := { tr with traversalHasChanged := true }
    match evaluateIterative c tr with
    | .error e => .error e
    | .ok tr =>
      let result := forLoop tr.NumberOfModels (fun model result =>
        result + tr.perPartitionLH model) 0
      .ok { tr with likelihood := result, traversalHasChanged := false }

/-- Embedding of `newviewGeneric` (newviewGenericSpecial.c). -/
def newviewGeneric {K : Type} [LinearOrderedField K] (c : consts K) (fuel : Nat) (tr : tree K)
    (p : Nat) (masked : Bool) : Except Fault (tree K) :=
  if isTip (tr.nodep p).number tr.mxtips then .ok tr
  else
    match computeTraversalInfo tr.mxtips tr.numBranches true fuel tr.nodep p [] with
    | .error e => .error e
    | .ok (h, ti) =>
      let tr := { tr with nodep := h, ti := ti, traversalHasChanged := true }
      let tr :=
        if masked then
          { tr with
            executeModel := fun model =>
              if model < tr.NumberOfModels then
                (if tr.partitionConverged model then false else true)
              else tr.executeModel model }
        else tr
      match (if tr.ti.length > 0 then
          newviewIterative c (storeExecuteMaskInTraversalDescriptor tr) 0
        else .ok tr) with
      | .error e => .error e
      | .ok tr =>
        let tr :=
          if masked then
            { tr with
              executeModel := fun model =>
                if model < tr.NumberOfModels then true else tr.executeModel model }
          else tr
        .ok { tr with traversalHasChanged := false }

/-- The root formula in the words of the claim about `evaluateIterative`
under GAMMA: `Σ_{i<n} wgt[i] · ln(0.25 · |Σ_{j<4} Σ_{k<S} a_i[j,k] · x2[i,j,k] ·
diag[j,k]|) + (scaler(p) + scaler(q)) · ln(minlikelihood)`, with `x2[i,j,k]`
the element `4·S·i + S·j + k` of the inner vector and `diag[j,k]` the element
`S·j + k` of the diagonal table. -/
def rootFormulaGAMMA {K : Type} [LinearOrderedField K] (c : consts K) (wgt : Nat → Int)
    (a : Nat → Nat → Nat → K) (x2 diag : Nat → K) (n S scalerP scalerQ : Nat) : K :=
  (∑ i in Finset.range n, (wgt i : K) *
      c.LOG (0.25 * |∑ j in Finset.range 4, ∑ k in Finset.range S,
        a i j k * x2 (4 * S * i + S * j + k) * diag (S * j + k)|)) +
    ((scalerP + scalerQ : Nat) : K) * c.LOG c.minlikelihood

/-- The tree with its partitions replaced by `pdm`. -/
def tree.withStore {K : Type} (tr : tree K) (pdm : Nat → pInfo K) : tree K :=
  { tr with partitionData := pdm }

/-- The effect of one descriptor entry on one partition in `newviewIterative`:
nothing when the partition is not executed or has width 0, otherwise the P
matrices are computed and then the vector and the scaling counter at
`pNumber`. -/
def entryPartition {K : Type} [LinearOrderedField K] (c : consts K) (tr : tree K)
    (tInfo : traversalInfo K) (model : Nat) (pd : pInfo K) : Except Fault (pInfo K) :=
  if !tr.td_executeModel model || pd.width = 0 then .ok pd
  else
    match pmatrices c tr.numBranches tr.maxCategories tr.rateHetModel tr.saveMemory tInfo
        model pd with
    | .error e => .error e
    | .ok pd1 => updateVector c tr.mxtips tr.rateHetModel tr.saveMemory tInfo pd1

/-- The effect of a list of descriptor entries, processed in order, on one
partition. -/
def runPartition {K : Type} [LinearOrderedField K] (c : consts K) (tr : tree K)
    (model : Nat) (es : List (traversalInfo K)) (pd : pInfo K) : Except Fault (pInfo K) :=
  es.foldlM (fun pd e => entryPartition c tr e model pd) pd

/-- The partition `pd` restricted to the patterns `lo .. lo+len-1`: the weight,
rate category, tip and vector arrays are offset to pattern `lo` (`span` cells
per pattern in the vectors), the width is `len` and the scaling counters are
`gs`. -/
def pInfo.patterns {K : Type} (pd : pInfo K) (span lo len : Nat) (gs : Nat → Nat) : pInfo K :=
  { pd with
    width := len
    wgt := fun i => pd.wgt (lo + i)
    rateCategory := fun i => pd.rateCategory (lo + i)
    yVector := fun k i => pd.yVector k (lo + i)
    xVector := fun k => slice (pd.xVector k) (span * lo)
    xTipVector := fun k => slice (pd.xTipVector k) (span * lo)
    globalScaler := gs }

/-- Example constants over the rationals (stand-ins for the values of
`axml.h` and for `exp`, `log`). -/
def exConsts : consts ℚ :=
  { EXP := fun x => 1 + x
    LOG := fun x => x - 1
    minlikelihood := 1 / 1000
    twotothe256 := 1000
    zmin := 1 / 100 }

/-- An example partition for the example tree: one state, one pattern of
weight `w`, every tip vector entry 1, eigenvector entry 1/2. The vector of the
inner node 5 holds `x5` in every cell, the vectors of the other inner nodes
hold `x6`; the scaling counters of the nodes 5 and 6 are `g5` and `g6`. -/
def exPartition (x5 x6 : ℚ) (g5 g6 : Nat) (w : Int) : pInfo ℚ :=
  { states := 1
    width := 1
    isPomo := false
    undetermined := 0
    protModelsLG4 := false
    numberOfCategories := 1
    perSiteRates := fun _ => 1
    gammaRates := fun _ => 1
    EIGN := fun _ => 0
    EI := fun _ => 1
    EV := fun _ => 1 / 2
    tipVector := fun _ => 1
    EIGN_LG4 := fun _ _ => 0
    EI_LG4 := fun _ _ => 1
    rateCategory := fun _ => 0
    wgt := fun _ => w
    yVector := fun _ _ => 0
    xTipVector := fun _ _ => 0
    xVector := fun k _ => if k = 0 then x5 else x6
    globalScaler := fun k => if k = 5 then g5 else if k = 6 then g6 else 0
    left := fun _ => 0
    right := fun _ => 0 }

/-- An example tree state: the example heap with flags `xs`, one GAMMA
partition and the descriptor `ti`. -/
def exTr (xs : List Nat) (ti : List (traversalInfo ℚ)) (x5 x6 : ℚ) (g5 g6 : Nat) : tree ℚ :=
  { nodep := exHeap xs
    mxtips := 4
    numBranches := 1
    NumberOfModels := 1
    maxCategories := 1
    rateHetModel := .GAMMA
    saveMemory := false
    partitionData := fun _ => exPartition x5 x6 g5 g6 1
    executeModel := fun _ => true
    partitionConverged := fun _ => false
    ti := ti
    td_executeModel := fun _ => true
    traversalHasChanged := false
    perPartitionLH := fun _ => 0
    likelihood := 0 }

/-- The cell of a P matrix at offset `r` within its category block. -/
def pcell {K : Type} [LinearOrderedField K] (states : Nat) (d EI : Nat → K) (r : Nat) : K :=
  if r % states = 0 then 1 else d (r % states) * EI r

/-- The per-pattern site likelihood of pattern `i` at the root branch
`(pNumber, qNumber)`, the argument of `LOG` in the root kernels:
`|term|` under CAT and `0.25 * |term|` under GAMMA, where `term` is the sum
over the states (and, under GAMMA, the four rate categories) of the products
of the two end vectors with the diagonal table. -/
def siteLikelihood {K : Type} [LinearOrderedField K] (tr : tree K) (pNumber qNumber model : Nat)
    (i : Nat) : K :=
  let pd := tr.partitionData model
  let v := rootVectors tr.mxtips pd pNumber qNumber
  let S := pd.states
  if tr.rateHetModel = .CAT then
    |∑ l in Finset.range S,
      (match v.2.2 with
        | some tip => pd.tipVector (S * tip i + l)
        | none => v.1 (S * i + l)) *
      v.2.1 (S * i + l) * pd.left (S * pd.rateCategory i + l)|
  else
    0.25 * |∑ j in Finset.range 4, ∑ k in Finset.range S,
      (match v.2.2 with
        | some tip => pd.tipVector (S * tip i + k)
        | none => v.1 (4 * S * i + S * j + k)) *
      v.2.1 (4 * S * i + S * j + k) * pd.left (S * j + k)|

/-! ## The binary alignment file

`byteFile.c` reads the file that `main` of the parser writes. A file is the
list of its bytes. The host is an LP64 little-endian machine: `int`,
`unsigned int` and `boolean` take 4 bytes, `size_t` and `double` take 8, and
the least significant byte of a value comes first. A `double` is carried as
its 64-bit pattern. File offsets (`exa_off_t`) are natural numbers: they stay
below `2^63` for every file that a file system holds. -/

/-- The value `sizeof(int)`. -/
def sizeof_int : Nat := 4

/-- The value `sizeof(size_t)`. -/
def sizeof_size_t : Nat := 8

/-- The value `sizeof(double)`. -/
def sizeof_double : Nat := 8

/-- The value `sizeof(char)`. -/
def sizeof_char : Nat := 1

/-- Modelled from the spec: `boolean` is declared in `axml.h`, outside the
given sources, as `int`. -/
def sizeof_boolean : Nat := 4

/-- The object representation of the unsigned value `v` in `n` bytes. -/
def toBytes : Nat → Nat → List Nat
  | 0, _ => []
  | n + 1, v => v % 256 :: toBytes n (v / 256)

/-- The unsigned value of an object representation (a byte counts modulo
256). -/
def ofBytes : List Nat → Nat
  | [] => 0
  | b :: bs => b % 256 + 256 * ofBytes bs

/-- The `int` with the 32-bit pattern `u`. -/
def toInt (u : Nat) : Int := if u < 2147483648 then (u : Int) else (u : Int) - 4294967296

/-- The object representation of the `int` `v`. -/
def intBytes (v : Int) : List Nat := toBytes sizeof_int (v % 4294967296).toNat

/-- The message printed before `exit(-1)` in `initializeByteFile`. -/
inductive Report
  | addressSize
  | versionNumber
  | magicNumber
  deriving DecidableEq, Repr

/-- The ways in which the reader stops: `exit(status)` after a message, or a
failed `assert`. -/
inductive Halt
  | exit (status : Int) (report : Report)
  | abort
  deriving DecidableEq, Repr

/-- The call `fread(ptr, size, nmemb, fh)` at file position `pos`: the number
of complete elements read, the bytes read and the new position. -/
def fread (fh : List Nat) (pos size nmemb : Nat) : Nat × List Nat × Nat :=
  let count := min nmemb ((fh.length - pos) / size)
  (count, (fh.drop pos).take (count * size), pos + count * size)

/-- The macro `READ_VAR(file, var)` for a variable of `size` bytes:
`assert(fread(&var, sizeof(var), 1, file) == 1)`. It returns the unsigned
value read and the new position. -/
def READ_VAR (fh : List Nat) (pos size : Nat) : Except Halt (Nat × Nat) :=
  let r := fread fh pos size 1
  if r.1 = 1 then .ok (ofBytes r.2.1, r.2.2) else .error .abort

/-- The macro `READ_ARRAY(file, arrPtr, numElem, size)`:
`assert(fread(arrPtr, size, numElem, file) == (unsigned int) numElem)`, for an
argument `numElem` that is a variable or a cast, so that the cast of the macro
applies to all of it. It returns the bytes read and the new position. -/
def READ_ARRAY (fh : List Nat) (pos numElem size : Nat) : Except Halt (List Nat × Nat) :=
  let r := fread fh pos size numElem
  if r.1 = numElem % 4294967296 then .ok (r.2.1, r.2.2) else .error .abort

/-- The macro `READ_ARRAY(file, arrPtr, numElem, size)` for an argument that is
a product `first * rest` with `rest` of type `size_t`. The macro does not put
`numElem` in parentheses, so its text expands to
`assert(fread(arrPtr, size, first * rest, file) == (unsigned int) first * rest)`:
the cast applies to `first` only, and both products are taken in `size_t`. -/
def READ_ARRAY_product (fh : List Nat) (pos first rest size : Nat) :
    Except Halt (List Nat × Nat) :=
  let r := fread fh pos size (first * rest % 18446744073709551616)
  if r.1 = (first % 4294967296) * rest % 18446744073709551616 then .ok (r.2.1, r.2.2)
  else .error .abort

/-- Modelled from the spec: the constants `ALN_HEAD` .. `ALN_ALIGNMENT` of
`byteFile.h`, outside the given sources; they name the sections of the file
and serve as the bits of `hasRead`. -/
inductive Section
  | ALN_HEAD
  | ALN_WEIGHTS
  | ALN_TAXA
  | ALN_PARTITIONS
  | ALN_ALIGNMENT
  deriving DecidableEq, Repr

/-- The fields of `pInfo` that the binary file carries or that `readMyData`
sets. The arrays `yResource`, `xResource` (64-bit patterns) and `wgt` are
functions of the index; `partitionName` holds the characters read, the
terminating NUL included; `frequencies` holds 64-bit patterns. -/
structure pInfoFile where
  states : Int
  maxTipStates : Int
  lower : Nat
  upper : Nat
  width : Nat
  offset : Nat
  dataType : Int
  protModels : Int
  protFreqs : Int
  nonGTR : Int
  optimizeBaseFrequencies : Int
  partitionName : List Nat
  frequencies : List Nat
  yResource : Nat → Nat
  xResource : Nat → Nat
  wgt : Nat → Int

/-- Modelled from the spec: the struct `ByteFile` of `byteFile.h`, outside
the given sources. `fh` is the content of the open file and `pos` its file
position; `taxaNames` and `partitions` are `none` for the null pointer. -/
structure ByteFile where
  fh : List Nat
  pos : Nat
  numTax : Int
  numPattern : Nat
  numPartitions : Int
  gappyness : Nat
  taxaNames : Option (List (List Nat))
  partitions : Option (List pInfoFile)
  hasRead : Section → Bool

/-- The function `strlen` on a character array. -/
def strlen : List Nat → Nat
  | [] => 0
  | c :: cs => if c = 0 then 0 else strlen cs + 1

/-- Embedding of `initializeByteFile` (byteFile.c): the three header checks.
`programVersionInt` is the value of `(int)programVersionInt`. -/
def initializeByteFile (programVersionInt : Int) (file : List Nat) : Except Halt ByteFile :=
  match READ_VAR file 0 sizeof_int with
  | .error e => .error e
  | .ok (sizeOfSizeT, pos) =>
    if (toInt sizeOfSizeT % 18446744073709551616).toNat ≠ sizeof_size_t then
      .error (.exit (-1) .addressSize)
    else
      match READ_VAR file pos sizeof_int with
      | .error e => .error e
      | .ok (version, pos) =>
        if toInt version ≠ programVersionInt then .error (.exit (-1) .versionNumber)
        else
          match READ_VAR file pos sizeof_int with
          | .error e => .error e
          | .ok (magicNumber, pos) =>
            if toInt magicNumber ≠ 6517718 then .error (.exit (-1) .magicNumber)
            else
              .ok { fh := file, pos := pos, numTax := 0, numPattern := 0, numPartitions := 0,
                    gappyness := 0, taxaNames := none, partitions := none,
                    hasRead := fun _ => false }

/-- The 32-bit field of a file at byte offset `pos`, as an `int`. -/
def int32At (file : List Nat) (pos : Nat) : Option Int :=
  if pos + 4 ≤ file.length then some (toInt (ofBytes ((file.drop pos).take 4))) else none

/-! ## The partition file (parsePartitions.c) -/

/-- Modelled from the spec: the data type constants of `axml.h`, outside the
given sources. -/
inductive dataTypes
  | BINARY_DATA
  | DNA_DATA
  | AA_DATA
  | GENERIC_32
  | GENERIC_64
  | POMO_16
  | POMO_64
  deriving DecidableEq, Repr

/-- Modelled from the spec: the model constants of `axml.h` that `adef->model`
takes, outside the given sources. -/
inductive models
  | M_GTRCAT
  | M_GTRGAMMA
  | M_BINCAT
  | M_BINGAMMA
  | M_PROTCAT
  | M_PROTGAMMA
  | M_32CAT
  | M_32GAMMA
  | M_64CAT
  | M_64GAMMA
  | M_POMOGAMMA_16
  | M_POMOGAMMA_64
  deriving DecidableEq, Repr

/-- The ways in which the parser stops: `exit` or `errorExit` with a status, a
failed `assert`, an access past the end of a string or buffer, or a loop
that does not end. -/
inductive ParseHalt
  | exit (status : Int)
  | abort
  | pastEnd
  | diverges
  deriving DecidableEq, Repr

/-- The fields of `tr->initialPartitionData[modelNumber]` that
`analyzeIdentifier` sets. `dataType` is `none` for -1 and
`optimizeBaseFrequencies` is `none` while the field of the `malloc`ed struct
has not been assigned. -/
structure partitionModel where
  protModels : Int
  protFreqs : Int
  dataType : Option dataTypes
  optimizeBaseFrequencies : Option Bool
  partitionName : List Char
  deriving DecidableEq, Repr

/-- The test `strcasecmp(a, b) == 0`. -/
def strcasecmp0 (a b : List Char) : Bool := a.map Char.toLower == b.map Char.toLower

/-- The first loop of `analyzeIdentifier`: the characters before `=` other
than blanks and tabs, and the rest of the line from `=` on. A line feed or
carriage return before `=` ends in `exit(-1)`. -/
def scanIdentifier : List Char → Except ParseHalt (List Char × List Char)
  | [] => .error .pastEnd
  | c :: cs =>
    if c = '=' then .ok ([], c :: cs)
    else if c = '\n' ∨ c = '\r' then .error (.exit (-1))
    else
      match scanIdentifier cs with
      | .error e => .error e
      | .ok (ident, rest) =>
        if c ≠ ' ' ∧ c ≠ '\t' then .ok (c :: ident, rest) else .ok (ident, rest)

/-- One pass of the loop over the protein models in `analyzeIdentifier`, for
the model name `thisModel` at index `i`. -/
def proteinModelStep (AUTO LG4M LG4X : Int) (model : List Char) (i : Nat)
    (thisModel : List Char) (s : partitionModel × Bool) :
    Except ParseHalt (partitionModel × Bool) :=
  let s1 : partitionModel × Bool :=
    if strcasecmp0 model thisModel then
      ({ s.1 with protModels := i, protFreqs := 0, dataType := some .AA_DATA }, true)
    else s
  let s2 : Except ParseHalt (partitionModel × Bool) :=
    if strcasecmp0 model (thisModel ++ ['F']) then
      let p := { s1.1 with protModels := i, protFreqs := 1, dataType := some .AA_DATA }
      if p.protModels = AUTO then .error (.exit (-1))
      else if p.protModels = LG4M ∨ p.protModels = LG4X then .error (.exit (-1))
      else .ok (p, true)
    else .ok s1
  match s2 with
  | .error e => .error e
  | .ok s2 =>
    if strcasecmp0 model (thisModel ++ ['X']) then
      let p := { s2.1 with protModels := i, protFreqs := 0,
                           optimizeBaseFrequencies := some true, dataType := some .AA_DATA }
      if p.protModels = AUTO then .error (.exit (-1))
      else if p.protModels = LG4M ∨ p.protModels = LG4X then .error (.exit (-1))
      else .ok (p, true)
    else .ok s2

/-- The loop `for(i = 0; i < NUM_PROT_MODELS && !found; i++)` of
`analyzeIdentifier` over the names `protModels[i], protModels[i+1], ..`. -/
def proteinModelLoop (AUTO LG4M LG4X : Int) (model : List Char) :
    Nat → List (List Char) → partitionModel × Bool → Except ParseHalt (partitionModel × Bool)
  | _, [], s => .ok s
  | i, thisModel :: names, s =>
    if s.2 then .ok s
    else
      match proteinModelStep AUTO LG4M LG4X model i thisModel s with
      | .error e => .error e
      | .ok s => proteinModelLoop AUTO LG4M LG4X model (i + 1) names s

/-- The chain of comparisons of `analyzeIdentifier` that follows the loop over
the protein models when no protein model has been found. -/
def otherModels (model : List Char) (p : partitionModel) : partitionModel × Bool :=
  if strcasecmp0 model "DNA".toList then
    ({ p with protModels := -1, protFreqs := -1, dataType := some .DNA_DATA,
              optimizeBaseFrequencies := some false }, true)
  else if strcasecmp0 model "DNAX".toList then
    ({ p with protModels := -1, protFreqs := -1, dataType := some .DNA_DATA,
              optimizeBaseFrequencies := some true }, true)
  else if strcasecmp0 model "BIN".toList then
    ({ p with protModels := -1, protFreqs := -1, dataType := some .BINARY_DATA,
              optimizeBaseFrequencies := some false }, true)
  else if strcasecmp0 model "BINX".toList then
    ({ p with protModels := -1, protFreqs := -1, dataType := some .BINARY_DATA,
              optimizeBaseFrequencies := some true }, true)
  else if strcasecmp0 model "POMO16".toList then
    ({ p with protModels := -1, protFreqs := -1, dataType := some .POMO_16,
              optimizeBaseFrequencies := some false }, true)
  else if strcasecmp0 model "POMO16X".toList then
    ({ p with protModels := -1, protFreqs := -1, dataType := some .POMO_16,
              optimizeBaseFrequencies := some true }, true)
  else if strcasecmp0 model "POMO64".toList then
    ({ p with protModels := -1, protFreqs := -1, dataType := some .POMO_16,
              optimizeBaseFrequencies := some false }, true)
  else if strcasecmp0 model "POMO64X".toList then
    ({ p with protModels := -1, protFreqs := -1, dataType := some .POMO_64,
              optimizeBaseFrequencies := some true }, true)
  else if strcasecmp0 model "MULTI".toList then
    ({ p with protModels := -1, protFreqs := -1, dataType := some .GENERIC_32 }, true)
  else if strcasecmp0 model "CODON".toList then
    ({ p with protModels := -1, protFreqs := -1, dataType := some .GENERIC_64 }, true)
  else (p, false)

/-- Embedding of `analyzeIdentifier` (parsePartitions.c) on the line `line`
(`*ch`) for the partition record `p`
(`tr->initialPartitionData[modelNumber]`). `protModels` is the array of the
protein model names and `AUTO`, `LG4M`, `LG4X` are indices into it, all
declared outside the given sources. The result holds the record and the
rest of the line from `=` on. -/
def analyzeIdentifier (protModels : List (List Char)) (AUTO LG4M LG4X : Int)
    (line : List Char) (p : partitionModel) : Except ParseHalt (partitionModel × List Char) :=
  match scanIdentifier line with
  | .error e => .error e
  | .ok (ident, rest) =>
    if ¬ (',' ∈ ident) then .error (.exit (-1))
    else
      let model := ident.takeWhile (fun c => c ≠ ',')
      match proteinModelLoop AUTO LG4M LG4X model 0 protModels (p, false) with
      | .error e => .error e
      | .ok (p, found) =>
        let s := if !found then otherModels model p else (p, found)
        if !s.2 then .error (.exit (-1))
        else
          .ok ({ s.1 with partitionName := (ident.dropWhile (fun c => c ≠ ',')).drop 1 }, rest)

/-- The PoMo consistency checks at the end of `parsePartitions`
(parsePartitions.c) on the data types of the `numberOfModels` partitions and
the model `adef->model` of the command line. -/
def pomoChecks (numberOfModels : Nat) (initialPartitionData : Nat → partitionModel)
    (model : models) : Except ParseHalt Unit :=
  let pomo16 := forLoop numberOfModels
    (fun i n => if (initialPartitionData i).dataType = some .POMO_16 then n + 1 else n) 0
  let pomo64 := forLoop numberOfModels
    (fun i n => if (initialPartitionData i).dataType = some .POMO_64 then n + 1 else n) 0
  if pomo16 > 0 ∧ pomo16 < numberOfModels then .error (.exit (-1))
  else if pomo16 > 0 ∧ pomo16 = numberOfModels ∧ model ≠ .M_POMOGAMMA_16 then
    .error (.exit (-1))
  else if pomo64 > 0 ∧ pomo64 < numberOfModels then .error (.exit (-1))
  else if pomo64 > 0 ∧ pomo64 = numberOfModels ∧ model ≠ .M_POMOGAMMA_64 then
    .error (.exit (-1))
  else .ok ()

/-! ## PoMo tip vectors (axml.c of the parser)

`buildPomoCLV` turns the base codes of the individuals of a species into the
conditional likelihood vector of the species. Doubles are elements of an
ordered field `K`; `exp` and `log` of `math.h` are parameters. The counters
`diallelicCounts` are bounded by the number of individuals, an `int`, so
`unsigned int` does not wrap. -/

/-- The constant `LAST_MONO_STATE_CLASS`. -/
def LAST_MONO_STATE_CLASS : Nat := 3

/-- The constant `LAST_POMO_STATE_CLASS`. -/
def LAST_POMO_STATE_CLASS : Nat := 9

/-- The table `obsToPomoCounts[16][10]`: row = data code, column = state
class A, C, G, T, AC, AG, AT, CG, CT, GT. -/
def obsToPomoCounts : List (List Nat) :=
  [[15, 15, 15, 15, 15, 15, 15, 15, 15, 15],
   [ 4,  1,  1,  1,  4,  4,  4,  1,  1,  1],
   [ 1,  4,  1,  1,  2,  1,  1,  4,  4,  1],
   [ 4,  4,  1,  1,  0,  4,  4,  4,  4,  1],
   [ 1,  1,  4,  1,  1,  2,  1,  2,  1,  4],
   [ 4,  1,  4,  1,  4,  0,  4,  2,  1,  4],
   [ 1,  4,  4,  1,  2,  2,  1,  0,  4,  4],
   [ 4,  4,  4,  1,  0,  0,  4,  0,  4,  4],
   [ 1,  1,  1,  4,  1,  1,  2,  1,  2,  2],
   [ 4,  1,  1,  4,  4,  4,  0,  1,  2,  2],
   [ 1,  4,  1,  4,  2,  1,  2,  4,  0,  2],
   [ 4,  4,  1,  4,  0,  4,  0,  4,  0,  2],
   [ 1,  1,  4,  4,  1,  2,  2,  2,  2,  0],
   [ 4,  1,  4,  4,  4,  0,  0,  2,  2,  0],
   [ 1,  4,  4,  4,  2,  2,  2,  0,  0,  0],
   [ 4,  4,  4,  4,  0,  0,  0,  0,  0,  0]]

/-- The entry `effectRow[sc]` of the row `obsToPomoCounts[tipValue]`. -/
def effectRow (tipValue sc : Nat) : Nat := (obsToPomoCounts.getD tipValue []).getD sc 0

/-- The ways in which `buildPomoCLV` stops: `errorExit(-1)` after the message
on an invalid DNA code, `errorExit(-1)` after the message that column `column`
of species `species` needs more than 2 alleles, or a failed `assert`. -/
inductive PomoHalt
  | invalidCode
  | moreThanTwoAlleles (column species : Nat)
  | assertion
  deriving DecidableEq, Repr

/-- The struct `pomoInd`: the number of individuals of a species and their
taxon numbers. -/
structure pomoInd where
  indCount : Nat
  indMap : Nat → Nat

/-- The local variables `stillValid`, `numStillValid` and `diallelicCounts`
of `buildPomoCLV` for one site. -/
structure siteClasses where
  stillValid : Nat → Bool
  numStillValid : Int
  diallelicCounts : Nat → Nat × Nat

/-- The loop `for(i = lo; i < hi; i++) body` where the body may stop the
program. -/
def forLoopFromE {ε σ : Type} (lo hi : Nat) (body : Nat → σ → Except ε σ) (init : σ) :
    Except ε σ :=
  (List.range' lo (hi - lo)).foldlM (fun s i => body i s) init

/-- The block of `buildPomoCLV` that strikes the state class `sc` for
individual `j` of species `i`. -/
def strikeClass (j i sc : Nat) (s : siteClasses) : Except PomoHalt siteClasses :=
  if s.stillValid sc then
    if s.numStillValid = 1 then .error (.moreThanTwoAlleles j i)
    else .ok { s with numStillValid := s.numStillValid - 1,
                      stillValid := store s.stillValid sc false }
  else .ok s

/-- The body of the loop over the monoallelic state classes. -/
def monoStep (j i tipValue sc : Nat) (s : siteClasses) : Except PomoHalt siteClasses :=
  if effectRow tipValue sc &&& 1 ≠ 0 then strikeClass j i sc s else .ok s

/-- The body of the loop over the diallelic state classes. -/
def diallelicStep (j i tipValue sc : Nat) (s : siteClasses) : Except PomoHalt siteClasses :=
  if effectRow tipValue sc &&& 1 ≠ 0 then strikeClass j i sc s
  else if effectRow tipValue sc &&& 4 ≠ 0 then
    .ok { s with
      diallelicCounts :=
        store s.diallelicCounts sc ((s.diallelicCounts sc).1 + 1, (s.diallelicCounts sc).2) }
  else if effectRow tipValue sc &&& 2 ≠ 0 then
    .ok { s with
      diallelicCounts :=
        store s.diallelicCounts sc ((s.diallelicCounts sc).1, (s.diallelicCounts sc).2 + 1) }
  else .ok s

/-- The body of the loop over the individuals `j` of species `i` at a site,
for the code `tipValue` of the individual. -/
def individualStep (i j tipValue : Nat) (s : siteClasses) : Except PomoHalt siteClasses :=
  if tipValue < 1 ∨ tipValue > 15 then .error .invalidCode
  else
    match forLoopFromE 0 (LAST_MONO_STATE_CLASS + 1) (monoStep j i tipValue) s with
    | .error e => .error e
    | .ok s =>
      forLoopFromE (LAST_MONO_STATE_CLASS + 1) (LAST_POMO_STATE_CLASS + 1)
        (diallelicStep j i tipValue) s

/-- Embedding of `logBinomCoefficient` (axml.c of the parser). -/
def logBinomCoefficient {K : Type} [LinearOrderedField K] (LOG : K → K)
    (numFirst numSecond : Nat) : K :=
  let n := numFirst + numSecond
  let larger := if numFirst > numSecond then numFirst else numSecond
  if larger = n then 0
  else
    forLoop (n - larger) (fun i logp =>
      let numeratorFactor : K := ((n - i : Nat) : K)
      let denominatorFactor : K := ((1 + i : Nat) : K)
      logp + (LOG numeratorFactor - LOG denominatorFactor)) 0

/-- Embedding of `calcBinomProb` (axml.c of the parser). -/
def calcBinomProb {K : Type} [LinearOrderedField K] (EXP LOG : K → K)
    (numFirst numSecond : Nat) (probFirst : K) : Except PomoHalt K :=
  if numSecond = 0 ∧ numFirst = 0 then .ok 1
  else
    if numFirst > 0 ∧ ¬ probFirst > 0 then .error .assertion
    else
      let logp : K := if numFirst > 0 then 0 + (numFirst : K) * LOG probFirst else 0
      let probSecond : K := 1 - probFirst
      if numSecond > 0 ∧ ¬ probSecond > 0 then .error .assertion
      else
        let logp : K := if numSecond > 0 then logp + (numSecond : K) * LOG probSecond else logp
        let logp : K := logp + logBinomCoefficient LOG numFirst numSecond
        .ok (EXP logp)

/-- The body of the loop of `buildPomoCLV` that writes the entries of the
diallelic state class `sc`; the state holds the buffer and `diallelicOffset`. -/
def writeDiallelic {K : Type} [LinearOrderedField K] (EXP LOG : K → K)
    (base numDialleleFreqBins : Nat) (binWidth : K) (s : siteClasses) (sc : Nat)
    (st : (Nat → K) × Nat) : Except PomoHalt ((Nat → K) × Nat) :=
  let diallelicOffset := st.2
  let r : Except PomoHalt (Nat → K) :=
    if s.stillValid sc then
      forLoopFromE 0 numDialleleFreqBins (fun j buf =>
        let secondAlleleFreq : K := binWidth * ((1 + j : Nat) : K)
        let firstAlleleFreq : K := 1 - secondAlleleFreq
        let pbIndex := base + diallelicOffset + j
        match calcBinomProb EXP LOG (s.diallelicCounts sc).1 (s.diallelicCounts sc).2
            firstAlleleFreq with
        | .error e => .error e
        | .ok cl => .ok (store buf pbIndex cl)) st.1
    else
      let pbIndex := base + diallelicOffset
      .ok (forLoop numDialleleFreqBins (fun j buf => store buf (pbIndex + j) 0) st.1)
  match r with
  | .error e => .error e
  | .ok buf => .ok (buf, diallelicOffset + numDialleleFreqBins)

/-- The body of the loop over the sites in `buildPomoCLV`. -/
def pomoSite {K : Type} [LinearOrderedField K] (EXP LOG : K → K) (i : Nat) (ind : pomoInd)
    (originalCrunchedLength states lower : Nat) (y0 : Nat → Nat) (site : Nat)
    (pomoBuffer : Nat → K) : Except PomoHalt (Nat → K) :=
  let numDialleleFreqBins := (states - 4) / 6
  let binWidth : K := 1 / ((1 + numDialleleFreqBins : Nat) : K)
  let s0 : siteClasses :=
    { stillValid := fun _ => true, numStillValid := 10, diallelicCounts := fun _ => (0, 0) }
  match forLoopFromE 0 ind.indCount (fun j s =>
      let taxonIndex := ind.indMap j
      let tipValue := y0 ((taxonIndex - 1) * originalCrunchedLength + site)
      individualStep i j tipValue s) s0 with
  | .error e => .error e
  | .ok s =>
    let base := (site - lower) * states
    let buf := forLoopFrom 0 (LAST_MONO_STATE_CLASS + 1) (fun sc buf =>
      store buf (base + sc) (if s.stillValid sc then 1 else 0)) pomoBuffer
    match forLoopFromE (LAST_MONO_STATE_CLASS + 1) (LAST_POMO_STATE_CLASS + 1)
        (writeDiallelic EXP LOG base numDialleleFreqBins binWidth s)
        (buf, 1 + LAST_MONO_STATE_CLASS) with
    | .error e => .error e
    | .ok st => .ok st.1

/-- Embedding of `buildPomoCLV` (axml.c of the parser) for species `i` with
individuals `ind` (`tr->pomoIndex[i]`) and a partition with `states` states
and bounds `lower`, `upper`. -/
def buildPomoCLV {K : Type} [LinearOrderedField K] (EXP LOG : K → K) (i : Nat)
    (pomoBuffer : Nat → K) (ind : pomoInd) (originalCrunchedLength states lower upper : Nat)
    (y0 : Nat → Nat) : Except PomoHalt (Nat → K) :=
  forLoopFromE lower upper
    (pomoSite EXP LOG i ind originalCrunchedLength states lower y0) pomoBuffer

/-- The base code `c` (a set of bases, A = 1, C = 2, G = 4, T = 8) contains
base `X` (A = 0, C = 1, G = 2, T = 3). -/
def hasBase (c X : Nat) : Bool := c.testBit X

/-- The first allele of the diallelic state class `sc` (AC, AG, AT, CG, CT,
GT are the classes 4 .. 9). -/
def firstBase (sc : Nat) : Nat := if sc ≤ 6 then 0 else if sc ≤ 8 then 1 else 2

/-- The second allele of the diallelic state class `sc`. -/
def secondBase (sc : Nat) : Nat :=
  if sc = 4 then 1 else if sc = 5 ∨ sc = 7 then 2 else 3

/-- The code `c` is compatible with the state class `sc`: it contains the
base of a monoallelic class, or one of the two bases of a diallelic class. -/
def compatible (c sc : Nat) : Bool :=
  if sc ≤ 3 then hasBase c sc else hasBase c (firstBase sc) || hasBase c (secondBase sc)

/-- The code `c` is compatible with the first allele of the diallelic class
`sc` only. -/
def firstOnly (c sc : Nat) : Bool := hasBase c (firstBase sc) && !hasBase c (secondBase sc)

/-- The code `c` is compatible with the second allele of the diallelic class
`sc` only. -/
def secondOnly (c sc : Nat) : Bool := !hasBase c (firstBase sc) && hasBase c (secondBase sc)

/-- The number of valid state classes among the 10 classes. -/
def numValid (V : Nat → Bool) : Nat :=
  ((Finset.range 10).filter (fun sc => V sc = true)).card

/-- The code of individual `j` of a species at a site, as `buildPomoCLV` reads
it from `y0`. -/
def tipValueOf (ind : pomoInd) (originalCrunchedLength : Nat) (y0 : Nat → Nat) (site j : Nat) :
    Nat :=
  y0 ((ind.indMap j - 1) * originalCrunchedLength + site)

/-- The state class `sc` is compatible with the codes of the first `n`
individuals. -/
def validFor (code : Nat → Nat) (n sc : Nat) : Bool :=
  decide (∀ j, j < n → compatible (code j) sc = true)

/-- The number of the first `n` individuals whose code is compatible with the
first allele only, and with the second allele only, of the diallelic class
`sc`. -/
def alleleCounts (code : Nat → Nat) (n sc : Nat) : Nat × Nat :=
  (((List.range n).filter (fun j => firstOnly (code j) sc)).length,
   ((List.range n).filter (fun j => secondOnly (code j) sc)).length)

/-- The local variables of a site agree with the valid classes `V` and the
allele counters `A`; `numStillValid` counts the valid classes and is at least
1. -/
def ClassInv (s : siteClasses) (V : Nat → Bool) (A : Nat → Nat × Nat) : Prop :=
  (∀ sc, s.stillValid sc = V sc) ∧ s.numStillValid = (numValid V : Int) ∧ 1 ≤ numValid V ∧
    (∀ sc, s.diallelicCounts sc = A sc)

/-- The valid classes after the classes `lo .. hi-1` have met the code `c`. -/
def validAfter (c lo hi : Nat) (V : Nat → Bool) : Nat → Bool :=
  fun x => if lo ≤ x ∧ x < hi then V x && compatible c x else V x

/-- The allele counters after the classes `lo .. hi-1` have met the code
`c`. -/
def countsAfter (c lo hi : Nat) (A : Nat → Nat × Nat) : Nat → Nat × Nat :=
  fun x =>
    if lo ≤ x ∧ x < hi ∧ 4 ≤ x ∧ compatible c x = true then
      ((A x).1 + (if firstOnly c x then 1 else 0), (A x).2 + (if secondOnly c x then 1 else 0))
    else A x

/-- The outcome `r` of the loop body for the state class `sc` and the code
`c`: it stops exactly when the code strikes the last valid class, and
otherwise the class and its counters are updated. -/
def StepOK (c j i sc : Nat) (r : Except PomoHalt siteClasses) (V : Nat → Bool)
    (A : Nat → Nat × Nat) : Prop :=
  (compatible c sc = false ∧ V sc = true ∧ numValid V = 1 ∧
    r = .error (.moreThanTwoAlleles j i)) ∨
  (¬ (compatible c sc = false ∧ V sc = true ∧ numValid V = 1) ∧
    ∃ s', r = .ok s' ∧
      ClassInv s' (validAfter c sc (sc + 1) V) (countsAfter c sc (sc + 1) A))

/-- The valid state classes after the first `n` individuals. -/
def validClasses (code : Nat → Nat) (n : Nat) : Nat → Bool :=
  fun sc => if sc < 10 then validFor code n sc else true

/-- The allele counters after the first `n` individuals. -/
def countedAlleles (code : Nat → Nat) (n : Nat) : Nat → Nat × Nat :=
  fun sc => if 4 ≤ sc ∧ sc < 10 then alleleCounts code n sc else (0, 0)

/-- The initial values of `stillValid`, `numStillValid` and
`diallelicCounts` at a site. -/
def siteClasses.init : siteClasses :=
  { stillValid := fun _ => true, numStillValid := 10, diallelicCounts := fun _ => (0, 0) }

/-- The value that `calcBinomProb` returns when its assertions hold. -/
def calcBinomValue {K : Type} [LinearOrderedField K] (EXP LOG : K → K)
    (numFirst numSecond : Nat) (probFirst : K) : K :=
  if numSecond = 0 ∧ numFirst = 0 then 1
  else
    EXP ((if numSecond > 0 then
        (if numFirst > 0 then 0 + (numFirst : K) * LOG probFirst else 0) +
          (numSecond : K) * LOG (1 - probFirst)
      else (if numFirst > 0 then 0 + (numFirst : K) * LOG probFirst else 0)) +
      logBinomCoefficient LOG numFirst numSecond)

/-- The laws of `exp` and `log` that exact real arithmetic provides:
`exp (x + y) = exp x * exp y` and `exp (log x) = x` for `x > 0`. -/
def ExpLog {K : Type} [LinearOrderedField K] (EXP LOG : K → K) : Prop :=
  (∀ x y, EXP (x + y) = EXP x * EXP y) ∧ (∀ x, 0 < x → EXP (LOG x) = x)

/-- The entries of `pomoBuffer` for the site `site` hold the values that
`buildPomoCLV` writes for it: 1 or 0 at the monoallelic entries, and at bin
`j` of the diallelic class `4 + q` the value of `calcBinomProb` for the allele
counters of the class, or 0 if the class is not valid. -/
def SiteEntries {K : Type} [LinearOrderedField K] (EXP LOG : K → K) (ind : pomoInd)
    (L S lower : Nat) (y0 : Nat → Nat) (site : Nat) (buf : Nat → K) : Prop :=
  (∀ sc, sc < 4 → buf ((site - lower) * S + sc) =
    if validFor (tipValueOf ind L y0 site) ind.indCount sc then 1 else 0) ∧
  (∀ q j, q < 6 → j < (S - 4) / 6 → buf ((site - lower) * S + 4 + q * ((S - 4) / 6) + j) =
    if validFor (tipValueOf ind L y0 site) ind.indCount (4 + q) then
      calcBinomValue EXP LOG
        (alleleCounts (tipValueOf ind L y0 site) ind.indCount (4 + q)).1
        (alleleCounts (tipValueOf ind L y0 site) ind.indCount (4 + q)).2
        (1 - 1 / ((1 + (S - 4) / 6 : Nat) : K) * ((1 + j : Nat) : K))
    else 0)

/-- The pairs of bases of the diallelic state classes in the order AC, AG,
AT, CG, CT, GT (A = 0, C = 1, G = 2, T = 3). -/
def pomoPairs : List (Nat × Nat) := [(0, 1), (0, 2), (0, 3), (1, 2), (1, 3), (2, 3)]

/-- The codes of the individuals of a species at a site, in the order of the
individuals. -/
def siteCodes (ind : pomoInd) (L : Nat) (y0 : Nat → Nat) (site : Nat) : List Nat :=
  (List.range ind.indCount).map (tipValueOf ind L y0 site)

/-- The tip value of the monoallelic state `X` in the words of the claim: 1
if every individual's code contains `X`, and 0 otherwise. -/
def monoEntry {K : Type} [LinearOrderedField K] (codes : List Nat) (X : Nat) : K :=
  if codes.all (fun c => hasBase c X) then 1 else 0

/-- The tip value of the diallelic pair `XY` at bin `j` of `B` bins in the
words of the claim: 0 if some individual's code contains neither `X` nor `Y`,
and otherwise `C(a+b, a) * f^a * (1-f)^b` with `a` the number of individuals
compatible with `X` only, `b` the number compatible with `Y` only and
`f = 1 - (j+1)/(B+1)`. -/
def diallelicEntry {K : Type} [LinearOrderedField K] (codes : List Nat) (X Y B j : Nat) : K :=
  if codes.any (fun c => !hasBase c X && !hasBase c Y) then 0
  else
    let a := codes.countP (fun c => hasBase c X && !hasBase c Y)
    let b := codes.countP (fun c => !hasBase c X && hasBase c Y)
    let f : K := 1 - ((j + 1 : Nat) : K) / ((B + 1 : Nat) : K)
    ((a + b).choose a : K) * f ^ a * (1 - f) ^ b

/-- An example species: 10 individuals, the taxa 1 .. 10. -/
def exInd : pomoInd := { indCount := 10, indMap := fun j => j + 1 }

/-- An example alignment with one site: the taxa 1 .. 5 show A (code 1), the
taxa 6 .. 10 show C (code 2). -/
def exY0 : Nat → Nat := fun t => if t < 5 then 1 else 2

/-- Row `i` of `newviewGAMMA_FLEX` as computed before the scaling test, for
the three tip cases of the generic kernel; `row` is the previous content of
the row of `x3`. -/
def rowGAMMA {K : Type} [LinearOrderedField K] (tipCase : tipCases)
    (x1 x2 extEV tipVector : Nat → K) (tipX1 tipX2 : Nat → Nat) (left right : Nat → K)
    (states maxStateValue : Nat) (i : Nat) (row : Nat → K) : Nat → K :=
  let span := states * 4
  match tipCase with
  | .TIP_TIP =>
    rowGAMMA_TIP_TIP states extEV
      (slice (precomputeTips states span maxStateValue tipVector left) (span * tipX1 i))
      (slice (precomputeTips states span maxStateValue tipVector right) (span * tipX2 i)) row
  | .TIP_INNER =>
    rowGAMMA_TIP_INNER states extEV
      (slice (precomputeTips states span maxStateValue tipVector left) (span * tipX1 i))
      right (slice x2 (span * i)) row
  | _ =>
    rowGAMMA_INNER_INNER states extEV left right (slice x1 (span * i)) (slice x2 (span * i)) row

/-! ### Well-formed descriptor entries -/

/-- A descriptor entry is well-formed for the heap `h`: it names an inner
node `p` and, as `q` and `r`, the two children `p->next->back` and
`p->next->next->back` in one of the two orders, with their numbers and
their branch lengths `z[i]` for `i < numBranches`; its tip case is `TIP_TIP`
iff both are tips, `TIP_INNER` iff `q` is a tip and `r` is not, `INNER_INNER`
iff neither is a tip, and `r` is never a tip next to an inner `q`. -/
def EntryWellFormed {K : Type} (maxTips numBranches : Nat) (h : heap K)
    (e : traversalInfo K) : Prop :=
  ∃ p q r, isTip (h p).number maxTips = false ∧ e.pNumber = (h p).number ∧
    ((q = (h (h p).next).back ∧ r = (h (h (h p).next).next).back) ∨
      (q = (h (h (h p).next).next).back ∧ r = (h (h p).next).back)) ∧
    e.qNumber = (h q).number ∧ e.rNumber = (h r).number ∧
    (∀ i, i < numBranches → e.qz[i]? = some ((h q).z i)) ∧
    (∀ i, i < numBranches → e.rz[i]? = some ((h r).z i)) ∧
    (e.tipCase = .TIP_TIP ↔
      (isTip (h q).number maxTips = true ∧ isTip (h r).number maxTips = true)) ∧
    (e.tipCase = .TIP_INNER ↔
      (isTip (h q).number maxTips = true ∧ isTip (h r).number maxTips = false)) ∧
    (e.tipCase = .INNER_INNER ↔
      (isTip (h q).number maxTips = false ∧ isTip (h r).number maxTips = false)) ∧
    ¬ (isTip (h q).number maxTips = false ∧ isTip (h r).number maxTips = true)

/-! ### The tip case passed to the N-state kernel

In the build with `_OPTIMIZED_FUNCTIONS`, `newviewIterative` serves partitions
with 16 and 64 states by `newviewGTRGAMMA_NSTATES`, to which it passes its
local `genericTipCase` in place of `tInfo->tipCase`. -/

/-- The local `genericTipCase` of `newviewIterative` after the switch over
`tInfo->tipCase`. The variable is initialised with `-1`, which is the value of
no tip case and is written `none`. The case `INNER_INNER` assigns it only
under `if(isPomo(dataType))` and then asserts that `p`, `q` and `r` are inner
nodes; any other descriptor value runs into `default: assert(0)`. -/
def genericTipCaseOf (mxtips : Nat) (tipCase : tipCases) (pNumber qNumber rNumber : Nat)
    (isPomo : Bool) : Except Fault (Option tipCases) :=
  let genericTipCase : Option tipCases := none
  match tipCase with
  | .TIP_TIP =>
    if isPomo then .ok (some .TIP_TIP_CLV) else .ok (some .TIP_TIP)
  | .TIP_INNER =>
    if isPomo then .ok (some .TIP_INNER_CLV) else .ok (some .TIP_INNER)
  | .INNER_INNER =>
    let genericTipCase := if isPomo then some .INNER_INNER else genericTipCase
    if (rNumber : Int) - mxtips - 1 ≥ 0 ∧ (pNumber : Int) - mxtips - 1 ≥ 0 ∧
        (qNumber : Int) - mxtips - 1 ≥ 0 then .ok genericTipCase
    else .error .assertion
  | _ => .error .assertion

/-- The branch of `switch(tipCase)` that `newviewGTRGAMMA_NSTATES` takes: one
of the five tip cases, and `default: assert(0)` for any other value. -/
def newviewGTRGAMMA_NSTATES_branch (tipCase : Option tipCases) : Except Fault tipCases :=
  match tipCase with
  | some .TIP_TIP => .ok .TIP_TIP
  | some .TIP_INNER => .ok .TIP_INNER
  | some .INNER_INNER => .ok .INNER_INNER
  | some .TIP_TIP_CLV => .ok .TIP_TIP_CLV
  | some .TIP_INNER_CLV => .ok .TIP_INNER_CLV
  | none => .error .assertion

/-- The cases 16 and 64 of `switch(states)` in `newviewIterative`: after
`assert(!tr->saveMemory)` the kernel is called with `genericTipCase`,
`numberOfAllCharacters = 0`, the number of states and 4 rates under `GAMMA`,
1 rate under `PLAIN`. The result is the kernel branch taken with the number
of states and of rates. -/
def nstatesKernelCall (states : Nat) (rateHetModel : rateHet) (saveMemory : Bool)
    (genericTipCase : Option tipCases) : Except Fault (tipCases × Nat × Nat) :=
  if states = 16 ∨ states = 64 then
    if saveMemory then .error .assertion
    else
      match rateHetModel with
      | .GAMMA => do
        let b ← newviewGTRGAMMA_NSTATES_branch genericTipCase
        pure (b, states, 4)
      | .PLAIN => do
        let b ← newviewGTRGAMMA_NSTATES_branch genericTipCase
        pure (b, states, 1)
      | .CAT => .error .assertion
  else .error .assertion

/-- One descriptor entry served by the N-state kernel: the pointer switch of
`newviewIterative` followed by the kernel call. -/
def nstatesEntry (mxtips states : Nat) (rateHetModel : rateHet) (saveMemory : Bool)
    (tipCase : tipCases) (pNumber qNumber rNumber : Nat) (isPomo : Bool) :
    Except Fault (tipCases × Nat × Nat) := do
  let g ← genericTipCaseOf mxtips tipCase pNumber qNumber rNumber isPomo
  nstatesKernelCall states rateHetModel saveMemory g

/-! ### The N-state root kernel

`evaluateGTRGAMMA_NSTATE` accumulates in a vector register of `VECTOR_WIDTH`
lanes (2 with SSE3, 4 with AVX), written as a function of the lane index,
and in the scalar `tBuffer` for the states left over. -/

/-- Modelled from the spec: the macro `FABS` is declared outside the given
sources; it is taken to be the absolute value. -/
def FABS {K : Type} [LinearOrderedField K] (x : K) : K := |x|

/-- The function `haddScalar`: `v0 + v1` for two lanes, and for four lanes
`ra[0] + ra[2]` after `_mm256_hadd_pd(v, v)`, which is `(v0 + v1) + (v2 + v3)`. -/
def haddScalar {K : Type} [LinearOrderedField K] (VECTOR_WIDTH : Nat) (v : Nat → K) : K :=
  if VECTOR_WIDTH = 2 then v 0 + v 1 else (v 0 + v 1) + (v 2 + v 3)

/-- The two loops over the states for one rate `j`:
`for(l = 0; l < loopLength; l += VECTOR_WIDTH) tv = tv + (left[l..] * right[l..]) * d[l..]`
and `for(; l < numberOfStates; l++) tBuffer += left[l] * right[l] * d[l]`. -/
def nstateRate {K : Type} [LinearOrderedField K] (VECTOR_WIDTH numberOfStates : Nat)
    (left right d : Nat → K) (s : (Nat → K) × K) : (Nat → K) × K :=
  let loopLength := numberOfStates - (numberOfStates % VECTOR_WIDTH)
  let tv := forLoop (loopLength / VECTOR_WIDTH) (fun m (tv : Nat → K) => fun a =>
    if a < VECTOR_WIDTH then
      tv a + (left (VECTOR_WIDTH * m + a) * right (VECTOR_WIDTH * m + a)) *
        d (VECTOR_WIDTH * m + a)
    else tv a) s.1
  let tBuffer := forLoopFrom loopLength numberOfStates
    (fun l tBuffer => tBuffer + left l * right l * d l) s.2
  (tv, tBuffer)

/-- Embedding of `evaluateGTRGAMMA_NSTATE` (evaluateGenericSpecial.c). `tipX1`
is `none` for the null pointer and `genericTipCase` is `none` for `-1`. -/
def evaluateGTRGAMMA_NSTATE {K : Type} [LinearOrderedField K] (c : consts K)
    (VECTOR_WIDTH : Nat) (wptr : Nat → Int) (x1 x2 tipVector : Nat → K)
    (tipX1 : Option (Nat → Nat)) (n : Nat) (diagptable : Nat → K)
    (numberOfStates gammaRates : Nat) (genericTipCase : Option tipCases) : K :=
  let stride := numberOfStates * gammaRates
  let left : Nat → Nat → Nat → K :=
    match tipX1 with
    | some tipX1 => fun i _ => slice tipVector (numberOfStates * tipX1 i)
    | none =>
      if genericTipCase = some .TIP_INNER_CLV then fun i _ => slice x1 (numberOfStates * i)
      else fun i j => slice x1 (stride * i + numberOfStates * j)
  forLoop n (fun i sum =>
    let s := forLoop gammaRates (fun j (s : (Nat → K) × K) =>
      nstateRate VECTOR_WIDTH numberOfStates (left i j)
        (slice x2 (stride * i + numberOfStates * j)) (slice diagptable (j * numberOfStates)) s)
      (fun _ => 0, 0)
    let term := haddScalar VECTOR_WIDTH s.1
    let term := term + s.2
    let term := c.LOG (0.25 * FABS term)
    sum + (wptr i : K) * term) 0

/-- The vector `left` that `evaluateGTRGAMMA_NSTATE` multiplies into pattern
`i` at rate `j`. -/
def nstateLeft {K : Type} (x1 tipVector : Nat → K) (tipX1 : Option (Nat → Nat))
    (numberOfStates gammaRates : Nat) (genericTipCase : Option tipCases) (i j : Nat) :
    Nat → K :=
  match tipX1 with
  | some tipX1 => slice tipVector (numberOfStates * tipX1 i)
  | none =>
    if genericTipCase = some .TIP_INNER_CLV then slice x1 (numberOfStates * i)
    else slice x1 (numberOfStates * gammaRates * i + numberOfStates * j)

/-- The sum over rates and states of pattern `i`:
`sum_{j < gammaRates} sum_{l < S} left[l] * x2[i, j, l] * diag[j, l]`. -/
def nstateSum {K : Type} [LinearOrderedField K] (x1 x2 tipVector : Nat → K)
    (tipX1 : Option (Nat → Nat)) (diagptable : Nat → K) (numberOfStates gammaRates : Nat)
    (genericTipCase : Option tipCases) (i : Nat) : K :=
  ∑ j in Finset.range gammaRates, ∑ l in Finset.range numberOfStates,
    nstateLeft x1 tipVector tipX1 numberOfStates gammaRates genericTipCase i j l *
      x2 (numberOfStates * gammaRates * i + numberOfStates * j + l) *
      diagptable (j * numberOfStates + l)

/-- The likelihood formula of the N-state root kernel with the factor
`factor` in front of the absolute value of the sum of each pattern:
`sum_i wgt[i] * LOG(factor * |sum_i|)`. -/
def nstateFormula {K : Type} [LinearOrderedField K] (c : consts K) (factor : K)
    (wptr : Nat → Int) (x1 x2 tipVector : Nat → K) (tipX1 : Option (Nat → Nat)) (n : Nat)
    (diagptable : Nat → K) (numberOfStates gammaRates : Nat)
    (genericTipCase : Option tipCases) : K :=
  ∑ i in Finset.range n, (wptr i : K) * c.LOG (factor *
    |nstateSum x1 x2 tipVector tipX1 diagptable numberOfStates gammaRates genericTipCase i|)

/-! ## Sorting and compressing the alignment (axml.c of the parser)

Arrays indexed by a site (`rdta->y[k]`, `rdta->wgt`, `tr->model`,
`tr->dataVector`) are functions of an `Int`, since the entries of
`cdta->alias` (`int64_t`) index them; arrays indexed by a loop counter are
functions of a `Nat`. The weights are bounded by the number of sites, an
`int`, so that no addition wraps. The array `cdta->alias` is written
`alias_`. -/

/-- The ways in which the preprocessing of the alignment stops: `exit`, a
failed `assert`, or a loop of the model that ran out of fuel. -/
inductive PrepHalt
  | exit (status : Int)
  | assertion
  | outOfFuel
  deriving DecidableEq, Repr

/-- The fields of `analdef` read by the preprocessing; `perSiteLL` stands for
`adef->mode == PER_SITE_LL`. -/
structure analdef where
  useMultipleModel : Bool
  compressPatterns : Bool
  perSiteLL : Bool

/-- The fields of `rawdata` read by the preprocessing. -/
structure rawdata where
  sites : Nat
  numsp : Nat
  y : Nat → Int → Nat
  wgt : Int → Int

/-- The comparison of the sites `jj` and `jg` in `sitesort`: the pair
`(flip, tied)` after the categories and the loop
`for (k = 1; (k <= nsp) && tied; k++)` over the taxa. -/
def compareSites (useMultipleModel : Bool) (category : Int → Int) (data : Nat → Int → Nat)
    (nsp : Nat) (jj jg : Int) : Except PrepHalt (Bool × Bool) :=
  let start : Except PrepHalt (Bool × Bool) :=
    if useMultipleModel then
      if category jj ≠ -1 ∧ category jg ≠ -1 then
        .ok (decide (category jj > category jg), decide (category jj = category jg))
      else .error .assertion
    else .ok (false, true)
  match start with
  | .error e => .error e
  | .ok ft =>
    .ok (forLoopFrom 1 (nsp + 1) (fun k (ft : Bool × Bool) =>
      if ft.2 then (decide (data k jj > data k jg), decide (data k jj = data k jg)) else ft) ft)

/-- The `do ... while (flip && (j > 0))` loop of `sitesort` started at `j`;
every round lowers `j` by `gap`, and `fuel` bounds the number of rounds. -/
def sortInner (useMultipleModel : Bool) (category : Int → Int) (data : Nat → Int → Nat)
    (nsp gap : Nat) : Nat → Nat → (Nat → Int) → Except PrepHalt (Nat → Int)
  | 0, _, _ => .error .outOfFuel
  | fuel + 1, j, index =>
    let jj := index j
    let jg := index (j + gap)
    match compareSites useMultipleModel category data nsp jj jg with
    | .error e => .error e
    | .ok (flip, _) =>
      if flip then
        let index := store index j jg
        let index := store index (j + gap) jj
        if (j : Int) - gap > 0 then
          sortInner useMultipleModel category data nsp gap fuel (j - gap) index
        else .ok index
      else .ok index

/-- The loop `for (gap = start; gap > 0; gap /= 2) body`; `fuel` bounds the
number of rounds. -/
def gapLoop {σ : Type} (body : Nat → σ → Except PrepHalt σ) :
    Nat → Nat → σ → Except PrepHalt σ
  | 0, gap, s => if gap > 0 then .error .outOfFuel else .ok s
  | fuel + 1, gap, s =>
    if gap > 0 then
      match body gap s with
      | .error e => .error e
      | .ok s => gapLoop body fuel (gap / 2) s
    else .ok s

/-- Embedding of `sitesort` (axml.c): the Shell sort of `index = cdta->alias`
by category and column. -/
def sitesort (adef : analdef) (category : Int → Int) (rdta : rawdata) (alias_ : Nat → Int) :
    Except PrepHalt (Nat → Int) :=
  let n := rdta.sites
  let index := store alias_ 0 (-1)
  if adef.compressPatterns then
    gapLoop (fun gap index =>
      forLoopFromE (gap + 1) (n + 1) (fun i index =>
        sortInner adef.useMultipleModel category rdta.y rdta.numsp gap (i - gap) (i - gap) index)
        index) n (n / 2) index
  else .ok index

/-- The flag `allGap` of `sitecombcrunch`: every taxon `k = 1 .. numsp` has the
undetermined character of the data type of the site at `sitej`. -/
def allGap (getUndetermined : Int → Nat) (dataVector : Int → Int) (rdta : rawdata)
    (sitej : Int) : Bool :=
  (List.range' 1 rdta.numsp).all
    (fun k => rdta.y k sitej == getUndetermined (dataVector sitej))

/-- The loop `for (k = 1; tied && (k <= rdta->numsp); k++)` of
`sitecombcrunch`. -/
def sameColumn (rdta : rawdata) (sitei sitej : Int) : Bool :=
  (List.range' 1 rdta.numsp).all (fun k => rdta.y k sitei == rdta.y k sitej)

/-- The variables of `sitecombcrunch` that its loop changes. -/
structure crunchState where
  i : Nat
  alias_ : Nat → Int
  aliaswgt : Nat → Int
  aliasModel : Nat → Int
  aliasSuperModel : Nat → Int
  undeterminedSites : Int

/-- The value of `tied` before the loop over the taxa. -/
def tiedStart (adef : analdef) (model dataVector : Int → Int) (sitei sitej : Int) :
    Except PrepHalt Bool :=
  if !adef.compressPatterns then .ok false
  else if adef.useMultipleModel then
    if model sitei = model sitej then
      if dataVector sitei = dataVector sitej then .ok true else .error .assertion
    else .ok false
  else .ok true

/-- The body of the loop `for (j = 1; j <= rdta->sites; j++)` of
`sitecombcrunch`. -/
def crunchStep (adef : analdef) (getUndetermined : Int → Nat) (model dataVector : Int → Int)
    (rdta : rawdata) (j : Nat) (s : crunchState) : Except PrepHalt crunchState :=
  let sitei := s.alias_ s.i
  let sitej := s.alias_ j
  let gap := allGap getUndetermined dataVector rdta sitej
  let s := if gap then { s with undeterminedSites := s.undeterminedSites + 1 } else s
  match tiedStart adef model dataVector sitei sitej with
  | .error e => .error e
  | .ok tied =>
    let tied := tied && sameColumn rdta sitei sitej
    if tied && gap then .error .assertion
    else if tied && !gap then
      .ok { s with
        aliaswgt := store s.aliaswgt s.i (s.aliaswgt s.i + rdta.wgt sitej)
        aliasModel :=
          if adef.useMultipleModel then store s.aliasModel s.i (model sitej) else s.aliasModel
        aliasSuperModel :=
          if adef.useMultipleModel then store s.aliasSuperModel s.i (dataVector sitej)
          else s.aliasSuperModel }
    else if !gap then
      let i := if s.aliaswgt s.i > 0 then s.i + 1 else s.i
      .ok { s with
        i := i
        aliaswgt := store s.aliaswgt i (rdta.wgt sitej)
        alias_ := store s.alias_ i sitej
        aliasModel :=
          if adef.useMultipleModel then store s.aliasModel i (model sitej) else s.aliasModel
        aliasSuperModel :=
          if adef.useMultipleModel then store s.aliasSuperModel i (dataVector sitej)
          else s.aliasSuperModel }
    else .ok s

/-- The fields of `cruncheddata` and of the tree that `sitecombcrunch`
leaves behind; `model` and `dataVector` are `tr->model` and `tr->dataVector`
seen at the indices `0, 1, ...` of the patterns. -/
structure crunched where
  alias_ : Nat → Int
  aliaswgt : Nat → Int
  endsite : Nat
  model : Nat → Int
  dataVector : Nat → Int
  undeterminedSites : Int

/-- Embedding of `sitecombcrunch` (axml.c). `aliasModel0` and
`aliasSuperModel0` are the contents of the two `malloc`ed arrays. -/
def sitecombcrunch (adef : analdef) (getUndetermined : Int → Nat) (model dataVector : Int → Int)
    (rdta : rawdata) (alias_ : Nat → Int) (aliaswgt aliasModel0 aliasSuperModel0 : Nat → Int) :
    Except PrepHalt crunched :=
  let alias_ := store alias_ 0 (alias_ 1)
  let aliaswgt := store aliaswgt 0 0
  if adef.perSiteLL then .error .assertion
  else
    match forLoopFromE 1 (rdta.sites + 1)
        (crunchStep adef getUndetermined model dataVector rdta)
        { i := 0, alias_ := alias_, aliaswgt := aliaswgt, aliasModel := aliasModel0,
          aliasSuperModel := aliasSuperModel0, undeterminedSites := 0 } with
    | .error e => .error e
    | .ok s =>
      let endsite := if s.aliaswgt s.i > 0 then s.i + 1 else s.i
      .ok { alias_ := s.alias_
            aliaswgt := s.aliaswgt
            endsite := endsite
            model := fun x =>
              if adef.useMultipleModel ∧ x ≤ rdta.sites then s.aliasModel x
              else model (x : Int)
            dataVector := fun x =>
              if adef.useMultipleModel ∧ x ≤ rdta.sites then s.aliasSuperModel x
              else dataVector (x : Int)
            undeterminedSites := s.undeterminedSites }

/-- Embedding of `makeweights` (axml.c): `alias[i] = i` for `i = 1 .. sites`,
then `sitesort` and `sitecombcrunch`. `alias0` and `aliaswgt0` are the
contents of the `malloc`ed arrays. -/
def makeweights (adef : analdef) (getUndetermined : Int → Nat) (model dataVector : Int → Int)
    (rdta : rawdata) (alias0 aliaswgt0 aliasModel0 aliasSuperModel0 : Nat → Int) :
    Except PrepHalt crunched :=
  let alias_ := forLoopFrom 1 (rdta.sites + 1) (fun i alias_ => store alias_ i (i : Int)) alias0
  match sitesort adef model rdta alias_ with
  | .error e => .error e
  | .ok alias_ =>
    sitecombcrunch adef getUndetermined model dataVector rdta alias_ aliaswgt0 aliasModel0
      aliasSuperModel0

/-- The fields `lower`, `upper` and `width` (`size_t`) of an element of
`tr->partitionData`. -/
structure pRange where
  lower : Nat
  upper : Nat
  width : Nat
  deriving DecidableEq, Repr

/-- The state of the first `while` loop of `makevalues`. -/
structure boundsState where
  partitionData : Nat → pRange
  model : Int
  modelCounter : Nat

/-- The state of the second `while` loop of `makevalues`. -/
structure relabelState where
  trModel : Nat → Int
  model : Int
  modelCounter : Nat

/-- What `makevalues` leaves behind: the compressed data `y0`, the ranges of
the partitions and the relabelled `tr->model`. -/
structure madeValues where
  y0 : Nat → Nat
  partitionData : Nat → pRange
  model : Nat → Int
  NumberOfModels : Nat

/-- The body of the first `while` loop of `makevalues`, which closes the
range of the current partition and opens the next one where the label
`tr->model[i]` changes. -/
def boundsStep (trModel : Nat → Int) (i : Nat) (b : boundsState) : boundsState :=
  if trModel i ≠ b.model then
    let pd := store b.partitionData b.modelCounter
      { b.partitionData b.modelCounter with upper := i }
    let pd := store pd (b.modelCounter + 1) { pd (b.modelCounter + 1) with lower := i }
    { partitionData := pd, model := trModel i, modelCounter := b.modelCounter + 1 }
  else b

/-- The body of the second `while` loop of `makevalues`, which replaces the
labels by the numbers of the runs. -/
def relabelStep (i : Nat) (r : relabelState) : relabelState :=
  if r.trModel i ≠ r.model then
    { trModel := store r.trModel i ((r.modelCounter + 1 : Nat) : Int)
      model := r.trModel i
      modelCounter := r.modelCounter + 1 }
  else { r with trModel := store r.trModel i (r.modelCounter : Int) }

/-- The assignment `partitionData[i].width = partitionData[i].upper - partitionData[i].lower`
in `size_t`. -/
def setWidth (p : pRange) : pRange :=
  { p with width := (p.upper + 18446744073709551616 - p.lower) % 18446744073709551616 }

/-- Embedding of `makevalues` (axml.c). `partitionData` is a function of every
index, so that a write past the `NumberOfModels` elements of the array is
seen in the result; `NumberOfModels` is at least 1. -/
def makevalues (adef : analdef) (rdta : rawdata) (cdta : crunched) (NumberOfModels : Nat)
    (partitionData : Nat → pRange) : Except PrepHalt madeValues :=
  let y0 : Nat → Nat :=
    forLoopFrom 1 (rdta.numsp + 1) (fun i y =>
      forLoop cdta.endsite (fun j y =>
        store y ((i - 1) * cdta.endsite + j) (rdta.y i (cdta.alias_ j))) y) (fun _ => 0)
  let NumberOfModels := if !adef.useMultipleModel then 1 else NumberOfModels
  if adef.useMultipleModel then
    let partitionData := store partitionData 0 { partitionData 0 with lower := 0 }
    let b := forLoopFrom 1 cdta.endsite (boundsStep cdta.model)
      { partitionData := partitionData, model := cdta.model 0, modelCounter := 0 }
    if (b.modelCounter : Int) < (NumberOfModels : Int) - 1 then .error (.exit (-1))
    else
      let pd := store b.partitionData (NumberOfModels - 1)
        { b.partitionData (NumberOfModels - 1) with upper := cdta.endsite }
      let pd := forLoop NumberOfModels (fun i pd => store pd i (setWidth (pd i))) pd
      let r := forLoopFrom 1 cdta.endsite relabelStep
        { trModel := store cdta.model 0 0, model := cdta.model 0, modelCounter := 0 }
      .ok { y0 := y0, partitionData := pd, model := r.trModel,
            NumberOfModels := NumberOfModels }
  else
    let pd := store partitionData 0 { partitionData 0 with lower := 0 }
    let pd := store pd 0 { pd 0 with upper := cdta.endsite }
    let pd := store pd 0 (setWidth (pd 0))
    .ok { y0 := y0, partitionData := pd, model := cdta.model, NumberOfModels := NumberOfModels }

/-- An alignment of four taxa and two sites, site 1 in partition 0 and site 2
in partition 1, in which the sites listed in `gaps` hold the undetermined
character 15 in every taxon and the other sites hold the code 1. -/
def exAlignment (gaps : List Int) : rawdata :=
  { sites := 2, numsp := 4, y := fun _ s => if s ∈ gaps then 15 else 1, wgt := fun _ => 1 }

/-- The partition labels of `exAlignment`. -/
def exLabels : Int → Int := fun s => if s = 1 then 0 else 1

/-! ### The ranges of a partition file (parsePartitions.c)

A line is the list of its characters up to the terminating `'\0'`, so that
the empty list stands for `*ch == '\0'`. -/

/-- The function `whitechar` of axml.c. -/
def whitechar (ch : Char) : Bool := ch = ' ' || ch = '\n' || ch = '\t' || ch = '\r'

/-- The function `lineContainsOnlyWhiteChars`. -/
def lineContainsOnlyWhiteChars (line : List Char) : Bool := line.all whitechar

/-- The function `isNum`. -/
def isNum (c : Char) : Bool :=
  c = '0' || c = '1' || c = '2' || c = '3' || c = '4' || c = '5' || c = '6' || c = '7' ||
    c = '8' || c = '9'

/-- The function `skipWhites`. -/
def skipWhites : List Char → List Char
  | [] => []
  | c :: cs => if c = ' ' ∨ c = '\t' then skipWhites cs else c :: cs

/-- The test `isNum(*ch)`. -/
def atNum (ch : List Char) : Bool :=
  match ch with
  | [] => false
  | c :: _ => isNum c

/-- The test `*ch == '\0' || *ch == '\n' || *ch == '\r'`. -/
def atLineEnd (ch : List Char) : Bool :=
  match ch with
  | [] => true
  | c :: _ => c = '\n' || c = '\r'

/-- The test `*ch == c`. -/
def atChar (c : Char) (ch : List Char) : Bool :=
  match ch with
  | [] => false
  | d :: _ => d = c

/-- The loop `while(isNum(*ch)) { buf[l] = *ch; ch++; l++; }`: the digits
copied into `buf` and the rest of the line. -/
def copyDigits : List Char → List Char × List Char
  | [] => ([], [])
  | c :: cs =>
    if isNum c then ((c :: (copyDigits cs).1), (copyDigits cs).2) else ([], c :: cs)

/-- The value `strtoimax(buf, &endptr, 10)` of a string of digits, which is
`INTMAX_MAX` when the number does not fit. -/
def strtoimax (buf : List Char) : Int :=
  min (buf.foldl (fun v c => 10 * v + ((c.toNat : Int) - 48)) 0) 9223372036854775807

/-- A number read into `char buf[256]` and converted; more than 255 digits
write past the end of the buffer. -/
def readNumber (ch : List Char) : Except ParseHalt (Int × List Char) :=
  if (copyDigits ch).1.length ≥ 256 then .error .pastEnd
  else .ok (strtoimax (copyDigits ch).1, (copyDigits ch).2)

/-- The part of `parsePartitions` from the label `numberPairs` to the label
`parsed` for one line: the triples `lower, upper, modulo` stored in
`partitions[i]`, where `modulo` is -1 without a `\`. Every round through
`numberPairs` reads a digit, and `fuel` bounds the number of rounds. -/
def numberPairs (compressPatterns : Bool) :
    Nat → List Char → List (Int × Int × Int) → Except ParseHalt (List (Int × Int × Int))
  | 0, _, _ => .error .diverges
  | fuel + 1, ch, pairs =>
    let ch := skipWhites ch
    if !atNum ch then .error (.exit (-1))
    else
      match readNumber ch with
      | .error e => .error e
      | .ok (lower, ch) =>
        let ch := skipWhites ch
        let second : Except ParseHalt (Int × List Char) :=
          if !atChar '-' ch && !atChar ',' ch then
            if atLineEnd ch then .ok (lower, ch) else .error (.exit (-1))
          else if atChar ',' ch then .ok (lower, ch)
          else
            let ch := skipWhites (ch.drop 1)
            if !atNum ch then .error (.exit (-1)) else readNumber ch
        match second with
        | .error e => .error e
        | .ok (upper, ch) =>
          if upper < lower then .error (.exit (-1))
          else
            let ch := skipWhites ch
            if atLineEnd ch then .ok (pairs ++ [(lower, upper, -1)])
            else if atChar ',' ch then
              numberPairs compressPatterns fuel (ch.drop 1) (pairs ++ [(lower, upper, -1)])
            else if atChar '\\' ch then
              let ch := skipWhites (ch.drop 1)
              if !atNum ch then .error (.exit (-1))
              else if compressPatterns = false then .error (.exit (-1))
              else
                match readNumber ch with
                | .error e => .error e
                | .ok (modulo, ch) =>
                  let ch := skipWhites ch
                  if atLineEnd ch then .ok (pairs ++ [(lower, upper, modulo)])
                  else if atChar ',' ch then
                    numberPairs compressPatterns fuel (ch.drop 1)
                      (pairs ++ [(lower, upper, modulo)])
                  else .error .abort
            else .error .abort

/-- The function `setModel` on the array `a = tr->model`. -/
def setModel (model : Int) (position : Int) (a : Int → Int) : Except ParseHalt (Int → Int) :=
  if a position = -1 then .ok (fun x => if x = position then model else a x)
  else .error (.exit (-1))

/-- The loop `for(k = lower; k <= upper; k += modulo) if(k <= rdta->sites) setModel(i, k, tr->model)`
from `k` on; `fuel` bounds the number of rounds. -/
def moduloLoop (i : Int) (sites : Nat) (upper modulo : Int) :
    Nat → Int → (Int → Int) → Except ParseHalt (Int → Int)
  | 0, k, a => if k ≤ upper then .error .diverges else .ok a
  | fuel + 1, k, a =>
    if k ≤ upper then
      if k ≤ sites then
        match setModel i k a with
        | .error e => .error e
        | .ok a => moduloLoop i sites upper modulo fuel (k + modulo) a
      else moduloLoop i sites upper modulo fuel (k + modulo) a
    else .ok a

/-- The assignment of the sites of one triple `lower, upper, modulo` of
partition `i`. -/
def assignRange (i : Int) (sites : Nat) (t : Int × Int × Int) (a : Int → Int) :
    Except ParseHalt (Int → Int) :=
  if t.2.2 = -1 then
    forLoopFromE t.1.toNat (t.2.1.toNat + 1) (fun k a => setModel i (k : Int) a) a
  else moduloLoop i sites t.2.1 t.2.2 ((t.2.1 - t.1).toNat + 2) t.1 a

/-- What `parsePartitions` leaves in the tree. -/
structure parsedPartitions where
  initialPartitionData : Nat → partitionModel
  model : Int → Int
  NumberOfModels : Nat

/-- The body of the loop of `parsePartitions` over the lines `p_names[i]`:
the identifier and the ranges of one line. -/
def parseLine (protModels : List (List Char)) (AUTO LG4M LG4X : Int) (compressPatterns : Bool)
    (line : List Char) (p : partitionModel) :
    Except ParseHalt (partitionModel × List (Int × Int × Int)) :=
  let ch := skipWhites line
  if atChar '=' ch then .error (.exit (-1))
  else
    match analyzeIdentifier protModels AUTO LG4M LG4X ch p with
    | .error e => .error e
    | .ok (p, ch) =>
      match numberPairs compressPatterns (ch.length + 1) (ch.drop 1) [] with
      | .error e => .error e
      | .ok pairs => .ok (p, pairs)

/-- Embedding of `parsePartitions` (parsePartitions.c) on the lines `file` of
the partition file. `proteinMatrix`, `protEmpiricalFreqs` and `adefModel` are
fields of `adef`; `garbage` is the content of the `malloc`ed array
`tr->initialPartitionData` and `model0` what surrounds the array `tr->model`. -/
def parsePartitions (protModels : List (List Char)) (AUTO LG4M LG4X : Int)
    (proteinMatrix protEmpiricalFreqs : Int) (adefModel : models) (compressPatterns : Bool)
    (sites : Nat) (file : List (List Char)) (garbage : Nat → partitionModel)
    (model0 : Int → Int) : Except ParseHalt parsedPartitions :=
  let p_names := file.filter (fun cc => !lineContainsOnlyWhiteChars cc)
  let numberOfModels := p_names.length
  let initialPartitionData : Nat → partitionModel := fun i =>
    if i < numberOfModels then
      { garbage i with protModels := proteinMatrix, protFreqs := protEmpiricalFreqs,
                       dataType := none }
    else garbage i
  match forLoopFromE 0 numberOfModels
      (fun i (s : (Nat → partitionModel) × (Nat → List (Int × Int × Int))) =>
        match parseLine protModels AUTO LG4M LG4X compressPatterns (p_names.getD i []) (s.1 i)
          with
        | .error e => .error e
        | .ok (p, pairs) => .ok (store s.1 i p, store s.2 i pairs))
      (initialPartitionData, fun _ => []) with
  | .error e => .error e
  | .ok (initialPartitionData, partitions) =>
    let model : Int → Int := fun x => if 0 ≤ x ∧ x ≤ sites then -1 else model0 x
    match forLoopFromE 0 numberOfModels (fun i model =>
        (partitions i).foldlM (fun model t => assignRange (i : Int) sites t model) model)
        model with
    | .error e => .error e
    | .ok model =>
      if (List.range' 1 sites).any (fun i => model (i : Int) = -1) then .error (.exit (-1))
      else
        match pomoChecks numberOfModels initialPartitionData adefModel with
        | .error e => .error e
        | .ok _ =>
          .ok { initialPartitionData := initialPartitionData, model := model,
                NumberOfModels := numberOfModels }

/-- A partition file with two partitions, the first of them made of the
sites 1-2 and 5-6. -/
def exPartitionFile : List (List Char) :=
  ["DNA, p1 = 1-2, 5-6\n".toList, "DNA, p2 = 3-4\n".toList]

/-- An alignment of four taxa and six sites that hold the code 1 in every
taxon. -/
def exSixSites : rawdata :=
  { sites := 6, numsp := 4, y := fun _ _ => 1, wgt := fun _ => 1 }

/-! ### The order of `sitesort` -/

/-- The key by which `sitesort` and `sitecombcrunch` compare the site `s`: its
category, when there are partitions, followed by its column, taxon by
taxon. `sitesort` orders the sites by their keys lexicographically. -/
def siteKey (useMultipleModel : Bool) (category : Int → Int) (data : Nat → Int → Nat)
    (nsp : Nat) (s : Int) : List Int :=
  (if useMultipleModel then category s else 0) ::
    (List.range' 1 nsp).map (fun k => (data k s : Int))

/-- The entries `index[1], ..., index[n]` are the sites `1, ..., n` in some
order. -/
def IsPermutation (n : Nat) (index : Nat → Int) : Prop :=
  ∃ σ : Equiv.Perm Nat, (∀ x, ¬ (1 ≤ x ∧ x ≤ n) → σ x = x) ∧
    ∀ x, 1 ≤ x → x ≤ n → index x = (σ x : Int)

/-- The keys of `index[1], ..., index[n]` do not decrease. -/
def SortedByKey (key : Int → List Int) (n : Nat) (index : Nat → Int) : Prop :=
  ∀ x y, 1 ≤ x → x ≤ y → y ≤ n → key (index x) ≤ key (index y)

/-- The state of the insertion of `index[i]` into `index[1 .. i-1]` when the
entry on its way down stands at `j + 1`: the other entries are in order, and
the entry at `j + 1` is not above those that follow it. -/
def InsertionInv (key : Int → List Int) (i j : Nat) (index : Nat → Int) : Prop :=
  (∀ x y, 1 ≤ x → x ≤ y → y ≤ i → x ≠ j + 1 → y ≠ j + 1 → key (index x) ≤ key (index y)) ∧
  ∀ y, j + 2 ≤ y → y ≤ i → key (index (j + 1)) ≤ key (index y)

/-! ### What `sitecombcrunch` computes -/

/-- The state that the body of the loop of `sitecombcrunch` leaves when the
site at `j` is tied with the current pattern. -/
def crunchTied (adef : analdef) (model dataVector : Int → Int) (rdta : rawdata) (j : Nat)
    (s : crunchState) : crunchState :=
  { s with
    aliaswgt := store s.aliaswgt s.i (s.aliaswgt s.i + rdta.wgt (s.alias_ j))
    aliasModel :=
      if adef.useMultipleModel then store s.aliasModel s.i (model (s.alias_ j))
      else s.aliasModel
    aliasSuperModel :=
      if adef.useMultipleModel then store s.aliasSuperModel s.i (dataVector (s.alias_ j))
      else s.aliasSuperModel }

/-- The state that the body of the loop of `sitecombcrunch` leaves when the
site at `j` opens a new pattern. -/
def crunchNew (adef : analdef) (model dataVector : Int → Int) (rdta : rawdata) (j : Nat)
    (s : crunchState) : crunchState :=
  { s with
    i := if s.aliaswgt s.i > 0 then s.i + 1 else s.i
    aliaswgt := store s.aliaswgt (if s.aliaswgt s.i > 0 then s.i + 1 else s.i)
      (rdta.wgt (s.alias_ j))
    alias_ := store s.alias_ (if s.aliaswgt s.i > 0 then s.i + 1 else s.i) (s.alias_ j)
    aliasModel :=
      if adef.useMultipleModel then
        store s.aliasModel (if s.aliaswgt s.i > 0 then s.i + 1 else s.i) (model (s.alias_ j))
      else s.aliasModel
    aliasSuperModel :=
      if adef.useMultipleModel then
        store s.aliasSuperModel (if s.aliaswgt s.i > 0 then s.i + 1 else s.i)
          (dataVector (s.alias_ j))
      else s.aliasSuperModel }

/-- The number of patterns that the state of `sitecombcrunch` holds, as in
`cdta->endsite = i; if (cdta->aliaswgt[i] > 0) cdta->endsite++`. -/
def crunchState.patterns (s : crunchState) : Nat :=
  if s.aliaswgt s.i > 0 then s.i + 1 else s.i

/-- The state of `sitecombcrunch` after the sites `A[1], ..., A[m]` of the
index array `A` have been read; `G` tells the sites that are entirely
undetermined. The entries of `alias` beyond `m` are those of `A`; as long as
no pattern has been opened `alias[0]` is `A[1]` and every site read was
entirely undetermined; afterwards every pattern up to `i` has a positive
weight and stands for a site read that is not entirely undetermined, the
weights add up to the number of such sites, and with partitions the labels
recorded are those of the patterns. -/
structure CrunchInv (umm : Bool) (model dataVector : Int → Int) (G : Int → Bool)
    (A : Nat → Int) (m : Nat) (s : crunchState) : Prop where
  i_le : s.i ≤ m
  frame : ∀ x, m < x → s.alias_ x = A x
  fresh : ¬ s.aliaswgt s.i > 0 →
    s.i = 0 ∧ s.aliaswgt 0 = 0 ∧ s.alias_ 0 = A 1 ∧
      ∀ j, 1 ≤ j → j ≤ m → G (A j) = true
  pat : s.aliaswgt s.i > 0 → ∀ k, k ≤ s.i →
    1 ≤ s.aliaswgt k ∧ ∃ j, 1 ≤ j ∧ j ≤ m ∧ s.alias_ k = A j ∧ G (A j) = false
  total : ∑ k in Finset.range (s.i + 1), s.aliaswgt k =
    (((Finset.Icc 1 m).filter (fun j => G (A j) = false)).card : Int)
  labels : umm = true → s.aliaswgt s.i > 0 → ∀ k, k ≤ s.i →
    s.aliasModel k = model (s.alias_ k) ∧ s.aliasSuperModel k = dataVector (s.alias_ k)

/-- What `getinput` and `parsePartitions` provide for the index array `A` of
the `n` sites: every weight is 1, and sites of the same partition (all the
sites when there are no partitions) have the same data type. -/
structure CrunchHyp (adef : analdef) (model dataVector : Int → Int) (rdta : rawdata)
    (A : Nat → Int) (n : Nat) : Prop where
  wgt_one : ∀ j, 1 ≤ j → j ≤ n → rdta.wgt (A j) = 1
  dv : ∀ j1 j2, 1 ≤ j1 → j1 ≤ n → 1 ≤ j2 → j2 ≤ n →
    (adef.useMultipleModel = true → model (A j1) = model (A j2)) →
    dataVector (A j1) = dataVector (A j2)

/-- Without pattern compression, after the sites `A[1], ..., A[m]` have been
read: the patterns are the sites read that are not entirely undetermined, in
the order in which they were read, each with the weight 1. -/
def NoCompInv (G : Int → Bool) (A : Nat → Int) (m : Nat) (s : crunchState) : Prop :=
  (List.range s.patterns).map s.alias_ =
      ((List.range' 1 m).filter (fun j => G (A j) = false)).map A ∧
    ∀ k, k < s.patterns → s.aliaswgt k = 1

/-! ### What `makevalues` computes -/

/-- The number of the run of equal labels to which pattern `i` belongs: the
number of indices `j` with `1 <= j <= i` and `L[j] != L[j-1]`. -/
def runIndex (L : Nat → Int) : Nat → Nat
  | 0 => 0
  | i + 1 => if L (i + 1) ≠ L i then runIndex L i + 1 else runIndex L i

/-- The state of the first loop of `makevalues` before it reads pattern `m`:
the ranges of the runs found so far start where the runs start and follow
one another, and the other elements of `partitionData` are untouched. -/
structure BoundsInv (L : Nat → Int) (pd0 : Nat → pRange) (m : Nat) (b : boundsState) :
    Prop where
  model_eq : b.model = L (m - 1)
  counter_eq : b.modelCounter = runIndex L (m - 1)
  lower_spec : ∀ r, r ≤ b.modelCounter →
    runIndex L (b.partitionData r).lower = r ∧ (b.partitionData r).lower ≤ m - 1 ∧
      ∀ i, i < (b.partitionData r).lower → runIndex L i < r
  upper_spec : ∀ r, r < b.modelCounter →
    (b.partitionData r).upper = (b.partitionData (r + 1)).lower
  frame : ∀ r, b.modelCounter < r → b.partitionData r = pd0 r

/-- The state of the second loop of `makevalues` before it reads pattern
`m`. -/
structure RelabelInv (L : Nat → Int) (m : Nat) (r : relabelState) : Prop where
  model_eq : r.model = L (m - 1)
  counter_eq : r.modelCounter = runIndex L (m - 1)
  done : ∀ i, i < m → r.trModel i = (runIndex L i : Int)
  rest : ∀ i, m ≤ i → r.trModel i = L i

/-- With pattern compression and a sorted index array `A`, after the sites
`A[1], ..., A[m]` have been read: a pattern has been opened as soon as a site
has been read, the keys of the patterns increase strictly, the weight of a
pattern is the number of sites read that have its key, and every site read
that is not entirely undetermined has the key of a pattern. -/
structure SortedInv (key : Int → List Int) (G : Int → Bool) (A : Nat → Int) (m : Nat)
    (s : crunchState) : Prop where
  acc : 1 ≤ m → s.aliaswgt s.i > 0
  incr : ∀ k k', k < k' → k' ≤ s.i → key (s.alias_ k) < key (s.alias_ k')
  count : s.aliaswgt s.i > 0 → ∀ k, k ≤ s.i →
    s.aliaswgt k = (((Finset.Icc 1 m).filter (fun j => key (A j) = key (s.alias_ k))).card : Int)
  cover : ∀ j, 1 ≤ j → j ≤ m → G (A j) = false →
    ∃ k, k ≤ s.i ∧ key (s.alias_ k) = key (A j)

/-! ## Writing and reading the sections of the binary alignment file -/

/-- The conversion `(size_t) v` of an `int`. -/
def sizeT (v : Int) : Nat := (v % 18446744073709551616).toNat

/-- The bytes of the C string that starts the character array `s`, the
terminating NUL included. -/
def cstring (s : List Nat) : List Nat := s.take (strlen s) ++ [0]

/-- The fields of `pInfo` that `main` (parser, axml.c) writes to the binary
file; `frequencies` holds 64-bit patterns. -/
structure pInfoParser where
  states : Int
  maxTipStates : Int
  lower : Nat
  upper : Nat
  width : Nat
  dataType : Int
  protModels : Int
  protFreqs : Int
  nonGTR : Int
  optimizeBaseFrequencies : Int
  partitionName : List Nat
  frequencies : Nat → Nat

/-- The values that `main` (parser, axml.c) holds when it writes the binary
file. `gapyness` is the 64-bit pattern of `adef->gapyness`; `nameList i` and
`pomoSpeciesNameList i` are character arrays; `y0` is the array `rdta->y0`;
`pomoBuffer model i k` is the 64-bit pattern of entry `k` of the buffer that
`buildPomoCLV` fills for species `i` and partition `model`. -/
structure parserData where
  model : models
  numberOfPomoSpecies : Int
  mxtips : Int
  originalCrunchedLength : Nat
  NumberOfModels : Int
  gapyness : Nat
  aliaswgt : Nat → Int
  nameList : Nat → List Nat
  pomoSpeciesNameList : Nat → List Nat
  partitionData : Nat → pInfoParser
  y0 : Nat → Nat
  pomoBuffer : Nat → Nat → Nat → Nat

/-- The test `adef->model == M_POMOGAMMA_16 || adef->model == M_POMOGAMMA_64`
of `main`. -/
def parserData.pomoModel (tr : parserData) : Bool :=
  tr.model = .M_POMOGAMMA_16 || tr.model = .M_POMOGAMMA_64

/-- The three `int`s that open the file: `sizeof(size_t)`, the version and the
magic number. -/
def writeMagic (programVersionInt : Int) : List Nat :=
  intBytes (sizeof_size_t : Int) ++ intBytes programVersionInt ++ intBytes 6517718

/-- The taxa count that `main` writes. -/
def parserData.numTax (tr : parserData) : Int :=
  if tr.pomoModel then tr.numberOfPomoSpecies else tr.mxtips

/-- The header fields that `main` writes: taxa count, `originalCrunchedLength`,
`NumberOfModels` and `gapyness`. -/
def writeHeader (tr : parserData) : List Nat :=
  intBytes tr.numTax ++ toBytes sizeof_size_t (tr.originalCrunchedLength % 18446744073709551616) ++
    intBytes tr.NumberOfModels ++ toBytes sizeof_double tr.gapyness

/-- The call `myBinFwrite(tr->cdta->aliaswgt, sizeof(int),
tr->originalCrunchedLength)`. -/
def writeWeights (tr : parserData) : List Nat :=
  (List.range tr.originalCrunchedLength).flatMap (fun i => intBytes (tr.aliaswgt i))

/-- The two writes for one species name under a PoMo model: `int len =
(int)strlen(name) + 1`, written in full, then `(size_t)len` characters. -/
def writePomoSpeciesName (name : List Nat) : List Nat :=
  let len : Int := toInt (strlen name % 4294967296) + 1
  intBytes len ++ (cstring name).take (sizeT len)

/-- The two writes for a taxon or partition name: `size_t len = strlen(name) +
1`, of which the first `sizeof(int)` bytes are written, then `len`
characters. -/
def writeName (name : List Nat) : List Nat :=
  let len : Nat := (strlen name + 1) % 18446744073709551616
  (toBytes sizeof_size_t len).take sizeof_int ++ (cstring name).take len

/-- The names that `main` writes: those of the PoMo species under a PoMo
model, otherwise `nameList[1 .. mxtips]`. -/
def parserData.writtenNames (tr : parserData) : List (List Nat) :=
  if tr.pomoModel then (List.range (sizeT tr.numberOfPomoSpecies)).map tr.pomoSpeciesNameList
  else (List.range (sizeT tr.mxtips)).map (fun i => tr.nameList (i + 1))

/-- The taxa section that `main` writes. -/
def writeTaxa (tr : parserData) : List Nat :=
  if tr.pomoModel then tr.writtenNames.flatMap writePomoSpeciesName
  else tr.writtenNames.flatMap writeName

/-- The writes of `main` for the metadata of one partition. -/
def writePartition (p : pInfoParser) : List Nat :=
  intBytes p.states ++ intBytes p.maxTipStates ++
  toBytes sizeof_size_t p.lower ++ toBytes sizeof_size_t p.upper ++ toBytes sizeof_size_t p.width ++
  intBytes p.dataType ++ intBytes p.protModels ++ intBytes p.protFreqs ++
  intBytes p.nonGTR ++ intBytes p.optimizeBaseFrequencies ++
  writeName p.partitionName ++
  (List.range (sizeT p.states)).flatMap (fun i => toBytes sizeof_double (p.frequencies i))

/-- The partitions that `main` writes. -/
def parserData.writtenPartitions (tr : parserData) : List pInfoParser :=
  (List.range (sizeT tr.NumberOfModels)).map tr.partitionData

/-- The partition section that `main` writes. -/
def writePartitions (tr : parserData) : List Nat :=
  tr.writtenPartitions.flatMap writePartition

/-- The writes of `main` for the data of partition `model`: under a PoMo data
type one buffer of `states * width` doubles per species, otherwise `width`
characters of `y0` per taxon, where `width = p->upper - p->lower`. -/
def writePartitionData (POMO_16 POMO_64 : Int) (tr : parserData) (model : Nat) : List Nat :=
  let p := tr.partitionData model
  let width := p.upper - p.lower
  if p.dataType = POMO_16 ∨ p.dataType = POMO_64 then
    (List.range (sizeT tr.numberOfPomoSpecies)).flatMap (fun i =>
      (List.range (sizeT p.states * width)).flatMap (fun k =>
        toBytes sizeof_double (tr.pomoBuffer model i k)))
  else
    (List.range (sizeT tr.mxtips)).flatMap (fun i =>
      (List.range width).map (fun k => tr.y0 (i * tr.originalCrunchedLength + p.lower + k)))

/-- The alignment section that `main` writes. -/
def writeAlignment (POMO_16 POMO_64 : Int) (tr : parserData) : List Nat :=
  (List.range (sizeT tr.NumberOfModels)).flatMap (writePartitionData POMO_16 POMO_64 tr)

/-- Embedding of the block of `main` (parser, axml.c) that writes the binary
alignment file: the bytes written, in the order of the calls of
`myBinFwrite`. `POMO_16` and `POMO_64` are the values of these constants of
`axml.h`. -/
def writeByteFile (programVersionInt POMO_16 POMO_64 : Int) (tr : parserData) : List Nat :=
  writeMagic programVersionInt ++ (writeHeader tr ++ (writeWeights tr ++ (writeTaxa tr ++
    (writePartitions tr ++ writeAlignment POMO_16 POMO_64 tr))))

/-- The bytes that `main` writes before the section `s`. -/
def bytesBefore (programVersionInt : Int) (tr : parserData) : Section → List Nat
  | .ALN_HEAD => writeMagic programVersionInt
  | .ALN_WEIGHTS => writeMagic programVersionInt ++ writeHeader tr
  | .ALN_TAXA => writeMagic programVersionInt ++ (writeHeader tr ++ writeWeights tr)
  | .ALN_PARTITIONS =>
    writeMagic programVersionInt ++ (writeHeader tr ++ (writeWeights tr ++ writeTaxa tr))
  | .ALN_ALIGNMENT =>
    writeMagic programVersionInt ++ (writeHeader tr ++ (writeWeights tr ++ (writeTaxa tr ++
      writePartitions tr)))

/-- The bytes that the partitions `bf->partitions[0 .. numPartitions-1]` take
in the file, as `seekPos` adds them up under `case ALN_ALIGNMENT`. -/
def skipPartitions (bf : ByteFile) (parts : List pInfoFile) : Int :=
  bf.numPartitions * 52 +
    ((List.range bf.numPartitions.toNat).map (fun i =>
      match parts[i]? with
      | some pp => (((strlen pp.partitionName + 1) * sizeof_char + sizeof_int : Nat) : Int) +
          ((sizeof_double * sizeT pp.states : Nat) : Int)
      | none => 0)).sum

/-- The bytes that the names `bf->taxaNames[0 .. numTax-1]` take in the file,
as `seekPos` adds them up under `case ALN_PARTITIONS`. -/
def skipTaxa (bf : ByteFile) (names : List (List Nat)) : Int :=
  ((List.range bf.numTax.toNat).map (fun i =>
    match names[i]? with
    | some name => (((strlen name + 1) * sizeof_char + sizeof_int : Nat) : Int)
    | none => 0)).sum

/-- Embedding of `seekPos` (byteFile.c): the fall-through switch adds up the
bytes of the sections before `pos`, after the assertions on `hasRead`, and
`exa_fseek` moves the file position there (a negative offset leaves it
unchanged). The sum is taken in the integers. -/
def seekPos (bf : ByteFile) (pos : Section) : Except Halt ByteFile :=
  let alignment : Except Halt Int :=
    if pos = .ALN_ALIGNMENT then
      if bf.hasRead .ALN_PARTITIONS then
        match bf.partitions with
        | some parts => .ok (skipPartitions bf parts)
        | none => .error .abort
      else .error .abort
    else .ok 0
  let partitions : Except Halt Int :=
    if pos = .ALN_ALIGNMENT ∨ pos = .ALN_PARTITIONS then
      if bf.hasRead .ALN_TAXA then
        match bf.taxaNames with
        | some names => .ok (skipTaxa bf names)
        | none => .error .abort
      else .error .abort
    else .ok 0
  let taxa : Except Halt Int :=
    if pos = .ALN_ALIGNMENT ∨ pos = .ALN_PARTITIONS ∨ pos = .ALN_TAXA then
      if bf.hasRead .ALN_HEAD then .ok ((bf.numPattern * sizeof_int : Nat) : Int)
      else .error .abort
    else .ok 0
  let weights : Int :=
    if pos = .ALN_HEAD then 0
    else ((sizeof_int + sizeof_size_t + sizeof_int + sizeof_double : Nat) : Int)
  match alignment with
  | .error e => .error e
  | .ok a =>
    match partitions with
    | .error e => .error e
    | .ok p =>
      match taxa with
      | .error e => .error e
      | .ok t =>
        let toSkip : Int := a + p + t + weights + ((3 * sizeof_int : Nat) : Int)
        .ok { bf with pos := if 0 ≤ toSkip then toSkip.toNat else bf.pos }

/-- The bit `hasRead |= s`. -/
def ByteFile.setRead (bf : ByteFile) (s : Section) : ByteFile :=
  { bf with hasRead := fun t => if t = s then true else bf.hasRead t }

/-- Embedding of `readHeader` (byteFile.c). -/
def readHeader (bf : ByteFile) : Except Halt ByteFile :=
  match seekPos bf .ALN_HEAD with
  | .error e => .error e
  | .ok bf =>
    match READ_VAR bf.fh bf.pos sizeof_int with
    | .error e => .error e
    | .ok (numTax, pos) =>
      match READ_VAR bf.fh pos sizeof_size_t with
      | .error e => .error e
      | .ok (numPattern, pos) =>
        match READ_VAR bf.fh pos sizeof_int with
        | .error e => .error e
        | .ok (numPartitions, pos) =>
          match READ_VAR bf.fh pos sizeof_double with
          | .error e => .error e
          | .ok (gappyness, pos) =>
            .ok ({ bf with pos := pos, numTax := toInt numTax, numPattern := numPattern,
                           numPartitions := toInt numPartitions,
                           gappyness := gappyness }.setRead .ALN_HEAD)

/-- An array of `n` bytes from `calloc` after `READ_ARRAY` has stored the bytes
`read` at its start. -/
def callocRead (n : Nat) (read : List Nat) : List Nat :=
  read ++ List.replicate (n - read.length) 0

/-- The loop of `readTaxa` for the `n` names that remain, from the file
position `pos`, after the names `names` have been read. -/
def readTaxaLoop (fh : List Nat) : Nat → Nat → List (List Nat) →
    Except Halt (List (List Nat) × Nat)
  | 0, pos, names => .ok (names, pos)
  | n + 1, pos, names =>
    match READ_VAR fh pos sizeof_int with
    | .error e => .error e
    | .ok (len, pos) =>
      match READ_ARRAY fh pos (sizeT (toInt len)) sizeof_char with
      | .error e => .error e
      | .ok (name, pos) =>
        readTaxaLoop fh n pos (names ++ [callocRead (sizeT (toInt len)) name])

/-- Embedding of `readTaxa` (byteFile.c). -/
def readTaxa (bf : ByteFile) : Except Halt ByteFile :=
  match bf.taxaNames with
  | some _ => .error .abort
  | none =>
    match seekPos bf .ALN_TAXA with
    | .error e => .error e
    | .ok bf =>
      match readTaxaLoop bf.fh bf.numTax.toNat bf.pos [] with
      | .error e => .error e
      | .ok (names, pos) =>
        .ok ({ bf with pos := pos, taxaNames := some names }.setRead .ALN_TAXA)

/-- The 64-bit patterns of the first `n` doubles of a byte array. -/
def doublesOf (n : Nat) (bytes : List Nat) : List Nat :=
  (List.range n).map (fun k => ofBytes ((bytes.drop (sizeof_double * k)).take sizeof_double))

/-- The body of the loop of `readPartitions`: the reads for one partition
from the file position `pos`. The fields outside the file are zero from
`calloc`. -/
def readPartition (fh : List Nat) (pos : Nat) : Except Halt (pInfoFile × Nat) :=
  match READ_VAR fh pos sizeof_int with
  | .error e => .error e
  | .ok (states, pos) =>
  match READ_VAR fh pos sizeof_int with
  | .error e => .error e
  | .ok (maxTipStates, pos) =>
  match READ_VAR fh pos sizeof_size_t with
  | .error e => .error e
  | .ok (lower, pos) =>
  match READ_VAR fh pos sizeof_size_t with
  | .error e => .error e
  | .ok (upper, pos) =>
  match READ_VAR fh pos sizeof_size_t with
  | .error e => .error e
  | .ok (_, pos) =>
  match READ_VAR fh pos sizeof_int with
  | .error e => .error e
  | .ok (dataType, pos) =>
  match READ_VAR fh pos sizeof_int with
  | .error e => .error e
  | .ok (protModels, pos) =>
  match READ_VAR fh pos sizeof_int with
  | .error e => .error e
  | .ok (protFreqs, pos) =>
  match READ_VAR fh pos sizeof_boolean with
  | .error e => .error e
  | .ok (nonGTR, pos) =>
  match READ_VAR fh pos sizeof_boolean with
  | .error e => .error e
  | .ok (optimizeBaseFrequencies, pos) =>
  match READ_VAR fh pos sizeof_int with
  | .error e => .error e
  | .ok (len, pos) =>
  match READ_ARRAY fh pos len sizeof_char with
  | .error e => .error e
  | .ok (partitionName, pos) =>
  match READ_ARRAY fh pos (sizeT (toInt states)) sizeof_double with
  | .error e => .error e
  | .ok (frequencies, pos) =>
    .ok ({ states := toInt states, maxTipStates := toInt maxTipStates, lower := lower,
           upper := upper, width := 0, offset := 0, dataType := toInt dataType,
           protModels := toInt protModels, protFreqs := toInt protFreqs, nonGTR := toInt nonGTR,
           optimizeBaseFrequencies := toInt optimizeBaseFrequencies,
           partitionName := callocRead len partitionName,
           frequencies := doublesOf (sizeT (toInt states))
             (callocRead (sizeof_double * sizeT (toInt states)) frequencies),
           yResource := fun _ => 0, xResource := fun _ => 0, wgt := fun _ => 0 }, pos)

/-- The loop of `readPartitions` for the `n` partitions that remain. -/
def readPartitionsLoop (fh : List Nat) : Nat → Nat → List pInfoFile →
    Except Halt (List pInfoFile × Nat)
  | 0, pos, parts => .ok (parts, pos)
  | n + 1, pos, parts =>
    match readPartition fh pos with
    | .error e => .error e
    | .ok (p, pos) => readPartitionsLoop fh n pos (parts ++ [p])

/-- Embedding of `readPartitions` (byteFile.c). -/
def readPartitions (bf : ByteFile) : Except Halt ByteFile :=
  match seekPos bf .ALN_PARTITIONS with
  | .error e => .error e
  | .ok bf =>
    match bf.partitions with
    | some _ => .error .abort
    | none =>
      match readPartitionsLoop bf.fh bf.numPartitions.toNat bf.pos [] with
      | .error e => .error e
      | .ok (parts, pos) =>
        .ok ({ bf with pos := pos, partitions := some parts }.setRead .ALN_PARTITIONS)

/-- The partition record that `readPartitions` is to build from the fields
`main` wrote for `p`. -/
def pInfoParser.asRead (p : pInfoParser) : pInfoFile :=
  { states := p.states, maxTipStates := p.maxTipStates, lower := p.lower, upper := p.upper,
    width := 0, offset := 0, dataType := p.dataType, protModels := p.protModels,
    protFreqs := p.protFreqs, nonGTR := p.nonGTR,
    optimizeBaseFrequencies := p.optimizeBaseFrequencies,
    partitionName := cstring p.partitionName,
    frequencies := (List.range (sizeT p.states)).map p.frequencies,
    yResource := fun _ => 0, xResource := fun _ => 0, wgt := fun _ => 0 }

/-- The value `v` is one that an `int` holds. -/
def IsInt (v : Int) : Prop := -2147483648 ≤ v ∧ v < 2147483648

/-- The fields of a partition that `main` writes hold values of their C types:
`int`s, `size_t`s and doubles, a state count that is not negative, and a name
shorter than `INT_MAX`. -/
structure pInfoParser.InRange (p : pInfoParser) : Prop where
  states_nonneg : 0 ≤ p.states
  states : IsInt p.states
  maxTipStates : IsInt p.maxTipStates
  lower : p.lower < 18446744073709551616
  upper : p.upper < 18446744073709551616
  dataType : IsInt p.dataType
  protModels : IsInt p.protModels
  protFreqs : IsInt p.protFreqs
  nonGTR : IsInt p.nonGTR
  optimizeBaseFrequencies : IsInt p.optimizeBaseFrequencies
  name : strlen p.partitionName + 1 < 2147483648
  frequencies : ∀ i, i < sizeT p.states → p.frequencies i < 18446744073709551616

/-- The values that `main` writes hold values of their C types: the taxa and
partition counts are `int`s that are not negative, the pattern count is a
`size_t`, `gapyness` a double, every name is shorter than `INT_MAX` and every
partition is in range. -/
structure parserData.InRange (tr : parserData) : Prop where
  numTax_nonneg : 0 ≤ tr.numTax
  numTax : IsInt tr.numTax
  numPattern : tr.originalCrunchedLength < 18446744073709551616
  models_nonneg : 0 ≤ tr.NumberOfModels
  models : IsInt tr.NumberOfModels
  gapyness : tr.gapyness < 18446744073709551616
  names : ∀ name, name ∈ tr.writtenNames → strlen name + 1 < 2147483648
  partitions : ∀ p, p ∈ tr.writtenPartitions → p.InRange

/-! ## Reading the data of a process (readMyData) -/

/-- Modelled from the spec: the struct `Assignment` of
`partitionAssignment.h`, outside the given sources: the slice `offset ..
offset + width - 1` of the partition `partId`. The fields `offset` and `width`
are taken to be of type `size_t`, as the arithmetic of `readMyData` on them
suggests. -/
structure Assignment where
  partId : Nat
  offset : Nat
  width : Nat
  deriving DecidableEq, Repr

/-- Modelled from the spec: the function `isPomo` of the likelihood program,
outside the given sources; `POMO_16` and `POMO_64` are the values of these
constants of `axml.h`. -/
def isPomo (POMO_16 POMO_64 dataType : Int) : Bool :=
  dataType = POMO_16 || dataType = POMO_64

/-- The array of `unsigned char` that holds the bytes `bytes`. -/
def charArrayOf (bytes : List Nat) : Nat → Nat := fun i => bytes.getD i 0

/-- The array of doubles (64-bit patterns) that holds the bytes `bytes`. -/
def doubleArrayOf (bytes : List Nat) : Nat → Nat :=
  fun k => ofBytes ((bytes.drop (sizeof_double * k)).take sizeof_double)

/-- The array of `int` that holds the bytes `bytes`. -/
def intArrayOf (bytes : List Nat) : Nat → Int :=
  fun k => toInt (ofBytes ((bytes.drop (sizeof_int * k)).take sizeof_int))

/-- The branch of `readMyData` for an assignment that covers the partition:
one seek to the data of the partition and one call of `READ_ARRAY` for the
characters (or, under PoMo, the tip vectors) of all taxa. `alnPos` is the file
position of the alignment section. -/
def readBlock (pomo : Bool) (bf : ByteFile) (alnPos : Nat) (a : Assignment)
    (partition : pInfoFile) : Except Halt (pInfoFile × Nat) :=
  let numTax := sizeT bf.numTax
  let states := sizeT partition.states
  if pomo then
    let pos : Int := (alnPos : Int) +
      (partition.lower : Int) * bf.numTax * partition.states * (sizeof_double : Int)
    if pos < alnPos then .error .abort
    else
      match READ_ARRAY_product bf.fh pos.toNat a.width (numTax * states) sizeof_double with
      | .error e => .error e
      | .ok (bytes, filePos) =>
        .ok ({ partition with
               xResource := blit partition.xResource 0 (bytes.length / sizeof_double)
                 (doubleArrayOf bytes) }, filePos)
  else
    let pos : Int := (alnPos : Int) +
      ((partition.lower : Int) * bf.numTax) * (sizeof_char : Int)
    if pos < alnPos then .error .abort
    else
      match READ_ARRAY_product bf.fh pos.toNat a.width numTax sizeof_char with
      | .error e => .error e
      | .ok (bytes, filePos) =>
        .ok ({ partition with
               yResource := blit partition.yResource 0 bytes.length (charArrayOf bytes) },
             filePos)

/-- The branch of `readMyData` for an assignment that does not cover the
partition: for every taxon `j = 1 .. numTax` one seek and one call of
`READ_ARRAY` into `yVector[j] = yResource + (j-1) * width` (under PoMo into
`xTipCLV[j] = xResource + (j-1) * width * states`). -/
def readPerTaxon (pomo : Bool) (bf : ByteFile) (alnPos : Nat) (a : Assignment)
    (partition : pInfoFile) (filePos : Nat) : Except Halt (pInfoFile × Nat) :=
  let states := sizeT partition.states
  forLoopFromE 1 (bf.numTax.toNat + 1) (fun j (s : pInfoFile × Nat) =>
    let partition := s.1
    if pomo then
      let pos : Int := (alnPos : Int) + (sizeof_double : Int) * partition.states *
        ((partition.lower : Int) * bf.numTax +
          ((j : Int) - 1) * ((partition.upper : Int) - (partition.lower : Int)) +
          (a.offset : Int))
      if pos < alnPos then .error .abort
      else
        match READ_ARRAY_product bf.fh pos.toNat a.width states sizeof_double with
        | .error e => .error e
        | .ok (bytes, filePos) =>
          .ok ({ partition with
                 xResource := blit partition.xResource
                   ((j - 1) * a.width * states % 18446744073709551616)
                   (bytes.length / sizeof_double) (doubleArrayOf bytes) }, filePos)
    else
      let pos : Int := (alnPos : Int) + (sizeof_char : Int) *
        ((partition.lower : Int) * bf.numTax +
          ((j : Int) - 1) * ((partition.upper : Int) - (partition.lower : Int)) +
          (a.offset : Int))
      if pos < alnPos then .error .abort
      else
        match READ_ARRAY bf.fh pos.toNat a.width sizeof_char with
        | .error e => .error e
        | .ok (bytes, filePos) =>
          .ok ({ partition with
                 yResource := blit partition.yResource
                   ((j - 1) * a.width % 18446744073709551616) bytes.length
                   (charArrayOf bytes) }, filePos))
    (partition, filePos)

/-- The first loop body of `readMyData` for the assignment `a` of the
partition `partition`: the width and offset are set, the tip array is
allocated and zeroed, and the characters (or tip vectors under PoMo) are read,
in one block when the assignment covers the partition (`a.width == upper -
lower`, in `size_t`), otherwise taxon by taxon. `alnPos` is the file position
of the alignment section; the result carries the file position after the last
read. -/
def readAssignedData (POMO_16 POMO_64 : Int) (bf : ByteFile) (alnPos : Nat) (a : Assignment)
    (partition : pInfoFile) (filePos : Nat) : Except Halt (pInfoFile × Nat) :=
  let partition := { partition with width := a.width, offset := a.offset }
  let pomo := isPomo POMO_16 POMO_64 partition.dataType
  let partition :=
    if pomo then { partition with xResource := fun _ => 0 }
    else { partition with yResource := fun _ => 0 }
  if a.width = (partition.upper + 18446744073709551616 - partition.lower) %
      18446744073709551616 then
    readBlock pomo bf alnPos a partition
  else readPerTaxon pomo bf alnPos a partition filePos

/-- The second loop body of `readMyData` for the assignment `a`: the weights
`wgt[0 .. width-1]` of the partition are allocated, zeroed and read. `wgtPos`
is the file position of the weight section. -/
def readAssignedWeights (bf : ByteFile) (wgtPos : Nat) (a : Assignment) (partition : pInfoFile) :
    Except Halt (pInfoFile × Nat) :=
  let pos : Int := (wgtPos : Int) +
    ((partition.lower : Int) + (a.offset : Int)) * (sizeof_int : Int)
  if pos < wgtPos then .error .abort
  else
    match READ_ARRAY bf.fh pos.toNat a.width sizeof_int with
    | .error e => .error e
    | .ok (bytes, filePos) =>
      .ok ({ partition with
             wgt := blit (fun _ => 0) 0 (bytes.length / sizeof_int) (intArrayOf bytes) },
           filePos)

/-- One pass of the first loop of `readMyData`: the partition
`bf->partitions[a.partId]` is read and stored back. An assignment to a
partition outside `bf->partitions` ends in `abort`. -/
def readDataStep (POMO_16 POMO_64 : Int) (bf : ByteFile) (alnPos : Nat)
    (s : List pInfoFile × Nat) (a : Assignment) : Except Halt (List pInfoFile × Nat) :=
  match s.1[a.partId]? with
  | none => .error .abort
  | some partition =>
    match readAssignedData POMO_16 POMO_64 bf alnPos a partition s.2 with
    | .error e => .error e
    | .ok (partition, filePos) => .ok (s.1.set a.partId partition, filePos)

/-- One pass of the second loop of `readMyData`. -/
def readWeightsStep (bf : ByteFile) (wgtPos : Nat) (s : List pInfoFile × Nat) (a : Assignment) :
    Except Halt (List pInfoFile × Nat) :=
  match s.1[a.partId]? with
  | none => .error .abort
  | some partition =>
    match readAssignedWeights bf wgtPos a partition with
    | .error e => .error e
    | .ok (partition, filePos) => .ok (s.1.set a.partId partition, filePos)

/-- Embedding of `readMyData` (byteFile.c, without `OLD_LAYOUT` and
`__MIC_NATIVE`) for the assignments `myAssigns` of the calling process. -/
def readMyData (POMO_16 POMO_64 : Int) (bf : ByteFile) (myAssigns : List Assignment) :
    Except Halt ByteFile :=
  match seekPos bf .ALN_ALIGNMENT with
  | .error e => .error e
  | .ok bf =>
    let alnPos := bf.pos
    match bf.partitions with
    | none => .error .abort
    | some parts =>
      match myAssigns.foldlM (readDataStep POMO_16 POMO_64 bf alnPos) (parts, bf.pos) with
      | .error e => .error e
      | .ok (parts, filePos) =>
        match seekPos { bf with partitions := some parts, pos := filePos } .ALN_WEIGHTS with
        | .error e => .error e
        | .ok bf =>
          let wgtPos := bf.pos
          match myAssigns.foldlM (readWeightsStep bf wgtPos) (parts, bf.pos) with
          | .error e => .error e
          | .ok (parts, filePos) =>
            .ok (({ bf with partitions := some parts, pos := filePos }.setRead
              .ALN_ALIGNMENT).setRead .ALN_WEIGHTS)

/-- An example of the values `main` writes: four taxa `A` .. `D`, two
patterns of weight one, one DNA partition `p1` with frequencies 0.25. -/
def exParserData : parserData :=
  { model := .M_GTRGAMMA, numberOfPomoSpecies := 0, mxtips := 4, originalCrunchedLength := 2,
    NumberOfModels := 1, gapyness := 0, aliaswgt := fun _ => 1,
    nameList := fun i => [64 + i], pomoSpeciesNameList := fun _ => [],
    partitionData := fun _ =>
      { states := 4, maxTipStates := 16, lower := 0, upper := 2, width := 2, dataType := 1,
        protModels := 0, protFreqs := 0, nonGTR := 0, optimizeBaseFrequencies := 0,
        partitionName := [112, 49], frequencies := fun _ => 4598175219545276416 },
    y0 := fun i => [1, 2, 4, 8, 1, 2, 15, 8].getD i 0, pomoBuffer := fun _ _ _ => 0 }

/-- The `ByteFile` on the file written from `exParserData`, before any
section has been read. -/
def exByteFile : ByteFile :=
  { fh := writeByteFile 1 5 6 exParserData, pos := 0, numTax := 0, numPattern := 0,
    numPartitions := 0, gappyness := 0, taxaNames := none, partitions := none,
    hasRead := fun _ => false }

/-- The tree `s` differs from `s0` in the partition data only. -/
def tree.SameFrame {K : Type} (s0 s : tree K) : Prop :=
  s = { s0 with partitionData := s.partitionData }

/-! ## Full and partial evaluation: states of a partition -/

/-- The two P matrices that the first loop of `newviewIterative` leaves in the
partition `pd` for the entry `e` (the computation does not fail). -/
def pmatricesLR {K : Type} [LinearOrderedField K] (c : consts K) (tr : tree K)
    (e : traversalInfo K) (m : Nat) (pd : pInfo K) : (Nat → K) × (Nat → K) :=
  match pmatrices c tr.numBranches tr.maxCategories tr.rateHetModel tr.saveMemory e m pd with
  | .ok pd1 => (pd1.left, pd1.right)
  | .error _ => (pd.left, pd.right)

/-- Two states of a partition with the same data and model, which differ at
most in the inner vectors, the scaling counters and in what the arrays `left`
and `right` hold where the next entry does not write its P matrices. -/
structure Coupled {K : Type} [LinearOrderedField K] (c : consts K) (tr : tree K) (m : Nat)
    (S S' : pInfo K) : Prop where
  static : S' = { S with xVector := S'.xVector, globalScaler := S'.globalScaler,
                         left := S'.left, right := S'.right }
  matrices : ∀ e, pmatricesLR c tr e m S = pmatricesLR c tr e m S'

/-- Two states of a partition hold the same vector (for an inner node) and
the same scaling counter at the node number `n`. -/
def AgreeAt {K : Type} (mxtips n : Nat) (S S' : pInfo K) : Prop :=
  (mxtips < n → S.xVector (n - mxtips - 1) = S'.xVector (n - mxtips - 1)) ∧
    S.globalScaler n = S'.globalScaler n

/-- Two runs both return, with results related by `Good`, or both stop
without a result. -/
def Both {α : Type} (Good : α → α → Prop) : Except Fault α → Except Fault α → Prop
  | .ok a, .ok b => Good a b
  | .error _, .error _ => True
  | _, _ => False

/-- The inner node at the root of the subtree `t` holds, in the partition
state `pd0`, what `newviewGeneric` at this node computes: the entries of the
partial traversal from the node, run on `pd0`, return and leave the vector
and the scaling counter of the node as they are. -/
def NodeHolds {K : Type} [LinearOrderedField K] (c : consts K) (tr : tree K) (m nb : Nat)
    (h : heap K) (pd0 : pInfo K) (t : Topo) : Prop :=
  ∃ SH, runPartition c tr m ((visit true h t).map (entryOf nb h)) pd0 = .ok SH ∧
    AgreeAt tr.mxtips (h t.root).number SH pd0

/-- The effect of the first loop of `evaluateIterative` on one partition: the
diagonal table of the root branch is stored in `left` when the partition is
executed and has patterns. -/
def diagPartition {K : Type} [LinearOrderedField K] (c : consts K) (tr : tree K) (pz : List K)
    (m : Nat) (pd : pInfo K) : pInfo K :=
  if !tr.td_executeModel m || pd.width = 0 then pd
  else
    let z := branchOf tr.numBranches m pz
    let rc := rateCategoriesOf tr.rateHetModel pd
    let diagptable :=
      if pd.protModelsLG4 then
        calcDiagptableFlex_LG4 c z 4 pd.gammaRates pd.EIGN_LG4 pd.left 20
      else calcDiagptable c z pd.states rc.2 rc.1 pd.EIGN pd.left
    { pd with left := diagptable }

/-- An example tree state with a partition of three patterns: the example
tree with weights 1, 2, 3 and an inner vector whose cell `i` holds
`1 / (i + 2)`; the scaling counter of node 5 is 3. -/
def exTrWide : tree ℚ :=
  { exTr [] [] (1 / 4) (1 / 4) 3 0 with
    partitionData := fun _ =>
      { exPartition (1 / 4) (1 / 4) 3 0 1 with
        width := 3
        wgt := fun i => (i : Int) + 1
        xVector := fun _ i => 1 / ((i : ℚ) + 2) } }

/-- An example partition with two states: eigenvalues `EIGN[k] = -k`, inverse
eigenvector entries `EI[r] = r + 1` and rates `gammaRates[i] = i + 1`. -/
def exPartition2 : pInfo ℚ :=
  { exPartition 0 0 0 0 1 with
    states := 2
    EIGN := fun k => -(k : ℚ)
    EI := fun r => (r : ℚ) + 1
    gammaRates := fun i => (i : ℚ) + 1 }

/-- The partitions that `main` writes are contiguous: the first starts at
pattern 0, each starts where its predecessor ends, and none ends behind the
last pattern. -/
structure parserData.Contiguous (tr : parserData) : Prop where
  first : (tr.partitionData 0).lower = 0
  bounds : ∀ m, m < sizeT tr.NumberOfModels →
    (tr.partitionData m).lower ≤ (tr.partitionData m).upper
  next : ∀ m, m + 1 < sizeT tr.NumberOfModels →
    (tr.partitionData (m + 1)).lower = (tr.partitionData m).upper
  last : ∀ m, m < sizeT tr.NumberOfModels →
    (tr.partitionData m).upper ≤ tr.originalCrunchedLength

/-- The partition record that the first loop of `readMyData` is to build for
the assignment `a`, from the values `main` wrote without PoMo: the record as
read, with the width and offset of `a`, and in `yResource` the `width`
characters of every taxon from pattern `lower + offset` on, taxon after
taxon, zero behind them. -/
def parserData.assignedData (tr : parserData) (a : Assignment) : pInfoFile :=
  { (tr.partitionData a.partId).asRead with
    width := a.width
    offset := a.offset
    yResource := fun x =>
      if x < sizeT tr.mxtips * a.width then
        tr.y0 (x / a.width * tr.originalCrunchedLength + (tr.partitionData a.partId).lower +
          a.offset + x % a.width)
      else 0 }

/-- The partition record that `readMyData` is to build for the assignment
`a`: that of the first loop, with the `width` weights from pattern `lower +
offset` on in `wgt`, zero behind them. -/
def parserData.assigned (tr : parserData) (a : Assignment) : pInfoFile :=
  { tr.assignedData a with
    wgt := fun i =>
      if i < a.width then tr.aliaswgt ((tr.partitionData a.partId).lower + a.offset + i)
      else 0 }

/-- An example of the values `main` writes: three taxa `A` .. `C`, five
patterns with the weights 1 .. 5, two DNA partitions `p1` (patterns 0, 1) and
`p2` (patterns 2, 3, 4), and the characters `y0[i] = i + 1`. -/
def exWindowData : parserData :=
  { model := .M_GTRGAMMA, numberOfPomoSpecies := 0, mxtips := 3, originalCrunchedLength := 5,
    NumberOfModels := 2, gapyness := 0, aliaswgt := fun i => (i : Int) + 1,
    nameList := fun i => [64 + i], pomoSpeciesNameList := fun _ => [],
    partitionData := fun m =>
      { states := 4, maxTipStates := 16, lower := if m = 0 then 0 else 2,
        upper := if m = 0 then 2 else 5, width := if m = 0 then 2 else 3, dataType := 1,
        protModels := 0, protFreqs := 0, nonGTR := 0, optimizeBaseFrequencies := 0,
        partitionName := [112, 49 + m], frequencies := fun _ => 4598175219545276416 },
    y0 := fun i => i + 1, pomoBuffer := fun _ _ _ => 0 }

/-- The `ByteFile` on the file written from `exWindowData`, before any
section has been read. -/
def exWindowFile : ByteFile :=
  { fh := writeByteFile 1 5 6 exWindowData, pos := 0, numTax := 0, numPattern := 0,
    numPartitions := 0, gappyness := 0, taxaNames := none, partitions := none,
    hasRead := fun _ => false }

/-! ## Theorems -/

theorem SameTopo.refl {K : Type} (h : heap K) : SameTopo h h :=
  fun _ => ⟨rfl, rfl, rfl, rfl⟩

theorem SameTopo.trans {K : Type} {h1 h2 h3 : heap K} (a : SameTopo h1 h2)
    (b : SameTopo h2 h3) : SameTopo h1 h3 := by
  intro i
  obtain ⟨a1, a2, a3, a4⟩ := a i
  obtain ⟨b1, b2, b3, b4⟩ := b i
  exact ⟨b1.trans a1, b2.trans a2, b3.trans a3, b4.trans a4⟩

theorem getxnode_sameTopo {K : Type} (h : heap K) (p : Nat) : SameTopo h (getxnode h p) := by
  intro i
  simp only [getxnode]
  split_ifs <;> simp

theorem orient_sameTopo {K : Type} (h : heap K) (p : Nat) : SameTopo h (orient h p) := by
  unfold orient
  split_ifs
  · exact SameTopo.refl h
  · exact getxnode_sameTopo h p

theorem orient_x_self {K : Type} (h : heap K) (p : Nat) : ((orient h p) p).x = true := by
  unfold orient
  split_ifs with hx
  · exact hx
  · simp [getxnode]

theorem orient_frame {K : Type} (h : heap K) (p i : Nat) (h1 : i ≠ p)
    (h2 : i ≠ (h p).next) (h3 : i ≠ (h (h p).next).next) : (orient h p) i = h i := by
  unfold orient
  split_ifs
  · rfl
  · simp [getxnode, h1, h2, h3]

theorem records_congr {K : Type} {h h' : heap K} (s : SameTopo h h') (t : Topo) :
    t.records h' = t.records h := by
  induction t with
  | tip p => rfl
  | inner p l r ihl ihr =>
    simp only [Topo.records, ihl, ihr, (s p).2.1, (s _).2.1]

theorem numbers_congr {K : Type} {h h' : heap K} (s : SameTopo h h') (t : Topo) :
    t.numbers h' = t.numbers h := by
  induction t with
  | tip p => simp [Topo.numbers, (s p).1]
  | inner p l r ihl ihr => simp only [Topo.numbers, ihl, ihr, (s p).1]

theorem shape_congr {K : Type} {h h' : heap K} (s : SameTopo h h') (maxTips : Nat) (t : Topo) :
    Shape h' maxTips t ↔ Shape h maxTips t := by
  induction t with
  | tip p => simp [Shape, (s p).1]
  | inner p l r ihl ihr =>
    simp only [Shape, ihl, ihr, (s p).1, (s p).2.1, (s _).2.1, (s _).2.2.1]

theorem root_mem_records {K : Type} (h : heap K) (t : Topo) : t.root ∈ t.records h := by
  cases t <;> simp [Topo.root, Topo.records]

theorem mkEntry_congr {K : Type} {h h' : heap K} (s : SameTopo h h') (nb : Nat)
    (tc : tipCases) (p q r : Nat) : mkEntry nb h' tc p q r = mkEntry nb h tc p q r := by
  simp [mkEntry, (s p).1, (s q).1, (s r).1, (s q).2.2.2, (s r).2.2.2]

theorem entryOf_congr {K : Type} {h h' : heap K} (s : SameTopo h h') (nb : Nat) (t : Topo) :
    entryOf nb h' t = entryOf nb h t := by
  unfold entryOf
  split <;> exact mkEntry_congr s nb _ _ _ _

theorem visit_congr {K : Type} (pt : Bool) {h h' : heap K} (t : Topo)
    (hx : ∀ i ∈ t.records h, (h' i).x = (h i).x) : visit pt h' t = visit pt h t := by
  induction t with
  | tip p => rfl
  | inner p l r ihl ihr =>
    have hl : ∀ i ∈ l.records h, (h' i).x = (h i).x := fun i hi =>
      hx i (by simp [Topo.records, hi])
    have hr : ∀ i ∈ r.records h, (h' i).x = (h i).x := fun i hi =>
      hx i (by simp [Topo.records, hi])
    simp only [visit, descend, ihl hl, ihr hr, hl _ (root_mem_records h l),
      hr _ (root_mem_records h r)]

theorem visit_inner {K : Type} (pt : Bool) (h : heap K) (p : Nat) (l r : Topo) :
    visit pt h (.inner p l r) = visitIf pt h l ++ visitIf pt h r ++ [.inner p l r] := rfl

theorem visitIf_tip {K : Type} (pt : Bool) (h : heap K) (a : Nat) :
    visitIf pt h (.tip a) = [] := by
  simp [visitIf, visit]

theorem visitIf_congr {K : Type} (pt : Bool) {h h' : heap K} (t : Topo)
    (hx : ∀ i ∈ t.records h, (h' i).x = (h i).x) : visitIf pt h' t = visitIf pt h t := by
  simp only [visitIf, descend, visit_congr pt t hx, hx _ (root_mem_records h t)]

/-- Roots and child roots of visited nodes are records of the subtree. -/
theorem visit_records {K : Type} (pt : Bool) (h : heap K) (t : Topo) :
    ∀ s ∈ visit pt h t, ∀ p l r, s = .inner p l r →
      p ∈ t.records h ∧ l.root ∈ t.records h ∧ r.root ∈ t.records h := by
  induction t with
  | tip a => intro s hs; simp [visit] at hs
  | inner a tl tr ihl ihr =>
    intro s hs p l r hsp
    simp only [visit, List.mem_append, List.mem_singleton] at hs
    rcases hs with (hs | hs) | hs
    · split_ifs at hs
      · obtain ⟨h1, h2, h3⟩ := ihl s hs p l r hsp
        simp [Topo.records, h1, h2, h3]
      · simp at hs
    · split_ifs at hs
      · obtain ⟨h1, h2, h3⟩ := ihr s hs p l r hsp
        simp [Topo.records, h1, h2, h3]
      · simp at hs
    · rw [hsp] at hs
      injection hs with e1 e2 e3
      subst e1 e2 e3
      simp [Topo.records, root_mem_records]

theorem visitIf_records {K : Type} (pt : Bool) (h : heap K) (t : Topo) :
    ∀ s ∈ visitIf pt h t, ∀ p l r, s = .inner p l r →
      p ∈ t.records h ∧ l.root ∈ t.records h ∧ r.root ∈ t.records h := by
  intro s hs
  unfold visitIf at hs
  split_ifs at hs
  · exact visit_records pt h t s hs
  · simp at hs

/-- Orientation of a visited node only depends on the flags of the records of
the subtree it was visited in. -/
theorem oriented_transfer {K : Type} (pt : Bool) (h h1 h2 : heap K) (t : Topo)
    (hx : ∀ i ∈ t.records h, (h2 i).x = (h1 i).x) :
    ∀ s ∈ visitIf pt h t, Oriented h1 s → Oriented h2 s := by
  intro s hs ho
  cases s with
  | tip a => trivial
  | inner p l r =>
    obtain ⟨m1, m2, m3⟩ := visitIf_records pt h t _ hs p l r rfl
    obtain ⟨o1, o2, o3⟩ := ho
    exact ⟨by rw [hx _ m1]; exact o1, fun hl => by rw [hx _ m2]; exact o2 hl,
      fun hr => by rw [hx _ m3]; exact o3 hr⟩

/-- The guarded recursive call `if(!c->x || !partialTraversal) computeTraversalInfo(c, ...)`
on an inner child, given the behaviour of the call itself. -/
theorem guarded_run {K : Type} (maxTips nb : Nat) (pt : Bool) (c : Topo) (fuel : Nat)
    (h : heap K) (ti : List (traversalInfo K))
    (ih : TraversalResult nb h ti c (visit pt h c)
      (computeTraversalInfo maxTips nb pt fuel h c.root ti)) :
    TraversalResult nb h ti c (visitIf pt h c)
      (if !(h c.root).x || !pt then computeTraversalInfo maxTips nb pt fuel h c.root ti
        else .ok (h, ti)) := by
  by_cases hd : descend pt h c = true
  · have hd' : (!(h c.root).x || !pt) = true := hd
    simp only [hd', if_true, visitIf, hd]
    exact ih
  · have hd' : (!(h c.root).x || !pt) = false := by
      simpa [descend] using hd
    have hx : (h c.root).x = true := by
      simp [descend] at hd
      exact hd.1
    simp only [hd', visitIf, hd]
    refine ⟨h, by simp, SameTopo.refl h, fun _ _ => rfl, fun _ => hx, ?_⟩
    intro s hs
    simp at hs

theorem root_inner (p : Nat) (l r : Topo) : (Topo.inner p l r).root = p := rfl

theorem entryOf_inner {K : Type} (nb : Nat) (h : heap K) (p : Nat) (l r : Topo) :
    entryOf nb h (.inner p l r) =
      if !r.isInner && !l.isInner then mkEntry nb h .TIP_TIP p l.root r.root
      else if !r.isInner || !l.isInner then
        mkEntry nb h .TIP_INNER p (if !r.isInner then r.root else l.root)
          (if !r.isInner then l.root else r.root)
      else mkEntry nb h .INNER_INNER p l.root r.root := by
  cases l <;> cases r <;> simp [entryOf, Topo.isInner, Topo.root]

theorem visitIf_not_inner {K : Type} (pt : Bool) (h : heap K) (c : Topo)
    (hc : c.isInner = false) : visitIf pt h c = [] := by
  cases c with
  | tip a => exact visitIf_tip pt h a
  | inner a l r => simp [Topo.isInner] at hc

theorem shape_root_isTip {K : Type} {h : heap K} {maxTips : Nat} {t : Topo}
    (hs : Shape h maxTips t) : isTip (h t.root).number maxTips = !t.isInner := by
  cases t with
  | tip a => simpa [Shape, Topo.root, Topo.isInner] using hs
  | inner a l r => simpa [Shape, Topo.root, Topo.isInner] using hs.1

/-- Behaviour of `computeTraversalInfo` at the root of a subtree held by the
heap: with fuel above the height it returns, appends the entries of the
visited nodes in order and leaves them oriented. -/
theorem computeTraversalInfo_run {K : Type} (maxTips nb : Nat) (pt : Bool) (t : Topo) :
    ∀ (fuel : Nat) (h : heap K) (ti : List (traversalInfo K)),
      Shape h maxTips t → (t.records h).Nodup → t.height < fuel →
      TraversalResult nb h ti t (visit pt h t)
        (computeTraversalInfo maxTips nb pt fuel h t.root ti) := by
  induction t with
  | tip a =>
    intro fuel h ti hs _ hf
    obtain ⟨f, rfl⟩ : ∃ f, fuel = f + 1 := ⟨fuel - 1, by omega⟩
    have ht : isTip (h a).number maxTips = true := hs
    refine ⟨h, ?_, SameTopo.refl h, fun _ _ => rfl, by simp [Topo.isInner], by simp [visit]⟩
    simp [computeTraversalInfo, Topo.root, ht, visit]
  | inner p l r ihl ihr =>
    intro fuel h ti hs hnd hf
    obtain ⟨f, rfl⟩ : ∃ f, fuel = f + 1 := ⟨fuel - 1, by omega⟩
    obtain ⟨hp, hq, hr, sl, sr⟩ := hs
    simp only [Topo.height] at hf
    have hfl : l.height < f := by omega
    have hfr : r.height < f := by omega
    simp only [Topo.records, List.nodup_cons, List.mem_cons, List.mem_append, not_or,
      List.nodup_append] at hnd
    obtain ⟨⟨n1, n2, n3, n4⟩, ⟨n5, n6, n7⟩, ⟨n8, n9⟩, ndl, ndr, dj⟩ := hnd
    have tl := shape_root_isTip sl
    have tr := shape_root_isTip sr
    -- frame of the final orientation step
    have frameP : ∀ (h1 : heap K), SameTopo h h1 → ∀ i, i ≠ p → i ≠ (h p).next →
        i ≠ (h (h p).next).next → (orient h1 p) i = h1 i := by
      intro h1 s1 i a b c
      apply orient_frame
      · exact a
      · rw [(s1 p).2.1]; exact b
      · rw [(s1 p).2.1, (s1 _).2.1]; exact c
    have notRing : ∀ i, (i ∈ l.records h ∨ i ∈ r.records h) →
        i ≠ p ∧ i ≠ (h p).next ∧ i ≠ (h (h p).next).next := by
      intro i hi
      refine ⟨?_, ?_, ?_⟩
      · rintro rfl; rcases hi with hi | hi
        · exact n3 hi
        · exact n4 hi
      · rintro rfl; rcases hi with hi | hi
        · exact n6 hi
        · exact n7 hi
      · rintro rfl; rcases hi with hi | hi
        · exact n8 hi
        · exact n9 hi
    have eo : ∀ (h1 : heap K), SameTopo h h1 → entryOf nb h1 = entryOf nb h := fun h1 s1 =>
      funext (fun t => entryOf_congr s1 nb t)
    cases hl : l.isInner <;> cases hr' : r.isInner
    · -- both children are tips
      rw [hl] at tl; rw [hr'] at tr
      simp only [Bool.not_false] at tl tr
      refine ⟨orient h p, ?_, orient_sameTopo h p, ?_, fun _ => orient_x_self h p, ?_⟩
      · simp only [computeTraversalInfo, root_inner, hp, hq, hr, tl, tr, orient_x_self,
          visit_inner, visitIf_not_inner pt h l hl, visitIf_not_inner pt h r hr']
        simp [entryOf_inner, hl, hr', mkEntry_congr (orient_sameTopo h p)]
      · intro i hi
        simp only [Topo.records, List.mem_cons, List.mem_append, not_or] at hi
        exact orient_frame h p i hi.1 hi.2.1 hi.2.2.1
      · intro s hs
        simp only [visit_inner, visitIf_not_inner pt h l hl, visitIf_not_inner pt h r hr',
          List.nil_append, List.mem_singleton] at hs
        subst hs
        exact ⟨orient_x_self h p, by simp [hl], by simp [hr']⟩
    · -- `q` is a tip, `r` is an inner node
      rw [hl] at tl; rw [hr'] at tr
      simp only [Bool.not_false, Bool.not_true] at tl tr
      obtain ⟨h1, e1, s1, f1, x1, o1⟩ :=
        guarded_run maxTips nb pt r f h ti (ihr f h ti sr ndr hfr)
      have hring := notRing r.root (Or.inr (root_mem_records h r))
      have fr : (orient h1 p) r.root = h1 r.root :=
        frameP h1 s1 _ hring.1 hring.2.1 hring.2.2
      refine ⟨orient h1 p, ?_, s1.trans (orient_sameTopo h1 p), ?_,
        fun _ => orient_x_self h1 p, ?_⟩
      · simp only [computeTraversalInfo, root_inner, hp, hq, hr, tl, tr]
        simp only [Bool.false_and, Bool.false_or, if_true, Bool.false_eq_true, if_false]
        rw [e1]
        simp [orient_x_self, fr, x1 hr', visit_inner, visitIf_not_inner pt h l hl,
          entryOf_inner, hl, hr', mkEntry_congr (s1.trans (orient_sameTopo h1 p))]
      · intro i hi
        simp only [Topo.records, List.mem_cons, List.mem_append, not_or] at hi
        rw [frameP h1 s1 i hi.1 hi.2.1 hi.2.2.1]
        exact f1 i hi.2.2.2.2
      · intro s hs
        simp only [visit_inner, visitIf_not_inner pt h l hl, List.nil_append,
          List.mem_append, List.mem_singleton] at hs
        rcases hs with hs | hs
        · refine oriented_transfer pt h h1 (orient h1 p) r ?_ s hs (o1 s hs)
          intro i hi
          have hri := notRing i (Or.inr hi)
          rw [frameP h1 s1 i hri.1 hri.2.1 hri.2.2]
        · subst hs
          exact ⟨orient_x_self h1 p, by simp [hl], fun _ => by rw [fr]; exact x1 hr'⟩
    · -- `r` is a tip, `q` is an inner node: the two are swapped
      rw [hl] at tl; rw [hr'] at tr
      simp only [Bool.not_false, Bool.not_true] at tl tr
      obtain ⟨h1, e1, s1, f1, x1, o1⟩ :=
        guarded_run maxTips nb pt l f h ti (ihl f h ti sl ndl hfl)
      have hring := notRing l.root (Or.inl (root_mem_records h l))
      have fr : (orient h1 p) l.root = h1 l.root :=
        frameP h1 s1 _ hring.1 hring.2.1 hring.2.2
      refine ⟨orient h1 p, ?_, s1.trans (orient_sameTopo h1 p), ?_,
        fun _ => orient_x_self h1 p, ?_⟩
      · simp only [computeTraversalInfo, root_inner, hp, hq, hr, tl, tr]
        simp only [Bool.true_and, Bool.true_or, if_true, Bool.false_eq_true, if_false]
        rw [e1]
        simp [orient_x_self, fr, x1 hl, visit_inner, visitIf_not_inner pt h r hr',
          entryOf_inner, hl, hr', mkEntry_congr (s1.trans (orient_sameTopo h1 p))]
      · intro i hi
        simp only [Topo.records, List.mem_cons, List.mem_append, not_or] at hi
        rw [frameP h1 s1 i hi.1 hi.2.1 hi.2.2.1]
        exact f1 i hi.2.2.2.1
      · intro s hs
        simp only [visit_inner, visitIf_not_inner pt h r hr', List.append_nil,
          List.mem_append, List.mem_singleton] at hs
        rcases hs with hs | hs
        · refine oriented_transfer pt h h1 (orient h1 p) l ?_ s hs (o1 s hs)
          intro i hi
          have hri := notRing i (Or.inl hi)
          rw [frameP h1 s1 i hri.1 hri.2.1 hri.2.2]
        · subst hs
          exact ⟨orient_x_self h1 p, fun _ => by rw [fr]; exact x1 hl, by simp [hr']⟩
    · -- both children are inner nodes
      rw [hl] at tl; rw [hr'] at tr
      simp only [Bool.not_true] at tl tr
      obtain ⟨h1, e1, s1, f1, x1, o1⟩ :=
        guarded_run maxTips nb pt l f h ti (ihl f h ti sl ndl hfl)
      have sr1 : Shape h1 maxTips r := (shape_congr s1 maxTips r).2 sr
      have ndr1 : (r.records h1).Nodup := by rw [records_congr s1]; exact ndr
      obtain ⟨h2, e2, s2, f2, x2, o2⟩ :=
        guarded_run maxTips nb pt r f h1 (ti ++ (visitIf pt h l).map (entryOf nb h))
          (ihr f h1 _ sr1 ndr1 hfr)
      have vr : visitIf pt h1 r = visitIf pt h r :=
        visitIf_congr pt r (fun i hi => by rw [f1 i (fun hi' => dj hi' hi)])
      rw [vr, eo h1 s1] at e2
      rw [vr] at o2
      simp only [records_congr s1] at f2
      have s12 : SameTopo h h2 := s1.trans s2
      have hringl := notRing l.root (Or.inl (root_mem_records h l))
      have hringr := notRing r.root (Or.inr (root_mem_records h r))
      have frl : (orient h2 p) l.root = h2 l.root :=
        frameP h2 s12 _ hringl.1 hringl.2.1 hringl.2.2
      have frr : (orient h2 p) r.root = h2 r.root :=
        frameP h2 s12 _ hringr.1 hringr.2.1 hringr.2.2
      have xl : (h2 l.root).x = true := by
        rw [f2 l.root (fun hi => dj (root_mem_records h l) hi)]
        exact x1 hl
      refine ⟨orient h2 p, ?_, s12.trans (orient_sameTopo h2 p), ?_,
        fun _ => orient_x_self h2 p, ?_⟩
      · simp only [computeTraversalInfo, root_inner, hp, hq, hr, tl, tr]
        simp only [Bool.false_and, Bool.false_or, if_true, Bool.false_eq_true, if_false]
        rw [e1]
        simp only []
        rw [e2]
        simp [orient_x_self, frl, frr, xl, x2 hr', visit_inner, entryOf_inner, hl, hr',
          mkEntry_congr (s12.trans (orient_sameTopo h2 p))]
      · intro i hi
        simp only [Topo.records, List.mem_cons, List.mem_append, not_or] at hi
        rw [frameP h2 s12 i hi.1 hi.2.1 hi.2.2.1, f2 i hi.2.2.2.2]
        exact f1 i hi.2.2.2.1
      · intro s hs
        simp only [visit_inner, List.mem_append, List.mem_singleton] at hs
        rcases hs with (hs | hs) | hs
        · refine oriented_transfer pt h h1 (orient h2 p) l ?_ s hs (o1 s hs)
          intro i hi
          have hri := notRing i (Or.inl hi)
          rw [frameP h2 s12 i hri.1 hri.2.1 hri.2.2, f2 i (fun hi' => dj hi hi')]
        · refine oriented_transfer pt h h2 (orient h2 p) r ?_ s hs (o2 s hs)
          intro i hi
          have hri := notRing i (Or.inr hi)
          rw [frameP h2 s12 i hri.1 hri.2.1 hri.2.2]
        · subst hs
          exact ⟨orient_x_self h2 p, fun _ => by rw [frl]; exact xl,
            fun _ => by rw [frr]; exact x2 hr'⟩

/-! ### Full traversals -/

theorem visit_full {K : Type} (h : heap K) (t : Topo) : visit false h t = t.innerNodes := by
  induction t with
  | tip a => rfl
  | inner p l r ihl ihr => simp [visit, descend, Topo.innerNodes, ihl, ihr]

theorem entryOf_pNumber {K : Type} (nb : Nat) (h : heap K) (s : Topo) :
    (entryOf nb h s).pNumber = s.number h := by
  unfold entryOf
  split <;> simp [mkEntry, Topo.number, Topo.root]

theorem innerNodes_length (t : Topo) : t.innerNodes.length + 1 = t.tipCount := by
  induction t with
  | tip a => rfl
  | inner p l r ihl ihr =>
    simp only [Topo.innerNodes, Topo.tipCount, List.length_append, List.length_singleton]
    omega

theorem innerNumbers_subset {K : Type} (h : heap K) (t : Topo) :
    ∀ n ∈ t.innerNumbers h, n ∈ t.numbers h := by
  induction t with
  | tip a => intro n hn; simp [Topo.innerNumbers, Topo.innerNodes] at hn
  | inner p l r ihl ihr =>
    intro n hn
    simp only [Topo.innerNumbers, Topo.innerNodes, List.map_append, List.mem_append,
      List.map_cons, List.map_nil, List.mem_singleton] at hn
    simp only [Topo.numbers, List.mem_cons, List.mem_append]
    rcases hn with (hn | hn) | hn
    · exact Or.inr (Or.inl (ihl n hn))
    · exact Or.inr (Or.inr (ihr n hn))
    · exact Or.inl hn

theorem innerNumbers_nodup {K : Type} (h : heap K) (t : Topo) (hn : (t.numbers h).Nodup) :
    (t.innerNumbers h).Nodup := by
  induction t with
  | tip a => simp [Topo.innerNumbers, Topo.innerNodes]
  | inner p l r ihl ihr =>
    simp only [Topo.numbers, List.nodup_cons, List.mem_append, not_or, List.nodup_append] at hn
    obtain ⟨⟨a1, a2⟩, nl, nr, dj⟩ := hn
    have e : (Topo.inner p l r).innerNumbers h =
        l.innerNumbers h ++ r.innerNumbers h ++ [(h p).number] := by
      simp [Topo.innerNumbers, Topo.innerNodes, Topo.number, Topo.root]
    rw [e, List.nodup_append]
    refine ⟨?_, List.nodup_singleton _, ?_⟩
    · rw [List.nodup_append]
      exact ⟨ihl nl, ihr nr, fun n h1 h2 =>
        dj (innerNumbers_subset h l n h1) (innerNumbers_subset h r n h2)⟩
    · intro n h1 h2
      simp only [List.mem_singleton] at h2
      subst h2
      simp only [List.mem_append] at h1
      rcases h1 with h1 | h1
      · exact a1 (innerNumbers_subset h l _ h1)
      · exact a2 (innerNumbers_subset h r _ h1)

/-- C1. Full traversal: for an unrooted binary tree with `n ≥ 3` tips laid out
in the heap and a tip `p` of it (the rest of the tree is the subtree `t` below
`p->back`), whatever the orientation flags are, the descriptor built by
`evaluateGeneric(tr, p, TRUE)` names in its entries `1 .. count-1` exactly the
inner nodes of the tree, each once, so that `count = 1 + (n - 2)`. -/
theorem full_traversal_names_every_inner_node {K : Type} (maxTips nb fuel n : Nat)
    (h : heap K) (p : Nat) (t : Topo) (ti0 : traversalInfo K)
    (hp : isTip (h p).number maxTips = true) (hq : t.root = (h p).back)
    (wf : WellFormed h maxTips t) (hn : n = t.tipCount + 1) (h3 : 3 ≤ n)
    (hf : t.height < fuel) :
    ∃ h' ti, evaluateGenericTraversal maxTips nb true fuel h p ti0 = .ok (h', ti) ∧
      (namedNodes ti).Perm (t.innerNumbers h) ∧ (namedNodes ti).Nodup ∧
      (∀ m, m ∈ namedNodes ti ↔ m ∈ t.innerNumbers h) ∧
      ti.length = 1 + (n - 2) := by
  obtain ⟨h', e, -, -, -, -⟩ :=
    computeTraversalInfo_run maxTips nb false t fuel h
      [rootEntry nb h p ti0] wf.shape wf.records_nodup hf
  have hnamed : namedNodes ([rootEntry nb h p ti0] ++
      (visit false h t).map (entryOf nb h)) = t.innerNumbers h := by
    simp [namedNodes, visit_full, Topo.innerNumbers, entryOf_pNumber]
  refine ⟨h', [rootEntry nb h p ti0] ++ (visit false h t).map (entryOf nb h),
    ?_, ?_, ?_, ?_, ?_⟩
  · simp only [evaluateGenericTraversal, hp, if_true]
    rw [← hq]
    exact e
  · rw [hnamed]
  · rw [hnamed]; exact innerNumbers_nodup h t wf.numbers_nodup
  · rw [hnamed]; exact fun _ => Iff.rfl
  · have := innerNodes_length t
    simp only [List.length_append, List.length_map, visit_full, List.length_singleton]
    omega

theorem exTree_wellFormed (xs : List Nat) : WellFormed (exHeap xs) 4 exTree := by
  refine ⟨?_, ?_, ?_⟩
  · simp [Shape, exTree, exHeap, isTip, Topo.root]
  · simp [Topo.records, exTree, exHeap]
  · simp [Topo.numbers, exTree, exHeap]

/-- Witness for C1 on the example tree with four tips, traversed from tip 1. -/
theorem full_traversal_names_every_inner_node_witness :
    ∃ h' ti, evaluateGenericTraversal 4 1 true 3 (exHeap [1, 2, 3, 4, 6, 9]) 1
        ⟨.TIP_TIP, 0, 0, 0, [], []⟩ = .ok (h', ti) ∧
      (namedNodes ti).Perm (exTree.innerNumbers (exHeap [1, 2, 3, 4, 6, 9])) ∧
      (namedNodes ti).Nodup ∧
      (∀ m, m ∈ namedNodes ti ↔ m ∈ exTree.innerNumbers (exHeap [1, 2, 3, 4, 6, 9])) ∧
      ti.length = 1 + (4 - 2) :=
  full_traversal_names_every_inner_node 4 1 3 4 (exHeap [1, 2, 3, 4, 6, 9]) 1 exTree
    ⟨.TIP_TIP, 0, 0, 0, [], []⟩ (by decide) (by decide) (exTree_wellFormed _) (by decide)
    (by decide) (by decide)

/-! ### Partial traversals -/

theorem mem_visitIf_partial_iff {K : Type} (h : heap K) (t s : Topo) :
    s ∈ visitIf true h t ↔ Chain h t s := by
  induction t with
  | tip a =>
    rw [visitIf_tip]
    constructor
    · intro hs; simp at hs
    · intro hc; cases hc
  | inner p l r ihl ihr =>
    by_cases hx : (h p).x = true
    · have : visitIf true h (.inner p l r) = [] := by
        simp [visitIf, descend, Topo.root, hx]
      rw [this]
      constructor
      · intro hs; simp at hs
      · intro hc
        cases hc with
        | here _ _ _ h0 => rw [hx] at h0; cases h0
        | left _ _ _ _ h0 _ => rw [hx] at h0; cases h0
        | right _ _ _ _ h0 _ => rw [hx] at h0; cases h0
    · have hx' : (h p).x = false := by simpa using hx
      have : visitIf true h (.inner p l r) =
          visitIf true h l ++ visitIf true h r ++ [.inner p l r] := by
        simp [visitIf, descend, Topo.root, hx', visit]
      rw [this]
      simp only [List.mem_append, List.mem_singleton, ihl, ihr]
      constructor
      · rintro ((hc | hc) | hc)
        · exact Chain.left p l r s hx' hc
        · exact Chain.right p l r s hx' hc
        · subst hc; exact Chain.here p l r hx'
      · intro hc
        cases hc with
        | here _ _ _ _ => exact Or.inr rfl
        | left _ _ _ _ _ h1 => exact Or.inl (Or.inl h1)
        | right _ _ _ _ _ h1 => exact Or.inl (Or.inr h1)

/-- The partial traversal of `evaluateGeneric` on a tree cut at the branch
`(p, q)`: the entries written are those of the nodes visited below `p` and
then below `q`. -/
theorem evaluateGenericTraversal_partial {K : Type} (maxTips nb fuel : Nat) (h : heap K)
    (p : Nat) (tp tq : Topo) (ti0 : traversalInfo K)
    (wf : BranchWellFormed h maxTips p tp tq) (hfp : tp.height < fuel)
    (hfq : tq.height < fuel) :
    ∃ h', evaluateGenericTraversal maxTips nb false fuel h p ti0 =
      .ok (h', [rootEntry nb h p ti0] ++
        (visitIf true h tp ++ visitIf true h tq).map (entryOf nb h)) ∧ SameTopo h h' := by
  obtain ⟨rp, rq, sp, sq, nd, -⟩ := wf
  subst rp
  rw [List.nodup_append] at nd
  obtain ⟨ndp, ndq, dj⟩ := nd
  obtain ⟨h1, e1, s1, f1, -, -⟩ := guarded_run maxTips nb true tp fuel h
    [rootEntry nb h tp.root ti0]
    (computeTraversalInfo_run maxTips nb true tp fuel h _ sp ndp hfp)
  have sq1 : Shape h1 maxTips tq := (shape_congr s1 maxTips tq).2 sq
  have ndq1 : (tq.records h1).Nodup := by rw [records_congr s1]; exact ndq
  obtain ⟨h2, e2, s2, -, -, -⟩ := guarded_run maxTips nb true tq fuel h1
    ([rootEntry nb h tp.root ti0] ++ (visitIf true h tp).map (entryOf nb h))
    (computeTraversalInfo_run maxTips nb true tq fuel h1 _ sq1 ndq1 hfq)
  have vq : visitIf true h1 tq = visitIf true h tq :=
    visitIf_congr true tq (fun i hi => by rw [f1 i (fun hi' => dj hi' hi)])
  have eo : entryOf nb h1 = entryOf nb h := funext (fun t => entryOf_congr s1 nb t)
  rw [vq, eo] at e2
  simp only [Bool.not_true, Bool.or_false] at e1 e2
  refine ⟨h2, ?_, s1.trans s2⟩
  simp only [evaluateGenericTraversal, Bool.false_eq_true, if_false]
  rw [← rq, e1]
  simp only []
  rw [e2]
  simp

theorem exBranch_wellFormed (xs : List Nat) :
    BranchWellFormed (exHeap xs) 4 1 (.tip 1) exTree := by
  refine ⟨rfl, rfl, ?_, ?_, ?_, ?_⟩
  · simp [Shape, exHeap, isTip]
  · exact (exTree_wellFormed _).shape
  · simp [Topo.records, exTree, exHeap]
  · simp [Topo.numbers, exTree, exHeap]

/-- C2 (as stated) fails: on the example tree cut at the branch between tip 1
and node 5, with node 5 oriented toward the branch and node 6 not, the partial
traversal of `evaluateGeneric` names no node at all, although node 6 is an
inner node whose `x` flag toward the branch is not set. -/
theorem partial_traversal_counterexample :
    BranchWellFormed (exHeap [1, 2, 3, 4, 5, 9]) 4 1 (.tip 1) exTree ∧
    (evaluateGenericTraversal 4 1 false 3 (exHeap [1, 2, 3, 4, 5, 9]) 1
        ⟨.TIP_TIP, 0, 0, 0, [], []⟩).toOption.map (fun r => namedNodes r.2) = some [] ∧
    unorientedInner (exHeap [1, 2, 3, 4, 5, 9]) (.tip 1) ++
      unorientedInner (exHeap [1, 2, 3, 4, 5, 9]) exTree = [6] := by
  refine ⟨exBranch_wellFormed _, ?_, ?_⟩
  · simp [evaluateGenericTraversal, exHeap, Except.toOption, namedNodes]
  · simp [unorientedInner, Topo.innerNodes, exTree, exHeap, Topo.root, Topo.number]

/-- C2 (amended). Partial traversal: for every tree cut at a branch `(p, q)`
and every assignment of orientation flags, the nodes named as `pNumber` in
entries `1 .. count-1` of the descriptor built by `evaluateGeneric(tr, p, FALSE)`
are exactly the inner nodes that are reached from the branch through
unoriented nodes: the `x` flag toward the branch is set neither at the node
nor at any inner node on the path from the branch to it. -/
theorem partial_traversal_names_unoriented_chain {K : Type} (maxTips nb fuel : Nat)
    (h : heap K) (p : Nat) (tp tq : Topo) (ti0 : traversalInfo K)
    (wf : BranchWellFormed h maxTips p tp tq) (hfp : tp.height < fuel)
    (hfq : tq.height < fuel) :
    ∃ h' ti, evaluateGenericTraversal maxTips nb false fuel h p ti0 = .ok (h', ti) ∧
      ∀ m, m ∈ namedNodes ti ↔ ∃ s, (Chain h tp s ∨ Chain h tq s) ∧ s.number h = m := by
  obtain ⟨h', e, -⟩ := evaluateGenericTraversal_partial maxTips nb fuel h p tp tq ti0 wf hfp hfq
  refine ⟨h', _, e, ?_⟩
  intro m
  simp only [namedNodes, List.singleton_append, List.tail_cons, List.map_map, List.mem_map,
    List.mem_append, mem_visitIf_partial_iff, Function.comp, entryOf_pNumber]

/-- Witness for the amended C2 on the example tree, flags as in the
counterexample. -/
theorem partial_traversal_names_unoriented_chain_witness :
    ∃ h' ti, evaluateGenericTraversal 4 1 false 3 (exHeap [1, 2, 3, 4, 5, 9]) 1
        ⟨.TIP_TIP, 0, 0, 0, [], []⟩ = .ok (h', ti) ∧
      ∀ m, m ∈ namedNodes ti ↔
        ∃ s, (Chain (exHeap [1, 2, 3, 4, 5, 9]) (.tip 1) s ∨
          Chain (exHeap [1, 2, 3, 4, 5, 9]) exTree s) ∧
          s.number (exHeap [1, 2, 3, 4, 5, 9]) = m :=
  partial_traversal_names_unoriented_chain 4 1 3 (exHeap [1, 2, 3, 4, 5, 9]) 1 (.tip 1) exTree
    ⟨.TIP_TIP, 0, 0, 0, [], []⟩ (exBranch_wellFormed _) (by decide) (by decide)

/-! ### Order of the entries -/

theorem children_height (s c : Topo) (hc : c ∈ s.children) : c.height < s.height := by
  cases s with
  | tip a => simp [Topo.children] at hc
  | inner p l r =>
    simp only [Topo.children, List.mem_cons, List.mem_singleton, List.not_mem_nil,
      or_false] at hc
    simp only [Topo.height]
    rcases hc with rfl | rfl <;> omega

theorem not_mem_children_self (s : Topo) : s ∉ s.children :=
  fun hs => Nat.lt_irrefl _ (children_height s s hs)

theorem self_mem_visit {K : Type} (pt : Bool) (h : heap K) (t : Topo) (ht : t.isInner = true) :
    t ∈ visit pt h t := by
  cases t with
  | tip a => simp [Topo.isInner] at ht
  | inner p l r => simp [visit]

theorem visitIf_subset_visit {K : Type} (pt : Bool) (h : heap K) (t : Topo) :
    ∀ s ∈ visitIf pt h t, s ∈ visit pt h t := by
  intro s hs
  unfold visitIf at hs
  split_ifs at hs
  · exact hs
  · simp at hs

theorem visit_isInner {K : Type} (pt : Bool) (h : heap K) (t : Topo) :
    ∀ s ∈ visit pt h t, s.isInner = true := by
  induction t with
  | tip a => intro s hs; simp [visit] at hs
  | inner p l r ihl ihr =>
    intro s hs
    simp only [visit_inner, List.mem_append, List.mem_singleton] at hs
    rcases hs with (hs | hs) | hs
    · exact ihl s (visitIf_subset_visit pt h l s hs)
    · exact ihr s (visitIf_subset_visit pt h r s hs)
    · subst hs; rfl

/-- Every inner child of a visited node is visited too or was oriented before
the call (which stops a partial traversal only). -/
theorem visit_children {K : Type} (pt : Bool) (h : heap K) (t : Topo) :
    ∀ s ∈ visit pt h t, ∀ c ∈ s.children, c.isInner = true →
      c ∈ visit pt h t ∨ (pt = true ∧ (h c.root).x = true) := by
  induction t with
  | tip a => intro s hs; simp [visit] at hs
  | inner p l r ihl ihr =>
    intro s hs c hc hci
    simp only [visit_inner, List.mem_append, List.mem_singleton] at hs ⊢
    rcases hs with (hs | hs) | hs
    · rcases ihl s (visitIf_subset_visit pt h l s hs) c hc hci with h1 | h1
      · left; left; left
        have hd : descend pt h l = true := by
          by_contra hd
          simp [visitIf, hd] at hs
        simpa [visitIf, hd] using h1
      · exact Or.inr h1
    · rcases ihr s (visitIf_subset_visit pt h r s hs) c hc hci with h1 | h1
      · left; left; right
        have hd : descend pt h r = true := by
          by_contra hd
          simp [visitIf, hd] at hs
        simpa [visitIf, hd] using h1
      · exact Or.inr h1
    · subst hs
      simp only [Topo.children, List.mem_cons, List.mem_singleton, List.not_mem_nil,
        or_false] at hc
      rcases hc with rfl | rfl
      · by_cases hd : descend pt h c = true
        · left; left; left
          simpa [visitIf, hd] using self_mem_visit pt h c hci
        · right
          simpa [descend, and_comm] using hd
      · by_cases hd : descend pt h c = true
        · left; left; right
          simpa [visitIf, hd] using self_mem_visit pt h c hci
        · right
          simpa [descend, and_comm] using hd

theorem children_root_mem {K : Type} (pt : Bool) (h : heap K) (t : Topo) :
    ∀ s ∈ visitIf pt h t, ∀ c ∈ s.children, c.root ∈ t.records h := by
  intro s hs c hc
  cases s with
  | tip a => simp [Topo.children] at hc
  | inner p l r =>
    obtain ⟨-, m2, m3⟩ := visitIf_records pt h t _ hs p l r rfl
    simp only [Topo.children, List.mem_cons, List.mem_singleton, List.not_mem_nil,
      or_false] at hc
    rcases hc with rfl | rfl
    · exact m2
    · exact m3

theorem visitIf_root_mem {K : Type} (pt : Bool) (h : heap K) (t : Topo) :
    ∀ s ∈ visitIf pt h t, s.root ∈ t.records h := by
  intro s hs
  cases s with
  | tip a =>
    have := visit_isInner pt h t _ (visitIf_subset_visit pt h t _ hs)
    simp [Topo.isInner] at this
  | inner p l r => exact (visitIf_records pt h t _ hs p l r rfl).1

/-- No visited node is a child of a node visited before it. -/
theorem visit_pairwise {K : Type} (pt : Bool) (h : heap K) (t : Topo)
    (hnd : (t.records h).Nodup) :
    (visit pt h t).Pairwise (fun a b => b ∉ a.children) := by
  induction t with
  | tip a => simp [visit]
  | inner p l r ihl ihr =>
    simp only [Topo.records, List.nodup_cons, List.mem_cons, List.mem_append, not_or,
      List.nodup_append] at hnd
    obtain ⟨⟨-, -, n3, n4⟩, -, -, ndl, ndr, dj⟩ := hnd
    have pl : (visitIf pt h l).Pairwise (fun a b => b ∉ a.children) := by
      unfold visitIf; split_ifs
      · exact ihl ndl
      · exact List.Pairwise.nil
    have pr : (visitIf pt h r).Pairwise (fun a b => b ∉ a.children) := by
      unfold visitIf; split_ifs
      · exact ihr ndr
      · exact List.Pairwise.nil
    rw [visit_inner, List.pairwise_append]
    refine ⟨?_, List.pairwise_singleton _ _, ?_⟩
    · rw [List.pairwise_append]
      refine ⟨pl, pr, ?_⟩
      intro a ha b hb hba
      exact dj (children_root_mem pt h l a ha b hba) (visitIf_root_mem pt h r b hb)
    · intro a ha b hb hba
      simp only [List.mem_singleton] at hb
      subst hb
      simp only [List.mem_append] at ha
      have := fun (x : Topo) hx => children_root_mem pt h x a hx _ hba
      rcases ha with ha | ha
      · exact n3 (this l ha)
      · exact n4 (this r ha)

theorem visit_subset_innerNodes {K : Type} (pt : Bool) (h : heap K) (t : Topo) :
    ∀ s ∈ visit pt h t, s ∈ t.innerNodes := by
  induction t with
  | tip a => intro s hs; simp [visit] at hs
  | inner p l r ihl ihr =>
    intro s hs
    simp only [visit_inner, Topo.innerNodes, List.mem_append, List.mem_singleton] at hs ⊢
    rcases hs with (hs | hs) | hs
    · exact Or.inl (Or.inl (ihl s (visitIf_subset_visit pt h l s hs)))
    · exact Or.inl (Or.inr (ihr s (visitIf_subset_visit pt h r s hs)))
    · exact Or.inr hs

theorem self_mem_innerNodes (t : Topo) (ht : t.isInner = true) : t ∈ t.innerNodes := by
  cases t with
  | tip a => simp [Topo.isInner] at ht
  | inner p l r => simp [Topo.innerNodes]

theorem children_mem_innerNodes (t : Topo) :
    ∀ s ∈ t.innerNodes, ∀ c ∈ s.children, c.isInner = true → c ∈ t.innerNodes := by
  induction t with
  | tip a => intro s hs; simp [Topo.innerNodes] at hs
  | inner p l r ihl ihr =>
    intro s hs c hc hci
    simp only [Topo.innerNodes, List.mem_append, List.mem_singleton] at hs ⊢
    rcases hs with (hs | hs) | hs
    · exact Or.inl (Or.inl (ihl s hs c hc hci))
    · exact Or.inl (Or.inr (ihr s hs c hc hci))
    · subst hs
      simp only [Topo.children, List.mem_cons, List.mem_singleton, List.not_mem_nil,
        or_false] at hc
      rcases hc with rfl | rfl
      · exact Or.inl (Or.inl (self_mem_innerNodes c hci))
      · exact Or.inl (Or.inr (self_mem_innerNodes c hci))

theorem shape_children {K : Type} (h : heap K) (maxTips : Nat) (t : Topo)
    (hs : Shape h maxTips t) :
    ∀ s ∈ t.innerNodes, ∀ c ∈ s.children, Shape h maxTips c := by
  induction t with
  | tip a => intro s hs; simp [Topo.innerNodes] at hs
  | inner p l r ihl ihr =>
    obtain ⟨-, -, -, sl, sr⟩ := hs
    intro s hs c hc
    simp only [Topo.innerNodes, List.mem_append, List.mem_singleton] at hs
    rcases hs with (hs | hs) | hs
    · exact ihl sl s hs c hc
    · exact ihr sr s hs c hc
    · subst hs
      simp only [Topo.children, List.mem_cons, List.mem_singleton, List.not_mem_nil,
        or_false] at hc
      rcases hc with rfl | rfl
      · exact sl
      · exact sr

/-- The children named by an entry are the two children of its node. -/
theorem entryOf_children {K : Type} (nb : Nat) (h : heap K) (s : Topo) (hs : s.isInner = true)
    (c : Nat) (hc : c = (entryOf nb h s).qNumber ∨ c = (entryOf nb h s).rNumber) :
    ∃ cn ∈ s.children, cn.number h = c := by
  cases s with
  | tip a => simp [Topo.isInner] at hs
  | inner p l r =>
    cases l <;> cases r <;>
      simp only [entryOf, mkEntry, Topo.children, Topo.number, Topo.root, List.mem_cons,
        List.mem_singleton, List.not_mem_nil, or_false, exists_eq_or_imp, exists_eq_left] at hc ⊢ <;>
      rcases hc with rfl | rfl <;> simp

/-- Order of the visited nodes by node number: a visited node whose number is
that of an inner child of the `k`-th visited node comes before position `k`. -/
theorem visit_child_before {K : Type} (pt : Bool) (h : heap K) (maxTips : Nat) (t : Topo)
    (wf : WellFormed h maxTips t) (k j : Nat) (s s' cn : Topo)
    (hk : (visit pt h t)[k]? = some s) (hj : (visit pt h t)[j]? = some s')
    (hc : cn ∈ s.children) (hci : cn.isInner = true) (hn : s'.number h = cn.number h) :
    j < k := by
  have hs : s ∈ visit pt h t := List.mem_iff_getElem?.2 ⟨k, hk⟩
  have hs' : s' ∈ visit pt h t := List.mem_iff_getElem?.2 ⟨j, hj⟩
  have m1 := visit_subset_innerNodes pt h t s hs
  have m2 := visit_subset_innerNodes pt h t s' hs'
  have m3 := children_mem_innerNodes t s m1 cn hc hci
  have e : s' = cn :=
    List.inj_on_of_nodup_map (innerNumbers_nodup h t wf.numbers_nodup) m2 m3 hn
  subst e
  rw [List.getElem?_eq_some] at hk hj
  obtain ⟨hk1, hk2⟩ := hk
  obtain ⟨hj1, hj2⟩ := hj
  rcases Nat.lt_trichotomy j k with h1 | h1 | h1
  · exact h1
  · subst h1
    rw [hk2] at hj2
    subst hj2
    exact absurd hc (not_mem_children_self _)
  · have := List.pairwise_iff_getElem.1 (visit_pairwise pt h t wf.records_nodup) k j hk1 hj1 h1
    rw [hk2, hj2] at this
    exact absurd hc this

/-- C3. Dependency order: in the entries that `computeTraversalInfo` (partial
or full) appends for a well-formed subtree, every inner child `c` named as
`qNumber` or `rNumber` by the entry at index `k` is the `pNumber` of an entry
at an index below `k`, or the traversal is partial and `c` was oriented
before the call; and no entry at index `k` or later has `c` as its `pNumber`. -/
theorem dependency_order {K : Type} (maxTips nb fuel : Nat) (pt : Bool) (h : heap K)
    (t : Topo) (ti : List (traversalInfo K)) (wf : WellFormed h maxTips t)
    (hf : t.height < fuel) :
    ∃ (h' : heap K) (new : List (traversalInfo K)),
      computeTraversalInfo maxTips nb pt fuel h t.root ti = .ok (h', ti ++ new) ∧
      ∀ (k : Nat) (e : traversalInfo K), new[k]? = some e →
        ∀ c, (c = e.qNumber ∨ c = e.rNumber) → isTip c maxTips = false →
        ((∃ (j : Nat) (e' : traversalInfo K), j < k ∧ new[j]? = some e' ∧ e'.pNumber = c) ∨
          (pt = true ∧ ∃ s ∈ t.innerNodes, s.number h = c ∧ (h s.root).x = true)) ∧
        (∀ (j : Nat) (e' : traversalInfo K), new[j]? = some e' → e'.pNumber = c → j < k) := by
  obtain ⟨h', e, -, -, -, -⟩ :=
    computeTraversalInfo_run maxTips nb pt t fuel h ti wf.shape wf.records_nodup hf
  refine ⟨h', (visit pt h t).map (entryOf nb h), e, ?_⟩
  intro k ek hk c hc hct
  rw [List.getElem?_map, Option.map_eq_some'] at hk
  obtain ⟨s, hks, rfl⟩ := hk
  have hs : s ∈ visit pt h t := List.mem_iff_getElem?.2 ⟨k, hks⟩
  have hsi := visit_isInner pt h t s hs
  obtain ⟨cn, hcn, rfl⟩ := entryOf_children nb h s hsi c hc
  have hcs := shape_children h maxTips t wf.shape s (visit_subset_innerNodes pt h t s hs) cn hcn
  have hci : cn.isInner = true := by
    have := shape_root_isTip hcs
    rw [show (h cn.root).number = cn.number h from rfl, hct] at this
    simpa using this.symm
  have order : ∀ j e', ((visit pt h t).map (entryOf nb h))[j]? = some e' →
      e'.pNumber = cn.number h → j < k := by
    intro j e' hj hp
    rw [List.getElem?_map, Option.map_eq_some'] at hj
    obtain ⟨s', hjs, rfl⟩ := hj
    rw [entryOf_pNumber] at hp
    exact visit_child_before pt h maxTips t wf k j s s' cn hks hjs hcn hci hp
  refine ⟨?_, order⟩
  rcases visit_children pt h t s hs cn hcn hci with h1 | ⟨h1, h2⟩
  · obtain ⟨j, hj⟩ := List.mem_iff_getElem?.1 h1
    have hj' : ((visit pt h t).map (entryOf nb h))[j]? = some (entryOf nb h cn) := by
      rw [List.getElem?_map, hj]; rfl
    exact Or.inl ⟨j, _, order j _ hj' (entryOf_pNumber nb h cn), hj', entryOf_pNumber nb h cn⟩
  · exact Or.inr ⟨h1, cn,
      children_mem_innerNodes t s (visit_subset_innerNodes pt h t s hs) cn hcn hci, rfl, h2⟩

/-- Witness for C3 on the example tree: a partial traversal from node 5 with
node 6 not oriented. -/
theorem dependency_order_witness :
    ∃ (h' : heap ℚ) (new : List (traversalInfo ℚ)),
      computeTraversalInfo 4 1 true 3 (exHeap [1, 2, 3, 4, 6, 9]) exTree.root [] =
        .ok (h', [] ++ new) ∧
      ∀ (k : Nat) (e : traversalInfo ℚ), new[k]? = some e →
        ∀ c, (c = e.qNumber ∨ c = e.rNumber) → isTip c 4 = false →
        ((∃ (j : Nat) (e' : traversalInfo ℚ), j < k ∧ new[j]? = some e' ∧ e'.pNumber = c) ∨
          (true = true ∧ ∃ s ∈ exTree.innerNodes,
            s.number (exHeap [1, 2, 3, 4, 6, 9]) = c ∧
              ((exHeap [1, 2, 3, 4, 6, 9]) s.root).x = true)) ∧
        (∀ (j : Nat) (e' : traversalInfo ℚ), new[j]? = some e' → e'.pNumber = c → j < k) :=
  dependency_order 4 1 3 true (exHeap [1, 2, 3, 4, 6, 9]) exTree [] (exTree_wellFormed _)
    (by decide)

/-! ### Orientation after the traversal -/

/-- C4. Orientation postcondition: with `getxnode(p)` setting `p->x` and
clearing `x` on the other two records of the node, a call of
`computeTraversalInfo` (partial or full) on an inner node `p` of a well-formed
tree returns without a failed assertion, leaves `p->x` set and, for every
entry it wrote, leaves `x` set on the root-facing record of the entry's node
and on the root-facing record of each inner child named in the entry. -/
theorem orientation_postcondition {K : Type} (maxTips nb fuel : Nat) (pt : Bool) (h : heap K)
    (t : Topo) (ti : List (traversalInfo K)) (wf : WellFormed h maxTips t)
    (hi : t.isInner = true) (hf : t.height < fuel) :
    ∃ h', computeTraversalInfo maxTips nb pt fuel h t.root ti =
        .ok (h', ti ++ (visit pt h t).map (entryOf nb h)) ∧
      (h' t.root).x = true ∧
      ∀ s ∈ visit pt h t, s.isInner = true ∧ (h' s.root).x = true ∧
        ∀ c ∈ s.children, c.isInner = true → (h' c.root).x = true := by
  obtain ⟨h', e, -, -, hx, ho⟩ :=
    computeTraversalInfo_run maxTips nb pt t fuel h ti wf.shape wf.records_nodup hf
  refine ⟨h', e, hx hi, ?_⟩
  intro s hs
  have hsi := visit_isInner pt h t s hs
  refine ⟨hsi, ?_⟩
  have := ho s hs
  cases s with
  | tip a => simp [Topo.isInner] at hsi
  | inner p l r =>
    obtain ⟨o1, o2, o3⟩ := this
    refine ⟨o1, ?_⟩
    intro c hc hci
    simp only [Topo.children, List.mem_cons, List.mem_singleton, List.not_mem_nil,
      or_false] at hc
    rcases hc with rfl | rfl
    · exact o2 hci
    · exact o3 hci

/-- Witness for C4 on the example tree, full traversal from node 5 with every
inner record unoriented. -/
theorem orientation_postcondition_witness :
    ∃ h', computeTraversalInfo 4 1 false 3 (exHeap [1, 2, 3, 4]) exTree.root [] =
        .ok (h', [] ++ (visit false (exHeap [1, 2, 3, 4]) exTree).map
          (entryOf 1 (exHeap [1, 2, 3, 4]))) ∧
      (h' exTree.root).x = true ∧
      ∀ s ∈ visit false (exHeap [1, 2, 3, 4]) exTree, s.isInner = true ∧
        (h' s.root).x = true ∧ ∀ c ∈ s.children, c.isInner = true → (h' c.root).x = true :=
  orientation_postcondition 4 1 3 false (exHeap [1, 2, 3, 4]) exTree [] (exTree_wellFormed _)
    (by decide) (by decide)

/-! ### Loops -/

theorem forLoop_zero {σ : Type} (body : Nat → σ → σ) (init : σ) : forLoop 0 body init = init :=
  rfl

theorem forLoop_succ {σ : Type} (n : Nat) (body : Nat → σ → σ) (init : σ) :
    forLoop (n + 1) body init = body n (forLoop n body init) := by
  simp [forLoop, List.range_succ]

theorem forLoop_congr {σ : Type} (n : Nat) (f g : Nat → σ → σ) (init : σ)
    (h : ∀ i, i < n → ∀ s, f i s = g i s) : forLoop n f init = forLoop n g init := by
  induction n with
  | zero => rfl
  | succ n ih =>
    rw [forLoop_succ, forLoop_succ, ih (fun i hi s => h i (by omega) s), h n (by omega)]

/-- An accumulation loop is a finite sum. -/
theorem forLoop_add {K : Type} [LinearOrderedField K] (n : Nat) (f : Nat → K) (a : K) :
    forLoop n (fun i acc => acc + f i) a = a + ∑ i in Finset.range n, f i := by
  induction n with
  | zero => simp [forLoop_zero]
  | succ n ih => rw [forLoop_succ, ih, Finset.sum_range_succ, add_assoc]

theorem ABS_eq_abs {K : Type} [LinearOrderedField K] (x : K) : ABS x = |x| := by
  unfold ABS
  split_ifs with h
  · exact (abs_of_neg h).symm
  · exact (abs_of_nonneg (not_lt.1 h)).symm

theorem forLoopM_zero {σ : Type} (body : Nat → σ → Except Fault σ) (init : σ) :
    forLoopM 0 body init = .ok init := rfl

theorem forLoopM_succ {σ : Type} (n : Nat) (body : Nat → σ → Except Fault σ) (init : σ) :
    forLoopM (n + 1) body init =
      match forLoopM n body init with
      | .error e => .error e
      | .ok s => body n s := by
  simp only [forLoopM, List.range_succ, List.foldlM_append]
  cases h : List.foldlM (fun s i => body i s) init (List.range n) with
  | error e => rfl
  | ok s =>
    simp only [List.foldlM, bind, Except.bind, pure, Except.pure]
    cases body n s <;> rfl

/-! ### The root kernels -/

/-- The operand `a_i[j,k]` of the root formula: the tip vector entry of the
tip code when one end of the branch is a tip, the entry of `x1` otherwise. -/
theorem evaluateGAMMA_FLEX_eq {K : Type} [LinearOrderedField K] (c : consts K)
    (wptr : Nat → Int) (x1 x2 tipVector : Nat → K) (tipX1 : Option (Nat → Nat)) (n : Nat)
    (diag : Nat → K) (S : Nat) :
    evaluateGAMMA_FLEX c wptr x1 x2 tipVector tipX1 n diag S =
      ∑ i in Finset.range n, (wptr i : K) *
        c.LOG (0.25 * |∑ j in Finset.range 4, ∑ k in Finset.range S,
          (match tipX1 with
            | some tip => tipVector (S * tip i + k)
            | none => x1 (4 * S * i + S * j + k)) *
          x2 (4 * S * i + S * j + k) * diag (S * j + k)|) := by
  have e1 : ∀ i j k : Nat, S * 4 * i + (S * j + k) = 4 * S * i + S * j + k := by
    intro i j k; ring
  have e2 : ∀ j k : Nat, j * S + k = S * j + k := by
    intro j k; ring
  cases tipX1 with
  | some tip =>
    simp only [evaluateGAMMA_FLEX, forLoop_add, zero_add, ABS_eq_abs, e2, e1]
  | none =>
    simp only [evaluateGAMMA_FLEX, forLoop_add, zero_add, ABS_eq_abs, e2, e1]

theorem evaluateCAT_FLEX_eq {K : Type} [LinearOrderedField K] (c : consts K) (cptr : Nat → Nat)
    (wptr : Nat → Int) (x1 x2 tipVector : Nat → K) (tipX1 : Option (Nat → Nat)) (n : Nat)
    (diag : Nat → K) (S : Nat) :
    evaluateCAT_FLEX c cptr wptr x1 x2 tipVector tipX1 n diag S =
      ∑ i in Finset.range n, (wptr i : K) *
        c.LOG (|∑ l in Finset.range S,
          (match tipX1 with
            | some tip => tipVector (S * tip i + l)
            | none => x1 (S * i + l)) *
          x2 (S * i + l) * diag (S * cptr i + l)|) := by
  cases tipX1 with
  | some tip => simp only [evaluateCAT_FLEX, forLoop_add, zero_add, ABS_eq_abs]
  | none => simp only [evaluateCAT_FLEX, forLoop_add, zero_add, ABS_eq_abs]

/-! ### The second loop of `evaluateIterative` -/

/-- The loop over the partitions that stores the per-partition log
likelihoods touches `perPartitionLH` only; where it returns, every executed
partition of positive width below the loop bound holds its
`partitionLikelihood`. -/
theorem evaluatePartition_loop {K : Type} [LinearOrderedField K] (c : consts K)
    (pNumber qNumber : Nat) (tr : tree K) (n : Nat) :
    ∀ tr', forLoopM n (evaluatePartition c pNumber qNumber) tr = .ok tr' →
      ∃ lh, tr' = { tr with perPartitionLH := lh } ∧
        ∀ model, model < n → tr.td_executeModel model = true →
          0 < (tr.partitionData model).width →
          lh model = partitionLikelihood c tr pNumber qNumber model := by
  induction n with
  | zero =>
    intro tr' h
    rw [forLoopM_zero] at h
    injection h with h
    subst h
    exact ⟨tr.perPartitionLH, rfl, fun _ hm => absurd hm (Nat.not_lt_zero _)⟩
  | succ n ih =>
    intro tr' h
    rw [forLoopM_succ] at h
    cases h1 : forLoopM n (evaluatePartition c pNumber qNumber) tr with
    | error e => rw [h1] at h; cases h
    | ok s =>
      rw [h1] at h
      obtain ⟨lh, rfl, hl⟩ := ih s h1
      simp only [evaluatePartition] at h
      split_ifs at h with a1 a2 a3 a4 a5 a6
      · injection h with h
        subst h
        refine ⟨_, rfl, ?_⟩
        intro model hm hex hw
        by_cases hmn : model = n
        · subst hmn; simp; rfl
        · simp only [hmn, if_false]
          exact hl model (by omega) hex hw
      · injection h with h
        subst h
        refine ⟨_, rfl, ?_⟩
        intro model hm hex hw
        by_cases hmn : model = n
        · subst hmn
          omega
        · simp only [hmn, if_false]
          exact hl model (by omega) hex hw
      · injection h with h
        subst h
        refine ⟨lh, rfl, ?_⟩
        intro model hm hex hw
        by_cases hmn : model = n
        · subst hmn
          exact absurd hex (by simpa using a6.1)
        · exact hl model (by omega) hex hw

/-- C6. Root evaluation formula (exact arithmetic, GAMMA, generic kernel): where
`evaluateIterative` returns, every executed partition of positive width (whose
tips are byte coded) holds as its per-partition log likelihood
`Σ_{i<n} wgt[i] · LOG(0.25 · |Σ_{j<4} Σ_{k<S} a_i[j,k] · x2[i,j,k] · diag[j,k]|) +
(globalScaler[pNumber] + globalScaler[qNumber]) · LOG(minlikelihood)`, with
`a_i[j,k] = tipVector[S · tip[i] + k]` when one end of the root branch is a tip
and `x1[i,j,k]` otherwise; the scaler correction is added once per partition. -/
theorem root_evaluation_formula {K : Type} [LinearOrderedField K] (c : consts K)
    (tr tr' : tree K) (model : Nat) (hrun : evaluateIterative c tr = .ok tr')
    (hG : tr'.rateHetModel = .GAMMA) (hm : model < tr'.NumberOfModels)
    (hex : tr'.td_executeModel model = true) (hw : 0 < (tr'.partitionData model).width)
    (hpomo : (tr'.partitionData model).isPomo = false)
    (hp : (tr'.partitionData model).globalScaler tr.ti0.pNumber < INT_MAX)
    (hq : (tr'.partitionData model).globalScaler tr.ti0.qNumber < INT_MAX) :
    ((rootVectors tr'.mxtips (tr'.partitionData model) tr.ti0.pNumber tr.ti0.qNumber).2.2.isSome =
        (isTip tr.ti0.pNumber tr'.mxtips || isTip tr.ti0.qNumber tr'.mxtips)) ∧
    tr'.perPartitionLH model =
      rootFormulaGAMMA c (tr'.partitionData model).wgt
        (fun i j k =>
          match (rootVectors tr'.mxtips (tr'.partitionData model) tr.ti0.pNumber
              tr.ti0.qNumber).2.2 with
          | some tip => (tr'.partitionData model).tipVector
              ((tr'.partitionData model).states * tip i + k)
          | none => (rootVectors tr'.mxtips (tr'.partitionData model) tr.ti0.pNumber
              tr.ti0.qNumber).1 (4 * (tr'.partitionData model).states * i +
                (tr'.partitionData model).states * j + k))
        (rootVectors tr'.mxtips (tr'.partitionData model) tr.ti0.pNumber tr.ti0.qNumber).2.1
        (tr'.partitionData model).left (tr'.partitionData model).width
        (tr'.partitionData model).states
        ((tr'.partitionData model).globalScaler tr.ti0.pNumber)
        ((tr'.partitionData model).globalScaler tr.ti0.qNumber) := by
  constructor
  · simp only [rootVectors, hpomo]
    split_ifs <;> simp_all
  · simp only [evaluateIterative] at hrun
    cases h1 : newviewIterative c tr 1 with
    | error e => rw [h1] at hrun; cases hrun
    | ok tr1 =>
      rw [h1] at hrun
      simp only [evaluateRoot] at hrun
      obtain ⟨lh, rfl, hl⟩ := evaluatePartition_loop c _ _ _ _ tr' hrun
      simp only [] at hG hm hex hw hpomo hp hq ⊢
      rw [hl model hm hex hw]
      simp only [partitionLikelihood, hG, evaluateGAMMA_FLEX_eq, rootFormulaGAMMA]
      have hs : addUnsigned
          ((((forLoop tr1.NumberOfModels (evaluateDiag c tr.ti0.qz) tr1).partitionData
            model).globalScaler) tr.ti0.pNumber)
          ((((forLoop tr1.NumberOfModels (evaluateDiag c tr.ti0.qz) tr1).partitionData
            model).globalScaler) tr.ti0.qNumber) = _ + _ :=
        Nat.mod_eq_of_lt (by unfold INT_MAX at hp hq; omega)
      rw [hs]
      simp

theorem exRoot_run :
    ∃ tr', evaluateIterative exConsts
        (exTr [1, 2, 3, 4, 5, 8] [⟨.TIP_TIP, 1, 5, 0, [1 / 10], []⟩] (1 / 4) (1 / 4) 0 0) =
          .ok tr' ∧
      tr'.rateHetModel = .GAMMA ∧ tr'.NumberOfModels = 1 ∧ tr'.td_executeModel 0 = true ∧
      (tr'.partitionData 0).width = 1 ∧ (tr'.partitionData 0).isPomo = false ∧
      (∀ k, (tr'.partitionData 0).globalScaler k = 0) := by
  cases h : evaluateIterative exConsts
      (exTr [1, 2, 3, 4, 5, 8] [⟨.TIP_TIP, 1, 5, 0, [1 / 10], []⟩] (1 / 4) (1 / 4) 0 0) with
  | error e =>
    simp [evaluateIterative, evaluateRoot, newviewIterative, tree.ti0, exTr, forLoop, forLoopFrom, forLoopM,
      evaluateDiag, evaluatePartition, partitionLikelihood, rootVectors, isTip,
      evaluateGAMMA_FLEX, calcDiagptable, exPartition, exConsts, tree.setPartition, branchOf,
      rateCategoriesOf, store, List.range_succ, addUnsigned, ABS, List.foldlM, pure,
      Except.pure, bind, Except.bind] at h
    norm_num at h
    cases h
  | ok tr' =>
    simp [evaluateIterative, evaluateRoot, newviewIterative, tree.ti0, exTr, forLoop, forLoopFrom, forLoopM,
      evaluateDiag, evaluatePartition, partitionLikelihood, rootVectors, isTip,
      evaluateGAMMA_FLEX, calcDiagptable, exPartition, exConsts, tree.setPartition, branchOf,
      rateCategoriesOf, store, List.range_succ, addUnsigned, ABS, List.foldlM, pure,
      Except.pure, bind, Except.bind] at h
    norm_num at h
    subst h
    simp

/-- Witness for C6: the example tree evaluated at the branch between tip 1 and
node 5. -/
theorem root_evaluation_formula_witness :
    ∃ tr', evaluateIterative exConsts
        (exTr [1, 2, 3, 4, 5, 8] [⟨.TIP_TIP, 1, 5, 0, [1 / 10], []⟩] (1 / 4) (1 / 4) 0 0) =
          .ok tr' ∧
      tr'.perPartitionLH 0 =
        rootFormulaGAMMA exConsts (tr'.partitionData 0).wgt
        (fun i j k =>
          match (rootVectors tr'.mxtips (tr'.partitionData 0) 1 5).2.2 with
          | some tip => (tr'.partitionData 0).tipVector
              ((tr'.partitionData 0).states * tip i + k)
          | none => (rootVectors tr'.mxtips (tr'.partitionData 0) 1 5).1
              (4 * (tr'.partitionData 0).states * i + (tr'.partitionData 0).states * j + k))
        (rootVectors tr'.mxtips (tr'.partitionData 0) 1 5).2.1
        (tr'.partitionData 0).left (tr'.partitionData 0).width
        (tr'.partitionData 0).states
        ((tr'.partitionData 0).globalScaler 1)
        ((tr'.partitionData 0).globalScaler 5) := by
  obtain ⟨tr', h, h1, h2, h3, h4, h5, h6⟩ := exRoot_run
  exact ⟨tr', h, (root_evaluation_formula exConsts _ tr' 0 h h1 (by omega) h3 (by omega) h5
    (by rw [h6]; decide) (by rw [h6]; decide)).2⟩

/-! ### Symmetry of the root -/

theorem addUnsigned_comm (a b : Nat) : addUnsigned a b = addUnsigned b a := by
  simp [addUnsigned, Nat.add_comm]

theorem partitionLikelihood_symm {K : Type} [LinearOrderedField K] (c : consts K) (tr : tree K)
    (a b model : Nat) (h : ¬(isTip a tr.mxtips = true ∧ isTip b tr.mxtips = true)) :
    partitionLikelihood c tr a b model = partitionLikelihood c tr b a model := by
  simp only [partitionLikelihood]
  rw [addUnsigned_comm]
  congr 1
  cases ha : isTip a tr.mxtips <;> cases hb : isTip b tr.mxtips
  · simp only [rootVectors, ha, hb, Bool.or_self, Bool.false_eq_true, if_false,
      evaluateCAT_FLEX_eq, evaluateGAMMA_FLEX_eq]
    split_ifs
    · refine Finset.sum_congr rfl (fun i _ => ?_)
      congr 3
      refine Finset.sum_congr rfl (fun l _ => ?_)
      ring
    · refine Finset.sum_congr rfl (fun i _ => ?_)
      congr 4
      refine Finset.sum_congr rfl (fun j _ => Finset.sum_congr rfl (fun k _ => ?_))
      ring
  · simp [rootVectors, ha, hb]
  · simp [rootVectors, ha, hb]
  · exact absurd ⟨ha, hb⟩ h

theorem evaluatePartition_symm {K : Type} [LinearOrderedField K] (c : consts K) (tr : tree K)
    (a b model : Nat) (h : ¬(isTip a tr.mxtips = true ∧ isTip b tr.mxtips = true)) :
    evaluatePartition c a b model tr = evaluatePartition c b a model tr := by
  simp only [evaluatePartition, partitionLikelihood_symm c tr a b model h]

theorem evaluatePartition_mxtips {K : Type} [LinearOrderedField K] (c : consts K)
    (a b model : Nat) (tr tr' : tree K) (h : evaluatePartition c a b model tr = .ok tr') :
    tr'.mxtips = tr.mxtips := by
  simp only [evaluatePartition] at h
  split_ifs at h <;> (injection h with h; subst h; rfl)

theorem forLoopM_congr_inv {σ : Type} (P : σ → Prop) (f g : Nat → σ → Except Fault σ)
    (hfg : ∀ i s, P s → f i s = g i s) (hP : ∀ i s s', P s → g i s = .ok s' → P s')
    (n : Nat) (init : σ) (h0 : P init) :
    forLoopM n f init = forLoopM n g init ∧ ∀ s, forLoopM n g init = .ok s → P s := by
  induction n with
  | zero =>
    refine ⟨rfl, ?_⟩
    intro s hs
    rw [forLoopM_zero] at hs
    injection hs with hs
    subst hs
    exact h0
  | succ n ih =>
    obtain ⟨e, hPn⟩ := ih
    rw [forLoopM_succ, forLoopM_succ, e]
    cases hg : forLoopM n g init with
    | error err => exact ⟨rfl, fun s hs => by cases hs⟩
    | ok s =>
      simp only []
      exact ⟨hfg n s (hPn s hg), fun s' hs' => hP n s s' (hPn s hg) hs'⟩

theorem evaluateDiag_mxtips {K : Type} [LinearOrderedField K] (c : consts K) (pz : List K)
    (m : Nat) (tr : tree K) : (evaluateDiag c pz m tr).mxtips = tr.mxtips := by
  simp only [evaluateDiag]
  split_ifs <;> rfl

theorem evaluateDiag_loop_mxtips {K : Type} [LinearOrderedField K] (c : consts K) (pz : List K)
    (n : Nat) (tr : tree K) : (forLoop n (evaluateDiag c pz) tr).mxtips = tr.mxtips := by
  induction n with
  | zero => rfl
  | succ n ih => rw [forLoop_succ, evaluateDiag_mxtips, ih]

/-- C9. Root symmetry: for a fixed CLV store, fixed scalers and a fixed root
branch length, the per-partition log likelihoods that `evaluateIterative`
computes (after `newviewIterative`) for the root entry `(pNumber, qNumber) =
(a, b)` are those it computes for `(b, a)`, whenever the two ends are both
inner nodes or exactly one of them is a tip; the two runs over the partitions
agree as a whole. -/
theorem root_symmetry {K : Type} [LinearOrderedField K] (c : consts K) (tr : tree K)
    (pz : List K) (a b : Nat) (h : ¬(isTip a tr.mxtips = true ∧ isTip b tr.mxtips = true)) :
    evaluateRoot c pz a b tr = evaluateRoot c pz b a tr ∧
      ∀ model, partitionLikelihood c tr a b model = partitionLikelihood c tr b a model := by
  refine ⟨?_, fun model => partitionLikelihood_symm c tr a b model h⟩
  unfold evaluateRoot
  refine (forLoopM_congr_inv (fun s => s.mxtips = tr.mxtips) _ _ ?_ ?_ _ _ ?_).1
  · intro i s hs
    exact evaluatePartition_symm c s a b i (by rw [hs]; exact h)
  · intro i s s' hs hr
    rw [evaluatePartition_mxtips c b a i s s' hr, hs]
  · exact evaluateDiag_loop_mxtips c pz _ tr

/-- Witness for C9 on the example tree: the branch between tip 1 and node 5. -/
theorem root_symmetry_witness :
    evaluateRoot exConsts [1 / 10] 1 5 (exTr [1, 2, 3, 4, 5, 8] [] (1 / 4) (1 / 4) 0 0) =
        evaluateRoot exConsts [1 / 10] 5 1 (exTr [1, 2, 3, 4, 5, 8] [] (1 / 4) (1 / 4) 0 0) ∧
      ∀ model, partitionLikelihood exConsts (exTr [1, 2, 3, 4, 5, 8] [] (1 / 4) (1 / 4) 0 0)
          1 5 model =
        partitionLikelihood exConsts (exTr [1, 2, 3, 4, 5, 8] [] (1 / 4) (1 / 4) 0 0) 5 1 model :=
  root_symmetry exConsts (exTr [1, 2, 3, 4, 5, 8] [] (1 / 4) (1 / 4) 0 0) [1 / 10] 1 5
    (by decide)

/-! ### Additivity over the patterns -/

theorem sum_range_split {K : Type} [LinearOrderedField K] (f : Nat → K) (m n : Nat)
    (hmn : m ≤ n) :
    ∑ i in Finset.range n, f i =
      ∑ i in Finset.range m, f i + ∑ i in Finset.range (n - m), f (m + i) := by
  rw [← Finset.sum_range_add, Nat.add_sub_cancel' hmn]

theorem evaluateGAMMA_FLEX_split {K : Type} [LinearOrderedField K] (c : consts K)
    (wptr : Nat → Int) (x1 x2 tipVector : Nat → K) (tipX1 : Option (Nat → Nat)) (m n : Nat)
    (diag : Nat → K) (S : Nat) (hmn : m ≤ n) :
    evaluateGAMMA_FLEX c wptr x1 x2 tipVector tipX1 n diag S =
      evaluateGAMMA_FLEX c wptr x1 x2 tipVector tipX1 m diag S +
      evaluateGAMMA_FLEX c (fun i => wptr (m + i)) (slice x1 (4 * S * m)) (slice x2 (4 * S * m))
        tipVector (tipX1.map (fun tip i => tip (m + i))) (n - m) diag S := by
  simp only [evaluateGAMMA_FLEX_eq]
  rw [sum_range_split _ m n hmn]
  congr 1
  refine Finset.sum_congr rfl (fun i _ => ?_)
  have e : ∀ j k : Nat, 4 * S * (m + i) + S * j + k = 4 * S * m + (4 * S * i + S * j + k) := by
    intro j k; ring
  cases tipX1 with
  | some tip => simp only [slice, Option.map_some', e]
  | none => simp only [slice, Option.map_none', e]

theorem evaluateCAT_FLEX_split {K : Type} [LinearOrderedField K] (c : consts K)
    (cptr : Nat → Nat) (wptr : Nat → Int) (x1 x2 tipVector : Nat → K)
    (tipX1 : Option (Nat → Nat)) (m n : Nat) (diag : Nat → K) (S : Nat) (hmn : m ≤ n) :
    evaluateCAT_FLEX c cptr wptr x1 x2 tipVector tipX1 n diag S =
      evaluateCAT_FLEX c cptr wptr x1 x2 tipVector tipX1 m diag S +
      evaluateCAT_FLEX c (fun i => cptr (m + i)) (fun i => wptr (m + i)) (slice x1 (S * m))
        (slice x2 (S * m)) tipVector (tipX1.map (fun tip i => tip (m + i))) (n - m) diag S := by
  simp only [evaluateCAT_FLEX_eq]
  rw [sum_range_split _ m n hmn]
  congr 1
  refine Finset.sum_congr rfl (fun i _ => ?_)
  have e : ∀ l : Nat, S * (m + i) + l = S * m + (S * i + l) := by
    intro l; ring
  cases tipX1 with
  | some tip => simp only [slice, Option.map_some', e]
  | none => simp only [slice, Option.map_none', e]

theorem rootVectors_patterns {K : Type} [LinearOrderedField K] (mxtips : Nat) (pd : pInfo K)
    (span lo len : Nat) (gs : Nat → Nat) (a b : Nat) :
    rootVectors mxtips (pd.patterns span lo len gs) a b =
      (slice (rootVectors mxtips pd a b).1 (span * lo),
       slice (rootVectors mxtips pd a b).2.1 (span * lo),
       (rootVectors mxtips pd a b).2.2.map (fun tip i => tip (lo + i))) := by
  simp only [rootVectors, pInfo.patterns]
  split_ifs <;> rfl

theorem partitionLikelihood_patterns {K : Type} [LinearOrderedField K] (c : consts K)
    (tr : tree K) (model a b span lo len : Nat) (gs : Nat → Nat) :
    partitionLikelihood c
        (tr.setPartition model ((tr.partitionData model).patterns span lo len gs)) a b model =
      (if tr.rateHetModel = .CAT then
        evaluateCAT_FLEX c (fun i => (tr.partitionData model).rateCategory (lo + i))
          (fun i => (tr.partitionData model).wgt (lo + i))
          (slice (rootVectors tr.mxtips (tr.partitionData model) a b).1 (span * lo))
          (slice (rootVectors tr.mxtips (tr.partitionData model) a b).2.1 (span * lo))
          (tr.partitionData model).tipVector
          ((rootVectors tr.mxtips (tr.partitionData model) a b).2.2.map
            (fun tip i => tip (lo + i))) len (tr.partitionData model).left
          (tr.partitionData model).states
      else
        evaluateGAMMA_FLEX c (fun i => (tr.partitionData model).wgt (lo + i))
          (slice (rootVectors tr.mxtips (tr.partitionData model) a b).1 (span * lo))
          (slice (rootVectors tr.mxtips (tr.partitionData model) a b).2.1 (span * lo))
          (tr.partitionData model).tipVector
          ((rootVectors tr.mxtips (tr.partitionData model) a b).2.2.map
            (fun tip i => tip (lo + i))) len (tr.partitionData model).left
          (tr.partitionData model).states) +
      ((addUnsigned (gs a) (gs b) : Nat) : K) * c.LOG c.minlikelihood := by
  simp only [partitionLikelihood, tree.setPartition, if_true, rootVectors_patterns]
  rfl

theorem kernel_prefix_GAMMA {K : Type} [LinearOrderedField K] (c : consts K)
    (wptr : Nat → Int) (x1 x2 tipVector : Nat → K) (tipX1 : Option (Nat → Nat)) (m : Nat)
    (diag : Nat → K) (S span : Nat) :
    evaluateGAMMA_FLEX c (fun i => wptr (0 + i)) (slice x1 (span * 0)) (slice x2 (span * 0))
        tipVector (tipX1.map (fun tip i => tip (0 + i))) m diag S =
      evaluateGAMMA_FLEX c wptr x1 x2 tipVector tipX1 m diag S := by
  cases tipX1 <;> simp [evaluateGAMMA_FLEX_eq, slice]

theorem kernel_prefix_CAT {K : Type} [LinearOrderedField K] (c : consts K) (cptr : Nat → Nat)
    (wptr : Nat → Int) (x1 x2 tipVector : Nat → K) (tipX1 : Option (Nat → Nat)) (m : Nat)
    (diag : Nat → K) (S span : Nat) :
    evaluateCAT_FLEX c (fun i => cptr (0 + i)) (fun i => wptr (0 + i)) (slice x1 (span * 0))
        (slice x2 (span * 0)) tipVector (tipX1.map (fun tip i => tip (0 + i))) m diag S =
      evaluateCAT_FLEX c cptr wptr x1 x2 tipVector tipX1 m diag S := by
  cases tipX1 <;> simp [evaluateCAT_FLEX_eq, slice]

/-- C10. Partition additivity (exact arithmetic): for every split point
`m ≤ n` the value of `evaluateGAMMA_FLEX` (and of `evaluateCAT_FLEX`) on the
patterns `[0, n)` is its value on `[0, m)` plus its value on `[m, n)` taken
with the weight, tip and vector arrays offset to pattern `m`; and when the
scaling counters of the two ends of the root branch split additively over the
two halves, the per-partition log likelihoods of the halves add up to that of
the whole partition. -/
theorem partition_additivity {K : Type} [LinearOrderedField K] (c : consts K) (tr : tree K)
    (model a b m : Nat) (g1 g2 : Nat → Nat) (hm : m ≤ (tr.partitionData model).width)
    (ha : (tr.partitionData model).globalScaler a = g1 a + g2 a)
    (hb : (tr.partitionData model).globalScaler b = g1 b + g2 b)
    (hA : (tr.partitionData model).globalScaler a < INT_MAX)
    (hB : (tr.partitionData model).globalScaler b < INT_MAX) :
    (∀ (wptr : Nat → Int) (x1 x2 tipVector : Nat → K) (tipX1 : Option (Nat → Nat))
        (diag : Nat → K) (S : Nat),
      evaluateGAMMA_FLEX c wptr x1 x2 tipVector tipX1 (tr.partitionData model).width diag S =
        evaluateGAMMA_FLEX c wptr x1 x2 tipVector tipX1 m diag S +
        evaluateGAMMA_FLEX c (fun i => wptr (m + i)) (slice x1 (4 * S * m))
          (slice x2 (4 * S * m)) tipVector (tipX1.map (fun tip i => tip (m + i)))
          ((tr.partitionData model).width - m) diag S) ∧
    (∀ (cptr : Nat → Nat) (wptr : Nat → Int) (x1 x2 tipVector : Nat → K)
        (tipX1 : Option (Nat → Nat)) (diag : Nat → K) (S : Nat),
      evaluateCAT_FLEX c cptr wptr x1 x2 tipVector tipX1 (tr.partitionData model).width diag S =
        evaluateCAT_FLEX c cptr wptr x1 x2 tipVector tipX1 m diag S +
        evaluateCAT_FLEX c (fun i => cptr (m + i)) (fun i => wptr (m + i)) (slice x1 (S * m))
          (slice x2 (S * m)) tipVector (tipX1.map (fun tip i => tip (m + i)))
          ((tr.partitionData model).width - m) diag S) ∧
    partitionLikelihood c tr a b model =
      partitionLikelihood c (tr.setPartition model ((tr.partitionData model).patterns
        (if tr.rateHetModel = .CAT then (tr.partitionData model).states
          else 4 * (tr.partitionData model).states) 0 m g1)) a b model +
      partitionLikelihood c (tr.setPartition model ((tr.partitionData model).patterns
        (if tr.rateHetModel = .CAT then (tr.partitionData model).states
          else 4 * (tr.partitionData model).states) m
        ((tr.partitionData model).width - m) g2)) a b model := by
  refine ⟨fun wptr x1 x2 tv tip diag S => evaluateGAMMA_FLEX_split c wptr x1 x2 tv tip m _ diag S hm,
    fun cptr wptr x1 x2 tv tip diag S =>
      evaluateCAT_FLEX_split c cptr wptr x1 x2 tv tip m _ diag S hm, ?_⟩
  rw [partitionLikelihood_patterns, partitionLikelihood_patterns]
  have s0 : addUnsigned ((tr.partitionData model).globalScaler a)
      ((tr.partitionData model).globalScaler b) = (g1 a + g2 a) + (g1 b + g2 b) := by
    rw [← ha, ← hb]
    exact Nat.mod_eq_of_lt (by unfold INT_MAX at hA hB; omega)
  have s1 : addUnsigned (g1 a) (g1 b) = g1 a + g1 b :=
    Nat.mod_eq_of_lt (by unfold INT_MAX at hA hB; omega)
  have s2 : addUnsigned (g2 a) (g2 b) = g2 a + g2 b :=
    Nat.mod_eq_of_lt (by unfold INT_MAX at hA hB; omega)
  simp only [partitionLikelihood]
  rw [s0, s1, s2]
  by_cases hc : tr.rateHetModel = .CAT
  · simp only [hc, if_true, kernel_prefix_CAT]
    rw [evaluateCAT_FLEX_split c _ _ _ _ _ _ m _ _ _ hm]
    push_cast
    ring
  · simp only [hc, if_false, kernel_prefix_GAMMA]
    rw [evaluateGAMMA_FLEX_split c _ _ _ _ _ m _ _ _ hm]
    push_cast
    ring

/-- Witness for C10: a partition of three patterns with weights 1, 2, 3,
split after the first pattern; the scaling counter 3 of node 5 splits into 1
and 2. -/
theorem partition_additivity_witness :
    partitionLikelihood exConsts exTrWide 1 5 0 =
      partitionLikelihood exConsts (exTrWide.setPartition 0
        ((exTrWide.partitionData 0).patterns
          (if exTrWide.rateHetModel = .CAT then (exTrWide.partitionData 0).states
          else 4 * (exTrWide.partitionData 0).states) 0 1
          (fun k => if k = 5 then 1 else 0))) 1 5 0 +
      partitionLikelihood exConsts (exTrWide.setPartition 0
        ((exTrWide.partitionData 0).patterns
          (if exTrWide.rateHetModel = .CAT then (exTrWide.partitionData 0).states
          else 4 * (exTrWide.partitionData 0).states) 1
          ((exTrWide.partitionData 0).width - 1)
          (fun k => if k = 5 then 2 else 0))) 1 5 0 :=
  (partition_additivity exConsts exTrWide 0 1 5 1
    (fun k => if k = 5 then 1 else 0) (fun k => if k = 5 then 2 else 0)
    (by decide) (by decide) (by decide) (by decide) (by decide)).2.2

/-! ### `newviewIterative`, partition by partition -/

theorem setPartition_self {K : Type} (tr : tree K) (m : Nat) :
    tr.setPartition m (tr.partitionData m) = tr := by
  cases tr
  simp only [tree.setPartition, tree.mk.injEq, true_and, and_true]
  funext k
  split_ifs with h
  · rw [h]
  · rfl

theorem pmatrices_ok {K : Type} [LinearOrderedField K] (c : consts K)
    (nb mc : Nat) (rh : rateHet) (sm : Bool) (e : traversalInfo K) (m : Nat) (pd : pInfo K) :
    ∃ l r, pmatrices c nb mc rh sm e m pd = .ok { pd with left := l, right := r } := by
  by_cases h : pd.protModelsLG4 = true
  · simp only [pmatrices, makeP_FlexLG4, h, if_true, (by decide : (20 : Nat) ≤ 64)]
    exact ⟨_, _, rfl⟩
  · simp only [pmatrices, h, if_false]
    exact ⟨_, _, rfl⟩

theorem updateVector_static {K : Type} [LinearOrderedField K] (c : consts K) (mxtips : Nat)
    (rh : rateHet) (sm : Bool) (e : traversalInfo K) (pd pd' : pInfo K)
    (h : updateVector c mxtips rh sm e pd = .ok pd') :
    pd' = { pd with xVector := pd'.xVector, globalScaler := pd'.globalScaler } := by
  simp only [updateVector] at h
  split at h
  · cases h
  · split_ifs at h
    · injection h with h
      subst h
      rfl

/-- One entry leaves every field of a partition as it is, except the vectors,
the scaling counters and the two P matrices. -/
theorem entryPartition_static {K : Type} [LinearOrderedField K] (c : consts K) (tr : tree K)
    (e : traversalInfo K) (m : Nat) (pd pd' : pInfo K)
    (h : entryPartition c tr e m pd = .ok pd') :
    pd' = { pd with xVector := pd'.xVector, globalScaler := pd'.globalScaler,
                    left := pd'.left, right := pd'.right } := by
  simp only [entryPartition] at h
  split_ifs at h
  · injection h with h
    subst h
    rfl
  · obtain ⟨l, r, hp⟩ := pmatrices_ok c tr.numBranches tr.maxCategories tr.rateHetModel
      tr.saveMemory e m pd
    rw [hp] at h
    simp only [] at h
    have := updateVector_static c _ _ _ _ _ _ h
    rw [this]

theorem entryPartition_width {K : Type} [LinearOrderedField K] (c : consts K) (tr : tree K)
    (e : traversalInfo K) (m : Nat) (pd pd' : pInfo K)
    (h : entryPartition c tr e m pd = .ok pd') : pd'.width = pd.width := by
  rw [entryPartition_static c tr e m pd pd' h]

/-! ### The scaling counter of an entry -/

/-- C5 (failing input): an entry whose children carry the scaling counters
2147483646 and 2147483646, on a partition with one pattern of weight 4 whose
row is scaled in this call (`D = 4`). The sum `2147483646 + 2147483646 + 4` is
`2 ^ 32`, the `unsigned int` wraps, the assertion
`globalScaler[p] < INT_MAX` passes and `newviewIterative` returns with
`globalScaler[p] = 0` in place of `globalScaler[q] + globalScaler[r] + D`. -/
theorem scaler_recurrence_wraps :
    (newviewIterative exConsts
        { exTr [] [⟨.INNER_INNER, 7, 5, 6, [1 / 10], [1 / 10]⟩] 0 0 0 0 with
          partitionData := fun _ => exPartition 0 0 2147483646 2147483646 4 } 0).toOption.map
      (fun tr => ((tr.partitionData 0).globalScaler 7, (tr.partitionData 0).globalScaler 5,
        (tr.partitionData 0).globalScaler 6, (tr.partitionData 0).wgt 0)) =
      some (0, 2147483646, 2147483646, 4) := by
  simp [newviewIterative, newviewEntry, newviewMakeP, newviewPartition, pmatrices,
    updateVector, entryKernel, entryVectors, tipPointers, newviewGAMMA_FLEX,
    rowGAMMA_INNER_INNER, evProduct, dot, scaleTestGAMMA, scaleUp, makeP, makePOne, fillP,
    blit, slice, tree.ti0, exTr, forLoop, forLoopFrom, forLoopM, exPartition, exConsts,
    tree.setPartition, branchOf, rateCategoriesOf, store, List.range_succ, addUnsigned,
    toUnsigned, INT_MAX, ABS, List.foldlM, pure, Except.pure, bind, Except.bind,
    Except.toOption]

theorem store_apply {K : Type} (a : Nat → K) (i : Nat) (v : K) (j : Nat) :
    store a i v j = if j = i then v else a j := rfl

/-- A loop of stores at consecutive cells. -/
theorem foldl_store_range' {K : Type} (b : Nat) (f : Nat → K) (m lo : Nat) (P : Nat → K)
    (x : Nat) :
    (List.range' lo m).foldl (fun s k => store s (b + k) (f k)) P x =
      if b + lo ≤ x ∧ x < b + lo + m then f (x - b) else P x := by
  induction m generalizing P with
  | zero =>
    simp only [List.range'_zero, List.foldl_nil]
    rw [if_neg (by omega)]
  | succ m ih =>
    rw [List.range'_concat, List.foldl_append]
    simp only [List.foldl_cons, List.foldl_nil, store_apply, ih]
    by_cases h1 : x = b + (lo + m)
    · subst h1
      have : b + lo ≤ b + (lo + m) ∧ b + (lo + m) < b + lo + (m + 1) := by omega
      simp [this]
    · by_cases h2 : b + lo ≤ x ∧ x < b + lo + m
      · have : b + lo ≤ x ∧ x < b + lo + (m + 1) := by omega
        simp [h1, h2, this]
      · have : ¬ (b + lo ≤ x ∧ x < b + lo + (m + 1)) := by omega
        simp [h1, h2, this]

theorem forLoopFrom_store {K : Type} (b : Nat) (f : Nat → K) (lo hi : Nat) (P : Nat → K)
    (x : Nat) :
    forLoopFrom lo hi (fun k s => store s (b + k) (f k)) P x =
      if b + lo ≤ x ∧ x < b + hi then f (x - b) else P x := by
  unfold forLoopFrom
  rw [foldl_store_range']
  by_cases h : b + lo ≤ x ∧ x < b + hi
  · have : b + lo ≤ x ∧ x < b + lo + (hi - lo) := by omega
    simp [h, this]
  · have : ¬ (b + lo ≤ x ∧ x < b + lo + (hi - lo)) := by omega
    simp [h, this]

theorem fillP_rows {K : Type} [LinearOrderedField K] (S i : Nat) (d EI P : Nat → K) (n x : Nat)
    (hn : n ≤ S) :
    forLoop n (fun j P =>
      let P := store P (S * S * i + S * j) 1
      forLoopFrom 1 S (fun k P =>
        store P (S * S * i + S * j + k) (d k * EI (S * j + k))) P) P x =
      if S * S * i ≤ x ∧ x < S * S * i + S * n then pcell S d EI (x - S * S * i) else P x := by
  induction n with
  | zero =>
    rw [forLoop_zero, if_neg (by omega)]
  | succ n ih =>
    have hS : 0 < S := by omega
    rw [forLoop_succ]
    simp only []
    rw [forLoopFrom_store (S * S * i + S * n) (fun k => d k * EI (S * n + k)), store_apply,
      ih (by omega)]
    have hm : S * (n + 1) = S * n + S := by ring
    by_cases h1 : S * S * i + S * n + 1 ≤ x ∧ x < S * S * i + S * n + S
    · have h2 : S * S * i ≤ x ∧ x < S * S * i + S * (n + 1) := by omega
      have h3 : x - S * S * i = S * n + (x - (S * S * i + S * n)) := by omega
      have h4 : x - (S * S * i + S * n) < S := by omega
      have h5 : 0 < x - (S * S * i + S * n) := by omega
      have h6 : (S * n + (x - (S * S * i + S * n))) % S = x - (S * S * i + S * n) := by
        rw [Nat.mul_add_mod, Nat.mod_eq_of_lt h4]
      simp only [h1, h2, and_self, if_true, pcell, h3, h6]
      rw [if_neg (by omega)]
    · simp only [h1, if_false]
      by_cases h7 : x = S * S * i + S * n
      · subst h7
        have h2 : S * S * i ≤ S * S * i + S * n ∧
            S * S * i + S * n < S * S * i + S * (n + 1) := by omega
        simp only [h2, and_self, if_true, pcell]
        have : (S * S * i + S * n - S * S * i) % S = 0 := by
          rw [Nat.add_sub_cancel_left]; exact Nat.mul_mod_right S n
        simp [this]
      · simp only [h7, if_false]
        by_cases h8 : S * S * i ≤ x ∧ x < S * S * i + S * n
        · have h2 : S * S * i ≤ x ∧ x < S * S * i + S * (n + 1) := by omega
          simp [h8, h2]
        · have h2 : ¬ (S * S * i ≤ x ∧ x < S * S * i + S * (n + 1)) := by omega
          simp [h8, h2]

theorem fillP_apply {K : Type} [LinearOrderedField K] (S i : Nat) (d EI P : Nat → K) (x : Nat) :
    fillP S i d EI P x =
      if S * S * i ≤ x ∧ x < S * S * i + S * S then pcell S d EI (x - S * S * i) else P x := by
  unfold fillP
  exact fillP_rows S i d EI P S x le_rfl

theorem block_div_mod (SS n x : Nat) (h1 : SS * n ≤ x) (h2 : x < SS * n + SS) :
    x / SS = n ∧ x % SS = x - SS * n := by
  have hSS : 0 < SS := by omega
  have hd : x / SS = n := by
    apply Nat.div_eq_of_lt_le
    · rw [Nat.mul_comm]; exact h1
    · rw [Nat.succ_mul, Nat.mul_comm]; exact h2
  refine ⟨hd, ?_⟩
  have := Nat.div_add_mod x SS
  rw [hd] at this
  omega

theorem makePOne_cats {K : Type} [LinearOrderedField K] (S : Nat) (d : Nat → Nat → K)
    (EI P : Nat → K) (n x : Nat) :
    forLoop n (fun i P => fillP S i (d i) EI P) P x =
      if x < S * S * n then pcell S (d (x / (S * S))) EI (x % (S * S)) else P x := by
  induction n with
  | zero => rw [forLoop_zero, if_neg (by omega)]
  | succ n ih =>
    rw [forLoop_succ, fillP_apply, ih]
    have hm : S * S * (n + 1) = S * S * n + S * S := by ring
    by_cases h1 : S * S * n ≤ x ∧ x < S * S * n + S * S
    · obtain ⟨e1, e2⟩ := block_div_mod (S * S) n x h1.1 h1.2
      rw [if_pos h1, if_pos (by omega), e1, e2]
    · rw [if_neg h1]
      by_cases h2 : x < S * S * n
      · rw [if_pos h2, if_pos (by omega)]
      · rw [if_neg h2, if_neg (by omega)]

theorem makePOne_apply {K : Type} [LinearOrderedField K] (c : consts K) (z : K)
    (rptr EI EIGN : Nat → K) (n : Nat) (P : Nat → K) (sm : Bool) (mc S x : Nat) :
    makePOne c z rptr EI EIGN n P sm mc S x =
      if sm = true ∧ S * S * mc ≤ x ∧ x < S * S * mc + S * S then
        pcell S (fun j => c.EXP (EIGN j * z)) EI (x - S * S * mc)
      else if x < S * S * n then
        pcell S (fun j => c.EXP (rptr (x / (S * S)) * (EIGN j * z))) EI (x % (S * S))
      else P x := by
  unfold makePOne
  cases sm with
  | false =>
    simp only [Bool.false_eq_true, if_false, false_and]
    exact makePOne_cats S (fun i j => c.EXP (rptr i * (EIGN j * z))) EI P n x
  | true =>
    simp only [if_true, true_and]
    rw [fillP_apply]
    by_cases h : S * S * mc ≤ x ∧ x < S * S * mc + S * S
    · rw [if_pos h, if_pos h]
    · rw [if_neg h, if_neg h]
      exact makePOne_cats S (fun i j => c.EXP (rptr i * (EIGN j * z))) EI P n x

/-- The entry `[i, j, k]` of a P matrix. -/
theorem makePOne_entry {K : Type} [LinearOrderedField K] (c : consts K) (z : K)
    (rptr EI EIGN : Nat → K) (n : Nat) (P : Nat → K) (sm : Bool) (mc S i j k : Nat)
    (hsm : sm = true → n ≤ mc) (hi : i < n) (hj : j < S) (hk : k < S) :
    makePOne c z rptr EI EIGN n P sm mc S (S * S * i + S * j + k) =
      if k = 0 then 1 else c.EXP (rptr i * EIGN k * z) * EI (S * j + k) := by
  have hjk : S * j + k < S * S := by
    calc S * j + k < S * j + S := by omega
      _ = S * (j + 1) := by ring
      _ ≤ S * S := Nat.mul_le_mul_left S hj
  have hin : S * S * (i + 1) ≤ S * S * n := Nat.mul_le_mul_left _ hi
  have hm : S * S * (i + 1) = S * S * i + S * S := by ring
  obtain ⟨e1, e2⟩ := block_div_mod (S * S) i (S * S * i + S * j + k) (by omega) (by omega)
  rw [makePOne_apply, if_neg, if_pos (by omega), e1, e2]
  · have e3 : S * S * i + S * j + k - S * S * i = S * j + k := by omega
    have e4 : (S * j + k) % S = k := by rw [Nat.mul_add_mod, Nat.mod_eq_of_lt hk]
    simp only [pcell, e3, e4]
    rw [mul_assoc (rptr i) (EIGN k) z]
  · rintro ⟨h1, h2, -⟩
    have := hsm h1
    have : S * S * n ≤ S * S * mc := Nat.mul_le_mul_left _ this
    omega

/-- C12: the P matrices that `newviewIterative` and `makeP` fill for a
descriptor entry. For a partition without the LG4 models (and, with memory
saving, no more rate categories than `maxCategories`), the call returns and,
for every category `i` below the number of categories and states `j, k < S`,
`left[S*S*i + S*j + 0] = 1` and, for `k ≥ 1`,
`left[S*S*i + S*j + k] = EXP(rptr[i] * EIGN[k] * LOG(max(qz, zmin))) * EI[S*j + k]`;
`right` is the same with `rz`; an entry whose branch lengths are those of
`tInfo` raised to `zmin` gives the same matrices. -/
theorem pmatrix_entries {K : Type} [LinearOrderedField K] (c : consts K)
    (numBranches maxCategories : Nat) (rateHetModel : rateHet) (saveMemory : Bool)
    (tInfo : traversalInfo K) (model : Nat) (pd : pInfo K)
    (hLG4 : pd.protModelsLG4 = false)
    (hsm : saveMemory = true → (rateCategoriesOf rateHetModel pd).2 ≤ maxCategories) :
    ∃ pd', pmatrices c numBranches maxCategories rateHetModel saveMemory tInfo model pd =
        .ok pd' ∧
      (∀ i j k, i < (rateCategoriesOf rateHetModel pd).2 → j < pd.states → k < pd.states →
        pd'.left (pd.states * pd.states * i + pd.states * j + 0) = 1 ∧
        pd'.right (pd.states * pd.states * i + pd.states * j + 0) = 1 ∧
        (1 ≤ k →
          pd'.left (pd.states * pd.states * i + pd.states * j + k) =
            c.EXP ((rateCategoriesOf rateHetModel pd).1 i * pd.EIGN k *
              c.LOG (max (branchOf numBranches model tInfo.qz) c.zmin)) *
            pd.EI (pd.states * j + k) ∧
          pd'.right (pd.states * pd.states * i + pd.states * j + k) =
            c.EXP ((rateCategoriesOf rateHetModel pd).1 i * pd.EIGN k *
              c.LOG (max (branchOf numBranches model tInfo.rz) c.zmin)) *
            pd.EI (pd.states * j + k))) ∧
      (∀ tInfo' : traversalInfo K,
        branchOf numBranches model tInfo'.qz =
          max (branchOf numBranches model tInfo.qz) c.zmin →
        branchOf numBranches model tInfo'.rz =
          max (branchOf numBranches model tInfo.rz) c.zmin →
        pmatrices c numBranches maxCategories rateHetModel saveMemory tInfo' model pd =
          .ok pd') := by
  have hlog : ∀ z : K, (if z > c.zmin then c.LOG z else c.LOG c.zmin) = c.LOG (max z c.zmin) := by
    intro z
    split_ifs with h
    · rw [max_eq_left (le_of_lt h)]
    · rw [max_eq_right (not_lt.1 h)]
  refine ⟨_, by simp only [pmatrices, hLG4, Bool.false_eq_true, if_false]; rfl, ?_, ?_⟩
  · intro i j k hi hj hk
    have h0 : 0 < pd.states := by omega
    simp only [makeP, hlog]
    refine ⟨?_, ?_, ?_⟩
    · rw [makePOne_entry c _ _ _ _ _ _ _ _ _ i j 0 hsm hi hj h0, if_pos rfl]
    · rw [makePOne_entry c _ _ _ _ _ _ _ _ _ i j 0 hsm hi hj h0, if_pos rfl]
    · intro h1
      rw [makePOne_entry c _ _ _ _ _ _ _ _ _ i j k hsm hi hj hk,
        makePOne_entry c _ _ _ _ _ _ _ _ _ i j k hsm hi hj hk, if_neg (by omega),
        if_neg (by omega)]
      exact ⟨rfl, rfl⟩
  · intro tInfo' hq hr
    simp only [pmatrices, hLG4, Bool.false_eq_true, if_false, hlog, hq, hr, max_assoc, max_self]

/-- Witness for C12: a partition with two states under GAMMA, branch lengths
1/10 and 1/1000 (below `zmin = 1/100`). In category 1, row 1, the entry 0 of
both matrices is 1; the entry 1 of `left` is `EXP(2 * (-1) * LOG(1/10)) * 4`
and that of `right` is `EXP(2 * (-1) * LOG(1/100)) * 4`, the value for
`zmin`; the entry with the second branch length raised to `zmin` gives the
same matrices. -/
theorem pmatrix_entries_witness :
    ∃ pd', pmatrices exConsts 1 1 .GAMMA false ⟨.TIP_TIP, 5, 1, 2, [1 / 10], [1 / 1000]⟩ 0
        exPartition2 = .ok pd' ∧
      pd'.left 6 = 1 ∧ pd'.right 6 = 1 ∧
      pd'.left 7 = exConsts.EXP (2 * (-1) * exConsts.LOG (1 / 10)) * 4 ∧
      pd'.right 7 = exConsts.EXP (2 * (-1) * exConsts.LOG (1 / 100)) * 4 ∧
      pmatrices exConsts 1 1 .GAMMA false ⟨.TIP_TIP, 5, 1, 2, [1 / 10], [1 / 100]⟩ 0
        exPartition2 = .ok pd' :=
  (pmatrix_entries exConsts 1 1 .GAMMA false ⟨.TIP_TIP, 5, 1, 2, [1 / 10], [1 / 1000]⟩ 0
    exPartition2 rfl (by simp)).imp
    (fun pd' h => by
      obtain ⟨h1, h2, h3⟩ := h
      have e := h2 1 1 1 (by decide) (by decide) (by decide)
      refine ⟨h1, e.1, e.2.1, ?_, ?_, ?_⟩
      · have := (e.2.2 (le_refl 1)).1
        simp only [exPartition2, exPartition, rateCategoriesOf, branchOf, exConsts] at this ⊢
        rw [this]
        norm_num
      · have := (e.2.2 (le_refl 1)).2
        simp only [exPartition2, exPartition, rateCategoriesOf, branchOf, exConsts] at this ⊢
        rw [this]
        norm_num
      · exact h3 ⟨.TIP_TIP, 5, 1, 2, [1 / 10], [1 / 100]⟩
          (by norm_num [branchOf, exConsts]) (by norm_num [branchOf, exConsts]))

/-- The per-partition log likelihood is the weighted sum of the logarithms of
the site likelihoods plus the scaling correction. -/
theorem partitionLikelihood_eq_sum {K : Type} [LinearOrderedField K] (c : consts K)
    (tr : tree K) (pNumber qNumber model : Nat) :
    partitionLikelihood c tr pNumber qNumber model =
      (∑ i in Finset.range (tr.partitionData model).width,
        ((tr.partitionData model).wgt i : K) *
          c.LOG (siteLikelihood tr pNumber qNumber model i)) +
      ((addUnsigned ((tr.partitionData model).globalScaler pNumber)
        ((tr.partitionData model).globalScaler qNumber) : Nat) : K) * c.LOG c.minlikelihood := by
  simp only [partitionLikelihood, siteLikelihood]
  split_ifs with h
  · rw [evaluateCAT_FLEX_eq]
  · rw [evaluateGAMMA_FLEX_eq]

/-- C11: the assertion `partitionLikelihood < 0.0` of `evaluateIterative`. For
an executed partition of width > 0 whose pattern weights are positive and
whose site likelihoods lie strictly between 0 and 1, with
`0 < minlikelihood < 1` and a logarithm that is negative on `(0, 1)`, the per
partition log likelihood is negative; so (outside the memory-saving and PLAIN
configurations, which the generic build refuses) the second loop of
`evaluateIterative` passes the assertion and stores that value. -/
theorem negative_log_likelihood {K : Type} [LinearOrderedField K] (c : consts K) (tr : tree K)
    (pNumber qNumber model : Nat)
    (hLOG : ∀ x : K, 0 < x → x < 1 → c.LOG x < 0)
    (hml : 0 < c.minlikelihood ∧ c.minlikelihood < 1)
    (hexec : tr.td_executeModel model = true)
    (hwidth : 0 < (tr.partitionData model).width)
    (hwgt : ∀ i, i < (tr.partitionData model).width → 0 < (tr.partitionData model).wgt i)
    (hsite : ∀ i, i < (tr.partitionData model).width →
      0 < siteLikelihood tr pNumber qNumber model i ∧
      siteLikelihood tr pNumber qNumber model i < 1) :
    partitionLikelihood c tr pNumber qNumber model < 0 ∧
    (tr.saveMemory = false → tr.rateHetModel ≠ .PLAIN →
      evaluatePartition c pNumber qNumber model tr =
        .ok { tr with perPartitionLH := fun m =>
          if m = model then partitionLikelihood c tr pNumber qNumber model
          else tr.perPartitionLH m }) := by
  have hneg : partitionLikelihood c tr pNumber qNumber model < 0 := by
    rw [partitionLikelihood_eq_sum]
    have h1 : ∑ i in Finset.range (tr.partitionData model).width,
        ((tr.partitionData model).wgt i : K) *
          c.LOG (siteLikelihood tr pNumber qNumber model i) < 0 := by
      apply Finset.sum_neg
      · intro i hi
        have hi := Finset.mem_range.1 hi
        have hw : (0 : K) < ((tr.partitionData model).wgt i : K) := by
          exact_mod_cast hwgt i hi
        exact mul_neg_of_pos_of_neg hw (hLOG _ (hsite i hi).1 (hsite i hi).2)
      · exact ⟨0, Finset.mem_range.2 hwidth⟩
    have h2 : ((addUnsigned ((tr.partitionData model).globalScaler pNumber)
        ((tr.partitionData model).globalScaler qNumber) : Nat) : K) * c.LOG c.minlikelihood ≤ 0 :=
      mul_nonpos_of_nonneg_of_nonpos (Nat.cast_nonneg _) (le_of_lt (hLOG _ hml.1 hml.2))
    linarith
  refine ⟨hneg, ?_⟩
  intro hsm hplain
  simp only [evaluatePartition, hexec, hwidth, hsm, hplain, hneg, gt_iff_lt, decide_True,
    Bool.and_self, if_true, Bool.false_eq_true, if_false]

/-- Witness for C11: one GAMMA partition with one state and one pattern of
weight 1 at the branch between tip 1 and node 5; the site likelihood is
1/4. -/
theorem negative_log_likelihood_witness :
    partitionLikelihood exConsts
      { exTr [] [] (1 / 4) (1 / 4) 0 0 with
        partitionData := fun _ => { exPartition (1 / 4) (1 / 4) 0 0 1 with left := fun _ => 1 } }
      1 5 0 < 0 :=
  (negative_log_likelihood exConsts
    { exTr [] [] (1 / 4) (1 / 4) 0 0 with
      partitionData := fun _ => { exPartition (1 / 4) (1 / 4) 0 0 1 with left := fun _ => 1 } }
    1 5 0
    (by intro x _ h1; simp only [exConsts]; linarith)
    (by simp only [exConsts]; norm_num)
    rfl
    (by simp [exTr, exPartition])
    (by intro i _; simp [exTr, exPartition])
    (by
      intro i _
      simp [siteLikelihood, rootVectors, isTip, exTr, exPartition, Finset.sum_range_succ]
      norm_num)).1

theorem ofBytes_lt (bs : List Nat) : ofBytes bs < 256 ^ bs.length := by
  induction bs with
  | nil => simp [ofBytes]
  | cons b bs ih =>
    simp only [ofBytes, List.length_cons, pow_succ]
    have := Nat.mod_lt b (by decide : 0 < 256)
    omega

theorem READ_VAR_eq (fh : List Nat) (pos size : Nat) (hs : 0 < size) :
    READ_VAR fh pos size =
      if pos + size ≤ fh.length then .ok (ofBytes ((fh.drop pos).take size), pos + size)
      else .error .abort := by
  unfold READ_VAR fread
  by_cases h : pos + size ≤ fh.length
  · have h1 : 1 ≤ (fh.length - pos) / size := by
      rw [Nat.le_div_iff_mul_le hs]; omega
    simp only [min_eq_left h1, if_true, one_mul, if_pos h]
  · have h1 : (fh.length - pos) / size = 0 := Nat.div_eq_of_lt (by omega)
    simp [h1, h]

theorem toInt_range (u : Nat) (h : u < 4294967296) :
    -2147483648 ≤ toInt u ∧ toInt u < 2147483648 := by
  unfold toInt
  split_ifs <;> omega

theorem int32At_range (file : List Nat) (pos : Nat) (s : Int) (h : int32At file pos = some s) :
    -2147483648 ≤ s ∧ s < 2147483648 := by
  unfold int32At at h
  split_ifs at h with h1
  injection h with h
  subst h
  apply toInt_range
  have := ofBytes_lt ((file.drop pos).take 4)
  have h2 : ((file.drop pos).take 4).length = 4 := by
    rw [List.length_take, List.length_drop]; omega
  rw [h2] at this
  omega

theorem READ_VAR_int (file : List Nat) (pos : Nat) :
    READ_VAR file pos sizeof_int =
      match int32At file pos with
      | some _ => .ok (ofBytes ((file.drop pos).take 4), pos + 4)
      | none => .error .abort := by
  rw [READ_VAR_eq _ _ _ (by decide)]
  unfold int32At sizeof_int
  split_ifs <;> rfl

/-- C13: the header compatibility gate. `initializeByteFile` accepts a file
if and only if its first three 32-bit fields are `sizeof(size_t)`,
`programVersionInt` and 6517718, in this order; a first field that differs
ends in `exit(-1)` with the address-size message, otherwise a second field
that differs ends in `exit(-1)` with the version message, otherwise a third
field that differs ends in `exit(-1)` with the magic-number message. -/
theorem header_gate (programVersionInt : Int) (file : List Nat) :
    ((∃ bf, initializeByteFile programVersionInt file = .ok bf) ↔
      (int32At file 0 = some (sizeof_size_t : Int) ∧ int32At file 4 = some programVersionInt ∧
        int32At file 8 = some 6517718)) ∧
    (∀ s, int32At file 0 = some s → s ≠ (sizeof_size_t : Int) →
      initializeByteFile programVersionInt file = .error (.exit (-1) .addressSize)) ∧
    (∀ s, int32At file 0 = some (sizeof_size_t : Int) → int32At file 4 = some s →
      s ≠ programVersionInt →
      initializeByteFile programVersionInt file = .error (.exit (-1) .versionNumber)) ∧
    (∀ s, int32At file 0 = some (sizeof_size_t : Int) → int32At file 4 = some programVersionInt →
      int32At file 8 = some s → s ≠ 6517718 →
      initializeByteFile programVersionInt file = .error (.exit (-1) .magicNumber)) := by
  have conv : ∀ s : Int, -2147483648 ≤ s → s < 2147483648 →
      ((s % 18446744073709551616).toNat ≠ sizeof_size_t ↔ s ≠ (sizeof_size_t : Int)) := by
    intro s h1 h2
    unfold sizeof_size_t
    omega
  have key : initializeByteFile programVersionInt file =
      match int32At file 0 with
      | none => .error .abort
      | some a =>
        if a ≠ (sizeof_size_t : Int) then .error (.exit (-1) .addressSize)
        else match int32At file 4 with
          | none => .error .abort
          | some b =>
            if b ≠ programVersionInt then .error (.exit (-1) .versionNumber)
            else match int32At file 8 with
              | none => .error .abort
              | some m =>
                if m ≠ 6517718 then .error (.exit (-1) .magicNumber)
                else .ok { fh := file, pos := 12, numTax := 0, numPattern := 0,
                           numPartitions := 0, gappyness := 0, taxaNames := none,
                           partitions := none, hasRead := fun _ => false } := by
    unfold initializeByteFile
    rw [READ_VAR_int]
    cases h0 : int32At file 0 with
    | none => rfl
    | some a =>
      have ha : a = toInt (ofBytes ((file.drop 0).take 4)) := by
        unfold int32At at h0; split_ifs at h0; injection h0 with h0; exact h0.symm
      obtain ⟨r1, r2⟩ := int32At_range file 0 a h0
      simp only []
      rw [← ha]
      by_cases hc : a ≠ (sizeof_size_t : Int)
      · rw [if_pos ((conv a r1 r2).2 hc), if_pos hc]
      · rw [if_neg (fun h => hc ((conv a r1 r2).1 h)), if_neg hc]
        rw [READ_VAR_int]
        cases h4 : int32At file (0 + 4) with
        | none => rfl
        | some b =>
          have hb : b = toInt (ofBytes ((file.drop (0 + 4)).take 4)) := by
            unfold int32At at h4; split_ifs at h4; injection h4 with h4; exact h4.symm
          simp only []
          rw [← hb]
          by_cases hv : b ≠ programVersionInt
          · rw [if_pos hv, if_pos hv]
          · rw [if_neg hv, if_neg hv, READ_VAR_int]
            cases h8 : int32At file (0 + 4 + 4) with
            | none => rfl
            | some m =>
              have hm : m = toInt (ofBytes ((file.drop (0 + 4 + 4)).take 4)) := by
                unfold int32At at h8; split_ifs at h8; injection h8 with h8; exact h8.symm
              simp only []
              rw [← hm]
  rw [key]
  refine ⟨?_, ?_, ?_, ?_⟩
  · constructor
    · rintro ⟨bf, h⟩
      cases h0 : int32At file 0 with
      | none => rw [h0] at h; cases h
      | some a =>
        rw [h0] at h
        simp only [] at h
        split_ifs at h with h1
        cases h4 : int32At file 4 with
        | none => rw [h4] at h; cases h
        | some b =>
          rw [h4] at h
          simp only [] at h
          split_ifs at h with h2
          cases h8 : int32At file 8 with
          | none => rw [h8] at h; cases h
          | some m =>
            rw [h8] at h
            simp only [] at h
            split_ifs at h with h3
            exact ⟨by rw [not_not.1 h1], by rw [not_not.1 h2], by rw [not_not.1 h3]⟩
    · rintro ⟨h0, h4, h8⟩
      rw [h0, h4, h8]
      simp
  · intro s h0 hs
    rw [h0]
    simp only [hs, ne_eq, not_false_eq_true, if_true]
  · intro s h0 h4 hs
    rw [h0, h4]
    simp only [hs, ne_eq, not_true_eq_false, not_false_eq_true, if_true, if_false]
  · intro s h0 h4 h8 hs
    rw [h0, h4, h8]
    simp only [hs, ne_eq, not_true_eq_false, not_false_eq_true, if_true, if_false]

/-- Witness for C13: a 12-byte file holding 8, 309 and 6517718 is accepted by
a reader of version 309, and rejected with the version message by a reader of
version 310. -/
theorem header_gate_witness :
    (∃ bf, initializeByteFile 309 [8, 0, 0, 0, 53, 1, 0, 0, 214, 115, 99, 0] = .ok bf) ∧
    initializeByteFile 310 [8, 0, 0, 0, 53, 1, 0, 0, 214, 115, 99, 0] =
      .error (.exit (-1) .versionNumber) :=
  ⟨(header_gate 309 [8, 0, 0, 0, 53, 1, 0, 0, 214, 115, 99, 0]).1.2
    ⟨by decide, by decide, by decide⟩,
   (header_gate 310 [8, 0, 0, 0, 53, 1, 0, 0, 214, 115, 99, 0]).2.2.1 309
    (by decide) (by decide) (by decide)⟩

theorem proteinModelLoop_none (AUTO LG4M LG4X : Int) (model : List Char)
    (names : List (List Char)) (i : Nat) (p : partitionModel)
    (h : ∀ name ∈ names, strcasecmp0 model name = false ∧
      strcasecmp0 model (name ++ ['F']) = false ∧ strcasecmp0 model (name ++ ['X']) = false) :
    proteinModelLoop AUTO LG4M LG4X model i names (p, false) = .ok (p, false) := by
  induction names generalizing i with
  | nil => rfl
  | cons name names ih =>
    obtain ⟨h1, h2, h3⟩ := h name (List.mem_cons_self _ _)
    have hstep : proteinModelStep AUTO LG4M LG4X model i name (p, false) = .ok (p, false) := by
      simp [proteinModelStep, h1, h2, h3]
    simp only [proteinModelLoop, Bool.false_eq_true, if_false, hstep]
    exact ih (i + 1) (fun n hn => h n (List.mem_cons_of_mem _ hn))

theorem count_loop_all {α : Type} (P : α → Prop) [DecidablePred P] (f : Nat → α) (n : Nat)
    (h : ∀ i, i < n → P (f i)) :
    forLoop n (fun i k => if P (f i) then k + 1 else k) 0 = n := by
  induction n with
  | zero => rfl
  | succ n ih =>
    rw [forLoop_succ, ih (fun i hi => h i (by omega)), if_pos (h n (by omega))]

theorem count_loop_none {α : Type} (P : α → Prop) [DecidablePred P] (f : Nat → α) (n : Nat)
    (h : ∀ i, i < n → ¬ P (f i)) :
    forLoop n (fun i k => if P (f i) then k + 1 else k) 0 = 0 := by
  induction n with
  | zero => rfl
  | succ n ih =>
    rw [forLoop_succ, ih (fun i hi => h i (by omega)), if_neg (h n (by omega))]

/-- C20 (what the code does): for every partition-file line whose model token
is `POMO64` in any letter case, `analyzeIdentifier` returns with
`dataType = POMO_16` (not `POMO_64`) and `optimizeBaseFrequencies = FALSE`;
and a partition file whose partitions all carry that data type, combined with
`-m POMO64` (`adef->model = M_POMOGAMMA_64`), is rejected by the PoMo
consistency checks of `parsePartitions` with `errorExit(-1)`. Here no protein
model name, alone or followed by `F` or `X`, reads `POMO64`. -/
theorem pomo64_identifier_sets_pomo16 (protModels : List (List Char)) (AUTO LG4M LG4X : Int)
    (line ident rest : List Char) (p : partitionModel)
    (hscan : scanIdentifier line = .ok (ident, rest))
    (hcomma : ',' ∈ ident)
    (htoken : strcasecmp0 (ident.takeWhile (fun c => c ≠ ',')) "POMO64".toList = true)
    (hprot : ∀ name ∈ protModels, strcasecmp0 "POMO64".toList name = false ∧
      strcasecmp0 "POMO64".toList (name ++ ['F']) = false ∧
      strcasecmp0 "POMO64".toList (name ++ ['X']) = false) :
    ∃ q, analyzeIdentifier protModels AUTO LG4M LG4X line p = .ok (q, rest) ∧
      q.dataType = some .POMO_16 ∧ q.optimizeBaseFrequencies = some false ∧
      ∀ (numberOfModels : Nat) (initialPartitionData : Nat → partitionModel),
        0 < numberOfModels →
        (∀ i, i < numberOfModels → (initialPartitionData i).dataType = q.dataType) →
        pomoChecks numberOfModels initialPartitionData .M_POMOGAMMA_64 =
          .error (.exit (-1)) := by
  have hlow : (ident.takeWhile (fun c => c ≠ ',')).map Char.toLower =
      "POMO64".toList.map Char.toLower := by
    simpa [strcasecmp0] using htoken
  have hcmp : ∀ b : List Char, strcasecmp0 (ident.takeWhile (fun c => c ≠ ',')) b =
      strcasecmp0 "POMO64".toList b := by
    intro b
    simp only [strcasecmp0, hlow]
  have hloop := proteinModelLoop_none AUTO LG4M LG4X (ident.takeWhile (fun c => c ≠ ','))
    protModels 0 p (fun name hn => by
      rw [hcmp, hcmp, hcmp]
      exact hprot name hn)
  have hother : otherModels (ident.takeWhile (fun c => c ≠ ',')) p =
      ({ p with protModels := -1, protFreqs := -1, dataType := some .POMO_16,
                optimizeBaseFrequencies := some false }, true) := by
    unfold otherModels
    simp only [hcmp]
    rfl
  refine ⟨{ p with protModels := -1, protFreqs := -1, dataType := some .POMO_16,
                    optimizeBaseFrequencies := some false,
                    partitionName := (ident.dropWhile (fun c => c ≠ ',')).drop 1 },
    ?_, rfl, rfl, ?_⟩
  · simp only [analyzeIdentifier, hscan, hcomma, not_true_eq_false, if_false, hloop,
      Bool.not_false, if_true, hother, Bool.not_true, Bool.false_eq_true]
  · intro n parts hn hall
    have h16 := count_loop_all (fun q : partitionModel => q.dataType = some .POMO_16) parts n
      (fun i hi => hall i hi)
    have h64 := count_loop_none (fun q : partitionModel => q.dataType = some .POMO_64) parts n
      (fun i hi => by
        show ¬ (parts i).dataType = some .POMO_64
        rw [hall i hi]
        intro h
        cases h)
    simp only [pomoChecks]
    rw [h16]
    rw [if_neg (by omega), if_pos ⟨hn, rfl, by decide⟩]

/-- Witness for C20: the line `POMO64, p1 = 1-10` with the protein model
names JTT, WAG, LG, AUTO, LG4M, LG4X. -/
theorem pomo64_identifier_sets_pomo16_witness :
    ∃ q, analyzeIdentifier
        ["JTT".toList, "WAG".toList, "LG".toList, "AUTO".toList, "LG4M".toList, "LG4X".toList]
        3 4 5 "POMO64, p1 = 1-10\n".toList ⟨0, 0, none, none, []⟩ =
          .ok (q, "= 1-10\n".toList) ∧
      q.dataType = some .POMO_16 ∧ q.optimizeBaseFrequencies = some false ∧
      pomoChecks 1 (fun _ => q) .M_POMOGAMMA_64 = .error (.exit (-1)) :=
  (pomo64_identifier_sets_pomo16
    ["JTT".toList, "WAG".toList, "LG".toList, "AUTO".toList, "LG4M".toList, "LG4X".toList]
    3 4 5 "POMO64, p1 = 1-10\n".toList "POMO64,p1".toList "= 1-10\n".toList
    ⟨0, 0, none, none, []⟩ (by rfl) (by decide) (by decide) (by decide)).imp
    (fun q h => ⟨h.1, h.2.1, h.2.2.1, h.2.2.2 1 (fun _ => q) (by decide) (fun _ _ => rfl)⟩)

/-- The table `obsToPomoCounts` row by row: bit 1 marks a code that is not
compatible with the class, 4 a code compatible with the first allele only, 2
a code compatible with the second allele only, 0 a code compatible with
both. -/
theorem effectRow_spec : ∀ c, c < 16 → 1 ≤ c → ∀ sc, sc < 10 →
    effectRow c sc =
      if compatible c sc = false then 1
      else if sc ≤ 3 then 4
      else if firstOnly c sc then 4
      else if secondOnly c sc then 2
      else 0 := by
  decide

theorem numValid_store (V : Nat → Bool) (sc : Nat) (hsc : sc < 10) (hV : V sc = true) :
    numValid (store V sc false) + 1 = numValid V := by
  unfold numValid
  have h : (Finset.range 10).filter (fun x => store V sc false x = true) =
      ((Finset.range 10).filter (fun x => V x = true)).erase sc := by
    ext x
    simp only [Finset.mem_filter, Finset.mem_range, Finset.mem_erase, store_apply]
    by_cases hx : x = sc
    · simp [hx]
    · simp [hx]
  rw [h, Finset.card_erase_of_mem (by simp [hsc, hV])]
  have : 0 < ((Finset.range 10).filter (fun x => V x = true)).card :=
    Finset.card_pos.2 ⟨sc, by simp [hsc, hV]⟩
  omega

theorem numValid_congr (V W : Nat → Bool) (h : ∀ x, x < 10 → V x = W x) :
    numValid V = numValid W := by
  unfold numValid
  congr 1
  apply Finset.filter_congr
  intro x hx
  rw [h x (Finset.mem_range.1 hx)]

theorem numValid_one (V : Nat → Bool) (h : numValid V = 1) (a b : Nat) (ha : a < 10)
    (hb : b < 10) (hVa : V a = true) (hVb : V b = true) : a = b := by
  unfold numValid at h
  obtain ⟨x, hx⟩ := Finset.card_eq_one.1 h
  have h1 : a ∈ (Finset.range 10).filter (fun sc => V sc = true) := by simp [ha, hVa]
  have h2 : b ∈ (Finset.range 10).filter (fun sc => V sc = true) := by simp [hb, hVb]
  rw [hx] at h1 h2
  rw [Finset.mem_singleton.1 h1, Finset.mem_singleton.1 h2]

theorem numValid_pos (V : Nat → Bool) (h : 1 ≤ numValid V) : ∃ sc, sc < 10 ∧ V sc = true := by
  unfold numValid at h
  obtain ⟨x, hx⟩ := Finset.card_pos.1 h
  simp only [Finset.mem_filter, Finset.mem_range] at hx
  exact ⟨x, hx⟩

/-- The block that strikes a class: it stops when the class is the last valid
one, and otherwise leaves the class invalid. -/
theorem strikeClass_spec (j i sc : Nat) (s : siteClasses) (V : Nat → Bool) (A : Nat → Nat × Nat)
    (hsc : sc < 10) (hI : ClassInv s V A) :
    (V sc = true ∧ numValid V = 1 ∧ strikeClass j i sc s = .error (.moreThanTwoAlleles j i)) ∨
    (¬ (V sc = true ∧ numValid V = 1) ∧
      ∃ s', strikeClass j i sc s = .ok s' ∧ ClassInv s' (store V sc false) A) := by
  obtain ⟨h1, h2, h3, h4⟩ := hI
  unfold strikeClass
  rw [h1 sc]
  by_cases hV : V sc = true
  · by_cases hn : numValid V = 1
    · left
      refine ⟨hV, hn, ?_⟩
      rw [if_pos hV, if_pos (by rw [h2, hn]; rfl)]
    · right
      refine ⟨fun h => hn h.2,
        { s with numStillValid := s.numStillValid - 1,
                 stillValid := store s.stillValid sc false }, ?_, ?_⟩
      · rw [if_pos hV, if_neg (by rw [h2]; intro h; apply hn; exact_mod_cast h)]
      · have hs := numValid_store V sc hsc hV
        refine ⟨?_, ?_, ?_, h4⟩
        · intro x
          simp only [store_apply, h1]
        · simp only [h2]
          omega
        · omega
  · right
    refine ⟨fun h => hV h.1, s, by rw [if_neg hV], ?_, ?_, ?_, h4⟩
    · intro x
      rw [store_apply, h1]
      split_ifs with hx
      · subst hx; simpa using hV
      · rfl
    · rw [h2, numValid_congr (store V sc false) V]
      intro x _
      rw [store_apply]
      split_ifs with hx
      · subst hx; simpa using hV
      · rfl
    · rw [numValid_congr (store V sc false) V]
      · exact h3
      · intro x _
        rw [store_apply]
        split_ifs with hx
        · subst hx; simpa using hV
        · rfl

theorem ClassInv.congr {s : siteClasses} {V W : Nat → Bool} {A B : Nat → Nat × Nat}
    (h : ClassInv s V A) (hV : ∀ x, V x = W x) (hA : ∀ x, A x = B x) : ClassInv s W B := by
  obtain ⟨h1, h2, h3, h4⟩ := h
  have hn : numValid V = numValid W := numValid_congr V W (fun x _ => hV x)
  exact ⟨fun x => by rw [h1, hV], by rw [h2, hn], by rw [← hn]; exact h3,
    fun x => by rw [h4, hA]⟩

theorem monoStep_spec (c j i sc : Nat) (s : siteClasses) (V : Nat → Bool) (A : Nat → Nat × Nat)
    (hc : 1 ≤ c ∧ c < 16) (hsc : sc ≤ 3) (hI : ClassInv s V A) :
    StepOK c j i sc (monoStep j i c sc s) V A := by
  have he := effectRow_spec c hc.2 hc.1 sc (by omega)
  unfold monoStep StepOK
  by_cases hcomp : compatible c sc = false
  · rw [he, if_pos hcomp, if_pos (by decide)]
    rcases strikeClass_spec j i sc s V A (by omega) hI with ⟨h1, h2, h3⟩ | ⟨h1, s', h2, h3⟩
    · exact Or.inl ⟨hcomp, h1, h2, h3⟩
    · refine Or.inr ⟨fun h => h1 ⟨h.2.1, h.2.2⟩, s', h2, h3.congr ?_ ?_⟩
      · intro x
        simp only [store_apply, validAfter]
        by_cases hx : x = sc
        · subst hx; simp [hcomp]
        · rw [if_neg hx, if_neg (by omega)]
      · intro x
        simp only [countsAfter]
        rw [if_neg (by omega)]
  · rw [he, if_neg hcomp, if_pos hsc, if_neg (by decide)]
    refine Or.inr ⟨fun h => hcomp h.1, s, rfl, hI.congr ?_ ?_⟩
    · intro x
      simp only [validAfter]
      by_cases hx : x = sc
      · subst hx; simp at hcomp; simp [hcomp]
      · rw [if_neg (by omega)]
    · intro x
      simp only [countsAfter]
      rw [if_neg (by omega)]

theorem diallelicStep_spec (c j i sc : Nat) (s : siteClasses) (V : Nat → Bool)
    (A : Nat → Nat × Nat) (hc : 1 ≤ c ∧ c < 16) (hsc : 4 ≤ sc ∧ sc < 10) (hI : ClassInv s V A) :
    StepOK c j i sc (diallelicStep j i c sc s) V A := by
  have he := effectRow_spec c hc.2 hc.1 sc hsc.2
  have hsc3 : ¬ sc ≤ 3 := by omega
  have e11 : (1 &&& 1 : Nat) ≠ 0 := by decide
  have e41 : ¬ (4 &&& 1 : Nat) ≠ 0 := by decide
  have e44 : (4 &&& 4 : Nat) ≠ 0 := by decide
  have e21 : ¬ (2 &&& 1 : Nat) ≠ 0 := by decide
  have e24 : ¬ (2 &&& 4 : Nat) ≠ 0 := by decide
  have e22 : (2 &&& 2 : Nat) ≠ 0 := by decide
  have e01 : ¬ (0 &&& 1 : Nat) ≠ 0 := by decide
  have e04 : ¬ (0 &&& 4 : Nat) ≠ 0 := by decide
  have e02 : ¬ (0 &&& 2 : Nat) ≠ 0 := by decide
  unfold diallelicStep StepOK
  by_cases hcomp : compatible c sc = false
  · have hval : effectRow c sc = 1 := by rw [he, if_pos hcomp]
    rw [hval, if_pos e11]
    rcases strikeClass_spec j i sc s V A hsc.2 hI with ⟨h1, h2, h3⟩ | ⟨h1, s', h2, h3⟩
    · exact Or.inl ⟨hcomp, h1, h2, h3⟩
    · refine Or.inr ⟨fun h => h1 ⟨h.2.1, h.2.2⟩, s', h2, h3.congr ?_ ?_⟩
      · intro x
        simp only [store_apply, validAfter]
        by_cases hx : x = sc
        · subst hx; simp [hcomp]
        · rw [if_neg hx, if_neg (by omega)]
      · intro x
        simp only [countsAfter]
        by_cases hx : x = sc
        · subst hx; simp [hcomp]
        · rw [if_neg (by omega)]
  · have hcomp' : compatible c sc = true := by simpa using hcomp
    have hV : ∀ x, V x = validAfter c sc (sc + 1) V x := by
      intro x
      simp only [validAfter]
      by_cases hx : x = sc
      · subst hx; simp [hcomp']
      · rw [if_neg (by omega)]
    refine Or.inr ⟨fun h => hcomp h.1, ?_⟩
    by_cases hf : firstOnly c sc = true
    · have hval : effectRow c sc = 4 := by rw [he, if_neg hcomp, if_neg hsc3, if_pos hf]
      rw [hval, if_neg e41, if_pos e44]
      refine ⟨_, rfl, ClassInv.congr (V := V)
        (A := store A sc ((A sc).1 + 1, (A sc).2)) ?_ hV ?_⟩
      · obtain ⟨h1, h2, h3, h4⟩ := hI
        exact ⟨h1, h2, h3, fun x => by simp only [store_apply, h4]⟩
      · intro x
        have hs : secondOnly c sc = false := by
          unfold firstOnly at hf; unfold secondOnly
          revert hf; cases hasBase c (firstBase sc) <;> cases hasBase c (secondBase sc) <;> simp
        simp only [store_apply, countsAfter]
        by_cases hx : x = sc
        · subst hx
          simp [hsc.1, hcomp', hf, hs]
        · rw [if_neg hx, if_neg (by omega)]
    · have hf' : firstOnly c sc = false := by simpa using hf
      by_cases hs : secondOnly c sc = true
      · have hval : effectRow c sc = 2 := by
          rw [he, if_neg hcomp, if_neg hsc3, if_neg hf, if_pos hs]
        rw [hval, if_neg e21, if_neg e24, if_pos e22]
        refine ⟨_, rfl, ClassInv.congr (V := V)
          (A := store A sc ((A sc).1, (A sc).2 + 1)) ?_ hV ?_⟩
        · obtain ⟨h1, h2, h3, h4⟩ := hI
          exact ⟨h1, h2, h3, fun x => by simp only [store_apply, h4]⟩
        · intro x
          simp only [store_apply, countsAfter]
          by_cases hx : x = sc
          · subst hx
            simp [hsc.1, hcomp', hf', hs]
          · rw [if_neg hx, if_neg (by omega)]
      · have hs' : secondOnly c sc = false := by simpa using hs
        have hval : effectRow c sc = 0 := by
          rw [he, if_neg hcomp, if_neg hsc3, if_neg hf, if_neg hs]
        rw [hval, if_neg e01, if_neg e04, if_neg e02]
        refine ⟨s, rfl, hI.congr hV ?_⟩
        intro x
        simp only [countsAfter]
        by_cases hx : x = sc
        · subst hx
          simp [hf', hs']
        · rw [if_neg (by omega)]

theorem forLoopFromE_self {ε σ : Type} (lo : Nat) (body : Nat → σ → Except ε σ) (s : σ) :
    forLoopFromE lo lo body s = .ok s := by
  simp [forLoopFromE, pure, Except.pure]

theorem forLoopFromE_succ {ε σ : Type} (lo k : Nat) (body : Nat → σ → Except ε σ) (s : σ) :
    forLoopFromE lo (lo + (k + 1)) body s =
      match forLoopFromE lo (lo + k) body s with
      | .error e => .error e
      | .ok s' => body (lo + k) s' := by
  simp only [forLoopFromE, Nat.add_sub_cancel_left, List.range'_concat, List.foldlM_append]
  cases h : List.foldlM (fun s i => body i s) s (List.range' lo k) with
  | error e => rfl
  | ok s' =>
    simp only [List.foldlM, bind, Except.bind, pure, Except.pure, Nat.one_mul]
    cases body (lo + k) s' <;> rfl

theorem validAfter_comp (c a b b' : Nat) (hab : a ≤ b) (hbb : b ≤ b') (V : Nat → Bool)
    (x : Nat) : validAfter c b b' (validAfter c a b V) x = validAfter c a b' V x := by
  simp only [validAfter]
  by_cases hP : a ≤ x ∧ x < b
  · have hQ : ¬ (b ≤ x ∧ x < b') := by omega
    have hR : a ≤ x ∧ x < b' := by omega
    rw [if_neg hQ, if_pos hP, if_pos hR]
  · by_cases hQ : b ≤ x ∧ x < b'
    · have hR : a ≤ x ∧ x < b' := by omega
      rw [if_pos hQ, if_neg hP, if_pos hR]
    · have hR : ¬ (a ≤ x ∧ x < b') := by omega
      rw [if_neg hQ, if_neg hP, if_neg hR]

theorem countsAfter_comp (c a b b' : Nat) (hab : a ≤ b) (hbb : b ≤ b') (A : Nat → Nat × Nat)
    (x : Nat) : countsAfter c b b' (countsAfter c a b A) x = countsAfter c a b' A x := by
  simp only [countsAfter]
  by_cases hP : a ≤ x ∧ x < b ∧ 4 ≤ x ∧ compatible c x = true
  · have hQ : ¬ (b ≤ x ∧ x < b' ∧ 4 ≤ x ∧ compatible c x = true) := by omega
    have hR : a ≤ x ∧ x < b' ∧ 4 ≤ x ∧ compatible c x = true :=
      ⟨hP.1, by omega, hP.2.2.1, hP.2.2.2⟩
    rw [if_neg hQ, if_pos hP, if_pos hR]
  · by_cases hQ : b ≤ x ∧ x < b' ∧ 4 ≤ x ∧ compatible c x = true
    · have hR : a ≤ x ∧ x < b' ∧ 4 ≤ x ∧ compatible c x = true :=
        ⟨by omega, hQ.2.1, hQ.2.2.1, hQ.2.2.2⟩
      rw [if_pos hQ, if_neg hP, if_pos hR]
    · have hR : ¬ (a ≤ x ∧ x < b' ∧ 4 ≤ x ∧ compatible c x = true) := by
        rintro ⟨h1, h2, h3, h4⟩
        by_cases hxb : x < b
        · exact hP ⟨h1, hxb, h3, h4⟩
        · exact hQ ⟨by omega, h2, h3, h4⟩
      rw [if_neg hQ, if_neg hP, if_neg hR]

/-- The loop over the state classes `lo .. lo+k-1` for one code: it stops only
if no class is both valid and compatible with the code. -/
theorem classLoop_spec (step : Nat → siteClasses → Except PomoHalt siteClasses)
    (c j i lo k : Nat) (hhi : lo + k ≤ 10)
    (hstep : ∀ sc, lo ≤ sc → sc < lo + k → ∀ s V A, ClassInv s V A →
      StepOK c j i sc (step sc s) V A)
    (s : siteClasses) (V : Nat → Bool) (A : Nat → Nat × Nat) (hI : ClassInv s V A) :
    (forLoopFromE lo (lo + k) step s = .error (.moreThanTwoAlleles j i) ∧
      ¬ ∃ sc, sc < 10 ∧ V sc = true ∧ compatible c sc = true) ∨
    (∃ s', forLoopFromE lo (lo + k) step s = .ok s' ∧
      ClassInv s' (validAfter c lo (lo + k) V) (countsAfter c lo (lo + k) A)) := by
  induction k with
  | zero =>
    right
    refine ⟨s, forLoopFromE_self lo step s, hI.congr ?_ ?_⟩
    · intro x; simp only [validAfter]; rw [if_neg (by omega)]
    · intro x; simp only [countsAfter]; rw [if_neg (by omega)]
  | succ k ih =>
    rw [forLoopFromE_succ]
    rcases ih (by omega) (fun sc h1 h2 => hstep sc h1 (by omega)) with ⟨h1, h2⟩ | ⟨s', h1, h2⟩
    · left
      rw [h1]
      exact ⟨rfl, h2⟩
    · rw [h1]
      simp only []
      rcases hstep (lo + k) (by omega) (by omega) s' _ _ h2 with
        ⟨g1, g2, g3, g4⟩ | ⟨-, s'', g1, g2⟩
      · left
        refine ⟨g4, ?_⟩
        rintro ⟨sc, hsc, hV, hcomp⟩
        have hsc' : validAfter c lo (lo + k) V sc = true := by
          simp only [validAfter]
          split_ifs
          · simp [hV, hcomp]
          · exact hV
        have := numValid_one _ g3 sc (lo + k) hsc (by omega) hsc' g2
        subst this
        rw [hcomp] at g1
        cases g1
      · right
        exact ⟨s'', g1, g2.congr
          (fun x => validAfter_comp c lo (lo + k) (lo + k + 1) (by omega) (by omega) V x)
          (fun x => countsAfter_comp c lo (lo + k) (lo + k + 1) (by omega) (by omega) A x)⟩

/-- One individual: it stops only if no class is both valid and compatible
with the code of the individual. -/
theorem individualStep_spec (i j c : Nat) (hc : 1 ≤ c ∧ c < 16) (s : siteClasses)
    (V : Nat → Bool) (A : Nat → Nat × Nat) (hI : ClassInv s V A) :
    (individualStep i j c s = .error (.moreThanTwoAlleles j i) ∧
      ¬ ∃ sc, sc < 10 ∧ V sc = true ∧ compatible c sc = true) ∨
    (∃ s', individualStep i j c s = .ok s' ∧
      ClassInv s' (validAfter c 0 10 V) (countsAfter c 0 10 A)) := by
  unfold individualStep
  rw [if_neg (by omega)]
  rcases classLoop_spec (monoStep j i c) c j i 0 4 (by decide)
      (fun sc _ h2 s V A h => monoStep_spec c j i sc s V A hc (by omega) h) s V A hI with
    ⟨h1, h2⟩ | ⟨s', h1, h2⟩
  · left
    simp only [LAST_MONO_STATE_CLASS]
    rw [h1]
    exact ⟨rfl, h2⟩
  · simp only [LAST_MONO_STATE_CLASS, LAST_POMO_STATE_CLASS]
    rw [h1]
    simp only []
    rcases classLoop_spec (diallelicStep j i c) c j i 4 6 (by decide)
        (fun sc h1 h2 s V A h => diallelicStep_spec c j i sc s V A hc ⟨h1, by omega⟩ h)
        s' _ _ h2 with ⟨g1, g2⟩ | ⟨s'', g1, g2⟩
    · left
      refine ⟨g1, ?_⟩
      rintro ⟨sc, hsc, hV, hcomp⟩
      apply g2
      refine ⟨sc, hsc, ?_, hcomp⟩
      simp only [validAfter]
      split_ifs
      · simp [hV, hcomp]
      · exact hV
    · right
      exact ⟨s'', g1, g2.congr
        (fun x => validAfter_comp c 0 4 10 (by decide) (by decide) V x)
        (fun x => countsAfter_comp c 0 4 10 (by decide) (by decide) A x)⟩

theorem validFor_succ (code : Nat → Nat) (n sc : Nat) :
    validFor code (n + 1) sc = (validFor code n sc && compatible (code n) sc) := by
  unfold validFor
  rw [Bool.eq_iff_iff]
  simp only [decide_eq_true_eq, Bool.and_eq_true]
  constructor
  · intro h
    exact ⟨fun j hj => h j (by omega), h n (by omega)⟩
  · rintro ⟨h1, h2⟩ j hj
    by_cases hjn : j = n
    · subst hjn; exact h2
    · exact h1 j (by omega)

theorem validClasses_succ (code : Nat → Nat) (n x : Nat) :
    validAfter (code n) 0 10 (validClasses code n) x = validClasses code (n + 1) x := by
  simp only [validAfter, validClasses]
  by_cases hx : x < 10
  · rw [if_pos ⟨Nat.zero_le _, hx⟩, if_pos hx, if_pos hx, validFor_succ]
  · rw [if_neg (fun h => hx h.2), if_neg hx, if_neg hx]

theorem firstOnly_compatible (c sc : Nat) (hsc : 4 ≤ sc) (h : firstOnly c sc = true) :
    compatible c sc = true := by
  unfold firstOnly at h
  unfold compatible
  rw [if_neg (by omega)]
  revert h
  cases hasBase c (firstBase sc) <;> simp

theorem secondOnly_compatible (c sc : Nat) (hsc : 4 ≤ sc) (h : secondOnly c sc = true) :
    compatible c sc = true := by
  unfold secondOnly at h
  unfold compatible
  rw [if_neg (by omega)]
  revert h
  cases hasBase c (secondBase sc) <;> simp

theorem filter_range_succ_length (p : Nat → Bool) (n : Nat) :
    ((List.range (n + 1)).filter p).length =
      ((List.range n).filter p).length + (if p n then 1 else 0) := by
  rw [List.range_succ, List.filter_append, List.length_append]
  cases h : p n <;> simp [List.filter, h]

theorem countedAlleles_succ (code : Nat → Nat) (n x : Nat) :
    countsAfter (code n) 0 10 (countedAlleles code n) x = countedAlleles code (n + 1) x := by
  simp only [countsAfter, countedAlleles, alleleCounts, filter_range_succ_length]
  by_cases hx : 4 ≤ x ∧ x < 10
  · rw [if_pos hx, if_pos hx]
    by_cases hcomp : compatible (code n) x = true
    · rw [if_pos ⟨Nat.zero_le _, hx.2, hx.1, hcomp⟩]
    · rw [if_neg (fun h => hcomp h.2.2.2)]
      have h1 : firstOnly (code n) x = false := by
        by_contra h
        exact hcomp (firstOnly_compatible _ _ hx.1 (by simpa using h))
      have h2 : secondOnly (code n) x = false := by
        by_contra h
        exact hcomp (secondOnly_compatible _ _ hx.1 (by simpa using h))
      simp [h1, h2]
  · rw [if_neg hx, if_neg hx, if_neg (fun h => hx ⟨h.2.2.1, h.2.1⟩)]

theorem classInv_init : ClassInv siteClasses.init (validClasses (fun _ => 0) 0)
    (countedAlleles (fun _ => 0) 0) := by
  refine ⟨?_, ?_, ?_, ?_⟩
  · intro sc
    simp [siteClasses.init, validClasses, validFor]
  · have : numValid (validClasses (fun _ => 0) 0) = 10 := by decide
    rw [this]; rfl
  · have : numValid (validClasses (fun _ => 0) 0) = 10 := by decide
    omega
  · intro sc
    simp [siteClasses.init, countedAlleles, alleleCounts]

theorem classInv_init_code (code : Nat → Nat) :
    ClassInv siteClasses.init (validClasses code 0) (countedAlleles code 0) :=
  classInv_init.congr (fun x => by simp [validClasses, validFor])
    (fun x => by simp [countedAlleles, alleleCounts])

theorem validFor_mono (code : Nat → Nat) (n sc : Nat) (h : validFor code (n + 1) sc = true) :
    validFor code n sc = true := by
  rw [validFor_succ] at h
  revert h
  cases validFor code n sc <;> simp

/-- The loop over the individuals of a species at a site: it stops exactly
when no state class is compatible with the codes of all individuals, and
otherwise ends with the valid classes and the allele counters of all
individuals. -/
theorem individuals_spec (i : Nat) (code : Nat → Nat) (n : Nat)
    (hvalid : ∀ j, j < n → 1 ≤ code j ∧ code j < 16) :
    ((∃ j, j < n ∧ forLoopFromE 0 (0 + n) (fun j s => individualStep i j (code j) s)
        siteClasses.init = .error (.moreThanTwoAlleles j i)) ∧
      ¬ ∃ sc, sc < 10 ∧ validFor code n sc = true) ∨
    (∃ s', forLoopFromE 0 (0 + n) (fun j s => individualStep i j (code j) s)
        siteClasses.init = .ok s' ∧
      ClassInv s' (validClasses code n) (countedAlleles code n)) := by
  induction n with
  | zero =>
    right
    exact ⟨_, forLoopFromE_self 0 _ _, classInv_init_code code⟩
  | succ n ih =>
    rw [forLoopFromE_succ]
    rcases ih (fun j hj => hvalid j (by omega)) with ⟨⟨j, hj, h1⟩, h2⟩ | ⟨s', h1, h2⟩
    · left
      rw [h1]
      refine ⟨⟨j, by omega, rfl⟩, ?_⟩
      rintro ⟨sc, hsc, hv⟩
      exact h2 ⟨sc, hsc, validFor_mono code n sc hv⟩
    · rw [h1]
      simp only [Nat.zero_add]
      rcases individualStep_spec i n (code n) (hvalid n (by omega)) s' _ _ h2 with
        ⟨g1, g2⟩ | ⟨s'', g1, g2⟩
      · left
        refine ⟨⟨n, by omega, g1⟩, ?_⟩
        rintro ⟨sc, hsc, hv⟩
        apply g2
        rw [validFor_succ] at hv
        simp only [Bool.and_eq_true] at hv
        exact ⟨sc, hsc, by simp only [validClasses, if_pos hsc]; exact hv.1, hv.2⟩
      · right
        exact ⟨s'', g1, g2.congr (validClasses_succ code n) (countedAlleles_succ code n)⟩

theorem calcBinomProb_ok {K : Type} [LinearOrderedField K] (EXP LOG : K → K) (a b : Nat)
    (f : K) (h0 : 0 < f) (h1 : f < 1) :
    calcBinomProb EXP LOG a b f = .ok (calcBinomValue EXP LOG a b f) := by
  unfold calcBinomProb calcBinomValue
  have h2 : (1 : K) - f > 0 := by linarith
  by_cases h3 : b = 0 ∧ a = 0
  · rw [if_pos h3, if_pos h3]
  · rw [if_neg h3, if_neg h3, if_neg (fun h => h.2 h0)]
    simp only []
    rw [if_neg (fun h => h.2 h2)]

theorem ExpLog.zero {K : Type} [LinearOrderedField K] {EXP LOG : K → K} (h : ExpLog EXP LOG) :
    EXP 0 = 1 := by
  have h1 := h.1 (LOG 1) 0
  rw [add_zero, h.2 1 one_pos] at h1
  simpa using h1.symm

theorem ExpLog.nsmul {K : Type} [LinearOrderedField K] {EXP LOG : K → K} (h : ExpLog EXP LOG)
    (n : Nat) (x : K) (hx : 0 < x) : EXP ((n : K) * LOG x) = x ^ n := by
  induction n with
  | zero => simp [h.zero]
  | succ n ih =>
    have : ((n + 1 : Nat) : K) * LOG x = (n : K) * LOG x + LOG x := by push_cast; ring
    rw [this, h.1, ih, h.2 x hx, pow_succ]

theorem ExpLog.sub {K : Type} [LinearOrderedField K] {EXP LOG : K → K} (h : ExpLog EXP LOG)
    (x y : K) (hx : 0 < x) (hy : 0 < y) : EXP (LOG x - LOG y) = x / y := by
  have h1 : EXP (LOG x - LOG y) * EXP (LOG y) = EXP (LOG x) := by
    rw [← h.1]; congr 1; ring
  rw [h.2 x hx, h.2 y hy] at h1
  field_simp
  exact h1

/-- The loop of `logBinomCoefficient` computes the logarithm of a binomial
coefficient. -/
theorem logBinom_loop {K : Type} [LinearOrderedField K] {EXP LOG : K → K} (h : ExpLog EXP LOG)
    (n m : Nat) (hm : m ≤ n) :
    EXP (forLoop m (fun i logp =>
      logp + (LOG ((n - i : Nat) : K) - LOG ((1 + i : Nat) : K))) 0) = (n.choose m : K) := by
  induction m with
  | zero => simp [forLoop_zero, h.zero]
  | succ m ih =>
    rw [forLoop_succ, h.1, ih (by omega), h.sub _ _ (by exact_mod_cast (by omega : 0 < n - m))
      (by exact_mod_cast (by omega : 0 < 1 + m))]
    have hc := Nat.choose_succ_right_eq n m
    have hc' : ((n.choose (m + 1) : Nat) : K) * ((m + 1 : Nat) : K) =
        ((n.choose m : Nat) : K) * ((n - m : Nat) : K) := by exact_mod_cast hc
    have hm1 : ((1 + m : Nat) : K) ≠ 0 := by exact_mod_cast (by omega : 1 + m ≠ 0)
    rw [mul_div_assoc', eq_comm, eq_div_iff hm1, ← hc']
    congr 2
    omega

theorem logBinomCoefficient_exp {K : Type} [LinearOrderedField K] {EXP LOG : K → K}
    (h : ExpLog EXP LOG) (a b : Nat) :
    EXP (logBinomCoefficient LOG a b) = ((a + b).choose a : K) := by
  unfold logBinomCoefficient
  simp only []
  by_cases hab : a > b
  · rw [if_pos hab]
    have e : a + b - a = b := by omega
    have hch : (a + b).choose b = (a + b).choose a := Nat.choose_symm_add.symm
    split_ifs with h1
    · have : b = 0 := by omega
      subst this
      simp [h.zero]
    · rw [e, logBinom_loop h (a + b) b (by omega), hch]
  · rw [if_neg hab]
    have e : a + b - b = a := by omega
    split_ifs with h1
    · have : a = 0 := by omega
      subst this
      simp [h.zero]
    · rw [e, logBinom_loop h (a + b) a (by omega)]

/-- In exact arithmetic `calcBinomProb` returns the binomial probability
`C(a+b, a) * f^a * (1-f)^b`. -/
theorem calcBinomValue_eq {K : Type} [LinearOrderedField K] {EXP LOG : K → K}
    (h : ExpLog EXP LOG) (a b : Nat) (f : K) (h0 : 0 < f) (h1 : f < 1) :
    calcBinomValue EXP LOG a b f = ((a + b).choose a : K) * f ^ a * (1 - f) ^ b := by
  unfold calcBinomValue
  have h2 : (0 : K) < 1 - f := by linarith
  have ea : (if a > 0 then 0 + (a : K) * LOG f else 0) = (a : K) * LOG f := by
    split_ifs with ha
    · ring
    · have : a = 0 := by omega
      subst this; simp
  have eb : (if b > 0 then (a : K) * LOG f + (b : K) * LOG (1 - f) else (a : K) * LOG f) =
      (a : K) * LOG f + (b : K) * LOG (1 - f) := by
    split_ifs with hb
    · rfl
    · have : b = 0 := by omega
      subst this; simp
  by_cases h3 : b = 0 ∧ a = 0
  · rw [if_pos h3]
    obtain ⟨rfl, rfl⟩ := h3
    simp
  · rw [if_neg h3, ea, eb, h.1, h.1, h.nsmul a f h0, h.nsmul b (1 - f) h2,
      logBinomCoefficient_exp h]
    ring

theorem forLoopFrom_self {σ : Type} (lo : Nat) (body : Nat → σ → σ) (s : σ) :
    forLoopFrom lo lo body s = s := by
  simp [forLoopFrom]

theorem forLoopFrom_succ {σ : Type} (lo k : Nat) (body : Nat → σ → σ) (s : σ) :
    forLoopFrom lo (lo + (k + 1)) body s = body (lo + k) (forLoopFrom lo (lo + k) body s) := by
  simp [forLoopFrom, List.range'_concat]

theorem forLoop_eq_forLoopFrom {σ : Type} (n : Nat) (body : Nat → σ → σ) (s : σ) :
    forLoop n body s = forLoopFrom 0 n body s := by
  simp [forLoop, forLoopFrom, List.range_eq_range']

/-- A loop whose body never stops is a plain loop. -/
theorem forLoopFromE_pure {ε σ : Type} (lo k : Nat) (body : Nat → σ → Except ε σ)
    (f : Nat → σ → σ) (h : ∀ i, lo ≤ i → i < lo + k → ∀ s, body i s = .ok (f i s)) (s : σ) :
    forLoopFromE lo (lo + k) body s = .ok (forLoopFrom lo (lo + k) f s) := by
  induction k with
  | zero => rw [Nat.add_zero, forLoopFromE_self, forLoopFrom_self]
  | succ k ih =>
    rw [forLoopFromE_succ, ih (fun i h1 h2 => h i h1 (by omega)), forLoopFrom_succ]
    exact h (lo + k) (by omega) (by omega) _

/-- The frequency of the first allele in bin `j` lies strictly between 0 and
1. -/
theorem binFrequency_range {K : Type} [LinearOrderedField K] (B j : Nat) (hj : j < B) :
    (0 : K) < 1 - 1 / ((1 + B : Nat) : K) * ((1 + j : Nat) : K) ∧
    1 - 1 / ((1 + B : Nat) : K) * ((1 + j : Nat) : K) < 1 := by
  have hB : (0 : K) < ((1 + B : Nat) : K) := by exact_mod_cast (by omega : 0 < 1 + B)
  have hj0 : (0 : K) < ((1 + j : Nat) : K) := by exact_mod_cast (by omega : 0 < 1 + j)
  have hjB : ((1 + j : Nat) : K) < ((1 + B : Nat) : K) := by exact_mod_cast (by omega : 1 + j < 1 + B)
  have e : 1 / ((1 + B : Nat) : K) * ((1 + j : Nat) : K) =
      ((1 + j : Nat) : K) / ((1 + B : Nat) : K) := by ring
  rw [e]
  constructor
  · rw [sub_pos, div_lt_one hB]; exact hjB
  · have : 0 < ((1 + j : Nat) : K) / ((1 + B : Nat) : K) := div_pos hj0 hB
    linarith

/-- The entries that `buildPomoCLV` writes for the diallelic state class `sc`
at bin `j`. -/
theorem writeDiallelic_spec {K : Type} [LinearOrderedField K] (EXP LOG : K → K)
    (base B : Nat) (s : siteClasses) (sc : Nat) (buf : Nat → K) (off : Nat) :
    ∃ buf', writeDiallelic EXP LOG base B (1 / ((1 + B : Nat) : K)) s sc (buf, off) =
        .ok (buf', off + B) ∧
      ∀ x, buf' x =
        if base + off ≤ x ∧ x < base + off + B then
          (if s.stillValid sc then
            calcBinomValue EXP LOG (s.diallelicCounts sc).1 (s.diallelicCounts sc).2
              (1 - 1 / ((1 + B : Nat) : K) * ((1 + (x - (base + off)) : Nat) : K))
          else 0)
        else buf x := by
  unfold writeDiallelic
  by_cases hv : s.stillValid sc = true
  · simp only [hv, if_true]
    have hp := forLoopFromE_pure (ε := PomoHalt) 0 B
      (fun j buf =>
        match calcBinomProb EXP LOG (s.diallelicCounts sc).1 (s.diallelicCounts sc).2
            (1 - 1 / ((1 + B : Nat) : K) * ((1 + j : Nat) : K)) with
        | .error e => .error e
        | .ok cl => .ok (store buf (base + off + j) cl))
      (fun j buf => store buf (base + off + j)
        (calcBinomValue EXP LOG (s.diallelicCounts sc).1 (s.diallelicCounts sc).2
          (1 - 1 / ((1 + B : Nat) : K) * ((1 + j : Nat) : K))))
      (fun j _ hj buf => by
        have hr := binFrequency_range (K := K) B j (by omega)
        simp only [calcBinomProb_ok EXP LOG _ _ _ hr.1 hr.2]) buf
    rw [Nat.zero_add] at hp
    rw [hp]
    refine ⟨_, rfl, fun x => ?_⟩
    rw [forLoopFrom_store (base + off)
      (fun j => calcBinomValue EXP LOG (s.diallelicCounts sc).1 (s.diallelicCounts sc).2
          (1 - 1 / ((1 + B : Nat) : K) * ((1 + j : Nat) : K)))]
    simp only [Nat.add_zero]
  · have hv' : s.stillValid sc = false := by simpa using hv
    simp only [hv', Bool.false_eq_true, if_false]
    refine ⟨_, rfl, fun x => ?_⟩
    rw [forLoop_eq_forLoopFrom, forLoopFrom_store (base + off) (fun _ => (0 : K))]
    simp only [Nat.add_zero]

/-- The loop of `buildPomoCLV` over the diallelic state classes `4 .. 4+k-1`
writes the `k` blocks of `B` bins after the four monoallelic entries. -/
theorem diallelicWrites_spec {K : Type} [LinearOrderedField K] (EXP LOG : K → K)
    (base B : Nat) (s : siteClasses) (buf : Nat → K) (k : Nat) :
    ∃ buf', forLoopFromE 4 (4 + k) (writeDiallelic EXP LOG base B (1 / ((1 + B : Nat) : K)) s)
        (buf, 4) = .ok (buf', 4 + k * B) ∧
      (∀ q j, q < k → j < B → buf' (base + 4 + q * B + j) =
        if s.stillValid (4 + q) then
          calcBinomValue EXP LOG (s.diallelicCounts (4 + q)).1 (s.diallelicCounts (4 + q)).2
            (1 - 1 / ((1 + B : Nat) : K) * ((1 + j : Nat) : K))
        else 0) ∧
      (∀ x, x < base + 4 ∨ base + 4 + k * B ≤ x → buf' x = buf x) := by
  induction k with
  | zero =>
    refine ⟨buf, ?_, ?_, fun x _ => rfl⟩
    · rw [Nat.add_zero, forLoopFromE_self, Nat.zero_mul, Nat.add_zero]
    · intro q j hq; omega
  | succ k ih =>
    obtain ⟨buf1, h1, h2, h3⟩ := ih
    obtain ⟨buf2, g1, g2⟩ := writeDiallelic_spec EXP LOG base B s (4 + k) buf1 (4 + k * B)
    have hk : (k + 1) * B = k * B + B := by ring
    refine ⟨buf2, ?_, ?_, ?_⟩
    · rw [forLoopFromE_succ, h1]
      simp only []
      rw [g1, hk, Nat.add_assoc]
    · intro q j hq hj
      rw [g2]
      by_cases hqk : q = k
      · subst hqk
        rw [if_pos (by omega)]
        have e : base + 4 + q * B + j - (base + (4 + q * B)) = j := by omega
        rw [e]
      · have hq' : q + 1 ≤ k := by omega
        have hmul : (q + 1) * B ≤ k * B := Nat.mul_le_mul_right B hq'
        have hq1 : (q + 1) * B = q * B + B := by ring
        rw [if_neg (by omega)]
        exact h2 q j (by omega) hj
    · intro x hx
      rw [g2, if_neg (by omega)]
      exact h3 x (by omega)

/-- One site of `buildPomoCLV` for a species whose individuals carry valid
codes: the program stops with the message on more than 2 alleles exactly when
no state class is compatible with all individuals; otherwise the four
monoallelic entries and the six blocks of diallelic entries of the site are
written and no other entry changes. -/
theorem pomoSite_spec {K : Type} [LinearOrderedField K] (EXP LOG : K → K) (i : Nat)
    (ind : pomoInd) (L S lower : Nat) (y0 : Nat → Nat) (site : Nat) (buf : Nat → K)
    (hvalid : ∀ j, j < ind.indCount →
      1 ≤ tipValueOf ind L y0 site j ∧ tipValueOf ind L y0 site j < 16) :
    ((∃ j, j < ind.indCount ∧
        pomoSite EXP LOG i ind L S lower y0 site buf = .error (.moreThanTwoAlleles j i)) ∧
      ¬ ∃ sc, sc < 10 ∧ validFor (tipValueOf ind L y0 site) ind.indCount sc = true) ∨
    ((∃ sc, sc < 10 ∧ validFor (tipValueOf ind L y0 site) ind.indCount sc = true) ∧
      ∃ buf', pomoSite EXP LOG i ind L S lower y0 site buf = .ok buf' ∧
        (∀ sc, sc < 4 → buf' ((site - lower) * S + sc) =
          if validFor (tipValueOf ind L y0 site) ind.indCount sc then 1 else 0) ∧
        (∀ q j, q < 6 → j < (S - 4) / 6 → buf' ((site - lower) * S + 4 + q * ((S - 4) / 6) + j) =
          if validFor (tipValueOf ind L y0 site) ind.indCount (4 + q) then
            calcBinomValue EXP LOG
              (alleleCounts (tipValueOf ind L y0 site) ind.indCount (4 + q)).1
              (alleleCounts (tipValueOf ind L y0 site) ind.indCount (4 + q)).2
              (1 - 1 / ((1 + (S - 4) / 6 : Nat) : K) * ((1 + j : Nat) : K))
          else 0) ∧
        (∀ x, x < (site - lower) * S ∨ (site - lower) * S + 4 + 6 * ((S - 4) / 6) ≤ x →
          buf' x = buf x)) := by
  have hloop := individuals_spec i (tipValueOf ind L y0 site) ind.indCount hvalid
  rw [Nat.zero_add] at hloop
  unfold pomoSite
  simp only []
  have hbody : (fun j s => individualStep i j
      (y0 ((ind.indMap j - 1) * L + site)) s) =
      (fun j s => individualStep i j (tipValueOf ind L y0 site j) s) := rfl
  rw [hbody]
  have hinit : siteClasses.init = ⟨fun _ => true, 10, fun _ => (0, 0)⟩ := rfl
  rw [← hinit]
  rcases hloop with ⟨⟨j, hj, h1⟩, h2⟩ | ⟨s, h1, h2⟩
  · left
    rw [h1]
    exact ⟨⟨j, hj, rfl⟩, h2⟩
  · right
    obtain ⟨sc0, hsc0, hV0⟩ := numValid_pos _ h2.2.2.1
    refine ⟨⟨sc0, hsc0, by simpa [validClasses, hsc0] using hV0⟩, ?_⟩
    rw [h1]
    simp only [LAST_MONO_STATE_CLASS, LAST_POMO_STATE_CLASS]
    obtain ⟨buf2, g1, g2, g3⟩ := diallelicWrites_spec EXP LOG ((site - lower) * S)
      ((S - 4) / 6) s
      (forLoopFrom 0 (3 + 1) (fun sc buf =>
        store buf ((site - lower) * S + sc) (if s.stillValid sc = true then (1 : K) else 0)) buf) 6
    have e6 : (4 : Nat) + 6 = 9 + 1 := rfl
    have e4 : (1 : Nat) + 3 = 4 := rfl
    rw [e6] at g1
    rw [e4, g1]
    refine ⟨buf2, rfl, ?_, ?_, ?_⟩
    · intro sc hsc
      rw [g3 _ (by omega), forLoopFrom_store ((site - lower) * S)
        (fun sc => if s.stillValid sc = true then (1 : K) else 0), if_pos (by omega)]
      have e : (site - lower) * S + sc - (site - lower) * S = sc := by omega
      simp only [e, h2.1 sc, validClasses, if_pos (by omega : sc < 10)]
    · intro q j hq hj
      rw [g2 q j hq hj, h2.1 (4 + q), h2.2.2.2 (4 + q)]
      simp only [validClasses, countedAlleles, if_pos (by omega : 4 + q < 10),
        if_pos (⟨by omega, by omega⟩ : 4 ≤ 4 + q ∧ 4 + q < 10)]
    · intro x hx
      have e : 6 * ((S - 4) / 6) = 6 * ((S - 4) / 6) := rfl
      rw [g3 x (by omega), forLoopFrom_store ((site - lower) * S)
        (fun sc => if s.stillValid sc = true then (1 : K) else 0), if_neg (by omega)]

theorem siteEntries_frame {K : Type} [LinearOrderedField K] (EXP LOG : K → K) (ind : pomoInd)
    (L S lower : Nat) (y0 : Nat → Nat) (site : Nat) (buf buf' : Nat → K) (hS : 4 ≤ S)
    (h : SiteEntries EXP LOG ind L S lower y0 site buf)
    (hframe : ∀ x, x < (site - lower) * S + S → buf' x = buf x) :
    SiteEntries EXP LOG ind L S lower y0 site buf' := by
  have hB : 6 * ((S - 4) / 6) ≤ S - 4 := Nat.mul_div_le _ _
  refine ⟨fun sc hsc => ?_, fun q j hq hj => ?_⟩
  · rw [hframe _ (by omega)]
    exact h.1 sc hsc
  · have h1 : (q + 1) * ((S - 4) / 6) ≤ 6 * ((S - 4) / 6) := Nat.mul_le_mul_right _ (by omega)
    have h2 : (q + 1) * ((S - 4) / 6) = q * ((S - 4) / 6) + (S - 4) / 6 := by ring
    rw [hframe _ (by omega)]
    exact h.2 q j hq hj

/-- The loop of `buildPomoCLV` over the sites `lower .. lower+k-1`, for a
species whose individuals carry valid codes: it stops at the first site at
which no state class is compatible with all individuals, and otherwise
writes the entries of every site. -/
theorem buildPomoCLV_sites {K : Type} [LinearOrderedField K] (EXP LOG : K → K) (i : Nat)
    (ind : pomoInd) (L S lower : Nat) (y0 : Nat → Nat) (buf : Nat → K) (hS : 4 ≤ S) (k : Nat)
    (hvalid : ∀ site, lower ≤ site → site < lower + k → ∀ j, j < ind.indCount →
      1 ≤ tipValueOf ind L y0 site j ∧ tipValueOf ind L y0 site j < 16) :
    (∃ site j, lower ≤ site ∧ site < lower + k ∧ j < ind.indCount ∧
      buildPomoCLV EXP LOG i buf ind L S lower (lower + k) y0 =
        .error (.moreThanTwoAlleles j i) ∧
      ¬ ∃ sc, sc < 10 ∧ validFor (tipValueOf ind L y0 site) ind.indCount sc = true) ∨
    (∃ buf', buildPomoCLV EXP LOG i buf ind L S lower (lower + k) y0 = .ok buf' ∧
      (∀ site, lower ≤ site → site < lower + k →
        (∃ sc, sc < 10 ∧ validFor (tipValueOf ind L y0 site) ind.indCount sc = true) ∧
        SiteEntries EXP LOG ind L S lower y0 site buf') ∧
      ∀ x, k * S ≤ x → buf' x = buf x) := by
  have hB : 6 * ((S - 4) / 6) ≤ S - 4 := Nat.mul_div_le _ _
  induction k with
  | zero =>
    right
    refine ⟨buf, ?_, fun site h1 h2 => by omega, fun x _ => rfl⟩
    unfold buildPomoCLV
    rw [Nat.add_zero, forLoopFromE_self]
  | succ k ih =>
    unfold buildPomoCLV at ih ⊢
    rw [forLoopFromE_succ]
    rcases ih (fun site h1 h2 => hvalid site h1 (by omega)) with
      ⟨site, j, h1, h2, h3, h4, h5⟩ | ⟨buf1, h1, h2, h3⟩
    · left
      rw [h4]
      exact ⟨site, j, h1, by omega, h3, rfl, h5⟩
    · rw [h1]
      simp only []
      have hk : lower + k - lower = k := by omega
      have hk1 : (k + 1) * S = k * S + S := by ring
      rcases pomoSite_spec EXP LOG i ind L S lower y0 (lower + k) buf1
          (hvalid (lower + k) (by omega) (by omega)) with
        ⟨⟨j, hj, g1⟩, g2⟩ | ⟨g0, buf2, g1, g2, g3, g4⟩
      · left
        exact ⟨lower + k, j, by omega, by omega, hj, g1, g2⟩
      · right
        rw [hk] at g4
        refine ⟨buf2, g1, ?_, ?_⟩
        · intro site hs1 hs2
          by_cases hsk : site = lower + k
          · subst hsk
            exact ⟨g0, g2, g3⟩
          · have hlt : site - lower + 1 ≤ k := by omega
            have hmul : (site - lower + 1) * S ≤ k * S := Nat.mul_le_mul_right S hlt
            have hexp : (site - lower + 1) * S = (site - lower) * S + S := by ring
            refine ⟨(h2 site hs1 (by omega)).1, ?_⟩
            exact siteEntries_frame EXP LOG ind L S lower y0 site buf1 buf2 hS
              (h2 site hs1 (by omega)).2 (fun x hx => g4 x (by omega))
        · intro x hx
          rw [g4 x (by omega)]
          exact h3 x (by omega)

theorem pomoPairs_spec : ∀ q, q < 6 →
    (pomoPairs.getD q (0, 0)).1 = firstBase (4 + q) ∧
    (pomoPairs.getD q (0, 0)).2 = secondBase (4 + q) := by
  decide

theorem validFor_eq_all (ind : pomoInd) (L : Nat) (y0 : Nat → Nat) (site sc : Nat) :
    validFor (tipValueOf ind L y0 site) ind.indCount sc =
      (siteCodes ind L y0 site).all (fun c => compatible c sc) := by
  rw [Bool.eq_iff_iff]
  simp only [validFor, siteCodes, decide_eq_true_eq, List.all_eq_true, List.mem_map,
    List.mem_range]
  constructor
  · rintro h c ⟨j, hj, rfl⟩
    exact h j hj
  · intro h j hj
    exact h _ ⟨j, hj, rfl⟩

theorem alleleCounts_eq_countP (ind : pomoInd) (L : Nat) (y0 : Nat → Nat) (site sc : Nat) :
    alleleCounts (tipValueOf ind L y0 site) ind.indCount sc =
      ((siteCodes ind L y0 site).countP (fun c => firstOnly c sc),
       (siteCodes ind L y0 site).countP (fun c => secondOnly c sc)) := by
  simp only [alleleCounts, siteCodes, List.countP_eq_length_filter, List.filter_map,
    List.length_map]
  rfl

theorem siteEntries_mono {K : Type} [LinearOrderedField K] (ind : pomoInd) (L : Nat)
    (y0 : Nat → Nat) (site X : Nat) (hX : X < 4) :
    (if validFor (tipValueOf ind L y0 site) ind.indCount X then (1 : K) else 0) =
      monoEntry (siteCodes ind L y0 site) X := by
  rw [validFor_eq_all]
  unfold monoEntry
  have : (fun c => compatible c X) = (fun c => hasBase c X) := by
    funext c
    unfold compatible
    rw [if_pos (by omega)]
  rw [this]

theorem siteEntries_diallelic {K : Type} [LinearOrderedField K] {EXP LOG : K → K}
    (hEL : ExpLog EXP LOG) (ind : pomoInd) (L : Nat) (y0 : Nat → Nat) (site B q j : Nat)
    (hq : q < 6) (hj : j < B) :
    (if validFor (tipValueOf ind L y0 site) ind.indCount (4 + q) then
      calcBinomValue EXP LOG
        (alleleCounts (tipValueOf ind L y0 site) ind.indCount (4 + q)).1
        (alleleCounts (tipValueOf ind L y0 site) ind.indCount (4 + q)).2
        (1 - 1 / ((1 + B : Nat) : K) * ((1 + j : Nat) : K))
    else 0) =
      diallelicEntry (siteCodes ind L y0 site) (pomoPairs.getD q (0, 0)).1
        (pomoPairs.getD q (0, 0)).2 B j := by
  obtain ⟨e1, e2⟩ := pomoPairs_spec q hq
  have hr := binFrequency_range (K := K) B j hj
  rw [validFor_eq_all, alleleCounts_eq_countP, calcBinomValue_eq hEL _ _ _ hr.1 hr.2]
  unfold diallelicEntry
  rw [e1, e2]
  have hany : (siteCodes ind L y0 site).any
      (fun c => !hasBase c (firstBase (4 + q)) && !hasBase c (secondBase (4 + q))) =
      !(siteCodes ind L y0 site).all (fun c => compatible c (4 + q)) := by
    rw [List.all_eq_not_any_not]
    simp only [Bool.not_not]
    congr 1
    funext c
    unfold compatible
    rw [if_neg (by omega)]
    cases hasBase c (firstBase (4 + q)) <;> cases hasBase c (secondBase (4 + q)) <;> rfl
  rw [hany]
  have hf : (1 : K) - 1 / ((1 + B : Nat) : K) * ((1 + j : Nat) : K) =
      1 - ((j + 1 : Nat) : K) / ((B + 1 : Nat) : K) := by
    rw [Nat.add_comm 1 B, Nat.add_comm 1 j]; ring
  rw [hf]
  cases hall : (siteCodes ind L y0 site).all (fun c => compatible c (4 + q))
  · simp
  · simp only [Bool.not_true, Bool.false_eq_true, if_false, if_true]
    rfl

/-- C16: the PoMo tip vector that `buildPomoCLV` writes, in exact arithmetic.
For a partition with `S = 16` or `S = 64` states (`B = (S-4)/6` bins) and a
species whose individuals carry codes in 1 .. 15, if `buildPomoCLV` returns
then at every site of the partition the entry of the monoallelic state `X` is
1 if every individual's code contains `X` and 0 otherwise, and the entry at
index `4 + q*B + j` (pair `q` in the order AC, AG, AT, CG, CT, GT, bin `j`) is
0 if some individual's code contains neither base of the pair and otherwise
`C(a+b, a) * f^a * (1-f)^b` with `f = 1 - (j+1)/(B+1)`. -/
theorem pomo_tip_clv {K : Type} [LinearOrderedField K] (EXP LOG : K → K)
    (hEL : ExpLog EXP LOG) (i : Nat) (ind : pomoInd) (L S lower upper : Nat) (y0 : Nat → Nat)
    (buf buf' : Nat → K) (hS : S = 16 ∨ S = 64)
    (hvalid : ∀ site, lower ≤ site → site < upper → ∀ j, j < ind.indCount →
      1 ≤ tipValueOf ind L y0 site j ∧ tipValueOf ind L y0 site j ≤ 15)
    (hrun : buildPomoCLV EXP LOG i buf ind L S lower upper y0 = .ok buf')
    (site : Nat) (hsite : lower ≤ site ∧ site < upper) :
    (∀ X, X < 4 → buf' ((site - lower) * S + X) = monoEntry (siteCodes ind L y0 site) X) ∧
    (∀ q j, q < 6 → j < (S - 4) / 6 →
      buf' ((site - lower) * S + 4 + q * ((S - 4) / 6) + j) =
        diallelicEntry (siteCodes ind L y0 site) (pomoPairs.getD q (0, 0)).1
          (pomoPairs.getD q (0, 0)).2 ((S - 4) / 6) j) := by
  have hup : upper = lower + (upper - lower) := by omega
  rw [hup] at hrun
  rcases buildPomoCLV_sites EXP LOG i ind L S lower y0 buf (by omega) (upper - lower)
      (fun s h1 h2 j hj => ⟨(hvalid s h1 (by omega) j hj).1,
        by have := (hvalid s h1 (by omega) j hj).2; omega⟩) with
    ⟨s, j, _, _, _, h4, _⟩ | ⟨buf1, h1, h2, _⟩
  · rw [h4] at hrun
    cases hrun
  · rw [h1] at hrun
    injection hrun with hrun
    subst hrun
    obtain ⟨_, g1, g2⟩ := h2 site hsite.1 (by omega)
    refine ⟨fun X hX => ?_, fun q j hq hj => ?_⟩
    · rw [g1 X hX, siteEntries_mono]
      exact hX
    · rw [g2 q j hq hj, siteEntries_diallelic hEL ind L y0 site _ q j hq hj]

/-- Witness for C16: 16 states, one site, 5 individuals with A and 5 with C,
exact arithmetic over the reals. -/
theorem pomo_tip_clv_witness :
    ∃ buf' : Nat → ℝ, buildPomoCLV Real.exp Real.log 0 (fun _ => 0) exInd 1 16 0 1 exY0 =
        .ok buf' ∧
      buf' 0 = monoEntry (siteCodes exInd 1 exY0 0) 0 ∧
      buf' 4 = diallelicEntry (siteCodes exInd 1 exY0 0) 0 1 2 0 := by
  have hvalid : ∀ site, 0 ≤ site → site < 1 → ∀ j, j < exInd.indCount →
      1 ≤ tipValueOf exInd 1 exY0 site j ∧ tipValueOf exInd 1 exY0 site j ≤ 15 := by
    intro site _ _ j _
    simp only [tipValueOf, exY0]
    split_ifs <;> omega
  rcases buildPomoCLV_sites Real.exp Real.log 0 exInd 1 16 0 exY0 (fun _ => (0 : ℝ))
      (by decide) 1
      (fun s h1 h2 j hj => ⟨(hvalid s h1 (by omega) j hj).1,
        by have := (hvalid s h1 (by omega) j hj).2; omega⟩) with
    ⟨s, j, _, hs, _, _, h5⟩ | ⟨buf1, h1, _, _⟩
  · exfalso
    apply h5
    have hs0 : s = 0 := by omega
    subst hs0
    exact ⟨4, by decide, by decide⟩
  · have h := pomo_tip_clv Real.exp Real.log
      ⟨Real.exp_add, fun x hx => Real.exp_log hx⟩ 0 exInd 1 16 0 1 exY0 (fun _ => 0) buf1
      (Or.inl rfl) hvalid h1 0 ⟨le_rfl, by decide⟩
    exact ⟨buf1, h1, h.1 0 (by decide), h.2 0 0 (by decide) (by decide)⟩

theorem unambiguous_pair : ∀ c1 ∈ [1, 2, 4, 8], ∀ c2 ∈ [1, 2, 4, 8],
    ∃ sc, sc < 10 ∧ compatible c1 sc = true ∧ compatible c2 sc = true := by
  decide

theorem unambiguous_triple : ∀ sc, sc < 10 → ∀ c1 ∈ [1, 2, 4, 8], ∀ c2 ∈ [1, 2, 4, 8],
    ∀ c3 ∈ [1, 2, 4, 8], c1 ≠ c2 → c1 ≠ c3 → c2 ≠ c3 →
    ¬ (compatible c1 sc = true ∧ compatible c2 sc = true ∧ compatible c3 sc = true) := by
  decide

/-- With unambiguous codes, no state class is compatible with all individuals
exactly when at least three distinct bases are observed. -/
theorem three_alleles_iff (code : Nat → Nat) (n : Nat)
    (hun : ∀ j, j < n → code j ∈ [1, 2, 4, 8]) :
    (¬ ∃ sc, sc < 10 ∧ ∀ j, j < n → compatible (code j) sc = true) ↔
      ∃ j1 j2 j3, j1 < n ∧ j2 < n ∧ j3 < n ∧
        code j1 ≠ code j2 ∧ code j1 ≠ code j3 ∧ code j2 ≠ code j3 := by
  constructor
  · intro h
    by_contra h3
    apply h
    by_cases hn : n = 0
    · exact ⟨0, by decide, fun j hj => by omega⟩
    · have h0 : 0 < n := by omega
      by_cases hall : ∀ j, j < n → code j = code 0
      · obtain ⟨sc, hsc, hc, _⟩ := unambiguous_pair (code 0) (hun 0 h0) (code 0) (hun 0 h0)
        exact ⟨sc, hsc, fun j hj => by rw [hall j hj]; exact hc⟩
      · push_neg at hall
        obtain ⟨j2, hj2, hne⟩ := hall
        obtain ⟨sc, hsc, hc1, hc2⟩ :=
          unambiguous_pair (code 0) (hun 0 h0) (code j2) (hun j2 hj2)
        refine ⟨sc, hsc, fun j hj => ?_⟩
        by_cases e1 : code j = code 0
        · rw [e1]; exact hc1
        · by_cases e2 : code j = code j2
          · rw [e2]; exact hc2
          · exfalso
            exact h3 ⟨0, j2, j, h0, hj2, hj, fun e => hne e.symm, fun e => e1 e.symm,
              fun e => e2 e.symm⟩
  · rintro ⟨j1, j2, j3, h1, h2, h3, n12, n13, n23⟩ ⟨sc, hsc, hc⟩
    exact unambiguous_triple sc hsc (code j1) (hun j1 h1) (code j2) (hun j2 h2) (code j3)
      (hun j3 h3) n12 n13 n23 ⟨hc j1 h1, hc j2 h2, hc j3 h3⟩

theorem validFor_iff (code : Nat → Nat) (n sc : Nat) :
    validFor code n sc = true ↔ ∀ j, j < n → compatible (code j) sc = true := by
  simp [validFor]

/-- C17: the PoMo allele limit. For a species whose individuals carry valid
codes 1 .. 15 at every site of the partition, `buildPomoCLV` stops with the
message that more than 2 alleles per species are required if and only if, at
some site of the partition, none of the 10 state classes is compatible with
the code of every individual; and at a site where all codes are unambiguous
(A, C, G or T) no class is compatible with every individual exactly when at
least 3 distinct bases are observed, a condition on the set of observed codes
that does not depend on the order of the individuals. -/
theorem pomo_allele_limit {K : Type} [LinearOrderedField K] (EXP LOG : K → K) (i : Nat)
    (ind : pomoInd) (L S lower upper : Nat) (y0 : Nat → Nat) (buf : Nat → K)
    (hS : S = 16 ∨ S = 64)
    (hvalid : ∀ site, lower ≤ site → site < upper → ∀ j, j < ind.indCount →
      1 ≤ tipValueOf ind L y0 site j ∧ tipValueOf ind L y0 site j ≤ 15) :
    ((∃ j, buildPomoCLV EXP LOG i buf ind L S lower upper y0 =
        .error (.moreThanTwoAlleles j i)) ↔
      ∃ site, lower ≤ site ∧ site < upper ∧
        ¬ ∃ sc, sc < 10 ∧
          ∀ j, j < ind.indCount → compatible (tipValueOf ind L y0 site j) sc = true) ∧
    (∀ site, (∀ j, j < ind.indCount → tipValueOf ind L y0 site j ∈ [1, 2, 4, 8]) →
      ((¬ ∃ sc, sc < 10 ∧
          ∀ j, j < ind.indCount → compatible (tipValueOf ind L y0 site j) sc = true) ↔
        ∃ j1 j2 j3, j1 < ind.indCount ∧ j2 < ind.indCount ∧ j3 < ind.indCount ∧
          tipValueOf ind L y0 site j1 ≠ tipValueOf ind L y0 site j2 ∧
          tipValueOf ind L y0 site j1 ≠ tipValueOf ind L y0 site j3 ∧
          tipValueOf ind L y0 site j2 ≠ tipValueOf ind L y0 site j3)) := by
  refine ⟨?_, fun site hun => three_alleles_iff _ _ hun⟩
  by_cases hle : lower ≤ upper
  · have hup : upper = lower + (upper - lower) := by omega
    rcases buildPomoCLV_sites EXP LOG i ind L S lower y0 buf (by omega) (upper - lower)
        (fun s h1 h2 j hj => ⟨(hvalid s h1 (by omega) j hj).1,
          by have := (hvalid s h1 (by omega) j hj).2; omega⟩) with
      ⟨s, j, h1, h2, _, h4, h5⟩ | ⟨buf1, h1, h2, _⟩
    · rw [← hup] at h4
      constructor
      · intro _
        refine ⟨s, h1, by omega, ?_⟩
        rintro ⟨sc, hsc, hc⟩
        exact h5 ⟨sc, hsc, (validFor_iff _ _ _).2 hc⟩
      · intro _
        exact ⟨j, h4⟩
    · rw [← hup] at h1
      constructor
      · rintro ⟨j, hj⟩
        rw [h1] at hj
        cases hj
      · rintro ⟨s, hs1, hs2, hs3⟩
        exfalso
        obtain ⟨⟨sc, hsc, hv⟩, _⟩ := h2 s hs1 (by omega)
        exact hs3 ⟨sc, hsc, (validFor_iff _ _ _).1 hv⟩
  · constructor
    · rintro ⟨j, hj⟩
      have h0 : upper - lower = 0 := by omega
      simp only [buildPomoCLV, forLoopFromE, h0, List.range'_zero, List.foldlM_nil, pure,
        Except.pure] at hj
      cases hj
    · rintro ⟨s, hs1, hs2, _⟩
      omega

/-- Witness for C17: 16 states, one site, 5 individuals with A and 5 with C;
the run does not stop with the message on more than 2 alleles. -/
theorem pomo_allele_limit_witness :
    ¬ ∃ j, buildPomoCLV (fun x : ℚ => x) (fun x : ℚ => x) 0 (fun _ => 0) exInd 1 16 0 1 exY0 =
        .error (.moreThanTwoAlleles j 0) := by
  have hvalid : ∀ site, 0 ≤ site → site < 1 → ∀ j, j < exInd.indCount →
      1 ≤ tipValueOf exInd 1 exY0 site j ∧ tipValueOf exInd 1 exY0 site j ≤ 15 := by
    intro site _ _ j _
    simp only [tipValueOf, exY0]
    split_ifs <;> omega
  rw [(pomo_allele_limit (fun x : ℚ => x) (fun x : ℚ => x) 0 exInd 1 16 0 1 exY0 (fun _ => 0)
    (Or.inl rfl) hvalid).1]
  rintro ⟨site, _, h2, h3⟩
  have hs0 : site = 0 := by omega
  subst hs0
  exact h3 ⟨4, by decide, by decide⟩

/-- The example species with 5 A and 5 C under 16 states: the run returns,
and the entries 6 and 7 of the tip vector are the two AG entries and hold 0,
whatever `exp` and `log` are. -/
theorem exScenario_ag_entries (EXP LOG : ℚ → ℚ) :
    ∃ buf', buildPomoCLV EXP LOG 0 (fun _ => 0) exInd 1 16 0 1 exY0 = .ok buf' ∧
      buf' 6 = 0 ∧ buf' 7 = 0 := by
  rcases buildPomoCLV_sites EXP LOG 0 exInd 1 16 0 exY0 (fun _ => (0 : ℚ)) (by decide) 1
      (fun s _ _ j _ => by simp only [tipValueOf, exY0]; split_ifs <;> omega) with
    ⟨s, j, _, hs, _, _, h5⟩ | ⟨buf1, h1, h2, _⟩
  · exfalso
    apply h5
    have hs0 : s = 0 := by omega
    subst hs0
    exact ⟨4, by decide, by decide⟩
  · obtain ⟨_, _, g2⟩ := h2 0 le_rfl (by decide)
    have e0 := g2 1 0 (by decide) (by decide)
    have e1 := g2 1 1 (by decide) (by decide)
    have hv : validFor (tipValueOf exInd 1 exY0 0) exInd.indCount (4 + 1) = false := by decide
    rw [hv] at e0 e1
    exact ⟨buf1, h1, e0, e1⟩

/-- C18 (counterexample): a 16-state PoMo partition has `(16 - 4) / 6 = 2`
frequency bins per diallelic pair, not 4. For the species with 5 A and 5 C
(with the identity standing in for `exp` and `log`, which the two entries do
not depend on) the run returns, and the entries 6 and 7 of the tip vector,
which would be the third and fourth AC bin if there were 4 bins, are the two
AG entries and hold 0. -/
theorem pomo16_scenario_counterexample :
    ∃ buf', buildPomoCLV (fun x : ℚ => x) (fun x : ℚ => x) 0 (fun _ => 0) exInd 1 16 0 1
        exY0 = .ok buf' ∧
      buf' 6 = 0 ∧ buf' 7 = 0 :=
  exScenario_ag_entries (fun x => x) (fun x => x)

theorem codes_exists_of_countP (codes : List Nat) (v : Nat)
    (h : 0 < codes.countP (fun c => c = v)) : v ∈ codes := by
  obtain ⟨c, hc, hcv⟩ := List.countP_pos_iff.1 h
  simp only [decide_eq_true_eq] at hcv
  rw [← hcv]
  exact hc

/-- The tip vector of a species with 5 A and 5 C under 16 states. -/
theorem scenario_entries {K : Type} [LinearOrderedField K] (codes : List Nat)
    (h12 : ∀ c ∈ codes, c = 1 ∨ c = 2)
    (hA : codes.countP (fun c => c = 1) = 5) (hC : codes.countP (fun c => c = 2) = 5) :
    (∀ X, X < 4 → monoEntry (K := K) codes X = 0) ∧
    (∀ j, j < 2 → diallelicEntry (K := K) codes 0 1 2 j =
      ((10 : Nat).choose 5 : K) * (1 - ((j + 1 : Nat) : K) / 3) ^ 5 *
        (1 - (1 - ((j + 1 : Nat) : K) / 3)) ^ 5) ∧
    (∀ q j, 1 ≤ q → q < 6 → diallelicEntry (K := K) codes (pomoPairs.getD q (0, 0)).1
      (pomoPairs.getD q (0, 0)).2 2 j = 0) := by
  have m1 : 1 ∈ codes := codes_exists_of_countP codes 1 (by omega)
  have m2 : 2 ∈ codes := codes_exists_of_countP codes 2 (by omega)
  refine ⟨?_, ?_, ?_⟩
  · intro X hX
    unfold monoEntry
    rw [if_neg]
    rw [List.all_eq_true]
    intro h
    have h1 := h 1 m1
    have h2 := h 2 m2
    interval_cases X <;> revert h1 h2 <;> decide
  · intro j _
    unfold diallelicEntry
    have hany : codes.any (fun c => !hasBase c 0 && !hasBase c 1) = false := by
      rw [List.any_eq_false]
      intro c hc
      rcases h12 c hc with rfl | rfl <;> decide
    have ha : codes.countP (fun c => hasBase c 0 && !hasBase c 1) = 5 := by
      rw [← hA]
      apply List.countP_congr
      intro c hc
      rcases h12 c hc with rfl | rfl <;> decide
    have hb : codes.countP (fun c => !hasBase c 0 && hasBase c 1) = 5 := by
      rw [← hC]
      apply List.countP_congr
      intro c hc
      rcases h12 c hc with rfl | rfl <;> decide
    rw [hany]
    simp only [Bool.false_eq_true, if_false, ha, hb]
    norm_num
  · intro q j hq1 hq
    unfold diallelicEntry
    rw [if_pos]
    rw [List.any_eq_true]
    interval_cases q
    · exact ⟨2, m2, by decide⟩
    · exact ⟨2, m2, by decide⟩
    · exact ⟨1, m1, by decide⟩
    · exact ⟨1, m1, by decide⟩
    · exact ⟨1, m1, by decide⟩

/-- C18 (amended): the PoMo scenario with 16 states. For a species whose
individuals show 5 A and 5 C at a site, the body of the site loop of
`buildPomoCLV` returns, and a run of `buildPomoCLV` that returns has written
`C(10,5) * f^5 * (1-f)^5` at the two AC entries 4 and 5 of the site (2
frequency bins, `f = 2/3` and `f = 1/3`) and 0 at the 14 other entries:
monoallelic A, C, G, T and all AG, AT, CG, CT, GT entries. -/
theorem pomo16_scenario {K : Type} [LinearOrderedField K] (EXP LOG : K → K)
    (hEL : ExpLog EXP LOG) (i : Nat) (ind : pomoInd) (L lower upper : Nat) (y0 : Nat → Nat)
    (site : Nat)
    (h12 : ∀ c ∈ siteCodes ind L y0 site, c = 1 ∨ c = 2)
    (hA : (siteCodes ind L y0 site).countP (fun c => c = 1) = 5)
    (hC : (siteCodes ind L y0 site).countP (fun c => c = 2) = 5) :
    (∀ buf : Nat → K, ∃ buf1, pomoSite EXP LOG i ind L 16 lower y0 site buf = .ok buf1) ∧
    (∀ buf buf' : Nat → K, lower ≤ site → site < upper →
      (∀ s, lower ≤ s → s < upper → ∀ j, j < ind.indCount →
        1 ≤ tipValueOf ind L y0 s j ∧ tipValueOf ind L y0 s j ≤ 15) →
      buildPomoCLV EXP LOG i buf ind L 16 lower upper y0 = .ok buf' →
      ∀ k, k < 16 → buf' ((site - lower) * 16 + k) =
        if k = 4 then ((10 : Nat).choose 5 : K) * (2 / 3) ^ 5 * (1 / 3) ^ 5
        else if k = 5 then ((10 : Nat).choose 5 : K) * (1 / 3) ^ 5 * (2 / 3) ^ 5
        else 0) := by
  have hmem : ∀ j, j < ind.indCount → tipValueOf ind L y0 site j ∈ siteCodes ind L y0 site :=
    fun j hj => List.mem_map.2 ⟨j, List.mem_range.2 hj, rfl⟩
  have hcls : ∃ sc, sc < 10 ∧ validFor (tipValueOf ind L y0 site) ind.indCount sc = true := by
    refine ⟨4, by decide, (validFor_iff _ _ _).2 (fun j hj => ?_)⟩
    rcases h12 _ (hmem j hj) with h | h <;> rw [h] <;> decide
  obtain ⟨s1, s2, s3⟩ := scenario_entries (K := K) (siteCodes ind L y0 site) h12 hA hC
  refine ⟨fun buf => ?_, ?_⟩
  · rcases pomoSite_spec EXP LOG i ind L 16 lower y0 site buf
        (fun j hj => by rcases h12 _ (hmem j hj) with h | h <;> rw [h] <;> decide) with
      ⟨_, h2⟩ | ⟨_, buf1, h1, _⟩
    · exact absurd hcls h2
    · exact ⟨buf1, h1⟩
  · intro buf buf' hs1 hs2 hvalid hrun k hk
    have hup : upper = lower + (upper - lower) := by omega
    rw [hup] at hrun
    rcases buildPomoCLV_sites EXP LOG i ind L 16 lower y0 buf (by decide) (upper - lower)
        (fun s h1 h2 j hj => ⟨(hvalid s h1 (by omega) j hj).1,
          by have := (hvalid s h1 (by omega) j hj).2; omega⟩) with
      ⟨s, j, _, _, _, h4, _⟩ | ⟨buf1, h1, h2, _⟩
    · rw [h4] at hrun
      cases hrun
    · rw [h1] at hrun
      injection hrun with hrun
      subst hrun
      obtain ⟨_, g1, g2⟩ := h2 site hs1 (by omega)
      have hB : (16 - 4) / 6 = 2 := rfl
      rw [hB] at g2
      by_cases hk4 : k < 4
      · rw [g1 k hk4, siteEntries_mono ind L y0 site k hk4, s1 k hk4, if_neg (by omega),
          if_neg (by omega)]
      · have hidx : (site - lower) * 16 + k =
            (site - lower) * 16 + 4 + ((k - 4) / 2) * 2 + (k - 4) % 2 := by omega
        rw [hidx, g2 ((k - 4) / 2) ((k - 4) % 2) (by omega) (by omega),
          siteEntries_diallelic hEL ind L y0 site 2 ((k - 4) / 2) ((k - 4) % 2) (by omega)
            (by omega)]
        by_cases hq : (k - 4) / 2 = 0
        · have hk45 : k = 4 ∨ k = 5 := by omega
          rw [hq]
          rcases hk45 with rfl | rfl
          · have := s2 0 (by decide)
            simp only [pomoPairs, List.getD_cons_zero] at this ⊢
            rw [this]
            norm_num
          · have := s2 1 (by decide)
            simp only [pomoPairs, List.getD_cons_zero] at this ⊢
            rw [this]
            norm_num
        · rw [s3 _ _ (by omega) (by omega), if_neg (by omega), if_neg (by omega)]

/-- Witness for C18: the example species with 5 A and 5 C, exact arithmetic
over the reals, on a buffer that holds 0 everywhere. -/
theorem pomo16_scenario_witness :
    ∃ buf1, pomoSite Real.exp Real.log 0 exInd 1 16 0 exY0 0 (fun _ => 0) = .ok buf1 :=
  (pomo16_scenario Real.exp Real.log ⟨Real.exp_add, fun x hx => Real.exp_log hx⟩ 0 exInd 1 0 1
    exY0 0 (by decide) (by decide) (by decide)).1 (fun _ => 0)

theorem blit_apply {K : Type} (a : Nat → K) (base len : Nat) (v : Nat → K) (j : Nat) :
    blit a base len v j = if base ≤ j ∧ j < base + len then v (j - base) else a j := rfl

theorem slice_apply {K : Type} (a : Nat → K) (base l : Nat) : slice a base l = a (base + l) :=
  rfl

/-- A loop over the patterns that rewrites row `i` of a vector from the
previous content of that row and adds to a counter. -/
theorem rowLoop_spec {K : Type} (span : Nat) (R : Nat → (Nat → K) → (Nat → K) × Int)
    (x3 : Nat → K) (a : Int) (n : Nat) :
    (∀ i l, i < n → l < span →
      (forLoop n (fun i (s : (Nat → K) × Int) =>
        (blit s.1 (span * i) span (R i (slice s.1 (span * i))).1,
         s.2 + (R i (slice s.1 (span * i))).2)) (x3, a)).1 (span * i + l) =
        (R i (slice x3 (span * i))).1 l) ∧
    (∀ x, span * n ≤ x →
      (forLoop n (fun i (s : (Nat → K) × Int) =>
        (blit s.1 (span * i) span (R i (slice s.1 (span * i))).1,
         s.2 + (R i (slice s.1 (span * i))).2)) (x3, a)).1 x = x3 x) ∧
    (forLoop n (fun i (s : (Nat → K) × Int) =>
        (blit s.1 (span * i) span (R i (slice s.1 (span * i))).1,
         s.2 + (R i (slice s.1 (span * i))).2)) (x3, a)).2 =
      a + ∑ i in Finset.range n, (R i (slice x3 (span * i))).2 := by
  induction n with
  | zero =>
    refine ⟨fun i l hi => by omega, fun x _ => rfl, by simp [forLoop_zero]⟩
  | succ n ih =>
    obtain ⟨h1, h2, h3⟩ := ih
    rw [forLoop_succ]
    have hsl : slice (forLoop n (fun i (s : (Nat → K) × Int) =>
        (blit s.1 (span * i) span (R i (slice s.1 (span * i))).1,
         s.2 + (R i (slice s.1 (span * i))).2)) (x3, a)).1 (span * n) =
        slice x3 (span * n) := by
      funext l
      rw [slice_apply, slice_apply, h2 _ (by omega)]
    have hmul : span * (n + 1) = span * n + span := by ring
    refine ⟨?_, ?_, ?_⟩
    · intro i l hi hl
      simp only [blit_apply, hsl]
      by_cases hin : i = n
      · subst hin
        rw [if_pos (by omega), Nat.add_sub_cancel_left]
      · have hle : span * (i + 1) ≤ span * n := Nat.mul_le_mul_left span (by omega)
        have hexp : span * (i + 1) = span * i + span := by ring
        rw [if_neg (by omega)]
        exact h1 i l (by omega) hl
    · intro x hx
      simp only [blit_apply]
      rw [if_neg (by omega)]
      exact h2 x (by omega)
    · simp only [hsl]
      rw [h3, Finset.sum_range_succ, add_assoc]

theorem scaleUp_apply {K : Type} [LinearOrderedField K] (c : consts K) (len : Nat) (v : Nat → K)
    (l : Nat) : scaleUp c len v l = if l < len then v l * c.twotothe256 else v l := by
  unfold scaleUp
  induction len with
  | zero => rw [forLoop_zero, if_neg (by omega)]
  | succ len ih =>
    rw [forLoop_succ, store_apply]
    by_cases h : l = len
    · subst h
      rw [if_pos rfl, if_pos (by omega), ih, if_neg (by omega)]
    · rw [if_neg h, ih]
      by_cases h2 : l < len
      · rw [if_pos h2, if_pos (by omega)]
      · rw [if_neg h2, if_neg (by omega)]

theorem scaleTestGAMMA_iff {K : Type} [LinearOrderedField K] (c : consts K) (span : Nat)
    (v : Nat → K) :
    scaleTestGAMMA c span v = true ↔ ∀ l, l < span → |v l| < c.minlikelihood := by
  simp [scaleTestGAMMA, ABS_eq_abs]

/-- C22 (counterexample): in the case `TIP_TIP` the generic GAMMA kernel does
not scale. One pattern of weight 1, one state, tip vector entries 1/100 and
P matrices, eigenvectors equal to 1: every entry of the row is 1/10000, below
`minlikelihood = 1/1000`, yet the row is left as computed and the scaler
increment is 0. -/
theorem tip_tip_not_scaled :
    (newviewGAMMA_FLEX exConsts .TIP_TIP (fun _ => 0) (fun _ => 0) (fun _ => 0) (fun _ => 1)
        (fun _ => 1 / 100) (fun _ => 0) (fun _ => 0) 1 (fun _ => 1) (fun _ => 1) (fun _ => 1)
        1 1).toOption.map (fun r => ([r.1 0, r.1 1, r.1 2, r.1 3], r.2)) =
      some ([1 / 10000, 1 / 10000, 1 / 10000, 1 / 10000], 0) ∧
    |(1 / 10000 : ℚ)| < exConsts.minlikelihood := by
  constructor
  · simp [newviewGAMMA_FLEX, rowGAMMA_TIP_TIP, precomputeTips, evProduct, blit, slice, forLoop,
      store, List.range_succ, Except.toOption]
    norm_num
  · simp only [exConsts]
    rw [abs_of_pos] <;> norm_num

/-- C22 (amended): the scaling rule of `newviewGAMMA_FLEX`. In the cases
`TIP_INNER` and `INNER_INNER`, after the row of pattern `i` has been written
it is multiplied by `twotothe256` and `wgt[i]` is added to the scaler
increment if and only if each of its `4*S` entries has absolute value
strictly below `minlikelihood`; otherwise the row is left as computed and the
increment is unchanged. In the case `TIP_TIP` the row is never scaled and the
increment is 0. -/
theorem gamma_scaling_rule {K : Type} [LinearOrderedField K] (c : consts K)
    (x1 x2 x3 extEV tipVector : Nat → K) (tipX1 tipX2 : Nat → Nat) (n : Nat)
    (left right : Nat → K) (wgt : Nat → Int) (states maxStateValue : Nat) :
    (∀ tipCase, tipCase = tipCases.TIP_INNER ∨ tipCase = tipCases.INNER_INNER →
      ∃ r, newviewGAMMA_FLEX c tipCase x1 x2 x3 extEV tipVector tipX1 tipX2 n left right wgt
          states maxStateValue = .ok r ∧
        (∀ i l, i < n → l < states * 4 → r.1 (states * 4 * i + l) =
          if scaleTestGAMMA c (states * 4)
              (rowGAMMA tipCase x1 x2 extEV tipVector tipX1 tipX2 left right states
                maxStateValue i (slice x3 (states * 4 * i))) then
            rowGAMMA tipCase x1 x2 extEV tipVector tipX1 tipX2 left right states
              maxStateValue i (slice x3 (states * 4 * i)) l * c.twotothe256
          else
            rowGAMMA tipCase x1 x2 extEV tipVector tipX1 tipX2 left right states
              maxStateValue i (slice x3 (states * 4 * i)) l) ∧
        r.2 = ∑ i in Finset.range n,
          if scaleTestGAMMA c (states * 4)
              (rowGAMMA tipCase x1 x2 extEV tipVector tipX1 tipX2 left right states
                maxStateValue i (slice x3 (states * 4 * i))) then wgt i
          else 0) ∧
    (∃ r, newviewGAMMA_FLEX c .TIP_TIP x1 x2 x3 extEV tipVector tipX1 tipX2 n left right wgt
        states maxStateValue = .ok r ∧
      (∀ i l, i < n → l < states * 4 → r.1 (states * 4 * i + l) =
        rowGAMMA .TIP_TIP x1 x2 extEV tipVector tipX1 tipX2 left right states
          maxStateValue i (slice x3 (states * 4 * i)) l) ∧
      r.2 = 0) ∧
    (∀ v : Nat → K, scaleTestGAMMA c (states * 4) v = true ↔
      ∀ l, l < states * 4 → |v l| < c.minlikelihood) := by
  refine ⟨?_, ?_, fun v => scaleTestGAMMA_iff c _ v⟩
  · intro tipCase htc
    obtain ⟨h1, _, h3⟩ := rowLoop_spec (states * 4)
      (fun i row =>
        if scaleTestGAMMA c (states * 4)
            (rowGAMMA tipCase x1 x2 extEV tipVector tipX1 tipX2 left right states
              maxStateValue i row) then
          (scaleUp c (states * 4)
            (rowGAMMA tipCase x1 x2 extEV tipVector tipX1 tipX2 left right states
              maxStateValue i row), wgt i)
        else
          (rowGAMMA tipCase x1 x2 extEV tipVector tipX1 tipX2 left right states
            maxStateValue i row, 0)) x3 0 n
    have hbody : ∀ (i : Nat) (s : (Nat → K) × Int),
        (if scaleTestGAMMA c (states * 4)
            (rowGAMMA tipCase x1 x2 extEV tipVector tipX1 tipX2 left right states
              maxStateValue i (slice s.1 (states * 4 * i))) then
          (blit s.1 (states * 4 * i) (states * 4) (scaleUp c (states * 4)
            (rowGAMMA tipCase x1 x2 extEV tipVector tipX1 tipX2 left right states
              maxStateValue i (slice s.1 (states * 4 * i)))), s.2 + wgt i)
        else
          (blit s.1 (states * 4 * i) (states * 4)
            (rowGAMMA tipCase x1 x2 extEV tipVector tipX1 tipX2 left right states
              maxStateValue i (slice s.1 (states * 4 * i))), s.2)) =
        (blit s.1 (states * 4 * i) (states * 4)
          (if scaleTestGAMMA c (states * 4)
              (rowGAMMA tipCase x1 x2 extEV tipVector tipX1 tipX2 left right states
                maxStateValue i (slice s.1 (states * 4 * i))) then
            (scaleUp c (states * 4)
              (rowGAMMA tipCase x1 x2 extEV tipVector tipX1 tipX2 left right states
                maxStateValue i (slice s.1 (states * 4 * i))), wgt i)
          else
            (rowGAMMA tipCase x1 x2 extEV tipVector tipX1 tipX2 left right states
              maxStateValue i (slice s.1 (states * 4 * i)), 0)).1,
         s.2 + (if scaleTestGAMMA c (states * 4)
              (rowGAMMA tipCase x1 x2 extEV tipVector tipX1 tipX2 left right states
                maxStateValue i (slice s.1 (states * 4 * i))) then
            (scaleUp c (states * 4)
              (rowGAMMA tipCase x1 x2 extEV tipVector tipX1 tipX2 left right states
                maxStateValue i (slice s.1 (states * 4 * i))), wgt i)
          else
            (rowGAMMA tipCase x1 x2 extEV tipVector tipX1 tipX2 left right states
              maxStateValue i (slice s.1 (states * 4 * i)), 0)).2) := by
      intro i s
      split_ifs <;> simp
    obtain ⟨r, hr⟩ : ∃ r, r = forLoop n (fun i (s : (Nat → K) × Int) =>
        (blit s.1 (states * 4 * i) (states * 4)
          (if scaleTestGAMMA c (states * 4)
              (rowGAMMA tipCase x1 x2 extEV tipVector tipX1 tipX2 left right states
                maxStateValue i (slice s.1 (states * 4 * i))) then
            (scaleUp c (states * 4)
              (rowGAMMA tipCase x1 x2 extEV tipVector tipX1 tipX2 left right states
                maxStateValue i (slice s.1 (states * 4 * i))), wgt i)
          else
            (rowGAMMA tipCase x1 x2 extEV tipVector tipX1 tipX2 left right states
              maxStateValue i (slice s.1 (states * 4 * i)), 0)).1,
         s.2 + (if scaleTestGAMMA c (states * 4)
              (rowGAMMA tipCase x1 x2 extEV tipVector tipX1 tipX2 left right states
                maxStateValue i (slice s.1 (states * 4 * i))) then
            (scaleUp c (states * 4)
              (rowGAMMA tipCase x1 x2 extEV tipVector tipX1 tipX2 left right states
                maxStateValue i (slice s.1 (states * 4 * i))), wgt i)
          else
            (rowGAMMA tipCase x1 x2 extEV tipVector tipX1 tipX2 left right states
              maxStateValue i (slice s.1 (states * 4 * i)), 0)).2)) (x3, (0 : Int)) := ⟨_, rfl⟩
    rw [← hr] at h1 h3
    refine ⟨r, ?_, ?_, ?_⟩
    · rw [hr]
      rcases htc with rfl | rfl
      · simp only [newviewGAMMA_FLEX]
        exact congrArg Except.ok (congrArg (fun f => forLoop n f (x3, (0 : Int)))
          (funext fun i => funext fun s => hbody i s))
      · simp only [newviewGAMMA_FLEX]
        exact congrArg Except.ok (congrArg (fun f => forLoop n f (x3, (0 : Int)))
          (funext fun i => funext fun s => hbody i s))
    · intro i l hi hl
      rw [h1 i l hi hl]
      split_ifs with ht
      · simp only [scaleUp_apply, if_pos hl]
      · rfl
    · rw [h3, zero_add]
      apply Finset.sum_congr rfl
      intro i _
      split_ifs <;> rfl
  · obtain ⟨h1, _, h3⟩ := rowLoop_spec (states * 4)
      (fun i row =>
        (rowGAMMA .TIP_TIP x1 x2 extEV tipVector tipX1 tipX2 left right states
            maxStateValue i row, (0 : Int))) x3 0 n
    obtain ⟨r, hr⟩ : ∃ r, r = forLoop n (fun i (s : (Nat → K) × Int) =>
        (blit s.1 (states * 4 * i) (states * 4)
          (rowGAMMA .TIP_TIP x1 x2 extEV tipVector tipX1 tipX2 left right states
            maxStateValue i (slice s.1 (states * 4 * i))), s.2 + (0 : Int))) (x3, (0 : Int)) :=
      ⟨_, rfl⟩
    rw [← hr] at h1 h3
    refine ⟨r, ?_, ?_, ?_⟩
    · rw [hr]
      simp only [newviewGAMMA_FLEX]
      refine congrArg Except.ok (congrArg (fun f => forLoop n f (x3, (0 : Int)))
        (funext fun i => funext fun s => ?_))
      simp only [rowGAMMA, Nat.mul_comm i (states * 4), add_zero]
    · intro i l hi hl
      exact h1 i l hi hl
    · rw [h3]
      simp

/-- Witness for C22: the case `INNER_INNER` on one pattern with vectors equal
to 0, whose row is scaled. -/
theorem gamma_scaling_rule_witness :
    ∃ r, newviewGAMMA_FLEX exConsts .INNER_INNER (fun _ => 0) (fun _ => 0) (fun _ => 0)
        (fun _ => 1) (fun _ => 1) (fun _ => 0) (fun _ => 0) 1 (fun _ => 1) (fun _ => 1)
        (fun _ => 4) 1 1 = .ok r ∧
      r.2 = ∑ i in Finset.range 1,
        if scaleTestGAMMA exConsts (1 * 4)
            (rowGAMMA .INNER_INNER (fun _ => 0) (fun _ => 0) (fun _ => 1) (fun _ => 1)
              (fun _ => 0) (fun _ => 0) (fun _ => 1) (fun _ => 1) 1 1 i
              (slice (fun _ => (0 : ℚ)) (1 * 4 * i))) then (4 : Int)
        else 0 :=
  ((gamma_scaling_rule exConsts (fun _ => 0) (fun _ => 0) (fun _ => 0) (fun _ => 1) (fun _ => 1)
    (fun _ => 0) (fun _ => 0) 1 (fun _ => 1) (fun _ => 1) (fun _ => 4) 1 1).1 .INNER_INNER
    (Or.inr rfl)).imp (fun _ h => ⟨h.1, h.2.2⟩)

/-- C25 (refutation): no row distinguishes the two scaling predicates. For
rational constants with `minlikelihood > 0` there is no row, with or without
an entry equal to 0, on which the GAMMA test `ABS(v[l]) < minlikelihood` and
the CAT test `v[l] < minlikelihood && v[l] > minusminlikelihood` decide
differently. -/
theorem scaling_predicates_never_differ :
    ¬ ∃ (c : consts ℚ) (n : Nat) (v : Nat → ℚ), 0 < c.minlikelihood ∧
      (∃ l, l < n ∧ v l = 0) ∧ scaleTestGAMMA c n v ≠ scaleTestCAT c n v := by
  rintro ⟨c, n, v, _, _, hne⟩
  apply hne
  rw [Bool.eq_iff_iff]
  simp only [scaleTestGAMMA, scaleTestCAT, consts.minusminlikelihood, ABS_eq_abs,
    List.all_eq_true, List.mem_range, decide_eq_true_eq, abs_lt]
  constructor
  · intro h l hl
    exact ⟨(h l hl).2, (h l hl).1⟩
  · intro h l hl
    exact ⟨(h l hl).2, (h l hl).1⟩

/-- C25 (amended): the two scaling predicates agree on every row. The GAMMA
test `for all l, ABS(v[l]) < minlikelihood` and the CAT test
`for all l, v[l] < minlikelihood && v[l] > minusminlikelihood` (with
`minusminlikelihood = -minlikelihood`) give the same decision, which is to
scale exactly when every entry lies strictly between `-minlikelihood` and
`minlikelihood`; an entry equal to 0 passes both tests when
`minlikelihood > 0`. -/
theorem scaling_predicates_agree {K : Type} [LinearOrderedField K] (c : consts K) (n : Nat)
    (v : Nat → K) :
    scaleTestGAMMA c n v = scaleTestCAT c n v ∧
    (scaleTestCAT c n v = true ↔
      ∀ l, l < n → -c.minlikelihood < v l ∧ v l < c.minlikelihood) ∧
    (∀ l, v l = 0 → 0 < c.minlikelihood →
      (ABS (v l) < c.minlikelihood ∧ v l < c.minlikelihood ∧ v l > c.minusminlikelihood)) := by
  refine ⟨?_, ?_, ?_⟩
  · rw [Bool.eq_iff_iff]
    simp only [scaleTestGAMMA, scaleTestCAT, consts.minusminlikelihood, ABS_eq_abs,
      List.all_eq_true, List.mem_range, decide_eq_true_eq, abs_lt]
    constructor
    · intro h l hl
      exact ⟨(h l hl).2, (h l hl).1⟩
    · intro h l hl
      exact ⟨(h l hl).2, (h l hl).1⟩
  · simp only [scaleTestCAT, consts.minusminlikelihood, List.all_eq_true, List.mem_range,
      decide_eq_true_eq]
    constructor
    · intro h l hl
      exact ⟨(h l hl).2, (h l hl).1⟩
    · intro h l hl
      exact ⟨(h l hl).2, (h l hl).1⟩
  · intro l hl hpos
    rw [hl, ABS_eq_abs, abs_zero]
    exact ⟨hpos, hpos, by simp only [consts.minusminlikelihood]; linarith⟩

/-- Witness for C25: a row with entries 0 and 1/2000 under the example
constants. -/
theorem scaling_predicates_agree_witness :
    scaleTestGAMMA exConsts 2 (fun l => if l = 0 then 0 else 1 / 2000) =
      scaleTestCAT exConsts 2 (fun l => if l = 0 then 0 else 1 / 2000) :=
  (scaling_predicates_agree exConsts 2 (fun l => if l = 0 then 0 else 1 / 2000)).1

/-! ### Descriptor records -/

theorem entryWellFormed_of_sameTopo {K : Type} {maxTips nb : Nat} {h h' : heap K}
    {e : traversalInfo K} (st : SameTopo h h') (w : EntryWellFormed maxTips nb h' e) :
    EntryWellFormed maxTips nb h e := by
  obtain ⟨p, q, r, h1, h2, h3, h4, h5, h6, h7, h8⟩ := w
  have hn : ∀ i, (h' i).number = (h i).number := fun i => (st i).1
  have hx : ∀ i, (h' i).next = (h i).next := fun i => (st i).2.1
  have hb : ∀ i, (h' i).back = (h i).back := fun i => (st i).2.2.1
  have hz : ∀ i, (h' i).z = (h i).z := fun i => (st i).2.2.2
  simp only [hn, hx, hb, hz] at h1 h2 h3 h4 h5 h6 h7 h8
  exact ⟨p, q, r, h1, h2, h3, h4, h5, h6, h7, h8⟩

theorem SameTopo.symm {K : Type} {h h' : heap K} (st : SameTopo h h') : SameTopo h' h := by
  intro i
  obtain ⟨a1, a2, a3, a4⟩ := st i
  exact ⟨a1.symm, a2.symm, a3.symm, a4.symm⟩

theorem copyBranches_getElem? {K : Type} (nb : Nat) (z : Nat → K) (i : Nat) (hi : i < nb) :
    (copyBranches nb z)[i]? = some (z i) := by
  simp [copyBranches, List.getElem?_map, List.getElem?_range hi]

theorem mkEntry_wellFormed {K : Type} (maxTips nb : Nat) (h : heap K) (tc : tipCases)
    (p q r : Nat) (hp : isTip (h p).number maxTips = false)
    (hqr : (q = (h (h p).next).back ∧ r = (h (h (h p).next).next).back) ∨
      (q = (h (h (h p).next).next).back ∧ r = (h (h p).next).back))
    (htc : (tc = .TIP_TIP ∧ isTip (h q).number maxTips = true ∧
        isTip (h r).number maxTips = true) ∨
      (tc = .TIP_INNER ∧ isTip (h q).number maxTips = true ∧
        isTip (h r).number maxTips = false) ∨
      (tc = .INNER_INNER ∧ isTip (h q).number maxTips = false ∧
        isTip (h r).number maxTips = false)) :
    EntryWellFormed maxTips nb h (mkEntry nb h tc p q r) := by
  refine ⟨p, q, r, hp, rfl, hqr, rfl, rfl, copyBranches_getElem? nb _,
    copyBranches_getElem? nb _, ?_⟩
  simp only [mkEntry]
  rcases htc with ⟨rfl, a, b⟩ | ⟨rfl, a, b⟩ | ⟨rfl, a, b⟩ <;> simp [a, b]

/-- The entries that a call of `computeTraversalInfo` appends are well-formed
and the call changes orientation flags only. -/
theorem computeTraversalInfo_entries {K : Type} (maxTips nb : Nat) (pt : Bool) :
    ∀ (fuel : Nat) (h : heap K) (p : Nat) (ti : List (traversalInfo K)) (h' : heap K)
      (ti' : List (traversalInfo K)),
      computeTraversalInfo maxTips nb pt fuel h p ti = .ok (h', ti') →
      SameTopo h h' ∧ ∃ new, ti' = ti ++ new ∧ ∀ e ∈ new, EntryWellFormed maxTips nb h e := by
  intro fuel
  induction fuel with
  | zero =>
    intro h p ti h' ti' hrun
    simp [computeTraversalInfo] at hrun
  | succ fuel ih =>
    intro h p ti h' ti' hrun
    simp only [computeTraversalInfo] at hrun
    by_cases hp : isTip (h p).number maxTips = true
    · rw [if_pos hp] at hrun
      injection hrun with hrun
      injection hrun with e1 e2
      subst e1 e2
      exact ⟨SameTopo.refl h, [], by simp, by simp⟩
    · rw [if_neg hp] at hrun
      have hp' : isTip (h p).number maxTips = false := by simpa using hp
      by_cases hr : isTip (h (h (h (h p).next).next).back).number maxTips = true
      · by_cases hq : isTip (h (h (h p).next).back).number maxTips = true
        · simp only [hr, hq, Bool.and_self, if_true] at hrun
          split_ifs at hrun
          injection hrun with hrun
          injection hrun with e1 e2
          subst e1 e2
          have st := orient_sameTopo h p
          refine ⟨st, [_], rfl, ?_⟩
          intro e he
          rw [List.mem_singleton.1 he]
          apply entryWellFormed_of_sameTopo st
          apply mkEntry_wellFormed
          · rw [(st p).1]; exact hp'
          · left
            simp only [(st _).2.1, (st _).2.2.1, and_self]
          · left
            simp only [(st _).1, hq, hr, and_self]
        · have hq' : isTip (h (h (h p).next).back).number maxTips = false := by simpa using hq
          simp only [hr, hq', Bool.and_false, Bool.false_eq_true, if_false, Bool.or_false,
            if_true] at hrun
          cases hrec : (if (!(h (h (h p).next).back).x || !pt) = true then
              computeTraversalInfo maxTips nb pt fuel h (h (h p).next).back ti
            else Except.ok (h, ti)) with
          | error e => rw [hrec] at hrun; cases hrun
          | ok res =>
            obtain ⟨h1, ti1⟩ := res
            rw [hrec] at hrun
            simp only [] at hrun
            split_ifs at hrun
            injection hrun with hrun
            injection hrun with e1 e2
            subst e1 e2
            have hsub : SameTopo h h1 ∧ ∃ new, ti1 = ti ++ new ∧
                ∀ e ∈ new, EntryWellFormed maxTips nb h e := by
              split_ifs at hrec
              · exact ih _ _ _ _ _ hrec
              · injection hrec with hrec
                injection hrec with e1 e2
                subst e1 e2
                exact ⟨SameTopo.refl h, [], by simp, by simp⟩
            obtain ⟨st1, new, rfl, hnew⟩ := hsub
            have st := st1.trans (orient_sameTopo h1 p)
            refine ⟨st, new ++ [_], by rw [List.append_assoc], ?_⟩
            intro e he
            rcases List.mem_append.1 he with he | he
            · exact hnew e he
            · rw [List.mem_singleton.1 he]
              apply entryWellFormed_of_sameTopo st
              apply mkEntry_wellFormed
              · rw [(st p).1]; exact hp'
              · right
                simp only [(st _).2.1, (st _).2.2.1, and_self]
              · right; left
                simp only [(st _).1, hq', hr, and_self]
      · have hr' : isTip (h (h (h (h p).next).next).back).number maxTips = false := by
          simpa using hr
        by_cases hq : isTip (h (h (h p).next).back).number maxTips = true
        · simp only [hr', hq, Bool.false_and, Bool.false_eq_true, if_false, Bool.false_or,
            if_true] at hrun
          cases hrec : (if (!(h (h (h (h p).next).next).back).x || !pt) = true then
              computeTraversalInfo maxTips nb pt fuel h (h (h (h p).next).next).back ti
            else Except.ok (h, ti)) with
          | error e => rw [hrec] at hrun; cases hrun
          | ok res =>
            obtain ⟨h1, ti1⟩ := res
            rw [hrec] at hrun
            simp only [] at hrun
            split_ifs at hrun
            injection hrun with hrun
            injection hrun with e1 e2
            subst e1 e2
            have hsub : SameTopo h h1 ∧ ∃ new, ti1 = ti ++ new ∧
                ∀ e ∈ new, EntryWellFormed maxTips nb h e := by
              split_ifs at hrec
              · exact ih _ _ _ _ _ hrec
              · injection hrec with hrec
                injection hrec with e1 e2
                subst e1 e2
                exact ⟨SameTopo.refl h, [], by simp, by simp⟩
            obtain ⟨st1, new, rfl, hnew⟩ := hsub
            have st := st1.trans (orient_sameTopo h1 p)
            refine ⟨st, new ++ [_], by rw [List.append_assoc], ?_⟩
            intro e he
            rcases List.mem_append.1 he with he | he
            · exact hnew e he
            · rw [List.mem_singleton.1 he]
              apply entryWellFormed_of_sameTopo st
              apply mkEntry_wellFormed
              · rw [(st p).1]; exact hp'
              · left
                simp only [(st _).2.1, (st _).2.2.1, and_self]
              · right; left
                simp only [(st _).1, hq, hr', and_self]
        · have hq' : isTip (h (h (h p).next).back).number maxTips = false := by simpa using hq
          simp only [hr', hq', Bool.and_self, Bool.false_eq_true, if_false, Bool.or_self]
            at hrun
          cases hrec : (if (!(h (h (h p).next).back).x || !pt) = true then
              computeTraversalInfo maxTips nb pt fuel h (h (h p).next).back ti
            else Except.ok (h, ti)) with
          | error e => rw [hrec] at hrun; cases hrun
          | ok res =>
            obtain ⟨h1, ti1⟩ := res
            rw [hrec] at hrun
            simp only [] at hrun
            have hsub : SameTopo h h1 ∧ ∃ new, ti1 = ti ++ new ∧
                ∀ e ∈ new, EntryWellFormed maxTips nb h e := by
              split_ifs at hrec
              · exact ih _ _ _ _ _ hrec
              · injection hrec with hrec
                injection hrec with e1 e2
                subst e1 e2
                exact ⟨SameTopo.refl h, [], by simp, by simp⟩
            obtain ⟨st1, new, rfl, hnew⟩ := hsub
            cases hrec2 : (if (!(h1 (h (h (h p).next).next).back).x || !pt) = true then
                computeTraversalInfo maxTips nb pt fuel h1 (h (h (h p).next).next).back
                  (ti ++ new)
              else Except.ok (h1, ti ++ new)) with
            | error e => rw [hrec2] at hrun; cases hrun
            | ok res2 =>
              obtain ⟨h2, ti2⟩ := res2
              rw [hrec2] at hrun
              simp only [] at hrun
              split_ifs at hrun
              injection hrun with hrun
              injection hrun with e1 e2
              subst e1 e2
              have hsub2 : SameTopo h1 h2 ∧ ∃ new2, ti2 = (ti ++ new) ++ new2 ∧
                  ∀ e ∈ new2, EntryWellFormed maxTips nb h1 e := by
                split_ifs at hrec2
                · exact ih _ _ _ _ _ hrec2
                · injection hrec2 with hrec2
                  injection hrec2 with e1 e2
                  subst e1 e2
                  exact ⟨SameTopo.refl h1, [], by simp, by simp⟩
              obtain ⟨st2, new2, rfl, hnew2⟩ := hsub2
              have st := (st1.trans st2).trans (orient_sameTopo h2 p)
              refine ⟨st, new ++ new2 ++ [_], by simp only [List.append_assoc]; rfl, ?_⟩
              intro e he
              rcases List.mem_append.1 he with he | he
              · rcases List.mem_append.1 he with he | he
                · exact hnew e he
                · exact entryWellFormed_of_sameTopo st1 (hnew2 e he)
              · rw [List.mem_singleton.1 he]
                apply entryWellFormed_of_sameTopo st
                apply mkEntry_wellFormed
                · rw [(st p).1]; exact hp'
                · left
                  simp only [(st _).2.1, (st _).2.2.1, and_self]
                · right; right
                  simp only [(st _).1, hq', hr', and_self]

/-- C27. Descriptor records are well-formed: on a well-formed tree and with
enough fuel `computeTraversalInfo` returns, and every entry it appends names
an inner node `p` with, as `qNumber` and `rNumber`, the numbers of the two
children `p->next->back` and `p->next->next->back` (in one of the two
orders); its tip case is `TIP_TIP` iff both children are tips, `TIP_INNER`
iff the node recorded as `q` is a tip and the one recorded as `r` is not (an
inner `q` never stands next to a tip `r`), `INNER_INNER` iff neither is a
tip; and `qz[i]`, `rz[i]` are the branch lengths `z[i]` of the nodes recorded
as `q` and `r` for every `i < numBranches`. -/
theorem descriptor_records_wellformed {K : Type} (maxTips nb fuel : Nat) (pt : Bool)
    (h : heap K) (t : Topo) (ti : List (traversalInfo K)) (wf : WellFormed h maxTips t)
    (hf : t.height < fuel) :
    ∃ (h' : heap K) (new : List (traversalInfo K)),
      computeTraversalInfo maxTips nb pt fuel h t.root ti = .ok (h', ti ++ new) ∧
      ∀ e ∈ new, EntryWellFormed maxTips nb h e := by
  obtain ⟨h', e, -, -, -, -⟩ :=
    computeTraversalInfo_run maxTips nb pt t fuel h ti wf.shape wf.records_nodup hf
  obtain ⟨-, new, hnew, hw⟩ := computeTraversalInfo_entries maxTips nb pt fuel h t.root ti _ _ e
  exact ⟨h', new, by rw [e, hnew], hw⟩

/-- Witness for C27 on the example tree: a full traversal from node 5. -/
theorem descriptor_records_wellformed_witness :
    ∃ (h' : heap ℚ) (new : List (traversalInfo ℚ)),
      computeTraversalInfo 4 1 false 3 (exHeap [1, 2, 3, 4, 6, 9]) exTree.root [] =
        .ok (h', [] ++ new) ∧
      ∀ e ∈ new, EntryWellFormed 4 1 (exHeap [1, 2, 3, 4, 6, 9]) e :=
  descriptor_records_wellformed 4 1 3 false (exHeap [1, 2, 3, 4, 6, 9]) exTree []
    (exTree_wellFormed _) (by decide)

/-! ### Tip precomputation -/

theorem store_store {K : Type} (u : Nat → K) (c : Nat) (a b : K) :
    store (store u c a) c b = store u c b := by
  funext x
  simp only [store_apply]
  split_ifs <;> rfl

/-- An accumulation into one cell of an array. -/
theorem forLoop_cell {K : Type} [LinearOrderedField K] (n c : Nat) (f : Nat → K) (u : Nat → K)
    (a : K) :
    forLoop n (fun l u => store u c (u c + f l)) (store u c a) =
      store u c (forLoop n (fun l acc => acc + f l) a) := by
  induction n with
  | zero => rfl
  | succ n ih =>
    rw [forLoop_succ, forLoop_succ, ih]
    simp only [store_store, store_apply, if_true]

theorem dot_congr {K : Type} [LinearOrderedField K] (states : Nat) (a a' b b' : Nat → K)
    (ha : ∀ j, j < states → a j = a' j) (hb : ∀ j, j < states → b j = b' j) :
    dot states a b = dot states a' b' := by
  unfold dot
  apply forLoop_congr
  intro j hj s
  rw [ha j hj, hb j hj]

theorem evProduct_congr {K : Type} [LinearOrderedField K] (states : Nat) (extEV w w' v : Nat → K)
    (hw : ∀ l, l < states → w l = w' l) :
    evProduct states extEV w v = evProduct states extEV w' v := by
  unfold evProduct
  apply forLoop_congr
  intro l hl s
  simp only [hw l hl]

/-- Blocks written one after the other by a loop. -/
theorem forLoop_blocks {K : Type} (span : Nat) (G : Nat → Nat → K) (m : Nat) (u : Nat → K)
    (t k : Nat) (ht : t < m) (hk : k < span) :
    forLoop m (fun i (u : Nat → K) => fun x =>
      if span * i + 0 ≤ x ∧ x < span * i + span then G i (x - span * i) else u x) u
      (span * t + k) = G t k := by
  induction m with
  | zero => omega
  | succ m ih =>
    rw [forLoop_succ]
    by_cases htm : t = m
    · subst htm
      have h1 : span * t + 0 ≤ span * t + k ∧ span * t + k < span * t + span := by omega
      simp only [h1, and_self, if_true, Nat.add_sub_cancel_left]
    · have htm' : t + 1 ≤ m := by omega
      have h2 : span * (t + 1) ≤ span * m := Nat.mul_le_mul_left span htm'
      rw [Nat.mul_succ] at h2
      have h1 : ¬ (span * m + 0 ≤ span * t + k ∧ span * t + k < span * m + span) := by omega
      simp only [h1, if_false]
      exact ih (by omega)

/-- Closed form of the lookup table `umpX`: the cell of tip state `t` and
row `k` holds the product of the tip vector of `t` with row `k` of `P`. -/
theorem precomputeTips_apply {K : Type} [LinearOrderedField K] (states span m : Nat)
    (tipVector P : Nat → K) (t k : Nat) (ht : t < m) (hk : k < span) :
    precomputeTips states span m tipVector P (span * t + k) =
      dot states (slice tipVector (states * t)) (slice P (k * states)) := by
  unfold precomputeTips
  have hbody : ∀ i (u : Nat → K),
      forLoop span (fun k ump =>
        let ump := store ump (span * i + k) 0
        forLoop states (fun l ump =>
          store ump (span * i + k)
            (ump (span * i + k) + slice tipVector (states * i) l * P (k * states + l))) ump) u =
      fun x => if span * i + 0 ≤ x ∧ x < span * i + span then
        dot states (slice tipVector (states * i)) (slice P ((x - span * i) * states)) else u x := by
    intro i u
    have h1 : (fun k (ump : Nat → K) =>
        let ump := store ump (span * i + k) 0
        forLoop states (fun l ump =>
          store ump (span * i + k)
            (ump (span * i + k) + slice tipVector (states * i) l * P (k * states + l))) ump) =
        fun k ump => store ump (span * i + k)
          (dot states (slice tipVector (states * i)) (slice P (k * states))) := by
      funext k ump
      simp only []
      rw [forLoop_cell states (span * i + k)
        (fun l => slice tipVector (states * i) l * P (k * states + l)) ump 0]
      rfl
    rw [h1]
    funext x
    rw [forLoop_eq_forLoopFrom, forLoopFrom_store]
  simp only [hbody]
  exact forLoop_blocks span
    (fun i y => dot states (slice tipVector (states * i)) (slice P (y * states))) m _ t k ht hk

theorem rowGAMMA_TIP_INNER_eq {K : Type} [LinearOrderedField K] (states : Nat)
    (extEV uX1 left right x1row x2row row : Nat → K)
    (h : ∀ k l, k < 4 → l < states → uX1 (k * states + l) =
      dot states (slice x1row (states * k)) (slice left (k * (states * states) + l * states))) :
    rowGAMMA_TIP_INNER states extEV uX1 right x2row row =
      rowGAMMA_INNER_INNER states extEV left right x1row x2row row := by
  unfold rowGAMMA_TIP_INNER rowGAMMA_INNER_INNER
  apply forLoop_congr
  intro k hk s
  simp only []
  rw [evProduct_congr states extEV _ _ _ (fun l hl => by rw [h k l hk hl])]
  simp only [Nat.mul_comm k states]

/-- C26. Tip precomputation is transparent: when every `tipX1[i]` is below
`maxStateValue`, `newviewGAMMA_FLEX` with `tipCase = TIP_INNER` returns the
same `x3` and the same `scalerIncrement` as with `tipCase = INNER_INNER`
applied to a vector `x1` with
`x1[4*S*i + S*k + j] = tipVector[S*tipX1[i] + j]` for every pattern `i`, rate
`k < 4` and state `j < S`; the arguments that a case does not read are
arbitrary. -/
theorem tip_precomputation_transparent {K : Type} [LinearOrderedField K] (c : consts K)
    (x1 x1' x2 x3 extEV tipVector tipVector' : Nat → K) (tipX1 tipX1' tipX2 tipX2' : Nat → Nat)
    (n : Nat) (left right : Nat → K) (wgt : Nat → Int) (states maxStateValue maxStateValue' : Nat)
    (htip : ∀ i, i < n → tipX1 i < maxStateValue)
    (hx1 : ∀ i k j, i < n → k < 4 → j < states →
      x1 (4 * states * i + states * k + j) = tipVector (states * tipX1 i + j)) :
    newviewGAMMA_FLEX c .TIP_INNER x1' x2 x3 extEV tipVector tipX1 tipX2 n left right wgt
        states maxStateValue =
      newviewGAMMA_FLEX c .INNER_INNER x1 x2 x3 extEV tipVector' tipX1' tipX2' n left right wgt
        states maxStateValue' := by
  unfold newviewGAMMA_FLEX
  simp only []
  refine congrArg Except.ok (forLoop_congr n _ _ _ ?_)
  intro i hi s
  have hrow : rowGAMMA_TIP_INNER states extEV
      (slice (precomputeTips states (states * 4) maxStateValue tipVector left)
        (states * 4 * tipX1 i)) right (slice x2 (states * 4 * i)) (slice s.1 (states * 4 * i)) =
      rowGAMMA_INNER_INNER states extEV left right (slice x1 (states * 4 * i))
        (slice x2 (states * 4 * i)) (slice s.1 (states * 4 * i)) := by
    apply rowGAMMA_TIP_INNER_eq
    intro k l hk hl
    have hkl : k * states + l < states * 4 := by
      have : k * states + states ≤ 4 * states := by
        have := Nat.mul_le_mul_right states (show k + 1 ≤ 4 by omega)
        rw [Nat.succ_mul] at this
        exact this
      omega
    rw [slice_apply, precomputeTips_apply states (states * 4) maxStateValue tipVector left
      (tipX1 i) (k * states + l) (htip i hi) hkl]
    apply dot_congr
    · intro j hj
      rw [slice_apply, slice_apply, slice_apply, ← hx1 i k j hi hk hj]
      congr 1
      rw [Nat.mul_comm 4 states]
      omega
    · intro j hj
      rw [slice_apply, slice_apply, Nat.add_mul, Nat.mul_assoc]
  rw [hrow]

/-- Witness for C26: one pattern with two states whose tip has state 1. -/
theorem tip_precomputation_transparent_witness :
    (∀ i, i < 1 → (fun _ => 1 : Nat → Nat) i < 2) ∧
    (∀ i k j, i < 1 → k < 4 → j < 2 →
      (fun x => ((2 + x % 2 : Nat) : ℚ)) (4 * 2 * i + 2 * k + j) =
        (fun x => ((x : Nat) : ℚ)) (2 * (fun _ => 1 : Nat → Nat) i + j)) ∧
    newviewGAMMA_FLEX exConsts .TIP_INNER (fun _ => 0) (fun _ => 1) (fun _ => 0) (fun _ => 1)
        (fun x => ((x : Nat) : ℚ)) (fun _ => 1) (fun _ => 0) 1 (fun _ => 1) (fun _ => 1)
        (fun _ => 3) 2 2 =
      newviewGAMMA_FLEX exConsts .INNER_INNER (fun x => ((2 + x % 2 : Nat) : ℚ)) (fun _ => 1)
        (fun _ => 0) (fun _ => 1) (fun _ => 0) (fun _ => 0) (fun _ => 0) 1 (fun _ => 1)
        (fun _ => 1) (fun _ => 3) 2 0 :=
  ⟨fun _ _ => Nat.one_lt_two,
    fun i k j hi hk hj => by
      show ((2 + (4 * 2 * i + 2 * k + j) % 2 : Nat) : ℚ) = ((2 * 1 + j : Nat) : ℚ)
      congr 1
      omega,
    tip_precomputation_transparent exConsts (fun x => ((2 + x % 2 : Nat) : ℚ)) (fun _ => 0)
      (fun _ => 1) (fun _ => 0) (fun _ => 1) (fun x => ((x : Nat) : ℚ)) (fun _ => 0)
      (fun _ => 1) (fun _ => 0) (fun _ => 0) (fun _ => 0) 1 (fun _ => 1) (fun _ => 1)
      (fun _ => 3) 2 2 0 (fun _ _ => Nat.one_lt_two)
      (fun i k j hi hk hj => by
        show ((2 + (4 * 2 * i + 2 * k + j) % 2 : Nat) : ℚ) = ((2 * 1 + j : Nat) : ℚ)
        congr 1
        omega)⟩

/-! ### Tip-case promotion -/

/-- Outside PoMo the case `INNER_INNER` of the pointer switch leaves
`genericTipCase` at its initial value `-1`: the assignment stands under
`if(isPomo(...))`, in the block that the code marks as the PoMo cases, and the
kernel called with this value runs into `default: assert(0)`. -/
theorem genericTipCase_unset_without_pomo (mxtips a b c : Nat) :
    genericTipCaseOf mxtips .INNER_INNER (mxtips + 1 + a) (mxtips + 1 + b) (mxtips + 1 + c)
        false = .ok none ∧
    ∀ states rateHetModel saveMemory,
      nstatesEntry mxtips states rateHetModel saveMemory .INNER_INNER (mxtips + 1 + a)
        (mxtips + 1 + b) (mxtips + 1 + c) false = .error .assertion := by
  have hc : ((↑(mxtips + 1 + c) : Int) - ↑mxtips - 1 ≥ 0 ∧
      (↑(mxtips + 1 + a) : Int) - ↑mxtips - 1 ≥ 0 ∧
      (↑(mxtips + 1 + b) : Int) - ↑mxtips - 1 ≥ 0) := by
    push_cast
    omega
  have h1 : genericTipCaseOf mxtips .INNER_INNER (mxtips + 1 + a) (mxtips + 1 + b)
      (mxtips + 1 + c) false = .ok none := by
    simp only [genericTipCaseOf]
    rw [if_pos hc]
    rfl
  refine ⟨h1, ?_⟩
  intro states rateHetModel saveMemory
  simp only [nstatesEntry, h1, bind, Except.bind, nstatesKernelCall,
    newviewGTRGAMMA_NSTATES_branch]
  cases rateHetModel <;> cases saveMemory <;> simp

theorem forLoopFrom_add {K : Type} [LinearOrderedField K] (lo k : Nat) (f : Nat → K) (a : K) :
    forLoopFrom lo (lo + k) (fun l acc => acc + f l) a =
      a + ∑ x in Finset.range k, f (lo + x) := by
  induction k with
  | zero => simp [forLoopFrom_self]
  | succ k ih => rw [forLoopFrom_succ, ih, Finset.sum_range_succ, add_assoc]

theorem haddScalar_eq_sum {K : Type} [LinearOrderedField K] (W : Nat) (hW : W = 2 ∨ W = 4)
    (v : Nat → K) : haddScalar W v = ∑ a in Finset.range W, v a := by
  rcases hW with rfl | rfl
  · simp [haddScalar, Finset.sum_range_succ]
  · simp [haddScalar, Finset.sum_range_succ]
    ring

/-- The vector loop adds the products of the first `W * m` states to the lanes. -/
theorem vectorLoop_sum {K : Type} [LinearOrderedField K] (W : Nat) (f : Nat → K) (m : Nat)
    (tv : Nat → K) :
    ∑ a in Finset.range W, forLoop m (fun m (tv : Nat → K) => fun a =>
        if a < W then tv a + f (W * m + a) else tv a) tv a =
      ∑ a in Finset.range W, tv a + ∑ l in Finset.range (W * m), f l := by
  induction m with
  | zero => simp [forLoop_zero]
  | succ m ih =>
    rw [forLoop_succ, Nat.mul_succ, Finset.sum_range_add, ← add_assoc, ← ih,
      ← Finset.sum_add_distrib]
    apply Finset.sum_congr rfl
    intro a ha
    rw [if_pos (Finset.mem_range.1 ha)]

/-- One rate adds the products over all states to lanes plus `tBuffer`. -/
theorem nstateRate_sum {K : Type} [LinearOrderedField K] (W S : Nat) (left right d : Nat → K)
    (s : (Nat → K) × K) :
    ∑ a in Finset.range W, (nstateRate W S left right d s).1 a +
        (nstateRate W S left right d s).2 =
      (∑ a in Finset.range W, s.1 a + s.2) +
        ∑ l in Finset.range S, left l * right l * d l := by
  simp only [nstateRate]
  have hdiv : W * ((S - S % W) / W) = S - S % W := by
    apply Nat.mul_div_cancel'
    exact (Nat.dvd_sub_mod S)
  have hle : S % W ≤ S := Nat.mod_le S W
  rw [vectorLoop_sum W (fun l => left l * right l * d l), hdiv]
  have hS : S = (S - S % W) + S % W := by omega
  have h2 : forLoopFrom (S - S % W) S (fun l tBuffer => tBuffer + left l * right l * d l) s.2 =
      s.2 + ∑ x in Finset.range (S % W), left (S - S % W + x) * right (S - S % W + x) *
        d (S - S % W + x) := by
    have := forLoopFrom_add (S - S % W) (S % W) (fun l => left l * right l * d l) s.2
    rw [← hS] at this
    exact this
  rw [h2]
  have h3 : ∑ l in Finset.range S, left l * right l * d l =
      ∑ l in Finset.range (S - S % W), left l * right l * d l +
        ∑ x in Finset.range (S % W), left (S - S % W + x) * right (S - S % W + x) *
          d (S - S % W + x) := by
    conv_lhs => rw [hS]
    rw [Finset.sum_range_add]
  rw [h3]
  ring

theorem nstateRates_sum {K : Type} [LinearOrderedField K] (W S : Nat)
    (left right d : Nat → Nat → K) (g : Nat) :
    ∑ a in Finset.range W, (forLoop g (fun j (s : (Nat → K) × K) =>
        nstateRate W S (left j) (right j) (d j) s) (fun _ => 0, 0)).1 a +
      (forLoop g (fun j (s : (Nat → K) × K) =>
        nstateRate W S (left j) (right j) (d j) s) (fun _ => 0, 0)).2 =
      ∑ j in Finset.range g, ∑ l in Finset.range S, left j l * right j l * d j l := by
  induction g with
  | zero => simp [forLoop_zero]
  | succ g ih => rw [forLoop_succ, nstateRate_sum, ih, Finset.sum_range_succ]

/-- Closed form of `evaluateGTRGAMMA_NSTATE`: whatever the number of rates,
the term of a pattern is `LOG(0.25 * FABS(sum))`. -/
theorem evaluateGTRGAMMA_NSTATE_eq {K : Type} [LinearOrderedField K] (c : consts K) (W : Nat)
    (hW : W = 2 ∨ W = 4) (wptr : Nat → Int) (x1 x2 tipVector : Nat → K)
    (tipX1 : Option (Nat → Nat)) (n : Nat) (diagptable : Nat → K) (S gammaRates : Nat)
    (genericTipCase : Option tipCases) :
    evaluateGTRGAMMA_NSTATE c W wptr x1 x2 tipVector tipX1 n diagptable S gammaRates
        genericTipCase =
      nstateFormula c 0.25 wptr x1 x2 tipVector tipX1 n diagptable S gammaRates
        genericTipCase := by
  unfold nstateFormula nstateSum
  have key : ∀ (left : Nat → Nat → Nat → K),
      forLoop n (fun i sum =>
        let s := forLoop gammaRates (fun j (s : (Nat → K) × K) =>
          nstateRate W S (left i j) (slice x2 (S * gammaRates * i + S * j))
            (slice diagptable (j * S)) s) (fun _ => 0, 0)
        let term := haddScalar W s.1
        let term := term + s.2
        let term := c.LOG (0.25 * FABS term)
        sum + (wptr i : K) * term) 0 =
      ∑ i in Finset.range n, (wptr i : K) * c.LOG (0.25 *
        |∑ j in Finset.range gammaRates, ∑ l in Finset.range S,
          left i j l * x2 (S * gammaRates * i + S * j + l) * diagptable (j * S + l)|) := by
    intro left
    simp only [haddScalar_eq_sum W hW, FABS]
    have hb : ∀ i, (∑ a in Finset.range W, (forLoop gammaRates (fun j (s : (Nat → K) × K) =>
          nstateRate W S (left i j) (slice x2 (S * gammaRates * i + S * j))
            (slice diagptable (j * S)) s) (fun _ => 0, 0)).1 a +
        (forLoop gammaRates (fun j (s : (Nat → K) × K) =>
          nstateRate W S (left i j) (slice x2 (S * gammaRates * i + S * j))
            (slice diagptable (j * S)) s) (fun _ => 0, 0)).2) =
        ∑ j in Finset.range gammaRates, ∑ l in Finset.range S,
          left i j l * x2 (S * gammaRates * i + S * j + l) * diagptable (j * S + l) := by
      intro i
      exact nstateRates_sum W S (left i) (fun j => slice x2 (S * gammaRates * i + S * j))
        (fun j => slice diagptable (j * S)) gammaRates
    simp only [hb]
    rw [forLoop_add, zero_add]
  unfold evaluateGTRGAMMA_NSTATE
  simp only []
  cases tipX1 with
  | some t => exact key _
  | none =>
    by_cases hg : genericTipCase = some .TIP_INNER_CLV
    · simp only [hg, if_true, nstateLeft]
      exact key _
    · simp only [hg, if_false, nstateLeft]
      exact key _

/-- C24 (code defect). `evaluateGTRGAMMA_NSTATE` multiplies the absolute
value of the sum of every pattern by the constant `0.25`, with two and with
four vector lanes and whatever `gammaRates` is; the factor is not
`1 / gammaRates`. Under PLAIN (`gammaRates = 1`) a pattern of weight `w` whose
sum is 1 therefore contributes `w * ln(1/4)`, which is not `w * 0` unless
`w = 0`, where the formula with the factor `1 / gammaRates` gives `w * 0`. -/
theorem plain_rate_keeps_factor_quarter (w : Int) :
    (∀ (c : consts ℝ) (wptr : Nat → Int) (x1 x2 tipVector : Nat → ℝ)
      (tipX1 : Option (Nat → Nat)) (n : Nat) (diagptable : Nat → ℝ) (S gammaRates : Nat)
      (genericTipCase : Option tipCases),
      evaluateGTRGAMMA_NSTATE c 2 wptr x1 x2 tipVector tipX1 n diagptable S gammaRates
          genericTipCase =
        nstateFormula c 0.25 wptr x1 x2 tipVector tipX1 n diagptable S gammaRates
          genericTipCase ∧
      evaluateGTRGAMMA_NSTATE c 4 wptr x1 x2 tipVector tipX1 n diagptable S gammaRates
          genericTipCase =
        nstateFormula c 0.25 wptr x1 x2 tipVector tipX1 n diagptable S gammaRates
          genericTipCase) ∧
    nstateSum (fun l => if l = 0 then (1 : ℝ) else 0) (fun _ => 1) (fun _ => 0) none
        (fun _ => 1) 16 1 (some .TIP_INNER_CLV) 0 = 1 ∧
    evaluateGTRGAMMA_NSTATE ⟨Real.exp, Real.log, 0, 0, 0⟩ 2 (fun _ => w)
        (fun l => if l = 0 then (1 : ℝ) else 0) (fun _ => 1) (fun _ => 0) none 1 (fun _ => 1)
        16 1 (some .TIP_INNER_CLV) = (w : ℝ) * Real.log (1 / 4) ∧
    Real.log (1 / 4 : ℝ) ≠ 0 ∧
    nstateFormula ⟨Real.exp, Real.log, 0, 0, 0⟩ (1 / ((1 : Nat) : ℝ)) (fun _ => w)
        (fun l => if l = 0 then (1 : ℝ) else 0) (fun _ => 1) (fun _ => 0) none 1 (fun _ => 1)
        16 1 (some .TIP_INNER_CLV) = (w : ℝ) * 0 := by
  have hsum : nstateSum (fun l => if l = 0 then (1 : ℝ) else 0) (fun _ => 1) (fun _ => 0) none
      (fun _ => 1) 16 1 (some .TIP_INNER_CLV) 0 = 1 := by
    simp [nstateSum, nstateLeft, slice, Finset.sum_range_succ]
  refine ⟨fun c wptr x1 x2 tipVector tipX1 n diagptable S gammaRates genericTipCase =>
    ⟨evaluateGTRGAMMA_NSTATE_eq c 2 (Or.inl rfl) _ _ _ _ _ _ _ _ _ _,
      evaluateGTRGAMMA_NSTATE_eq c 4 (Or.inr rfl) _ _ _ _ _ _ _ _ _ _⟩, hsum, ?_, ?_, ?_⟩
  · rw [evaluateGTRGAMMA_NSTATE_eq _ 2 (Or.inl rfl)]
    simp only [nstateFormula, Finset.sum_range_one, hsum]
    norm_num
  · have h : Real.log (1 / 4 : ℝ) < 0 := Real.log_neg (by norm_num) (by norm_num)
    exact ne_of_lt h
  · simp only [nstateFormula, Finset.sum_range_one, hsum]
    norm_num

/-! ### Partitions that vanish -/

/-- C30 (code defect). With pattern compression and two partitions, an
alignment whose first partition consists of one entirely undetermined site
makes `sitecombcrunch` fail the assertion `!(tied && allGap)`: at `j = 1` the
site `alias[0] = alias[1]` is compared with itself, so it is tied, and it is
all gaps. When it is the second partition that is empty, `makeweights`
returns and `makevalues` leaves through `exit(-1)`. -/
theorem first_partition_empty_fails_assertion (alias0 aliaswgt0 aliasModel0
    aliasSuperModel0 : Nat → Int) (partitionData : Nat → pRange) :
    allGap (fun _ => 15) (fun _ => 1) (exAlignment [1]) 1 = true ∧
    allGap (fun _ => 15) (fun _ => 1) (exAlignment [1]) 2 = false ∧
    makeweights ⟨true, true, false⟩ (fun _ => 15) exLabels (fun _ => 1) (exAlignment [1])
        alias0 aliaswgt0 aliasModel0 aliasSuperModel0 = .error .assertion ∧
    ∃ cdta, makeweights ⟨true, true, false⟩ (fun _ => 15) exLabels (fun _ => 1)
        (exAlignment [2]) alias0 aliaswgt0 aliasModel0 aliasSuperModel0 = .ok cdta ∧
      makevalues ⟨true, true, false⟩ (exAlignment [2]) cdta 2 partitionData =
        .error (.exit (-1)) := by
  refine ⟨by decide, by decide, by rfl, _, by rfl, by rfl⟩

/-! ### `sitesort` -/

theorem list_cons_lt_cons (a b : Int) (l₁ l₂ : List Int) :
    a :: l₁ < b :: l₂ ↔ a < b ∨ (a = b ∧ l₁ < l₂) := by
  constructor
  · intro h
    cases h with
    | cons h => exact Or.inr ⟨rfl, h⟩
    | rel h => exact Or.inl h
  · rintro (h | ⟨rfl, h⟩)
    · exact List.Lex.rel h
    · exact List.Lex.cons h

/-- The loop of `compareSites` over the taxa, started with `tied`. -/
theorem compare_columns (d : Nat → Int → Nat) (jj jg : Int) (ks : List Nat) :
    ks.foldl (fun (ft : Bool × Bool) k =>
        if ft.2 then (decide (d k jj > d k jg), decide (d k jj = d k jg)) else ft)
        (false, true) =
      (decide (ks.map (fun k => (d k jg : Int)) < ks.map (fun k => (d k jj : Int))),
        decide (ks.map (fun k => (d k jj : Int)) = ks.map (fun k => (d k jg : Int)))) := by
  have stuck : ∀ (ks : List Nat) (f : Bool),
      ks.foldl (fun (ft : Bool × Bool) k =>
        if ft.2 then (decide (d k jj > d k jg), decide (d k jj = d k jg)) else ft)
        (f, false) = (f, false) := by
    intro ks f
    induction ks with
    | nil => rfl
    | cons k ks ih => simpa using ih
  induction ks with
  | nil => simp
  | cons k ks ih =>
    simp only [List.foldl_cons, if_true, List.map_cons]
    by_cases h : d k jj = d k jg
    · have hlt : ¬ d k jj > d k jg := by omega
      simp only [h, gt_iff_lt, lt_self_iff_false, decide_False, decide_True] at ih ⊢
      rw [ih]
      simp [list_cons_lt_cons]
    · have h' : ¬ ((d k jj : Int) = (d k jg : Int)) := by exact_mod_cast h
      simp only [h, decide_False, stuck]
      simp [list_cons_lt_cons, h, h', Ne.symm h']

/-- The comparison of `sitesort` is the comparison of the keys. -/
theorem compareSites_spec (umm : Bool) (category : Int → Int) (d : Nat → Int → Nat)
    (nsp : Nat) (jj jg : Int)
    (h : umm = true → category jj ≠ -1 ∧ category jg ≠ -1) :
    compareSites umm category d nsp jj jg =
      .ok (decide (siteKey umm category d nsp jg < siteKey umm category d nsp jj),
        decide (siteKey umm category d nsp jj = siteKey umm category d nsp jg)) := by
  have stuck : ∀ (ks : List Nat) (f : Bool),
      ks.foldl (fun (ft : Bool × Bool) k =>
        if ft.2 then (decide (d k jj > d k jg), decide (d k jj = d k jg)) else ft)
        (f, false) = (f, false) := by
    intro ks f
    induction ks with
    | nil => rfl
    | cons k ks ih => simpa using ih
  unfold compareSites siteKey forLoopFrom
  cases umm with
  | false =>
    simp only [Bool.false_eq_true, if_false, Nat.add_sub_cancel, compare_columns]
    simp [list_cons_lt_cons]
  | true =>
    have h1 := h rfl
    simp only [if_true, h1, ne_eq, not_false_eq_true, and_self, Nat.add_sub_cancel]
    by_cases hc : category jj = category jg
    · simp only [hc, gt_iff_lt, lt_self_iff_false, decide_False, decide_True, compare_columns]
      simp [list_cons_lt_cons]
    · simp only [hc, decide_False, stuck]
      simp [list_cons_lt_cons, hc, Ne.symm hc]

theorem IsPermutation.swap {n : Nat} {index : Nat → Int} (hp : IsPermutation n index)
    (a b : Nat) (ha1 : 1 ≤ a) (han : a ≤ n) (hb1 : 1 ≤ b) (hbn : b ≤ n) (hab : a ≠ b) :
    IsPermutation n (store (store index a (index b)) b (index a)) := by
  obtain ⟨σ, hfix, hval⟩ := hp
  refine ⟨(Equiv.swap a b).trans σ, ?_, ?_⟩
  · intro x hx
    have hxa : x ≠ a := by rintro rfl; exact hx ⟨ha1, han⟩
    have hxb : x ≠ b := by rintro rfl; exact hx ⟨hb1, hbn⟩
    rw [Equiv.trans_apply, Equiv.swap_apply_of_ne_of_ne hxa hxb]
    exact hfix x hx
  · intro x hx1 hxn
    rw [Equiv.trans_apply]
    simp only [store_apply]
    by_cases hxb : x = b
    · subst hxb
      rw [if_pos rfl, Equiv.swap_apply_right]
      exact hval a ha1 han
    · rw [if_neg hxb]
      by_cases hxa : x = a
      · subst hxa
        rw [if_pos rfl, Equiv.swap_apply_left]
        exact hval b hb1 hbn
      · rw [if_neg hxa, Equiv.swap_apply_of_ne_of_ne hxa hxb]
        exact hval x hx1 hxn

theorem IsPermutation.maps_to {n : Nat} {σ : Equiv.Perm Nat}
    (hfix : ∀ x, ¬ (1 ≤ x ∧ x ≤ n) → σ x = x) (x : Nat) (hx : 1 ≤ x ∧ x ≤ n) :
    1 ≤ σ x ∧ σ x ≤ n := by
  by_contra hc
  have h1 := hfix (σ x) hc
  have h2 : σ x = x := σ.injective h1
  rw [h2] at hc
  exact hc hx

theorem IsPermutation.range {n : Nat} {index : Nat → Int} (hp : IsPermutation n index)
    (x : Nat) (hx1 : 1 ≤ x) (hxn : x ≤ n) : ∃ y : Nat, 1 ≤ y ∧ y ≤ n ∧ index x = (y : Int) := by
  obtain ⟨σ, hfix, hval⟩ := hp
  obtain ⟨h1, h2⟩ := IsPermutation.maps_to hfix x ⟨hx1, hxn⟩
  exact ⟨σ x, h1, h2, hval x hx1 hxn⟩

/-- A sum over the entries of a permutation is the sum over the sites. -/
theorem IsPermutation.sum_eq {n : Nat} {index : Nat → Int} (hp : IsPermutation n index)
    {M : Type} [AddCommMonoid M] (g : Int → M) :
    ∑ x in Finset.Icc 1 n, g (index x) = ∑ s in Finset.Icc 1 n, g (s : Int) := by
  obtain ⟨σ, hfix, hval⟩ := hp
  have h1 : ∑ x in Finset.Icc 1 n, g (index x) = ∑ x in Finset.Icc 1 n, g ((σ x : Nat) : Int) := by
    apply Finset.sum_congr rfl
    intro x hx
    rw [Finset.mem_Icc] at hx
    rw [hval x hx.1 hx.2]
  rw [h1]
  apply Finset.sum_equiv σ
  · intro x
    simp only [Finset.mem_Icc]
    constructor
    · intro hx
      exact IsPermutation.maps_to hfix x hx
    · intro hx
      by_contra hc
      rw [hfix x hc] at hx
      exact hc hx
  · intro x _
    rfl

theorem isPermutation_init (n : Nat) (alias0 : Nat → Int) :
    IsPermutation n (store (forLoopFrom 1 (n + 1) (fun i a => store a i (i : Int)) alias0) 0
      (-1)) := by
  refine ⟨Equiv.refl Nat, fun _ _ => rfl, ?_⟩
  intro x hx1 hxn
  have h := forLoopFrom_store 0 (fun i => (i : Int)) 1 (n + 1) alias0 x
  simp only [Nat.zero_add] at h
  rw [store_apply, if_neg (by omega), h, if_pos (by omega)]
  simp

/-- A loop whose body may stop, with an invariant. -/
theorem forLoopFromE_inv {ε σ : Type} (P : Nat → σ → Prop) (lo hi : Nat)
    (body : Nat → σ → Except ε σ) (s : σ) (hle : lo ≤ hi) (h0 : P lo s)
    (hstep : ∀ i s, lo ≤ i → i < hi → P i s → ∃ s', body i s = .ok s' ∧ P (i + 1) s') :
    ∃ s', forLoopFromE lo hi body s = .ok s' ∧ P hi s' := by
  obtain ⟨k, rfl⟩ : ∃ k, hi = lo + k := ⟨hi - lo, by omega⟩
  clear hle
  induction k with
  | zero => exact ⟨s, forLoopFromE_self lo body s, h0⟩
  | succ k ih =>
    obtain ⟨s1, h1, hP⟩ := ih (fun i s hi1 hi2 hp => hstep i s hi1 (by omega) hp)
    obtain ⟨s2, h2, hP2⟩ := hstep (lo + k) s1 (by omega) (by omega) hP
    refine ⟨s2, ?_, hP2⟩
    rw [forLoopFromE_succ, h1]
    exact h2

theorem insertionInv_start (key : Int → List Int) (i : Nat) (index : Nat → Int)
    (hi : 1 ≤ i) (hs : SortedByKey key (i - 1) index) :
    InsertionInv key i (i - 1) index := by
  constructor
  · intro x y hx hxy hy hxne hyne
    exact hs x y hx hxy (by omega)
  · intro y h1 h2
    omega

theorem insertionInv_done (key : Int → List Int) (i j : Nat) (index : Nat → Int)
    (h : InsertionInv key i j index)
    (hle : key (index j) ≤ key (index (j + 1))) : SortedByKey key i index := by
  obtain ⟨h1, h2⟩ := h
  intro x y hx hxy hy
  by_cases hxe : x = j + 1
  · by_cases hye : y = j + 1
    · rw [hxe, hye]
    · rw [hxe]
      exact h2 y (by omega) hy
  · by_cases hye : y = j + 1
    · rw [hye]
      exact le_trans (h1 x j hx (by omega) (by omega) hxe (by omega)) hle
    · exact h1 x y hx hxy hy hxe hye

theorem insertionInv_zero (key : Int → List Int) (i : Nat) (index : Nat → Int)
    (h : InsertionInv key i 0 index) : SortedByKey key i index := by
  obtain ⟨h1, h2⟩ := h
  intro x y hx hxy hy
  by_cases hxe : x = 1
  · by_cases hye : y = 1
    · rw [hxe, hye]
    · rw [hxe]
      exact h2 y (by omega) hy
  · exact h1 x y hx hxy hy (by omega) (by omega)

theorem insertionInv_swap (key : Int → List Int) (i j : Nat) (index : Nat → Int)
    (hj : 1 ≤ j) (h : InsertionInv key i j index)
    (hlt : key (index (j + 1)) < key (index j)) :
    InsertionInv key i (j - 1)
      (store (store index j (index (j + 1))) (j + 1) (index j)) := by
  obtain ⟨h1, h2⟩ := h
  have hj1 : j - 1 + 1 = j := by omega
  have hval : ∀ x, x ≠ j → store (store index j (index (j + 1))) (j + 1) (index j) x =
      if x = j + 1 then index j else index x := by
    intro x hx
    simp only [store_apply, if_neg hx]
  have hvalj : store (store index j (index (j + 1))) (j + 1) (index j) j = index (j + 1) := by
    rw [store_apply, if_neg (by omega), store_apply, if_pos rfl]
  constructor
  · intro x y hx hxy hy hxne hyne
    rw [hj1] at hxne hyne
    rw [hval x hxne, hval y hyne]
    by_cases hxe : x = j + 1
    · rw [if_pos hxe]
      by_cases hye : y = j + 1
      · rw [if_pos hye]
      · rw [if_neg hye]
        exact h1 j y hj (by omega) hy (by omega) hye
    · rw [if_neg hxe]
      by_cases hye : y = j + 1
      · rw [if_pos hye]
        exact h1 x j hx (by omega) (by omega) hxe (by omega)
      · rw [if_neg hye]
        exact h1 x y hx hxy hy hxe hye
  · intro y hy1 hy2
    rw [hj1, hvalj]
    by_cases hye : y = j + 1
    · rw [hye, hval (j + 1) (by omega), if_pos rfl]
      exact le_of_lt hlt
    · rw [hval y (by omega), if_neg hye]
      exact h2 y (by omega) hy2

/-- The inner loop of `sitesort` returns and keeps `index` a permutation; with
`gap = 1` it completes the insertion of `index[i]`. -/
theorem sortInner_spec (umm : Bool) (category : Int → Int) (d : Nat → Int → Nat)
    (nsp n gap : Nat) (hgap : 1 ≤ gap)
    (hlab : umm = true → ∀ s : Nat, 1 ≤ s → s ≤ n → category s ≠ -1) :
    ∀ (fuel j : Nat) (index : Nat → Int), 1 ≤ j → j ≤ fuel → j + gap ≤ n →
      IsPermutation n index →
      ∃ index', sortInner umm category d nsp gap fuel j index = .ok index' ∧
        IsPermutation n index' ∧
        ∀ i, gap = 1 → j + 1 ≤ i → i ≤ n →
          InsertionInv (siteKey umm category d nsp) i j index →
          SortedByKey (siteKey umm category d nsp) i index' := by
  intro fuel
  induction fuel with
  | zero => intro j index h1 h2; omega
  | succ fuel ih =>
    intro j index hj1 hjf hjn hp
    obtain ⟨a, ha1, han, hav⟩ := hp.range j hj1 (by omega)
    obtain ⟨b, hb1, hbn, hbv⟩ := hp.range (j + gap) (by omega) hjn
    have hcmp := compareSites_spec umm category d nsp (index j) (index (j + gap))
      (fun hu => by
        rw [hav, hbv]
        exact ⟨hlab hu a ha1 han, hlab hu b hb1 hbn⟩)
    simp only [sortInner, hcmp]
    by_cases hflip : siteKey umm category d nsp (index (j + gap)) <
        siteKey umm category d nsp (index j)
    · simp only [hflip, decide_True, if_true]
      have hp' := hp.swap j (j + gap) hj1 (by omega) (by omega) hjn (by omega)
      by_cases hgo : (j : Int) - gap > 0
      · rw [if_pos hgo]
        have hjg : gap < j := by omega
        obtain ⟨index', hrun, hperm, hsorted⟩ := ih (j - gap) _ (by omega) (by omega)
          (by omega) hp'
        refine ⟨index', hrun, hperm, ?_⟩
        intro i hg hji hin hinv
        subst hg
        exact hsorted i rfl (by omega) hin
          (insertionInv_swap _ i j index hj1 hinv hflip)
      · rw [if_neg hgo]
        refine ⟨_, rfl, hp', ?_⟩
        intro i hg hji hin hinv
        subst hg
        have hj : j = 1 := by omega
        subst hj
        exact insertionInv_zero _ i _ (insertionInv_swap _ i 1 index hj1 hinv hflip)
    · simp only [hflip, decide_False, Bool.false_eq_true, if_false]
      refine ⟨index, rfl, hp, ?_⟩
      intro i hg hji hin hinv
      subst hg
      exact insertionInv_done _ i j index hinv (not_lt.1 hflip)

/-- One pass of `sitesort` with the distance `gap` returns and keeps `index` a
permutation; the pass with `gap = 1` sorts. -/
theorem sortPass_spec (umm : Bool) (category : Int → Int) (d : Nat → Int → Nat)
    (nsp n gap : Nat) (hgap : 1 ≤ gap) (hgn : gap + 1 ≤ n + 1)
    (hlab : umm = true → ∀ s : Nat, 1 ≤ s → s ≤ n → category s ≠ -1)
    (index : Nat → Int) (hp : IsPermutation n index) :
    ∃ index', forLoopFromE (gap + 1) (n + 1) (fun i index =>
        sortInner umm category d nsp gap (i - gap) (i - gap) index) index = .ok index' ∧
      IsPermutation n index' ∧
      (gap = 1 → SortedByKey (siteKey umm category d nsp) n index') := by
  obtain ⟨index', hrun, hperm, hsorted⟩ := forLoopFromE_inv
    (fun i index => IsPermutation n index ∧
      (gap = 1 → SortedByKey (siteKey umm category d nsp) (i - 1) index))
    (gap + 1) (n + 1) (fun i index =>
        sortInner umm category d nsp gap (i - gap) (i - gap) index) index hgn
    ⟨hp, fun hg => by
      subst hg
      intro x y hx hxy hy
      have hxe : x = 1 := by omega
      have hye : y = 1 := by omega
      rw [hxe, hye]⟩
    (fun i index hlo hhi hP => by
      obtain ⟨hp1, hs1⟩ := hP
      obtain ⟨index', hrun, hperm, hsorted⟩ := sortInner_spec umm category d nsp n gap hgap
        hlab (i - gap) (i - gap) index (by omega) (le_refl _) (by omega) hp1
      refine ⟨index', hrun, hperm, ?_⟩
      intro hg
      subst hg
      have := hsorted i rfl (by omega) (by omega)
        (insertionInv_start _ i index (by omega) (hs1 rfl))
      simpa using this)
  exact ⟨index', hrun, hperm, fun hg => by simpa using hsorted hg⟩

theorem gapLoop_zero {σ : Type} (body : Nat → σ → Except PrepHalt σ) (fuel : Nat) (s : σ) :
    gapLoop body fuel 0 s = .ok s := by
  cases fuel <;> simp [gapLoop]

/-- The passes of `sitesort` return, keep `index` a permutation and end with
the pass of distance 1. -/
theorem sortPasses_spec (umm : Bool) (category : Int → Int) (d : Nat → Int → Nat)
    (nsp n : Nat) (hlab : umm = true → ∀ s : Nat, 1 ≤ s → s ≤ n → category s ≠ -1) :
    ∀ (fuel gap : Nat) (index : Nat → Int), gap ≤ fuel → 2 * gap ≤ n →
      IsPermutation n index →
      ∃ index', gapLoop (fun gap index =>
          forLoopFromE (gap + 1) (n + 1) (fun i index =>
            sortInner umm category d nsp gap (i - gap) (i - gap) index) index)
          fuel gap index = .ok index' ∧
        IsPermutation n index' ∧
        (1 ≤ gap → SortedByKey (siteKey umm category d nsp) n index') := by
  intro fuel
  induction fuel with
  | zero =>
    intro gap index hg _ hp
    have : gap = 0 := by omega
    subst this
    exact ⟨index, gapLoop_zero _ _ _, hp, fun h => by omega⟩
  | succ fuel ih =>
    intro gap index hg hgn hp
    by_cases hpos : gap > 0
    · obtain ⟨index1, hrun1, hperm1, hsorted1⟩ := sortPass_spec umm category d nsp n gap hpos
        (by omega) hlab index hp
      simp only [gapLoop, hpos, if_true, hrun1]
      by_cases hone : gap = 1
      · subst hone
        refine ⟨index1, ?_, hperm1, fun _ => hsorted1 rfl⟩
        exact gapLoop_zero _ _ _
      · obtain ⟨index2, hrun2, hperm2, hsorted2⟩ := ih (gap / 2) index1 (by omega) (by omega)
          hperm1
        exact ⟨index2, hrun2, hperm2, fun _ => hsorted2 (by omega)⟩
    · have : gap = 0 := by omega
      subst this
      exact ⟨index, gapLoop_zero _ _ _, hp, fun h => by omega⟩

/-- Correctness of `sitesort`: it returns, `index[1 .. n]` stays a
permutation of the sites, and with pattern compression the keys of
`index[1], ..., index[n]` do not decrease. -/
theorem sitesort_spec (adef : analdef) (category : Int → Int) (rdta : rawdata)
    (alias_ : Nat → Int)
    (hlab : adef.useMultipleModel = true →
      ∀ s : Nat, 1 ≤ s → s ≤ rdta.sites → category s ≠ -1)
    (hp : IsPermutation rdta.sites alias_) :
    ∃ index', sitesort adef category rdta alias_ = .ok index' ∧
      IsPermutation rdta.sites index' ∧
      (adef.compressPatterns = true →
        SortedByKey (siteKey adef.useMultipleModel category rdta.y rdta.numsp) rdta.sites
          index') := by
  have hp0 : IsPermutation rdta.sites (store alias_ 0 (-1)) := by
    obtain ⟨σ, hfix, hval⟩ := hp
    refine ⟨σ, hfix, fun x hx1 hxn => ?_⟩
    rw [store_apply, if_neg (by omega)]
    exact hval x hx1 hxn
  unfold sitesort
  by_cases hc : adef.compressPatterns = true
  · simp only [hc, if_true]
    obtain ⟨index', hrun, hperm, hsorted⟩ := sortPasses_spec adef.useMultipleModel category
      rdta.y rdta.numsp rdta.sites hlab rdta.sites (rdta.sites / 2) _ (by omega) (by omega) hp0
    refine ⟨index', hrun, hperm, fun _ => ?_⟩
    by_cases h2 : 1 ≤ rdta.sites / 2
    · exact hsorted h2
    · intro x y hx hxy hy
      have hn : rdta.sites ≤ 1 := by omega
      have hxe : x = 1 := by omega
      have hye : y = 1 := by omega
      rw [hxe, hye]
  · simp only [hc, Bool.false_eq_true, if_false]
    exact ⟨_, rfl, hp0, fun h => h.elim⟩

/-! ### `sitecombcrunch` -/

theorem sameColumn_iff (rdta : rawdata) (si sj : Int) :
    sameColumn rdta si sj = true ↔
      (List.range' 1 rdta.numsp).map (fun k => (rdta.y k si : Int)) =
        (List.range' 1 rdta.numsp).map (fun k => (rdta.y k sj : Int)) := by
  unfold sameColumn
  rw [List.all_eq_true, List.map_inj_left]
  constructor
  · intro h k hk
    have := h k hk
    simp only [beq_iff_eq] at this
    rw [this]
  · intro h k hk
    have := h k hk
    simp only [beq_iff_eq]
    exact_mod_cast this

theorem siteKey_eq_iff (umm : Bool) (model : Int → Int) (rdta : rawdata) (si sj : Int) :
    siteKey umm model rdta.y rdta.numsp si = siteKey umm model rdta.y rdta.numsp sj ↔
      (umm = true → model si = model sj) ∧ sameColumn rdta si sj = true := by
  unfold siteKey
  rw [List.cons.injEq, sameColumn_iff]
  cases umm <;> simp

/-- Sites with the same key and the same data type are entirely undetermined
together. -/
theorem allGap_congr (U : Int → Nat) (dataVector : Int → Int) (rdta : rawdata) (si sj : Int)
    (hcol : sameColumn rdta si sj = true) (hdv : dataVector si = dataVector sj) :
    allGap U dataVector rdta si = allGap U dataVector rdta sj := by
  unfold allGap
  unfold sameColumn at hcol
  rw [List.all_eq_true] at hcol
  rw [Bool.eq_iff_iff, List.all_eq_true, List.all_eq_true]
  constructor
  · intro h k hk
    have h1 := hcol k hk
    have h2 := h k hk
    simp only [beq_iff_eq] at h1 h2 ⊢
    rw [← h1, ← hdv]
    exact h2
  · intro h k hk
    have h1 := hcol k hk
    have h2 := h k hk
    simp only [beq_iff_eq] at h1 h2 ⊢
    rw [h1, hdv]
    exact h2

/-- The body of the loop of `sitecombcrunch` by cases: the site at `j` is tied
with the current pattern when patterns are compressed and the keys agree. -/
theorem crunchStep_eq (adef : analdef) (U : Int → Nat) (model dataVector : Int → Int)
    (rdta : rawdata) (j : Nat) (s : crunchState)
    (hdv : adef.useMultipleModel = true → model (s.alias_ s.i) = model (s.alias_ j) →
      dataVector (s.alias_ s.i) = dataVector (s.alias_ j)) :
    crunchStep adef U model dataVector rdta j s =
      if adef.compressPatterns = true ∧
          siteKey adef.useMultipleModel model rdta.y rdta.numsp (s.alias_ s.i) =
            siteKey adef.useMultipleModel model rdta.y rdta.numsp (s.alias_ j) then
        if allGap U dataVector rdta (s.alias_ j) = true then .error .assertion
        else .ok (crunchTied adef model dataVector rdta j s)
      else if allGap U dataVector rdta (s.alias_ j) = true then
        .ok { s with undeterminedSites := s.undeterminedSites + 1 }
      else .ok (crunchNew adef model dataVector rdta j s) := by
  have hkey := siteKey_eq_iff adef.useMultipleModel model rdta (s.alias_ s.i) (s.alias_ j)
  generalize siteKey adef.useMultipleModel model rdta.y rdta.numsp (s.alias_ s.i) = ki
    at hkey ⊢
  generalize siteKey adef.useMultipleModel model rdta.y rdta.numsp (s.alias_ j) = kj
    at hkey ⊢
  unfold crunchStep tiedStart
  by_cases hc : adef.compressPatterns = true
  · by_cases hu : adef.useMultipleModel = true
    · by_cases hm : model (s.alias_ s.i) = model (s.alias_ j)
      · have hd := hdv hu hm
        by_cases hcol : sameColumn rdta (s.alias_ s.i) (s.alias_ j) = true
        · have hk := hkey.2 ⟨fun _ => hm, hcol⟩
          by_cases hg : allGap U dataVector rdta (s.alias_ j) = true
          · simp [hc, hu, hm, hd, hcol, hk, hg]
          · simp [hc, hu, hm, hd, hcol, hk, hg, crunchTied]
        · have hk : ¬ ki = kj := fun h => hcol (hkey.1 h).2
          by_cases hg : allGap U dataVector rdta (s.alias_ j) = true
          · simp [hc, hu, hm, hd, hcol, hk, hg]
          · simp [hc, hu, hm, hd, hcol, hk, hg, crunchNew]
      · have hk : ¬ ki = kj := fun h => hm ((hkey.1 h).1 hu)
        by_cases hg : allGap U dataVector rdta (s.alias_ j) = true
        · simp [hc, hu, hm, hk, hg]
        · simp [hc, hu, hm, hk, hg, crunchNew]
    · by_cases hcol : sameColumn rdta (s.alias_ s.i) (s.alias_ j) = true
      · have hk := hkey.2 ⟨fun h => absurd h hu, hcol⟩
        by_cases hg : allGap U dataVector rdta (s.alias_ j) = true
        · simp [hc, hu, hcol, hk, hg]
        · simp [hc, hu, hcol, hk, hg, crunchTied]
      · have hk : ¬ ki = kj := fun h => hcol (hkey.1 h).2
        by_cases hg : allGap U dataVector rdta (s.alias_ j) = true
        · simp [hc, hu, hcol, hk, hg]
        · simp [hc, hu, hcol, hk, hg, crunchNew]
  · by_cases hg : allGap U dataVector rdta (s.alias_ j) = true
    · simp [hc, hg]
    · simp [hc, hg, crunchNew]

theorem countNonGap_succ (P : Nat → Prop) [DecidablePred P] (m : Nat) :
    ((Finset.Icc 1 (m + 1)).filter P).card =
      ((Finset.Icc 1 m).filter P).card + (if P (m + 1) then 1 else 0) := by
  rw [← Nat.Icc_insert_succ_right (by omega), Finset.filter_insert]
  by_cases h : P (m + 1)
  · rw [if_pos h, if_pos h, Finset.card_insert_of_not_mem]
    simp
  · rw [if_neg h, if_neg h, Nat.add_zero]

theorem sum_range_store (w : Nat → Int) (i : Nat) (v : Int) :
    ∑ k in Finset.range (i + 1), store w i v k = ∑ k in Finset.range i, w k + v := by
  rw [Finset.sum_range_succ, store_apply, if_pos rfl]
  congr 1
  apply Finset.sum_congr rfl
  intro k hk
  rw [Finset.mem_range] at hk
  rw [store_apply, if_neg (by omega)]

theorem crunchInv_init (umm : Bool) (model dataVector : Int → Int) (G : Int → Bool)
    (A aliaswgt aliasModel0 aliasSuperModel0 : Nat → Int) :
    CrunchInv umm model dataVector G A 0
      { i := 0, alias_ := store A 0 (A 1), aliaswgt := store aliaswgt 0 0,
        aliasModel := aliasModel0, aliasSuperModel := aliasSuperModel0,
        undeterminedSites := 0 } := by
  refine ⟨le_refl _, ?_, ?_, ?_, ?_, ?_⟩
  · intro x hx
    show store A 0 (A 1) x = A x
    rw [store_apply, if_neg (by omega)]
  · intro _
    refine ⟨rfl, rfl, rfl, ?_⟩
    intro j h1 h2
    omega
  · intro h
    exact absurd h (lt_irrefl (0 : Int))
  · simp [store_apply]
  · intro _ h
    exact absurd h (lt_irrefl (0 : Int))

theorem crunchInv_skip {umm : Bool} {model dataVector : Int → Int} {G : Int → Bool}
    {A : Nat → Int} {m : Nat} {s : crunchState}
    (h : CrunchInv umm model dataVector G A m s) (hg : G (A (m + 1)) = true) :
    CrunchInv umm model dataVector G A (m + 1)
      { s with undeterminedSites := s.undeterminedSites + 1 } := by
  refine ⟨Nat.le_succ_of_le h.i_le, fun x hx => h.frame x (by omega), ?_, ?_, ?_, h.labels⟩
  · intro hacc
    obtain ⟨h1, h2, h3, h4⟩ := h.fresh hacc
    refine ⟨h1, h2, h3, ?_⟩
    intro j hj1 hj2
    by_cases hj : j = m + 1
    · rw [hj]; exact hg
    · exact h4 j hj1 (by omega)
  · intro hacc k hk
    obtain ⟨h1, j, hj1, hj2, hj3, hj4⟩ := h.pat hacc k hk
    exact ⟨h1, j, hj1, by omega, hj3, hj4⟩
  · show ∑ k in Finset.range (s.i + 1), s.aliaswgt k = _
    rw [h.total, countNonGap_succ, if_neg (by simp [hg]), Nat.add_zero]

theorem crunchInv_new {adef : analdef} {model dataVector : Int → Int} {G : Int → Bool}
    {A : Nat → Int} {m : Nat} {s : crunchState} (rdta : rawdata)
    (h : CrunchInv adef.useMultipleModel model dataVector G A m s)
    (hg : G (A (m + 1)) = false) (hw : rdta.wgt (A (m + 1)) = 1) :
    CrunchInv adef.useMultipleModel model dataVector G A (m + 1)
      (crunchNew adef model dataVector rdta (m + 1) s) := by
  have hj : s.alias_ (m + 1) = A (m + 1) := h.frame (m + 1) (by omega)
  have hle := h.i_le
  by_cases hacc : s.aliaswgt s.i > 0
  · have hpat := h.pat hacc
    have hlab := h.labels
    have htot := h.total
    have hframe := h.frame
    simp only [crunchNew, if_pos hacc, hj, hw]
    refine ⟨by show s.i + 1 ≤ m + 1; omega, ?_, ?_, ?_, ?_, ?_⟩
    · intro x hx
      show store s.alias_ (s.i + 1) (A (m + 1)) x = A x
      rw [store_apply, if_neg (by omega)]
      exact hframe x (by omega)
    · intro hc
      exfalso
      apply hc
      show store s.aliaswgt (s.i + 1) 1 (s.i + 1) > 0
      rw [store_apply, if_pos rfl]
      exact Int.one_pos
    · intro _ k hk
      show 1 ≤ store s.aliaswgt (s.i + 1) 1 k ∧
        ∃ j, 1 ≤ j ∧ j ≤ m + 1 ∧ store s.alias_ (s.i + 1) (A (m + 1)) k = A j ∧ G (A j) = false
      have hk' : k ≤ s.i + 1 := hk
      by_cases hke : k = s.i + 1
      · rw [store_apply, if_pos hke, store_apply, if_pos hke]
        exact ⟨le_refl _, m + 1, by omega, le_refl _, rfl, hg⟩
      · rw [store_apply, if_neg hke, store_apply, if_neg hke]
        obtain ⟨h1, j, hj1, hj2, hj3, hj4⟩ := hpat k (by omega)
        exact ⟨h1, j, hj1, by omega, hj3, hj4⟩
    · show ∑ k in Finset.range (s.i + 1 + 1), store s.aliaswgt (s.i + 1) 1 k = _
      rw [sum_range_store, htot, countNonGap_succ, if_pos hg]
      push_cast
      ring
    · intro hu _ k hk
      have hk' : k ≤ s.i + 1 := hk
      simp only [hu, if_true]
      by_cases hke : k = s.i + 1
      · simp only [store_apply, if_pos hke]
        exact ⟨trivial, trivial⟩
      · simp only [store_apply, if_neg hke]
        exact hlab hu hacc k (by omega)
  · obtain ⟨hi0, hw0, ha0, hall⟩ := h.fresh hacc
    have htot := h.total
    have hframe := h.frame
    simp only [crunchNew, if_neg hacc, hj, hw]
    simp only [hi0]
    rw [hi0] at htot
    refine ⟨by show 0 ≤ m + 1; omega, ?_, ?_, ?_, ?_, ?_⟩
    · intro x hx
      show store s.alias_ 0 (A (m + 1)) x = A x
      rw [store_apply, if_neg (by omega)]
      exact hframe x (by omega)
    · intro hc
      exfalso
      apply hc
      show store s.aliaswgt 0 1 0 > 0
      rw [store_apply, if_pos rfl]
      exact Int.one_pos
    · intro _ k hk
      show 1 ≤ store s.aliaswgt 0 1 k ∧
        ∃ j, 1 ≤ j ∧ j ≤ m + 1 ∧ store s.alias_ 0 (A (m + 1)) k = A j ∧ G (A j) = false
      have hk' : k ≤ 0 := hk
      have hke : k = 0 := by omega
      rw [store_apply, if_pos hke, store_apply, if_pos hke]
      exact ⟨le_refl _, m + 1, by omega, le_refl _, rfl, hg⟩
    · show ∑ k in Finset.range (0 + 1), store s.aliaswgt 0 1 k = _
      rw [sum_range_store, countNonGap_succ, if_pos hg]
      simp only [zero_add, Finset.sum_range_one, hw0] at htot
      push_cast
      rw [← htot]
      simp
    · intro hu _ k hk
      have hk' : k ≤ 0 := hk
      have hke : k = 0 := by omega
      simp only [hu, if_true, store_apply, if_pos hke]
      exact ⟨trivial, trivial⟩

theorem crunchInv_tied {adef : analdef} {model dataVector : Int → Int} {G : Int → Bool}
    {A : Nat → Int} {m : Nat} {s : crunchState} (rdta : rawdata) (n : Nat)
    (h : CrunchInv adef.useMultipleModel model dataVector G A m s)
    (hg : G (A (m + 1)) = false) (hw : rdta.wgt (A (m + 1)) = 1) (hn : m + 1 ≤ n)
    (hkey : siteKey adef.useMultipleModel model rdta.y rdta.numsp (s.alias_ s.i) =
      siteKey adef.useMultipleModel model rdta.y rdta.numsp (A (m + 1)))
    (hGk : ∀ j1 j2, 1 ≤ j1 → j1 ≤ n → 1 ≤ j2 → j2 ≤ n →
      siteKey adef.useMultipleModel model rdta.y rdta.numsp (A j1) =
        siteKey adef.useMultipleModel model rdta.y rdta.numsp (A j2) → G (A j1) = G (A j2))
    (hdvA : ∀ j1 j2, 1 ≤ j1 → j1 ≤ n → 1 ≤ j2 → j2 ≤ n →
      (adef.useMultipleModel = true → model (A j1) = model (A j2)) →
      dataVector (A j1) = dataVector (A j2)) :
    CrunchInv adef.useMultipleModel model dataVector G A (m + 1)
      (crunchTied adef model dataVector rdta (m + 1) s) := by
  have hj : s.alias_ (m + 1) = A (m + 1) := h.frame (m + 1) (by omega)
  have hle := h.i_le
  have htot := h.total
  have hframe := h.frame
  have hmod : adef.useMultipleModel = true → model (s.alias_ s.i) = model (A (m + 1)) :=
    ((siteKey_eq_iff _ model rdta _ _).1 hkey).1
  have hsum : ∑ k in Finset.range (s.i + 1), store s.aliaswgt s.i (s.aliaswgt s.i + 1) k =
      (((Finset.Icc 1 (m + 1)).filter (fun j => G (A j) = false)).card : Int) := by
    rw [sum_range_store, countNonGap_succ, if_pos hg, ← add_assoc, ← Finset.sum_range_succ,
      htot]
    push_cast
    ring
  have hacc' : store s.aliaswgt s.i (s.aliaswgt s.i + 1) s.i > 0 ↔ s.aliaswgt s.i + 1 > 0 := by
    rw [store_apply, if_pos rfl]
  simp only [crunchTied, hj, hw]
  by_cases hacc : s.aliaswgt s.i > 0
  · have hpat := h.pat hacc
    have hlab := h.labels
    obtain ⟨hwi, j0, hj01, hj0m, hj0a, hj0g⟩ := hpat s.i (le_refl _)
    refine ⟨by show s.i ≤ m + 1; omega, fun x hx => hframe x (by omega), ?_, ?_, hsum, ?_⟩
    · intro hc
      exfalso
      apply hc
      show store s.aliaswgt s.i (s.aliaswgt s.i + 1) s.i > 0
      rw [hacc']
      omega
    · intro _ k hk
      show 1 ≤ store s.aliaswgt s.i (s.aliaswgt s.i + 1) k ∧
        ∃ j, 1 ≤ j ∧ j ≤ m + 1 ∧ s.alias_ k = A j ∧ G (A j) = false
      have hk' : k ≤ s.i := hk
      obtain ⟨h1, j, hj1, hj2, hj3, hj4⟩ := hpat k hk'
      refine ⟨?_, j, hj1, by omega, hj3, hj4⟩
      rw [store_apply]
      by_cases hke : k = s.i
      · rw [if_pos hke]; omega
      · rw [if_neg hke]; exact h1
    · intro hu _ k hk
      have hk' : k ≤ s.i := hk
      simp only [hu, if_true, store_apply]
      by_cases hke : k = s.i
      · simp only [if_pos hke]
        rw [hke]
        refine ⟨(hmod hu).symm, ?_⟩
        rw [hj0a]
        apply hdvA (m + 1) j0 (by omega) hn hj01 (by omega)
        intro _
        rw [← hj0a]
        exact (hmod hu).symm
      · simp only [if_neg hke]
        exact hlab hu hacc k hk'
  · obtain ⟨hi0, hw0, ha0, hall⟩ := h.fresh hacc
    have hm0 : m = 0 := by
      by_contra hm
      have h1 := hall 1 (le_refl _) (by omega)
      rw [hi0, ha0] at hkey
      have h2 := hGk 1 (m + 1) (le_refl _) (by omega) (by omega) hn hkey
      rw [h1, hg] at h2
      exact absurd h2 (by decide)
    subst hm0
    have ha01 : s.alias_ s.i = A (0 + 1) := by rw [hi0, ha0]
    refine ⟨by show s.i ≤ 0 + 1; omega, fun x hx => hframe x (by omega), ?_, ?_, hsum, ?_⟩
    · intro hc
      exfalso
      apply hc
      show store s.aliaswgt s.i (s.aliaswgt s.i + 1) s.i > 0
      rw [hacc', hi0, hw0]
      decide
    · intro _ k hk
      show 1 ≤ store s.aliaswgt s.i (s.aliaswgt s.i + 1) k ∧
        ∃ j, 1 ≤ j ∧ j ≤ 0 + 1 ∧ s.alias_ k = A j ∧ G (A j) = false
      have hk' : k ≤ s.i := hk
      have hke : k = s.i := by omega
      rw [store_apply, if_pos hke, hke]
      refine ⟨?_, 1, le_refl _, le_refl _, ha01, hg⟩
      rw [hi0, hw0]
      decide
    · intro hu _ k hk
      have hk' : k ≤ s.i := hk
      have hke : k = s.i := by omega
      simp only [hu, if_true, store_apply, if_pos hke]
      rw [hke, ha01]
      exact ⟨rfl, rfl⟩

theorem CrunchHyp.gap_congr {adef : analdef} {model dataVector : Int → Int} {rdta : rawdata}
    {A : Nat → Int} {n : Nat} (hyp : CrunchHyp adef model dataVector rdta A n) (U : Int → Nat)
    (j1 j2 : Nat) (h1 : 1 ≤ j1) (h2 : j1 ≤ n) (h3 : 1 ≤ j2) (h4 : j2 ≤ n)
    (hkey : siteKey adef.useMultipleModel model rdta.y rdta.numsp (A j1) =
      siteKey adef.useMultipleModel model rdta.y rdta.numsp (A j2)) :
    allGap U dataVector rdta (A j1) = allGap U dataVector rdta (A j2) := by
  obtain ⟨hm, hcol⟩ := (siteKey_eq_iff _ model rdta _ _).1 hkey
  exact allGap_congr U dataVector rdta _ _ hcol (hyp.dv j1 j2 h1 h2 h3 h4 hm)

theorem CrunchInv.current {umm : Bool} {model dataVector : Int → Int} {G : Int → Bool}
    {A : Nat → Int} {m : Nat} {s : crunchState} (h : CrunchInv umm model dataVector G A m s)
    (n : Nat) (hn : m + 1 ≤ n) : ∃ j0, 1 ≤ j0 ∧ j0 ≤ n ∧ s.alias_ s.i = A j0 := by
  by_cases hacc : s.aliaswgt s.i > 0
  · obtain ⟨_, j0, h1, h2, h3, _⟩ := h.pat hacc s.i (le_refl _)
    exact ⟨j0, h1, by omega, h3⟩
  · obtain ⟨hi0, _, ha0, _⟩ := h.fresh hacc
    exact ⟨1, le_refl _, by omega, by rw [hi0, ha0]⟩

/-- A loop whose body may stop, with an invariant that holds when it
returns. -/
theorem forLoopFromE_inv_of_ok {ε σ : Type} (P : Nat → σ → Prop) (lo hi : Nat)
    (body : Nat → σ → Except ε σ) (s : σ) (hle : lo ≤ hi) (h0 : P lo s)
    (hstep : ∀ i s s', lo ≤ i → i < hi → P i s → body i s = .ok s' → P (i + 1) s') :
    ∀ s', forLoopFromE lo hi body s = .ok s' → P hi s' := by
  obtain ⟨k, rfl⟩ : ∃ k, hi = lo + k := ⟨hi - lo, by omega⟩
  clear hle
  induction k with
  | zero =>
    intro s' hrun
    rw [Nat.add_zero, forLoopFromE_self] at hrun
    injection hrun with hrun
    rw [← hrun]
    exact h0
  | succ k ih =>
    intro s' hrun
    rw [forLoopFromE_succ] at hrun
    cases hprev : forLoopFromE lo (lo + k) body s with
    | error e => rw [hprev] at hrun; cases hrun
    | ok s1 =>
      rw [hprev] at hrun
      exact hstep (lo + k) s1 s' (by omega) (by omega)
        (ih (fun i s s' h1 h2 hp hb => hstep i s s' h1 (by omega) hp hb) s1 hprev) hrun

/-- The body of the loop of `sitecombcrunch` keeps the invariant. -/
theorem crunchStep_inv (adef : analdef) (U : Int → Nat) (model dataVector : Int → Int)
    (rdta : rawdata) (A : Nat → Int) (n m : Nat) (s s' : crunchState)
    (hyp : CrunchHyp adef model dataVector rdta A n) (hn : m + 1 ≤ n)
    (h : CrunchInv adef.useMultipleModel model dataVector (allGap U dataVector rdta) A m s)
    (hrun : crunchStep adef U model dataVector rdta (m + 1) s = .ok s') :
    CrunchInv adef.useMultipleModel model dataVector (allGap U dataVector rdta) A (m + 1) s' := by
  have hj : s.alias_ (m + 1) = A (m + 1) := h.frame (m + 1) (by omega)
  obtain ⟨j0, hj01, hj0n, hj0⟩ := h.current n hn
  have hw := hyp.wgt_one (m + 1) (by omega) hn
  rw [crunchStep_eq adef U model dataVector rdta (m + 1) s (fun hu hm => by
    rw [hj0, hj] at hm ⊢
    exact hyp.dv j0 (m + 1) hj01 hj0n (by omega) hn (fun _ => hm))] at hrun
  rw [hj] at hrun
  by_cases hg : allGap U dataVector rdta (A (m + 1)) = true
  · rw [if_pos hg, if_pos hg] at hrun
    split_ifs at hrun
    injection hrun with hrun
    rw [← hrun]
    exact crunchInv_skip h hg
  · rw [if_neg hg, if_neg hg] at hrun
    have hg' : allGap U dataVector rdta (A (m + 1)) = false := by simpa using hg
    split_ifs at hrun with ht
    · injection hrun with hrun
      rw [← hrun]
      exact crunchInv_tied rdta n h hg' hw hn ht.2
        (fun j1 j2 h1 h2 h3 h4 hk => hyp.gap_congr U j1 j2 h1 h2 h3 h4 hk) hyp.dv
    · injection hrun with hrun
      rw [← hrun]
      exact crunchInv_new rdta h hg' hw

/-- The invariant holds for the state in which the loop of `sitecombcrunch`
ends. -/
theorem crunchLoop_inv (adef : analdef) (U : Int → Nat) (model dataVector : Int → Int)
    (rdta : rawdata) (A aliaswgt aliasModel0 aliasSuperModel0 : Nat → Int)
    (hyp : CrunchHyp adef model dataVector rdta A rdta.sites) (s : crunchState)
    (hrun : forLoopFromE 1 (rdta.sites + 1) (crunchStep adef U model dataVector rdta)
      { i := 0, alias_ := store A 0 (A 1), aliaswgt := store aliaswgt 0 0,
        aliasModel := aliasModel0, aliasSuperModel := aliasSuperModel0,
        undeterminedSites := 0 } = .ok s) :
    CrunchInv adef.useMultipleModel model dataVector (allGap U dataVector rdta) A rdta.sites
      s := by
  have := forLoopFromE_inv_of_ok
    (fun j s => CrunchInv adef.useMultipleModel model dataVector (allGap U dataVector rdta) A
      (j - 1) s) 1 (rdta.sites + 1) (crunchStep adef U model dataVector rdta) _ (by omega)
    (crunchInv_init _ model dataVector _ A aliaswgt aliasModel0 aliasSuperModel0)
    (fun j s s' h1 h2 hP hb => by
      obtain ⟨m, rfl⟩ : ∃ m, j = m + 1 := ⟨j - 1, by omega⟩
      exact crunchStep_inv adef U model dataVector rdta A rdta.sites m s s' hyp (by omega) hP hb)
    s hrun
  simpa using this

theorem patterns_crunchNew (adef : analdef) (model dataVector : Int → Int) (rdta : rawdata)
    (j : Nat) (s : crunchState) (hw : rdta.wgt (s.alias_ j) = 1) :
    (crunchNew adef model dataVector rdta j s).patterns = s.patterns + 1 := by
  simp only [crunchState.patterns, crunchNew, hw, store_apply, if_true]
  rw [if_pos Int.one_pos]

theorem noCompInv_new {adef : analdef} {model dataVector : Int → Int} {G : Int → Bool}
    {A : Nat → Int} {m : Nat} {s : crunchState} (rdta : rawdata)
    (hf : s.alias_ (m + 1) = A (m + 1)) (h : NoCompInv G A m s)
    (hg : G (A (m + 1)) = false) (hw : rdta.wgt (A (m + 1)) = 1) :
    NoCompInv G A (m + 1) (crunchNew adef model dataVector rdta (m + 1) s) := by
  obtain ⟨h1, h2⟩ := h
  have hp := patterns_crunchNew adef model dataVector rdta (m + 1) s (by rw [hf]; exact hw)
  have ha : (crunchNew adef model dataVector rdta (m + 1) s).alias_ =
      store s.alias_ s.patterns (A (m + 1)) := by
    simp only [crunchNew, crunchState.patterns, hf]
  have hwt : (crunchNew adef model dataVector rdta (m + 1) s).aliaswgt =
      store s.aliaswgt s.patterns 1 := by
    simp only [crunchNew, crunchState.patterns, hf, hw]
  constructor
  · rw [hp, ha, List.range_succ, List.map_append, List.range'_concat, List.filter_append,
      List.map_append, ← h1]
    congr 1
    · apply List.map_congr_left
      intro k hk
      rw [List.mem_range] at hk
      rw [store_apply, if_neg (by omega)]
    · simp [store_apply, hg, Nat.add_comm]
  · intro k hk
    rw [hp] at hk
    rw [hwt, store_apply]
    by_cases hke : k = s.patterns
    · rw [if_pos hke]
    · rw [if_neg hke]
      exact h2 k (by omega)

theorem noCompInv_skip {G : Int → Bool} {A : Nat → Int} {m : Nat} {s : crunchState}
    (h : NoCompInv G A m s) (hg : G (A (m + 1)) = true) :
    NoCompInv G A (m + 1) { s with undeterminedSites := s.undeterminedSites + 1 } := by
  obtain ⟨h1, h2⟩ := h
  constructor
  · show (List.range s.patterns).map s.alias_ = _
    rw [h1, List.range'_concat, List.filter_append]
    simp [hg, Nat.add_comm]
  · exact h2

/-- Without pattern compression the loop of `sitecombcrunch` returns, and its
patterns are the sites that are not entirely undetermined, in their order. -/
theorem crunchLoop_noComp (adef : analdef) (U : Int → Nat) (model dataVector : Int → Int)
    (rdta : rawdata) (A aliaswgt aliasModel0 aliasSuperModel0 : Nat → Int)
    (hc : adef.compressPatterns = false)
    (hyp : CrunchHyp adef model dataVector rdta A rdta.sites) :
    ∃ s, forLoopFromE 1 (rdta.sites + 1) (crunchStep adef U model dataVector rdta)
        { i := 0, alias_ := store A 0 (A 1), aliaswgt := store aliaswgt 0 0,
          aliasModel := aliasModel0, aliasSuperModel := aliasSuperModel0,
          undeterminedSites := 0 } = .ok s ∧
      CrunchInv adef.useMultipleModel model dataVector (allGap U dataVector rdta) A
        rdta.sites s ∧
      NoCompInv (allGap U dataVector rdta) A rdta.sites s := by
  have := forLoopFromE_inv
    (fun j s => CrunchInv adef.useMultipleModel model dataVector (allGap U dataVector rdta) A
      (j - 1) s ∧ NoCompInv (allGap U dataVector rdta) A (j - 1) s)
    1 (rdta.sites + 1) (crunchStep adef U model dataVector rdta)
    { i := 0, alias_ := store A 0 (A 1), aliaswgt := store aliaswgt 0 0,
      aliasModel := aliasModel0, aliasSuperModel := aliasSuperModel0,
      undeterminedSites := 0 } (by omega)
    ⟨crunchInv_init _ model dataVector _ A aliaswgt aliasModel0 aliasSuperModel0,
      by
        constructor
        · simp [crunchState.patterns, store_apply]
        · intro k hk
          simp [crunchState.patterns, store_apply] at hk⟩
    (fun j s h1 h2 hP => by
      obtain ⟨m, rfl⟩ : ∃ m, j = m + 1 := ⟨j - 1, by omega⟩
      obtain ⟨hI, hN⟩ := hP
      simp only [Nat.add_sub_cancel] at hI hN ⊢
      have hj : s.alias_ (m + 1) = A (m + 1) := hI.frame (m + 1) (by omega)
      obtain ⟨j0, hj01, hj0n, hj0⟩ := hI.current rdta.sites (by omega)
      have hw := hyp.wgt_one (m + 1) (by omega) (by omega)
      have hstep := crunchStep_eq adef U model dataVector rdta (m + 1) s (fun hu hm => by
        rw [hj0, hj] at hm ⊢
        exact hyp.dv j0 (m + 1) hj01 hj0n (by omega) (by omega) (fun _ => hm))
      rw [if_neg (by simp [hc]), hj] at hstep
      by_cases hg : allGap U dataVector rdta (A (m + 1)) = true
      · rw [if_pos hg] at hstep
        exact ⟨_, hstep, crunchInv_skip hI hg, noCompInv_skip hN hg⟩
      · rw [if_neg hg] at hstep
        have hg' : allGap U dataVector rdta (A (m + 1)) = false := by simpa using hg
        exact ⟨_, hstep, crunchInv_new rdta hI hg' hw, noCompInv_new rdta hj hN hg' hw⟩)
  simpa using this

theorem crunchHyp_of_perm (adef : analdef) (model dataVector : Int → Int) (rdta : rawdata)
    (A : Nat → Int) (hp : IsPermutation rdta.sites A)
    (hw : ∀ s : Nat, 1 ≤ s → s ≤ rdta.sites → rdta.wgt s = 1)
    (hdv : ∀ s t : Nat, 1 ≤ s → s ≤ rdta.sites → 1 ≤ t → t ≤ rdta.sites →
      (adef.useMultipleModel = true → model s = model t) → dataVector s = dataVector t) :
    CrunchHyp adef model dataVector rdta A rdta.sites := by
  constructor
  · intro j h1 h2
    obtain ⟨y, hy1, hy2, hy⟩ := hp.range j h1 h2
    rw [hy]
    exact hw y hy1 hy2
  · intro j1 j2 h1 h2 h3 h4 hm
    obtain ⟨y1, hy11, hy12, hy1⟩ := hp.range j1 h1 h2
    obtain ⟨y2, hy21, hy22, hy2⟩ := hp.range j2 h3 h4
    rw [hy1, hy2] at hm ⊢
    exact hdv y1 y2 hy11 hy12 hy21 hy22 hm

theorem IsPermutation.card_eq {n : Nat} {index : Nat → Int} (hp : IsPermutation n index)
    (G : Int → Bool) :
    ((Finset.Icc 1 n).filter (fun j => G (index j) = false)).card =
      ((Finset.Icc 1 n).filter (fun s : Nat => G (s : Int) = false)).card := by
  rw [Finset.card_filter, Finset.card_filter]
  exact hp.sum_eq (fun x => if G x = false then 1 else 0)

theorem IsPermutation.frame {n : Nat} {index index' : Nat → Int} (hp : IsPermutation n index)
    (h : ∀ x, 1 ≤ x → x ≤ n → index' x = index x) : IsPermutation n index' := by
  obtain ⟨σ, hfix, hval⟩ := hp
  exact ⟨σ, hfix, fun x h1 h2 => by rw [h x h1 h2]; exact hval x h1 h2⟩

theorem sum_patterns (s : crunchState)
    (hfresh : ¬ s.aliaswgt s.i > 0 → s.i = 0 ∧ s.aliaswgt 0 = 0) :
    ∑ k in Finset.range s.patterns, s.aliaswgt k = ∑ k in Finset.range (s.i + 1), s.aliaswgt k := by
  unfold crunchState.patterns
  by_cases hacc : s.aliaswgt s.i > 0
  · rw [if_pos hacc]
  · obtain ⟨h1, h2⟩ := hfresh hacc
    rw [if_neg hacc, h1]
    simp [h2]

/-- What `makeweights` returns comes from a state of the loop of
`sitecombcrunch` that satisfies the invariant for an index array that is a
permutation of the sites, sorted when patterns are compressed. -/
theorem makeweights_inv (adef : analdef) (U : Int → Nat) (model dataVector : Int → Int)
    (rdta : rawdata) (alias0 aliaswgt0 aliasModel0 aliasSuperModel0 : Nat → Int)
    (hw : ∀ s : Nat, 1 ≤ s → s ≤ rdta.sites → rdta.wgt s = 1)
    (hdv : ∀ s t : Nat, 1 ≤ s → s ≤ rdta.sites → 1 ≤ t → t ≤ rdta.sites →
      (adef.useMultipleModel = true → model s = model t) → dataVector s = dataVector t)
    (hlab : adef.useMultipleModel = true →
      ∀ s : Nat, 1 ≤ s → s ≤ rdta.sites → model s ≠ -1)
    (cdta : crunched)
    (hrun : makeweights adef U model dataVector rdta alias0 aliaswgt0 aliasModel0
      aliasSuperModel0 = .ok cdta) :
    ∃ (A : Nat → Int) (s : crunchState),
      sitesort adef model rdta
        (forLoopFrom 1 (rdta.sites + 1) (fun i a => store a i (i : Int)) alias0) = .ok A ∧
      IsPermutation rdta.sites A ∧
      (adef.compressPatterns = true →
        SortedByKey (siteKey adef.useMultipleModel model rdta.y rdta.numsp) rdta.sites A) ∧
      forLoopFromE 1 (rdta.sites + 1) (crunchStep adef U model dataVector rdta)
        { i := 0, alias_ := store A 0 (A 1), aliaswgt := store aliaswgt0 0 0,
          aliasModel := aliasModel0, aliasSuperModel := aliasSuperModel0,
          undeterminedSites := 0 } = .ok s ∧
      CrunchInv adef.useMultipleModel model dataVector (allGap U dataVector rdta) A
        rdta.sites s ∧
      cdta.alias_ = s.alias_ ∧ cdta.aliaswgt = s.aliaswgt ∧ cdta.endsite = s.patterns ∧
      cdta.model = (fun x => if adef.useMultipleModel ∧ x ≤ rdta.sites then s.aliasModel x
        else model (x : Int)) := by
  have hp0 : IsPermutation rdta.sites
      (forLoopFrom 1 (rdta.sites + 1) (fun i a => store a i (i : Int)) alias0) :=
    (isPermutation_init rdta.sites alias0).frame (fun x h1 h2 => by
      rw [store_apply, if_neg (by omega)])
  obtain ⟨A, hsort, hperm, hsorted⟩ := sitesort_spec adef model rdta _ hlab hp0
  unfold makeweights at hrun
  simp only [hsort] at hrun
  unfold sitecombcrunch at hrun
  by_cases hps : adef.perSiteLL = true
  · simp [hps] at hrun
  · simp only [hps, Bool.false_eq_true, if_false] at hrun
    cases hloop : forLoopFromE 1 (rdta.sites + 1) (crunchStep adef U model dataVector rdta)
        { i := 0, alias_ := store A 0 (A 1), aliaswgt := store aliaswgt0 0 0,
          aliasModel := aliasModel0, aliasSuperModel := aliasSuperModel0,
          undeterminedSites := 0 } with
    | error e => rw [hloop] at hrun; cases hrun
    | ok s =>
      rw [hloop] at hrun
      injection hrun with hrun
      have hyp := crunchHyp_of_perm adef model dataVector rdta A hperm hw hdv
      have hinv := crunchLoop_inv adef U model dataVector rdta A aliaswgt0 aliasModel0
        aliasSuperModel0 hyp s hloop
      subst hrun
      exact ⟨A, s, hsort, hperm, hsorted, hloop, hinv, rfl, rfl, rfl, rfl⟩

/-- Without pattern compression `makeweights` returns, and the state of the
loop of `sitecombcrunch` holds the sites that are not entirely undetermined
in their order. -/
theorem makeweights_noComp (adef : analdef) (U : Int → Nat) (model dataVector : Int → Int)
    (rdta : rawdata) (alias0 aliaswgt0 aliasModel0 aliasSuperModel0 : Nat → Int)
    (hc : adef.compressPatterns = false) (hps : adef.perSiteLL = false)
    (hw : ∀ s : Nat, 1 ≤ s → s ≤ rdta.sites → rdta.wgt s = 1)
    (hdv : ∀ s t : Nat, 1 ≤ s → s ≤ rdta.sites → 1 ≤ t → t ≤ rdta.sites →
      (adef.useMultipleModel = true → model s = model t) → dataVector s = dataVector t) :
    ∃ (A : Nat → Int) (s : crunchState),
      (∀ x, 1 ≤ x → x ≤ rdta.sites → A x = (x : Int)) ∧
      makeweights adef U model dataVector rdta alias0 aliaswgt0 aliasModel0
        aliasSuperModel0 =
        .ok { alias_ := s.alias_
              aliaswgt := s.aliaswgt
              endsite := s.patterns
              model := fun x =>
                if adef.useMultipleModel ∧ x ≤ rdta.sites then s.aliasModel x
                else model (x : Int)
              dataVector := fun x =>
                if adef.useMultipleModel ∧ x ≤ rdta.sites then s.aliasSuperModel x
                else dataVector (x : Int)
              undeterminedSites := s.undeterminedSites } ∧
      CrunchInv adef.useMultipleModel model dataVector (allGap U dataVector rdta) A
        rdta.sites s ∧
      NoCompInv (allGap U dataVector rdta) A rdta.sites s := by
  have hA : ∀ x, 1 ≤ x → x ≤ rdta.sites →
      store (forLoopFrom 1 (rdta.sites + 1) (fun i a => store a i (i : Int)) alias0) 0 (-1) x =
        (x : Int) := by
    intro x h1 h2
    have h := forLoopFrom_store 0 (fun i => (i : Int)) 1 (rdta.sites + 1) alias0 x
    simp only [Nat.zero_add] at h
    rw [store_apply, if_neg (by omega), h, if_pos (by omega)]
    simp
  have hp0 := isPermutation_init rdta.sites alias0
  have hyp := crunchHyp_of_perm adef model dataVector rdta _ hp0 hw hdv
  obtain ⟨s, hloop, hinv, hnc⟩ := crunchLoop_noComp adef U model dataVector rdta _ aliaswgt0
    aliasModel0 aliasSuperModel0 hc hyp
  refine ⟨_, s, hA, ?_, hinv, hnc⟩
  unfold makeweights sitesort
  simp only [hc, Bool.false_eq_true, if_false]
  unfold sitecombcrunch
  simp only [hps, Bool.false_eq_true, if_false, hloop]
  rfl

/-! ### Conservation of the weights -/

/-- C28. Weight conservation: for an alignment whose sites all have weight 1,
whose sites of one partition share a data type and, with partitions, all carry
a label, whenever `makeweights` (`sitesort` followed by `sitecombcrunch`)
returns, the weights `aliaswgt[k]`, `k < endsite`, add up to the number of
sites that are not entirely undetermined, every such weight is at least 1 and
every `alias[k]` is a site that is not entirely undetermined. Without pattern
compression `makeweights` does return, `endsite` is that number of sites,
every weight is 1 and `alias[0 .. endsite-1]` lists the sites that are not
entirely undetermined in their original order. -/
theorem weight_conservation (adef : analdef) (U : Int → Nat) (model dataVector : Int → Int)
    (rdta : rawdata) (alias0 aliaswgt0 aliasModel0 aliasSuperModel0 : Nat → Int)
    (hw : ∀ s : Nat, 1 ≤ s → s ≤ rdta.sites → rdta.wgt s = 1)
    (hdv : ∀ s t : Nat, 1 ≤ s → s ≤ rdta.sites → 1 ≤ t → t ≤ rdta.sites →
      (adef.useMultipleModel = true → model s = model t) → dataVector s = dataVector t)
    (hlab : adef.useMultipleModel = true →
      ∀ s : Nat, 1 ≤ s → s ≤ rdta.sites → model s ≠ -1) :
    (∀ cdta, makeweights adef U model dataVector rdta alias0 aliaswgt0 aliasModel0
        aliasSuperModel0 = .ok cdta →
      ∑ k in Finset.range cdta.endsite, cdta.aliaswgt k =
        (((Finset.Icc 1 rdta.sites).filter
          (fun s : Nat => allGap U dataVector rdta (s : Int) = false)).card : Int) ∧
      ∀ k, k < cdta.endsite → 1 ≤ cdta.aliaswgt k ∧
        ∃ s : Nat, 1 ≤ s ∧ s ≤ rdta.sites ∧ cdta.alias_ k = (s : Int) ∧
          allGap U dataVector rdta (s : Int) = false) ∧
    (adef.compressPatterns = false → adef.perSiteLL = false →
      ∃ cdta, makeweights adef U model dataVector rdta alias0 aliaswgt0 aliasModel0
          aliasSuperModel0 = .ok cdta ∧
        cdta.endsite = ((Finset.Icc 1 rdta.sites).filter
          (fun s : Nat => allGap U dataVector rdta (s : Int) = false)).card ∧
        (∀ k, k < cdta.endsite → cdta.aliaswgt k = 1) ∧
        (List.range cdta.endsite).map cdta.alias_ =
          ((List.range' 1 rdta.sites).filter
            (fun s : Nat => allGap U dataVector rdta (s : Int) = false)).map
            (fun s : Nat => (s : Int))) := by
  have part1 : ∀ cdta, makeweights adef U model dataVector rdta alias0 aliaswgt0 aliasModel0
        aliasSuperModel0 = .ok cdta →
      ∑ k in Finset.range cdta.endsite, cdta.aliaswgt k =
        (((Finset.Icc 1 rdta.sites).filter
          (fun s : Nat => allGap U dataVector rdta (s : Int) = false)).card : Int) ∧
      ∀ k, k < cdta.endsite → 1 ≤ cdta.aliaswgt k ∧
        ∃ s : Nat, 1 ≤ s ∧ s ≤ rdta.sites ∧ cdta.alias_ k = (s : Int) ∧
          allGap U dataVector rdta (s : Int) = false := by
    intro cdta hrun
    obtain ⟨A, s, -, hperm, -, -, hinv, ha, hwt, he, -⟩ := makeweights_inv adef U model
      dataVector rdta alias0 aliaswgt0 aliasModel0 aliasSuperModel0 hw hdv hlab cdta hrun
    rw [ha, hwt, he]
    constructor
    · rw [sum_patterns s (fun h => ⟨(hinv.fresh h).1, (hinv.fresh h).2.1⟩), hinv.total,
        hperm.card_eq]
    · intro k hk
      by_cases hacc : s.aliaswgt s.i > 0
      · simp only [crunchState.patterns, if_pos hacc] at hk
        obtain ⟨h1, j, hj1, hj2, hj3, hj4⟩ := hinv.pat hacc k (by omega)
        obtain ⟨y, hy1, hy2, hy⟩ := hperm.range j hj1 hj2
        rw [hy] at hj3 hj4
        exact ⟨h1, y, hy1, hy2, hj3, hj4⟩
      · simp only [crunchState.patterns, if_neg hacc] at hk
        rw [(hinv.fresh hacc).1] at hk
        omega
  refine ⟨part1, ?_⟩
  intro hc hps
  obtain ⟨A, s, hA, hrun, -, hnc1, hnc2⟩ := makeweights_noComp adef U model dataVector rdta
    alias0 aliaswgt0 aliasModel0 aliasSuperModel0 hc hps hw hdv
  obtain ⟨hsum, -⟩ := part1 _ hrun
  refine ⟨_, hrun, ?_, hnc2, ?_⟩
  · have h1 : ∑ k in Finset.range s.patterns, s.aliaswgt k = (s.patterns : Int) := by
      rw [Finset.sum_congr rfl (fun k hk => hnc2 k (Finset.mem_range.1 hk))]
      simp
    have h2 : (s.patterns : Int) = _ := h1.symm.trans hsum
    exact_mod_cast h2
  · show (List.range s.patterns).map s.alias_ = _
    rw [hnc1]
    have hf : (List.range' 1 rdta.sites).filter
        (fun j => decide (allGap U dataVector rdta (A j) = false)) =
        (List.range' 1 rdta.sites).filter
          (fun s : Nat => decide (allGap U dataVector rdta (s : Int) = false)) := by
      apply List.filter_congr
      intro x hx
      rw [List.mem_range'_1] at hx
      rw [hA x hx.1 (by omega)]
    rw [hf]
    apply List.map_congr_left
    intro x hx
    have hx' := (List.mem_filter.1 hx).1
    rw [List.mem_range'_1] at hx'
    exact hA x hx'.1 (by omega)

/-- Witness for C28: two sites of four taxa in two partitions, the second
site entirely undetermined, with pattern compression. -/
theorem weight_conservation_witness :
    (∀ cdta, makeweights ⟨true, true, false⟩ (fun _ => 15) exLabels (fun _ => 1)
        (exAlignment [2]) (fun _ => 0) (fun _ => 0) (fun _ => 0) (fun _ => 0) = .ok cdta →
      ∑ k in Finset.range cdta.endsite, cdta.aliaswgt k =
        (((Finset.Icc 1 (exAlignment [2]).sites).filter
          (fun s : Nat => allGap (fun _ => 15) (fun _ => 1) (exAlignment [2]) (s : Int) =
            false)).card : Int) ∧
      ∀ k, k < cdta.endsite → 1 ≤ cdta.aliaswgt k ∧
        ∃ s : Nat, 1 ≤ s ∧ s ≤ (exAlignment [2]).sites ∧ cdta.alias_ k = (s : Int) ∧
          allGap (fun _ => 15) (fun _ => 1) (exAlignment [2]) (s : Int) = false) ∧
    ∃ cdta, makeweights ⟨true, true, false⟩ (fun _ => 15) exLabels (fun _ => 1)
      (exAlignment [2]) (fun _ => 0) (fun _ => 0) (fun _ => 0) (fun _ => 0) = .ok cdta :=
  ⟨(weight_conservation ⟨true, true, false⟩ (fun _ => 15) exLabels (fun _ => 1)
      (exAlignment [2]) (fun _ => 0) (fun _ => 0) (fun _ => 0) (fun _ => 0)
      (fun _ _ _ => rfl) (fun _ _ _ _ _ _ _ => rfl)
      (fun _ s _ _ => by unfold exLabels; split_ifs <;> decide)).1,
    ⟨_, by rfl⟩⟩

/-! ### `makevalues` -/

theorem runIndex_mono (L : Nat → Int) : ∀ i j, i ≤ j → runIndex L i ≤ runIndex L j := by
  intro i j hij
  induction j with
  | zero =>
    have : i = 0 := by omega
    rw [this]
  | succ j ih =>
    by_cases h : i = j + 1
    · rw [h]
    · have h1 := ih (by omega)
      simp only [runIndex]
      split_ifs <;> omega

theorem runIndex_le (L : Nat → Int) : ∀ i, runIndex L i ≤ i := by
  intro i
  induction i with
  | zero => simp [runIndex]
  | succ i ih =>
    simp only [runIndex]
    split_ifs <;> omega

/-- A plain loop with an invariant. -/
theorem forLoopFrom_inv {σ : Type} (P : Nat → σ → Prop) (lo hi : Nat) (body : Nat → σ → σ)
    (s : σ) (hle : lo ≤ hi) (h0 : P lo s)
    (hstep : ∀ i s, lo ≤ i → i < hi → P i s → P (i + 1) (body i s)) :
    P hi (forLoopFrom lo hi body s) := by
  obtain ⟨k, rfl⟩ : ∃ k, hi = lo + k := ⟨hi - lo, by omega⟩
  clear hle
  induction k with
  | zero => rw [Nat.add_zero, forLoopFrom_self]; exact h0
  | succ k ih =>
    rw [forLoopFrom_succ]
    exact hstep (lo + k) _ (by omega) (by omega)
      (ih (fun i s h1 h2 hp => hstep i s h1 (by omega) hp))

theorem boundsInv_step (L : Nat → Int) (pd0 : Nat → pRange) (m : Nat) (b : boundsState)
    (hm : 1 ≤ m) (h : BoundsInv L pd0 m b) :
    BoundsInv L pd0 (m + 1) (boundsStep L m b) := by
  unfold boundsStep
  obtain ⟨k, rfl⟩ : ∃ k, m = k + 1 := ⟨m - 1, by omega⟩
  obtain ⟨h1, h2, h3, h4, h5⟩ := h
  simp only [Nat.add_sub_cancel] at h1 h2 h3 h4 h5 ⊢
  by_cases hne : L (k + 1) ≠ b.model
  · rw [if_pos hne]
    have hrun : runIndex L (k + 1) = b.modelCounter + 1 := by
      rw [h1] at hne
      simp only [runIndex, if_pos hne, h2]
    refine ⟨rfl, hrun.symm, ?_, ?_, ?_⟩
    · intro r hr
      have hr' : r ≤ b.modelCounter + 1 := hr
      show runIndex L ((store (store b.partitionData b.modelCounter _) (b.modelCounter + 1) _)
        r).lower = r ∧ _
      by_cases hr1 : r = b.modelCounter + 1
      · simp only [store_apply, if_pos hr1]
        refine ⟨by rw [hrun, hr1], le_refl _, ?_⟩
        intro i hi
        have := runIndex_mono L i k (by omega)
        omega
      · by_cases hr2 : r = b.modelCounter
        · simp only [store_apply, if_neg hr1, if_pos hr2]
          obtain ⟨a1, a2, a3⟩ := h3 b.modelCounter (le_refl _)
          rw [hr2]
          exact ⟨a1, by omega, a3⟩
        · simp only [store_apply, if_neg hr1, if_neg hr2]
          obtain ⟨a1, a2, a3⟩ := h3 r (by omega)
          exact ⟨a1, by omega, a3⟩
    · intro r hr
      have hr' : r < b.modelCounter + 1 := hr
      show ((store (store b.partitionData b.modelCounter _) (b.modelCounter + 1) _) r).upper =
        ((store (store b.partitionData b.modelCounter _) (b.modelCounter + 1) _) (r + 1)).lower
      by_cases hr2 : r = b.modelCounter
      · simp only [store_apply, hr2, if_neg (Nat.ne_of_lt (Nat.lt_succ_self _)), if_true]
      · have hr3 : r + 1 ≠ b.modelCounter + 1 := by omega
        have hr4 : r ≠ b.modelCounter + 1 := by omega
        simp only [store_apply, if_neg hr2, if_neg hr3, if_neg hr4]
        by_cases hr5 : r + 1 = b.modelCounter
        · simp only [if_pos hr5]
          rw [← hr5]
          exact h4 r (by omega)
        · simp only [if_neg hr5]
          exact h4 r (by omega)
    · intro r hr
      have hr' : b.modelCounter + 1 < r := hr
      show (store (store b.partitionData b.modelCounter _) (b.modelCounter + 1) _) r = pd0 r
      rw [store_apply, if_neg (by omega), store_apply, if_neg (by omega)]
      exact h5 r (by omega)
  · rw [if_neg hne]
    have heq : L (k + 1) = L k := by
      rw [h1] at hne
      simpa using hne
    have hrun : runIndex L (k + 1) = b.modelCounter := by
      simp only [runIndex, heq, ne_eq, not_true_eq_false, if_false, h2]
    refine ⟨by show b.model = L (k + 1); rw [h1, heq], hrun.symm, ?_, h4, h5⟩
    intro r hr
    obtain ⟨a1, a2, a3⟩ := h3 r hr
    exact ⟨a1, by omega, a3⟩

theorem relabelInv_step (L : Nat → Int) (m : Nat) (r : relabelState) (hm : 1 ≤ m)
    (h : RelabelInv L m r) :
    RelabelInv L (m + 1) (relabelStep m r) := by
  unfold relabelStep
  obtain ⟨k, rfl⟩ : ∃ k, m = k + 1 := ⟨m - 1, by omega⟩
  obtain ⟨h1, h2, h3, h4⟩ := h
  simp only [Nat.add_sub_cancel] at h1 h2
  have hread : r.trModel (k + 1) = L (k + 1) := h4 (k + 1) (le_refl _)
  rw [hread, h1]
  by_cases hne : L (k + 1) ≠ L k
  · rw [if_pos hne]
    have hrun : runIndex L (k + 1) = r.modelCounter + 1 := by
      simp only [runIndex, if_pos hne, h2]
    refine ⟨rfl, hrun.symm, ?_, ?_⟩
    · intro i hi
      show store r.trModel (k + 1) _ i = _
      rw [store_apply]
      by_cases hik : i = k + 1
      · rw [if_pos hik, hik, hrun]
      · rw [if_neg hik]
        exact h3 i (by omega)
    · intro i hi
      show store r.trModel (k + 1) _ i = _
      rw [store_apply, if_neg (by omega)]
      exact h4 i (by omega)
  · rw [if_neg hne]
    have heq : L (k + 1) = L k := by simpa using hne
    have hrun : runIndex L (k + 1) = r.modelCounter := by
      simp only [runIndex, heq, ne_eq, not_true_eq_false, if_false, h2]
    refine ⟨by show L k = L (k + 1); rw [heq], hrun.symm, ?_, ?_⟩
    · intro i hi
      show store r.trModel (k + 1) _ i = _
      rw [store_apply]
      by_cases hik : i = k + 1
      · rw [if_pos hik, hik, hrun]
      · rw [if_neg hik]
        exact h3 i (by omega)
    · intro i hi
      show store r.trModel (k + 1) _ i = _
      rw [store_apply, if_neg (by omega)]
      exact h4 i (by omega)

theorem widthLoop_apply (N : Nat) (pd : Nat → pRange) (r : Nat) :
    forLoop N (fun i pd => store pd i (setWidth (pd i))) pd r =
      if r < N then setWidth (pd r) else pd r := by
  induction N with
  | zero => simp [forLoop_zero]
  | succ N ih =>
    rw [forLoop_succ, store_apply]
    by_cases hr : r = N
    · subst hr
      rw [if_pos rfl, if_pos (by omega), ih, if_neg (by omega)]
    · rw [if_neg hr, ih]
      by_cases hr2 : r < N
      · rw [if_pos hr2, if_pos (by omega)]
      · rw [if_neg hr2, if_neg (by omega)]

/-- The two loops of `makevalues` over the patterns, by their invariants. -/
theorem makevalues_loops (cdta : crunched) (pd : Nat → pRange) (hE : 1 ≤ cdta.endsite) :
    BoundsInv cdta.model (store pd 0 { pd 0 with lower := 0 }) cdta.endsite
      (forLoopFrom 1 cdta.endsite (boundsStep cdta.model)
        { partitionData := store pd 0 { pd 0 with lower := 0 }, model := cdta.model 0,
          modelCounter := 0 }) ∧
    RelabelInv cdta.model cdta.endsite
      (forLoopFrom 1 cdta.endsite relabelStep
        { trModel := store cdta.model 0 0, model := cdta.model 0, modelCounter := 0 }) := by
  constructor
  · apply forLoopFrom_inv (BoundsInv cdta.model (store pd 0 { pd 0 with lower := 0 })) 1
      cdta.endsite _ _ hE
    · refine ⟨rfl, rfl, ?_, ?_, fun r _ => rfl⟩
      · intro r hr
        have hr' : r ≤ 0 := hr
        have hr0 : r = 0 := by omega
        subst hr0
        refine ⟨rfl, le_refl _, ?_⟩
        intro i hi
        have : i < 0 := hi
        omega
      · intro r hr
        have hr' : r < 0 := hr
        omega
    · intro i b h1 _ hP
      exact boundsInv_step cdta.model _ i b h1 hP
  · apply forLoopFrom_inv (RelabelInv cdta.model) 1 cdta.endsite _ _ hE
    · refine ⟨rfl, rfl, ?_, ?_⟩
      · intro i hi
        have hi0 : i = 0 := by omega
        subst hi0
        rfl
      · intro i hi
        show store cdta.model 0 0 i = _
        rw [store_apply, if_neg (by omega)]
    · intro i r h1 _ hP
      exact relabelInv_step cdta.model i r h1 hP

theorem store_upper_lower (f : Nat → pRange) (k e r : Nat) :
    (store f k { f k with upper := e } r).lower = (f r).lower := by
  rw [store_apply]
  by_cases h : r = k
  · rw [if_pos h, h]
  · rw [if_neg h]

theorem store_upper_upper (f : Nat → pRange) (k e r : Nat) :
    (store f k { f k with upper := e } r).upper = if r = k then e else (f r).upper := by
  rw [store_apply]
  by_cases h : r = k
  · rw [if_pos h, if_pos h]
  · rw [if_neg h, if_neg h]

theorem widthLoop_lower (N : Nat) (pd : Nat → pRange) (r : Nat) :
    (forLoop N (fun i pd => store pd i (setWidth (pd i))) pd r).lower = (pd r).lower := by
  rw [widthLoop_apply]
  by_cases h : r < N
  · rw [if_pos h]; rfl
  · rw [if_neg h]

theorem widthLoop_upper (N : Nat) (pd : Nat → pRange) (r : Nat) :
    (forLoop N (fun i pd => store pd i (setWidth (pd i))) pd r).upper = (pd r).upper := by
  rw [widthLoop_apply]
  by_cases h : r < N
  · rw [if_pos h]; rfl
  · rw [if_neg h]

theorem widthLoop_width (N : Nat) (pd : Nat → pRange) (r : Nat) (h : r < N) :
    (forLoop N (fun i pd => store pd i (setWidth (pd i))) pd r).width =
      ((pd r).upper + 18446744073709551616 - (pd r).lower) % 18446744073709551616 := by
  rw [widthLoop_apply, if_pos h]
  rfl

/-- With partitions, fewer runs of labels than partitions end `makevalues` in
`exit(-1)`. -/
theorem makevalues_exit (adef : analdef) (rdta : rawdata) (cdta : crunched) (N : Nat)
    (pd : Nat → pRange) (hu : adef.useMultipleModel = true) (hE : 1 ≤ cdta.endsite)
    (hR : runIndex cdta.model (cdta.endsite - 1) + 1 < N) :
    makevalues adef rdta cdta N pd = .error (.exit (-1)) := by
  obtain ⟨hB, -⟩ := makevalues_loops cdta pd hE
  unfold makevalues
  simp only [hu, Bool.not_true, Bool.false_eq_true, if_false, if_true]
  rw [if_pos]
  rw [hB.counter_eq]
  omega

/-- What `makevalues` computes with partitions when the labels have at least
`N` runs: pattern `i` is relabelled with the number of its run, the range of
run `r` starts at the first pattern of the run, the range of a run other
than `N - 1` ends where the next one starts, the range of `N - 1` ends at
`endsite`, and the first `N` widths are `upper - lower` in `size_t`. -/
theorem makevalues_spec (adef : analdef) (rdta : rawdata) (cdta : crunched) (N : Nat)
    (pd : Nat → pRange) (hu : adef.useMultipleModel = true) (hE : 1 ≤ cdta.endsite)
    (hR : N ≤ runIndex cdta.model (cdta.endsite - 1) + 1) :
    ∃ mv, makevalues adef rdta cdta N pd = .ok mv ∧ mv.NumberOfModels = N ∧
      (∀ i, i < cdta.endsite → mv.model i = (runIndex cdta.model i : Int)) ∧
      (∀ r, r ≤ runIndex cdta.model (cdta.endsite - 1) →
        runIndex cdta.model (mv.partitionData r).lower = r ∧
        (mv.partitionData r).lower ≤ cdta.endsite - 1 ∧
        ∀ i, i < (mv.partitionData r).lower → runIndex cdta.model i < r) ∧
      (∀ r, r < runIndex cdta.model (cdta.endsite - 1) → r ≠ N - 1 →
        (mv.partitionData r).upper = (mv.partitionData (r + 1)).lower) ∧
      (mv.partitionData (N - 1)).upper = cdta.endsite ∧
      (∀ r, r < N → (mv.partitionData r).width =
        ((mv.partitionData r).upper + 18446744073709551616 - (mv.partitionData r).lower) %
          18446744073709551616) := by
  obtain ⟨hB, hRel⟩ := makevalues_loops cdta pd hE
  unfold makevalues
  simp only [hu, Bool.not_true, Bool.false_eq_true, if_false, if_true]
  generalize forLoopFrom 1 cdta.endsite (boundsStep cdta.model)
    { partitionData := store pd 0 { pd 0 with lower := 0 }, model := cdta.model 0,
      modelCounter := 0 } = b at hB ⊢
  generalize forLoopFrom 1 cdta.endsite relabelStep
    { trModel := store cdta.model 0 0, model := cdta.model 0, modelCounter := 0 } = rl
    at hRel ⊢
  have hcount := hB.counter_eq
  rw [if_neg (by rw [hcount]; omega)]
  refine ⟨_, rfl, rfl, ?_, ?_, ?_, ?_, ?_⟩
  · intro i hi
    exact hRel.done i hi
  · intro r hr
    simp only [widthLoop_lower, store_upper_lower]
    exact hB.lower_spec r (by rw [hcount]; exact hr)
  · intro r hr hne
    simp only [widthLoop_lower, widthLoop_upper, store_upper_lower, store_upper_upper,
      if_neg hne]
    exact hB.upper_spec r (by rw [hcount]; exact hr)
  · simp only [widthLoop_upper, store_upper_upper, if_true]
  · intro r hr
    simp only [widthLoop_lower, widthLoop_upper, widthLoop_width _ _ _ hr]

/-! ### Partitions of sites that are not contiguous -/

/-- The example partition file is accepted without pattern compression. -/
theorem exPartitionFile_accepted (garbage : Nat → partitionModel) (model0 : Int → Int) :
    ∃ pp, parsePartitions
        ["JTT".toList, "WAG".toList, "LG".toList, "AUTO".toList, "LG4M".toList,
          "LG4X".toList] 3 4 5 0 0 .M_GTRGAMMA false 6 exPartitionFile garbage model0 =
        .ok pp ∧
      pp.NumberOfModels = 2 ∧
      pp.model 1 = 0 ∧ pp.model 2 = 0 ∧ pp.model 3 = 1 ∧ pp.model 4 = 1 ∧ pp.model 5 = 0 ∧
      pp.model 6 = 0 :=
  ⟨_, by rfl, by rfl, by rfl, by rfl, by rfl, by rfl, by rfl, by rfl⟩

/-- Without compression the six sites of the example are six patterns with
the labels of the sites. -/
theorem exSixSites_crunched (model : Int → Int)
    (alias0 aliaswgt0 aliasModel0 aliasSuperModel0 : Nat → Int) :
    ∃ cdta, makeweights ⟨true, false, false⟩ (fun _ => 15) model (fun _ => 1) exSixSites
        alias0 aliaswgt0 aliasModel0 aliasSuperModel0 = .ok cdta ∧
      cdta.endsite = 6 ∧ ∀ k, k < 6 → cdta.model k = model ((k + 1 : Nat) : Int) := by
  obtain ⟨A, s, hA, hrun, hinv, hnc1, hnc2⟩ := makeweights_noComp ⟨true, false, false⟩
    (fun _ => 15) model (fun _ => 1) exSixSites alias0 aliaswgt0 aliasModel0 aliasSuperModel0
    rfl rfl (fun _ _ _ => rfl) (fun _ _ _ _ _ _ _ => rfl)
  have hgap : ∀ x : Int, allGap (fun _ => 15) (fun _ => 1) exSixSites x = false :=
    fun _ => rfl
  have hlist : (List.range s.patterns).map s.alias_ = [1, 2, 3, 4, 5, 6] := by
    rw [hnc1]
    simp only [hgap, decide_True, List.filter_true]
    have h1 := hA 1 (by decide) (by decide)
    have h2 := hA 2 (by decide) (by decide)
    have h3 := hA 3 (by decide) (by decide)
    have h4 := hA 4 (by decide) (by decide)
    have h5 := hA 5 (by decide) (by decide)
    have h6 := hA 6 (by decide) (by decide)
    show List.map A [1, 2, 3, 4, 5, 6] = _
    simp only [List.map, h1, h2, h3, h4, h5, h6]
    rfl
  have hpat : s.patterns = 6 := by
    have := congrArg List.length hlist
    simpa using this
  rw [hpat] at hlist
  have hacc : s.aliaswgt s.i > 0 := by
    by_contra hc
    have h0 := (hinv.fresh hc).1
    rw [crunchState.patterns, if_neg hc, h0] at hpat
    omega
  have hi : s.i = 5 := by
    rw [crunchState.patterns, if_pos hacc] at hpat
    omega
  refine ⟨_, hrun, hpat, ?_⟩
  intro k hk
  have hlab := (hinv.labels rfl hacc k (by omega)).1
  have hal : s.alias_ k = ((k + 1 : Nat) : Int) := by
    simp only [List.range_succ, List.range_zero, List.nil_append, List.map_append, List.map_cons,
      List.map_nil, List.cons_append, List.cons.injEq, and_true] at hlist
    obtain ⟨a0, a1, a2, a3, a4, a5⟩ := hlist
    interval_cases k
    · rw [a0]; rfl
    · rw [a1]; rfl
    · rw [a2]; rfl
    · rw [a3]; rfl
    · rw [a4]; rfl
    · rw [a5]; rfl
  show (if (true = true) ∧ k ≤ exSixSites.sites then s.aliasModel k else model (k : Int)) = _
  rw [if_pos ⟨rfl, by show k ≤ 6; omega⟩, hlab, hal]

/-- C21 (code defect). With pattern compression disabled `parsePartitions`
accepts the partition file `DNA, p1 = 1-2, 5-6` / `DNA, p2 = 3-4`, which
gives the same partition sites that are not contiguous: only the syntax with
a backslash is refused. The labels of the six sites are 0, 0, 1, 1, 0, 0;
`sitesort` leaves them in this order, and `makevalues` finds three runs for
two partitions: it writes `partitionData[2].lower = 4` past the two elements
of the array and gives partition 1 the range from 2 to 6, which holds the
sites 5 and 6 of partition 0. -/
theorem noncontiguous_ranges_accepted (garbage : Nat → partitionModel) (model0 : Int → Int)
    (alias0 aliaswgt0 aliasModel0 aliasSuperModel0 : Nat → Int)
    (partitionData : Nat → pRange) :
    ∃ pp cdta mv,
      parsePartitions
          ["JTT".toList, "WAG".toList, "LG".toList, "AUTO".toList, "LG4M".toList,
            "LG4X".toList] 3 4 5 0 0 .M_GTRGAMMA false 6 exPartitionFile garbage model0 =
        .ok pp ∧
      pp.NumberOfModels = 2 ∧
      [pp.model 1, pp.model 2, pp.model 3, pp.model 4, pp.model 5, pp.model 6] =
        [0, 0, 1, 1, 0, 0] ∧
      makeweights ⟨true, false, false⟩ (fun _ => 15) pp.model (fun _ => 1) exSixSites
          alias0 aliaswgt0 aliasModel0 aliasSuperModel0 = .ok cdta ∧
      cdta.endsite = 6 ∧
      makevalues ⟨true, false, false⟩ exSixSites cdta pp.NumberOfModels partitionData =
        .ok mv ∧
      (mv.partitionData 2).lower = 4 ∧
      (mv.partitionData 1).lower = 2 ∧ (mv.partitionData 1).upper = 6 ∧
      [mv.model 0, mv.model 1, mv.model 2, mv.model 3, mv.model 4, mv.model 5] =
        [0, 0, 1, 1, 2, 2] := by
  obtain ⟨pp, hpp, hN, m1, m2, m3, m4, m5, m6⟩ := exPartitionFile_accepted garbage model0
  obtain ⟨cdta, hcd, hE, hmod⟩ := exSixSites_crunched pp.model alias0 aliaswgt0 aliasModel0
    aliasSuperModel0
  have l0 : cdta.model 0 = 0 := by rw [hmod 0 (by decide)]; exact m1
  have l1 : cdta.model 1 = 0 := by rw [hmod 1 (by decide)]; exact m2
  have l2 : cdta.model 2 = 1 := by rw [hmod 2 (by decide)]; exact m3
  have l3 : cdta.model 3 = 1 := by rw [hmod 3 (by decide)]; exact m4
  have l4 : cdta.model 4 = 0 := by rw [hmod 4 (by decide)]; exact m5
  have l5 : cdta.model 5 = 0 := by rw [hmod 5 (by decide)]; exact m6
  have r0 : runIndex cdta.model 0 = 0 := rfl
  have r1 : runIndex cdta.model 1 = 0 := by simp [runIndex, l0, l1]
  have r2 : runIndex cdta.model 2 = 1 := by simp [runIndex, l0, l1, l2]
  have r3 : runIndex cdta.model 3 = 1 := by simp [runIndex, l0, l1, l2, l3]
  have r4 : runIndex cdta.model 4 = 2 := by simp [runIndex, l0, l1, l2, l3, l4]
  have r5 : runIndex cdta.model 5 = 2 := by simp [runIndex, l0, l1, l2, l3, l4, l5]
  obtain ⟨mv, hmv, -, hrel, hlow, -, hup, -⟩ := makevalues_spec ⟨true, false, false⟩
    exSixSites cdta 2 partitionData rfl (by rw [hE]; decide) (by rw [hE]; show 2 ≤ _; rw [r5]; decide)
  rw [hE] at hrel hlow hup
  simp only [Nat.add_one_sub_one, r5] at hlow
  refine ⟨pp, cdta, mv, hpp, hN, by rw [m1, m2, m3, m4, m5, m6], hcd, hE, by rw [hN]; exact hmv,
    ?_, ?_, hup, ?_⟩
  · obtain ⟨a1, a2, a3⟩ := hlow 2 (le_refl _)
    generalize (mv.partitionData 2).lower = l at a1 a2 a3
    have hl : l ≤ 5 := a2
    interval_cases l
    · rw [r0] at a1; omega
    · rw [r1] at a1; omega
    · rw [r2] at a1; omega
    · rw [r3] at a1; omega
    · rfl
    · have := a3 4 (by decide); rw [r4] at this; omega
  · obtain ⟨a1, a2, a3⟩ := hlow 1 (by decide)
    generalize (mv.partitionData 1).lower = l at a1 a2 a3
    have hl : l ≤ 5 := a2
    interval_cases l
    · rw [r0] at a1; omega
    · rw [r1] at a1; omega
    · rfl
    · have := a3 2 (by decide); rw [r2] at this; omega
    · rw [r4] at a1; omega
    · rw [r5] at a1; omega
  · rw [hrel 0 (by decide), hrel 1 (by decide), hrel 2 (by decide), hrel 3 (by decide),
      hrel 4 (by decide), hrel 5 (by decide), r0, r1, r2, r3, r4, r5]
    rfl

/-! ### Compression of a sorted alignment -/

theorem sortedInv_init (key : Int → List Int) (G : Int → Bool)
    (A aliaswgt aliasModel0 aliasSuperModel0 : Nat → Int) :
    SortedInv key G A 0
      { i := 0, alias_ := store A 0 (A 1), aliaswgt := store aliaswgt 0 0,
        aliasModel := aliasModel0, aliasSuperModel := aliasSuperModel0,
        undeterminedSites := 0 } := by
  refine ⟨fun h => by omega, ?_, ?_, ?_⟩
  · intro k k' h1 h2
    have h2' : k' ≤ 0 := h2
    omega
  · intro h
    exact absurd h (lt_irrefl (0 : Int))
  · intro j h1 h2
    omega

/-- Every pattern stands for a site read, so that by the order of `A` its key
is not above the key of the next site. -/
theorem pattern_key_le {umm : Bool} {model dataVector : Int → Int} {G : Int → Bool}
    {A : Nat → Int} {m : Nat} {s : crunchState} (key : Int → List Int) (n : Nat)
    (h : CrunchInv umm model dataVector G A m s) (hacc : s.aliaswgt s.i > 0)
    (hsorted : SortedByKey key n A) (hn : m + 1 ≤ n) (k : Nat) (hk : k ≤ s.i) :
    key (s.alias_ k) ≤ key (A (m + 1)) := by
  obtain ⟨_, j, hj1, hj2, hj3, _⟩ := h.pat hacc k hk
  rw [hj3]
  exact hsorted j (m + 1) hj1 (by omega) hn

theorem sortedInv_skip {umm : Bool} {model dataVector : Int → Int} {G : Int → Bool}
    {A : Nat → Int} {m : Nat} {s : crunchState} (key : Int → List Int) (n : Nat)
    (h : CrunchInv umm model dataVector G A m s) (hs : SortedInv key G A m s)
    (hn : m + 1 ≤ n) (hg : G (A (m + 1)) = true)
    (hnt : key (s.alias_ s.i) ≠ key (A (m + 1)))
    (hGk : ∀ j1 j2, 1 ≤ j1 → j1 ≤ n → 1 ≤ j2 → j2 ≤ n → key (A j1) = key (A j2) →
      G (A j1) = G (A j2)) :
    SortedInv key G A (m + 1) { s with undeterminedSites := s.undeterminedSites + 1 } := by
  have hacc : s.aliaswgt s.i > 0 := by
    by_contra hc
    obtain ⟨hi0, _, ha0, _⟩ := h.fresh hc
    have hm0 : m = 0 := by
      by_contra hm
      exact hc (hs.acc (by omega))
    subst hm0
    apply hnt
    rw [hi0, ha0]
  refine ⟨fun _ => hacc, hs.incr, ?_, ?_⟩
  · intro _ k hk
    show s.aliaswgt k = _
    rw [hs.count hacc k hk, countNonGap_succ, if_neg, Nat.add_zero]
    intro heq
    obtain ⟨_, j, hj1, hj2, hj3, hj4⟩ := h.pat hacc k hk
    rw [hj3] at heq
    have := hGk (m + 1) j (by omega) hn hj1 (by omega) heq
    rw [hg, hj4] at this
    exact absurd this (by decide)
  · intro j hj1 hj2 hgj
    by_cases hj : j = m + 1
    · rw [hj, hg] at hgj
      exact absurd hgj (by decide)
    · exact hs.cover j hj1 (by omega) hgj

theorem sortedInv_tied {adef : analdef} {model dataVector : Int → Int} {G : Int → Bool}
    {A : Nat → Int} {m : Nat} {s : crunchState} (key : Int → List Int) (rdta : rawdata)
    (h : CrunchInv adef.useMultipleModel model dataVector G A m s)
    (hs : SortedInv key G A m s) (hw : rdta.wgt (A (m + 1)) = 1)
    (ht : key (s.alias_ s.i) = key (A (m + 1))) :
    SortedInv key G A (m + 1) (crunchTied adef model dataVector rdta (m + 1) s) := by
  have hj : s.alias_ (m + 1) = A (m + 1) := h.frame (m + 1) (by omega)
  have hwt : (crunchTied adef model dataVector rdta (m + 1) s).aliaswgt =
      store s.aliaswgt s.i (s.aliaswgt s.i + 1) := by
    simp only [crunchTied, hj, hw]
  have hal : (crunchTied adef model dataVector rdta (m + 1) s).alias_ = s.alias_ := rfl
  have hi : (crunchTied adef model dataVector rdta (m + 1) s).i = s.i := rfl
  by_cases hacc : s.aliaswgt s.i > 0
  · refine ⟨?_, ?_, ?_, ?_⟩
    · intro _
      rw [hwt, hi, store_apply, if_pos rfl]
      omega
    · rw [hal, hi]
      exact hs.incr
    · intro _ k hk
      rw [hi] at hk
      rw [hwt, hal, store_apply, countNonGap_succ]
      by_cases hke : k = s.i
      · rw [if_pos hke, hke, if_pos ht.symm]
        push_cast
        rw [← hs.count hacc s.i (le_refl _)]
      · rw [if_neg hke, if_neg, Nat.add_zero]
        · exact hs.count hacc k hk
        · intro heq
          have := hs.incr k s.i (by omega) (le_refl _)
          rw [← heq, ht] at this
          exact lt_irrefl _ this
    · intro j hj1 hj2 hgj
      rw [hal, hi]
      by_cases hje : j = m + 1
      · exact ⟨s.i, le_refl _, by rw [hje]; exact ht⟩
      · exact hs.cover j hj1 (by omega) hgj
  · obtain ⟨hi0, hw0, ha0, _⟩ := h.fresh hacc
    have hm0 : m = 0 := by
      by_contra hm
      exact hacc (hs.acc (by omega))
    subst hm0
    refine ⟨?_, ?_, ?_, ?_⟩
    · intro _
      rw [hwt, hi, store_apply, if_pos rfl, hi0, hw0]
      decide
    · intro k k' h1 h2
      rw [hi, hi0] at h2
      omega
    · intro _ k hk
      rw [hi, hi0] at hk
      have hk0 : k = 0 := by omega
      rw [hwt, hal, hk0, hi0, store_apply, if_pos rfl, hw0, countNonGap_succ, ha0, if_pos rfl]
      simp
    · intro j hj1 hj2 hgj
      have hje : j = 1 := by omega
      rw [hal, hi]
      exact ⟨0, by omega, by rw [ha0, hje]⟩

theorem sortedInv_new {adef : analdef} {model dataVector : Int → Int} {G : Int → Bool}
    {A : Nat → Int} {m : Nat} {s : crunchState} (key : Int → List Int) (rdta : rawdata)
    (n : Nat) (h : CrunchInv adef.useMultipleModel model dataVector G A m s)
    (hs : SortedInv key G A m s) (hn : m + 1 ≤ n) (hg : G (A (m + 1)) = false)
    (hw : rdta.wgt (A (m + 1)) = 1) (hnt : key (s.alias_ s.i) ≠ key (A (m + 1)))
    (hsorted : SortedByKey key n A)
    (hGk : ∀ j1 j2, 1 ≤ j1 → j1 ≤ n → 1 ≤ j2 → j2 ≤ n → key (A j1) = key (A j2) →
      G (A j1) = G (A j2)) :
    SortedInv key G A (m + 1) (crunchNew adef model dataVector rdta (m + 1) s) := by
  have hj : s.alias_ (m + 1) = A (m + 1) := h.frame (m + 1) (by omega)
  have hacc : s.aliaswgt s.i > 0 := by
    by_contra hc
    obtain ⟨hi0, _, ha0, _⟩ := h.fresh hc
    have hm0 : m = 0 := by
      by_contra hm
      exact hc (hs.acc (by omega))
    subst hm0
    apply hnt
    rw [hi0, ha0]
  have hwt : (crunchNew adef model dataVector rdta (m + 1) s).aliaswgt =
      store s.aliaswgt (s.i + 1) 1 := by
    simp only [crunchNew, if_pos hacc, hj, hw]
  have hal : (crunchNew adef model dataVector rdta (m + 1) s).alias_ =
      store s.alias_ (s.i + 1) (A (m + 1)) := by
    simp only [crunchNew, if_pos hacc, hj]
  have hi : (crunchNew adef model dataVector rdta (m + 1) s).i = s.i + 1 := by
    simp only [crunchNew, if_pos hacc]
  have hlt : ∀ k, k ≤ s.i → key (s.alias_ k) < key (A (m + 1)) := by
    intro k hk
    have hle := pattern_key_le key n h hacc hsorted hn s.i (le_refl _)
    have hlast : key (s.alias_ s.i) < key (A (m + 1)) := lt_of_le_of_ne hle hnt
    by_cases hke : k = s.i
    · rw [hke]; exact hlast
    · exact lt_trans (hs.incr k s.i (by omega) (le_refl _)) hlast
  refine ⟨?_, ?_, ?_, ?_⟩
  · intro _
    rw [hwt, hi, store_apply, if_pos rfl]
    exact Int.one_pos
  · intro k k' h1 h2
    rw [hi] at h2
    rw [hal, store_apply, if_neg (by omega), store_apply]
    by_cases hk' : k' = s.i + 1
    · rw [if_pos hk']
      exact hlt k (by omega)
    · rw [if_neg hk']
      exact hs.incr k k' h1 (by omega)
  · intro _ k hk
    rw [hi] at hk
    rw [hwt, hal, store_apply, store_apply, countNonGap_succ]
    by_cases hke : k = s.i + 1
    · rw [if_pos hke, if_pos hke, if_pos rfl]
      have hzero : ((Finset.Icc 1 m).filter (fun j => key (A j) = key (A (m + 1)))).card = 0 := by
        rw [Finset.card_eq_zero, Finset.filter_eq_empty_iff]
        intro j hjm heq
        rw [Finset.mem_Icc] at hjm
        have hgj : G (A j) = false := by
          rw [hGk j (m + 1) hjm.1 (by omega) (by omega) hn heq]
          exact hg
        obtain ⟨k0, hk0, hk0e⟩ := hs.cover j hjm.1 hjm.2 hgj
        have := hlt k0 hk0
        rw [hk0e, heq] at this
        exact lt_irrefl _ this
      rw [hzero]
      simp
    · rw [if_neg hke, if_neg hke, if_neg, Nat.add_zero]
      · exact hs.count hacc k (by omega)
      · intro heq
        have := hlt k (by omega)
        rw [heq] at this
        exact lt_irrefl _ this
  · intro j hj1 hj2 hgj
    rw [hal, hi]
    by_cases hje : j = m + 1
    · refine ⟨s.i + 1, le_refl _, ?_⟩
      rw [store_apply, if_pos rfl, hje]
    · obtain ⟨k, hk, hke⟩ := hs.cover j hj1 (by omega) hgj
      refine ⟨k, by omega, ?_⟩
      rw [store_apply, if_neg (by omega)]
      exact hke

/-- With pattern compression and a sorted index array the body of the loop of
`sitecombcrunch` keeps the invariant of the sorted case. -/
theorem crunchStep_sorted (adef : analdef) (U : Int → Nat) (model dataVector : Int → Int)
    (rdta : rawdata) (A : Nat → Int) (n m : Nat) (s s' : crunchState)
    (hc : adef.compressPatterns = true)
    (hyp : CrunchHyp adef model dataVector rdta A n) (hn : m + 1 ≤ n)
    (hsorted : SortedByKey (siteKey adef.useMultipleModel model rdta.y rdta.numsp) n A)
    (h : CrunchInv adef.useMultipleModel model dataVector (allGap U dataVector rdta) A m s)
    (hs : SortedInv (siteKey adef.useMultipleModel model rdta.y rdta.numsp)
      (allGap U dataVector rdta) A m s)
    (hrun : crunchStep adef U model dataVector rdta (m + 1) s = .ok s') :
    SortedInv (siteKey adef.useMultipleModel model rdta.y rdta.numsp)
      (allGap U dataVector rdta) A (m + 1) s' := by
  have hj : s.alias_ (m + 1) = A (m + 1) := h.frame (m + 1) (by omega)
  obtain ⟨j0, hj01, hj0n, hj0⟩ := h.current n hn
  have hw := hyp.wgt_one (m + 1) (by omega) hn
  have hGk : ∀ j1 j2, 1 ≤ j1 → j1 ≤ n → 1 ≤ j2 → j2 ≤ n →
      siteKey adef.useMultipleModel model rdta.y rdta.numsp (A j1) =
        siteKey adef.useMultipleModel model rdta.y rdta.numsp (A j2) →
      allGap U dataVector rdta (A j1) = allGap U dataVector rdta (A j2) :=
    fun j1 j2 h1 h2 h3 h4 hk => hyp.gap_congr U j1 j2 h1 h2 h3 h4 hk
  rw [crunchStep_eq adef U model dataVector rdta (m + 1) s (fun hu hm => by
    rw [hj0, hj] at hm ⊢
    exact hyp.dv j0 (m + 1) hj01 hj0n (by omega) hn (fun _ => hm))] at hrun
  rw [hj] at hrun
  by_cases ht : siteKey adef.useMultipleModel model rdta.y rdta.numsp (s.alias_ s.i) =
      siteKey adef.useMultipleModel model rdta.y rdta.numsp (A (m + 1))
  · rw [if_pos ⟨hc, ht⟩] at hrun
    by_cases hg : allGap U dataVector rdta (A (m + 1)) = true
    · rw [if_pos hg] at hrun
      cases hrun
    · rw [if_neg hg] at hrun
      injection hrun with hrun
      rw [← hrun]
      exact sortedInv_tied _ rdta h hs hw ht
  · rw [if_neg (fun hh => ht hh.2)] at hrun
    by_cases hg : allGap U dataVector rdta (A (m + 1)) = true
    · rw [if_pos hg] at hrun
      injection hrun with hrun
      rw [← hrun]
      exact sortedInv_skip _ n h hs hn hg ht hGk
    · rw [if_neg hg] at hrun
      have hg' : allGap U dataVector rdta (A (m + 1)) = false := by simpa using hg
      injection hrun with hrun
      rw [← hrun]
      exact sortedInv_new _ rdta n h hs hn hg' hw ht hsorted hGk

theorem crunchLoop_sorted (adef : analdef) (U : Int → Nat) (model dataVector : Int → Int)
    (rdta : rawdata) (A aliaswgt aliasModel0 aliasSuperModel0 : Nat → Int)
    (hc : adef.compressPatterns = true)
    (hyp : CrunchHyp adef model dataVector rdta A rdta.sites)
    (hsorted : SortedByKey (siteKey adef.useMultipleModel model rdta.y rdta.numsp)
      rdta.sites A)
    (s : crunchState)
    (hrun : forLoopFromE 1 (rdta.sites + 1) (crunchStep adef U model dataVector rdta)
      { i := 0, alias_ := store A 0 (A 1), aliaswgt := store aliaswgt 0 0,
        aliasModel := aliasModel0, aliasSuperModel := aliasSuperModel0,
        undeterminedSites := 0 } = .ok s) :
    SortedInv (siteKey adef.useMultipleModel model rdta.y rdta.numsp)
      (allGap U dataVector rdta) A rdta.sites s := by
  have := forLoopFromE_inv_of_ok
    (fun j s => CrunchInv adef.useMultipleModel model dataVector (allGap U dataVector rdta) A
        (j - 1) s ∧
      SortedInv (siteKey adef.useMultipleModel model rdta.y rdta.numsp)
        (allGap U dataVector rdta) A (j - 1) s)
    1 (rdta.sites + 1) (crunchStep adef U model dataVector rdta) _ (by omega)
    ⟨crunchInv_init _ model dataVector _ A aliaswgt aliasModel0 aliasSuperModel0,
      sortedInv_init _ _ A aliaswgt aliasModel0 aliasSuperModel0⟩
    (fun j s s' h1 h2 hP hb => by
      obtain ⟨m, rfl⟩ : ∃ m, j = m + 1 := ⟨j - 1, by omega⟩
      exact ⟨crunchStep_inv adef U model dataVector rdta A rdta.sites m s s' hyp (by omega)
          hP.1 hb,
        crunchStep_sorted adef U model dataVector rdta A rdta.sites m s s' hc hyp (by omega)
          hsorted hP.1 hP.2 hb⟩)
    s hrun
  simpa using this.2

theorem IsPermutation.count_eq {n : Nat} {index : Nat → Int} (hp : IsPermutation n index)
    (P : Int → Prop) [DecidablePred P] :
    ((Finset.Icc 1 n).filter (fun j => P (index j))).card =
      ((Finset.Icc 1 n).filter (fun s : Nat => P (s : Int))).card := by
  rw [Finset.card_filter, Finset.card_filter]
  exact hp.sum_eq (fun x => if P x then 1 else 0)

/-! ### Weights as multiplicities -/

/-- C29. Compressed weights are multiplicities: with pattern compression, for
an alignment whose sites have weight 1, whose sites of one partition share a
data type and, with partitions, all carry a label, `sitesort` returns and
leaves `alias[1 .. n]` a permutation of the sites ordered by the key
(partition label, then column) lexicographically; and whenever `makeweights`
returns, every weight `aliaswgt[k]`, `k < endsite`, is the number of sites
that have the key of site `alias[k]`, and the keys of two distinct pattern
slots differ. -/
theorem weights_are_multiplicities (adef : analdef) (U : Int → Nat)
    (model dataVector : Int → Int) (rdta : rawdata)
    (alias0 aliaswgt0 aliasModel0 aliasSuperModel0 : Nat → Int)
    (hc : adef.compressPatterns = true)
    (hw : ∀ s : Nat, 1 ≤ s → s ≤ rdta.sites → rdta.wgt s = 1)
    (hdv : ∀ s t : Nat, 1 ≤ s → s ≤ rdta.sites → 1 ≤ t → t ≤ rdta.sites →
      (adef.useMultipleModel = true → model s = model t) → dataVector s = dataVector t)
    (hlab : adef.useMultipleModel = true →
      ∀ s : Nat, 1 ≤ s → s ≤ rdta.sites → model s ≠ -1) :
    (∃ index, sitesort adef model rdta
        (forLoopFrom 1 (rdta.sites + 1) (fun i a => store a i (i : Int)) alias0) = .ok index ∧
      IsPermutation rdta.sites index ∧
      SortedByKey (siteKey adef.useMultipleModel model rdta.y rdta.numsp) rdta.sites index) ∧
    ∀ cdta, makeweights adef U model dataVector rdta alias0 aliaswgt0 aliasModel0
        aliasSuperModel0 = .ok cdta →
      (∀ k, k < cdta.endsite → cdta.aliaswgt k =
        (((Finset.Icc 1 rdta.sites).filter (fun s : Nat =>
          siteKey adef.useMultipleModel model rdta.y rdta.numsp (s : Int) =
            siteKey adef.useMultipleModel model rdta.y rdta.numsp (cdta.alias_ k))).card :
          Int)) ∧
      ∀ k k', k < cdta.endsite → k' < cdta.endsite → k ≠ k' →
        siteKey adef.useMultipleModel model rdta.y rdta.numsp (cdta.alias_ k) ≠
          siteKey adef.useMultipleModel model rdta.y rdta.numsp (cdta.alias_ k') := by
  constructor
  · have hp0 : IsPermutation rdta.sites
        (forLoopFrom 1 (rdta.sites + 1) (fun i a => store a i (i : Int)) alias0) :=
      (isPermutation_init rdta.sites alias0).frame (fun x h1 h2 => by
        rw [store_apply, if_neg (by omega)])
    obtain ⟨A, hsort, hperm, hsorted⟩ := sitesort_spec adef model rdta _ hlab hp0
    exact ⟨A, hsort, hperm, hsorted hc⟩
  · intro cdta hrun
    obtain ⟨A, s, -, hperm, hsorted, hloop, hinv, ha, hwt, he, -⟩ := makeweights_inv adef U
      model dataVector rdta alias0 aliaswgt0 aliasModel0 aliasSuperModel0 hw hdv hlab cdta hrun
    have hyp := crunchHyp_of_perm adef model dataVector rdta A hperm hw hdv
    have hs := crunchLoop_sorted adef U model dataVector rdta A aliaswgt0 aliasModel0
      aliasSuperModel0 hc hyp (hsorted hc) s hloop
    rw [ha, hwt, he]
    have hpat : ∀ k, k < s.patterns → s.aliaswgt s.i > 0 ∧ k ≤ s.i := by
      intro k hk
      by_cases hacc : s.aliaswgt s.i > 0
      · rw [crunchState.patterns, if_pos hacc] at hk
        exact ⟨hacc, by omega⟩
      · rw [crunchState.patterns, if_neg hacc, (hinv.fresh hacc).1] at hk
        omega
    constructor
    · intro k hk
      obtain ⟨hacc, hki⟩ := hpat k hk
      rw [hs.count hacc k hki]
      congr 1
      exact hperm.count_eq (fun y =>
        siteKey adef.useMultipleModel model rdta.y rdta.numsp y =
          siteKey adef.useMultipleModel model rdta.y rdta.numsp (s.alias_ k))
    · intro k k' hk hk' hne
      obtain ⟨-, hki⟩ := hpat k hk
      obtain ⟨-, hki'⟩ := hpat k' hk'
      rcases Nat.lt_or_gt_of_ne hne with hlt | hgt
      · exact ne_of_lt (hs.incr k k' hlt hki')
      · exact (ne_of_lt (hs.incr k' k hgt hki)).symm

/-- Witness for C29: two sites of four taxa in two partitions, the second
site entirely undetermined. -/
theorem weights_are_multiplicities_witness :
    (∃ index, sitesort ⟨true, true, false⟩ exLabels (exAlignment [2])
        (forLoopFrom 1 ((exAlignment [2]).sites + 1) (fun i a => store a i (i : Int))
          (fun _ => 0)) = .ok index ∧
      IsPermutation (exAlignment [2]).sites index ∧
      SortedByKey (siteKey true exLabels (exAlignment [2]).y (exAlignment [2]).numsp)
        (exAlignment [2]).sites index) ∧
    ∃ cdta, makeweights ⟨true, true, false⟩ (fun _ => 15) exLabels (fun _ => 1)
        (exAlignment [2]) (fun _ => 0) (fun _ => 0) (fun _ => 0) (fun _ => 0) = .ok cdta ∧
      (∀ k, k < cdta.endsite → cdta.aliaswgt k =
        (((Finset.Icc 1 (exAlignment [2]).sites).filter (fun s : Nat =>
          siteKey true exLabels (exAlignment [2]).y (exAlignment [2]).numsp (s : Int) =
            siteKey true exLabels (exAlignment [2]).y (exAlignment [2]).numsp
              (cdta.alias_ k))).card : Int)) :=
  have h := weights_are_multiplicities ⟨true, true, false⟩ (fun _ => 15) exLabels
    (fun _ => 1) (exAlignment [2]) (fun _ => 0) (fun _ => 0) (fun _ => 0) (fun _ => 0) rfl
    (fun _ _ _ => rfl) (fun _ _ _ _ _ _ _ => rfl)
    (fun _ s _ _ => by unfold exLabels; split_ifs <;> decide)
  ⟨h.1, _, by rfl, (h.2 _ (by rfl)).1⟩

/-! ### The layout of the partitions -/

theorem runIndex_le_label (L : Nat → Int) (e : Nat)
    (hmono : ∀ k k', k < k' → k' ≤ e → L k ≤ L k') :
    ∀ i, i ≤ e → (runIndex L i : Int) ≤ L i - L 0 := by
  intro i
  induction i with
  | zero => intro _; simp [runIndex]
  | succ i ih =>
    intro hi
    have h1 := ih (by omega)
    have h2 := hmono i (i + 1) (by omega) hi
    simp only [runIndex]
    by_cases hne : L (i + 1) ≠ L i
    · rw [if_pos hne]
      have : L i < L (i + 1) := lt_of_le_of_ne h2 (Ne.symm hne)
      push_cast
      omega
    · rw [if_neg hne]
      omega

theorem siteKey_head_le (umm : Bool) (model : Int → Int) (d : Nat → Int → Nat) (nsp : Nat)
    (x y : Int) (hu : umm = true)
    (h : siteKey umm model d nsp x < siteKey umm model d nsp y) : model x ≤ model y := by
  unfold siteKey at h
  rw [list_cons_lt_cons] at h
  simp only [hu, if_true] at h
  rcases h with h | ⟨h, _⟩
  · exact le_of_lt h
  · exact le_of_eq h

/-- With pattern compression and partitions, the labels of the patterns that
`makeweights` returns do not decrease and are labels of sites. -/
theorem makeweights_labels (adef : analdef) (U : Int → Nat) (model dataVector : Int → Int)
    (rdta : rawdata) (alias0 aliaswgt0 aliasModel0 aliasSuperModel0 : Nat → Int)
    (hc : adef.compressPatterns = true) (hu : adef.useMultipleModel = true)
    (hn : 1 ≤ rdta.sites)
    (hw : ∀ s : Nat, 1 ≤ s → s ≤ rdta.sites → rdta.wgt s = 1)
    (hdv : ∀ s t : Nat, 1 ≤ s → s ≤ rdta.sites → 1 ≤ t → t ≤ rdta.sites →
      (adef.useMultipleModel = true → model s = model t) → dataVector s = dataVector t)
    (hlab : adef.useMultipleModel = true →
      ∀ s : Nat, 1 ≤ s → s ≤ rdta.sites → model s ≠ -1)
    (cdta : crunched)
    (hrun : makeweights adef U model dataVector rdta alias0 aliaswgt0 aliasModel0
      aliasSuperModel0 = .ok cdta) :
    1 ≤ cdta.endsite ∧ cdta.endsite ≤ rdta.sites + 1 ∧
    (∀ k, k < cdta.endsite → ∃ y : Nat, 1 ≤ y ∧ y ≤ rdta.sites ∧ cdta.model k = model y) ∧
    (∀ k k', k < k' → k' < cdta.endsite → cdta.model k ≤ cdta.model k') := by
  obtain ⟨A, s, -, hperm, hsorted, hloop, hinv, ha, hwt, he, hmodel⟩ := makeweights_inv adef U
    model dataVector rdta alias0 aliaswgt0 aliasModel0 aliasSuperModel0 hw hdv hlab cdta hrun
  have hyp := crunchHyp_of_perm adef model dataVector rdta A hperm hw hdv
  have hs := crunchLoop_sorted adef U model dataVector rdta A aliaswgt0 aliasModel0
    aliasSuperModel0 hc hyp (hsorted hc) s hloop
  have hacc := hs.acc hn
  have hE : cdta.endsite = s.i + 1 := by rw [he, crunchState.patterns, if_pos hacc]
  have hile := hinv.i_le
  have hmod : ∀ k, k < cdta.endsite → cdta.model k = model (s.alias_ k) := by
    intro k hk
    rw [hmodel]
    simp only [hu, true_and]
    rw [if_pos (by omega)]
    exact (hinv.labels hu hacc k (by omega)).1
  refine ⟨by omega, by omega, ?_, ?_⟩
  · intro k hk
    obtain ⟨_, j, hj1, hj2, hj3, _⟩ := hinv.pat hacc k (by omega)
    obtain ⟨y, hy1, hy2, hy⟩ := hperm.range j hj1 hj2
    exact ⟨y, hy1, hy2, by rw [hmod k hk, hj3, hy]⟩
  · intro k k' hkk hk'
    rw [hmod k (by omega), hmod k' hk']
    exact siteKey_head_le _ model rdta.y rdta.numsp _ _ hu (hs.incr k k' hkk (by omega))

/-- C19. Partition layout: with pattern compression, `N` partitions whose
labels `0 .. N-1` are carried by the sites (all of weight 1, those of one
partition with one data type) and at least one site, whenever `makeweights`
and `makevalues` return, `partitionData[0].lower = 0`,
`partitionData[m].upper = partitionData[m+1].lower` for `m < N - 1`,
`partitionData[N-1].upper = endsite`, `lower < upper` and
`width = upper - lower` for every partition, and every pattern `i` with
`lower_m <= i < upper_m` carries the label `m`. -/
theorem partition_layout (adef : analdef) (U : Int → Nat) (model dataVector : Int → Int)
    (rdta : rawdata) (alias0 aliaswgt0 aliasModel0 aliasSuperModel0 : Nat → Int)
    (N : Nat) (pd : Nat → pRange) (cdta : crunched) (mv : madeValues)
    (hc : adef.compressPatterns = true) (hu : adef.useMultipleModel = true)
    (hn : 1 ≤ rdta.sites) (hint : rdta.sites < 2147483648)
    (hw : ∀ s : Nat, 1 ≤ s → s ≤ rdta.sites → rdta.wgt s = 1)
    (hdv : ∀ s t : Nat, 1 ≤ s → s ≤ rdta.sites → 1 ≤ t → t ≤ rdta.sites →
      (adef.useMultipleModel = true → model s = model t) → dataVector s = dataVector t)
    (hrange : ∀ s : Nat, 1 ≤ s → s ≤ rdta.sites → 0 ≤ model s ∧ model s < N)
    (hrun : makeweights adef U model dataVector rdta alias0 aliaswgt0 aliasModel0
      aliasSuperModel0 = .ok cdta)
    (hmv : makevalues adef rdta cdta N pd = .ok mv) :
    (mv.partitionData 0).lower = 0 ∧
    (∀ m, m + 1 < N → (mv.partitionData m).upper = (mv.partitionData (m + 1)).lower) ∧
    (mv.partitionData (N - 1)).upper = cdta.endsite ∧
    (∀ m, m < N → (mv.partitionData m).lower < (mv.partitionData m).upper ∧
      (mv.partitionData m).width = (mv.partitionData m).upper - (mv.partitionData m).lower) ∧
    (∀ m, m < N → ∀ i, (mv.partitionData m).lower ≤ i → i < (mv.partitionData m).upper →
      mv.model i = (m : Int)) := by
  obtain ⟨hE1, hE2, hsite, hmono⟩ := makeweights_labels adef U model dataVector rdta alias0
    aliaswgt0 aliasModel0 aliasSuperModel0 hc hu hn hw hdv
    (fun _ s h1 h2 => by
      have := (hrange s h1 h2).1
      omega) cdta hrun
  have hbound : (runIndex cdta.model (cdta.endsite - 1) : Int) ≤ (N : Int) - 1 := by
    have h1 := runIndex_le_label cdta.model (cdta.endsite - 1)
      (fun k k' h1 h2 => hmono k k' h1 (by omega)) (cdta.endsite - 1) (le_refl _)
    obtain ⟨y0, hy01, hy02, hy0⟩ := hsite 0 (by omega)
    obtain ⟨y1, hy11, hy12, hy1⟩ := hsite (cdta.endsite - 1) (by omega)
    have := (hrange y0 hy01 hy02).1
    have := (hrange y1 hy11 hy12).2
    omega
  have hR : runIndex cdta.model (cdta.endsite - 1) + 1 = N := by
    by_contra hne
    have hlt : runIndex cdta.model (cdta.endsite - 1) + 1 < N := by omega
    rw [makevalues_exit adef rdta cdta N pd hu hE1 hlt] at hmv
    cases hmv
  obtain ⟨mv', hmv', -, hrel, hlow, hupp, hlast, hwid⟩ := makevalues_spec adef rdta cdta N pd
    hu hE1 (by omega)
  rw [hmv] at hmv'
  injection hmv' with hmv'
  subst hmv'
  have hRN : runIndex cdta.model (cdta.endsite - 1) = N - 1 := by omega
  rw [hRN] at hlow hupp
  have hlt : ∀ m, m + 1 < N →
      (mv.partitionData m).lower < (mv.partitionData (m + 1)).lower := by
    intro m hm
    by_contra hge
    have h1 := runIndex_mono cdta.model _ _ (not_lt.1 hge)
    rw [(hlow m (by omega)).1, (hlow (m + 1) (by omega)).1] at h1
    omega
  have hupper : ∀ m, m < N → (mv.partitionData m).lower < (mv.partitionData m).upper ∧
      (mv.partitionData m).upper ≤ cdta.endsite := by
    intro m hm
    by_cases hml : m = N - 1
    · rw [hml, hlast]
      have := (hlow (N - 1) (le_refl _)).2.1
      omega
    · rw [hupp m (by omega) hml]
      have := (hlow (m + 1) (by omega)).2.1
      exact ⟨hlt m (by omega), by omega⟩
  refine ⟨?_, ?_, hlast, ?_, ?_⟩
  · obtain ⟨_, _, h3⟩ := hlow 0 (by omega)
    by_contra hne
    have := h3 0 (by omega)
    omega
  · intro m hm
    exact hupp m (by omega) (by omega)
  · intro m hm
    obtain ⟨h1, h2⟩ := hupper m hm
    refine ⟨h1, ?_⟩
    rw [hwid m hm]
    omega
  · intro m hm i hi1 hi2
    obtain ⟨h1, h2⟩ := hupper m hm
    rw [hrel i (by omega)]
    congr 1
    have hge : m ≤ runIndex cdta.model i := by
      have := runIndex_mono cdta.model _ _ hi1
      rw [(hlow m (by omega)).1] at this
      exact this
    have hle : runIndex cdta.model i ≤ m := by
      by_cases hml : m = N - 1
      · have := runIndex_mono cdta.model i (cdta.endsite - 1) (by omega)
        omega
      · rw [hupp m (by omega) hml] at hi2
        have := (hlow (m + 1) (by omega)).2.2 i hi2
        omega
    omega

/-- Witness for C19: two sites of four taxa, one in each of two partitions. -/
theorem partition_layout_witness :
    ∃ cdta mv,
      makeweights ⟨true, true, false⟩ (fun _ => 15) exLabels (fun _ => 1)
        (exAlignment []) (fun _ => 0) (fun _ => 0) (fun _ => 0) (fun _ => 0) = .ok cdta ∧
      makevalues ⟨true, true, false⟩ (exAlignment []) cdta 2 (fun _ => ⟨0, 0, 0⟩) = .ok mv ∧
      (mv.partitionData 0).lower = 0 ∧
      (∀ m, m + 1 < 2 → (mv.partitionData m).upper = (mv.partitionData (m + 1)).lower) ∧
      (mv.partitionData (2 - 1)).upper = cdta.endsite ∧
      (∀ m, m < 2 → (mv.partitionData m).lower < (mv.partitionData m).upper ∧
        (mv.partitionData m).width =
          (mv.partitionData m).upper - (mv.partitionData m).lower) ∧
      (∀ m, m < 2 → ∀ i, (mv.partitionData m).lower ≤ i → i < (mv.partitionData m).upper →
        mv.model i = (m : Int)) :=
  ⟨_, _, by rfl, by rfl,
    partition_layout ⟨true, true, false⟩ (fun _ => 15) exLabels (fun _ => 1)
      (exAlignment []) (fun _ => 0) (fun _ => 0) (fun _ => 0) (fun _ => 0) 2
      (fun _ => ⟨0, 0, 0⟩) _ _ rfl rfl (by decide) (by decide)
      (fun _ _ _ => rfl) (fun _ _ _ _ _ _ _ => rfl)
      (fun s _ _ => by unfold exLabels; split_ifs <;> decide) (by rfl) (by rfl)⟩

/-! ## The binary file: what the reader gets from what the parser wrote -/

theorem toBytes_length (n v : Nat) : (toBytes n v).length = n := by
  induction n generalizing v with
  | zero => rfl
  | succ n ih => simp [toBytes, ih]

theorem ofBytes_toBytes (n v : Nat) : ofBytes (toBytes n v) = v % 256 ^ n := by
  induction n generalizing v with
  | zero => simp [toBytes, ofBytes, Nat.mod_one]
  | succ n ih =>
    simp only [toBytes, ofBytes, ih, Nat.mod_mod]
    rw [pow_succ, mul_comm (256 ^ n) 256, Nat.mod_mul]

theorem toBytes_take (n m v : Nat) : (toBytes (n + m) v).take n = toBytes n v := by
  induction n generalizing v with
  | zero => simp [toBytes]
  | succ n ih =>
    rw [Nat.add_right_comm]
    simp only [toBytes, List.take_succ_cons, ih]

theorem intBytes_length (v : Int) : (intBytes v).length = 4 := toBytes_length _ _

theorem toInt_intBytes (v : Int) (h : IsInt v) : toInt (ofBytes (intBytes v)) = v := by
  obtain ⟨h1, h2⟩ := h
  unfold intBytes sizeof_int
  rw [ofBytes_toBytes]
  unfold toInt
  have e : (256 : Nat) ^ 4 = 4294967296 := by norm_num
  rw [e]
  have h3 : 0 ≤ v % 4294967296 := Int.emod_nonneg _ (by norm_num)
  have h4 : v % 4294967296 < 4294967296 := Int.emod_lt_of_pos _ (by norm_num)
  have h5 : (v % 4294967296).toNat % 4294967296 = (v % 4294967296).toNat := by
    apply Nat.mod_eq_of_lt
    omega
  rw [h5]
  split_ifs with hlt <;> omega

theorem ofBytes_intBytes_nat (n : Nat) (h : n < 4294967296) :
    ofBytes (intBytes (n : Int)) = n := by
  unfold intBytes sizeof_int
  rw [ofBytes_toBytes]
  have e : (256 : Nat) ^ 4 = 4294967296 := by norm_num
  rw [e]
  omega

theorem sizeT_natCast (n : Nat) (h : n < 18446744073709551616) : sizeT (n : Int) = n := by
  unfold sizeT
  omega

theorem sizeT_toNat (v : Int) (h0 : 0 ≤ v) (h : IsInt v) : sizeT v = v.toNat := by
  obtain ⟨h1, h2⟩ := h
  unfold sizeT
  omega

theorem READ_VAR_step (fh : List Nat) (pos size : Nat) (bs rest : List Nat)
    (h : fh.drop pos = bs ++ rest) (hl : bs.length = size) (hs : 0 < size) :
    READ_VAR fh pos size = .ok (ofBytes bs, pos + size) ∧ fh.drop (pos + size) = rest := by
  have hlen : (fh.drop pos).length = bs.length + rest.length := by rw [h, List.length_append]
  rw [List.length_drop] at hlen
  refine ⟨?_, ?_⟩
  · rw [READ_VAR_eq _ _ _ hs, if_pos (by omega), h, List.take_left' hl]
  · rw [← List.drop_drop, h, List.drop_left' hl]

theorem READ_ARRAY_step (fh : List Nat) (pos numElem size : Nat) (bs rest : List Nat)
    (h : fh.drop pos = bs ++ rest) (hl : bs.length = numElem * size) (hs : 0 < size)
    (hn : numElem < 4294967296) :
    READ_ARRAY fh pos numElem size = .ok (bs, pos + numElem * size) ∧
      fh.drop (pos + numElem * size) = rest := by
  have hlen : (fh.drop pos).length = bs.length + rest.length := by rw [h, List.length_append]
  rw [List.length_drop] at hlen
  have hc : min numElem ((fh.length - pos) / size) = numElem := by
    apply min_eq_left
    rw [Nat.le_div_iff_mul_le hs]
    omega
  refine ⟨?_, ?_⟩
  · unfold READ_ARRAY fread
    simp only [hc]
    rw [if_pos (Nat.mod_eq_of_lt hn).symm, h, List.take_left' hl]
  · rw [← List.drop_drop, h, List.drop_left' hl]

theorem strlen_le (s : List Nat) : strlen s ≤ s.length := by
  induction s with
  | nil => simp [strlen]
  | cons c cs ih =>
    simp only [strlen, List.length_cons]
    split_ifs <;> omega

theorem cstring_length (s : List Nat) : (cstring s).length = strlen s + 1 := by
  unfold cstring
  rw [List.length_append, List.length_take, min_eq_left (strlen_le s)]
  rfl

theorem strlen_cstring (s : List Nat) : strlen (cstring s) = strlen s := by
  induction s with
  | nil => simp [cstring, strlen]
  | cons c cs ih =>
    unfold cstring at ih ⊢
    by_cases hc : c = 0
    · simp [strlen, hc]
    · simp only [strlen, if_neg hc, List.take_succ_cons, List.cons_append, ih]

theorem callocRead_full (n : Nat) (bs : List Nat) (h : bs.length = n) : callocRead n bs = bs := by
  unfold callocRead
  rw [h, Nat.sub_self]
  simp

theorem writeName_eq (s : List Nat) (h : strlen s + 1 < 2147483648) :
    writeName s = intBytes ((strlen s + 1 : Nat) : Int) ++ cstring s := by
  unfold writeName
  have e : (strlen s + 1) % 18446744073709551616 = strlen s + 1 := Nat.mod_eq_of_lt (by omega)
  simp only [e]
  rw [List.take_of_length_le (le_of_eq (cstring_length s))]
  congr 1
  unfold intBytes sizeof_size_t sizeof_int
  rw [show (8 : Nat) = 4 + 4 from rfl, toBytes_take]
  congr 1
  omega

theorem writePomoSpeciesName_eq (s : List Nat) (h : strlen s + 1 < 2147483648) :
    writePomoSpeciesName s = intBytes ((strlen s + 1 : Nat) : Int) ++ cstring s := by
  unfold writePomoSpeciesName
  have e : strlen s % 4294967296 = strlen s := Nat.mod_eq_of_lt (by omega)
  have e2 : toInt (strlen s) + 1 = ((strlen s + 1 : Nat) : Int) := by
    unfold toInt
    rw [if_pos (by omega)]
    push_cast
    rfl
  simp only [e, e2]
  rw [sizeT_natCast _ (by omega), List.take_of_length_le (le_of_eq (cstring_length s))]

theorem readTaxaLoop_spec (fh : List Nat) (enc : List Nat → List Nat) :
    ∀ (names : List (List Nat)) (pos : Nat) (acc : List (List Nat)) (rest : List Nat),
      (∀ s, s ∈ names → strlen s + 1 < 2147483648 ∧
        enc s = intBytes ((strlen s + 1 : Nat) : Int) ++ cstring s) →
      fh.drop pos = names.flatMap enc ++ rest →
      readTaxaLoop fh names.length pos acc =
          .ok (acc ++ names.map cstring, pos + (names.flatMap enc).length) ∧
        fh.drop (pos + (names.flatMap enc).length) = rest := by
  intro names
  induction names with
  | nil =>
    intro pos acc rest _ h
    simpa [readTaxaLoop] using h
  | cons s names ih =>
    intro pos acc rest hn h
    obtain ⟨hs, he⟩ := hn s (List.mem_cons_self _ _)
    rw [List.flatMap_cons, he, List.append_assoc, List.append_assoc] at h
    obtain ⟨r1, d1⟩ := READ_VAR_step fh pos sizeof_int _ _ h (intBytes_length _) (by decide)
    have hlen : ofBytes (intBytes ((strlen s + 1 : Nat) : Int)) = strlen s + 1 :=
      ofBytes_intBytes_nat _ (by omega)
    have hti : toInt (strlen s + 1) = ((strlen s + 1 : Nat) : Int) := by
      unfold toInt
      rw [if_pos (by omega)]
    have hsz : sizeT (toInt (strlen s + 1)) = strlen s + 1 := by
      rw [hti, sizeT_natCast _ (by omega)]
    obtain ⟨r2, d2⟩ := READ_ARRAY_step fh (pos + sizeof_int) (strlen s + 1) sizeof_char _ _ d1
      (by rw [cstring_length]; simp [sizeof_char]) (by decide) (by omega)
    obtain ⟨r3, d3⟩ := ih (pos + sizeof_int + (strlen s + 1) * sizeof_char) (acc ++ [cstring s]) rest
      (fun t ht => hn t (List.mem_cons_of_mem _ ht)) d2
    have hl : ((s :: names).flatMap enc).length =
        sizeof_int + (strlen s + 1) * sizeof_char + (names.flatMap enc).length := by
      rw [List.flatMap_cons, he, List.length_append, List.length_append, intBytes_length,
        cstring_length]
      simp [sizeof_int, sizeof_char]
    refine ⟨?_, ?_⟩
    · simp only [List.length_cons, readTaxaLoop, r1, hlen, hsz, r2]
      rw [callocRead_full _ _ (cstring_length s), r3, hl]
      simp [Nat.add_assoc]
    · rw [hl, ← Nat.add_assoc, ← Nat.add_assoc]
      exact d3

theorem chunk_at {α : Type} (enc : α → List Nat) (c : Nat) (henc : ∀ x, (enc x).length = c) :
    ∀ (items : List α) (k : Nat) (h : k < items.length),
      ((items.flatMap enc).drop (c * k)).take c = enc (items.get ⟨k, h⟩) := by
  intro items
  induction items with
  | nil => intro k h; simp at h
  | cons x xs ih =>
    intro k h
    cases k with
    | zero =>
      simp only [Nat.mul_zero, List.drop_zero, List.flatMap_cons]
      exact List.take_left' (henc x)
    | succ k =>
      have e : c * (k + 1) = (enc x).length + c * k := by rw [henc x, Nat.mul_succ, Nat.add_comm]
      rw [List.flatMap_cons, e, List.drop_append]
      exact ih k (Nat.lt_of_succ_lt_succ h)

theorem doublesOf_written (n : Nat) (f : Nat → Nat) (hf : ∀ i, i < n → f i < 18446744073709551616) :
    doublesOf n ((List.range n).flatMap (fun i => toBytes sizeof_double (f i))) =
      (List.range n).map f := by
  unfold doublesOf
  apply List.map_congr_left
  intro k hk
  rw [List.mem_range] at hk
  have h := chunk_at (fun i => toBytes sizeof_double (f i)) sizeof_double
    (fun i => toBytes_length _ _) (List.range n) k (by rw [List.length_range]; exact hk)
  rw [h]
  simp only [List.get_eq_getElem, List.getElem_range]
  rw [ofBytes_toBytes]
  exact Nat.mod_eq_of_lt (by
    have := hf k hk
    have e : (256 : Nat) ^ sizeof_double = 18446744073709551616 := by norm_num [sizeof_double]
    rw [e]; exact this)

theorem length_flatMap_const {α : Type} (enc : α → List Nat) (c : Nat)
    (henc : ∀ x, (enc x).length = c) (items : List α) :
    (items.flatMap enc).length = c * items.length := by
  induction items with
  | nil => simp
  | cons x xs ih =>
    rw [List.flatMap_cons, List.length_append, ih, henc x, List.length_cons, Nat.mul_succ,
      Nat.add_comm]

theorem writePartition_length (p : pInfoParser) (hp : p.InRange) :
    (writePartition p).length = 52 + (4 + (strlen p.partitionName + 1)) + 8 * sizeT p.states := by
  unfold writePartition
  rw [writeName_eq _ hp.name]
  simp only [List.length_append, intBytes_length, toBytes_length, cstring_length,
    length_flatMap_const (fun i => toBytes sizeof_double (p.frequencies i)) sizeof_double
      (fun i => toBytes_length _ _), List.length_range]
  simp only [sizeof_size_t, sizeof_double]

theorem readPartition_spec (fh : List Nat) (pos : Nat) (p : pInfoParser) (rest : List Nat)
    (hp : p.InRange) (h : fh.drop pos = writePartition p ++ rest) :
    readPartition fh pos = .ok (p.asRead, pos + (writePartition p).length) ∧
      fh.drop (pos + (writePartition p).length) = rest := by
  have hlenP := writePartition_length p hp
  unfold writePartition at h
  rw [writeName_eq _ hp.name] at h
  simp only [List.append_assoc] at h
  obtain ⟨r1, d1⟩ := READ_VAR_step fh _ sizeof_int _ _ h (intBytes_length _) (by decide)
  obtain ⟨r2, d2⟩ := READ_VAR_step fh _ sizeof_int _ _ d1 (intBytes_length _) (by decide)
  obtain ⟨r3, d3⟩ := READ_VAR_step fh _ sizeof_size_t _ _ d2 (toBytes_length _ _) (by decide)
  obtain ⟨r4, d4⟩ := READ_VAR_step fh _ sizeof_size_t _ _ d3 (toBytes_length _ _) (by decide)
  obtain ⟨r5, d5⟩ := READ_VAR_step fh _ sizeof_size_t _ _ d4 (toBytes_length _ _) (by decide)
  obtain ⟨r6, d6⟩ := READ_VAR_step fh _ sizeof_int _ _ d5 (intBytes_length _) (by decide)
  obtain ⟨r7, d7⟩ := READ_VAR_step fh _ sizeof_int _ _ d6 (intBytes_length _) (by decide)
  obtain ⟨r8, d8⟩ := READ_VAR_step fh _ sizeof_int _ _ d7 (intBytes_length _) (by decide)
  obtain ⟨r9, d9⟩ := READ_VAR_step fh _ sizeof_boolean _ _ d8 (intBytes_length _) (by decide)
  obtain ⟨r10, d10⟩ := READ_VAR_step fh _ sizeof_boolean _ _ d9 (intBytes_length _) (by decide)
  obtain ⟨r11, d11⟩ := READ_VAR_step fh _ sizeof_int _ _ d10 (intBytes_length _) (by decide)
  have hlen : ofBytes (intBytes ((strlen p.partitionName + 1 : Nat) : Int)) =
      strlen p.partitionName + 1 := ofBytes_intBytes_nat _ (by have := hp.name; omega)
  obtain ⟨r12, d12⟩ := READ_ARRAY_step fh _ (strlen p.partitionName + 1) sizeof_char _ _ d11
    (by rw [cstring_length]; simp [sizeof_char]) (by decide) (by have := hp.name; omega)
  have hst : toInt (ofBytes (intBytes p.states)) = p.states := toInt_intBytes _ hp.states
  have hn : sizeT p.states < 4294967296 := by
    rw [sizeT_toNat _ hp.states_nonneg hp.states]
    have := hp.states.2
    omega
  have hfl : ((List.range (sizeT p.states)).flatMap
      (fun i => toBytes sizeof_double (p.frequencies i))).length =
      sizeT p.states * sizeof_double := by
    rw [length_flatMap_const _ sizeof_double (fun i => toBytes_length _ _), List.length_range,
      Nat.mul_comm]
  obtain ⟨r13, d13⟩ := READ_ARRAY_step fh _ (sizeT p.states) sizeof_double _ _ d12 hfl
    (by decide) hn
  have e64 : (256 : Nat) ^ sizeof_size_t = 18446744073709551616 := by norm_num [sizeof_size_t]
  refine ⟨?_, ?_⟩
  · simp only [readPartition, r1, r2, r3, r4, r5, r6, r7, r8, r9, r10, r11, hlen, r12, hst, r13]
    rw [callocRead_full _ _ (cstring_length _),
      callocRead_full _ _ (by rw [hfl, Nat.mul_comm]),
      doublesOf_written _ _ hp.frequencies, toInt_intBytes _ hp.maxTipStates,
      toInt_intBytes _ hp.dataType, toInt_intBytes _ hp.protModels,
      toInt_intBytes _ hp.protFreqs, toInt_intBytes _ hp.nonGTR,
      toInt_intBytes _ hp.optimizeBaseFrequencies, ofBytes_toBytes, ofBytes_toBytes, e64,
      Nat.mod_eq_of_lt hp.lower, Nat.mod_eq_of_lt hp.upper, hlenP]
    simp only [pInfoParser.asRead, sizeof_int, sizeof_size_t, sizeof_boolean, sizeof_char,
      sizeof_double]
    refine congrArg Except.ok (Prod.ext rfl ?_)
    show _ = _
    simp only
    omega
  · rw [hlenP]
    convert d13 using 2
    simp only [sizeof_int, sizeof_size_t, sizeof_boolean, sizeof_char, sizeof_double]
    omega

theorem readPartitionsLoop_spec (fh : List Nat) :
    ∀ (parts : List pInfoParser) (pos : Nat) (acc : List pInfoFile) (rest : List Nat),
      (∀ p, p ∈ parts → p.InRange) →
      fh.drop pos = parts.flatMap writePartition ++ rest →
      readPartitionsLoop fh parts.length pos acc =
          .ok (acc ++ parts.map pInfoParser.asRead,
            pos + (parts.flatMap writePartition).length) ∧
        fh.drop (pos + (parts.flatMap writePartition).length) = rest := by
  intro parts
  induction parts with
  | nil =>
    intro pos acc rest _ h
    simpa [readPartitionsLoop] using h
  | cons p parts ih =>
    intro pos acc rest hn h
    rw [List.flatMap_cons, List.append_assoc] at h
    obtain ⟨r1, d1⟩ := readPartition_spec fh pos p _ (hn p (List.mem_cons_self _ _)) h
    obtain ⟨r2, d2⟩ := ih _ (acc ++ [p.asRead]) rest
      (fun t ht => hn t (List.mem_cons_of_mem _ ht)) d1
    have hl : ((p :: parts).flatMap writePartition).length =
        (writePartition p).length + (parts.flatMap writePartition).length := by
      rw [List.flatMap_cons, List.length_append]
    refine ⟨?_, ?_⟩
    · simp only [List.length_cons, readPartitionsLoop, r1]
      rw [r2, hl]
      simp [Nat.add_assoc]
    · rw [hl, ← Nat.add_assoc]
      exact d2

theorem sum_range_getElem {α : Type} (l : List α) :
    ∀ (F : Option α → Int),
      ((List.range l.length).map (fun i => F l[i]?)).sum = (l.map (fun x => F (some x))).sum := by
  induction l with
  | nil => intro F; simp
  | cons x xs ih =>
    intro F
    rw [List.length_cons, List.range_succ_eq_map, List.map_cons, List.sum_cons, List.map_map,
      List.map_cons, List.sum_cons, ← ih F]
    simp [Function.comp_def]

theorem skipTaxa_eq (bf : ByteFile) (names : List (List Nat))
    (h : bf.numTax.toNat = names.length) :
    skipTaxa bf names = (names.map (fun s => ((strlen s + 1 + 4 : Nat) : Int))).sum := by
  unfold skipTaxa
  rw [h]
  refine (sum_range_getElem names (fun o =>
    match o with
    | some name => (((strlen name + 1) * sizeof_char + sizeof_int : Nat) : Int)
    | none => 0)).trans ?_
  congr 1
  apply List.map_congr_left
  intro s _
  simp only [sizeof_char, sizeof_int, Nat.mul_one]

theorem skipPartitions_eq (bf : ByteFile) (parts : List pInfoFile)
    (h : bf.numPartitions.toNat = parts.length) :
    skipPartitions bf parts = bf.numPartitions * 52 +
      (parts.map (fun pp => ((strlen pp.partitionName + 1 + 4 + 8 * sizeT pp.states : Nat) : Int))).sum := by
  unfold skipPartitions
  rw [h]
  congr 1
  have := sum_range_getElem parts (fun o =>
    match o with
    | some pp => (((strlen pp.partitionName + 1) * sizeof_char + sizeof_int : Nat) : Int) +
        ((sizeof_double * sizeT pp.states : Nat) : Int)
    | none => 0)
  refine this.trans ?_
  congr 1
  apply List.map_congr_left
  intro pp _
  simp only [sizeof_char, sizeof_int, sizeof_double]
  push_cast
  ring

theorem taxa_length (enc : List Nat → List Nat) (names : List (List Nat))
    (h : ∀ s, s ∈ names → enc s = intBytes ((strlen s + 1 : Nat) : Int) ++ cstring s) :
    (((names.map cstring).map (fun s => ((strlen s + 1 + 4 : Nat) : Int))).sum) =
      (((names.flatMap enc).length : Nat) : Int) := by
  induction names with
  | nil => simp
  | cons s names ih =>
    rw [List.map_cons, List.map_cons, List.sum_cons, ih (fun t ht => h t (List.mem_cons_of_mem _ ht)),
      List.flatMap_cons, List.length_append, h s (List.mem_cons_self _ _), List.length_append,
      intBytes_length, cstring_length, strlen_cstring]
    push_cast
    ring

theorem partitions_length (parts : List pInfoParser) (h : ∀ p, p ∈ parts → p.InRange) :
    ((parts.length : Nat) : Int) * 52 +
      ((parts.map pInfoParser.asRead).map
        (fun pp => ((strlen pp.partitionName + 1 + 4 + 8 * sizeT pp.states : Nat) : Int))).sum =
      (((parts.flatMap writePartition).length : Nat) : Int) := by
  induction parts with
  | nil => simp
  | cons p parts ih =>
    have ih := ih (fun t ht => h t (List.mem_cons_of_mem _ ht))
    rw [List.map_cons, List.map_cons, List.sum_cons, List.flatMap_cons, List.length_append,
      writePartition_length p (h p (List.mem_cons_self _ _)), List.length_cons]
    simp only [pInfoParser.asRead, strlen_cstring]
    push_cast at ih ⊢
    linarith

theorem writeMagic_length (v : Int) : (writeMagic v).length = 12 := by
  simp [writeMagic, intBytes_length]

theorem writeHeader_length (tr : parserData) : (writeHeader tr).length = 24 := by
  simp [writeHeader, intBytes_length, toBytes_length, sizeof_size_t, sizeof_double]

theorem writeWeights_length (tr : parserData) :
    (writeWeights tr).length = 4 * tr.originalCrunchedLength := by
  unfold writeWeights
  rw [length_flatMap_const _ 4 (fun i => intBytes_length _), List.length_range]

theorem seekPos_head (bf : ByteFile) : seekPos bf .ALN_HEAD = .ok { bf with pos := 12 } := by
  simp [seekPos, sizeof_int]

theorem seekPos_weights (bf : ByteFile) : seekPos bf .ALN_WEIGHTS = .ok { bf with pos := 36 } := by
  simp [seekPos, sizeof_int, sizeof_size_t, sizeof_double]

theorem seekPos_taxa (bf : ByteFile) (h : bf.hasRead .ALN_HEAD = true) :
    seekPos bf .ALN_TAXA = .ok { bf with pos := 36 + 4 * bf.numPattern } := by
  have e : ((0 : Int) + 0 + ((bf.numPattern * 4 : Nat) : Int) + ((4 + 8 + 4 + 8 : Nat) : Int) +
      ((3 * 4 : Nat) : Int)) = ((36 + 4 * bf.numPattern : Nat) : Int) := by
    push_cast; ring
  simp only [seekPos, h, sizeof_int, sizeof_size_t, sizeof_double, reduceCtorEq, if_false,
    if_true, or_true, false_or, or_false, e, Int.toNat_ofNat, Int.ofNat_nonneg]

theorem seekPos_partitions (bf : ByteFile) (names : List (List Nat)) (k : Nat)
    (hh : bf.hasRead .ALN_HEAD = true) (ht : bf.hasRead .ALN_TAXA = true)
    (hn : bf.taxaNames = some names) (hk : skipTaxa bf names = (k : Int)) :
    seekPos bf .ALN_PARTITIONS = .ok { bf with pos := 36 + 4 * bf.numPattern + k } := by
  have e : ((0 : Int) + (k : Int) + ((bf.numPattern * 4 : Nat) : Int) +
      ((4 + 8 + 4 + 8 : Nat) : Int) + ((3 * 4 : Nat) : Int)) =
      ((36 + 4 * bf.numPattern + k : Nat) : Int) := by
    push_cast; ring
  simp only [seekPos, hh, ht, hn, hk, sizeof_int, sizeof_size_t, sizeof_double, reduceCtorEq,
    if_false, if_true, or_true, false_or, or_false, true_or, e, Int.toNat_ofNat,
    Int.ofNat_nonneg]

theorem seekPos_alignment (bf : ByteFile) (names : List (List Nat)) (parts : List pInfoFile)
    (k m : Nat) (hh : bf.hasRead .ALN_HEAD = true) (ht : bf.hasRead .ALN_TAXA = true)
    (hp : bf.hasRead .ALN_PARTITIONS = true)
    (hn : bf.taxaNames = some names) (hk : skipTaxa bf names = (k : Int))
    (hparts : bf.partitions = some parts) (hm : skipPartitions bf parts = (m : Int)) :
    seekPos bf .ALN_ALIGNMENT = .ok { bf with pos := 36 + 4 * bf.numPattern + k + m } := by
  have e : ((m : Int) + (k : Int) + ((bf.numPattern * 4 : Nat) : Int) +
      ((4 + 8 + 4 + 8 : Nat) : Int) + ((3 * 4 : Nat) : Int)) =
      ((36 + 4 * bf.numPattern + k + m : Nat) : Int) := by
    push_cast; ring
  simp only [seekPos, hh, ht, hp, hn, hk, hparts, hm, sizeof_int, sizeof_size_t, sizeof_double,
    reduceCtorEq, if_false, if_true, or_true, false_or, or_false, true_or, e, Int.toNat_ofNat,
    Int.ofNat_nonneg]

theorem readHeader_spec (bf : ByteFile) (tr : parserData) (rest : List Nat) (hr : tr.InRange)
    (h : bf.fh.drop 12 = writeHeader tr ++ rest) :
    readHeader bf = .ok (ByteFile.setRead { bf with
                                            pos := 36
                                            numTax := tr.numTax
                                            numPattern := tr.originalCrunchedLength
                                            numPartitions := tr.NumberOfModels
                                            gappyness := tr.gapyness } .ALN_HEAD) ∧
      bf.fh.drop 36 = rest := by
  unfold writeHeader at h
  simp only [List.append_assoc] at h
  obtain ⟨r1, d1⟩ := READ_VAR_step bf.fh _ sizeof_int _ _ h (intBytes_length _) (by decide)
  obtain ⟨r2, d2⟩ := READ_VAR_step bf.fh _ sizeof_size_t _ _ d1 (toBytes_length _ _) (by decide)
  obtain ⟨r3, d3⟩ := READ_VAR_step bf.fh _ sizeof_int _ _ d2 (intBytes_length _) (by decide)
  obtain ⟨r4, d4⟩ := READ_VAR_step bf.fh _ sizeof_double _ _ d3 (toBytes_length _ _) (by decide)
  have e64 : (256 : Nat) ^ sizeof_size_t = 18446744073709551616 := by norm_num [sizeof_size_t]
  have e64' : (256 : Nat) ^ sizeof_double = 18446744073709551616 := by norm_num [sizeof_double]
  refine ⟨?_, d4⟩
  unfold readHeader
  rw [seekPos_head]
  dsimp only
  rw [r1]
  dsimp only
  rw [r2]
  dsimp only
  rw [r3]
  dsimp only
  rw [r4]
  dsimp only
  rw [toInt_intBytes _ hr.numTax, toInt_intBytes _ hr.models, ofBytes_toBytes, ofBytes_toBytes,
    e64, e64', Nat.mod_mod, Nat.mod_eq_of_lt hr.numPattern, Nat.mod_eq_of_lt hr.gapyness]
  rfl

theorem readTaxa_spec (bf : ByteFile) (enc : List Nat → List Nat) (names : List (List Nat))
    (rest : List Nat) (hn : bf.taxaNames = none) (hh : bf.hasRead .ALN_HEAD = true)
    (hl : bf.numTax.toNat = names.length)
    (henc : ∀ s, s ∈ names → strlen s + 1 < 2147483648 ∧
      enc s = intBytes ((strlen s + 1 : Nat) : Int) ++ cstring s)
    (h : bf.fh.drop (36 + 4 * bf.numPattern) = names.flatMap enc ++ rest) :
    readTaxa bf = .ok (ByteFile.setRead { bf with
                                          pos := 36 + 4 * bf.numPattern + (names.flatMap enc).length
                                          taxaNames := some (names.map cstring) } .ALN_TAXA) ∧
      bf.fh.drop (36 + 4 * bf.numPattern + (names.flatMap enc).length) = rest := by
  obtain ⟨r, d⟩ := readTaxaLoop_spec bf.fh enc names _ [] rest henc h
  refine ⟨?_, d⟩
  unfold readTaxa
  rw [hn]
  dsimp only
  rw [seekPos_taxa bf hh]
  dsimp only
  rw [hl, r]
  rfl

theorem readPartitions_spec (bf : ByteFile) (tn : List (List Nat)) (k : Nat)
    (parts : List pInfoParser) (rest : List Nat) (hn : bf.partitions = none)
    (hh : bf.hasRead .ALN_HEAD = true) (ht : bf.hasRead .ALN_TAXA = true)
    (htn : bf.taxaNames = some tn) (hk : skipTaxa bf tn = (k : Int))
    (hl : bf.numPartitions.toNat = parts.length) (hr : ∀ p, p ∈ parts → p.InRange)
    (h : bf.fh.drop (36 + 4 * bf.numPattern + k) = parts.flatMap writePartition ++ rest) :
    readPartitions bf = .ok (ByteFile.setRead { bf with
          pos := 36 + 4 * bf.numPattern + k + (parts.flatMap writePartition).length
          partitions := some (parts.map pInfoParser.asRead) } .ALN_PARTITIONS) ∧
      bf.fh.drop (36 + 4 * bf.numPattern + k + (parts.flatMap writePartition).length) = rest := by
  obtain ⟨r, d⟩ := readPartitionsLoop_spec bf.fh parts _ [] rest hr h
  refine ⟨?_, d⟩
  unfold readPartitions
  rw [seekPos_partitions bf tn k hh ht htn hk]
  dsimp only
  rw [hn]
  dsimp only
  rw [hl, r]
  rfl

theorem writtenNames_length (tr : parserData) (hr : tr.InRange) :
    tr.writtenNames.length = tr.numTax.toNat := by
  have h := sizeT_toNat _ hr.numTax_nonneg hr.numTax
  unfold parserData.writtenNames
  unfold parserData.numTax at h ⊢
  by_cases hp : tr.pomoModel = true
  · rw [if_pos hp] at h ⊢
    rw [if_pos hp, List.length_map, List.length_range, h]
  · rw [if_neg hp] at h ⊢
    rw [if_neg hp, List.length_map, List.length_range, h]

theorem writtenPartitions_length (tr : parserData) (hr : tr.InRange) :
    tr.writtenPartitions.length = tr.NumberOfModels.toNat := by
  unfold parserData.writtenPartitions
  rw [List.length_map, List.length_range, sizeT_toNat _ hr.models_nonneg hr.models]

theorem writeTaxa_enc (tr : parserData) (hr : tr.InRange) :
    ∃ enc : List Nat → List Nat,
      (∀ s, s ∈ tr.writtenNames → strlen s + 1 < 2147483648 ∧
        enc s = intBytes ((strlen s + 1 : Nat) : Int) ++ cstring s) ∧
      writeTaxa tr = tr.writtenNames.flatMap enc := by
  unfold writeTaxa
  by_cases hpm : tr.pomoModel = true
  · exact ⟨writePomoSpeciesName,
      fun s hs => ⟨hr.names s hs, writePomoSpeciesName_eq s (hr.names s hs)⟩, by rw [if_pos hpm]⟩
  · exact ⟨writeName, fun s hs => ⟨hr.names s hs, writeName_eq s (hr.names s hs)⟩,
      by rw [if_neg hpm]⟩

theorem drop_add_left (l a b : List Nat) (n : Nat) (h : l.drop n = a ++ b) :
    l.drop (n + a.length) = b := by
  rw [← List.drop_drop, h, List.drop_left]

/-- C14: binary round trip of the header, the section offsets, the taxa and
the partition metadata. For a file that `main` of the parser wrote from values
of their C types, `readHeader`, `readTaxa` and `readPartitions` succeed in
this order on a `ByteFile` without taxa and partitions, and leave the taxa
count, pattern count, partition count and gappyness as written, the taxon
names as the written C strings, and each partition with the written states,
maxTipStates, lower, upper, dataType, protModels, protFreqs, nonGTR,
optimizeBaseFrequencies, name and frequencies; after them `seekPos` moves to
the number of bytes written before the section, for each of the five
sections. -/
theorem binary_round_trip (programVersionInt POMO_16 POMO_64 : Int) (tr : parserData)
    (hr : tr.InRange) (bf : ByteFile)
    (hfh : bf.fh = writeByteFile programVersionInt POMO_16 POMO_64 tr)
    (ht : bf.taxaNames = none) (hp : bf.partitions = none) :
    ∃ bf1 bf2 bf3, readHeader bf = .ok bf1 ∧ readTaxa bf1 = .ok bf2 ∧
      readPartitions bf2 = .ok bf3 ∧
      bf3.numTax = tr.numTax ∧ bf3.numPattern = tr.originalCrunchedLength ∧
      bf3.numPartitions = tr.NumberOfModels ∧ bf3.gappyness = tr.gapyness ∧
      bf3.taxaNames = some (tr.writtenNames.map cstring) ∧
      bf3.partitions = some (tr.writtenPartitions.map pInfoParser.asRead) ∧
      ∀ s, ∃ bf4, seekPos bf3 s = .ok bf4 ∧
        bf4.pos = (bytesBefore programVersionInt tr s).length := by
  obtain ⟨enc, henc, hT⟩ := writeTaxa_enc tr hr
  have hNl := writtenNames_length tr hr
  have hPl := writtenPartitions_length tr hr
  have hW := writeWeights_length tr
  have hM := writeMagic_length programVersionInt
  have hH := writeHeader_length tr
  unfold writeByteFile at hfh
  have d0 : bf.fh.drop 12 = writeHeader tr ++ (writeWeights tr ++ (writeTaxa tr ++
      (writePartitions tr ++ writeAlignment POMO_16 POMO_64 tr))) := by
    rw [hfh]
    exact List.drop_left' hM
  obtain ⟨h1, d1⟩ := readHeader_spec bf tr _ hr d0
  have d1' := drop_add_left _ _ _ _ d1
  rw [hW, hT] at d1'
  obtain ⟨bf1, hb1⟩ : ∃ b, b = ByteFile.setRead { bf with
                                            pos := 36
                                            numTax := tr.numTax
                                            numPattern := tr.originalCrunchedLength
                                            numPartitions := tr.NumberOfModels
                                            gappyness := tr.gapyness } .ALN_HEAD := ⟨_, rfl⟩
  rw [← hb1] at h1
  have fh1 : bf1.fh = bf.fh := by rw [hb1]; rfl
  have nt1 : bf1.numTax = tr.numTax := by rw [hb1]; rfl
  have np1 : bf1.numPattern = tr.originalCrunchedLength := by rw [hb1]; rfl
  have nm1 : bf1.numPartitions = tr.NumberOfModels := by rw [hb1]; rfl
  have g1 : bf1.gappyness = tr.gapyness := by rw [hb1]; rfl
  have tn1 : bf1.taxaNames = none := by rw [hb1]; exact ht
  have p1 : bf1.partitions = none := by rw [hb1]; exact hp
  have hh1 : bf1.hasRead .ALN_HEAD = true := by rw [hb1]; simp [ByteFile.setRead]
  obtain ⟨h2, d2⟩ := readTaxa_spec bf1 enc tr.writtenNames _ tn1 hh1 (by rw [nt1]; exact hNl.symm)
    henc (by rw [fh1, np1]; exact d1')
  obtain ⟨bf2, hb2⟩ : ∃ b, b = ByteFile.setRead { bf1 with
      pos := 36 + 4 * bf1.numPattern + (tr.writtenNames.flatMap enc).length
      taxaNames := some (tr.writtenNames.map cstring) } .ALN_TAXA := ⟨_, rfl⟩
  rw [← hb2] at h2
  have fh2 : bf2.fh = bf.fh := by rw [hb2]; exact fh1
  have nt2 : bf2.numTax = tr.numTax := by rw [hb2]; exact nt1
  have np2 : bf2.numPattern = tr.originalCrunchedLength := by rw [hb2]; exact np1
  have nm2 : bf2.numPartitions = tr.NumberOfModels := by rw [hb2]; exact nm1
  have g2 : bf2.gappyness = tr.gapyness := by rw [hb2]; exact g1
  have tn2 : bf2.taxaNames = some (tr.writtenNames.map cstring) := by rw [hb2]; rfl
  have p2 : bf2.partitions = none := by rw [hb2]; exact p1
  have hh2 : bf2.hasRead .ALN_HEAD = true := by rw [hb2]; simp [ByteFile.setRead, hh1]
  have ht2 : bf2.hasRead .ALN_TAXA = true := by rw [hb2]; simp [ByteFile.setRead]
  have hk : ∀ b : ByteFile, b.numTax = tr.numTax →
      skipTaxa b (tr.writtenNames.map cstring) =
        (((tr.writtenNames.flatMap enc).length : Nat) : Int) := fun b hb =>
    (skipTaxa_eq _ _ (by rw [List.length_map, hb]; exact hNl.symm)).trans
      (taxa_length enc _ (fun s hs => (henc s hs).2))
  have hm := partitions_length tr.writtenPartitions hr.partitions
  unfold writePartitions at d2
  obtain ⟨h3, d3⟩ := readPartitions_spec bf2 (tr.writtenNames.map cstring)
    (tr.writtenNames.flatMap enc).length tr.writtenPartitions _ p2 hh2 ht2 tn2 (hk bf2 nt2)
    (by rw [nm2]; exact hPl.symm) hr.partitions (by rw [fh2, np2, ← fh1, ← np1]; exact d2)
  obtain ⟨bf3, hb3⟩ : ∃ b, b = ByteFile.setRead { bf2 with
      pos := 36 + 4 * bf2.numPattern + (tr.writtenNames.flatMap enc).length +
        (tr.writtenPartitions.flatMap writePartition).length
      partitions := some (tr.writtenPartitions.map pInfoParser.asRead) } .ALN_PARTITIONS :=
    ⟨_, rfl⟩
  rw [← hb3] at h3
  have nt3 : bf3.numTax = tr.numTax := by rw [hb3]; exact nt2
  have np3 : bf3.numPattern = tr.originalCrunchedLength := by rw [hb3]; exact np2
  have nm3 : bf3.numPartitions = tr.NumberOfModels := by rw [hb3]; exact nm2
  have g3 : bf3.gappyness = tr.gapyness := by rw [hb3]; exact g2
  have tn3 : bf3.taxaNames = some (tr.writtenNames.map cstring) := by rw [hb3]; exact tn2
  have p3 : bf3.partitions = some (tr.writtenPartitions.map pInfoParser.asRead) := by
    rw [hb3]; rfl
  have hh3 : bf3.hasRead .ALN_HEAD = true := by rw [hb3]; simp [ByteFile.setRead, hh2]
  have ht3 : bf3.hasRead .ALN_TAXA = true := by rw [hb3]; simp [ByteFile.setRead, ht2]
  have hp3 : bf3.hasRead .ALN_PARTITIONS = true := by rw [hb3]; simp [ByteFile.setRead]
  have hmm : skipPartitions bf3 (tr.writtenPartitions.map pInfoParser.asRead) =
      (((tr.writtenPartitions.flatMap writePartition).length : Nat) : Int) := by
    rw [skipPartitions_eq _ _ (by rw [List.length_map, nm3]; exact hPl.symm), ← hm, nm3, hPl,
      Int.toNat_of_nonneg hr.models_nonneg]
  refine ⟨bf1, bf2, bf3, h1, h2, h3, nt3, np3, nm3, g3, tn3, p3, ?_⟩
  intro s
  cases s with
  | ALN_HEAD => exact ⟨_, seekPos_head _, hM.symm⟩
  | ALN_WEIGHTS =>
    refine ⟨_, seekPos_weights _, ?_⟩
    simp only [bytesBefore, List.length_append, hM, hH]
  | ALN_TAXA =>
    refine ⟨_, seekPos_taxa _ hh3, ?_⟩
    simp only [bytesBefore, List.length_append, hM, hH, hW, np3]
    omega
  | ALN_PARTITIONS =>
    refine ⟨_, seekPos_partitions _ _ _ hh3 ht3 tn3 (hk bf3 nt3), ?_⟩
    simp only [bytesBefore, List.length_append, hM, hH, hW, hT, np3]
    omega
  | ALN_ALIGNMENT =>
    refine ⟨_, seekPos_alignment _ _ _ _ _ hh3 ht3 hp3 tn3 (hk bf3 nt3) p3 hmm, ?_⟩
    simp only [bytesBefore, List.length_append, hM, hH, hW, hT, np3, writePartitions]
    omega

theorem binary_round_trip_witness :
    exParserData.InRange ∧
    ∃ bf1 bf2 bf3, readHeader exByteFile = .ok bf1 ∧ readTaxa bf1 = .ok bf2 ∧
      readPartitions bf2 = .ok bf3 ∧
      bf3.numTax = exParserData.numTax ∧ bf3.numPattern = exParserData.originalCrunchedLength ∧
      bf3.numPartitions = exParserData.NumberOfModels ∧ bf3.gappyness = exParserData.gapyness ∧
      bf3.taxaNames = some (exParserData.writtenNames.map cstring) ∧
      bf3.partitions = some (exParserData.writtenPartitions.map pInfoParser.asRead) ∧
      ∀ s, ∃ bf4, seekPos bf3 s = .ok bf4 ∧
        bf4.pos = (bytesBefore 1 exParserData s).length :=
  have hr : exParserData.InRange :=
    { numTax_nonneg := by decide
      numTax := ⟨by decide, by decide⟩
      numPattern := by decide
      models_nonneg := by decide
      models := ⟨by decide, by decide⟩
      gapyness := by decide
      names := by decide
      partitions := fun p hp => by
        have e : p = exParserData.partitionData 0 := by
          simpa [parserData.writtenPartitions, exParserData, sizeT] using hp
        subst e
        exact
          { states_nonneg := by decide
            states := ⟨by decide, by decide⟩
            maxTipStates := ⟨by decide, by decide⟩
            lower := by decide
            upper := by decide
            dataType := ⟨by decide, by decide⟩
            protModels := ⟨by decide, by decide⟩
            protFreqs := ⟨by decide, by decide⟩
            nonGTR := ⟨by decide, by decide⟩
            optimizeBaseFrequencies := ⟨by decide, by decide⟩
            name := by decide
            frequencies := fun _ _ => by
              show (4598175219545276416 : Nat) < 18446744073709551616
              decide } }
  ⟨hr, binary_round_trip 1 5 6 exParserData hr exByteFile rfl rfl rfl⟩

theorem seekPos_frame (bf bf' : ByteFile) (s : Section) (h : seekPos bf s = .ok bf') :
    bf' = { bf with pos := bf'.pos } := by
  unfold seekPos at h
  simp only at h
  split at h
  · exact absurd h (by simp)
  · split at h
    · exact absurd h (by simp)
    · split at h
      · exact absurd h (by simp)
      · injection h with h
        rw [← h]

/-! ## Calling newview twice -/

theorem forLoop_rel {σ : Type} (Rel : σ → σ → Prop) (n : Nat) (f g : Nat → σ → σ)
    (h : ∀ i, i < n → ∀ s s', Rel s s' → Rel (f i s) (g i s')) (a a' : σ) (h0 : Rel a a') :
    Rel (forLoop n f a) (forLoop n g a') := by
  induction n with
  | zero => exact h0
  | succ n ih =>
    rw [forLoop_succ, forLoop_succ]
    exact h n (by omega) _ _ (ih (fun i hi => h i (by omega)))

theorem zeroLoop_apply {K : Type} [LinearOrderedField K] (S : Nat) (v : Nat → K) (x : Nat) :
    forLoop S (fun l (v : Nat → K) => store v l 0) v x = if x < S then 0 else v x := by
  induction S with
  | zero => rw [forLoop_zero, if_neg (by omega)]
  | succ S ih =>
    rw [forLoop_succ, store_apply]
    by_cases h : x = S
    · rw [if_pos h, if_pos (by omega)]
    · rw [if_neg h, ih]
      by_cases h2 : x < S
      · rw [if_pos h2, if_pos (by omega)]
      · rw [if_neg h2, if_neg (by omega)]

/-- The block `evProduct` fills the cells `0 .. states-1` with values that do
not depend on the previous content of the array. -/
theorem evProduct_base {K : Type} [LinearOrderedField K] (S : Nat) (E w v v' : Nat → K)
    (l : Nat) (hl : l < S) : evProduct S E w v l = evProduct S E w v' l := by
  unfold evProduct
  refine forLoop_rel (fun u u' : Nat → K => ∀ x, x < S → u x = u' x) S _ _ ?_ _ _ ?_ l hl
  · intro i _ s s' hs
    refine forLoop_rel (fun u u' : Nat → K => ∀ x, x < S → u x = u' x) S _ _ ?_ _ _ hs
    intro j hj u u' hu x hx
    simp only [store_apply]
    by_cases hxj : x = j
    · rw [if_pos hxj, if_pos hxj, hu j hj]
    · rw [if_neg hxj, if_neg hxj, hu x hx]
  · intro x hx
    rw [zeroLoop_apply, zeroLoop_apply, if_pos hx, if_pos hx]

/-- A loop that rewrites the blocks `0 .. m-1` of a row, each from values that
do not depend on the previous content, leaves a row whose first `S * m` cells
do not depend on the previous content. -/
theorem blocks_base {K : Type} (S m : Nat) (g : Nat → (Nat → K) → Nat → K)
    (hg : ∀ k b b' l, l < S → g k b l = g k b' l) (row row' : Nat → K) (x : Nat)
    (hx : x < S * m) :
    forLoop m (fun k row => blit row (S * k) S (g k (slice row (S * k)))) row x =
      forLoop m (fun k row => blit row (S * k) S (g k (slice row (S * k)))) row' x := by
  induction m with
  | zero => omega
  | succ m ih =>
    rw [forLoop_succ, forLoop_succ, blit_apply, blit_apply]
    have e : S * (m + 1) = S * m + S := by ring
    by_cases h : S * m ≤ x
    · rw [if_pos ⟨h, by omega⟩, if_pos ⟨h, by omega⟩]
      exact hg m _ _ _ (by omega)
    · rw [if_neg (by omega), if_neg (by omega)]
      exact ih (by omega)

theorem rowCAT_base {K : Type} [LinearOrderedField K] (states : Nat)
    (extEV le ri vl vr b b' : Nat → K) (l : Nat) (hl : l < states) :
    rowCAT states extEV le ri vl vr b l = rowCAT states extEV le ri vl vr b' l :=
  evProduct_base states extEV _ b b' l hl

theorem rowGAMMA_TIP_TIP_base {K : Type} [LinearOrderedField K] (states : Nat)
    (extEV uX1 uX2 b b' : Nat → K) (l : Nat) (hl : l < states * 4) :
    rowGAMMA_TIP_TIP states extEV uX1 uX2 b l = rowGAMMA_TIP_TIP states extEV uX1 uX2 b' l := by
  unfold rowGAMMA_TIP_TIP
  have e : ∀ row : Nat → K, forLoop 4 (fun j (row : Nat → K) =>
      blit row (j * states) states
        (evProduct states extEV (fun k => uX1 (j * states + k) * uX2 (j * states + k))
          (slice row (j * states)))) row =
      forLoop 4 (fun j (row : Nat → K) =>
      blit row (states * j) states
        (evProduct states extEV (fun k => uX1 (j * states + k) * uX2 (j * states + k))
          (slice row (states * j)))) row := fun row =>
    forLoop_congr 4 _ _ row (fun j _ s => by rw [Nat.mul_comm j states])
  rw [e, e]
  exact blocks_base states 4
    (fun j v => evProduct states extEV (fun k => uX1 (j * states + k) * uX2 (j * states + k)) v)
    (fun k v v' l hl => evProduct_base states extEV _ v v' l hl) b b' l hl

theorem rowGAMMA_TIP_INNER_base {K : Type} [LinearOrderedField K] (states : Nat)
    (extEV uX1 right x2row b b' : Nat → K) (l : Nat) (hl : l < states * 4) :
    rowGAMMA_TIP_INNER states extEV uX1 right x2row b l =
      rowGAMMA_TIP_INNER states extEV uX1 right x2row b' l := by
  unfold rowGAMMA_TIP_INNER
  exact blocks_base states 4
    (fun k v => evProduct states extEV (fun l => uX1 (k * states + l) *
      dot states (slice x2row (k * states)) (slice right (k * (states * states) + l * states))) v)
    (fun k v v' l hl => evProduct_base states extEV _ v v' l hl) b b' l hl

theorem rowGAMMA_INNER_INNER_base {K : Type} [LinearOrderedField K] (states : Nat)
    (extEV left right x1row x2row b b' : Nat → K) (l : Nat) (hl : l < states * 4) :
    rowGAMMA_INNER_INNER states extEV left right x1row x2row b l =
      rowGAMMA_INNER_INNER states extEV left right x1row x2row b' l := by
  unfold rowGAMMA_INNER_INNER
  exact blocks_base states 4
    (fun k v => evProduct states extEV (fun l =>
      dot states (slice x1row (states * k)) (slice left (k * (states * states) + l * states)) *
      dot states (slice x2row (states * k)) (slice right (k * (states * states) + l * states)))
      v)
    (fun k v v' l hl => evProduct_base states extEV _ v v' l hl) b b' l hl

theorem scaleTestCAT_base {K : Type} [LinearOrderedField K] (c : consts K) (S : Nat)
    (v v' : Nat → K) (h : ∀ l, l < S → v l = v' l) : scaleTestCAT c S v = scaleTestCAT c S v' := by
  unfold scaleTestCAT
  rw [Bool.eq_iff_iff, List.all_eq_true, List.all_eq_true]
  constructor
  · intro hv l hl
    rw [← h l (List.mem_range.1 hl)]
    exact hv l hl
  · intro hv l hl
    rw [h l (List.mem_range.1 hl)]
    exact hv l hl

theorem scaleTestGAMMA_base {K : Type} [LinearOrderedField K] (c : consts K) (S : Nat)
    (v v' : Nat → K) (h : ∀ l, l < S → v l = v' l) :
    scaleTestGAMMA c S v = scaleTestGAMMA c S v' := by
  unfold scaleTestGAMMA
  rw [Bool.eq_iff_iff, List.all_eq_true, List.all_eq_true]
  constructor
  · intro hv l hl
    rw [← h l (List.mem_range.1 hl)]
    exact hv l hl
  · intro hv l hl
    rw [h l (List.mem_range.1 hl)]
    exact hv l hl

/-- A row loop whose rows and counter increments do not depend on the previous
content of the row gives the same result when it is run again on its own
output. -/
theorem rowLoop_idem {K : Type} (span n : Nat) (R : Nat → (Nat → K) → (Nat → K) × Int)
    (body : Nat → (Nat → K) × Int → (Nat → K) × Int)
    (hbody : ∀ i s, body i s =
      (blit s.1 (span * i) span (R i (slice s.1 (span * i))).1,
        s.2 + (R i (slice s.1 (span * i))).2))
    (hR1 : ∀ i b b' l, l < span → (R i b).1 l = (R i b').1 l)
    (hR2 : ∀ i b b', (R i b).2 = (R i b').2) (x3 : Nat → K) :
    forLoop n body ((forLoop n body (x3, 0)).1, 0) = forLoop n body (x3, 0) := by
  have hb : body = fun i (s : (Nat → K) × Int) =>
      (blit s.1 (span * i) span (R i (slice s.1 (span * i))).1,
        s.2 + (R i (slice s.1 (span * i))).2) := by
    funext i s
    exact hbody i s
  rw [hb]
  obtain ⟨a1, a2, a3⟩ := rowLoop_spec span R x3 0 n
  obtain ⟨b1, b2, b3⟩ := rowLoop_spec span R
    (forLoop n (fun i (s : (Nat → K) × Int) =>
      (blit s.1 (span * i) span (R i (slice s.1 (span * i))).1,
        s.2 + (R i (slice s.1 (span * i))).2)) (x3, 0)).1 0 n
  refine Prod.ext ?_ ?_
  · funext x
    by_cases hx : span * n ≤ x
    · rw [b2 x hx]
    · have hs : 0 < span := by
        rcases Nat.eq_zero_or_pos span with h0 | h0
        · rw [h0] at hx
          omega
        · exact h0
      have hlt : x / span < n := by
        rw [Nat.div_lt_iff_lt_mul hs]
        rw [Nat.mul_comm]
        omega
      have hxe : x = span * (x / span) + x % span := (Nat.div_add_mod x span).symm
      rw [hxe, b1 _ _ hlt (Nat.mod_lt _ hs), a1 _ _ hlt (Nat.mod_lt _ hs)]
      exact hR1 _ _ _ _ (Nat.mod_lt _ hs)
  · rw [b3, a3]
    congr 1
    exact Finset.sum_congr rfl (fun i _ => hR2 i _ _)

theorem scaledLoop_idem {K : Type} [LinearOrderedField K] (c : consts K) (span n : Nat)
    (wgt : Nat → Int) (row : Nat → (Nat → K) → Nat → K) (test : (Nat → K) → Bool)
    (hrow : ∀ i b b' l, l < span → row i b l = row i b' l)
    (htest : ∀ v v', (∀ l, l < span → v l = v' l) → test v = test v')
    (body : Nat → (Nat → K) × Int → (Nat → K) × Int)
    (hbody : ∀ i s, body i s =
      if test (row i (slice s.1 (span * i))) then
        (blit s.1 (span * i) span (scaleUp c span (row i (slice s.1 (span * i)))), s.2 + wgt i)
      else (blit s.1 (span * i) span (row i (slice s.1 (span * i))), s.2))
    (x3 : Nat → K) :
    forLoop n body ((forLoop n body (x3, 0)).1, 0) = forLoop n body (x3, 0) := by
  refine rowLoop_idem span n
    (fun i b => if test (row i b) then (scaleUp c span (row i b), wgt i) else (row i b, 0))
    body ?_ ?_ ?_ x3
  · intro i s
    rw [hbody]
    by_cases ht : test (row i (slice s.1 (span * i))) = true
    · simp only [ht, if_true]
    · simp only [ht, if_false, Bool.false_eq_true, add_zero]
  · intro i b b' l hl
    have ht := htest _ _ (fun l hl => hrow i b b' l hl)
    by_cases hb : test (row i b') = true
    · simp only [ht, hb, if_true, scaleUp_apply, if_pos hl, hrow i b b' l hl]
    · simp only [ht, hb, if_false, Bool.false_eq_true]
      exact hrow i b b' l hl
  · intro i b b'
    have ht := htest _ _ (fun l hl => hrow i b b' l hl)
    by_cases hb : test (row i b') = true
    · simp only [ht, hb, if_true]
    · simp only [ht, hb, if_false, Bool.false_eq_true]

theorem plainLoop_idem {K : Type} (span n : Nat) (row : Nat → (Nat → K) → Nat → K)
    (hrow : ∀ i b b' l, l < span → row i b l = row i b' l)
    (body : Nat → (Nat → K) × Int → (Nat → K) × Int)
    (hbody : ∀ i s, body i s = (blit s.1 (span * i) span (row i (slice s.1 (span * i))), s.2))
    (x3 : Nat → K) :
    forLoop n body ((forLoop n body (x3, 0)).1, 0) = forLoop n body (x3, 0) := by
  refine rowLoop_idem span n (fun i b => (row i b, 0)) body ?_ ?_ ?_ x3
  · intro i s
    rw [hbody]
    simp
  · intro i b b' l hl
    exact hrow i b b' l hl
  · intro i b b'
    rfl

/-- The kernel `newviewCAT_FLEX` run again on its own output vector returns
the same vector and the same scaler increment. -/
theorem newviewCAT_FLEX_idem {K : Type} [LinearOrderedField K] (c : consts K)
    (tipCase : tipCases) (extEV : Nat → K) (cptr : Nat → Nat) (x1 x2 x3 tipVector : Nat → K)
    (tipX1 tipX2 : Nat → Nat) (n : Nat) (left right : Nat → K) (wgt : Nat → Int)
    (states : Nat) (r : (Nat → K) × Int)
    (h : newviewCAT_FLEX c tipCase extEV cptr x1 x2 x3 tipVector tipX1 tipX2 n left right wgt
      states = .ok r) :
    newviewCAT_FLEX c tipCase extEV cptr x1 x2 r.1 tipVector tipX1 tipX2 n left right wgt
      states = .ok r := by
  cases tipCase with
  | TIP_TIP =>
    simp only [newviewCAT_FLEX] at h ⊢
    injection h with h
    subst h
    exact congrArg Except.ok (plainLoop_idem states n
      (fun i b => rowCAT states extEV (slice left (cptr i * (states * states)))
        (slice right (cptr i * (states * states))) (slice tipVector (states * tipX1 i))
        (slice tipVector (states * tipX2 i)) b)
      (fun i b b' l hl => rowCAT_base _ _ _ _ _ _ b b' l hl) _ (fun i s => rfl) x3)
  | TIP_INNER =>
    simp only [newviewCAT_FLEX] at h ⊢
    injection h with h
    subst h
    exact congrArg Except.ok (scaledLoop_idem c states n wgt
      (fun i b => rowCAT states extEV (slice left (cptr i * (states * states)))
        (slice right (cptr i * (states * states))) (slice tipVector (states * tipX1 i))
        (slice x2 (states * i)) b) (scaleTestCAT c states)
      (fun i b b' l hl => rowCAT_base _ _ _ _ _ _ b b' l hl)
      (fun v v' hv => scaleTestCAT_base c states v v' hv) _ (fun i s => rfl) x3)
  | INNER_INNER =>
    simp only [newviewCAT_FLEX] at h ⊢
    injection h with h
    subst h
    exact congrArg Except.ok (scaledLoop_idem c states n wgt
      (fun i b => rowCAT states extEV (slice left (cptr i * (states * states)))
        (slice right (cptr i * (states * states))) (slice x1 (states * i))
        (slice x2 (states * i)) b) (scaleTestCAT c states)
      (fun i b b' l hl => rowCAT_base _ _ _ _ _ _ b b' l hl)
      (fun v v' hv => scaleTestCAT_base c states v v' hv) _ (fun i s => rfl) x3)
  | TIP_TIP_CLV => simp [newviewCAT_FLEX] at h
  | TIP_INNER_CLV => simp [newviewCAT_FLEX] at h

/-- The kernel `newviewGAMMA_FLEX` run again on its own output vector returns
the same vector and the same scaler increment. -/
theorem newviewGAMMA_FLEX_idem {K : Type} [LinearOrderedField K] (c : consts K)
    (tipCase : tipCases) (x1 x2 x3 extEV tipVector : Nat → K) (tipX1 tipX2 : Nat → Nat)
    (n : Nat) (left right : Nat → K) (wgt : Nat → Int) (states maxStateValue : Nat)
    (r : (Nat → K) × Int)
    (h : newviewGAMMA_FLEX c tipCase x1 x2 x3 extEV tipVector tipX1 tipX2 n left right wgt
      states maxStateValue = .ok r) :
    newviewGAMMA_FLEX c tipCase x1 x2 r.1 extEV tipVector tipX1 tipX2 n left right wgt
      states maxStateValue = .ok r := by
  cases tipCase with
  | TIP_TIP =>
    simp only [newviewGAMMA_FLEX] at h ⊢
    injection h with h
    subst h
    exact congrArg Except.ok (plainLoop_idem (states * 4) n
      (fun i b => rowGAMMA_TIP_TIP states extEV
        (slice (precomputeTips states (states * 4) maxStateValue tipVector left)
          (states * 4 * tipX1 i))
        (slice (precomputeTips states (states * 4) maxStateValue tipVector right)
          (states * 4 * tipX2 i)) b)
      (fun i b b' l hl => rowGAMMA_TIP_TIP_base _ _ _ _ b b' l hl) _
      (fun i s => by rw [Nat.mul_comm i (states * 4)]) x3)
  | TIP_INNER =>
    simp only [newviewGAMMA_FLEX] at h ⊢
    injection h with h
    subst h
    exact congrArg Except.ok (scaledLoop_idem c (states * 4) n wgt
      (fun i b => rowGAMMA_TIP_INNER states extEV
        (slice (precomputeTips states (states * 4) maxStateValue tipVector left)
          (states * 4 * tipX1 i)) right (slice x2 (states * 4 * i)) b)
      (scaleTestGAMMA c (states * 4))
      (fun i b b' l hl => rowGAMMA_TIP_INNER_base _ _ _ _ _ b b' l hl)
      (fun v v' hv => scaleTestGAMMA_base c (states * 4) v v' hv) _ (fun i s => rfl) x3)
  | INNER_INNER =>
    simp only [newviewGAMMA_FLEX] at h ⊢
    injection h with h
    subst h
    exact congrArg Except.ok (scaledLoop_idem c (states * 4) n wgt
      (fun i b => rowGAMMA_INNER_INNER states extEV left right (slice x1 (states * 4 * i))
        (slice x2 (states * 4 * i)) b)
      (scaleTestGAMMA c (states * 4))
      (fun i b b' l hl => rowGAMMA_INNER_INNER_base _ _ _ _ _ _ b b' l hl)
      (fun v v' hv => scaleTestGAMMA_base c (states * 4) v v' hv) _ (fun i s => rfl) x3)
  | TIP_TIP_CLV => simp [newviewGAMMA_FLEX] at h
  | TIP_INNER_CLV => simp [newviewGAMMA_FLEX] at h

theorem entryVectors_frame {K : Type} [LinearOrderedField K] (mxtips : Nat)
    (e : traversalInfo K) (pd : pInfo K) (x3 : Nat → K) (gs : Nat → Nat)
    (hqi : e.tipCase = .INNER_INNER → e.qNumber - mxtips - 1 ≠ e.pNumber - mxtips - 1)
    (hri : e.tipCase ≠ .TIP_TIP → e.rNumber - mxtips - 1 ≠ e.pNumber - mxtips - 1) :
    entryVectors mxtips e
      { pd with xVector := fun k => if k = e.pNumber - mxtips - 1 then x3 else pd.xVector k
                globalScaler := gs } = entryVectors mxtips e pd := by
  unfold entryVectors
  cases htc : e.tipCase with
  | TIP_TIP => rfl
  | TIP_INNER =>
    have h := hri (by rw [htc]; exact fun h => by cases h)
    simp only [if_neg h]
  | INNER_INNER =>
    have h := hri (by rw [htc]; exact fun h => by cases h)
    have h' := hqi htc
    simp only [if_neg h, if_neg h']
  | TIP_TIP_CLV => rfl
  | TIP_INNER_CLV => rfl

theorem entryKernel_idem {K : Type} [LinearOrderedField K] (c : consts K) (mxtips : Nat)
    (rh : rateHet) (sm : Bool) (e : traversalInfo K) (pd : pInfo K) (r : (Nat → K) × Int)
    (gs : Nat → Nat)
    (hqi : e.tipCase = .INNER_INNER → e.qNumber - mxtips - 1 ≠ e.pNumber - mxtips - 1)
    (hri : e.tipCase ≠ .TIP_TIP → e.rNumber - mxtips - 1 ≠ e.pNumber - mxtips - 1)
    (h : entryKernel c mxtips rh sm e pd = .ok r) :
    entryKernel c mxtips rh sm e
      { pd with xVector := fun k => if k = e.pNumber - mxtips - 1 then r.1 else pd.xVector k
                globalScaler := gs } = .ok r := by
  unfold entryKernel at h ⊢
  rw [entryVectors_frame mxtips e pd r.1 gs hqi hri]
  cases hv : entryVectors mxtips e pd with
  | error err => rw [hv] at h; cases h
  | ok v =>
    obtain ⟨x1, x2, t1, t2⟩ := v
    rw [hv] at h
    simp only at h ⊢
    by_cases hsm : sm = true
    · rw [if_pos hsm] at h; cases h
    · rw [if_neg hsm] at h ⊢
      by_cases hpl : rh = .PLAIN
      · rw [if_pos hpl] at h; cases h
      · rw [if_neg hpl] at h ⊢
        cases htp : tipPointers e.tipCase t1 t2 with
        | error err => rw [htp] at h; cases h
        | ok tp =>
          obtain ⟨tipX1, tipX2⟩ := tp
          rw [htp] at h
          simp only at h ⊢
          by_cases hcat : rh = .CAT
          · rw [if_pos hcat] at h ⊢
            rw [if_pos trivial]
            exact newviewCAT_FLEX_idem c _ _ _ _ _ _ _ _ _ _ _ _ _ _ r h
          · rw [if_neg hcat] at h ⊢
            rw [if_pos trivial]
            exact newviewGAMMA_FLEX_idem c _ _ _ _ _ _ _ _ _ _ _ _ _ _ r h

/-- The second loop body of `newviewIterative` run again on its own result
leaves the partition as it is, when the children's numbers and vectors are
not those of the node itself. -/
theorem updateVector_idem {K : Type} [LinearOrderedField K] (c : consts K) (mxtips : Nat)
    (rh : rateHet) (sm : Bool) (e : traversalInfo K) (pd pd2 : pInfo K)
    (hq : e.qNumber ≠ e.pNumber) (hr : e.rNumber ≠ e.pNumber)
    (hqi : e.tipCase = .INNER_INNER → e.qNumber - mxtips - 1 ≠ e.pNumber - mxtips - 1)
    (hri : e.tipCase ≠ .TIP_TIP → e.rNumber - mxtips - 1 ≠ e.pNumber - mxtips - 1)
    (h : updateVector c mxtips rh sm e pd = .ok pd2) :
    updateVector c mxtips rh sm e pd2 = .ok pd2 := by
  unfold updateVector at h
  cases hk : entryKernel c mxtips rh sm e pd with
  | error err => rw [hk] at h; cases h
  | ok r =>
    rw [hk] at h
    simp only at h
    split_ifs at h with hgs
    injection h with h
    have hk2 := entryKernel_idem c mxtips rh sm e pd r
      (fun k => if k = e.pNumber then
        addUnsigned (addUnsigned (pd.globalScaler e.qNumber) (pd.globalScaler e.rNumber))
          (toUnsigned r.2) else pd.globalScaler k) hqi hri hk
    rw [h] at hk2
    unfold updateVector
    rw [hk2]
    simp only
    have e1 : pd2.globalScaler e.qNumber = pd.globalScaler e.qNumber := by
      rw [← h]
      simp only [if_neg hq]
    have e2 : pd2.globalScaler e.rNumber = pd.globalScaler e.rNumber := by
      rw [← h]
      simp only [if_neg hr]
    rw [e1, e2, if_pos hgs]
    refine congrArg Except.ok ?_
    rw [← h]
    simp only
    congr 1
    · funext k
      split_ifs <;> rfl
    · funext k
      split_ifs <;> rfl

theorem makePOne_idem {K : Type} [LinearOrderedField K] (c : consts K) (z : K)
    (rptr EI EIGN : Nat → K) (n : Nat) (P : Nat → K) (sm : Bool) (mc S : Nat) :
    makePOne c z rptr EI EIGN n (makePOne c z rptr EI EIGN n P sm mc S) sm mc S =
      makePOne c z rptr EI EIGN n P sm mc S := by
  funext x
  simp only [makePOne_apply]
  split_ifs <;> rfl

theorem makePOne_FlexLG4_apply {K : Type} [LinearOrderedField K] (c : consts K) (z : K)
    (rptr : Nat → K) (EI EIGN : Nat → Nat → K) (n : Nat) (P : Nat → K) (S x : Nat) :
    makePOne_FlexLG4 c z rptr EI EIGN n P S x =
      if x < S * S * n then
        pcell S (fun j => c.EXP (rptr (x / (S * S)) * EIGN (x / (S * S)) j * z))
          (EI (x / (S * S))) (x % (S * S))
      else P x := by
  unfold makePOne_FlexLG4
  induction n with
  | zero => rw [forLoop_zero, if_neg (by omega)]
  | succ n ih =>
    rw [forLoop_succ, fillP_apply, ih]
    have hm : S * S * (n + 1) = S * S * n + S * S := by ring
    by_cases h1 : S * S * n ≤ x ∧ x < S * S * n + S * S
    · obtain ⟨e1, e2⟩ := block_div_mod (S * S) n x h1.1 h1.2
      rw [if_pos h1, if_pos (by omega), e1, e2]
    · rw [if_neg h1]
      by_cases h2 : x < S * S * n
      · rw [if_pos h2, if_pos (by omega)]
      · rw [if_neg h2, if_neg (by omega)]

theorem makePOne_FlexLG4_idem {K : Type} [LinearOrderedField K] (c : consts K) (z : K)
    (rptr : Nat → K) (EI EIGN : Nat → Nat → K) (n : Nat) (P : Nat → K) (S : Nat) :
    makePOne_FlexLG4 c z rptr EI EIGN n (makePOne_FlexLG4 c z rptr EI EIGN n P S) S =
      makePOne_FlexLG4 c z rptr EI EIGN n P S := by
  funext x
  simp only [makePOne_FlexLG4_apply]
  split_ifs <;> rfl

/-- The P matrices computed again for the same entry on the partition that
holds them (with any vectors and scaling counters) are the ones it holds. -/
theorem pmatrices_idem {K : Type} [LinearOrderedField K] (c : consts K)
    (nb mc : Nat) (rh : rateHet) (sm : Bool) (e : traversalInfo K) (m : Nat) (pd pd1 : pInfo K)
    (xv : Nat → Nat → K) (gs : Nat → Nat)
    (h : pmatrices c nb mc rh sm e m pd = .ok pd1) :
    pmatrices c nb mc rh sm e m { pd1 with xVector := xv, globalScaler := gs } =
      .ok { pd1 with xVector := xv, globalScaler := gs } := by
  by_cases hl : pd.protModelsLG4 = true
  · simp only [pmatrices, makeP_FlexLG4, hl, if_true, (by decide : (20 : Nat) ≤ 64)] at h
    injection h with h
    subst h
    simp only [pmatrices, makeP_FlexLG4, hl, if_true, (by decide : (20 : Nat) ≤ 64),
      makePOne_FlexLG4_idem]
  · simp only [pmatrices, hl, if_false] at h
    injection h with h
    subst h
    simp only [pmatrices, hl, if_false, makeP, makePOne_idem, rateCategoriesOf,
      Bool.false_eq_true]

theorem sameFrame_refl {K : Type} (s : tree K) : s.SameFrame s := by
  unfold tree.SameFrame
  rfl

theorem sameFrame_trans {K : Type} {a b d : tree K} (h1 : a.SameFrame b)
    (h2 : b.SameFrame d) : a.SameFrame d := by
  unfold tree.SameFrame at *
  rw [h2, h1]

theorem sameFrame_setPartition {K : Type} {a b : tree K} (h : a.SameFrame b) (m : Nat)
    (pd : pInfo K) : a.SameFrame (b.setPartition m pd) := by
  unfold tree.SameFrame at *
  rw [h]
  rfl

/-- A loop over the partitions whose body rewrites partition `m` from
partition `m` alone: the result differs in the partition data only, partition
`m < n` is the result of the body and the other partitions are as before. -/
theorem forLoopM_partitions {K : Type} (G : Nat → pInfo K → Except Fault (pInfo K))
    (body : Nat → tree K → Except Fault (tree K)) (s0 : tree K)
    (hbody : ∀ m s, s0.SameFrame s → body m s =
      match G m (s.partitionData m) with
      | .error e => .error e
      | .ok pd => .ok (s.setPartition m pd)) :
    ∀ (n : Nat) (s' : tree K), forLoopM n body s0 = .ok s' →
      s0.SameFrame s' ∧ ∀ m, (m < n → G m (s0.partitionData m) = .ok (s'.partitionData m)) ∧
        (n ≤ m → s'.partitionData m = s0.partitionData m) := by
  intro n
  induction n with
  | zero =>
    intro s' h
    rw [forLoopM_zero] at h
    injection h with h
    subst h
    exact ⟨sameFrame_refl _, fun m => ⟨fun hm => by omega, fun _ => rfl⟩⟩
  | succ n ih =>
    intro s' h
    rw [forLoopM_succ] at h
    cases hn : forLoopM n body s0 with
    | error err => rw [hn] at h; cases h
    | ok s =>
      rw [hn] at h
      simp only at h
      obtain ⟨fr, hm⟩ := ih s hn
      rw [hbody n s fr, (hm n).2 (le_refl n)] at h
      cases hg : G n (s0.partitionData n) with
      | error err => rw [hg] at h; cases h
      | ok pd =>
        rw [hg] at h
        injection h with h
        subst h
        refine ⟨sameFrame_setPartition fr n pd, fun m => ⟨fun hlt => ?_, fun hle => ?_⟩⟩
        · by_cases hmn : m = n
          · subst hmn
            simp only [tree.setPartition, if_true]
            exact hg
          · simp only [tree.setPartition, if_neg hmn]
            exact (hm m).1 (by omega)
        · have hmn : m ≠ n := by omega
          simp only [tree.setPartition, if_neg hmn]
          exact (hm m).2 (by omega)

/-- A loop over the partitions whose body leaves every partition `m < n` as
it is returns the tree it started from. -/
theorem forLoopM_partitions_fix {K : Type} (G : Nat → pInfo K → Except Fault (pInfo K))
    (body : Nat → tree K → Except Fault (tree K)) (s : tree K)
    (hbody : ∀ m, body m s =
      match G m (s.partitionData m) with
      | .error e => .error e
      | .ok pd => .ok (s.setPartition m pd)) (n : Nat)
    (hfix : ∀ m, m < n → G m (s.partitionData m) = .ok (s.partitionData m)) :
    forLoopM n body s = .ok s := by
  induction n with
  | zero => rfl
  | succ n ih =>
    rw [forLoopM_succ, ih (fun m hm => hfix m (by omega))]
    simp only
    rw [hbody n, hfix n (by omega)]
    simp only [setPartition_self]

theorem newviewMakeP_eq {K : Type} [LinearOrderedField K] (c : consts K) (e : traversalInfo K)
    (m : Nat) (s : tree K) :
    newviewMakeP c e m s =
      match (if !s.td_executeModel m || (s.partitionData m).width = 0 then
          .ok (s.partitionData m)
        else pmatrices c s.numBranches s.maxCategories s.rateHetModel s.saveMemory e m
          (s.partitionData m)) with
      | .error err => .error err
      | .ok pd => .ok (s.setPartition m pd) := by
  unfold newviewMakeP
  by_cases h : (!s.td_executeModel m || decide ((s.partitionData m).width = 0)) = true
  · simp only [h, if_true, setPartition_self]
  · simp only [h, if_false, Bool.false_eq_true]

theorem newviewPartition_eq {K : Type} [LinearOrderedField K] (c : consts K)
    (e : traversalInfo K) (m : Nat) (s : tree K) :
    newviewPartition c e m s =
      match (if s.td_executeModel m && decide ((s.partitionData m).width > 0) then
          updateVector c s.mxtips s.rateHetModel s.saveMemory e (s.partitionData m)
        else .ok (s.partitionData m)) with
      | .error err => .error err
      | .ok pd => .ok (s.setPartition m pd) := by
  unfold newviewPartition
  by_cases h : (s.td_executeModel m && decide ((s.partitionData m).width > 0)) = true
  · simp only [h, if_true]
  · simp only [h, if_false, Bool.false_eq_true, setPartition_self]

theorem sameFrame_fields {K : Type} {a b : tree K} (h : a.SameFrame b) :
    b.td_executeModel = a.td_executeModel ∧ b.numBranches = a.numBranches ∧
      b.maxCategories = a.maxCategories ∧ b.rateHetModel = a.rateHetModel ∧
      b.saveMemory = a.saveMemory ∧ b.mxtips = a.mxtips ∧
      b.NumberOfModels = a.NumberOfModels ∧ b.executeModel = a.executeModel ∧
      b.nodep = a.nodep ∧ b.ti = a.ti := by
  unfold tree.SameFrame at h
  rw [h]
  exact ⟨rfl, rfl, rfl, rfl, rfl, rfl, rfl, rfl, rfl, rfl⟩

theorem pmatrices_width {K : Type} [LinearOrderedField K] (c : consts K)
    (nb mc : Nat) (rh : rateHet) (sm : Bool) (e : traversalInfo K) (m : Nat) (pd pd1 : pInfo K)
    (h : pmatrices c nb mc rh sm e m pd = .ok pd1) : pd1.width = pd.width := by
  obtain ⟨l, r, hp⟩ := pmatrices_ok c nb mc rh sm e m pd
  rw [hp] at h
  injection h with h
  rw [← h]

/-- One entry of the descriptor: the result differs in the partition data
only, and each partition below `NumberOfModels` is the result of
`entryPartition`. -/
theorem newviewEntry_partitions {K : Type} [LinearOrderedField K] (c : consts K)
    (e : traversalInfo K) (s0 s' : tree K) (h : newviewEntry c e s0 = .ok s') :
    s0.SameFrame s' ∧ ∀ m, (m < s0.NumberOfModels →
        entryPartition c s0 e m (s0.partitionData m) = .ok (s'.partitionData m)) ∧
      (s0.NumberOfModels ≤ m → s'.partitionData m = s0.partitionData m) := by
  unfold newviewEntry at h
  cases h1 : forLoopM s0.NumberOfModels (newviewMakeP c e) s0 with
  | error err => rw [h1] at h; cases h
  | ok s1 =>
    rw [h1] at h
    simp only at h
    obtain ⟨fr1, p1⟩ := forLoopM_partitions
      (fun m pd => if !s0.td_executeModel m || pd.width = 0 then .ok pd
        else pmatrices c s0.numBranches s0.maxCategories s0.rateHetModel s0.saveMemory e m pd)
      (newviewMakeP c e) s0
      (fun m s fr => by
        obtain ⟨f1, f2, f3, f4, f5, _, _, _, _, _⟩ := sameFrame_fields fr
        rw [newviewMakeP_eq, f1, f2, f3, f4, f5]) _ s1 h1
    obtain ⟨g1, g2, g3, g4, g5, g6, g7, _, _, _⟩ := sameFrame_fields fr1
    rw [g7] at h
    obtain ⟨fr2, p2⟩ := forLoopM_partitions
      (fun m pd => if s0.td_executeModel m && decide (pd.width > 0) then
          updateVector c s0.mxtips s0.rateHetModel s0.saveMemory e pd
        else .ok pd)
      (newviewPartition c e) s1
      (fun m s fr => by
        obtain ⟨f1, f2, f3, f4, f5, f6, _, _, _, _⟩ := sameFrame_fields (sameFrame_trans fr1 fr)
        rw [newviewPartition_eq, f1, f4, f5, f6]) _ s' h
    refine ⟨sameFrame_trans fr1 fr2, fun m => ⟨fun hm => ?_, fun hm => ?_⟩⟩
    · have q1 := (p1 m).1 hm
      have q2 := (p2 m).1 hm
      simp only at q1 q2
      unfold entryPartition
      by_cases hc : (!s0.td_executeModel m || decide ((s0.partitionData m).width = 0)) = true
      · rw [if_pos hc] at q1 ⊢
        injection q1 with q1
        rw [← q1] at q2
        have hc2 : ¬ ((s0.td_executeModel m && decide ((s0.partitionData m).width > 0)) = true) := by
          simp only [Bool.or_eq_true, Bool.not_eq_true', decide_eq_true_eq] at hc
          simp only [Bool.and_eq_true, decide_eq_true_eq, not_and]
          rcases hc with hc | hc
          · intro ht
            rw [hc] at ht
            cases ht
          · intro _
            omega
        rw [if_neg hc2] at q2
        exact q2
      · rw [if_neg hc] at q1 ⊢
        rw [q1]
        simp only
        have hw := pmatrices_width c _ _ _ _ e m _ _ q1
        have hc2 : (s0.td_executeModel m && decide ((s1.partitionData m).width > 0)) = true := by
          simp only [Bool.or_eq_true, Bool.not_eq_true', decide_eq_true_eq, not_or,
            Bool.not_eq_false] at hc
          simp only [Bool.and_eq_true, decide_eq_true_eq, hw]
          exact ⟨hc.1, by omega⟩
        rw [if_pos hc2] at q2
        exact q2
    · rw [(p2 m).2 (by omega), (p1 m).2 hm]

theorem entryPartition_fix {K : Type} [LinearOrderedField K] (c : consts K) (tr : tree K)
    (e : traversalInfo K) (m : Nat) (pd pd2 : pInfo K)
    (hq : e.qNumber ≠ e.pNumber) (hr : e.rNumber ≠ e.pNumber)
    (hqi : e.tipCase = .INNER_INNER → e.qNumber - tr.mxtips - 1 ≠ e.pNumber - tr.mxtips - 1)
    (hri : e.tipCase ≠ .TIP_TIP → e.rNumber - tr.mxtips - 1 ≠ e.pNumber - tr.mxtips - 1)
    (h : entryPartition c tr e m pd = .ok pd2) :
    (if !tr.td_executeModel m || pd2.width = 0 then .ok pd2
      else pmatrices c tr.numBranches tr.maxCategories tr.rateHetModel tr.saveMemory e m pd2) =
        .ok pd2 ∧
    (if tr.td_executeModel m && decide (pd2.width > 0) then
        updateVector c tr.mxtips tr.rateHetModel tr.saveMemory e pd2
      else .ok pd2) = .ok pd2 := by
  have hw := entryPartition_width c tr e m pd pd2 h
  unfold entryPartition at h
  by_cases hc : (!tr.td_executeModel m || decide (pd.width = 0)) = true
  · have hc' : (!tr.td_executeModel m || decide (pd2.width = 0)) = true := by rw [hw]; exact hc
    have hc2 : ¬ ((tr.td_executeModel m && decide (pd2.width > 0)) = true) := by
      simp only [Bool.or_eq_true, Bool.not_eq_true', decide_eq_true_eq] at hc'
      simp only [Bool.and_eq_true, decide_eq_true_eq, not_and]
      rcases hc' with hc' | hc'
      · intro ht
        rw [hc'] at ht
        cases ht
      · intro _
        omega
    rw [if_pos hc', if_neg hc2]
    exact ⟨rfl, rfl⟩
  · have hc' : ¬ ((!tr.td_executeModel m || decide (pd2.width = 0)) = true) := by rw [hw]; exact hc
    have hc2 : (tr.td_executeModel m && decide (pd2.width > 0)) = true := by
      simp only [Bool.or_eq_true, Bool.not_eq_true', decide_eq_true_eq, not_or,
        Bool.not_eq_false] at hc'
      simp only [Bool.and_eq_true, decide_eq_true_eq]
      exact ⟨hc'.1, by omega⟩
    rw [if_neg hc] at h
    rw [if_neg hc', if_pos hc2]
    cases hp : pmatrices c tr.numBranches tr.maxCategories tr.rateHetModel tr.saveMemory e m
        pd with
    | error err => rw [hp] at h; cases h
    | ok pd1 =>
      rw [hp] at h
      simp only at h
      have hst := updateVector_static c _ _ _ e pd1 pd2 h
      have hu := updateVector_idem c _ _ _ e pd1 pd2 hq hr hqi hri h
      refine ⟨?_, hu⟩
      have := pmatrices_idem c _ _ _ _ e m pd pd1 pd2.xVector pd2.globalScaler hp
      rw [← hst] at this
      exact this

/-- One entry of the descriptor processed again on a tree that holds its
result returns that tree. -/
theorem newviewEntry_idem {K : Type} [LinearOrderedField K] (c : consts K)
    (e : traversalInfo K) (s0 s1 s2 : tree K)
    (hq : e.qNumber ≠ e.pNumber) (hr : e.rNumber ≠ e.pNumber)
    (hqi : e.tipCase = .INNER_INNER → e.qNumber - s0.mxtips - 1 ≠ e.pNumber - s0.mxtips - 1)
    (hri : e.tipCase ≠ .TIP_TIP → e.rNumber - s0.mxtips - 1 ≠ e.pNumber - s0.mxtips - 1)
    (h : newviewEntry c e s0 = .ok s1)
    (hpd : s2.partitionData = s1.partitionData)
    (htd : s2.td_executeModel = s0.td_executeModel) (hnb : s2.numBranches = s0.numBranches)
    (hmc : s2.maxCategories = s0.maxCategories) (hrh : s2.rateHetModel = s0.rateHetModel)
    (hsm : s2.saveMemory = s0.saveMemory) (hmx : s2.mxtips = s0.mxtips)
    (hnm : s2.NumberOfModels = s0.NumberOfModels) :
    newviewEntry c e s2 = .ok s2 := by
  obtain ⟨_, hp⟩ := newviewEntry_partitions c e s0 s1 h
  have hfix : ∀ m, m < s2.NumberOfModels →
      (if !s2.td_executeModel m || (s2.partitionData m).width = 0 then .ok (s2.partitionData m)
        else pmatrices c s2.numBranches s2.maxCategories s2.rateHetModel s2.saveMemory e m
          (s2.partitionData m)) = .ok (s2.partitionData m) ∧
      (if s2.td_executeModel m && decide ((s2.partitionData m).width > 0) then
          updateVector c s2.mxtips s2.rateHetModel s2.saveMemory e (s2.partitionData m)
        else .ok (s2.partitionData m)) = .ok (s2.partitionData m) := by
    intro m hm
    rw [hnm] at hm
    rw [hpd, htd, hnb, hmc, hrh, hsm, hmx]
    exact entryPartition_fix c s0 e m _ _ hq hr hqi hri ((hp m).1 hm)
  unfold newviewEntry
  rw [forLoopM_partitions_fix
    (fun m pd => if !s2.td_executeModel m || pd.width = 0 then .ok pd
      else pmatrices c s2.numBranches s2.maxCategories s2.rateHetModel s2.saveMemory e m pd)
    _ s2 (fun m => newviewMakeP_eq c e m s2) _ (fun m hm => (hfix m hm).1)]
  simp only
  exact forLoopM_partitions_fix
    (fun m pd => if s2.td_executeModel m && decide (pd.width > 0) then
        updateVector c s2.mxtips s2.rateHetModel s2.saveMemory e pd
      else .ok pd)
    _ s2 (fun m => newviewPartition_eq c e m s2) _ (fun m hm => (hfix m hm).2)

theorem newviewEntries_frame {K : Type} [LinearOrderedField K] (c : consts K)
    (es : List (traversalInfo K)) :
    ∀ (s s' : tree K), es.foldlM (fun tr e => newviewEntry c e tr) s = .ok s' →
      s.SameFrame s' := by
  induction es with
  | nil =>
    intro s s' h
    injection h with h
    subst h
    exact sameFrame_refl _
  | cons e es ih =>
    intro s s' h
    rw [List.foldlM_cons] at h
    cases h1 : newviewEntry c e s with
    | error err =>
      rw [h1] at h
      cases h
    | ok s1 =>
      rw [h1] at h
      exact sameFrame_trans (newviewEntry_partitions c e s s1 h1).1 (ih s1 s' h)

theorem visit_last {K : Type} (pt : Bool) (h : heap K) (p : Nat) (l r : Topo) :
    ∃ pre, visit pt h (.inner p l r) = pre ++ [.inner p l r] := by
  unfold visit
  exact ⟨_, rfl⟩

theorem visit_oriented {K : Type} (h : heap K) (p : Nat) (l r : Topo)
    (ho : Oriented h (.inner p l r)) : visit true h (.inner p l r) = [.inner p l r] := by
  obtain ⟨_, o2, o3⟩ := ho
  have hl : (if descend true h l then visit true h l else []) = [] := by
    cases l with
    | tip a => simp [visit]
    | inner a la ra =>
      have := o2 rfl
      simp only [Topo.root] at this
      simp [descend, Topo.root, this]
  have hr : (if descend true h r then visit true h r else []) = [] := by
    cases r with
    | tip a => simp [visit]
    | inner a la ra =>
      have := o3 rfl
      simp only [Topo.root] at this
      simp [descend, Topo.root, this]
  unfold visit
  rw [hl, hr]
  rfl

theorem isTip_false_iff (number maxTips : Nat) : isTip number maxTips = false ↔ maxTips < number := by
  unfold isTip
  simp

/-- The entry of an inner node of a well-formed subtree: the numbers of the
children differ from the number of the node, and so do the places of the
vectors of the inner children. -/
theorem entryOf_distinct {K : Type} (nb maxTips : Nat) (h : heap K) (p : Nat) (l r : Topo)
    (wf : WellFormed h maxTips (.inner p l r)) :
    (entryOf nb h (.inner p l r)).pNumber = (h p).number ∧
    (entryOf nb h (.inner p l r)).qNumber ≠ (entryOf nb h (.inner p l r)).pNumber ∧
    (entryOf nb h (.inner p l r)).rNumber ≠ (entryOf nb h (.inner p l r)).pNumber ∧
    ((entryOf nb h (.inner p l r)).tipCase = .INNER_INNER →
      (entryOf nb h (.inner p l r)).qNumber - maxTips - 1 ≠
        (entryOf nb h (.inner p l r)).pNumber - maxTips - 1) ∧
    ((entryOf nb h (.inner p l r)).tipCase ≠ .TIP_TIP →
      (entryOf nb h (.inner p l r)).rNumber - maxTips - 1 ≠
        (entryOf nb h (.inner p l r)).pNumber - maxTips - 1) := by
  obtain ⟨⟨hp, _, _, sl, sr⟩, _, hn⟩ := wf
  rw [isTip_false_iff] at hp
  simp only [Topo.numbers, List.nodup_cons, List.mem_append, not_or] at hn
  obtain ⟨⟨nl, nr⟩, _⟩ := hn
  have hl : (h l.root).number ≠ (h p).number := by
    intro e
    apply nl
    rw [← e]
    cases l <;> simp [Topo.numbers, Topo.root]
  have hr : (h r.root).number ≠ (h p).number := by
    intro e
    apply nr
    rw [← e]
    cases r <;> simp [Topo.numbers, Topo.root]
  have il : l.isInner = true → maxTips < (h l.root).number := by
    intro hi
    have := shape_root_isTip sl
    rw [hi] at this
    exact (isTip_false_iff _ _).1 this
  have ir : r.isInner = true → maxTips < (h r.root).number := by
    intro hi
    have := shape_root_isTip sr
    rw [hi] at this
    exact (isTip_false_iff _ _).1 this
  cases l with
  | tip a =>
    cases r with
    | tip b =>
      simp only [Topo.root] at hl hr
      refine ⟨rfl, hl, hr, fun hc => ?_, fun hc => ?_⟩
      · simp [entryOf, mkEntry] at hc
      · simp [entryOf, mkEntry] at hc
    | inner b lb rb =>
      simp only [Topo.root] at hl hr
      have := ir rfl
      simp only [Topo.root] at this
      refine ⟨rfl, hl, hr, fun hc => ?_, fun _ => ?_⟩
      · simp [entryOf, mkEntry] at hc
      · simp only [entryOf, mkEntry]
        omega
  | inner a la ra =>
    have hia := il rfl
    simp only [Topo.root] at hia hl
    cases r with
    | tip b =>
      simp only [Topo.root] at hr
      refine ⟨rfl, hr, hl, fun hc => ?_, fun _ => ?_⟩
      · simp [entryOf, mkEntry] at hc
      · simp only [entryOf, mkEntry]
        omega
    | inner b lb rb =>
      have hib := ir rfl
      simp only [Topo.root] at hib hr
      refine ⟨rfl, hl, hr, fun _ => ?_, fun _ => ?_⟩
      · simp only [entryOf, mkEntry]
        omega
      · simp only [entryOf, mkEntry]
        omega

theorem newviewIterative_single {K : Type} [LinearOrderedField K] (c : consts K) (s : tree K)
    (e : traversalInfo K) (hti : s.ti = [e]) (h : newviewEntry c e s = .ok s) :
    newviewIterative c s 0 = .ok s := by
  unfold newviewIterative
  rw [hti, List.drop_zero, List.foldlM_cons, h]
  rfl

theorem newviewIterative_last {K : Type} [LinearOrderedField K] (c : consts K) (s s' : tree K)
    (pre : List (traversalInfo K)) (e : traversalInfo K) (hti : s.ti = pre ++ [e])
    (h : newviewIterative c s 0 = .ok s') :
    ∃ s0, s.SameFrame s0 ∧ newviewEntry c e s0 = .ok s' := by
  unfold newviewIterative at h
  rw [hti, List.drop_zero, List.foldlM_append] at h
  cases hp : pre.foldlM (fun tr tInfo => newviewEntry c tInfo tr) s with
  | error err =>
    rw [hp] at h
    cases h
  | ok s0 =>
    rw [hp] at h
    refine ⟨s0, newviewEntries_frame c pre s s0 hp, ?_⟩
    change List.foldlM (fun tr tInfo => newviewEntry c tInfo tr) s0 [e] = .ok s' at h
    rw [List.foldlM_cons] at h
    cases he : newviewEntry c e s0 with
    | error err =>
      rw [he] at h
      cases h
    | ok s1 =>
      rw [he] at h
      exact h

/-- C8: idempotent newview. For an inner node `n` of a well-formed subtree and
enough fuel, when `newviewGeneric(tr, n, FALSE)` has returned, a second call
with no change in between returns too; its descriptor holds exactly one
entry, the entry of `n` that closes the descriptor of the first call (with
`pNumber = n`, the same children and branch lengths), and for every partition
the vector at `n` and `globalScaler[n]` (indeed the whole partition) are what
the first call left. -/
theorem newview_idempotent {K : Type} [LinearOrderedField K] (c : consts K) (fuel : Nat)
    (tr tr1 : tree K) (t : Topo) (ht : t.isInner = true)
    (wf : WellFormed tr.nodep tr.mxtips t) (hf : t.height < fuel)
    (h1 : newviewGeneric c fuel tr t.root false = .ok tr1) :
    ∃ tr2 pre, newviewGeneric c fuel tr1 t.root false = .ok tr2 ∧
      tr1.ti = pre ++ [entryOf tr.numBranches tr.nodep t] ∧
      tr2.ti = [entryOf tr.numBranches tr.nodep t] ∧
      (entryOf tr.numBranches tr.nodep t).pNumber = (tr.nodep t.root).number ∧
      ∀ m, (tr2.partitionData m).xVector ((tr.nodep t.root).number - tr.mxtips - 1) =
          (tr1.partitionData m).xVector ((tr.nodep t.root).number - tr.mxtips - 1) ∧
        (tr2.partitionData m).globalScaler (tr.nodep t.root).number =
          (tr1.partitionData m).globalScaler (tr.nodep t.root).number ∧
        tr2.partitionData m = tr1.partitionData m := by
  cases t with
  | tip a => simp [Topo.isInner] at ht
  | inner p l r =>
  simp only [Topo.root] at h1 ⊢
  have hnt : isTip (tr.nodep p).number tr.mxtips = false := wf.shape.1
  obtain ⟨h', hres1, st1, _, _, ho1⟩ := computeTraversalInfo_run tr.mxtips tr.numBranches true
    (.inner p l r) fuel tr.nodep [] wf.shape wf.records_nodup hf
  obtain ⟨pre, hvis⟩ := visit_last true tr.nodep p l r
  have ho : Oriented h' (.inner p l r) := ho1 _ (by rw [hvis]; simp)
  simp only [Topo.root] at hres1
  rw [hvis, List.nil_append, List.map_append, List.map_cons, List.map_nil] at hres1
  obtain ⟨hpn, hq, hr, hqi, hri⟩ := entryOf_distinct tr.numBranches tr.mxtips tr.nodep p l r wf
  -- the first call
  unfold newviewGeneric at h1
  rw [hnt] at h1
  simp only [Bool.false_eq_true, if_false, hres1, List.length_append, List.length_cons,
    List.length_nil, List.length_map, gt_iff_lt, Nat.lt_add_left_iff_pos, Nat.zero_lt_one,
    Nat.add_pos_iff_pos_or_pos, or_true, if_true] at h1
  cases hX : newviewIterative c (storeExecuteMaskInTraversalDescriptor
      { tr with nodep := h'
                ti := pre.map (entryOf tr.numBranches tr.nodep) ++
                  [entryOf tr.numBranches tr.nodep (.inner p l r)]
                traversalHasChanged := true }) 0 with
  | error err =>
    rw [hX] at h1
    cases h1
  | ok trX =>
    rw [hX] at h1
    injection h1 with h1
    obtain ⟨s0, fr0, he⟩ := newviewIterative_last c _ trX _ _ rfl hX
    obtain ⟨f1, f2, f3, f4, f5, f6, f7, f8, f9, f10⟩ :=
      sameFrame_fields (sameFrame_trans fr0 (newviewEntry_partitions c _ s0 trX he).1)
    obtain ⟨g1, g2, g3, g4, g5, g6, g7, _, _, _⟩ := sameFrame_fields fr0
    have e_nodep : tr1.nodep = h' := by rw [← h1]; exact f9
    have e_mx : tr1.mxtips = tr.mxtips := by rw [← h1]; exact f6
    have e_nb : tr1.numBranches = tr.numBranches := by rw [← h1]; exact f2
    have e_ti : tr1.ti = pre.map (entryOf tr.numBranches tr.nodep) ++
        [entryOf tr.numBranches tr.nodep (.inner p l r)] := by rw [← h1]; exact f10
    -- the second traversal
    obtain ⟨h'', hres2, _, _, _, _⟩ := computeTraversalInfo_run tr.mxtips tr.numBranches true
      (.inner p l r) fuel h' [] ((shape_congr st1 _ _).2 wf.shape)
      (by rw [records_congr st1]; exact wf.records_nodup) hf
    simp only [Topo.root] at hres2
    rw [visit_oriented h' p l r ho, List.nil_append, List.map_cons, List.map_nil,
      entryOf_congr st1] at hres2
    have hnt2 : isTip (h' p).number tr.mxtips = false := by rw [(st1 p).1]; exact hnt
    have hfix := newviewEntry_idem c (entryOf tr.numBranches tr.nodep (.inner p l r)) s0 trX
      (storeExecuteMaskInTraversalDescriptor
        { tr1 with nodep := h''
                   ti := [entryOf tr.numBranches tr.nodep (.inner p l r)]
                   traversalHasChanged := true })
      hq hr (by rw [g6]; exact hqi) (by rw [g6]; exact hri) he
      (by rw [← h1]; rfl)
      (by
        rw [g1]
        funext m
        simp only [storeExecuteMaskInTraversalDescriptor]
        rw [← h1]
        simp only [f7, f8, f1, storeExecuteMaskInTraversalDescriptor]
        split_ifs <;> rfl)
      (by rw [g2, ← h1]; exact f2) (by rw [g3, ← h1]; exact f3) (by rw [g4, ← h1]; exact f4)
      (by rw [g5, ← h1]; exact f5) (by rw [g6, ← h1]; exact f6) (by rw [g7, ← h1]; exact f7)
    have hit := newviewIterative_single c _ _ rfl hfix
    refine ⟨{ (storeExecuteMaskInTraversalDescriptor
        { tr1 with nodep := h''
                   ti := [entryOf tr.numBranches tr.nodep (.inner p l r)]
                   traversalHasChanged := true }) with traversalHasChanged := false },
      pre.map (entryOf tr.numBranches tr.nodep), ?_, e_ti, rfl, hpn,
      fun m => ⟨rfl, rfl, rfl⟩⟩
    rw [← e_nodep, ← e_mx] at hnt2
    rw [← e_nodep, ← e_mx] at hres2
    have hres3 : computeTraversalInfo tr1.mxtips tr1.numBranches true fuel tr1.nodep p [] =
        .ok (h'', [entryOf tr.numBranches tr.nodep (.inner p l r)]) := by
      rw [e_nb]
      exact hres2
    unfold newviewGeneric
    rw [hnt2]
    simp only [Bool.false_eq_true, if_false, hres3, List.length_cons, List.length_nil,
      gt_iff_lt, Nat.zero_lt_one, Nat.lt_add_left_iff_pos, if_true, zero_add]
    rw [hit]

theorem exNewview_run :
    ∃ tr1, newviewGeneric exConsts 3 (exTr [] [] (1 / 4) (1 / 4) 0 0) 5 false = .ok tr1 := by
  cases h : newviewGeneric exConsts 3 (exTr [] [] (1 / 4) (1 / 4) 0 0) 5 false with
  | ok tr1 => exact ⟨tr1, rfl⟩
  | error err =>
    exfalso
    simp [newviewGeneric, computeTraversalInfo, exHeap, isTip, orient, getxnode, mkEntry,
      copyBranches, storeExecuteMaskInTraversalDescriptor,
      newviewIterative, newviewEntry, newviewMakeP, newviewPartition, pmatrices,
      updateVector, entryKernel, entryVectors, tipPointers, newviewGAMMA_FLEX,
      rowGAMMA_TIP_INNER, rowGAMMA_TIP_TIP, precomputeTips, evProduct, dot, scaleTestGAMMA,
      scaleUp, makeP, makePOne, fillP, blit, slice, exTr, forLoop, forLoopFrom, forLoopM,
      exPartition, exConsts, tree.setPartition, branchOf, rateCategoriesOf, store,
      List.range_succ, addUnsigned, toUnsigned, INT_MAX, ABS, List.foldlM, pure, Except.pure,
      bind, Except.bind] at h
    norm_num [blit, slice, store] at h
    cases h

/-- Witness for C8: the example tree with no record oriented; the first call
at node 5 computes node 6 and node 5, the second call only node 5. -/
theorem newview_idempotent_witness :
    ∃ tr1, newviewGeneric exConsts 3 (exTr [] [] (1 / 4) (1 / 4) 0 0) exTree.root false =
        .ok tr1 ∧
      ∃ tr2 pre, newviewGeneric exConsts 3 tr1 exTree.root false = .ok tr2 ∧
        tr1.ti = pre ++ [entryOf 1 (exHeap []) exTree] ∧
        tr2.ti = [entryOf 1 (exHeap []) exTree] ∧
        (entryOf 1 (exHeap []) exTree).pNumber = (exHeap [] exTree.root).number ∧
        ∀ m, (tr2.partitionData m).xVector ((exHeap [] exTree.root).number - 4 - 1) =
            (tr1.partitionData m).xVector ((exHeap [] exTree.root).number - 4 - 1) ∧
          (tr2.partitionData m).globalScaler (exHeap [] exTree.root).number =
            (tr1.partitionData m).globalScaler (exHeap [] exTree.root).number ∧
          tr2.partitionData m = tr1.partitionData m := by
  obtain ⟨tr1, h1⟩ := exNewview_run
  exact ⟨tr1, h1, newview_idempotent exConsts 3 (exTr [] [] (1 / 4) (1 / 4) 0 0) tr1 exTree
    (by decide) (exTree_wellFormed _) (by decide) h1⟩

/-! ## Full and partial evaluation -/

theorem makePOne_absorb {K : Type} [LinearOrderedField K] (c : consts K) (z z' : K)
    (rptr EI EIGN : Nat → K) (n : Nat) (P : Nat → K) (sm : Bool) (mc S : Nat) :
    makePOne c z rptr EI EIGN n (makePOne c z' rptr EI EIGN n P sm mc S) sm mc S =
      makePOne c z rptr EI EIGN n P sm mc S := by
  funext x
  simp only [makePOne_apply]
  split_ifs <;> rfl

theorem makePOne_FlexLG4_absorb {K : Type} [LinearOrderedField K] (c : consts K) (z z' : K)
    (rptr : Nat → K) (EI EIGN : Nat → Nat → K) (n : Nat) (P : Nat → K) (S : Nat) :
    makePOne_FlexLG4 c z rptr EI EIGN n (makePOne_FlexLG4 c z' rptr EI EIGN n P S) S =
      makePOne_FlexLG4 c z rptr EI EIGN n P S := by
  funext x
  simp only [makePOne_FlexLG4_apply]
  split_ifs <;> rfl

theorem pmatrices_eq_LR {K : Type} [LinearOrderedField K] (c : consts K) (tr : tree K)
    (e : traversalInfo K) (m : Nat) (pd : pInfo K) :
    pmatrices c tr.numBranches tr.maxCategories tr.rateHetModel tr.saveMemory e m pd =
      .ok { pd with left := (pmatricesLR c tr e m pd).1, right := (pmatricesLR c tr e m pd).2 } := by
  obtain ⟨l, r, h⟩ := pmatrices_ok c tr.numBranches tr.maxCategories tr.rateHetModel
    tr.saveMemory e m pd
  unfold pmatricesLR
  rw [h]

/-- The P matrices of an entry do not depend on the vectors and counters, and
not on the P matrices that an earlier entry left. -/
theorem pmatricesLR_absorb {K : Type} [LinearOrderedField K] (c : consts K) (tr : tree K)
    (e e' : traversalInfo K) (m : Nat) (pd : pInfo K) (xv : Nat → Nat → K) (gs : Nat → Nat) :
    pmatricesLR c tr e' m
      { pd with left := (pmatricesLR c tr e m pd).1, right := (pmatricesLR c tr e m pd).2,
                xVector := xv, globalScaler := gs } = pmatricesLR c tr e' m pd := by
  by_cases hl : pd.protModelsLG4 = true
  · simp only [pmatricesLR, pmatrices, makeP_FlexLG4, hl, if_true,
      (by decide : (20 : Nat) ≤ 64), makePOne_FlexLG4_absorb]
  · simp only [pmatricesLR, pmatrices, hl, if_false, makeP, rateCategoriesOf,
      Bool.false_eq_true, makePOne_absorb]

theorem pmatricesLR_congr {K : Type} [LinearOrderedField K] (c : consts K) (tr : tree K)
    (e : traversalInfo K) (m : Nat) (pd : pInfo K) (xv : Nat → Nat → K) (gs : Nat → Nat) :
    pmatricesLR c tr e m { pd with xVector := xv, globalScaler := gs } =
      pmatricesLR c tr e m pd := by
  by_cases hl : pd.protModelsLG4 = true
  · simp only [pmatricesLR, pmatrices, makeP_FlexLG4, hl, if_true,
      (by decide : (20 : Nat) ≤ 64)]
  · simp only [pmatricesLR, pmatrices, hl, if_false, makeP, rateCategoriesOf,
      Bool.false_eq_true]

theorem coupled_refl {K : Type} [LinearOrderedField K] (c : consts K) (tr : tree K) (m : Nat)
    (S : pInfo K) : Coupled c tr m S S :=
  ⟨rfl, fun _ => rfl⟩

theorem coupled_symm {K : Type} [LinearOrderedField K] {c : consts K} {tr : tree K} {m : Nat}
    {S S' : pInfo K} (h : Coupled c tr m S S') : Coupled c tr m S' S := by
  refine ⟨?_, fun e => (h.matrices e).symm⟩
  have := h.static
  cases S
  cases S'
  simp only [pInfo.mk.injEq] at this ⊢
  obtain ⟨a1, a2, a3, a4, a5, a6, a7, a8, a9, a10, a11, a12, a13, a14, a15, a16, a17, a18, _⟩ :=
    this
  simp [a1, a2, a3, a4, a5, a6, a7, a8, a9, a10, a11, a12, a13, a14, a15, a16, a17, a18]

theorem coupled_trans {K : Type} [LinearOrderedField K] {c : consts K} {tr : tree K} {m : Nat}
    {S1 S2 S3 : pInfo K} (h : Coupled c tr m S1 S2) (h' : Coupled c tr m S2 S3) :
    Coupled c tr m S1 S3 := by
  refine ⟨?_, fun e => (h.matrices e).trans (h'.matrices e)⟩
  have a := h.static
  have b := h'.static
  rw [b, a]

/-- An entry leaves the partition coupled to the state it started from. -/
theorem coupled_step {K : Type} [LinearOrderedField K] (c : consts K) (tr : tree K)
    (e : traversalInfo K) (m : Nat) (S S1 : pInfo K)
    (h : entryPartition c tr e m S = .ok S1) : Coupled c tr m S S1 := by
  refine ⟨entryPartition_static c tr e m S S1 h, fun e' => ?_⟩
  unfold entryPartition at h
  split_ifs at h with hc
  · injection h with h
    rw [h]
  · rw [pmatrices_eq_LR] at h
    simp only at h
    have hs := updateVector_static c _ _ _ e _ S1 h
    rw [hs]
    exact (pmatricesLR_absorb c tr e e' m S _ _).symm

theorem entryKernel_local {K : Type} [LinearOrderedField K] (c : consts K) (mxtips : Nat)
    (rh : rateHet) (sm : Bool) (e : traversalInfo K) (pd : pInfo K) (xv : Nat → Nat → K)
    (gs : Nat → Nat)
    (hxp : xv (e.pNumber - mxtips - 1) = pd.xVector (e.pNumber - mxtips - 1))
    (hxq : e.tipCase = .INNER_INNER →
      xv (e.qNumber - mxtips - 1) = pd.xVector (e.qNumber - mxtips - 1))
    (hxr : e.tipCase ≠ .TIP_TIP →
      xv (e.rNumber - mxtips - 1) = pd.xVector (e.rNumber - mxtips - 1)) :
    entryKernel c mxtips rh sm e { pd with xVector := xv, globalScaler := gs } =
      entryKernel c mxtips rh sm e pd := by
  have hv : entryVectors mxtips e { pd with xVector := xv, globalScaler := gs } =
      entryVectors mxtips e pd := by
    unfold entryVectors
    cases htc : e.tipCase with
    | TIP_TIP => rfl
    | TIP_INNER =>
      have h := hxr (by rw [htc]; exact fun h => by cases h)
      simp only [h]
    | INNER_INNER =>
      have h := hxr (by rw [htc]; exact fun h => by cases h)
      have h' := hxq htc
      simp only [h, h']
    | TIP_TIP_CLV => rfl
    | TIP_INNER_CLV => rfl
  unfold entryKernel
  rw [hv]
  simp only [hxp]

/-- The second loop body of `newviewIterative` reads the vectors of the node
and of its inner children and the counters of the children only. -/
theorem updateVector_local {K : Type} [LinearOrderedField K] (c : consts K) (mxtips : Nat)
    (rh : rateHet) (sm : Bool) (e : traversalInfo K) (pd pd1 : pInfo K) (xv : Nat → Nat → K)
    (gs : Nat → Nat)
    (hxp : xv (e.pNumber - mxtips - 1) = pd.xVector (e.pNumber - mxtips - 1))
    (hxq : e.tipCase = .INNER_INNER →
      xv (e.qNumber - mxtips - 1) = pd.xVector (e.qNumber - mxtips - 1))
    (hxr : e.tipCase ≠ .TIP_TIP →
      xv (e.rNumber - mxtips - 1) = pd.xVector (e.rNumber - mxtips - 1))
    (hgq : gs e.qNumber = pd.globalScaler e.qNumber)
    (hgr : gs e.rNumber = pd.globalScaler e.rNumber)
    (h : updateVector c mxtips rh sm e pd = .ok pd1) :
    ∃ pd1', updateVector c mxtips rh sm e { pd with xVector := xv, globalScaler := gs } =
        .ok pd1' ∧
      pd1'.xVector (e.pNumber - mxtips - 1) = pd1.xVector (e.pNumber - mxtips - 1) ∧
      pd1'.globalScaler e.pNumber = pd1.globalScaler e.pNumber := by
  unfold updateVector at h ⊢
  rw [entryKernel_local c mxtips rh sm e pd xv gs hxp hxq hxr]
  cases hk : entryKernel c mxtips rh sm e pd with
  | error err => rw [hk] at h; cases h
  | ok r =>
    rw [hk] at h
    simp only at h ⊢
    rw [hgq, hgr]
    split_ifs at h with hgs
    injection h with h
    rw [if_pos hgs]
    refine ⟨_, rfl, ?_, ?_⟩
    · rw [← h]
      simp
    · rw [← h]
      simp

/-- An entry changes the vector at the index of its node and the counter at
the number of its node only. -/
theorem entryPartition_frame {K : Type} [LinearOrderedField K] (c : consts K) (tr : tree K)
    (e : traversalInfo K) (m : Nat) (S S1 : pInfo K)
    (h : entryPartition c tr e m S = .ok S1) :
    (∀ k, k ≠ e.pNumber - tr.mxtips - 1 → S1.xVector k = S.xVector k) ∧
      ∀ n, n ≠ e.pNumber → S1.globalScaler n = S.globalScaler n := by
  unfold entryPartition at h
  split_ifs at h with hc
  · injection h with h
    subst h
    exact ⟨fun _ _ => rfl, fun _ _ => rfl⟩
  · rw [pmatrices_eq_LR] at h
    simp only at h
    unfold updateVector at h
    cases hk : entryKernel c tr.mxtips tr.rateHetModel tr.saveMemory e
        { S with left := (pmatricesLR c tr e m S).1, right := (pmatricesLR c tr e m S).2 } with
    | error err => rw [hk] at h; cases h
    | ok r =>
      rw [hk] at h
      simp only at h
      split_ifs at h with hgs
      injection h with h
      subst h
      exact ⟨fun k hk => by simp only [if_neg hk], fun n hn => by simp only [if_neg hn]⟩

/-- An entry run on two coupled states that hold the same vectors at the node
and its inner children, and the same counters at the children, returns on
both or on none, with the same vector and counter at the node. -/
theorem entryPartition_local {K : Type} [LinearOrderedField K] (c : consts K) (tr : tree K)
    (e : traversalInfo K) (m : Nat) (S S' S1 : pInfo K) (hc : Coupled c tr m S S')
    (hxp : S'.xVector (e.pNumber - tr.mxtips - 1) = S.xVector (e.pNumber - tr.mxtips - 1))
    (hgp : S'.globalScaler e.pNumber = S.globalScaler e.pNumber)
    (hxq : e.tipCase = .INNER_INNER →
      S'.xVector (e.qNumber - tr.mxtips - 1) = S.xVector (e.qNumber - tr.mxtips - 1))
    (hxr : e.tipCase ≠ .TIP_TIP →
      S'.xVector (e.rNumber - tr.mxtips - 1) = S.xVector (e.rNumber - tr.mxtips - 1))
    (hgq : S'.globalScaler e.qNumber = S.globalScaler e.qNumber)
    (hgr : S'.globalScaler e.rNumber = S.globalScaler e.rNumber)
    (h : entryPartition c tr e m S = .ok S1) :
    ∃ S1', entryPartition c tr e m S' = .ok S1' ∧
      S1'.xVector (e.pNumber - tr.mxtips - 1) = S1.xVector (e.pNumber - tr.mxtips - 1) ∧
      S1'.globalScaler e.pNumber = S1.globalScaler e.pNumber := by
  have hw : S'.width = S.width := by rw [hc.static]
  unfold entryPartition at h ⊢
  rw [hw]
  split_ifs at h ⊢ with hcnd
  · injection h with h
    subst h
    exact ⟨S', rfl, hxp, hgp⟩
  · rw [pmatrices_eq_LR] at h ⊢
    simp only at h ⊢
    have hm := hc.matrices e
    have hst := hc.static
    have e1 : ({ S' with left := (pmatricesLR c tr e m S').1,
                         right := (pmatricesLR c tr e m S').2 } : pInfo K) =
        { ({ S with left := (pmatricesLR c tr e m S).1,
                    right := (pmatricesLR c tr e m S).2 } : pInfo K) with
          xVector := S'.xVector, globalScaler := S'.globalScaler } := by
      rw [← hm]
      rw [hst]
    rw [e1]
    exact updateVector_local c _ _ _ e _ S1 S'.xVector S'.globalScaler hxp hxq hxr hgq hgr h

theorem agreeAt_refl {K : Type} (mxtips n : Nat) (S : pInfo K) : AgreeAt mxtips n S S :=
  ⟨fun _ => rfl, rfl⟩

theorem agreeAt_symm {K : Type} {mxtips n : Nat} {S S' : pInfo K} (h : AgreeAt mxtips n S S') :
    AgreeAt mxtips n S' S :=
  ⟨fun hn => (h.1 hn).symm, h.2.symm⟩

theorem agreeAt_trans {K : Type} {mxtips n : Nat} {S1 S2 S3 : pInfo K}
    (h : AgreeAt mxtips n S1 S2) (h' : AgreeAt mxtips n S2 S3) : AgreeAt mxtips n S1 S3 :=
  ⟨fun hn => (h.1 hn).trans (h'.1 hn), h.2.trans h'.2⟩

theorem runPartition_nil {K : Type} [LinearOrderedField K] (c : consts K) (tr : tree K)
    (m : Nat) (S : pInfo K) : runPartition c tr m [] S = .ok S := rfl

theorem runPartition_append {K : Type} [LinearOrderedField K] (c : consts K) (tr : tree K)
    (m : Nat) (es1 es2 : List (traversalInfo K)) (S : pInfo K) :
    runPartition c tr m (es1 ++ es2) S =
      match runPartition c tr m es1 S with
      | .error err => .error err
      | .ok S1 => runPartition c tr m es2 S1 := by
  unfold runPartition
  rw [List.foldlM_append]
  cases List.foldlM (fun pd e => entryPartition c tr e m pd) S es1 <;> rfl

theorem runPartition_single {K : Type} [LinearOrderedField K] (c : consts K) (tr : tree K)
    (m : Nat) (e : traversalInfo K) (S : pInfo K) :
    runPartition c tr m [e] S = entryPartition c tr e m S := by
  unfold runPartition
  rw [List.foldlM_cons]
  cases entryPartition c tr e m S <;> rfl

/-- An entry leaves every node other than its own as it is. -/
theorem entryPartition_agree {K : Type} [LinearOrderedField K] (c : consts K) (tr : tree K)
    (e : traversalInfo K) (m : Nat) (S S1 : pInfo K) (hp : tr.mxtips < e.pNumber)
    (h : entryPartition c tr e m S = .ok S1) (n : Nat) (hn : n ≠ e.pNumber) :
    AgreeAt tr.mxtips n S S1 := by
  obtain ⟨f1, f2⟩ := entryPartition_frame c tr e m S S1 h
  exact ⟨fun hlt => (f1 _ (by omega)).symm, (f2 n hn).symm⟩

/-- The children named by the entry of an inner node are the roots of its two
subtrees, in one of the two orders; an inner child is named as `r`, and as
`q` when both are inner. -/
theorem entryOf_numbers {K : Type} (nb maxTips : Nat) (h : heap K) (p : Nat) (l r : Topo)
    (hs : Shape h maxTips (.inner p l r)) :
    (entryOf nb h (.inner p l r)).pNumber = (h p).number ∧
    maxTips < (entryOf nb h (.inner p l r)).pNumber ∧
    (((entryOf nb h (.inner p l r)).qNumber = (h l.root).number ∧
        (entryOf nb h (.inner p l r)).rNumber = (h r.root).number) ∨
      ((entryOf nb h (.inner p l r)).qNumber = (h r.root).number ∧
        (entryOf nb h (.inner p l r)).rNumber = (h l.root).number)) ∧
    ((entryOf nb h (.inner p l r)).tipCase = .INNER_INNER →
      maxTips < (entryOf nb h (.inner p l r)).qNumber) ∧
    ((entryOf nb h (.inner p l r)).tipCase ≠ .TIP_TIP →
      maxTips < (entryOf nb h (.inner p l r)).rNumber) := by
  obtain ⟨hp, _, _, sl, sr⟩ := hs
  rw [isTip_false_iff] at hp
  have il : l.isInner = true → maxTips < (h l.root).number := by
    intro hi
    have := shape_root_isTip sl
    rw [hi] at this
    exact (isTip_false_iff _ _).1 this
  have ir : r.isInner = true → maxTips < (h r.root).number := by
    intro hi
    have := shape_root_isTip sr
    rw [hi] at this
    exact (isTip_false_iff _ _).1 this
  cases l with
  | tip a =>
    cases r with
    | tip b =>
      refine ⟨rfl, hp, Or.inl ⟨rfl, rfl⟩, fun hc => ?_, fun hc => ?_⟩
      · simp [entryOf, mkEntry] at hc
      · simp [entryOf, mkEntry] at hc
    | inner b lb rb =>
      have := ir rfl
      refine ⟨rfl, hp, Or.inl ⟨rfl, rfl⟩, fun hc => ?_, fun _ => this⟩
      simp [entryOf, mkEntry] at hc
  | inner a la ra =>
    have hia := il rfl
    cases r with
    | tip b =>
      refine ⟨rfl, hp, Or.inr ⟨rfl, rfl⟩, fun hc => ?_, fun _ => hia⟩
      simp [entryOf, mkEntry] at hc
    | inner b lb rb =>
      have hib := ir rfl
      exact ⟨rfl, hp, Or.inl ⟨rfl, rfl⟩, fun _ => hia, fun _ => hib⟩

theorem both_symm {α : Type} {Good : α → α → Prop} {a b : Except Fault α}
    (h : Both Good a b) : Both (fun x y => Good y x) b a := by
  cases a <;> cases b <;> simp_all [Both]

/-- The entry of a node, run on two coupled states that agree at the node and
at its two children, returns on both or on none; the results agree at the
node, and each agrees with the state it came from at every other node. -/
theorem node_step {K : Type} [LinearOrderedField K] (c : consts K) (tr : tree K) (m nb : Nat)
    (h : heap K) (p : Nat) (l r : Topo) (hs : Shape h tr.mxtips (.inner p l r))
    (A B : pInfo K) (hc : Coupled c tr m A B)
    (hp : AgreeAt tr.mxtips (h p).number A B)
    (hl : AgreeAt tr.mxtips (h l.root).number A B)
    (hr : AgreeAt tr.mxtips (h r.root).number A B) :
    Both (fun A1 B1 => AgreeAt tr.mxtips (h p).number A1 B1 ∧
        (∀ n, n ≠ (h p).number → AgreeAt tr.mxtips n A A1) ∧
        (∀ n, n ≠ (h p).number → AgreeAt tr.mxtips n B B1) ∧
        Coupled c tr m A A1 ∧ Coupled c tr m B B1)
      (entryPartition c tr (entryOf nb h (.inner p l r)) m A)
      (entryPartition c tr (entryOf nb h (.inner p l r)) m B) := by
  obtain ⟨e1, e2, e3, e4, e5⟩ := entryOf_numbers nb tr.mxtips h p l r hs
  have hq : AgreeAt tr.mxtips (entryOf nb h (.inner p l r)).qNumber A B := by
    rcases e3 with ⟨a, _⟩ | ⟨a, _⟩
    · rw [a]; exact hl
    · rw [a]; exact hr
  have hr' : AgreeAt tr.mxtips (entryOf nb h (.inner p l r)).rNumber A B := by
    rcases e3 with ⟨_, a⟩ | ⟨_, a⟩
    · rw [a]; exact hr
    · rw [a]; exact hl
  have hp' : AgreeAt tr.mxtips (entryOf nb h (.inner p l r)).pNumber A B := by
    rw [e1]; exact hp
  have good : ∀ A1 B1, entryPartition c tr (entryOf nb h (.inner p l r)) m A = .ok A1 →
      entryPartition c tr (entryOf nb h (.inner p l r)) m B = .ok B1 →
      B1.xVector ((entryOf nb h (.inner p l r)).pNumber - tr.mxtips - 1) =
        A1.xVector ((entryOf nb h (.inner p l r)).pNumber - tr.mxtips - 1) →
      B1.globalScaler (entryOf nb h (.inner p l r)).pNumber =
        A1.globalScaler (entryOf nb h (.inner p l r)).pNumber →
      AgreeAt tr.mxtips (h p).number A1 B1 ∧
        (∀ n, n ≠ (h p).number → AgreeAt tr.mxtips n A A1) ∧
        (∀ n, n ≠ (h p).number → AgreeAt tr.mxtips n B B1) ∧
        Coupled c tr m A A1 ∧ Coupled c tr m B B1 := by
    intro A1 B1 ha hb hx hg
    refine ⟨?_, ?_, ?_, coupled_step c tr _ m A A1 ha, coupled_step c tr _ m B B1 hb⟩
    · rw [← e1]
      exact ⟨fun _ => hx.symm, hg.symm⟩
    · intro n hn
      exact entryPartition_agree c tr _ m A A1 e2 ha n (by rw [e1]; exact hn)
    · intro n hn
      exact entryPartition_agree c tr _ m B B1 e2 hb n (by rw [e1]; exact hn)
  cases ha : entryPartition c tr (entryOf nb h (.inner p l r)) m A with
  | ok A1 =>
    obtain ⟨B1, hb, hx, hg⟩ := entryPartition_local c tr _ m A B A1 hc
      (hp'.1 e2).symm hp'.2.symm (fun htc => (hq.1 (e4 htc)).symm)
      (fun htc => (hr'.1 (e5 htc)).symm) hq.2.symm hr'.2.symm ha
    rw [hb]
    exact good A1 B1 ha hb hx hg
  | error err =>
    cases hb : entryPartition c tr (entryOf nb h (.inner p l r)) m B with
    | error err' => trivial
    | ok B1 =>
      exfalso
      obtain ⟨A1, ha', _, _⟩ := entryPartition_local c tr _ m B A B1 (coupled_symm hc)
        (hp'.1 e2) hp'.2 (fun htc => hq.1 (e4 htc))
        (fun htc => hr'.1 (e5 htc)) hq.2 hr'.2 hb
      rw [ha] at ha'
      cases ha'

theorem root_number_mem {K : Type} (h : heap K) (t : Topo) : (h t.root).number ∈ t.numbers h := by
  cases t <;> simp [Topo.numbers, Topo.root]

theorem innerNumbers_inner {K : Type} (h : heap K) (p : Nat) (l r : Topo) :
    (Topo.inner p l r).innerNumbers h =
      l.innerNumbers h ++ r.innerNumbers h ++ [(h p).number] := by
  simp [Topo.innerNumbers, Topo.innerNodes, Topo.number, Topo.root]

/-- The full recomputation of a subtree against the partial one. On two
states coupled to `pd0` that agree with `pd0` at every node of the subtree,
where every oriented inner node of the subtree holds what newview computes,
the entries of all inner nodes and the entries of the partial traversal
return on both or on none; the results agree at the root of the subtree and
each agrees with the state it came from outside the inner nodes of the
subtree. -/
theorem full_partial_run {K : Type} [LinearOrderedField K] (c : consts K) (tr : tree K)
    (m nb : Nat) (h : heap K) (pd0 : pInfo K) (t : Topo) :
    Shape h tr.mxtips t → (t.numbers h).Nodup →
    (∀ s ∈ t.innerNodes, (h s.root).x = true → NodeHolds c tr m nb h pd0 s) →
    ∀ S S', Coupled c tr m pd0 S → Coupled c tr m pd0 S' →
      (∀ n ∈ t.numbers h, AgreeAt tr.mxtips n pd0 S ∧ AgreeAt tr.mxtips n pd0 S') →
      Both (fun SF SP => AgreeAt tr.mxtips (h t.root).number SF SP ∧
          (∀ n, n ∉ t.innerNumbers h → AgreeAt tr.mxtips n S SF) ∧
          (∀ n, n ∉ t.innerNumbers h → AgreeAt tr.mxtips n S' SP) ∧
          Coupled c tr m pd0 SF ∧ Coupled c tr m pd0 SP)
        (runPartition c tr m (t.innerNodes.map (entryOf nb h)) S)
        (runPartition c tr m ((visitIf true h t).map (entryOf nb h)) S') := by
  induction t with
  | tip a =>
    intro _ _ _ S S' cS cS' hag
    rw [visitIf_tip]
    simp only [Topo.innerNodes, List.map_nil, runPartition_nil, Both]
    have := hag _ (root_number_mem h (.tip a))
    exact ⟨agreeAt_trans (agreeAt_symm this.1) this.2, fun n _ => agreeAt_refl _ _ _,
      fun n _ => agreeAt_refl _ _ _, cS, cS'⟩
  | inner p l r ihl ihr =>
    intro hs hnd H
    have hs' := hs
    obtain ⟨hp, _, _, sl, sr⟩ := hs
    simp only [Topo.numbers, List.nodup_cons, List.mem_append, not_or, List.nodup_append] at hnd
    obtain ⟨⟨pl, pr⟩, ndl, ndr, dj⟩ := hnd
    have Hl : ∀ s ∈ l.innerNodes, (h s.root).x = true → NodeHolds c tr m nb h pd0 s :=
      fun s hs => H s (by simp [Topo.innerNodes, hs])
    have Hr : ∀ s ∈ r.innerNodes, (h s.root).x = true → NodeHolds c tr m nb h pd0 s :=
      fun s hs => H s (by simp [Topo.innerNodes, hs])
    have node_runs : ∀ S X, Coupled c tr m pd0 S → Coupled c tr m pd0 X →
        (∀ n ∈ (Topo.inner p l r).numbers h,
          AgreeAt tr.mxtips n pd0 S ∧ AgreeAt tr.mxtips n pd0 X) →
        Both (fun SF SP => AgreeAt tr.mxtips (h p).number SF SP ∧
            (∀ n, n ∉ (Topo.inner p l r).innerNumbers h → AgreeAt tr.mxtips n S SF) ∧
            (∀ n, n ∉ (Topo.inner p l r).innerNumbers h → AgreeAt tr.mxtips n X SP) ∧
            Coupled c tr m pd0 SF ∧ Coupled c tr m pd0 SP)
          (runPartition c tr m ((Topo.inner p l r).innerNodes.map (entryOf nb h)) S)
          (runPartition c tr m ((visit true h (.inner p l r)).map (entryOf nb h)) X) := by
      intro S X cS cX hag
      have agl : ∀ n ∈ l.numbers h, AgreeAt tr.mxtips n pd0 S ∧ AgreeAt tr.mxtips n pd0 X :=
        fun n hn => hag n (by simp [Topo.numbers, hn])
      have agr : ∀ n ∈ r.numbers h, AgreeAt tr.mxtips n pd0 S ∧ AgreeAt tr.mxtips n pd0 X :=
        fun n hn => hag n (by simp [Topo.numbers, hn])
      have agp := hag (h p).number (by simp [Topo.numbers])
      have bl := ihl sl ndl Hl S X cS cX agl
      rw [visit_inner]
      simp only [Topo.innerNodes, List.map_append, List.map_cons, List.map_nil,
        runPartition_append, runPartition_single]
      cases hFl : runPartition c tr m (l.innerNodes.map (entryOf nb h)) S with
      | error e1 =>
        rw [hFl] at bl
        cases hXl : runPartition c tr m ((visitIf true h l).map (entryOf nb h)) X with
        | error e2 => trivial
        | ok X1 => rw [hXl] at bl; exact bl.elim
      | ok S1 =>
        rw [hFl] at bl
        cases hXl : runPartition c tr m ((visitIf true h l).map (entryOf nb h)) X with
        | error e2 => rw [hXl] at bl; exact bl.elim
        | ok X1 =>
          rw [hXl] at bl
          obtain ⟨gl1, gl2, gl3, gl4, gl5⟩ := bl
          have nr_l : ∀ n ∈ r.numbers h, n ∉ l.innerNumbers h :=
            fun n hn hl => dj (innerNumbers_subset h l n hl) hn
          have nl_r : ∀ n ∈ l.numbers h, n ∉ r.innerNumbers h :=
            fun n hn hr => dj hn (innerNumbers_subset h r n hr)
          have br := ihr sr ndr Hr S1 X1 gl4 gl5 (fun n hn =>
            ⟨agreeAt_trans (agr n hn).1 (gl2 n (nr_l n hn)),
             agreeAt_trans (agr n hn).2 (gl3 n (nr_l n hn))⟩)
          simp only
          cases hFr : runPartition c tr m (r.innerNodes.map (entryOf nb h)) S1 with
          | error e1 =>
            rw [hFr] at br
            cases hXr : runPartition c tr m ((visitIf true h r).map (entryOf nb h)) X1 with
            | error e2 => trivial
            | ok X2 => rw [hXr] at br; exact br.elim
          | ok S2 =>
            rw [hFr] at br
            cases hXr : runPartition c tr m ((visitIf true h r).map (entryOf nb h)) X1 with
            | error e2 => rw [hXr] at br; exact br.elim
            | ok X2 =>
              rw [hXr] at br
              obtain ⟨gr1, gr2, gr3, gr4, gr5⟩ := br
              simp only
              have pnl : (h p).number ∉ l.innerNumbers h :=
                fun hh => pl (innerNumbers_subset h l _ hh)
              have pnr : (h p).number ∉ r.innerNumbers h :=
                fun hh => pr (innerNumbers_subset h r _ hh)
              have lnr : (h l.root).number ∉ r.innerNumbers h :=
                nl_r _ (root_number_mem h l)
              have ap : AgreeAt tr.mxtips (h p).number S2 X2 :=
                agreeAt_trans (agreeAt_symm (agreeAt_trans (agreeAt_trans agp.1 (gl2 _ pnl))
                  (gr2 _ pnr))) (agreeAt_trans (agreeAt_trans agp.2 (gl3 _ pnl)) (gr3 _ pnr))
              have al : AgreeAt tr.mxtips (h l.root).number S2 X2 :=
                agreeAt_trans (agreeAt_symm (gr2 _ lnr)) (agreeAt_trans gl1 (gr3 _ lnr))
              have ns := node_step c tr m nb h p l r hs' S2 X2
                (coupled_trans (coupled_symm gr4) gr5) ap al gr1
              cases hFs : entryPartition c tr (entryOf nb h (.inner p l r)) m S2 with
              | error e1 =>
                rw [hFs] at ns
                cases hXs : entryPartition c tr (entryOf nb h (.inner p l r)) m X2 with
                | error e2 => trivial
                | ok X3 => rw [hXs] at ns; exact ns.elim
              | ok S3 =>
                rw [hFs] at ns
                cases hXs : entryPartition c tr (entryOf nb h (.inner p l r)) m X2 with
                | error e2 => rw [hXs] at ns; exact ns.elim
                | ok X3 =>
                  rw [hXs] at ns
                  obtain ⟨n1, n2, n3, n4, n5⟩ := ns
                  refine ⟨n1, ?_, ?_, coupled_trans gr4 n4, coupled_trans gr5 n5⟩
                  · intro n hn
                    rw [innerNumbers_inner] at hn
                    simp only [List.mem_append, List.mem_singleton, not_or] at hn
                    exact agreeAt_trans (agreeAt_trans (gl2 n hn.1.1) (gr2 n hn.1.2))
                      (n2 n hn.2)
                  · intro n hn
                    rw [innerNumbers_inner] at hn
                    simp only [List.mem_append, List.mem_singleton, not_or] at hn
                    exact agreeAt_trans (agreeAt_trans (gl3 n hn.1.1) (gr3 n hn.1.2))
                      (n3 n hn.2)
    intro S S' cS cS' hag
    simp only [Topo.root]
    by_cases hx : (h p).x = true
    · -- the root is oriented: the partial traversal writes nothing
      have hv : visitIf true h (.inner p l r) = [] := by
        simp [visitIf, descend, Topo.root, hx]
      rw [hv, List.map_nil, runPartition_nil]
      obtain ⟨SH, hrun, hSH⟩ := H (.inner p l r) (by simp [Topo.innerNodes]) hx
      have nr := node_runs S pd0 cS (coupled_refl c tr m pd0)
        (fun n hn => ⟨(hag n hn).1, agreeAt_refl _ _ _⟩)
      rw [hrun] at nr
      cases hF : runPartition c tr m ((Topo.inner p l r).innerNodes.map (entryOf nb h)) S with
      | error e1 => rw [hF] at nr; exact nr.elim
      | ok SF =>
        rw [hF] at nr
        obtain ⟨n1, n2, _, n4, _⟩ := nr
        simp only [Topo.root] at hSH
        exact ⟨agreeAt_trans n1 (agreeAt_trans hSH (hag _ (by simp [Topo.numbers])).2), n2,
          fun n _ => agreeAt_refl _ _ _, n4, cS'⟩
    · have hv : visitIf true h (.inner p l r) = visit true h (.inner p l r) := by
        simp [visitIf, descend, Topo.root, hx]
      rw [hv]
      exact node_runs S S' cS cS' hag

/-! ### The root branch on two coupled states -/

theorem diagLoop_base {K : Type} [LinearOrderedField K] (S : Nat) (f : Nat → Nat → K)
    (d d' : Nat → K) :
    ∀ n x, x < n * S →
      forLoop n (fun i d =>
        forLoopFrom 1 S (fun l d => store d (i * S + l) (f i l)) (store d (i * S) 1)) d x =
      forLoop n (fun i d =>
        forLoopFrom 1 S (fun l d => store d (i * S + l) (f i l)) (store d (i * S) 1)) d' x := by
  intro n
  induction n with
  | zero => intro x hx; omega
  | succ n ih =>
    intro x hx
    rw [forLoop_succ, forLoop_succ, forLoopFrom_store, forLoopFrom_store, store_apply,
      store_apply]
    rw [Nat.succ_mul] at hx
    by_cases h1 : n * S + 1 ≤ x ∧ x < n * S + S
    · rw [if_pos h1, if_pos h1]
    · rw [if_neg h1, if_neg h1]
      by_cases h2 : x = n * S
      · rw [if_pos h2, if_pos h2]
      · rw [if_neg h2, if_neg h2]
        exact ih x (by omega)

/-- The cells of the diagonal table that `calcDiagptable` writes do not depend
on what the array held before. -/
theorem calcDiagptable_base {K : Type} [LinearOrderedField K] (c : consts K) (z : K)
    (S cats : Nat) (rptr EIGN d d' : Nat → K) (x : Nat) (hx : x < cats * S) :
    calcDiagptable c z S cats rptr EIGN d x = calcDiagptable c z S cats rptr EIGN d' x :=
  diagLoop_base S (fun i l => c.EXP (rptr i *
    (EIGN l * (if z < c.zmin then c.LOG c.zmin else c.LOG z)))) d d' cats x hx

theorem calcDiagptableFlex_LG4_base {K : Type} [LinearOrderedField K] (c : consts K) (z : K)
    (cats : Nat) (rptr : Nat → K) (EIGN : Nat → Nat → K) (d d' : Nat → K) (S x : Nat)
    (hx : x < cats * S) :
    calcDiagptableFlex_LG4 c z cats rptr EIGN d S x =
      calcDiagptableFlex_LG4 c z cats rptr EIGN d' S x :=
  diagLoop_base S (fun i l => c.EXP (rptr i * EIGN i l *
    (if z < c.zmin then c.LOG c.zmin else c.LOG z))) d d' cats x hx

theorem forLoopM_rel {σ : Type} (Rel : σ → σ → Prop) (n : Nat)
    (f g : Nat → σ → Except Fault σ)
    (h : ∀ i, i < n → ∀ s s', Rel s s' → Both Rel (f i s) (g i s')) (a a' : σ)
    (h0 : Rel a a') : Both Rel (forLoopM n f a) (forLoopM n g a') := by
  induction n with
  | zero => exact h0
  | succ n ih =>
    rw [forLoopM_succ, forLoopM_succ]
    have ih' := ih (fun i hi => h i (by omega))
    cases hf : forLoopM n f a with
    | error e1 =>
      rw [hf] at ih'
      cases hg : forLoopM n g a' with
      | error e2 => trivial
      | ok s' => rw [hg] at ih'; exact ih'.elim
    | ok s =>
      rw [hf] at ih'
      cases hg : forLoopM n g a' with
      | error e2 => rw [hg] at ih'; exact ih'.elim
      | ok s' =>
        rw [hg] at ih'
        exact h n (by omega) s s' ih'

theorem evaluateDiag_eq {K : Type} [LinearOrderedField K] (c : consts K) (pz : List K)
    (m : Nat) (tr : tree K) :
    evaluateDiag c pz m tr = tr.setPartition m (diagPartition c tr pz m (tr.partitionData m)) := by
  unfold evaluateDiag diagPartition
  by_cases hs : (!tr.td_executeModel m || decide ((tr.partitionData m).width = 0)) = true
  · simp only [hs, if_true, setPartition_self]
  · simp only [hs, if_false, Bool.false_eq_true]

/-- The first loop of `evaluateIterative` changes the partition data only:
partition `m` below the bound is what `diagPartition` makes of it. -/
theorem evaluateDiag_loop {K : Type} [LinearOrderedField K] (c : consts K) (pz : List K)
    (tr : tree K) (n : Nat) :
    forLoop n (evaluateDiag c pz) tr =
      { tr with partitionData := fun m =>
          if m < n then diagPartition c tr pz m (tr.partitionData m)
          else tr.partitionData m } := by
  induction n with
  | zero => rfl
  | succ n ih =>
    rw [forLoop_succ, ih, evaluateDiag_eq]
    simp only [tree.setPartition, lt_self_iff_false, if_false]
    congr 1
    funext m
    by_cases h2 : m = n
    · subst h2
      rw [if_pos rfl, if_pos (by omega)]
      rfl
    · rw [if_neg h2]
      by_cases h1 : m < n
      · rw [if_pos h1, if_pos (by omega)]
      · rw [if_neg h1, if_neg (by omega)]

theorem static_fields {K : Type} {a b : pInfo K}
    (h : b = { a with xVector := b.xVector, globalScaler := b.globalScaler,
                      left := b.left, right := b.right }) :
    b.states = a.states ∧ b.width = a.width ∧ b.isPomo = a.isPomo ∧
      b.protModelsLG4 = a.protModelsLG4 ∧ b.numberOfCategories = a.numberOfCategories ∧
      b.perSiteRates = a.perSiteRates ∧ b.gammaRates = a.gammaRates ∧ b.EIGN = a.EIGN ∧
      b.EIGN_LG4 = a.EIGN_LG4 ∧ b.tipVector = a.tipVector ∧
      b.rateCategory = a.rateCategory ∧ b.wgt = a.wgt ∧ b.yVector = a.yVector ∧
      b.xTipVector = a.xTipVector := by
  rw [h]
  exact ⟨rfl, rfl, rfl, rfl, rfl, rfl, rfl, rfl, rfl, rfl, rfl, rfl, rfl, rfl⟩

/-- The log likelihood of a partition at the root branch on two states with
the same data, the same root vectors and scaling counters, and diagonal
tables that agree where the root kernel reads them. -/
theorem partitionLikelihood_congr {K : Type} [LinearOrderedField K] (c : consts K)
    (A B : tree K) (pN qN m : Nat) (a b : pInfo K)
    (ha : A.partitionData m = a) (hb : B.partitionData m = b)
    (hmx : B.mxtips = A.mxtips) (hrh : B.rateHetModel = A.rateHetModel)
    (hst : b = { a with xVector := b.xVector, globalScaler := b.globalScaler,
                        left := b.left, right := b.right })
    (hv : rootVectors A.mxtips a pN qN = rootVectors A.mxtips b pN qN)
    (hgp : a.globalScaler pN = b.globalScaler pN)
    (hgq : a.globalScaler qN = b.globalScaler qN)
    (hcat : A.rateHetModel = .CAT → ∀ i, i < a.width → ∀ l, l < a.states →
      a.left (a.states * a.rateCategory i + l) = b.left (a.states * a.rateCategory i + l))
    (hgam : A.rateHetModel ≠ .CAT → ∀ j, j < 4 → ∀ k, k < a.states →
      a.left (a.states * j + k) = b.left (a.states * j + k)) :
    partitionLikelihood c A pN qN m = partitionLikelihood c B pN qN m := by
  obtain ⟨s1, s2, s3, -, -, -, -, -, -, s10, s11, s12, -, -⟩ := static_fields hst
  unfold partitionLikelihood
  simp only []
  rw [ha, hb, hmx, hrh, ← hv, ← hgp, ← hgq, s1, s2, s10, s11, s12]
  congr 1
  by_cases hc : A.rateHetModel = .CAT
  · rw [if_pos hc, if_pos hc, evaluateCAT_FLEX_eq, evaluateCAT_FLEX_eq]
    refine Finset.sum_congr rfl (fun i hi => ?_)
    rw [Finset.mem_range] at hi
    congr 3
    refine Finset.sum_congr rfl (fun l hl => ?_)
    rw [Finset.mem_range] at hl
    rw [hcat hc i hi l hl]
  · rw [if_neg hc, if_neg hc, evaluateGAMMA_FLEX_eq, evaluateGAMMA_FLEX_eq]
    refine Finset.sum_congr rfl (fun i _ => ?_)
    congr 4
    refine Finset.sum_congr rfl (fun j hj => ?_)
    rw [Finset.mem_range] at hj
    refine Finset.sum_congr rfl (fun k hk => ?_)
    rw [Finset.mem_range] at hk
    rw [hgam hc j hj k hk]

theorem diagPartition_fields {K : Type} [LinearOrderedField K] (c : consts K) (tr : tree K)
    (pz : List K) (m : Nat) (pd : pInfo K) :
    diagPartition c tr pz m pd = { pd with left := (diagPartition c tr pz m pd).left } := by
  unfold diagPartition
  by_cases hs : (!tr.td_executeModel m || decide (pd.width = 0)) = true
  · simp only [hs, if_true]
  · simp only [hs, if_false, Bool.false_eq_true]

/-- The diagonal tables that the first loop of `evaluateIterative` stores for
two states with the same data agree on the cells the root kernels read. -/
theorem diagPartition_left {K : Type} [LinearOrderedField K] (c : consts K) (T T' : tree K)
    (pz : List K) (m : Nat) (a b : pInfo K)
    (hnb : T'.numBranches = T.numBranches) (hrh : T'.rateHetModel = T.rateHetModel)
    (hex : T'.td_executeModel = T.td_executeModel)
    (hst : b = { a with xVector := b.xVector, globalScaler := b.globalScaler,
                        left := b.left, right := b.right })
    (he : T.td_executeModel m = true) (hw : 0 < a.width)
    (x : Nat)
    (hx : x < (if a.protModelsLG4 then 4 * 20
      else (rateCategoriesOf T.rateHetModel a).2 * a.states)) :
    (diagPartition c T pz m a).left x = (diagPartition c T' pz m b).left x := by
  obtain ⟨s1, s2, -, s4, s5, s6, s7, s8, s9, -, -, -, -, -⟩ := static_fields hst
  have hs : ¬ ((!T.td_executeModel m || decide (a.width = 0)) = true) := by
    simp only [he, Bool.not_true, Bool.false_or, decide_eq_true_eq]
    omega
  have hrc : rateCategoriesOf T.rateHetModel b = rateCategoriesOf T.rateHetModel a := by
    unfold rateCategoriesOf
    rw [s5, s6, s7]
  unfold diagPartition
  rw [hex, hnb, hrh, s2, s4, hrc, s1, s7, s8, s9]
  simp only [hs, if_false, Bool.false_eq_true]
  by_cases hl : a.protModelsLG4 = true
  · rw [if_pos hl] at hx
    simp only [hl, if_true]
    exact calcDiagptableFlex_LG4_base c _ 4 _ _ _ _ 20 x hx
  · rw [if_neg hl] at hx
    simp only [hl, if_false, Bool.false_eq_true]
    exact calcDiagptable_base c _ _ _ _ _ _ _ x hx

theorem both_mono {α : Type} {G G' : α → α → Prop} (h : ∀ a b, G a b → G' a b)
    {x y : Except Fault α} (hb : Both G x y) : Both G' x y := by
  cases x <;> cases y <;> first | exact hb | exact h _ _ hb

/-- The body of the second loop of `evaluateIterative` on two trees that hold
the same per-partition values so far and give partition `i` the same log
likelihood: both calls stop, or both store the same value. -/
theorem evaluatePartition_rel {K : Type} [LinearOrderedField K] (c : consts K)
    (pN qN i : Nat) (T U : tree K) (lh : Nat → K)
    (hex : U.td_executeModel = T.td_executeModel) (hsm : U.saveMemory = T.saveMemory)
    (hrh : U.rateHetModel = T.rateHetModel)
    (hw : (U.partitionData i).width = (T.partitionData i).width)
    (hL : T.td_executeModel i = true → 0 < (T.partitionData i).width →
      T.rateHetModel ≠ .PLAIN →
      partitionLikelihood c T pN qN i = partitionLikelihood c U pN qN i) :
    Both (fun s s' => ∃ lh', s = { T with perPartitionLH := lh' } ∧
        s' = { U with perPartitionLH := lh' })
      (evaluatePartition c pN qN i { T with perPartitionLH := lh })
      (evaluatePartition c pN qN i { U with perPartitionLH := lh }) := by
  have pT : partitionLikelihood c { T with perPartitionLH := lh } pN qN i =
      partitionLikelihood c T pN qN i := rfl
  have pU : partitionLikelihood c { U with perPartitionLH := lh } pN qN i =
      partitionLikelihood c U pN qN i := rfl
  unfold evaluatePartition
  simp only []
  rw [pT, pU, hex, hsm, hrh, hw]
  by_cases h1 : (T.td_executeModel i && decide ((T.partitionData i).width > 0)) = true
  · simp only [h1, if_true]
    by_cases h2 : T.saveMemory = true
    · simp only [h2, if_true]
      trivial
    · simp only [h2, if_false, Bool.false_eq_true]
      by_cases h3 : T.rateHetModel = .PLAIN
      · simp only [h3, if_true]
        trivial
      · simp only [h3, if_false]
        simp only [Bool.and_eq_true, decide_eq_true_eq] at h1
        rw [← hL h1.1 h1.2 h3]
        by_cases h4 : partitionLikelihood c T pN qN i < 0
        · simp only [h4, if_true]
          exact ⟨_, rfl, rfl⟩
        · simp only [h4, if_false]
          trivial
  · simp only [h1, if_false, Bool.false_eq_true]
    by_cases h2 : (T.partitionData i).width = 0
    · simp only [h2, if_true]
      exact ⟨_, rfl, rfl⟩
    · simp only [h2, if_false]
      by_cases h3 : T.td_executeModel i = false ∧ lh i < 0
      · simp only [h3, and_self, if_true]
        exact ⟨_, rfl, rfl⟩
      · simp only [h3, if_false]
        trivial

theorem static_diag {K : Type} {SF SP a b : pInfo K} {la lb : Nat → K}
    (ha : a = { SF with left := la }) (hb : b = { SP with left := lb })
    (hst : SP = { SF with xVector := SP.xVector, globalScaler := SP.globalScaler,
                          left := SP.left, right := SP.right }) :
    b = { a with xVector := b.xVector, globalScaler := b.globalScaler,
                 left := b.left, right := b.right } := by
  subst ha hb
  rw [hst]

/-- The part of `evaluateIterative` after `newviewIterative` on two trees
whose partitions hold the same data, the same vectors at the two ends of the
root branch and the same scaling counters there: both runs stop, or both
return with the same per-partition log likelihoods. -/
theorem evaluateRoot_both {K : Type} [LinearOrderedField K] (c : consts K) (pz : List K)
    (pN qN : Nat) (A B : tree K)
    (hN : B.NumberOfModels = A.NumberOfModels) (hmx : B.mxtips = A.mxtips)
    (hnb : B.numBranches = A.numBranches) (hrh : B.rateHetModel = A.rateHetModel)
    (hsm : B.saveMemory = A.saveMemory) (hex : B.td_executeModel = A.td_executeModel)
    (hlh : B.perPartitionLH = A.perPartitionLH)
    (hst : ∀ m, m < A.NumberOfModels → B.partitionData m =
      { A.partitionData m with
        xVector := (B.partitionData m).xVector
        globalScaler := (B.partitionData m).globalScaler
        left := (B.partitionData m).left
        right := (B.partitionData m).right })
    (hrv : ∀ m, m < A.NumberOfModels →
      rootVectors A.mxtips (A.partitionData m) pN qN =
        rootVectors A.mxtips (B.partitionData m) pN qN)
    (hgp : ∀ m, m < A.NumberOfModels →
      (A.partitionData m).globalScaler pN = (B.partitionData m).globalScaler pN)
    (hgq : ∀ m, m < A.NumberOfModels →
      (A.partitionData m).globalScaler qN = (B.partitionData m).globalScaler qN)
    (hlg : ∀ m, m < A.NumberOfModels → (A.partitionData m).protModelsLG4 = true →
      (A.partitionData m).states ≤ 20)
    (hrc : A.rateHetModel = .CAT → ∀ m, m < A.NumberOfModels →
      ∀ i, i < (A.partitionData m).width →
        (A.partitionData m).rateCategory i <
          (if (A.partitionData m).protModelsLG4 then 4
            else (A.partitionData m).numberOfCategories)) :
    Both (fun A' B' => A'.perPartitionLH = B'.perPartitionLH ∧
        A'.NumberOfModels = A.NumberOfModels ∧ B'.NumberOfModels = A.NumberOfModels)
      (evaluateRoot c pz pN qN A) (evaluateRoot c pz pN qN B) := by
  unfold evaluateRoot
  simp only []
  obtain ⟨A2, hA2⟩ : ∃ A2, A2 = forLoop A.NumberOfModels (evaluateDiag c pz) A := ⟨_, rfl⟩
  obtain ⟨B2, hB2⟩ : ∃ B2, B2 = forLoop B.NumberOfModels (evaluateDiag c pz) B := ⟨_, rfl⟩
  rw [← hA2, ← hB2]
  rw [evaluateDiag_loop] at hA2 hB2
  rw [hN] at hB2
  have a_pd : ∀ m, m < A.NumberOfModels →
      A2.partitionData m = diagPartition c A pz m (A.partitionData m) := by
    intro m hm
    rw [hA2]
    simp only [hm, if_true]
  have b_pd : ∀ m, m < A.NumberOfModels →
      B2.partitionData m = diagPartition c B pz m (B.partitionData m) := by
    intro m hm
    rw [hB2]
    simp only [hm, if_true]
  have a_fr : A2.td_executeModel = A.td_executeModel ∧ A2.saveMemory = A.saveMemory ∧
      A2.rateHetModel = A.rateHetModel ∧ A2.mxtips = A.mxtips ∧
      A2.perPartitionLH = A.perPartitionLH ∧ A2.NumberOfModels = A.NumberOfModels := by
    rw [hA2]
    exact ⟨rfl, rfl, rfl, rfl, rfl, rfl⟩
  have b_fr : B2.td_executeModel = B.td_executeModel ∧ B2.saveMemory = B.saveMemory ∧
      B2.rateHetModel = B.rateHetModel ∧ B2.mxtips = B.mxtips ∧
      B2.perPartitionLH = B.perPartitionLH ∧ B2.NumberOfModels = A.NumberOfModels := by
    rw [hB2]
    exact ⟨rfl, rfl, rfl, rfl, rfl, rfl⟩
  obtain ⟨a1, a2, a3, a4, a5, a6⟩ := a_fr
  obtain ⟨b1, b2, b3, b4, b5, b6⟩ := b_fr
  clear hA2 hB2
  rw [a6, b6]
  refine both_mono ?_ (forLoopM_rel
    (fun s s' => ∃ lh', s = { A2 with perPartitionLH := lh' } ∧
      s' = { B2 with perPartitionLH := lh' }) A.NumberOfModels _ _ ?_ A2 B2 ?_)
  · rintro s s' ⟨lh, rfl, rfl⟩
    exact ⟨rfl, a6, b6⟩
  · rintro i hi s s' ⟨lh, rfl, rfl⟩
    obtain ⟨la, hla⟩ : ∃ la, diagPartition c A pz i (A.partitionData i) =
        { A.partitionData i with left := la } := ⟨_, diagPartition_fields c A pz i _⟩
    obtain ⟨lb, hlb⟩ : ∃ lb, diagPartition c B pz i (B.partitionData i) =
        { B.partitionData i with left := lb } := ⟨_, diagPartition_fields c B pz i _⟩
    obtain ⟨s1, s2, -, s4, s5, -, -, -, -, -, s11, -, -, -⟩ := static_fields (hst i hi)
    refine evaluatePartition_rel c pN qN i A2 B2 lh (by rw [a1, b1, hex])
      (by rw [a2, b2, hsm]) (by rw [a3, b3, hrh]) ?_ ?_
    · rw [a_pd i hi, b_pd i hi, hla, hlb]
      exact s2
    · intro he hw hpl
      rw [a1] at he
      rw [a_pd i hi, hla] at hw
      rw [a3] at hpl
      have hw' : 0 < (A.partitionData i).width := hw
      have hleft := diagPartition_left c A B pz i (A.partitionData i) (B.partitionData i)
        hnb hrh hex (hst i hi) he hw'
      rw [hla, hlb] at hleft
      simp only [] at hleft
      refine partitionLikelihood_congr c A2 B2 pN qN i _ _ (a_pd i hi) (b_pd i hi)
        (by rw [a4, b4, hmx]) (by rw [a3, b3, hrh])
        (static_diag hla hlb (hst i hi)) ?_ ?_ ?_ ?_ ?_
      · rw [hla, hlb, a4]
        exact hrv i hi
      · rw [hla, hlb]
        exact hgp i hi
      · rw [hla, hlb]
        exact hgq i hi
      · intro hc j hj l hl
        rw [a3] at hc
        rw [hla] at hj hl
        rw [hla, hlb]
        simp only [] at hj hl ⊢
        refine hleft _ ?_
        have hb := hrc hc i hi j hj
        by_cases hg : (A.partitionData i).protModelsLG4 = true
        · rw [if_pos hg] at hb ⊢
          have h20 := hlg i hi hg
          have : (A.partitionData i).states * (A.partitionData i).rateCategory j ≤
              (A.partitionData i).states * 3 := Nat.mul_le_mul_left _ (by omega)
          omega
        · rw [if_neg hg] at hb ⊢
          rw [hc]
          simp only [rateCategoriesOf]
          have : (A.partitionData i).states * ((A.partitionData i).rateCategory j + 1) ≤
              (A.partitionData i).states * (A.partitionData i).numberOfCategories :=
            Nat.mul_le_mul_left _ (by omega)
          rw [Nat.mul_succ] at this
          rw [Nat.mul_comm (A.partitionData i).numberOfCategories]
          omega
      · intro hc j hj k hk
        rw [a3] at hc
        rw [hla] at hk
        rw [hla, hlb]
        simp only [] at hk ⊢
        refine hleft _ ?_
        have : (A.partitionData i).states * j ≤ (A.partitionData i).states * 3 :=
          Nat.mul_le_mul_left _ (by omega)
        by_cases hg : (A.partitionData i).protModelsLG4 = true
        · rw [if_pos hg]
          have h20 := hlg i hi hg
          omega
        · rw [if_neg hg]
          have hgm : A.rateHetModel = .GAMMA := by
            cases hr : A.rateHetModel with
            | CAT => exact absurd hr hc
            | GAMMA => rfl
            | PLAIN => exact absurd hr hpl
          rw [hgm]
          simp only [rateCategoriesOf]
          omega
  · exact ⟨A.perPartitionLH, by rw [← a5], by rw [← hlh, ← b5]⟩

/-! ### The descriptor run on the tree and on its partitions -/

theorem entryPartition_tree {K : Type} [LinearOrderedField K] (c : consts K) (T T' : tree K)
    (e : traversalInfo K) (m : Nat) (pd : pInfo K)
    (h1 : T'.td_executeModel = T.td_executeModel) (h2 : T'.numBranches = T.numBranches)
    (h3 : T'.maxCategories = T.maxCategories) (h4 : T'.rateHetModel = T.rateHetModel)
    (h5 : T'.saveMemory = T.saveMemory) (h6 : T'.mxtips = T.mxtips) :
    entryPartition c T' e m pd = entryPartition c T e m pd := by
  unfold entryPartition
  rw [h1, h2, h3, h4, h5, h6]

theorem runPartition_tree {K : Type} [LinearOrderedField K] (c : consts K) (T T' : tree K)
    (m : Nat) (es : List (traversalInfo K)) (pd : pInfo K)
    (h1 : T'.td_executeModel = T.td_executeModel) (h2 : T'.numBranches = T.numBranches)
    (h3 : T'.maxCategories = T.maxCategories) (h4 : T'.rateHetModel = T.rateHetModel)
    (h5 : T'.saveMemory = T.saveMemory) (h6 : T'.mxtips = T.mxtips) :
    runPartition c T' m es pd = runPartition c T m es pd := by
  unfold runPartition
  have : (fun pd e => entryPartition c T' e m pd) = (fun pd e => entryPartition c T e m pd) :=
    funext (fun pd => funext (fun e => entryPartition_tree c T T' e m pd h1 h2 h3 h4 h5 h6))
  rw [this]

theorem runPartition_frame {K : Type} [LinearOrderedField K] (c : consts K) (T T' : tree K)
    (fr : T.SameFrame T') (m : Nat) (es : List (traversalInfo K)) (pd : pInfo K) :
    runPartition c T' m es pd = runPartition c T m es pd := by
  obtain ⟨f1, f2, f3, f4, f5, f6, _, _, _, _⟩ := sameFrame_fields fr
  exact runPartition_tree c T T' m es pd f1 f2 f3 f4 f5 f6

theorem runPartition_cons {K : Type} [LinearOrderedField K] (c : consts K) (tr : tree K)
    (m : Nat) (e : traversalInfo K) (es : List (traversalInfo K)) (S : pInfo K) :
    runPartition c tr m (e :: es) S =
      match entryPartition c tr e m S with
      | .error err => .error err
      | .ok S1 => runPartition c tr m es S1 := by
  unfold runPartition
  rw [List.foldlM_cons]
  cases entryPartition c tr e m S <;> rfl

/-- The entries of a descriptor run on the tree: where the run returns, each
partition below `NumberOfModels` holds what the entries make of it. -/
theorem newviewEntries_partitions {K : Type} [LinearOrderedField K] (c : consts K)
    (es : List (traversalInfo K)) :
    ∀ (s s' : tree K), es.foldlM (fun tr e => newviewEntry c e tr) s = .ok s' →
      ∀ m, m < s.NumberOfModels →
        runPartition c s m es (s.partitionData m) = .ok (s'.partitionData m) := by
  induction es with
  | nil =>
    intro s s' h m _
    injection h with h
    subst h
    rfl
  | cons e es ih =>
    intro s s' h m hm
    rw [List.foldlM_cons] at h
    cases h1 : newviewEntry c e s with
    | error err =>
      rw [h1] at h
      cases h
    | ok s1 =>
      rw [h1] at h
      obtain ⟨fr, hp⟩ := newviewEntry_partitions c e s s1 h1
      obtain ⟨_, _, _, _, _, _, f7, _, _, _⟩ := sameFrame_fields fr
      rw [runPartition_cons, (hp m).1 hm]
      simp only
      rw [← runPartition_frame c s s1 fr]
      exact ih s1 s' h m (by rw [f7]; exact hm)

theorem forLoopM_partitions_returns {K : Type} (G : Nat → pInfo K → Except Fault (pInfo K))
    (body : Nat → tree K → Except Fault (tree K)) (s0 : tree K)
    (hbody : ∀ m s, s0.SameFrame s → body m s =
      match G m (s.partitionData m) with
      | .error e => .error e
      | .ok pd => .ok (s.setPartition m pd)) :
    ∀ (n : Nat), (∀ m, m < n → ∃ pd, G m (s0.partitionData m) = .ok pd) →
      ∃ s', forLoopM n body s0 = .ok s' := by
  intro n
  induction n with
  | zero => exact fun _ => ⟨s0, rfl⟩
  | succ n ih =>
    intro h
    obtain ⟨s, hs⟩ := ih (fun m hm => h m (by omega))
    obtain ⟨fr, hm⟩ := forLoopM_partitions G body s0 hbody n s hs
    obtain ⟨pd, hpd⟩ := h n (by omega)
    rw [forLoopM_succ, hs]
    simp only
    rw [hbody n s fr, (hm n).2 (le_refl n), hpd]
    exact ⟨_, rfl⟩

/-- One entry of the descriptor returns on the tree when it returns on every
partition below `NumberOfModels`. -/
theorem newviewEntry_returns {K : Type} [LinearOrderedField K] (c : consts K)
    (e : traversalInfo K) (s0 : tree K)
    (h : ∀ m, m < s0.NumberOfModels →
      ∃ pd, entryPartition c s0 e m (s0.partitionData m) = .ok pd) :
    ∃ s', newviewEntry c e s0 = .ok s' := by
  have r1 : ∀ m, m < s0.NumberOfModels → ∃ pd,
      (if !s0.td_executeModel m || (s0.partitionData m).width = 0 then
          .ok (s0.partitionData m)
        else pmatrices c s0.numBranches s0.maxCategories s0.rateHetModel s0.saveMemory e m
          (s0.partitionData m)) = Except.ok pd := by
    intro m _
    split_ifs
    · exact ⟨_, rfl⟩
    · obtain ⟨l, r, hp⟩ := pmatrices_ok c s0.numBranches s0.maxCategories s0.rateHetModel
        s0.saveMemory e m (s0.partitionData m)
      exact ⟨_, hp⟩
  obtain ⟨s1, h1⟩ := forLoopM_partitions_returns
    (fun m pd => if !s0.td_executeModel m || pd.width = 0 then .ok pd
      else pmatrices c s0.numBranches s0.maxCategories s0.rateHetModel s0.saveMemory e m pd)
    (newviewMakeP c e) s0
    (fun m s fr => by
      obtain ⟨f1, f2, f3, f4, f5, _, _, _, _, _⟩ := sameFrame_fields fr
      simp only [newviewMakeP_eq, f1, f2, f3, f4, f5]) s0.NumberOfModels r1
  obtain ⟨fr1, p1⟩ := forLoopM_partitions
    (fun m pd => if !s0.td_executeModel m || pd.width = 0 then .ok pd
      else pmatrices c s0.numBranches s0.maxCategories s0.rateHetModel s0.saveMemory e m pd)
    (newviewMakeP c e) s0
    (fun m s fr => by
      obtain ⟨f1, f2, f3, f4, f5, _, _, _, _, _⟩ := sameFrame_fields fr
      simp only [newviewMakeP_eq, f1, f2, f3, f4, f5]) _ s1 h1
  obtain ⟨g1, g2, g3, g4, g5, g6, g7, _, _, _⟩ := sameFrame_fields fr1
  unfold newviewEntry
  rw [h1]
  simp only
  rw [g7]
  refine forLoopM_partitions_returns
    (fun m pd => if s0.td_executeModel m && decide (pd.width > 0) then
        updateVector c s0.mxtips s0.rateHetModel s0.saveMemory e pd
      else .ok pd)
    (newviewPartition c e) s1
    (fun m s fr => by
      obtain ⟨f1, f2, f3, f4, f5, f6, _, _, _, _⟩ := sameFrame_fields (sameFrame_trans fr1 fr)
      simp only [newviewPartition_eq, f1, f4, f5, f6]) s0.NumberOfModels ?_
  intro m hm
  obtain ⟨pd, hpd⟩ := h m hm
  have q1 := (p1 m).1 hm
  simp only at q1 ⊢
  unfold entryPartition at hpd
  by_cases hc : (!s0.td_executeModel m || decide ((s0.partitionData m).width = 0)) = true
  · rw [if_pos hc] at q1
    injection q1 with q1
    have hc2 : ¬ ((s0.td_executeModel m && decide ((s0.partitionData m).width > 0)) = true) := by
      simp only [Bool.or_eq_true, Bool.not_eq_true', decide_eq_true_eq] at hc
      simp only [Bool.and_eq_true, decide_eq_true_eq, not_and]
      rcases hc with hc | hc
      · intro ht
        rw [hc] at ht
        cases ht
      · intro _
        omega
    rw [← q1, if_neg hc2]
    exact ⟨_, rfl⟩
  · rw [if_neg hc] at q1 hpd
    rw [q1] at hpd
    simp only at hpd
    have hw := pmatrices_width c _ _ _ _ e m _ _ q1
    have hc2 : (s0.td_executeModel m && decide ((s1.partitionData m).width > 0)) = true := by
      simp only [Bool.or_eq_true, Bool.not_eq_true', decide_eq_true_eq, not_or,
        Bool.not_eq_false] at hc
      simp only [Bool.and_eq_true, decide_eq_true_eq, hw]
      exact ⟨hc.1, by omega⟩
    rw [if_pos hc2]
    exact ⟨pd, hpd⟩

/-- The entries of a descriptor return on the tree when they return on every
partition below `NumberOfModels`. -/
theorem newviewEntries_returns {K : Type} [LinearOrderedField K] (c : consts K)
    (es : List (traversalInfo K)) :
    ∀ (s : tree K), (∀ m, m < s.NumberOfModels →
        ∃ pd, runPartition c s m es (s.partitionData m) = .ok pd) →
      ∃ s', es.foldlM (fun tr e => newviewEntry c e tr) s = .ok s' := by
  induction es with
  | nil => exact fun s _ => ⟨s, rfl⟩
  | cons e es ih =>
    intro s h
    have he : ∀ m, m < s.NumberOfModels →
        ∃ pd, entryPartition c s e m (s.partitionData m) = .ok pd := by
      intro m hm
      obtain ⟨pd, hpd⟩ := h m hm
      rw [runPartition_cons] at hpd
      cases h1 : entryPartition c s e m (s.partitionData m) with
      | error err => rw [h1] at hpd; cases hpd
      | ok pd1 => exact ⟨pd1, rfl⟩
    obtain ⟨s1, h1⟩ := newviewEntry_returns c e s he
    obtain ⟨fr, hp⟩ := newviewEntry_partitions c e s s1 h1
    obtain ⟨_, _, _, _, _, _, f7, _, _, _⟩ := sameFrame_fields fr
    obtain ⟨s', hs'⟩ := ih s1 (fun m hm => by
      rw [f7] at hm
      obtain ⟨pd, hpd⟩ := h m hm
      rw [runPartition_cons, (hp m).1 hm] at hpd
      simp only at hpd
      rw [runPartition_frame c s s1 fr]
      exact ⟨pd, hpd⟩)
    rw [List.foldlM_cons, h1]
    exact ⟨s', hs'⟩

theorem both_ok_left {α : Type} {G : α → α → Prop} {x y : Except Fault α} {a : α}
    (hb : Both G x y) (hx : x = .ok a) : ∃ b, y = .ok b ∧ G a b := by
  subst hx
  cases y with
  | error e => exact hb.elim
  | ok b => exact ⟨b, rfl, hb⟩

theorem both_ok_right {α : Type} {G : α → α → Prop} {x y : Except Fault α} {b : α}
    (hb : Both G x y) (hy : y = .ok b) : ∃ a, x = .ok a ∧ G a b := by
  subst hy
  cases x with
  | error e => exact hb.elim
  | ok a => exact ⟨a, rfl, hb⟩

/-- Two descriptors run on two trees with the same model: when, on every
partition, the two runs return together with results related by `G`, the runs
on the trees return together, with every partition related by `G`. -/
theorem newviewEntries_both {K : Type} [LinearOrderedField K] (c : consts K)
    (G : Nat → pInfo K → pInfo K → Prop) (esF esP : List (traversalInfo K))
    (sF sP : tree K)
    (h1 : sP.td_executeModel = sF.td_executeModel) (h2 : sP.numBranches = sF.numBranches)
    (h3 : sP.maxCategories = sF.maxCategories) (h4 : sP.rateHetModel = sF.rateHetModel)
    (h5 : sP.saveMemory = sF.saveMemory) (h6 : sP.mxtips = sF.mxtips)
    (h7 : sP.NumberOfModels = sF.NumberOfModels)
    (hpart : ∀ m, m < sF.NumberOfModels →
      Both (G m) (runPartition c sF m esF (sF.partitionData m))
        (runPartition c sF m esP (sP.partitionData m))) :
    Both (fun F P => sF.SameFrame F ∧ sP.SameFrame P ∧
        ∀ m, m < sF.NumberOfModels → G m (F.partitionData m) (P.partitionData m))
      (esF.foldlM (fun tr e => newviewEntry c e tr) sF)
      (esP.foldlM (fun tr e => newviewEntry c e tr) sP) := by
  have hPtree : ∀ m, runPartition c sP m esP (sP.partitionData m) =
      runPartition c sF m esP (sP.partitionData m) :=
    fun m => runPartition_tree c sF sP m esP _ h1 h2 h3 h4 h5 h6
  cases hF : esF.foldlM (fun tr e => newviewEntry c e tr) sF with
  | ok F =>
    have pF := newviewEntries_partitions c esF sF F hF
    have hret : ∀ m, m < sP.NumberOfModels →
        ∃ pd, runPartition c sP m esP (sP.partitionData m) = .ok pd := by
      intro m hm
      rw [h7] at hm
      obtain ⟨b, hb, _⟩ := both_ok_left (hpart m hm) (pF m hm)
      exact ⟨b, by rw [hPtree]; exact hb⟩
    obtain ⟨P, hP⟩ := newviewEntries_returns c esP sP hret
    rw [hP]
    have pP := newviewEntries_partitions c esP sP P hP
    refine ⟨newviewEntries_frame c esF sF F hF, newviewEntries_frame c esP sP P hP, ?_⟩
    intro m hm
    have := hpart m hm
    rw [pF m hm, ← hPtree, pP m (by rw [h7]; exact hm)] at this
    exact this
  | error err =>
    cases hP : esP.foldlM (fun tr e => newviewEntry c e tr) sP with
    | error err2 => trivial
    | ok P =>
      exfalso
      have pP := newviewEntries_partitions c esP sP P hP
      have hret : ∀ m, m < sF.NumberOfModels →
          ∃ pd, runPartition c sF m esF (sF.partitionData m) = .ok pd := by
        intro m hm
        have hb := hpart m hm
        rw [← hPtree, pP m (by rw [h7]; exact hm)] at hb
        obtain ⟨a, ha, _⟩ := both_ok_right hb rfl
        exact ⟨a, ha⟩
      obtain ⟨F, hF'⟩ := newviewEntries_returns c esF sF hret
      rw [hF] at hF'
      cases hF'

/-! ### The two calls of `evaluateGeneric` -/

/-- An inner node of a subtree held by the heap is itself held by the heap,
with records that are pairwise distinct and a height that is not larger. -/
theorem innerNodes_sub {K : Type} (h : heap K) (maxTips : Nat) (t : Topo) :
    Shape h maxTips t → (t.records h).Nodup → ∀ s ∈ t.innerNodes,
      Shape h maxTips s ∧ (s.records h).Nodup ∧ s.height ≤ t.height ∧ s.isInner = true := by
  induction t with
  | tip a =>
    intro _ _ s hs
    simp [Topo.innerNodes] at hs
  | inner p l r ihl ihr =>
    intro hs hnd s hmem
    have hs' := hs
    have hnd' := hnd
    obtain ⟨_, _, _, sl, sr⟩ := hs
    simp only [Topo.records, List.nodup_cons, List.nodup_append] at hnd
    obtain ⟨_, _, _, ndl, ndr, _⟩ := hnd
    simp only [Topo.innerNodes, List.mem_append, List.mem_singleton] at hmem
    rcases hmem with (hl | hr) | rfl
    · obtain ⟨a, b, d, e⟩ := ihl sl ndl s hl
      exact ⟨a, b, by simp only [Topo.height]; omega, e⟩
    · obtain ⟨a, b, d, e⟩ := ihr sr ndr s hr
      exact ⟨a, b, by simp only [Topo.height]; omega, e⟩
    · exact ⟨hs', hnd', le_refl _, rfl⟩

/-- What the hypothesis on an oriented node says for one partition: when
`newviewGeneric` at the node returns and leaves the vector and the scaling
counter of the node as they are, the entries of its traversal, run on the
partition, return and leave them as they are. -/
theorem nodeHolds_of_newview {K : Type} [LinearOrderedField K] (c : consts K) (fuel : Nat)
    (tr tr' : tree K) (s : Topo) (hi : s.isInner = true)
    (hs : Shape tr.nodep tr.mxtips s) (hnd : (s.records tr.nodep).Nodup) (hf : s.height < fuel)
    (h1 : newviewGeneric c fuel tr s.root false = .ok tr') (m : Nat)
    (hm : m < tr.NumberOfModels)
    (hag : AgreeAt tr.mxtips (tr.nodep s.root).number (tr'.partitionData m)
      (tr.partitionData m)) :
    NodeHolds c (storeExecuteMaskInTraversalDescriptor tr) m tr.numBranches tr.nodep
      (tr.partitionData m) s := by
  cases s with
  | tip a => simp [Topo.isInner] at hi
  | inner p l r =>
  simp only [Topo.root] at h1 hag
  have hnt : isTip (tr.nodep p).number tr.mxtips = false := hs.1
  obtain ⟨h', hres1, _, _, _, _⟩ := computeTraversalInfo_run tr.mxtips tr.numBranches true
    (.inner p l r) fuel tr.nodep [] hs hnd hf
  obtain ⟨pre, hvis⟩ := visit_last true tr.nodep p l r
  simp only [Topo.root] at hres1
  rw [List.nil_append] at hres1
  have hlen : 0 < ((visit true tr.nodep (.inner p l r)).map
      (entryOf tr.numBranches tr.nodep)).length := by
    rw [hvis]
    simp
  unfold newviewGeneric at h1
  rw [hnt] at h1
  simp only [Bool.false_eq_true, if_false, hres1, gt_iff_lt, hlen, if_true] at h1
  cases hX : newviewIterative c (storeExecuteMaskInTraversalDescriptor
      { tr with nodep := h'
                ti := (visit true tr.nodep (.inner p l r)).map (entryOf tr.numBranches tr.nodep)
                traversalHasChanged := true }) 0 with
  | error err =>
    rw [hX] at h1
    cases h1
  | ok trX =>
    rw [hX] at h1
    injection h1 with h1
    unfold newviewIterative at hX
    have hp := newviewEntries_partitions c _ _ trX hX m hm
    refine ⟨trX.partitionData m, ?_, ?_⟩
    · rw [← hp]
      exact (runPartition_tree c _ _ m _ _ rfl rfl rfl rfl rfl rfl).symm
    · rw [← h1] at hag
      exact hag

/-- The full and the partial traversal below the far end `q` of the root
branch, run on one partition whose oriented inner nodes hold what newview
computes: both runs return, or both stop; the results hold the same data, the
same vectors for the root branch and the same scaling counters at its two
ends. -/
theorem root_partition_both {K : Type} [LinearOrderedField K] (c : consts K) (R : tree K)
    (m nb : Nat) (h : heap K) (pd0 : pInfo K) (p : Nat) (tq : Topo)
    (hsq : Shape h R.mxtips tq) (hndq : (tq.numbers h).Nodup)
    (hp : isTip (h p).number R.mxtips = true) (hpq : (h p).number ∉ tq.numbers h)
    (H : ∀ s ∈ tq.innerNodes, (h s.root).x = true → NodeHolds c R m nb h pd0 s) :
    Both (fun a b =>
        b = { a with xVector := b.xVector, globalScaler := b.globalScaler,
                     left := b.left, right := b.right } ∧
        a = { pd0 with xVector := a.xVector, globalScaler := a.globalScaler,
                       left := a.left, right := a.right } ∧
        rootVectors R.mxtips a (h p).number (h tq.root).number =
          rootVectors R.mxtips b (h p).number (h tq.root).number ∧
        a.globalScaler (h p).number = b.globalScaler (h p).number ∧
        a.globalScaler (h tq.root).number = b.globalScaler (h tq.root).number)
      (runPartition c R m (tq.innerNodes.map (entryOf nb h)) pd0)
      (runPartition c R m ((visitIf true h tq).map (entryOf nb h)) pd0) := by
  cases tq with
  | tip a =>
    rw [visitIf_tip]
    exact ⟨rfl, rfl, rfl, rfl, rfl⟩
  | inner q l r =>
    have hq : isTip (h q).number R.mxtips = false := hsq.1
    have hlt : R.mxtips < (h q).number := (isTip_false_iff _ _).1 hq
    refine both_mono ?_ (full_partial_run c R m nb h pd0 (.inner q l r) hsq hndq H pd0 pd0
      (coupled_refl c R m pd0) (coupled_refl c R m pd0)
      (fun n _ => ⟨agreeAt_refl _ _ _, agreeAt_refl _ _ _⟩))
    rintro a b ⟨g1, g2, g3, g4, g5⟩
    simp only [Topo.root] at g1 ⊢
    have hst := (coupled_trans (coupled_symm g4) g5).static
    obtain ⟨_, _, s3, _, _, _, _, _, _, _, _, _, s13, s14⟩ := static_fields hst
    have hpi : (h p).number ∉ (Topo.inner q l r).innerNumbers h :=
      fun hh => hpq (innerNumbers_subset h _ _ hh)
    refine ⟨hst, g4.static, ?_, ?_, g1.2⟩
    · simp only [rootVectors, hp, hq, Bool.true_or, if_true, Bool.false_eq_true, if_false]
      rw [s3, s13, s14, g1.1 hlt]
    · exact ((g2 _ hpi).2.symm.trans (g3 _ hpi).2)

theorem evaluateIterative_cons {K : Type} [LinearOrderedField K] (c : consts K) (T : tree K)
    (e0 : traversalInfo K) (L : List (traversalInfo K)) (hti : T.ti = e0 :: L) :
    evaluateIterative c T =
      match L.foldlM (fun tr e => newviewEntry c e tr) T with
      | .error err => .error err
      | .ok tr1 => evaluateRoot c e0.qz e0.pNumber e0.qNumber tr1 := by
  cases T
  simp only at hti
  subst hti
  rfl

/-- The two runs of `evaluateIterative` behind the two calls of
`evaluateGeneric`: on descriptors with the same entry 0 whose further entries
are those of all inner nodes below `q` and those of the partial traversal,
both runs stop, or both return with the same per-partition log likelihoods. -/
theorem evaluateIterative_both {K : Type} [LinearOrderedField K] (c : consts K)
    (TF TP : tree K) (e0 : traversalInfo K) (tq : Topo) (p : Nat) (h : heap K)
    (hF : TF.ti = e0 :: tq.innerNodes.map (entryOf TF.numBranches h))
    (hP : TP.ti = e0 :: (visitIf true h tq).map (entryOf TF.numBranches h))
    (hpN : e0.pNumber = (h p).number) (hqN : e0.qNumber = (h tq.root).number)
    (h1 : TP.td_executeModel = TF.td_executeModel) (h2 : TP.numBranches = TF.numBranches)
    (h3 : TP.maxCategories = TF.maxCategories) (h4 : TP.rateHetModel = TF.rateHetModel)
    (h5 : TP.saveMemory = TF.saveMemory) (h6 : TP.mxtips = TF.mxtips)
    (h7 : TP.NumberOfModels = TF.NumberOfModels)
    (h8 : TP.perPartitionLH = TF.perPartitionLH)
    (h9 : TP.partitionData = TF.partitionData)
    (hsq : Shape h TF.mxtips tq) (hndq : (tq.numbers h).Nodup)
    (hp : isTip (h p).number TF.mxtips = true) (hpq : (h p).number ∉ tq.numbers h)
    (hlg : ∀ m, m < TF.NumberOfModels → (TF.partitionData m).protModelsLG4 = true →
      (TF.partitionData m).states ≤ 20)
    (hrc : TF.rateHetModel = .CAT → ∀ m, m < TF.NumberOfModels →
      ∀ i, i < (TF.partitionData m).width →
        (TF.partitionData m).rateCategory i <
          (if (TF.partitionData m).protModelsLG4 then 4
            else (TF.partitionData m).numberOfCategories))
    (H : ∀ m, m < TF.NumberOfModels → ∀ s ∈ tq.innerNodes, (h s.root).x = true →
      NodeHolds c TF m TF.numBranches h (TF.partitionData m) s) :
    Both (fun A B => A.perPartitionLH = B.perPartitionLH ∧
        A.NumberOfModels = TF.NumberOfModels ∧ B.NumberOfModels = TF.NumberOfModels)
      (evaluateIterative c TF) (evaluateIterative c TP) := by
  rw [evaluateIterative_cons c TF e0 _ hF, evaluateIterative_cons c TP e0 _ hP]
  have hb := newviewEntries_both c
    (fun m a b =>
        b = { a with xVector := b.xVector, globalScaler := b.globalScaler,
                     left := b.left, right := b.right } ∧
        a = { TF.partitionData m with xVector := a.xVector, globalScaler := a.globalScaler,
                                      left := a.left, right := a.right } ∧
        rootVectors TF.mxtips a (h p).number (h tq.root).number =
          rootVectors TF.mxtips b (h p).number (h tq.root).number ∧
        a.globalScaler (h p).number = b.globalScaler (h p).number ∧
        a.globalScaler (h tq.root).number = b.globalScaler (h tq.root).number)
    (tq.innerNodes.map (entryOf TF.numBranches h))
    ((visitIf true h tq).map (entryOf TF.numBranches h)) TF TP h1 h2 h3 h4 h5 h6 h7
    (fun m hm => by
      rw [h9]
      exact root_partition_both c TF m TF.numBranches h (TF.partitionData m) p tq hsq hndq
        hp hpq (H m hm))
  have fin : ∀ A B, (TF.SameFrame A ∧ TP.SameFrame B ∧ ∀ m, m < TF.NumberOfModels →
      (B.partitionData m = { A.partitionData m with
            xVector := (B.partitionData m).xVector
            globalScaler := (B.partitionData m).globalScaler
            left := (B.partitionData m).left
            right := (B.partitionData m).right } ∧
        A.partitionData m = { TF.partitionData m with
            xVector := (A.partitionData m).xVector
            globalScaler := (A.partitionData m).globalScaler
            left := (A.partitionData m).left
            right := (A.partitionData m).right } ∧
        rootVectors TF.mxtips (A.partitionData m) (h p).number (h tq.root).number =
          rootVectors TF.mxtips (B.partitionData m) (h p).number (h tq.root).number ∧
        (A.partitionData m).globalScaler (h p).number =
          (B.partitionData m).globalScaler (h p).number ∧
        (A.partitionData m).globalScaler (h tq.root).number =
          (B.partitionData m).globalScaler (h tq.root).number)) →
      Both (fun A B => A.perPartitionLH = B.perPartitionLH ∧
          A.NumberOfModels = TF.NumberOfModels ∧ B.NumberOfModels = TF.NumberOfModels)
        (evaluateRoot c e0.qz e0.pNumber e0.qNumber A)
        (evaluateRoot c e0.qz e0.pNumber e0.qNumber B) := by
    rintro A B ⟨frA, frB, hG⟩
    obtain ⟨a1, a2, a3, a4, a5, a6, a7, _, _, _⟩ := sameFrame_fields frA
    obtain ⟨b1, b2, b3, b4, b5, b6, b7, _, _, _⟩ := sameFrame_fields frB
    have aL : A.perPartitionLH = TF.perPartitionLH := by
      unfold tree.SameFrame at frA
      rw [frA]
    have bL : B.perPartitionLH = TF.perPartitionLH := by
      unfold tree.SameFrame at frB
      rw [frB]
      exact h8
    have key := evaluateRoot_both c e0.qz e0.pNumber e0.qNumber A B
      (by rw [a7, b7, h7]) (by rw [a6, b6, h6]) (by rw [a2, b2, h2]) (by rw [a4, b4, h4])
      (by rw [a5, b5, h5]) (by rw [a1, b1, h1]) (by rw [aL, bL])
      (fun m hm => (hG m (by rw [← a7]; exact hm)).1)
      (fun m hm => by
        rw [hpN, hqN, a6]
        exact (hG m (by rw [← a7]; exact hm)).2.2.1)
      (fun m hm => by
        rw [hpN]
        exact (hG m (by rw [← a7]; exact hm)).2.2.2.1)
      (fun m hm => by
        rw [hqN]
        exact (hG m (by rw [← a7]; exact hm)).2.2.2.2)
      (fun m hm => by
        rw [a7] at hm
        obtain ⟨s1, _, _, s4, _, _, _, _, _, _, _, _, _, _⟩ :=
          static_fields (hG m hm).2.1
        rw [s1, s4]
        exact hlg m hm)
      (fun hc m hm => by
        rw [a7] at hm
        rw [a4] at hc
        obtain ⟨_, s2, _, s4, s5, _, _, _, _, _, s11, _, _, _⟩ :=
          static_fields (hG m hm).2.1
        rw [s2, s4, s5, s11]
        exact hrc hc m hm)
    refine both_mono ?_ key
    rintro A' B' ⟨k1, k2, k3⟩
    exact ⟨k1, k2.trans a7, k3.trans a7⟩
  cases hA : List.foldlM (fun tr e => newviewEntry c e tr) TF
      (tq.innerNodes.map (entryOf TF.numBranches h)) with
  | error e1 =>
    rw [hA] at hb
    cases hB : List.foldlM (fun tr e => newviewEntry c e tr) TP
        ((visitIf true h tq).map (entryOf TF.numBranches h)) with
    | error e2 => trivial
    | ok B => rw [hB] at hb; exact hb.elim
  | ok A =>
    rw [hA] at hb
    cases hB : List.foldlM (fun tr e => newviewEntry c e tr) TP
        ((visitIf true h tq).map (entryOf TF.numBranches h)) with
    | error e2 => rw [hB] at hb; exact hb.elim
    | ok B =>
      rw [hB] at hb
      exact fin A B hb

theorem evaluateGeneric_ok {K : Type} [LinearOrderedField K] (c : consts K) (fuel : Nat)
    (tr tr' : tree K) (p : Nat) (full : Bool) (h' : heap K) (ti : List (traversalInfo K))
    (h1 : evaluateGenericTraversal tr.mxtips tr.numBranches full fuel tr.nodep p tr.ti0 =
      .ok (h', ti))
    (h2 : evaluateIterative c
      { storeExecuteMaskInTraversalDescriptor { tr with nodep := h', ti := ti } with
        traversalHasChanged := true } = .ok tr') :
    evaluateGeneric c fuel tr p full =
      .ok { tr' with
            likelihood := forLoop tr'.NumberOfModels (fun model result =>
              result + tr'.perPartitionLH model) 0
            traversalHasChanged := false } := by
  unfold evaluateGeneric
  rw [h1]
  simp only []
  rw [h2]

theorem evaluateGeneric_error {K : Type} [LinearOrderedField K] (c : consts K) (fuel : Nat)
    (tr : tree K) (p : Nat) (full : Bool) (h' : heap K) (ti : List (traversalInfo K))
    (err : Fault)
    (h1 : evaluateGenericTraversal tr.mxtips tr.numBranches full fuel tr.nodep p tr.ti0 =
      .ok (h', ti))
    (h2 : evaluateIterative c
      { storeExecuteMaskInTraversalDescriptor { tr with nodep := h', ti := ti } with
        traversalHasChanged := true } = .error err) :
    evaluateGeneric c fuel tr p full = .error err := by
  unfold evaluateGeneric
  rw [h1]
  simp only []
  rw [h2]

/-- The two calls of `evaluateGeneric` at a tip `p`, with a full and with a
partial traversal, on a store whose oriented inner nodes hold, in every
partition, what the entries of `newviewGeneric` at the node compute: both
calls stop, or both return with the same per-partition log likelihoods and
the same total. -/
theorem evaluateGeneric_both {K : Type} [LinearOrderedField K] (c : consts K) (fuel : Nat)
    (tr : tree K) (p : Nat) (tq : Topo)
    (wf : BranchWellFormed tr.nodep tr.mxtips p (.tip p) tq) (hf : tq.height < fuel)
    (hlg : ∀ m, m < tr.NumberOfModels → (tr.partitionData m).protModelsLG4 = true →
      (tr.partitionData m).states ≤ 20)
    (hrc : tr.rateHetModel = .CAT → ∀ m, m < tr.NumberOfModels →
      ∀ i, i < (tr.partitionData m).width →
        (tr.partitionData m).rateCategory i <
          (if (tr.partitionData m).protModelsLG4 then 4
            else (tr.partitionData m).numberOfCategories))
    (H : ∀ m, m < tr.NumberOfModels → ∀ s ∈ tq.innerNodes, (tr.nodep s.root).x = true →
      NodeHolds c (storeExecuteMaskInTraversalDescriptor tr) m tr.numBranches tr.nodep
        (tr.partitionData m) s) :
    Both (fun F P => F.perPartitionLH = P.perPartitionLH ∧ F.likelihood = P.likelihood)
      (evaluateGeneric c fuel tr p true) (evaluateGeneric c fuel tr p false) := by
  obtain ⟨-, rq, sp, sq, nd, nn⟩ := id wf
  have hp : isTip (tr.nodep p).number tr.mxtips = true := sp
  rw [List.nodup_append] at nd
  obtain ⟨-, ndq, -⟩ := nd
  simp only [Topo.numbers, List.singleton_append, List.nodup_cons] at nn
  obtain ⟨hpq, nnq⟩ := nn
  -- the two traversals
  obtain ⟨hF, eF, -, -, -, -⟩ := computeTraversalInfo_run tr.mxtips tr.numBranches false tq fuel
    tr.nodep [rootEntry tr.numBranches tr.nodep p tr.ti0] sq ndq hf
  rw [visit_full] at eF
  have tF : evaluateGenericTraversal tr.mxtips tr.numBranches true fuel tr.nodep p tr.ti0 =
      .ok (hF, [rootEntry tr.numBranches tr.nodep p tr.ti0] ++
        tq.innerNodes.map (entryOf tr.numBranches tr.nodep)) := by
    simp only [evaluateGenericTraversal, hp, if_true]
    rw [← rq]
    exact eF
  obtain ⟨hP, tP, -⟩ := evaluateGenericTraversal_partial tr.mxtips tr.numBranches fuel tr.nodep
    p (.tip p) tq tr.ti0 wf (by simp only [Topo.height]; omega) hf
  rw [visitIf_tip, List.nil_append] at tP
  -- the two runs over the descriptor
  have hIt := evaluateIterative_both c
    { storeExecuteMaskInTraversalDescriptor { tr with
        nodep := hF
        ti := [rootEntry tr.numBranches tr.nodep p tr.ti0] ++
          tq.innerNodes.map (entryOf tr.numBranches tr.nodep) } with
      traversalHasChanged := true }
    { storeExecuteMaskInTraversalDescriptor { tr with
        nodep := hP
        ti := [rootEntry tr.numBranches tr.nodep p tr.ti0] ++
          (visitIf true tr.nodep tq).map (entryOf tr.numBranches tr.nodep) } with
      traversalHasChanged := true }
    (rootEntry tr.numBranches tr.nodep p tr.ti0) tq p tr.nodep rfl rfl rfl
    (by rw [rq]; rfl) rfl rfl rfl rfl rfl rfl rfl rfl rfl sq nnq hp hpq hlg hrc
    (fun m hm s hs hx => by
      obtain ⟨SH, h1, h2⟩ := H m hm s hs hx
      exact ⟨SH, by rw [← h1]; exact runPartition_tree c _ _ m _ _ rfl rfl rfl rfl rfl rfl, h2⟩)
  cases hA : evaluateIterative c
    { storeExecuteMaskInTraversalDescriptor { tr with
        nodep := hF
        ti := [rootEntry tr.numBranches tr.nodep p tr.ti0] ++
          tq.innerNodes.map (entryOf tr.numBranches tr.nodep) } with
      traversalHasChanged := true } with
  | error e1 =>
    rw [hA] at hIt
    cases hB : evaluateIterative c
      { storeExecuteMaskInTraversalDescriptor { tr with
          nodep := hP
          ti := [rootEntry tr.numBranches tr.nodep p tr.ti0] ++
            (visitIf true tr.nodep tq).map (entryOf tr.numBranches tr.nodep) } with
        traversalHasChanged := true } with
    | error e2 =>
      rw [evaluateGeneric_error c fuel tr p true _ _ e1 tF hA,
        evaluateGeneric_error c fuel tr p false _ _ e2 tP hB]
      trivial
    | ok B =>
      rw [hB] at hIt
      exact hIt.elim
  | ok A =>
    rw [hA] at hIt
    cases hB : evaluateIterative c
      { storeExecuteMaskInTraversalDescriptor { tr with
          nodep := hP
          ti := [rootEntry tr.numBranches tr.nodep p tr.ti0] ++
            (visitIf true tr.nodep tq).map (entryOf tr.numBranches tr.nodep) } with
        traversalHasChanged := true } with
    | error e2 =>
      rw [hB] at hIt
      exact hIt.elim
    | ok B =>
      rw [hB] at hIt
      obtain ⟨k1, k2, k3⟩ := hIt
      rw [evaluateGeneric_ok c fuel tr A p true _ _ tF hA,
        evaluateGeneric_ok c fuel tr B p false _ _ tP hB]
      refine ⟨k1, ?_⟩
      show forLoop A.NumberOfModels (fun model result => result + A.perPartitionLH model) 0 =
        forLoop B.NumberOfModels (fun model result => result + B.perPartitionLH model) 0
      rw [k1, k2, k3]

/-- C7: full versus partial evaluation. The tree is cut at the branch between
a tip `p` and `q = p->back`, with the subtree `tq` below `q`. The hypothesis of
the claim, that each oriented inner node holds exactly the vector and scaler
that newview would recompute, is read as: for every inner node `s` of `tq`
whose `x` flag toward the branch is set, the call
`newviewGeneric(tr, s, FALSE)` on this store returns and leaves the vector and
the scaling counter of `s` as they are, in every partition. The partitions are
taken to be in bounds for the root kernels: under CAT the rate category of
every pattern indexes a row of the diagonal table that `evaluateIterative`
fills, and an LG4 partition has at most 20 states. Then
`evaluateGeneric(tr, p, TRUE)` and `evaluateGeneric(tr, p, FALSE)` return
together (with fuel above the height of the tree), and where they return they
yield the same per-partition log likelihoods and the same total
`tr->likelihood`. -/
theorem full_partial_evaluation {K : Type} [LinearOrderedField K] (c : consts K) (fuel : Nat)
    (tr : tree K) (p : Nat) (tq : Topo)
    (wf : BranchWellFormed tr.nodep tr.mxtips p (.tip p) tq) (hf : tq.height < fuel)
    (hlg : ∀ m, m < tr.NumberOfModels → (tr.partitionData m).protModelsLG4 = true →
      (tr.partitionData m).states ≤ 20)
    (hrc : tr.rateHetModel = .CAT → ∀ m, m < tr.NumberOfModels →
      ∀ i, i < (tr.partitionData m).width →
        (tr.partitionData m).rateCategory i <
          (if (tr.partitionData m).protModelsLG4 then 4
            else (tr.partitionData m).numberOfCategories))
    (H : ∀ s ∈ tq.innerNodes, (tr.nodep s.root).x = true →
      ∃ tr', newviewGeneric c fuel tr s.root false = .ok tr' ∧
        ∀ m, m < tr.NumberOfModels →
          (tr'.partitionData m).xVector ((tr.nodep s.root).number - tr.mxtips - 1) =
            (tr.partitionData m).xVector ((tr.nodep s.root).number - tr.mxtips - 1) ∧
          (tr'.partitionData m).globalScaler (tr.nodep s.root).number =
            (tr.partitionData m).globalScaler (tr.nodep s.root).number) :
    (∀ trF, evaluateGeneric c fuel tr p true = .ok trF →
      ∃ trP, evaluateGeneric c fuel tr p false = .ok trP ∧
        (∀ m, trP.perPartitionLH m = trF.perPartitionLH m) ∧
        trP.likelihood = trF.likelihood) ∧
    (∀ trP, evaluateGeneric c fuel tr p false = .ok trP →
      ∃ trF, evaluateGeneric c fuel tr p true = .ok trF ∧
        (∀ m, trF.perPartitionLH m = trP.perPartitionLH m) ∧
        trF.likelihood = trP.likelihood) := by
  have ndq : (tq.records tr.nodep).Nodup := (List.nodup_append.1 wf.records_nodup).2.1
  have hb := evaluateGeneric_both c fuel tr p tq wf hf hlg hrc (fun m hm s hs hx => by
    obtain ⟨tr', h1, h2⟩ := H s hs hx
    obtain ⟨a, b, d, e⟩ := innerNodes_sub tr.nodep tr.mxtips tq wf.shape_q ndq s hs
    exact nodeHolds_of_newview c fuel tr tr' s e a b (by omega) h1 m hm
      ⟨fun _ => (h2 m hm).1, (h2 m hm).2⟩)
  refine ⟨fun trF hF => ?_, fun trP hP => ?_⟩
  · obtain ⟨trP, hP, g1, g2⟩ := both_ok_left hb hF
    exact ⟨trP, hP, fun m => by rw [g1], g2.symm⟩
  · obtain ⟨trF, hF, g1, g2⟩ := both_ok_right hb hP
    exact ⟨trF, hF, fun m => by rw [g1], g2⟩

/-! ### The example tree with both inner nodes oriented -/

theorem exHolds6_run :
    ∃ tr', newviewGeneric exConsts 3 (exTr [5, 8] [] (1 / 4) (1 / 2) 0 0) 8 false = .ok tr' ∧
      ∀ m, (tr'.partitionData m).xVector 1 = (exPartition (1 / 4) (1 / 2) 0 0 1).xVector 1 ∧
        (tr'.partitionData m).globalScaler 6 =
          (exPartition (1 / 4) (1 / 2) 0 0 1).globalScaler 6 := by
  cases h : newviewGeneric exConsts 3 (exTr [5, 8] [] (1 / 4) (1 / 2) 0 0) 8 false with
  | error err =>
    exfalso
    simp [newviewGeneric, computeTraversalInfo, exHeap, isTip, orient, getxnode, mkEntry,
      copyBranches, storeExecuteMaskInTraversalDescriptor,
      newviewIterative, newviewEntry, newviewMakeP, newviewPartition, pmatrices,
      updateVector, entryKernel, entryVectors, tipPointers, newviewGAMMA_FLEX,
      rowGAMMA_TIP_INNER, rowGAMMA_TIP_TIP, precomputeTips, evProduct, dot, scaleTestGAMMA,
      scaleUp, makeP, makePOne, fillP, blit, slice, exTr, forLoop, forLoopFrom, forLoopM,
      exPartition, exConsts, tree.setPartition, branchOf, rateCategoriesOf, store,
      List.range_succ, addUnsigned, toUnsigned, INT_MAX, ABS, List.foldlM, pure, Except.pure,
      bind, Except.bind] at h
  | ok tr1 =>
    refine ⟨tr1, rfl, ?_⟩
    simp [newviewGeneric, computeTraversalInfo, exHeap, isTip, orient, getxnode, mkEntry,
      copyBranches, storeExecuteMaskInTraversalDescriptor,
      newviewIterative, newviewEntry, newviewMakeP, newviewPartition, pmatrices,
      updateVector, entryKernel, entryVectors, tipPointers, newviewGAMMA_FLEX,
      rowGAMMA_TIP_INNER, rowGAMMA_TIP_TIP, precomputeTips, evProduct, dot, scaleTestGAMMA,
      scaleUp, makeP, makePOne, fillP, blit, slice, exTr, forLoop, forLoopFrom, forLoopM,
      exPartition, exConsts, tree.setPartition, branchOf, rateCategoriesOf, store,
      List.range_succ, addUnsigned, toUnsigned, INT_MAX, ABS, List.foldlM, pure, Except.pure,
      bind, Except.bind] at h
    norm_num [blit, slice, store] at h
    subst h
    intro m
    refine ⟨?_, ?_⟩
    · funext i
      by_cases hm : m = 0
      · simp only [hm, if_true, exPartition]
        simp [blit, slice, store]
        intro _
        split_ifs <;> rfl
      · simp [hm, exPartition]
    · by_cases hm : m = 0 <;> simp [hm, exPartition]

theorem exHolds5_run :
    ∃ tr', newviewGeneric exConsts 3 (exTr [5, 8] [] (1 / 4) (1 / 2) 0 0) 5 false = .ok tr' ∧
      ∀ m, (tr'.partitionData m).xVector 0 = (exPartition (1 / 4) (1 / 2) 0 0 1).xVector 0 ∧
        (tr'.partitionData m).globalScaler 5 =
          (exPartition (1 / 4) (1 / 2) 0 0 1).globalScaler 5 := by
  cases h : newviewGeneric exConsts 3 (exTr [5, 8] [] (1 / 4) (1 / 2) 0 0) 5 false with
  | error err =>
    exfalso
    simp [newviewGeneric, computeTraversalInfo, exHeap, isTip, orient, getxnode, mkEntry,
      copyBranches, storeExecuteMaskInTraversalDescriptor,
      newviewIterative, newviewEntry, newviewMakeP, newviewPartition, pmatrices,
      updateVector, entryKernel, entryVectors, tipPointers, newviewGAMMA_FLEX,
      rowGAMMA_TIP_INNER, rowGAMMA_TIP_TIP, precomputeTips, evProduct, dot, scaleTestGAMMA,
      scaleUp, makeP, makePOne, fillP, blit, slice, exTr, forLoop, forLoopFrom, forLoopM,
      exPartition, exConsts, tree.setPartition, branchOf, rateCategoriesOf, store,
      List.range_succ, addUnsigned, toUnsigned, INT_MAX, ABS, List.foldlM, pure, Except.pure,
      bind, Except.bind] at h
    norm_num [blit, slice, store] at h
    cases h
  | ok tr1 =>
    refine ⟨tr1, rfl, ?_⟩
    simp [newviewGeneric, computeTraversalInfo, exHeap, isTip, orient, getxnode, mkEntry,
      copyBranches, storeExecuteMaskInTraversalDescriptor,
      newviewIterative, newviewEntry, newviewMakeP, newviewPartition, pmatrices,
      updateVector, entryKernel, entryVectors, tipPointers, newviewGAMMA_FLEX,
      rowGAMMA_TIP_INNER, rowGAMMA_TIP_TIP, precomputeTips, evProduct, dot, scaleTestGAMMA,
      scaleUp, makeP, makePOne, fillP, blit, slice, exTr, forLoop, forLoopFrom, forLoopM,
      exPartition, exConsts, tree.setPartition, branchOf, rateCategoriesOf, store,
      List.range_succ, addUnsigned, toUnsigned, INT_MAX, ABS, List.foldlM, pure, Except.pure,
      bind, Except.bind] at h
    norm_num [blit, slice, store] at h
    subst h
    intro m
    refine ⟨?_, ?_⟩
    · funext i
      by_cases hm : m = 0
      · simp only [hm, if_true, exPartition]
        simp [blit, slice, store]
        intro _
        split_ifs <;> rfl
      · simp [hm, exPartition]
    · by_cases hm : m = 0 <;> simp [hm, exPartition]

theorem exPartial_run :
    ∃ trP, evaluateGeneric exConsts 3 (exTr [5, 8] [] (1 / 4) (1 / 2) 0 0) 1 false = .ok trP := by
  cases h : evaluateGeneric exConsts 3 (exTr [5, 8] [] (1 / 4) (1 / 2) 0 0) 1 false with
  | ok trP => exact ⟨trP, rfl⟩
  | error err =>
    exfalso
    simp [evaluateGeneric, evaluateGenericTraversal, rootEntry, tree.ti0, evaluateIterative,
      evaluateRoot, evaluateDiag, evaluatePartition, partitionLikelihood, rootVectors,
      evaluateGAMMA_FLEX, calcDiagptable, newviewIterative,
      computeTraversalInfo, exHeap, isTip, copyBranches, storeExecuteMaskInTraversalDescriptor,
      exTr, forLoop, forLoopFrom, forLoopM,
      exPartition, exConsts, tree.setPartition, branchOf, rateCategoriesOf, store,
      List.range_succ, addUnsigned, ABS, List.foldlM, pure, Except.pure,
      bind, Except.bind] at h
    norm_num at h
    cases h

/-- Witness for C7: the example tree cut at the branch between tip 1 and node
5, with both inner nodes oriented toward the branch and holding the vectors
that newview computes (1/2 in node 6, 1/4 in node 5). The partial traversal
writes no entry, the full one recomputes both nodes; both calls return with
the same log likelihoods. -/
theorem full_partial_evaluation_witness :
    ∃ trP trF, evaluateGeneric exConsts 3 (exTr [5, 8] [] (1 / 4) (1 / 2) 0 0) 1 false = .ok trP ∧
      evaluateGeneric exConsts 3 (exTr [5, 8] [] (1 / 4) (1 / 2) 0 0) 1 true = .ok trF ∧
      (∀ m, trF.perPartitionLH m = trP.perPartitionLH m) ∧
      trF.likelihood = trP.likelihood := by
  obtain ⟨trP, hP⟩ := exPartial_run
  obtain ⟨trF, hF, g⟩ := (full_partial_evaluation exConsts 3
    (exTr [5, 8] [] (1 / 4) (1 / 2) 0 0) 1 exTree (exBranch_wellFormed _) (by decide)
    (fun m _ h => by simp [exTr, exPartition] at h)
    (fun h => by simp [exTr] at h)
    (fun s hs hx => by
      simp [exTree, Topo.innerNodes] at hs
      rcases hs with rfl | rfl
      · obtain ⟨tr', h1, h2⟩ := exHolds6_run
        exact ⟨tr', h1, fun m _ => h2 m⟩
      · obtain ⟨tr', h1, h2⟩ := exHolds5_run
        exact ⟨tr', h1, fun m _ => h2 m⟩)).2 trP hP
  exact ⟨trP, trF, hP, hF, g⟩

/-! ### Reading the data of a process -/

theorem getD_take_drop (l : List Nat) (pos k i : Nat) (hi : i < k) :
    ((l.drop pos).take k).getD i 0 = l.getD (pos + i) 0 := by
  simp only [List.getD_eq_getElem?_getD, List.getElem?_take, hi, if_true, List.getElem?_drop]

theorem fread_full (fh : List Nat) (pos size n : Nat) (hs : 0 < size)
    (h : pos + n * size ≤ fh.length) :
    fread fh pos size n = (n, (fh.drop pos).take (n * size), pos + n * size) := by
  have e : min n ((fh.length - pos) / size) = n := by
    apply min_eq_left
    rw [Nat.le_div_iff_mul_le hs]
    omega
  simp only [fread, e]

theorem READ_ARRAY_at (fh : List Nat) (pos numElem size : Nat) (hs : 0 < size)
    (h : pos + numElem * size ≤ fh.length) (hn : numElem < 4294967296) :
    READ_ARRAY fh pos numElem size =
      .ok ((fh.drop pos).take (numElem * size), pos + numElem * size) := by
  simp only [READ_ARRAY, fread_full fh pos size numElem hs h]
  rw [if_pos (Nat.mod_eq_of_lt hn).symm]

theorem READ_ARRAY_product_at (fh : List Nat) (pos first rest size : Nat) (hs : 0 < size)
    (h : pos + first * rest * size ≤ fh.length) (hn : first < 4294967296)
    (hlt : first * rest < 18446744073709551616) :
    READ_ARRAY_product fh pos first rest size =
      .ok ((fh.drop pos).take (first * rest * size), pos + first * rest * size) := by
  simp only [READ_ARRAY_product, Nat.mod_eq_of_lt hlt, Nat.mod_eq_of_lt hn,
    fread_full fh pos size (first * rest) hs h, if_true]

theorem getD_flatMap_const {α : Type} (enc : α → List Nat) (c : Nat)
    (henc : ∀ x, (enc x).length = c) (items : List α) (t k : Nat) (ht : t < items.length)
    (hk : k < c) :
    (items.flatMap enc).getD (c * t + k) 0 = (enc (items.get ⟨t, ht⟩)).getD k 0 := by
  rw [← chunk_at enc c henc items t ht, getD_take_drop _ _ _ _ hk]

theorem writePartitionData_plain (POMO_16 POMO_64 : Int) (tr : parserData) (m : Nat)
    (h : isPomo POMO_16 POMO_64 (tr.partitionData m).dataType = false) :
    writePartitionData POMO_16 POMO_64 tr m =
      (List.range (sizeT tr.mxtips)).flatMap (fun i =>
        (List.range ((tr.partitionData m).upper - (tr.partitionData m).lower)).map (fun k =>
          tr.y0 (i * tr.originalCrunchedLength + (tr.partitionData m).lower + k))) := by
  have h' : ¬ ((tr.partitionData m).dataType = POMO_16 ∨
      (tr.partitionData m).dataType = POMO_64) := by
    simpa [isPomo] using h
  simp only [writePartitionData, if_neg h']

theorem writePartitionData_length (POMO_16 POMO_64 : Int) (tr : parserData) (m : Nat)
    (h : isPomo POMO_16 POMO_64 (tr.partitionData m).dataType = false) :
    (writePartitionData POMO_16 POMO_64 tr m).length =
      sizeT tr.mxtips * ((tr.partitionData m).upper - (tr.partitionData m).lower) := by
  rw [writePartitionData_plain _ _ _ _ h,
    length_flatMap_const _ ((tr.partitionData m).upper - (tr.partitionData m).lower)
      (fun i => by rw [List.length_map, List.length_range]),
    List.length_range, Nat.mul_comm]

/-- The character of the data of partition `m` at index `x`: that of taxon
`x / width` at pattern `lower + x % width`. -/
theorem writePartitionData_getD (POMO_16 POMO_64 : Int) (tr : parserData) (m x : Nat)
    (h : isPomo POMO_16 POMO_64 (tr.partitionData m).dataType = false)
    (hx : x < sizeT tr.mxtips * ((tr.partitionData m).upper - (tr.partitionData m).lower)) :
    (writePartitionData POMO_16 POMO_64 tr m).getD x 0 =
      tr.y0 (x / ((tr.partitionData m).upper - (tr.partitionData m).lower) *
        tr.originalCrunchedLength + (tr.partitionData m).lower +
        x % ((tr.partitionData m).upper - (tr.partitionData m).lower)) := by
  obtain ⟨W, hW⟩ : ∃ W, W = (tr.partitionData m).upper - (tr.partitionData m).lower := ⟨_, rfl⟩
  rw [writePartitionData_plain _ _ _ _ h, ← hW]
  rw [← hW] at hx
  have hW0 : 0 < W := by
    rcases Nat.eq_zero_or_pos W with h0 | h0
    · rw [h0, Nat.mul_zero] at hx
      exact absurd hx (Nat.not_lt_zero _)
    · exact h0
  have ht : x / W < (List.range (sizeT tr.mxtips)).length := by
    rw [List.length_range, Nat.div_lt_iff_lt_mul hW0]
    exact hx
  have hk : x % W < W := Nat.mod_lt _ hW0
  have e := getD_flatMap_const (fun i => (List.range W).map (fun k =>
    tr.y0 (i * tr.originalCrunchedLength + (tr.partitionData m).lower + k))) W
    (fun i => by rw [List.length_map, List.length_range]) (List.range (sizeT tr.mxtips))
    (x / W) (x % W) ht hk
  rw [Nat.div_add_mod] at e
  rw [e]
  simp only [List.get_eq_getElem, List.getElem_range, List.getD_eq_getElem?_getD,
    List.getElem?_map]
  rw [List.getElem?_range hk]
  rfl

theorem flatMap_range_length_mono (f : Nat → List Nat) (m k : Nat) :
    ((List.range m).flatMap f).length ≤ ((List.range (m + k)).flatMap f).length := by
  induction k with
  | zero => exact Nat.le_refl _
  | succ k ih =>
    rw [← Nat.add_assoc, List.range_succ, List.flatMap_append, List.length_append]
    exact Nat.le_trans ih (Nat.le_add_right _ _)

theorem flatMap_range_getD (f : Nat → List Nat) (N : Nat) :
    ∀ m x, m < N → x < (f m).length →
      ((List.range N).flatMap f).getD (((List.range m).flatMap f).length + x) 0 =
        (f m).getD x 0 := by
  induction N with
  | zero => intro m x hm; exact absurd hm (Nat.not_lt_zero _)
  | succ N ih =>
    intro m x hm hx
    rw [List.range_succ, List.flatMap_append]
    rcases Nat.lt_or_ge m N with h | h
    · have hl : ((List.range m).flatMap f).length + x < ((List.range N).flatMap f).length := by
        obtain ⟨k, rfl⟩ : ∃ k, N = m + 1 + k := ⟨N - (m + 1), by omega⟩
        have h1 := flatMap_range_length_mono f (m + 1) k
        rw [List.range_succ, List.flatMap_append, List.length_append] at h1
        simp only [List.flatMap_singleton, List.flatMap_cons, List.flatMap_nil,
          List.append_nil] at h1
        omega
      rw [List.getD_append _ _ _ _ hl]
      exact ih m x h hx
    · have e : m = N := by omega
      subst e
      rw [List.getD_append_right _ _ _ _ (Nat.le_add_right _ _), Nat.add_sub_cancel_left]
      simp only [List.flatMap_cons, List.flatMap_nil, List.append_nil]

theorem div_mod_block (c t k : Nat) (hk : k < c) :
    (t * c + k) / c = t ∧ (t * c + k) % c = k := by
  have hc : 0 < c := by omega
  constructor
  · rw [Nat.mul_comm, Nat.mul_add_div hc, Nat.div_eq_of_lt hk, Nat.add_zero]
  · rw [Nat.mul_comm, Nat.mul_add_mod, Nat.mod_eq_of_lt hk]

theorem readPerTaxon_plain (bf : ByteFile) (alnPos : Nat) (a : Assignment) (pz : pInfoFile)
    (T : Nat) (C : Nat → Nat) (filePos : Nat)
    (hT : bf.numTax = (T : Int)) (hT' : T < 2147483648)
    (hb : pz.lower ≤ pz.upper)
    (hwin : a.offset + a.width ≤ pz.upper - pz.lower)
    (hw : a.width < 4294967296)
    (hlen : alnPos + pz.lower * T + T * (pz.upper - pz.lower) ≤ bf.fh.length)
    (hfile : ∀ y, y < T * (pz.upper - pz.lower) →
      bf.fh.getD (alnPos + pz.lower * T + y) 0 = C y)
    (hz : pz.yResource = fun _ => 0) :
    ∃ fp, readPerTaxon false bf alnPos a pz filePos =
      .ok ({ pz with
             yResource := fun x =>
               if x < T * a.width then
                 C (x / a.width * (pz.upper - pz.lower) + a.offset + x % a.width)
               else 0 }, fp) := by
  obtain ⟨W, hW⟩ : ∃ W, W = pz.upper - pz.lower := ⟨_, rfl⟩
  rw [← hW] at hwin hlen hfile
  have hTn : bf.numTax.toNat = T := by rw [hT]; exact Int.toNat_ofNat T
  obtain ⟨Y, hY⟩ : ∃ Y : Nat → Nat → Nat, Y = fun n x =>
      if x < n * a.width then C (x / a.width * W + a.offset + x % a.width) else 0 := ⟨_, rfl⟩
  have h := forLoopFromE_inv
    (fun j (s : pInfoFile × Nat) => s.1 = { pz with yResource := Y (j - 1) }) 1 (T + 1)
    (fun j (s : pInfoFile × Nat) =>
      if false = true then
        (let pos : Int := (alnPos : Int) + (sizeof_double : Int) * s.1.states *
          ((s.1.lower : Int) * bf.numTax +
            ((j : Int) - 1) * ((s.1.upper : Int) - (s.1.lower : Int)) + (a.offset : Int))
        if pos < alnPos then .error .abort
        else
          match READ_ARRAY_product bf.fh pos.toNat a.width (sizeT pz.states) sizeof_double with
          | .error e => .error e
          | .ok (bytes, filePos) =>
            .ok ({ s.1 with
                   xResource := blit s.1.xResource
                     ((j - 1) * a.width * sizeT pz.states % 18446744073709551616)
                     (bytes.length / sizeof_double) (doubleArrayOf bytes) }, filePos))
      else
        (let pos : Int := (alnPos : Int) + (sizeof_char : Int) *
          ((s.1.lower : Int) * bf.numTax +
            ((j : Int) - 1) * ((s.1.upper : Int) - (s.1.lower : Int)) + (a.offset : Int))
        if pos < alnPos then .error .abort
        else
          match READ_ARRAY bf.fh pos.toNat a.width sizeof_char with
          | .error e => .error e
          | .ok (bytes, filePos) =>
            .ok ({ s.1 with
                   yResource := blit s.1.yResource
                     ((j - 1) * a.width % 18446744073709551616) bytes.length
                     (charArrayOf bytes) }, filePos)))
    (pz, filePos) (by omega)
    (by
      show pz = { pz with yResource := Y 0 }
      have e : Y 0 = pz.yResource := by
        rw [hz, hY]
        funext x
        simp
      rw [e])
    (by
      intro j s hj1 hj2 hP
      obtain ⟨q, fp0⟩ := s
      simp only at hP
      subst hP
      have hjW : (j - 1) * W + a.offset + a.width ≤ T * W := by
        have h1 : (j - 1) * W + W ≤ T * W := by
          have : (j - 1 + 1) * W ≤ T * W := Nat.mul_le_mul_right W (by omega)
          rw [Nat.add_mul, Nat.one_mul] at this
          exact this
        omega
      have hpos : (alnPos : Int) + ((sizeof_char : Nat) : Int) *
          ((pz.lower : Int) * bf.numTax + ((j : Int) - 1) * ((pz.upper : Int) - (pz.lower : Int)) +
            (a.offset : Int)) =
          ((alnPos + pz.lower * T + ((j - 1) * W + a.offset) : Nat) : Int) := by
        rw [hT, hW]
        push_cast [Nat.cast_sub hb, Nat.cast_sub hj1, sizeof_char]
        ring
      simp only [Bool.false_eq_true, if_false]
      rw [hpos, if_neg (by omega), Int.toNat_ofNat,
        READ_ARRAY_at _ _ _ _ (by decide) (by simp only [sizeof_char]; omega) hw]
      refine ⟨_, rfl, ?_⟩
      show ({ pz with yResource := _ } : pInfoFile) = { pz with yResource := Y (j + 1 - 1) }
      have hjw : (j - 1) * a.width < 18446744073709551616 := by
        have : (j - 1) * a.width ≤ 2147483648 * 4294967296 :=
          Nat.mul_le_mul (by omega) (by omega)
        omega
      have e : blit (Y (j - 1)) ((j - 1) * a.width % 18446744073709551616)
          (List.take (a.width * sizeof_char) (List.drop
            (alnPos + pz.lower * T + ((j - 1) * W + a.offset)) bf.fh)).length
          (charArrayOf (List.take (a.width * sizeof_char) (List.drop
            (alnPos + pz.lower * T + ((j - 1) * W + a.offset)) bf.fh))) = Y (j + 1 - 1) := by
        have hl : (List.take (a.width * sizeof_char) (List.drop
            (alnPos + pz.lower * T + ((j - 1) * W + a.offset)) bf.fh)).length = a.width := by
          rw [List.length_take, List.length_drop]
          simp only [sizeof_char]
          omega
        rw [hl, Nat.mod_eq_of_lt hjw, Nat.add_sub_cancel]
        funext x
        rw [blit_apply, hY]
        simp only
        have hj' : j * a.width = (j - 1) * a.width + a.width := by
          obtain ⟨k, rfl⟩ : ∃ k, j = k + 1 := ⟨j - 1, by omega⟩
          rw [Nat.add_sub_cancel, Nat.add_mul, Nat.one_mul]
        by_cases h1 : x < (j - 1) * a.width
        · rw [if_neg (by omega), if_pos h1, if_pos (by omega)]
        · by_cases h2 : x < (j - 1) * a.width + a.width
          · rw [if_pos ⟨by omega, h2⟩, if_pos (by omega)]
            obtain ⟨i, rfl⟩ : ∃ i, x = (j - 1) * a.width + i := ⟨x - (j - 1) * a.width, by omega⟩
            have hi : i < a.width := by omega
            rw [Nat.add_sub_cancel_left, (div_mod_block a.width (j - 1) i hi).1,
              (div_mod_block a.width (j - 1) i hi).2]
            simp only [charArrayOf, sizeof_char, Nat.mul_one]
            rw [getD_take_drop _ _ _ _ hi, ← hfile _ (by omega)]
            congr 1
            omega
          · rw [if_neg (by omega), if_neg h1, if_neg (by omega)]
      rw [← e])
  obtain ⟨s', hs, hP⟩ := h
  obtain ⟨q, fp⟩ := s'
  simp only at hP
  subst hP
  refine ⟨fp, ?_⟩
  simp only [readPerTaxon, hTn]
  rw [← hW]
  simp only [Nat.add_sub_cancel, hY] at hs
  exact hs

theorem readBlock_plain (bf : ByteFile) (alnPos : Nat) (a : Assignment) (pz : pInfoFile)
    (T : Nat) (C : Nat → Nat)
    (hT : bf.numTax = (T : Int)) (hT' : T < 2147483648)
    (hwidth : a.width = pz.upper - pz.lower)
    (hwin : a.offset + a.width ≤ pz.upper - pz.lower)
    (hw : a.width < 4294967296)
    (hlen : alnPos + pz.lower * T + T * (pz.upper - pz.lower) ≤ bf.fh.length)
    (hfile : ∀ y, y < T * (pz.upper - pz.lower) →
      bf.fh.getD (alnPos + pz.lower * T + y) 0 = C y)
    (hz : pz.yResource = fun _ => 0) :
    readBlock false bf alnPos a pz =
      .ok ({ pz with
             yResource := fun x =>
               if x < T * a.width then
                 C (x / a.width * (pz.upper - pz.lower) + a.offset + x % a.width)
               else 0 }, alnPos + pz.lower * T + a.width * T) := by
  have ho : a.offset = 0 := by omega
  rw [← hwidth] at hlen hfile
  rw [← hwidth, ho]
  have hTs : sizeT bf.numTax = T := by
    rw [hT]
    unfold sizeT
    omega
  have hpos : (alnPos : Int) + ((pz.lower : Int) * bf.numTax) * ((sizeof_char : Nat) : Int) =
      ((alnPos + pz.lower * T : Nat) : Int) := by
    rw [hT]
    push_cast [sizeof_char]
    ring
  have hwT : a.width * T < 18446744073709551616 := by
    have : a.width * T ≤ 4294967296 * 2147483648 := Nat.mul_le_mul (by omega) (by omega)
    omega
  have hcomm : T * a.width = a.width * T := Nat.mul_comm _ _
  simp only [readBlock, Bool.false_eq_true, if_false, hTs]
  rw [hpos, if_neg (by omega), Int.toNat_ofNat,
    READ_ARRAY_product_at _ _ _ _ _ (by decide) (by simp only [sizeof_char]; omega) hw hwT]
  simp only [sizeof_char, Nat.mul_one]
  have hl : (List.take (a.width * T) (List.drop (alnPos + pz.lower * T) bf.fh)).length =
      a.width * T := by
    rw [List.length_take, List.length_drop]
    omega
  rw [hl]
  have e : blit pz.yResource 0 (a.width * T)
      (charArrayOf (List.take (a.width * T) (List.drop (alnPos + pz.lower * T) bf.fh))) =
      fun x => if x < T * a.width then C (x / a.width * a.width + 0 + x % a.width) else 0 := by
    funext x
    rw [blit_apply, hz]
    by_cases h1 : x < T * a.width
    · rw [if_pos ⟨Nat.zero_le _, by omega⟩, if_pos h1, Nat.add_zero, Nat.div_add_mod']
      simp only [charArrayOf, Nat.sub_zero]
      rw [getD_take_drop _ _ _ _ (by omega), hfile _ h1]
    · rw [if_neg (by omega), if_neg h1]
  rw [e]

theorem take_drop_chunk (l : List Nat) (pos n c i : Nat) (hi : i < n) :
    (((l.drop pos).take (n * c)).drop (c * i)).take c = (l.drop (pos + c * i)).take c := by
  apply List.ext_getElem?
  intro k
  simp only [List.getElem?_take, List.getElem?_drop]
  by_cases hk : k < c
  · have h1 : c * i + k < n * c := by
      have : (i + 1) * c ≤ n * c := Nat.mul_le_mul_right c (by omega)
      rw [Nat.add_mul, Nat.one_mul, Nat.mul_comm i c] at this
      omega
    rw [if_pos hk, if_pos hk, if_pos h1, Nat.add_assoc]
  · rw [if_neg hk, if_neg hk]

theorem readAssignedWeights_spec (bf : ByteFile) (a : Assignment) (p : pInfoFile)
    (wts : Nat → Int) (n : Nat) (rest : List Nat)
    (hfile : bf.fh.drop 36 = (List.range n).flatMap (fun i => intBytes (wts i)) ++ rest)
    (hint : ∀ i, i < n → IsInt (wts i))
    (hwin : p.lower + a.offset + a.width ≤ n)
    (hw : a.width < 4294967296) (h36 : 36 ≤ bf.fh.length) :
    ∃ fp, readAssignedWeights bf 36 a p =
      .ok ({ p with
             wgt := fun i => if i < a.width then wts (p.lower + a.offset + i) else 0 }, fp) := by
  have hlen : 36 + 4 * n ≤ bf.fh.length := by
    have := congrArg List.length hfile
    rw [List.length_drop, List.length_append,
      length_flatMap_const _ 4 (fun i => intBytes_length _), List.length_range] at this
    omega
  have hpos : ((36 : Nat) : Int) + ((p.lower : Int) + (a.offset : Int)) * ((sizeof_int : Nat) : Int) =
      ((36 + (p.lower + a.offset) * 4 : Nat) : Int) := by
    push_cast [sizeof_int]
    ring
  have hle : 36 + (p.lower + a.offset) * 4 + a.width * sizeof_int ≤ bf.fh.length := by
    simp only [sizeof_int]
    omega
  simp only [readAssignedWeights]
  rw [hpos, if_neg (by omega), Int.toNat_ofNat, READ_ARRAY_at _ _ _ _ (by decide) hle hw]
  refine ⟨36 + (p.lower + a.offset) * 4 + a.width * sizeof_int, ?_⟩
  simp only
  have hl : (List.take (a.width * sizeof_int)
      (List.drop (36 + (p.lower + a.offset) * 4) bf.fh)).length / sizeof_int = a.width := by
    rw [List.length_take, List.length_drop, Nat.min_eq_left (by omega)]
    simp [sizeof_int]
  rw [hl]
  have e : blit (fun _ => (0 : Int)) 0 a.width (intArrayOf (List.take (a.width * sizeof_int)
      (List.drop (36 + (p.lower + a.offset) * 4) bf.fh))) =
      fun i => if i < a.width then wts (p.lower + a.offset + i) else 0 := by
    funext i
    rw [blit_apply]
    by_cases h1 : i < a.width
    · rw [if_pos ⟨Nat.zero_le _, by omega⟩, if_pos h1, Nat.sub_zero]
      simp only [intArrayOf]
      rw [take_drop_chunk _ _ _ _ _ h1]
      simp only [sizeof_int]
      have h2 : 36 + (p.lower + a.offset) * 4 + 4 * i =
          36 + 4 * (p.lower + a.offset + i) := by
        omega
      have hk : p.lower + a.offset + i < (List.range n).length := by
        rw [List.length_range]
        omega
      have h3 := chunk_at (fun i => intBytes (wts i)) 4 (fun i => intBytes_length _)
        (List.range n) (p.lower + a.offset + i) hk
      have h4 : 4 * (p.lower + a.offset + i) + 4 ≤
          ((List.range n).flatMap (fun i => intBytes (wts i))).length := by
        rw [length_flatMap_const _ 4 (fun i => intBytes_length _), List.length_range]
        omega
      rw [h2, ← List.drop_drop, hfile, List.drop_append_of_le_length (by omega),
        List.take_append_of_le_length (by rw [List.length_drop]; omega)]
      rw [h3]
      simp only [List.get_eq_getElem, List.getElem_range]
      exact toInt_intBytes _ (hint _ (by omega))
    · rw [if_neg (by omega), if_neg h1]
  rw [e]

theorem alignment_offsets (POMO_16 POMO_64 : Int) (tr : parserData) (hc : tr.Contiguous)
    (hdata : ∀ m, m < sizeT tr.NumberOfModels →
      isPomo POMO_16 POMO_64 (tr.partitionData m).dataType = false) :
    ∀ m, m < sizeT tr.NumberOfModels →
      ((List.range m).flatMap (writePartitionData POMO_16 POMO_64 tr)).length =
        sizeT tr.mxtips * (tr.partitionData m).lower ∧
      ((List.range (m + 1)).flatMap (writePartitionData POMO_16 POMO_64 tr)).length =
        sizeT tr.mxtips * (tr.partitionData m).upper := by
  intro m
  induction m with
  | zero =>
    intro h
    refine ⟨by simp [hc.first], ?_⟩
    rw [List.range_succ, List.flatMap_append, List.length_append]
    simp only [List.range_zero, List.flatMap_nil, List.length_nil, List.flatMap_cons,
      List.append_nil, Nat.zero_add]
    rw [writePartitionData_length _ _ _ _ (hdata 0 h), hc.first, Nat.sub_zero]
  | succ m ih =>
    intro h
    obtain ⟨_, h2⟩ := ih (by omega)
    have e1 : ((List.range (m + 1)).flatMap (writePartitionData POMO_16 POMO_64 tr)).length =
        sizeT tr.mxtips * (tr.partitionData (m + 1)).lower := by
      rw [h2, hc.next m h]
    refine ⟨e1, ?_⟩
    rw [List.range_succ, List.flatMap_append, List.length_append, e1]
    simp only [List.flatMap_cons, List.flatMap_nil, List.append_nil]
    rw [writePartitionData_length _ _ _ _ (hdata (m + 1) h), ← Nat.mul_add]
    congr 1
    have := hc.bounds (m + 1) h
    omega

/-- The character of the alignment section at the index `y` of the data of
partition `m`. -/
theorem alignment_getD (POMO_16 POMO_64 : Int) (tr : parserData) (hc : tr.Contiguous)
    (hdata : ∀ m, m < sizeT tr.NumberOfModels →
      isPomo POMO_16 POMO_64 (tr.partitionData m).dataType = false)
    (m y : Nat) (hm : m < sizeT tr.NumberOfModels)
    (hy : y < sizeT tr.mxtips * ((tr.partitionData m).upper - (tr.partitionData m).lower)) :
    (writeAlignment POMO_16 POMO_64 tr).getD (sizeT tr.mxtips * (tr.partitionData m).lower + y)
        0 =
      tr.y0 (y / ((tr.partitionData m).upper - (tr.partitionData m).lower) *
        tr.originalCrunchedLength + (tr.partitionData m).lower +
        y % ((tr.partitionData m).upper - (tr.partitionData m).lower)) := by
  unfold writeAlignment
  rw [← (alignment_offsets POMO_16 POMO_64 tr hc hdata m hm).1,
    flatMap_range_getD _ _ m y hm
      (by rw [writePartitionData_length _ _ _ _ (hdata m hm)]; exact hy),
    writePartitionData_getD _ _ _ _ _ (hdata m hm) hy]

theorem alignment_length_ge (POMO_16 POMO_64 : Int) (tr : parserData) (hc : tr.Contiguous)
    (hdata : ∀ m, m < sizeT tr.NumberOfModels →
      isPomo POMO_16 POMO_64 (tr.partitionData m).dataType = false)
    (m : Nat) (hm : m < sizeT tr.NumberOfModels) :
    sizeT tr.mxtips * (tr.partitionData m).upper ≤
      (writeAlignment POMO_16 POMO_64 tr).length := by
  unfold writeAlignment
  rw [← (alignment_offsets POMO_16 POMO_64 tr hc hdata m hm).2]
  obtain ⟨k, hk⟩ : ∃ k, sizeT tr.NumberOfModels = m + 1 + k :=
    ⟨sizeT tr.NumberOfModels - (m + 1), by omega⟩
  rw [hk]
  exact flatMap_range_length_mono _ _ _

theorem foldlM_assignments
    (step : List pInfoFile × Nat → Assignment → Except Halt (List pInfoFile × Nat))
    (src dst : Assignment → pInfoFile) :
    ∀ (as : List Assignment) (s : List pInfoFile × Nat),
      (as.map Assignment.partId).Nodup →
      (∀ a, a ∈ as → ∀ s : List pInfoFile × Nat, s.1[a.partId]? = some (src a) →
        ∃ fp, step s a = .ok (s.1.set a.partId (dst a), fp)) →
      (∀ a, a ∈ as → s.1[a.partId]? = some (src a)) →
      ∃ s', as.foldlM step s = .ok s' ∧ s'.1.length = s.1.length ∧
        (∀ a, a ∈ as → s'.1[a.partId]? = some (dst a)) ∧
        (∀ m, (∀ a, a ∈ as → a.partId ≠ m) → s'.1[m]? = s.1[m]?) := by
  intro as
  induction as with
  | nil =>
    intro s _ _ _
    exact ⟨s, rfl, rfl, fun a ha => absurd ha (List.not_mem_nil a), fun _ _ => rfl⟩
  | cons a rest ih =>
    intro s hnd hstep hsrc
    rw [List.map_cons, List.nodup_cons] at hnd
    obtain ⟨hna, hnr⟩ := hnd
    have hne : ∀ b, b ∈ rest → a.partId ≠ b.partId := fun b hb e =>
      hna (e ▸ List.mem_map_of_mem Assignment.partId hb)
    obtain ⟨fp, h1⟩ := hstep a (List.mem_cons_self a rest) s (hsrc a (List.mem_cons_self a rest))
    have hlt : a.partId < s.1.length := by
      have := hsrc a (List.mem_cons_self a rest)
      rcases Nat.lt_or_ge a.partId s.1.length with h | h
      · exact h
      · rw [List.getElem?_eq_none h] at this
        cases this
    obtain ⟨s', h2, hl, hd, hu⟩ := ih (s.1.set a.partId (dst a), fp) hnr
      (fun b hb => hstep b (List.mem_cons_of_mem a hb))
      (fun b hb => by
        show (s.1.set a.partId (dst a))[b.partId]? = some (src b)
        rw [List.getElem?_set_ne (hne b hb)]
        exact hsrc b (List.mem_cons_of_mem a hb))
    refine ⟨s', ?_, ?_, ?_, ?_⟩
    · rw [List.foldlM_cons, h1]
      exact h2
    · rw [hl]
      exact List.length_set _ _ _
    · intro b hb
      rcases List.mem_cons.1 hb with e | hb'
      · subst e
        rw [hu b.partId (fun c hc e => hne c hc e.symm)]
        show (s.1.set b.partId (dst b))[b.partId]? = some (dst b)
        rw [List.getElem?_set_self hlt]
      · exact hd b hb'
    · intro m hm
      rw [hu m (fun b hb => hm b (List.mem_cons_of_mem a hb))]
      show (s.1.set a.partId (dst a))[m]? = s.1[m]?
      rw [List.getElem?_set_ne (hm a (List.mem_cons_self a rest))]

theorem readAssignedData_plain (POMO_16 POMO_64 : Int) (tr : parserData) (hr : tr.InRange)
    (hc : tr.Contiguous) (hmodel : tr.pomoModel = false)
    (hdata : ∀ m, m < sizeT tr.NumberOfModels →
      isPomo POMO_16 POMO_64 (tr.partitionData m).dataType = false)
    (bf : ByteFile) (pre : List Nat)
    (hfh : bf.fh = pre ++ writeAlignment POMO_16 POMO_64 tr) (hnt : bf.numTax = tr.numTax)
    (a : Assignment) (hid : a.partId < sizeT tr.NumberOfModels)
    (hwin : a.offset + a.width ≤
      (tr.partitionData a.partId).upper - (tr.partitionData a.partId).lower)
    (hw : a.width < 4294967296) (filePos : Nat) :
    (∃ fp, readAssignedData POMO_16 POMO_64 bf pre.length a (tr.partitionData a.partId).asRead
        filePos = .ok (tr.assignedData a, fp)) ∧
    (∃ fp, readPerTaxon false bf pre.length a
        { (tr.partitionData a.partId).asRead with width := a.width, offset := a.offset }
        filePos = .ok (tr.assignedData a, fp)) ∧
    (a.width = (tr.partitionData a.partId).upper - (tr.partitionData a.partId).lower →
      ∃ fp, readBlock false bf pre.length a
        { (tr.partitionData a.partId).asRead with width := a.width, offset := a.offset } =
        .ok (tr.assignedData a, fp)) := by
  obtain ⟨p, hp⟩ : ∃ p, p = tr.partitionData a.partId := ⟨_, rfl⟩
  obtain ⟨T, hT⟩ : ∃ T, T = sizeT tr.mxtips := ⟨_, rfl⟩
  have hnum : tr.numTax = tr.mxtips := by
    simp only [parserData.numTax, hmodel, Bool.false_eq_true, if_false]
  have hTi : bf.numTax = (T : Int) := by
    have h0 := hr.numTax_nonneg
    have h1 := hr.numTax
    rw [hnum] at h0 h1
    rw [hnt, hnum, hT, sizeT_toNat _ h0 h1, Int.toNat_of_nonneg h0]
  have hT' : T < 2147483648 := by
    have h1 := hr.numTax
    rw [← hnt, hTi] at h1
    have := h1.2
    omega
  have hb := hc.bounds _ hid
  have hup := (hr.partitions (tr.partitionData a.partId)
    (List.mem_map_of_mem _ (List.mem_range.2 hid))).upper
  rw [← hp] at hwin hb hup
  obtain ⟨pz, hpz⟩ : ∃ pz : pInfoFile, pz = { p.asRead with width := a.width, offset := a.offset } :=
    ⟨_, rfl⟩
  obtain ⟨C, hC⟩ : ∃ C : Nat → Nat, C = fun y =>
      tr.y0 (y / (p.upper - p.lower) * tr.originalCrunchedLength + p.lower +
        y % (p.upper - p.lower)) := ⟨_, rfl⟩
  have hlo : pz.lower = p.lower := by rw [hpz]; rfl
  have hupp : pz.upper = p.upper := by rw [hpz]; rfl
  have hz : pz.yResource = fun _ => 0 := by rw [hpz]; rfl
  have hlen : pre.length + pz.lower * T + T * (pz.upper - pz.lower) ≤ bf.fh.length := by
    have h1 := alignment_length_ge POMO_16 POMO_64 tr hc hdata _ hid
    rw [← hp, ← hT] at h1
    rw [hfh, List.length_append, hlo, hupp, Nat.add_assoc, Nat.mul_comm p.lower T, ← Nat.mul_add,
      Nat.add_sub_cancel' hb]
    omega
  have hfile : ∀ y, y < T * (pz.upper - pz.lower) →
      bf.fh.getD (pre.length + pz.lower * T + y) 0 = C y := by
    intro y hy
    rw [hlo, hupp] at hy
    have h1 := alignment_getD POMO_16 POMO_64 tr hc hdata a.partId y hid
      (by rw [← hp, ← hT]; exact hy)
    rw [← hp, ← hT] at h1
    rw [hfh, hlo, Nat.add_assoc, List.getD_append_right _ _ _ _ (Nat.le_add_right _ _),
      Nat.add_sub_cancel_left, Nat.mul_comm p.lower T, h1, hC]
  have hres : ({ pz with
      yResource := fun x =>
        if x < T * a.width then
          C (x / a.width * (pz.upper - pz.lower) + a.offset + x % a.width)
        else 0 } : pInfoFile) = tr.assignedData a := by
    have e : (fun x =>
        if x < T * a.width then
          C (x / a.width * (pz.upper - pz.lower) + a.offset + x % a.width)
        else 0) = fun x =>
        if x < sizeT tr.mxtips * a.width then
          tr.y0 (x / a.width * tr.originalCrunchedLength + (tr.partitionData a.partId).lower +
            a.offset + x % a.width)
        else 0 := by
      funext x
      rw [← hT, ← hp]
      by_cases hx : x < T * a.width
      · rw [if_pos hx, if_pos hx, hC, hlo, hupp]
        have hw0 : 0 < a.width := by
          rcases Nat.eq_zero_or_pos a.width with h0 | h0
          · rw [h0, Nat.mul_zero] at hx
            exact absurd hx (Nat.not_lt_zero _)
          · exact h0
        have hk : a.offset + x % a.width < p.upper - p.lower := by
          have := Nat.mod_lt x hw0
          omega
        have hdm := div_mod_block _ (x / a.width) _ hk
        rw [← Nat.add_assoc] at hdm
        simp only
        rw [hdm.1, hdm.2, ← Nat.add_assoc]
      · rw [if_neg hx, if_neg hx]
    rw [e, hpz, hp]
    rfl
  have hwin' : a.offset + a.width ≤ pz.upper - pz.lower := by rw [hlo, hupp]; exact hwin
  have hper : ∃ fp, readPerTaxon false bf pre.length a pz filePos = .ok (tr.assignedData a, fp) := by
    obtain ⟨fp, h⟩ := readPerTaxon_plain bf pre.length a pz T C filePos hTi hT'
      (by rw [hlo, hupp]; exact hb) hwin' hw hlen hfile hz
    rw [hres] at h
    exact ⟨fp, h⟩
  have hblock : a.width = p.upper - p.lower →
      ∃ fp, readBlock false bf pre.length a pz = .ok (tr.assignedData a, fp) := by
    intro hwd
    have h := readBlock_plain bf pre.length a pz T C hTi hT' (by rw [hlo, hupp]; exact hwd) hwin'
      hw hlen hfile hz
    rw [hres] at h
    exact ⟨_, h⟩
  have hd : isPomo POMO_16 POMO_64 p.dataType = false := by rw [hp]; exact hdata _ hid
  have hrun : readAssignedData POMO_16 POMO_64 bf pre.length a p.asRead filePos =
      if a.width = (p.upper + 18446744073709551616 - p.lower) % 18446744073709551616 then
        readBlock false bf pre.length a pz
      else readPerTaxon false bf pre.length a pz filePos := by
    simp only [readAssignedData, pInfoParser.asRead, hd, Bool.false_eq_true, if_false, hpz]
  have hmod : (p.upper + 18446744073709551616 - p.lower) % 18446744073709551616 =
      p.upper - p.lower := by omega
  subst hpz
  subst hp
  refine ⟨?_, hper, hblock⟩
  rw [hrun, hmod]
  by_cases hwd : a.width = (tr.partitionData a.partId).upper - (tr.partitionData a.partId).lower
  · rw [if_pos hwd]
    exact hblock hwd
  · rw [if_neg hwd]
    exact hper

/-- The state of the `ByteFile` after `readHeader`, `readTaxa` and
`readPartitions` on a file that `main` wrote: the file, the taxa count and the
partitions as written, and `seekPos` finds the alignment section. -/
theorem readSections_state (programVersionInt POMO_16 POMO_64 : Int) (tr : parserData)
    (hr : tr.InRange) (bf : ByteFile)
    (hfh : bf.fh = writeByteFile programVersionInt POMO_16 POMO_64 tr)
    (ht : bf.taxaNames = none) (hp : bf.partitions = none) :
    ∃ bf1 bf2 bf3, readHeader bf = .ok bf1 ∧ readTaxa bf1 = .ok bf2 ∧
      readPartitions bf2 = .ok bf3 ∧
      bf3.fh = bf.fh ∧ bf3.numTax = tr.numTax ∧
      bf3.partitions = some (tr.writtenPartitions.map pInfoParser.asRead) ∧
      seekPos bf3 .ALN_ALIGNMENT =
        .ok { bf3 with pos := (bytesBefore programVersionInt tr .ALN_ALIGNMENT).length } := by
  obtain ⟨enc, henc, hT⟩ := writeTaxa_enc tr hr
  have hNl := writtenNames_length tr hr
  have hPl := writtenPartitions_length tr hr
  have hW := writeWeights_length tr
  have hM := writeMagic_length programVersionInt
  have hH := writeHeader_length tr
  have hfh0 := hfh
  unfold writeByteFile at hfh
  have d0 : bf.fh.drop 12 = writeHeader tr ++ (writeWeights tr ++ (writeTaxa tr ++
      (writePartitions tr ++ writeAlignment POMO_16 POMO_64 tr))) := by
    rw [hfh]
    exact List.drop_left' hM
  obtain ⟨h1, d1⟩ := readHeader_spec bf tr _ hr d0
  have d1' := drop_add_left _ _ _ _ d1
  rw [hW, hT] at d1'
  obtain ⟨bf1, hb1⟩ : ∃ b, b = ByteFile.setRead { bf with
                                            pos := 36
                                            numTax := tr.numTax
                                            numPattern := tr.originalCrunchedLength
                                            numPartitions := tr.NumberOfModels
                                            gappyness := tr.gapyness } .ALN_HEAD := ⟨_, rfl⟩
  rw [← hb1] at h1
  have fh1 : bf1.fh = bf.fh := by rw [hb1]; rfl
  have nt1 : bf1.numTax = tr.numTax := by rw [hb1]; rfl
  have np1 : bf1.numPattern = tr.originalCrunchedLength := by rw [hb1]; rfl
  have nm1 : bf1.numPartitions = tr.NumberOfModels := by rw [hb1]; rfl
  have tn1 : bf1.taxaNames = none := by rw [hb1]; exact ht
  have p1 : bf1.partitions = none := by rw [hb1]; exact hp
  have hh1 : bf1.hasRead .ALN_HEAD = true := by rw [hb1]; simp [ByteFile.setRead]
  obtain ⟨h2, d2⟩ := readTaxa_spec bf1 enc tr.writtenNames _ tn1 hh1 (by rw [nt1]; exact hNl.symm)
    henc (by rw [fh1, np1]; exact d1')
  obtain ⟨bf2, hb2⟩ : ∃ b, b = ByteFile.setRead { bf1 with
      pos := 36 + 4 * bf1.numPattern + (tr.writtenNames.flatMap enc).length
      taxaNames := some (tr.writtenNames.map cstring) } .ALN_TAXA := ⟨_, rfl⟩
  rw [← hb2] at h2
  have fh2 : bf2.fh = bf.fh := by rw [hb2]; exact fh1
  have nt2 : bf2.numTax = tr.numTax := by rw [hb2]; exact nt1
  have np2 : bf2.numPattern = tr.originalCrunchedLength := by rw [hb2]; exact np1
  have nm2 : bf2.numPartitions = tr.NumberOfModels := by rw [hb2]; exact nm1
  have tn2 : bf2.taxaNames = some (tr.writtenNames.map cstring) := by rw [hb2]; rfl
  have p2 : bf2.partitions = none := by rw [hb2]; exact p1
  have hh2 : bf2.hasRead .ALN_HEAD = true := by rw [hb2]; simp [ByteFile.setRead, hh1]
  have ht2 : bf2.hasRead .ALN_TAXA = true := by rw [hb2]; simp [ByteFile.setRead]
  have hk : ∀ b : ByteFile, b.numTax = tr.numTax →
      skipTaxa b (tr.writtenNames.map cstring) =
        (((tr.writtenNames.flatMap enc).length : Nat) : Int) := fun b hb =>
    (skipTaxa_eq _ _ (by rw [List.length_map, hb]; exact hNl.symm)).trans
      (taxa_length enc _ (fun s hs => (henc s hs).2))
  have hm := partitions_length tr.writtenPartitions hr.partitions
  unfold writePartitions at d2
  obtain ⟨h3, d3⟩ := readPartitions_spec bf2 (tr.writtenNames.map cstring)
    (tr.writtenNames.flatMap enc).length tr.writtenPartitions _ p2 hh2 ht2 tn2 (hk bf2 nt2)
    (by rw [nm2]; exact hPl.symm) hr.partitions (by rw [fh2, np2, ← fh1, ← np1]; exact d2)
  obtain ⟨bf3, hb3⟩ : ∃ b, b = ByteFile.setRead { bf2 with
      pos := 36 + 4 * bf2.numPattern + (tr.writtenNames.flatMap enc).length +
        (tr.writtenPartitions.flatMap writePartition).length
      partitions := some (tr.writtenPartitions.map pInfoParser.asRead) } .ALN_PARTITIONS :=
    ⟨_, rfl⟩
  rw [← hb3] at h3
  have fh3 : bf3.fh = bf.fh := by rw [hb3]; exact fh2
  have nt3 : bf3.numTax = tr.numTax := by rw [hb3]; exact nt2
  have np3 : bf3.numPattern = tr.originalCrunchedLength := by rw [hb3]; exact np2
  have nm3 : bf3.numPartitions = tr.NumberOfModels := by rw [hb3]; exact nm2
  have tn3 : bf3.taxaNames = some (tr.writtenNames.map cstring) := by rw [hb3]; exact tn2
  have p3 : bf3.partitions = some (tr.writtenPartitions.map pInfoParser.asRead) := by
    rw [hb3]; rfl
  have hh3 : bf3.hasRead .ALN_HEAD = true := by rw [hb3]; simp [ByteFile.setRead, hh2]
  have ht3 : bf3.hasRead .ALN_TAXA = true := by rw [hb3]; simp [ByteFile.setRead, ht2]
  have hp3 : bf3.hasRead .ALN_PARTITIONS = true := by rw [hb3]; simp [ByteFile.setRead]
  have hmm : skipPartitions bf3 (tr.writtenPartitions.map pInfoParser.asRead) =
      (((tr.writtenPartitions.flatMap writePartition).length : Nat) : Int) := by
    rw [skipPartitions_eq _ _ (by rw [List.length_map, nm3]; exact hPl.symm), ← hm, nm3, hPl,
      Int.toNat_of_nonneg hr.models_nonneg]
  have elen : (bytesBefore programVersionInt tr .ALN_ALIGNMENT).length =
      36 + 4 * bf3.numPattern + (tr.writtenNames.flatMap enc).length +
        (tr.writtenPartitions.flatMap writePartition).length := by
    simp only [bytesBefore, List.length_append, hM, hH, hW, hT, np3, writePartitions]
    omega
  refine ⟨bf1, bf2, bf3, h1, h2, h3, fh3, nt3, p3, ?_⟩
  rw [elen]
  exact seekPos_alignment _ _ _ _ _ hh3 ht3 hp3 tn3 (hk bf3 nt3) p3 hmm

theorem readMyData_plain (programVersionInt POMO_16 POMO_64 : Int) (tr : parserData)
    (hr : tr.InRange) (hc : tr.Contiguous)
    (hwt : ∀ i, i < tr.originalCrunchedLength → IsInt (tr.aliaswgt i))
    (hmodel : tr.pomoModel = false)
    (hdata : ∀ m, m < sizeT tr.NumberOfModels →
      isPomo POMO_16 POMO_64 (tr.partitionData m).dataType = false)
    (bf : ByteFile) (hfh : bf.fh = writeByteFile programVersionInt POMO_16 POMO_64 tr)
    (hnt : bf.numTax = tr.numTax)
    (hparts : bf.partitions = some (tr.writtenPartitions.map pInfoParser.asRead))
    (hseek : seekPos bf .ALN_ALIGNMENT =
      .ok { bf with pos := (bytesBefore programVersionInt tr .ALN_ALIGNMENT).length })
    (myAssigns : List Assignment)
    (hid : ∀ a, a ∈ myAssigns → a.partId < sizeT tr.NumberOfModels)
    (hnodup : (myAssigns.map Assignment.partId).Nodup)
    (hwin : ∀ a, a ∈ myAssigns → a.offset + a.width ≤
      (tr.partitionData a.partId).upper - (tr.partitionData a.partId).lower)
    (hwidth : ∀ a, a ∈ myAssigns → a.width < 4294967296) :
    ∃ bf' parts, readMyData POMO_16 POMO_64 bf myAssigns = .ok bf' ∧
      bf'.partitions = some parts ∧ bf'.numTax = tr.numTax ∧
      ∀ a, a ∈ myAssigns → parts[a.partId]? = some (tr.assigned a) := by
  obtain ⟨pre, hpre⟩ : ∃ pre, pre = bytesBefore programVersionInt tr .ALN_ALIGNMENT := ⟨_, rfl⟩
  rw [← hpre] at hseek
  have hfile : bf.fh = pre ++ writeAlignment POMO_16 POMO_64 tr := by
    rw [hfh, hpre]
    simp only [writeByteFile, bytesBefore, List.append_assoc]
  obtain ⟨bfA, hA⟩ : ∃ b : ByteFile, b = { bf with pos := pre.length } := ⟨_, rfl⟩
  rw [← hA] at hseek
  have fhA : bfA.fh = pre ++ writeAlignment POMO_16 POMO_64 tr := by rw [hA]; exact hfile
  have ntA : bfA.numTax = tr.numTax := by rw [hA]; exact hnt
  have pA : bfA.partitions = some (tr.writtenPartitions.map pInfoParser.asRead) := by
    rw [hA]; exact hparts
  have posA : bfA.pos = pre.length := by rw [hA]
  obtain ⟨s1, hf1, _, hd1, _⟩ := foldlM_assignments
    (readDataStep POMO_16 POMO_64 bfA pre.length)
    (fun a => (tr.partitionData a.partId).asRead) tr.assignedData myAssigns
    (tr.writtenPartitions.map pInfoParser.asRead, pre.length) hnodup
    (by
      intro a ha s hs
      obtain ⟨fp, h⟩ := (readAssignedData_plain POMO_16 POMO_64 tr hr hc hmodel hdata bfA pre fhA
        ntA a (hid a ha) (hwin a ha) (hwidth a ha) s.2).1
      refine ⟨fp, ?_⟩
      simp only [readDataStep, hs, h])
    (by
      intro a ha
      simp only [parserData.writtenPartitions, List.map_map, List.getElem?_map,
        List.getElem?_range (hid a ha), Option.map_some', Function.comp_apply])
  obtain ⟨parts1, fp1⟩ := s1
  obtain ⟨bfW, hBW⟩ : ∃ b : ByteFile,
      b = { ({ bfA with partitions := some parts1, pos := fp1 } : ByteFile) with pos := 36 } :=
    ⟨_, rfl⟩
  have hseekW : seekPos { bfA with partitions := some parts1, pos := fp1 } .ALN_WEIGHTS =
      .ok bfW := by
    rw [hBW]
    exact seekPos_weights _
  have fhW : bfW.fh = bf.fh := by rw [hBW, hA]
  have posW : bfW.pos = 36 := by rw [hBW]
  have ntW : bfW.numTax = tr.numTax := by rw [hBW]; exact ntA
  have hdrop : bfW.fh.drop 36 = (List.range tr.originalCrunchedLength).flatMap
      (fun i => intBytes (tr.aliaswgt i)) ++ (writeTaxa tr ++ (writePartitions tr ++
        writeAlignment POMO_16 POMO_64 tr)) := by
    rw [fhW, hfh]
    simp only [writeByteFile, writeWeights]
    rw [← List.append_assoc]
    exact List.drop_left' (by
      rw [List.length_append, writeMagic_length, writeHeader_length])
  have h36 : 36 ≤ bfW.fh.length := by
    rw [fhW, hfh]
    simp only [writeByteFile, List.length_append, writeMagic_length, writeHeader_length]
    omega
  obtain ⟨s2, hf2, _, hd2, _⟩ := foldlM_assignments
    (readWeightsStep bfW 36) tr.assignedData tr.assigned myAssigns (parts1, 36) hnodup
    (by
      intro a ha s hs
      obtain ⟨fp, h⟩ := readAssignedWeights_spec bfW a (tr.assignedData a) tr.aliaswgt
        tr.originalCrunchedLength _ hdrop hwt
        (by
          have h1 := hwin a ha
          have h2 := hc.bounds _ (hid a ha)
          have h3 := hc.last _ (hid a ha)
          show (tr.partitionData a.partId).lower + a.offset + a.width ≤ _
          omega)
        (hwidth a ha) h36
      refine ⟨fp, ?_⟩
      simp only [readWeightsStep, hs, h]
      rfl)
    hd1
  obtain ⟨parts2, fp2⟩ := s2
  refine ⟨(({ bfW with partitions := some parts2, pos := fp2 } : ByteFile).setRead
    .ALN_ALIGNMENT).setRead .ALN_WEIGHTS, parts2, ?_, rfl, ntW, hd2⟩
  simp only [readMyData, hseek, pA, posA, hf1, hseekW, posW, hf2]

/-- C15: tip-data window read. `main` of the parser writes a file from values
of their C types, without PoMo (no PoMo model, no PoMo partition), with
weights that are `int`s and with contiguous partitions; `readHeader`,
`readTaxa` and `readPartitions` read it. For assignments to distinct
partitions of the file, each a window `offset + width <= upper - lower` of its
partition with `width` below 2^32, `readMyData` returns, and leaves in the
partition of every assignment the width and offset of the assignment, in
`yVector[j][i] = yResource[(j-1) * width + i]` (taxon `j` in `1 .. numTax`,
`i < width`) the character `y0[(j-1) * originalCrunchedLength + lower +
offset + i]` that the parser wrote for taxon `j` at pattern `lower + offset +
i`, and in `wgt[i]` the written weight of pattern `lower + offset + i`. When
`width = upper - lower`, the block read and the per-taxon path (from any file
position) both return, with the same partition record, which is the one
`readMyData` leaves up to the weights, read by the same loop on both paths.
The bound on `width` is the range of the cast `(unsigned int)` that
`READ_ARRAY` applies to it; the parser stays below it, as `makeweights`
numbers the sites with an `int`. -/
theorem tip_data_window_read (programVersionInt POMO_16 POMO_64 : Int) (tr : parserData)
    (hr : tr.InRange) (hc : tr.Contiguous)
    (hwt : ∀ i, i < tr.originalCrunchedLength → IsInt (tr.aliaswgt i))
    (hmodel : tr.pomoModel = false)
    (hdata : ∀ m, m < sizeT tr.NumberOfModels →
      isPomo POMO_16 POMO_64 (tr.partitionData m).dataType = false)
    (bf : ByteFile) (hfh : bf.fh = writeByteFile programVersionInt POMO_16 POMO_64 tr)
    (ht : bf.taxaNames = none) (hp : bf.partitions = none)
    (myAssigns : List Assignment)
    (hid : ∀ a, a ∈ myAssigns → a.partId < sizeT tr.NumberOfModels)
    (hnodup : (myAssigns.map Assignment.partId).Nodup)
    (hwin : ∀ a, a ∈ myAssigns → a.offset + a.width ≤
      (tr.partitionData a.partId).upper - (tr.partitionData a.partId).lower)
    (hwidth : ∀ a, a ∈ myAssigns → a.width < 4294967296) :
    ∃ bf1 bf2 bf3 bf4 parts, readHeader bf = .ok bf1 ∧ readTaxa bf1 = .ok bf2 ∧
      readPartitions bf2 = .ok bf3 ∧
      readMyData POMO_16 POMO_64 bf3 myAssigns = .ok bf4 ∧
      bf4.numTax = tr.numTax ∧ bf4.partitions = some parts ∧
      ∀ a, a ∈ myAssigns → ∃ q, parts[a.partId]? = some q ∧
        q.width = a.width ∧ q.offset = a.offset ∧
        (∀ j i : Nat, 1 ≤ j → (j : Int) ≤ tr.numTax → i < a.width →
          q.yResource ((j - 1) * a.width + i) =
            tr.y0 ((j - 1) * tr.originalCrunchedLength + (tr.partitionData a.partId).lower +
              a.offset + i)) ∧
        (∀ i, i < a.width →
          q.wgt i = tr.aliaswgt ((tr.partitionData a.partId).lower + a.offset + i)) ∧
        (a.width = (tr.partitionData a.partId).upper - (tr.partitionData a.partId).lower →
          ∀ filePos, ∃ qd fb ft,
            readBlock false bf3 (bytesBefore programVersionInt tr .ALN_ALIGNMENT).length a
              { (tr.partitionData a.partId).asRead with width := a.width, offset := a.offset } =
              .ok (qd, fb) ∧
            readPerTaxon false bf3 (bytesBefore programVersionInt tr .ALN_ALIGNMENT).length a
              { (tr.partitionData a.partId).asRead with width := a.width, offset := a.offset }
              filePos = .ok (qd, ft) ∧
            q = { qd with wgt := q.wgt }) := by
  obtain ⟨bf1, bf2, bf3, h1, h2, h3, fh3, nt3, p3, hseek⟩ :=
    readSections_state programVersionInt POMO_16 POMO_64 tr hr bf hfh ht hp
  obtain ⟨bf4, parts, h4, hparts, hnt, hq⟩ :=
    readMyData_plain programVersionInt POMO_16 POMO_64 tr hr hc hwt hmodel hdata bf3
      (fh3.trans hfh) nt3 p3 hseek myAssigns hid hnodup hwin hwidth
  refine ⟨bf1, bf2, bf3, bf4, parts, h1, h2, h3, h4, hnt, hparts, ?_⟩
  intro a ha
  have hnum : tr.numTax = tr.mxtips := by
    simp only [parserData.numTax, hmodel, Bool.false_eq_true, if_false]
  have hT : tr.mxtips = ((sizeT tr.mxtips : Nat) : Int) := by
    have h0 := hr.numTax_nonneg
    have h1 := hr.numTax
    rw [hnum] at h0 h1
    rw [sizeT_toNat _ h0 h1, Int.toNat_of_nonneg h0]
  refine ⟨tr.assigned a, hq a ha, rfl, rfl, ?_, ?_, ?_⟩
  · intro j i hj1 hj2 hi
    rw [hnum, hT] at hj2
    have hj3 : j ≤ sizeT tr.mxtips := by exact_mod_cast hj2
    have hlt : (j - 1) * a.width + i < sizeT tr.mxtips * a.width := by
      have : (j - 1 + 1) * a.width ≤ sizeT tr.mxtips * a.width :=
        Nat.mul_le_mul_right _ (by omega)
      rw [Nat.add_mul, Nat.one_mul] at this
      omega
    show (if (j - 1) * a.width + i < sizeT tr.mxtips * a.width then _ else _) = _
    rw [if_pos hlt, (div_mod_block a.width (j - 1) i hi).1,
      (div_mod_block a.width (j - 1) i hi).2]
  · intro i hi
    show (if i < a.width then _ else _) = _
    rw [if_pos hi]
  · intro hwd filePos
    have hfile : bf3.fh = bytesBefore programVersionInt tr .ALN_ALIGNMENT ++
        writeAlignment POMO_16 POMO_64 tr := by
      rw [fh3, hfh]
      simp only [writeByteFile, bytesBefore, List.append_assoc]
    obtain ⟨_, ⟨ft, hper⟩, hblock⟩ := readAssignedData_plain POMO_16 POMO_64 tr hr hc hmodel
      hdata bf3 _ hfile nt3 a (hid a ha) (hwin a ha) (hwidth a ha) filePos
    obtain ⟨fb, hb⟩ := hblock hwd
    exact ⟨tr.assignedData a, fb, ft, hb, hper, rfl⟩

theorem exWindowData_inRange : exWindowData.InRange :=
  { numTax_nonneg := by decide
    numTax := ⟨by decide, by decide⟩
    numPattern := by decide
    models_nonneg := by decide
    models := ⟨by decide, by decide⟩
    gapyness := by decide
    names := by decide
    partitions := fun p hp => by
      have e : p = exWindowData.partitionData 0 ∨ p = exWindowData.partitionData 1 := by
        simpa [parserData.writtenPartitions, exWindowData, sizeT, List.range_succ] using hp
      rcases e with e | e <;> subst e <;> exact
          { states_nonneg := by decide
            states := ⟨by decide, by decide⟩
            maxTipStates := ⟨by decide, by decide⟩
            lower := by decide
            upper := by decide
            dataType := ⟨by decide, by decide⟩
            protModels := ⟨by decide, by decide⟩
            protFreqs := ⟨by decide, by decide⟩
            nonGTR := ⟨by decide, by decide⟩
            optimizeBaseFrequencies := ⟨by decide, by decide⟩
            name := by decide
            frequencies := fun _ _ => by
              show (4598175219545276416 : Nat) < 18446744073709551616
              decide } }

theorem exWindowData_models : sizeT exWindowData.NumberOfModels = 2 := by decide

theorem exWindowData_contiguous : exWindowData.Contiguous :=
  { first := rfl
    bounds := fun m hm => by
      rw [exWindowData_models] at hm
      have e : m = 0 ∨ m = 1 := by omega
      rcases e with e | e <;> subst e <;> decide
    next := fun m hm => by
      rw [exWindowData_models] at hm
      have e : m = 0 := by omega
      subst e
      rfl
    last := fun m hm => by
      rw [exWindowData_models] at hm
      have e : m = 0 ∨ m = 1 := by omega
      rcases e with e | e <;> subst e <;> decide }

/-- Witness for C15: the file written from `exWindowData` (three taxa, five
patterns, partitions [0, 2) and [2, 5)), read by a process with the window
`offset = 1`, `width = 2` of the second partition and with the whole first
partition. Taxon 2 has the characters 9 and 10 at the patterns 3 and 4, and
pattern 4 has the weight 5; taxon 3 has the character 12 at pattern 1; the
block read of the first partition and the per-taxon path from file position 0
return the same record. -/
theorem tip_data_window_read_witness :
    ∃ bf1 bf2 bf3 bf4 parts q0 q1, readHeader exWindowFile = .ok bf1 ∧
      readTaxa bf1 = .ok bf2 ∧ readPartitions bf2 = .ok bf3 ∧
      readMyData 5 6 bf3 [⟨1, 1, 2⟩, ⟨0, 0, 2⟩] = .ok bf4 ∧ bf4.partitions = some parts ∧
      parts[1]? = some q1 ∧ q1.width = 2 ∧ q1.offset = 1 ∧
      q1.yResource 2 = 9 ∧ q1.yResource 3 = 10 ∧ q1.wgt 1 = 5 ∧
      parts[0]? = some q0 ∧ q0.width = 2 ∧ q0.yResource 5 = 12 ∧ q0.wgt 0 = 1 ∧
      ∃ qd fb ft,
        readBlock false bf3 (bytesBefore 1 exWindowData .ALN_ALIGNMENT).length ⟨0, 0, 2⟩
          { (exWindowData.partitionData 0).asRead with width := 2, offset := 0 } =
          .ok (qd, fb) ∧
        readPerTaxon false bf3 (bytesBefore 1 exWindowData .ALN_ALIGNMENT).length ⟨0, 0, 2⟩
          { (exWindowData.partitionData 0).asRead with width := 2, offset := 0 } 0 =
          .ok (qd, ft) ∧
        q0 = { qd with wgt := q0.wgt } := by
  obtain ⟨bf1, bf2, bf3, bf4, parts, h1, h2, h3, h4, _, hp, hq⟩ :=
    tip_data_window_read 1 5 6 exWindowData exWindowData_inRange exWindowData_contiguous
      (fun i hi => by
        have hi' : i < 5 := hi
        have e : i = 0 ∨ i = 1 ∨ i = 2 ∨ i = 3 ∨ i = 4 := by omega
        rcases e with e | e | e | e | e <;> subst e <;> exact ⟨by decide, by decide⟩)
      (by decide)
      (fun m hm => by
        rw [exWindowData_models] at hm
        have e : m = 0 ∨ m = 1 := by omega
        rcases e with e | e <;> subst e <;> decide)
      exWindowFile rfl rfl rfl [⟨1, 1, 2⟩, ⟨0, 0, 2⟩] (by decide) (by decide) (by decide)
      (by decide)
  obtain ⟨q1, e1, w1, o1, y1, g1, _⟩ := hq ⟨1, 1, 2⟩ (by decide)
  obtain ⟨q0, e0, w0, _, y0, g0, b0⟩ := hq ⟨0, 0, 2⟩ (by decide)
  exact ⟨bf1, bf2, bf3, bf4, parts, q0, q1, h1, h2, h3, h4, hp, e1, w1, o1,
    y1 2 0 (by decide) (by decide) (by decide), y1 2 1 (by decide) (by decide) (by decide),
    g1 1 (by decide), e0, w0, y0 3 1 (by decide) (by decide) (by decide), g0 0 (by decide),
    b0 rfl 0⟩

end ExaML
